import Mathlib

/-!
# Loon: the virtual machine, the collector and the expression compiler

A shallow embedding of the C sources of the Loon interpreter.

* Heap pointers are addresses `Ref` into `VM.heap`; a freed or never allocated
  address holds `none`.  Dereferencing such an address is outside the C
  semantics; the embedding says at each place what it does there.
* The intrusive lists of the C code (`Obj.next`, `ObjUpvalue.next`) are kept as
  pointer fields.  A `while` loop over them is a function with a step budget:
  `none` means the budget ran out (or an ill-typed pointer was met).
* `Byte` is a natural number below 256, `int` counters are natural numbers.
* What a C function prints is not part of the state.
-/

namespace Loon

/-! ## Values and heap objects (value.h, object.h, chunk.h) -/

/-- Heap address of an object. -/
abbrev Ref := Nat

/-- Value of the language: `NIL_VAL`, `BOOL_VAL`, `NUMBER_VAL`, `OBJ_VAL`.  The payload of a
number stands for the double; no definition below inspects it. -/
inductive Value where
  | nil
  | bool (b : Bool)
  | number (n : Int)
  | obj (r : Ref)
  deriving DecidableEq, Repr

def IS_NIL (value : Value) : Bool :=
  match value with
  | .nil => true
  | _ => false

def IS_BOOL (value : Value) : Bool :=
  match value with
  | .bool _ => true
  | _ => false

def IS_NUMBER (value : Value) : Bool :=
  match value with
  | .number _ => true
  | _ => false

def IS_OBJ (value : Value) : Bool :=
  match value with
  | .obj _ => true
  | _ => false

/-- Tags of `ObjType` in object.h. -/
inductive ObjType where
  | OBJ_BOUND_METHOD
  | OBJ_CLASS
  | OBJ_CLOSURE
  | OBJ_FIBER
  | OBJ_FUNCTION
  | OBJ_INSTANCE
  | OBJ_LIST
  | OBJ_NATIVE
  | OBJ_STRING
  | OBJ_TABLE
  | OBJ_UPVALUE
  deriving DecidableEq, Repr

/-- Modelled from the spec: table.h and table.c are absent from the sources.  The spec
describes a string-keyed table (open addressing with tombstones); the embedding keeps its
live entries, keyed by the address of the interned key string. -/
abbrev Table := List (Ref × Value)

/-- Chunk of chunk.h: `count` is `code.length`. -/
structure Chunk where
  code : List Nat
  lines : List Nat
  constants : List Value
  deriving DecidableEq, Repr

/-- Target of `ObjUpvalue.location`: a slot of the fiber stack while the upvalue is open,
its own `closed` field afterwards. -/
inductive Loc where
  | stack (slot : Nat)
  | closed
  deriving DecidableEq, Repr

/-- CallFrame of object.h; `ip` is an offset into the code of the closure, `slots` an index
into the fiber stack. -/
structure CallFrame where
  closure : Ref
  ip : Nat
  slots : Nat
  deriving DecidableEq, Repr

/-- ObjFiber of object.h.  `frames` holds the `frameCount` live frames (innermost last),
`stack` is the whole value array and `stackTop` the index of the first free slot. -/
structure ObjFiber where
  id : Nat
  parent : Option Ref
  frames : List CallFrame
  stack : List Value
  stackTop : Nat
  openUpvalues : Option Ref
  deriving DecidableEq, Repr

/-- ObjFunction of object.h. -/
structure ObjFunction where
  arity : Nat
  upvalueCount : Nat
  chunk : Chunk
  name : Option Ref
  deriving DecidableEq, Repr

/-- Payload of a heap object, one constructor per struct of object.h. -/
inductive ObjData where
  | boundMethod (receiver : Value) (method : Ref)
  | klass (name : Ref) (methods : Table)
  | closure (function : Ref) (upvalues : List (Option Ref))
  | fiber (f : ObjFiber)
  | function (f : ObjFunction)
  | inst (klass : Ref) (fields : Table)
  | list (values : List Value) (capacity : Nat)
  | native (function : Nat)
  | string (chars : List Nat) (hash : Nat)
  | table (values : Table)
  | upvalue (location : Loc) (closed : Value) (next : Option Ref)
  deriving DecidableEq, Repr

/-- Header `struct Obj` (mark bit and allocation-list link) with the payload; the `type`
tag is read off the payload. -/
structure Obj where
  isMarked : Bool
  next : Option Ref
  data : ObjData
  deriving DecidableEq, Repr

def ObjData.type (d : ObjData) : ObjType :=
  match d with
  | .boundMethod _ _ => .OBJ_BOUND_METHOD
  | .klass _ _ => .OBJ_CLASS
  | .closure _ _ => .OBJ_CLOSURE
  | .fiber _ => .OBJ_FIBER
  | .function _ => .OBJ_FUNCTION
  | .inst _ _ => .OBJ_INSTANCE
  | .list _ _ => .OBJ_LIST
  | .native _ => .OBJ_NATIVE
  | .string _ _ => .OBJ_STRING
  | .table _ => .OBJ_TABLE
  | .upvalue _ _ _ => .OBJ_UPVALUE

/-- The heap: address `r` holds `heap[r]`. -/
abbrev Heap := List (Option Obj)

def heapGet (heap : Heap) (r : Ref) : Option Obj :=
  match heap[r]? with
  | some (some o) => some o
  | _ => none

/-- Strings of constants.inc that the machine itself uses (constants.inc is absent; the
names are those vm.c refers to) and the remaining ones. -/
structure Constants where
  strInit_ : Ref
  strListClass_ : Ref
  strTableClass_ : Ref
  strData_ : Ref
  others : List Ref
  deriving DecidableEq, Repr

def Constants.all (c : Constants) : List Ref :=
  c.strInit_ :: c.strListClass_ :: c.strTableClass_ :: c.strData_ :: c.others

/-- The global `vm_` of vm.h together with the heap it owns.  `current` is the fiber
`vm_.current` points to: initVM allocates it before it clears `vm_.objects`, so it is not
on the allocation list, and no source line assigns `vm_.current` again.  `compilerRoots`
lists `compiler->function` along the chain that starts at `current_` of compiler.c, and
`constants` are the globals declared through constants.inc. -/
structure VM where
  current : ObjFiber
  globals : Table
  strings : Table
  bytesAllocated : Nat
  nextGC : Nat
  objects : Option Ref
  grayStack : List Ref
  heap : Heap
  compilerRoots : List Ref
  constants : Constants
  deriving DecidableEq, Repr

/-- What the C platform and the host fix: `sizeofObj` is `sizeof` of each object struct,
`ownedBytes` what freeObject releases besides the struct itself, `sizeofPtr` the size of a
pointer, `native` the behaviour of the function a native object points to, given
`argCount` and the stack index of the first argument, and `strtod` the number the C library
reads from the text of a number token.  `sizeofValue` is `sizeof(Value)` and `growCapacity`
the macro GROW_CAPACITY of the absent memory.h.  The remaining fields are the arithmetic of
`double` on the payloads of numbers: `+`, `-`, `*`, `/`, unary `-`, `>`, `<` and `==`. -/
structure Host where
  sizeofObj : ObjType → Nat
  ownedBytes : ObjData → Nat
  sizeofPtr : Nat
  native : Nat → Nat → Nat → VM → Option (Value × VM)
  strtod : List Nat → Int
  sizeofValue : Nat
  growCapacity : Nat → Nat
  numAdd : Int → Int → Int
  numSub : Int → Int → Int
  numMul : Int → Int → Int
  numDiv : Int → Int → Int
  numNeg : Int → Int
  numGreater : Int → Int → Bool
  numLess : Int → Int → Bool
  numEqual : Int → Int → Bool

/-! ## Tables (modelled from the spec) -/

/-- Modelled from the spec: tableGet of the absent table.c, the value stored under `key`. -/
def tableGet (table : Table) (key : Ref) : Option Value :=
  table.lookup key

/-- Modelled from the spec: tableSet of the absent table.c; the flag tells whether the key
is new. -/
def tableSet (table : Table) (key : Ref) (value : Value) : Table × Bool :=
  match table.lookup key with
  | some _ => (table.map (fun e => if e.1 = key then (key, value) else e), false)
  | none => (table ++ [(key, value)], true)

/-- Modelled from the spec: tableFindString of the absent table.c, the interned string with
the given bytes and hash (the lookup "by (bytes, hash)" of the spec). -/
def tableFindString (heap : Heap) (table : Table) (chars : List Nat) (hash : Nat) :
    Option Ref :=
  match table with
  | [] => none
  | e :: rest =>
    match heapGet heap e.1 with
    | some o =>
      match o.data with
      | .string cs h =>
        if cs.length = chars.length ∧ h = hash ∧ cs = chars then some e.1
        else tableFindString heap rest chars hash
      | _ => tableFindString heap rest chars hash
    | none => tableFindString heap rest chars hash

/-- Modelled from the spec: tableRemoveWhite of the absent table.c ("remove entries from the
intern table whose key object is unmarked"). -/
def tableRemoveWhite (heap : Heap) (table : Table) : Table :=
  table.filter (fun e =>
    match heapGet heap e.1 with
    | some o => o.isMarked
    | none => false)

/-! ## Marking (memory.c) -/

/-- markObject: a NULL pointer and a marked object are left alone; otherwise the object is
marked and pushed on the gray stack.  An address that holds no object is treated like
NULL. -/
def markObject (vm : VM) (object : Option Ref) : VM :=
  match object with
  | none => vm
  | some r =>
    match heapGet vm.heap r with
    | none => vm
    | some o =>
      if o.isMarked then vm
      else
        { vm with
          heap := vm.heap.set r (some { o with isMarked := true })
          grayStack := r :: vm.grayStack }

def markValue (vm : VM) (value : Value) : VM :=
  match value with
  | .obj r => markObject vm (some r)
  | _ => vm

def markArray (vm : VM) (array : List Value) : VM :=
  array.foldl markValue vm

/-- Modelled from the spec: markTable of the absent table.c marks the key and the value of
every entry. -/
def markTable (vm : VM) (table : Table) : VM :=
  table.foldl (fun v e => markValue (markObject v (some e.1)) e.2) vm

/-- The third loop of markFiber: walk the open-upvalue list and mark each node. -/
def markOpenUpvalues : Nat → VM → Option Ref → Option VM
  | _, vm, none => some vm
  | 0, _, some _ => none
  | fuel + 1, vm, some r =>
    match heapGet vm.heap r with
    | some o =>
      match o.data with
      | .upvalue _ _ next => markOpenUpvalues fuel (markObject vm (some r)) next
      | _ => none
    | none => none

/-- markFiber for a fiber that is not NULL: the stack below stackTop, the closure of every
frame, the open upvalues. -/
def markFiber (vm : VM) (fiber : ObjFiber) : Option VM :=
  let vm1 := markArray vm (fiber.stack.take fiber.stackTop)
  let vm2 := fiber.frames.foldl (fun v fr => markObject v (some fr.closure)) vm1
  markOpenUpvalues (vm.heap.length + 1) vm2 fiber.openUpvalues

def blackenObject (vm : VM) (object : Ref) : Option VM :=
  match heapGet vm.heap object with
  | none => some vm
  | some o =>
    match o.data with
    | .boundMethod receiver method => some (markObject (markValue vm receiver) (some method))
    | .klass name methods => some (markTable (markObject vm (some name)) methods)
    | .closure function upvalues =>
      some (upvalues.foldl markObject (markObject vm (some function)))
    | .fiber f => markFiber vm f
    | .function f => some (markArray (markObject vm f.name) f.chunk.constants)
    | .inst klass fields => some (markTable (markObject vm (some klass)) fields)
    | .upvalue _ closed _ => some (markValue vm closed)
    | .list values _ => some (markArray vm values)
    | .table values => some (markTable vm values)
    | .native _ => some vm
    | .string _ _ => some vm

/-- markCompilerRoots of compiler.c. -/
def markCompilerRoots (vm : VM) : VM :=
  vm.compilerRoots.foldl (fun v r => markObject v (some r)) vm

/-- markConstants of constants.c. -/
def markConstants (vm : VM) : VM :=
  vm.constants.all.foldl (fun v r => markObject v (some r)) vm

def markRoots (vm : VM) : Option VM :=
  match markFiber vm vm.current with
  | none => none
  | some vm1 => some (markConstants (markCompilerRoots (markTable vm1 vm1.globals)))

def traceReferences : Nat → VM → Option VM
  | 0, vm =>
    match vm.grayStack with
    | [] => some vm
    | _ :: _ => none
  | fuel + 1, vm =>
    match vm.grayStack with
    | [] => some vm
    | object :: rest =>
      match blackenObject { vm with grayStack := rest } object with
      | none => none
      | some vm1 => traceReferences fuel vm1

/-! ## Sweep and collection (memory.c) -/

/-- Width of `size_t` arithmetic on `bytesAllocated`. -/
def SIZE_MOD : Nat := 2 ^ 64

/-- The statement `vm_.bytesAllocated += newSize - oldSize` of reallocate, in `size_t`. -/
def accountBytes (bytes oldSize newSize : Nat) : Nat :=
  (bytes + newSize % SIZE_MOD + (SIZE_MOD - oldSize % SIZE_MOD)) % SIZE_MOD

/-- freeObject: the object and what it owns are released through FREE and FREE_ARRAY, that
is through reallocate with new size 0, which only lowers `bytesAllocated`. -/
def freeObject (H : Host) (vm : VM) (object : Ref) : VM :=
  match heapGet vm.heap object with
  | none => vm
  | some o =>
    { vm with
      heap := vm.heap.set object none
      bytesAllocated :=
        accountBytes vm.bytesAllocated (H.sizeofObj o.data.type + H.ownedBytes o.data) 0 }

/-- The loop of sweep, with the locals `previous` and `object`. -/
def sweepLoop (H : Host) : Nat → VM → Option Ref → Option Ref → Option VM
  | _, vm, _, none => some vm
  | 0, _, _, some _ => none
  | fuel + 1, vm, previous, some object =>
    match heapGet vm.heap object with
    | none => none
    | some o =>
      if o.isMarked then
        sweepLoop H fuel
          { vm with heap := vm.heap.set object (some { o with isMarked := false }) }
          (some object) o.next
      else
        let vm1 : VM :=
          match previous with
          | some p =>
            match heapGet vm.heap p with
            | some po => { vm with heap := vm.heap.set p (some { po with next := o.next }) }
            | none => vm
          | none => { vm with objects := o.next }
        sweepLoop H fuel (freeObject H vm1 object) previous o.next

def sweep (H : Host) (vm : VM) : Option VM :=
  sweepLoop H (vm.heap.length + 1) vm none vm.objects

def GC_HEAP_GROW_FACTOR : Nat := 2

def collectGarbage (H : Host) (vm : VM) : Option VM :=
  match markRoots vm with
  | none => none
  | some vm1 =>
    match traceReferences (vm1.heap.length + vm1.grayStack.length + 1) vm1 with
    | none => none
    | some vm2 =>
      match sweep H { vm2 with strings := tableRemoveWhite vm2.heap vm2.strings } with
      | none => none
      | some vm3 =>
        some { vm3 with nextGC := (vm3.bytesAllocated * GC_HEAP_GROW_FACTOR) % SIZE_MOD }

/-- The accounting and the collection trigger of reallocate (the block it returns is the
business of its callers). -/
def reallocate (H : Host) (vm : VM) (oldSize newSize : Nat) : Option VM :=
  let vm1 : VM := { vm with bytesAllocated := accountBytes vm.bytesAllocated oldSize newSize }
  if newSize > oldSize ∧ vm1.bytesAllocated > vm1.nextGC then collectGarbage H vm1
  else some vm1

/-! ## Allocation (object.c) -/

/-- allocateObject: a fresh address, unmarked, linked in front of the allocation list.  The
payload is what the caller stores right after ALLOCATE_OBJ returns. -/
def allocateObject (H : Host) (vm : VM) (data : ObjData) : Option (VM × Ref) :=
  match reallocate H vm 0 (H.sizeofObj data.type) with
  | none => none
  | some vm1 =>
    some ({ vm1 with
            heap := vm1.heap ++ [some { isMarked := false, next := vm1.objects, data := data }]
            objects := some vm1.heap.length },
          vm1.heap.length)

def newInstance (H : Host) (vm : VM) (klass : Ref) : Option (VM × Ref) :=
  allocateObject H vm (.inst klass [])

def newUpvalue (H : Host) (vm : VM) (slot : Nat) : Option (VM × Ref) :=
  allocateObject H vm (.upvalue (.stack slot) .nil none)

def resetStack (fiber : ObjFiber) : ObjFiber :=
  { fiber with frames := [], stackTop := 0, openUpvalues := none }

/-! ## The value stack (vm.c) -/

def push (vm : VM) (value : Value) : VM :=
  { vm with
    current :=
      { vm.current with
        stack := vm.current.stack.set vm.current.stackTop value
        stackTop := vm.current.stackTop + 1 } }

def pop (vm : VM) : Value × VM :=
  let vm1 : VM := { vm with current := { vm.current with stackTop := vm.current.stackTop - 1 } }
  (vm1.current.stack.getD vm1.current.stackTop .nil, vm1)

def peek (vm : VM) (distance : Nat) : Value :=
  vm.current.stack.getD (vm.current.stackTop - 1 - distance) .nil

/-- The assignment `vm_.current->stackTop[-argCount - 1] = value`. -/
def setCallee (vm : VM) (argCount : Nat) (value : Value) : VM :=
  { vm with
    current :=
      { vm.current with
        stack := vm.current.stack.set (vm.current.stackTop - argCount - 1) value } }

/-- runtimeError: the message and the trace go to stderr, then the fiber is reset. -/
def runtimeError (vm : VM) : VM :=
  { vm with current := resetStack vm.current }

/-! ## Strings (object.c) -/

/-- FNV-1a over the bytes of the key, in 32 bits. -/
def hashString (key : List Nat) : Nat :=
  key.foldl (fun hash c => ((hash ^^^ (c % 256)) * 16777619) % 2 ^ 32) 2166136261

def allocateString (H : Host) (vm : VM) (chars : List Nat) (hash : Nat) : Option (VM × Ref) :=
  match allocateObject H vm (.string chars hash) with
  | none => none
  | some (vm1, string) =>
    let vm2 := push vm1 (.obj string)
    let vm3 : VM := { vm2 with strings := (tableSet vm2.strings string .nil).1 }
    some ((pop vm3).2, string)

def takeString (H : Host) (vm : VM) (chars : List Nat) : Option (VM × Ref) :=
  let hash := hashString chars
  match tableFindString vm.heap vm.strings chars hash with
  | some interned =>
    match reallocate H vm (chars.length + 1) 0 with
    | none => none
    | some vm1 => some (vm1, interned)
  | none => allocateString H vm chars hash

def copyString (H : Host) (vm : VM) (chars : List Nat) : Option (VM × Ref) :=
  let hash := hashString chars
  match tableFindString vm.heap vm.strings chars hash with
  | some interned => some (vm, interned)
  | none =>
    match reallocate H vm 0 (chars.length + 1) with
    | none => none
    | some vm1 => allocateString H vm1 chars hash

/-! ## Calls (vm.c) -/

def FRAMES_MAX : Nat := 64

/-- call; `none` when `closure` is not the address of a closure over a function. -/
def call (vm : VM) (closure : Ref) (argCount : Nat) : Option (Bool × VM) :=
  match heapGet vm.heap closure with
  | none => none
  | some c =>
    match c.data with
    | .closure function _ =>
      match heapGet vm.heap function with
      | none => none
      | some fo =>
        match fo.data with
        | .function f =>
          if argCount ≠ f.arity then some (false, runtimeError vm)
          else if vm.current.frames.length = FRAMES_MAX then some (false, runtimeError vm)
          else
            some (true,
              { vm with
                current :=
                  { vm.current with
                    frames := vm.current.frames ++
                      [{ closure := closure, ip := 0,
                         slots := vm.current.stackTop - argCount - 1 }] } })
        | _ => none
    | _ => none

/-- AS_CLOSURE applied to a value that is an object. -/
def callClosureValue (vm : VM) (v : Value) (argCount : Nat) : Option (Bool × VM) :=
  match v with
  | .obj r => call vm r argCount
  | _ => none

/-- callValue.  Each self-call of the last line costs one unit of `fuel`; `none` is
"no result". -/
def callValue (H : Host) : Nat → VM → Value → Nat → Option (Bool × VM)
  | 0, _, _, _ => none
  | fuel + 1, vm, callee, argCount =>
    match callee with
    | .obj r =>
      match heapGet vm.heap r with
      | none => none
      | some o =>
        match o.data with
        | .boundMethod receiver method => call (setCallee vm argCount receiver) method argCount
        | .klass _ _ =>
          match newInstance H vm r with
          | none => none
          | some (vm1, inst) =>
            let vm2 := setCallee vm1 argCount (.obj inst)
            match heapGet vm2.heap r with
            | none => none
            | some k =>
              match k.data with
              | .klass _ methods =>
                match tableGet methods vm2.constants.strInit_ with
                | some initializer => callClosureValue vm2 initializer argCount
                | none =>
                  if argCount ≠ 0 then some (false, runtimeError vm2) else some (true, vm2)
              | _ => none
        | .closure _ _ => call vm r argCount
        | .native function =>
          match H.native function argCount (vm.current.stackTop - argCount) vm with
          | none => none
          | some (result, vm1) =>
            some (true,
              push { vm1 with
                     current :=
                       { vm1.current with
                         stackTop := vm1.current.stackTop - (argCount + 1) } } result)
        | _ => callValue H fuel vm callee argCount
    | _ => callValue H fuel vm callee argCount

def isObjType (vm : VM) (value : Value) (type : ObjType) : Bool :=
  match value with
  | .obj r =>
    match heapGet vm.heap r with
    | some o => o.data.type = type
    | none => false
  | _ => false

def invokeFromClass (vm : VM) (klass : Ref) (name : Ref) (argCount : Nat) :
    Option (Bool × VM) :=
  match heapGet vm.heap klass with
  | none => none
  | some k =>
    match k.data with
    | .klass _ methods =>
      match tableGet methods name with
      | none => some (false, runtimeError vm)
      | some method => callClosureValue vm method argCount
    | _ => none

def invoke (H : Host) (fuel : Nat) (vm : VM) (name : Ref) (argCount : Nat) :
    Option (Bool × VM) :=
  let receiver := peek vm argCount
  if ¬ isObjType vm receiver .OBJ_INSTANCE then some (false, runtimeError vm)
  else
    match receiver with
    | .obj r =>
      match heapGet vm.heap r with
      | none => none
      | some o =>
        match o.data with
        | .inst klass fields =>
          match tableGet fields name with
          | some value => callValue H fuel (setCallee vm argCount value) value argCount
          | none => invokeFromClass vm klass name argCount
        | _ => none
    | _ => none

/-! ## Upvalues (vm.c) -/

/-- The while loop of captureUpvalue; the result is the pair (prevUpvalue, upvalue) it
ends with.  A node whose location is not a stack slot cannot be compared with `local`. -/
def captureUpvalueLoop (heap : Heap) (local_ : Nat) :
    Nat → Option Ref → Option Ref → Option (Option Ref × Option Ref)
  | _, prevUpvalue, none => some (prevUpvalue, none)
  | 0, _, some _ => none
  | fuel + 1, prevUpvalue, some upvalue =>
    match heapGet heap upvalue with
    | none => none
    | some o =>
      match o.data with
      | .upvalue (.stack slot) _ next =>
        if slot > local_ then captureUpvalueLoop heap local_ fuel (some upvalue) next
        else some (prevUpvalue, some upvalue)
      | _ => none

/-- The test `upvalue != NULL && upvalue->location == local`. -/
def upvalueIsAt (heap : Heap) (upvalue : Option Ref) (local_ : Nat) : Bool :=
  match upvalue with
  | none => false
  | some r =>
    match heapGet heap r with
    | some o =>
      match o.data with
      | .upvalue (.stack slot) _ _ => slot = local_
      | _ => false
    | none => false

/-- The assignment `upvalue->next = next`. -/
def setUpvalueNext (vm : VM) (upvalue : Ref) (next : Option Ref) : Option VM :=
  match heapGet vm.heap upvalue with
  | none => none
  | some o =>
    match o.data with
    | .upvalue location closed _ =>
      some { vm with
             heap := vm.heap.set upvalue (some { o with data := .upvalue location closed next }) }
    | _ => none

def captureUpvalue (H : Host) (vm : VM) (local_ : Nat) : Option (VM × Ref) :=
  match captureUpvalueLoop vm.heap local_ (vm.heap.length + 1) none vm.current.openUpvalues with
  | none => none
  | some (prevUpvalue, upvalue) =>
    match upvalue, upvalueIsAt vm.heap upvalue local_ with
    | some found, true => some (vm, found)
    | _, _ =>
      match newUpvalue H vm local_ with
      | none => none
      | some (vm1, createdUpvalue) =>
        match setUpvalueNext vm1 createdUpvalue upvalue with
        | none => none
        | some vm2 =>
          match prevUpvalue with
          | none =>
            some ({ vm2 with current := { vm2.current with openUpvalues := some createdUpvalue } },
                  createdUpvalue)
          | some p =>
            match setUpvalueNext vm2 p (some createdUpvalue) with
            | none => none
            | some vm3 => some (vm3, createdUpvalue)

/-- One test of the loop condition of closeUpvalues and, when it holds, one run of the
body: `some none` when the loop is over, `some (some vm1)` after the body, `none` when the
head of the list is not an open upvalue. -/
def closeUpvaluesStep (vm : VM) (last : Nat) : Option (Option VM) :=
  match vm.current.openUpvalues with
  | none => some none
  | some upvalue =>
    match heapGet vm.heap upvalue with
    | none => none
    | some o =>
      match o.data with
      | .upvalue (.stack slot) _ next =>
        if slot ≥ last then
          some (some
            { vm with
              heap := vm.heap.set upvalue
                (some { o with data := .upvalue .closed (vm.current.stack.getD slot .nil) next })
              current := { vm.current with openUpvalues := next } })
        else some none
      | _ => none

def closeUpvaluesLoop : Nat → VM → Nat → Option VM
  | 0, vm, last =>
    match closeUpvaluesStep vm last with
    | some none => some vm
    | _ => none
  | fuel + 1, vm, last =>
    match closeUpvaluesStep vm last with
    | none => none
    | some none => some vm
    | some (some vm1) => closeUpvaluesLoop fuel vm1 last

def closeUpvalues (vm : VM) (last : Nat) : Option VM :=
  closeUpvaluesLoop (vm.heap.length + 1) vm last

/-! ## The instruction OP_RETURN (vm.c, runSingle) -/

inductive InterpretResult where
  | INTERPRET_CONTINUE
  | INTERPRET_OK
  | INTERPRET_COMPILE_ERROR
  | INTERPRET_RUNTIME_ERROR
  deriving DecidableEq, Repr

/-- The case OP_RETURN of runSingle.  `*framePtr` is the innermost frame: run sets it so
before the first instruction and every call and return sets it again. -/
def runSingle_OP_RETURN (vm : VM) : Option (InterpretResult × VM) :=
  match vm.current.frames.getLast? with
  | none => none
  | some frame =>
    let (result, vm1) := pop vm
    match closeUpvalues vm1 frame.slots with
    | none => none
    | some vm2 =>
      let vm3 : VM :=
        { vm2 with current := { vm2.current with frames := vm2.current.frames.dropLast } }
      if vm3.current.frames.length = 0 then some (.INTERPRET_OK, (pop vm3).2)
      else
        some (.INTERPRET_CONTINUE,
          push { vm3 with current := { vm3.current with stackTop := frame.slots } } result)

/-! ## Opcodes (chunk.h) and the disassembler (debug.c) -/

inductive OpCode where
  | OP_ADD
  | OP_CALL
  | OP_CALL_POSTFIX
  | OP_CLASS
  | OP_CLOSURE
  | OP_COLLECTION_LIST
  | OP_COLLECTION_TABLE
  | OP_CONSTANT
  | OP_DIVIDE
  | OP_EQUAL
  | OP_FALSE
  | OP_GLOBAL_DEFINE
  | OP_GLOBAL_GET
  | OP_GLOBAL_SET
  | OP_GREATER
  | OP_INHERIT
  | OP_INVOKE
  | OP_INVOKE_SUPER
  | OP_JUMP
  | OP_JUMP_IF_FALSE
  | OP_LESS
  | OP_LOCAL_GET
  | OP_LOCAL_SET
  | OP_LOOP
  | OP_METHOD
  | OP_MULTIPLY
  | OP_NEGATE
  | OP_NIL
  | OP_NOT
  | OP_POP
  | OP_PROPERTY_GET
  | OP_PROPERTY_SET
  | OP_RETURN
  | OP_SUBTRACT
  | OP_TRUE
  | OP_UPVALUE_CLOSE
  | OP_UPVALUE_GET
  | OP_UPVALUE_SET
  | UP_SUPER_GET
  deriving DecidableEq, Repr

/-- The enumerators of OpCode in declaration order: the byte of an opcode is its index. -/
def opCodes : List OpCode :=
  [.OP_ADD, .OP_CALL, .OP_CALL_POSTFIX, .OP_CLASS, .OP_CLOSURE, .OP_COLLECTION_LIST,
   .OP_COLLECTION_TABLE, .OP_CONSTANT, .OP_DIVIDE, .OP_EQUAL, .OP_FALSE, .OP_GLOBAL_DEFINE,
   .OP_GLOBAL_GET, .OP_GLOBAL_SET, .OP_GREATER, .OP_INHERIT, .OP_INVOKE, .OP_INVOKE_SUPER,
   .OP_JUMP, .OP_JUMP_IF_FALSE, .OP_LESS, .OP_LOCAL_GET, .OP_LOCAL_SET, .OP_LOOP, .OP_METHOD,
   .OP_MULTIPLY, .OP_NEGATE, .OP_NIL, .OP_NOT, .OP_POP, .OP_PROPERTY_GET, .OP_PROPERTY_SET,
   .OP_RETURN, .OP_SUBTRACT, .OP_TRUE, .OP_UPVALUE_CLOSE, .OP_UPVALUE_GET, .OP_UPVALUE_SET,
   .UP_SUPER_GET]

def OpCode.ofByte (b : Nat) : Option OpCode := opCodes[b]?

def OpCode.toByte (op : OpCode) : Nat := opCodes.indexOf op

def constantInstruction (offset : Nat) : Nat := offset + 2

def invokeInstruction (offset : Nat) : Nat := offset + 3

def simpleInstruction (offset : Nat) : Nat := offset + 1

def byteInstruction (offset : Nat) : Nat := offset + 2

def jumpInstruction (offset : Nat) : Nat := offset + 3

/-- closureInstruction: `offset++`, the constant byte, then two bytes for each upvalue of
the function constant; `none` when that constant is not a function. -/
def closureInstruction (heap : Heap) (chunk : Chunk) (offset : Nat) : Option Nat :=
  let offset1 := offset + 1
  let constant := chunk.code.getD offset1 0
  let offset2 := offset1 + 1
  match chunk.constants.getD constant .nil with
  | .obj r =>
    match heapGet heap r with
    | some o =>
      match o.data with
      | .function f => some ((List.range f.upvalueCount).foldl (fun off _ => off + 1 + 1) offset2)
      | _ => none
    | none => none
  | _ => none

/-- disassembleInstruction: the offset of the next instruction (the text it prints is not
modelled). -/
def disassembleInstruction (heap : Heap) (chunk : Chunk) (offset : Nat) : Option Nat :=
  match OpCode.ofByte (chunk.code.getD offset 0) with
  | some .OP_ADD => some (simpleInstruction offset)
  | some .OP_CALL => some (byteInstruction offset)
  | some .OP_CALL_POSTFIX => some (byteInstruction offset)
  | some .OP_CLASS => some (constantInstruction offset)
  | some .OP_CLOSURE => closureInstruction heap chunk offset
  | some .OP_COLLECTION_LIST => some (simpleInstruction offset)
  | some .OP_COLLECTION_TABLE => some (simpleInstruction offset)
  | some .OP_CONSTANT => some (constantInstruction offset)
  | some .OP_DIVIDE => some (simpleInstruction offset)
  | some .OP_EQUAL => some (simpleInstruction offset)
  | some .OP_FALSE => some (simpleInstruction offset)
  | some .OP_GLOBAL_DEFINE => some (constantInstruction offset)
  | some .OP_GLOBAL_GET => some (constantInstruction offset)
  | some .OP_GLOBAL_SET => some (constantInstruction offset)
  | some .OP_GREATER => some (simpleInstruction offset)
  | some .OP_INHERIT => some (simpleInstruction offset)
  | some .OP_INVOKE => some (invokeInstruction offset)
  | some .OP_INVOKE_SUPER => some (invokeInstruction offset)
  | some .OP_JUMP => some (jumpInstruction offset)
  | some .OP_JUMP_IF_FALSE => some (jumpInstruction offset)
  | some .OP_LESS => some (simpleInstruction offset)
  | some .OP_LOCAL_GET => some (byteInstruction offset)
  | some .OP_LOCAL_SET => some (byteInstruction offset)
  | some .OP_LOOP => some (jumpInstruction offset)
  | some .OP_METHOD => some (constantInstruction offset)
  | some .OP_MULTIPLY => some (simpleInstruction offset)
  | some .OP_NEGATE => some (simpleInstruction offset)
  | some .OP_NIL => some (simpleInstruction offset)
  | some .OP_NOT => some (simpleInstruction offset)
  | some .OP_POP => some (simpleInstruction offset)
  | some .OP_PROPERTY_GET => some (constantInstruction offset)
  | some .OP_PROPERTY_SET => some (constantInstruction offset)
  | some .OP_RETURN => some (simpleInstruction offset)
  | some .OP_SUBTRACT => some (simpleInstruction offset)
  | some .OP_TRUE => some (simpleInstruction offset)
  | some .OP_UPVALUE_CLOSE => some (simpleInstruction offset)
  | some .OP_UPVALUE_GET => some (byteInstruction offset)
  | some .OP_UPVALUE_SET => some (byteInstruction offset)
  | some .UP_SUPER_GET => some (constantInstruction offset)
  | none => some (offset + 1)

/-! ## Operand fetch of the interpreter (vm.c, run and runSingle) -/

/-- readByte: the byte under `ip`, and `ip` moved on by one. -/
def readByte (chunk : Chunk) (ip : Nat) : Nat × Nat :=
  (chunk.code.getD ip 0, ip + 1)

/-- READ_SHORT: `ip += 2`, then the two bytes before `ip`, big-endian, as uint16_t. -/
def READ_SHORT (chunk : Chunk) (ip : Nat) : Nat × Nat :=
  let ip1 := ip + 2
  (((chunk.code.getD (ip1 - 2) 0) * 2 ^ 8 ||| chunk.code.getD (ip1 - 1) 0) % 2 ^ 16, ip1)

/-- The value of `ip` after the operand reads of the case of runSingle for `instruction`,
entered with `ip` just behind the opcode byte: one readByte for each readByte,
READ_CONSTANT and READ_STRING of the case, one READ_SHORT for each READ_SHORT, in the order
of the source; for OP_CLOSURE the constant, then `closure->upvalueCount` pairs, where
newClosure has copied the count from the function constant.  Moves of `ip` that are not
reads (a taken jump, a call, a return) are left out, and so is a return with a runtime
error ahead of a read. -/
def runSingleReads (heap : Heap) (chunk : Chunk) (ip : Nat) (instruction : Nat) : Option Nat :=
  match OpCode.ofByte instruction with
  | some .OP_ADD => some ip
  | some .OP_CALL => some (readByte chunk ip).2
  | some .OP_CALL_POSTFIX => some (readByte chunk ip).2
  | some .OP_CLASS => some (readByte chunk ip).2
  | some .OP_CLOSURE =>
    let (constant, ip1) := readByte chunk ip
    match chunk.constants.getD constant .nil with
    | .obj r =>
      match heapGet heap r with
      | some o =>
        match o.data with
        | .function f =>
          some ((List.range f.upvalueCount).foldl
            (fun i _ => (readByte chunk (readByte chunk i).2).2) ip1)
        | _ => none
      | none => none
    | _ => none
  | some .OP_COLLECTION_LIST => some (readByte chunk ip).2
  | some .OP_COLLECTION_TABLE => some (readByte chunk ip).2
  | some .OP_CONSTANT => some (readByte chunk ip).2
  | some .OP_DIVIDE => some ip
  | some .OP_EQUAL => some ip
  | some .OP_FALSE => some ip
  | some .OP_GLOBAL_DEFINE => some (readByte chunk ip).2
  | some .OP_GLOBAL_GET => some (readByte chunk ip).2
  | some .OP_GLOBAL_SET => some (readByte chunk ip).2
  | some .OP_GREATER => some ip
  | some .OP_INHERIT => some ip
  | some .OP_INVOKE => some (readByte chunk (readByte chunk ip).2).2
  | some .OP_INVOKE_SUPER => some (readByte chunk (readByte chunk ip).2).2
  | some .OP_JUMP => some (READ_SHORT chunk ip).2
  | some .OP_JUMP_IF_FALSE => some (READ_SHORT chunk ip).2
  | some .OP_LESS => some ip
  | some .OP_LOCAL_GET => some (readByte chunk ip).2
  | some .OP_LOCAL_SET => some (readByte chunk ip).2
  | some .OP_LOOP => some (READ_SHORT chunk ip).2
  | some .OP_METHOD => some (readByte chunk ip).2
  | some .OP_MULTIPLY => some ip
  | some .OP_NEGATE => some ip
  | some .OP_NIL => some ip
  | some .OP_NOT => some ip
  | some .OP_POP => some ip
  | some .OP_PROPERTY_GET => some (readByte chunk ip).2
  | some .OP_PROPERTY_SET => some (readByte chunk ip).2
  | some .OP_RETURN => some ip
  | some .OP_SUBTRACT => some ip
  | some .OP_TRUE => some ip
  | some .OP_UPVALUE_CLOSE => some ip
  | some .OP_UPVALUE_GET => some (readByte chunk ip).2
  | some .OP_UPVALUE_SET => some (readByte chunk ip).2
  | some .UP_SUPER_GET => some (readByte chunk ip).2
  | none => some ip

/-- Bytes one turn of the loop of run consumes for the instruction at `offset`: the
readByte that fetches the opcode, then the reads of runSingle. -/
def dispatchAdvance (heap : Heap) (chunk : Chunk) (offset : Nat) : Option Nat :=
  let (instruction, ip) := readByte chunk offset
  match runSingleReads heap chunk ip instruction with
  | some ip1 => some (ip1 - offset)
  | none => none

/-- The byte under the `ip` of the innermost frame, with that `ip` moved on by one
(readByte applied to `framePtr`). -/
def fetchByte (vm : VM) : Option (Nat × VM) :=
  match vm.current.frames.getLast? with
  | none => none
  | some frame =>
    match heapGet vm.heap frame.closure with
    | none => none
    | some c =>
      match c.data with
      | .closure function _ =>
        match heapGet vm.heap function with
        | none => none
        | some fo =>
          match fo.data with
          | .function f =>
            some ((readByte f.chunk frame.ip).1,
              { vm with
                current :=
                  { vm.current with
                    frames := vm.current.frames.dropLast ++
                      [{ frame with ip := (readByte f.chunk frame.ip).2 }] } })
          | _ => none
      | _ => none

/-- The case OP_CALL of runSingle. -/
def runSingle_OP_CALL (H : Host) (fuel : Nat) (vm : VM) : Option (InterpretResult × VM) :=
  match fetchByte vm with
  | none => none
  | some (argCount, vm1) =>
    match callValue H fuel vm1 (peek vm1 argCount) argCount with
    | none => none
    | some (false, vm2) => some (.INTERPRET_RUNTIME_ERROR, vm2)
    | some (true, vm2) => some (.INTERPRET_CONTINUE, vm2)

/-- The case OP_INVOKE of runSingle: READ_STRING, readByte, invoke. -/
def runSingle_OP_INVOKE (H : Host) (fuel : Nat) (vm : VM) : Option (InterpretResult × VM) :=
  match vm.current.frames.getLast? with
  | none => none
  | some frame =>
    match fetchByte vm with
    | none => none
    | some (constant, vm1) =>
      match heapGet vm.heap frame.closure with
      | none => none
      | some c =>
        match c.data with
        | .closure function _ =>
          match heapGet vm.heap function with
          | none => none
          | some fo =>
            match fo.data with
            | .function f =>
              match f.chunk.constants.getD constant .nil with
              | .obj method =>
                match fetchByte vm1 with
                | none => none
                | some (argCount, vm2) =>
                  match invoke H fuel vm2 method argCount with
                  | none => none
                  | some (false, vm3) => some (.INTERPRET_RUNTIME_ERROR, vm3)
                  | some (true, vm3) => some (.INTERPRET_CONTINUE, vm3)
              | _ => none
            | _ => none
        | _ => none

/-! ## Example states -/

/-- A host in which every struct and every value has size 8, a closure owns its array of
pointers, a string its bytes and a list its array of values, no native function is
installed, strtod reads the leading decimal digits, arrays grow to 8 slots and then double,
and numbers are integers small enough for `double` to be exact on them (the quotient is
the integer quotient). -/
def exampleHost : Host :=
  { sizeofObj := fun _ => 8
    ownedBytes := fun data =>
      match data with
      | .closure _ upvalues => 8 * upvalues.length
      | .string chars _ => chars.length + 1
      | .list _ capacity => 8 * capacity
      | _ => 0
    sizeofPtr := 8
    native := fun _ _ _ _ => none
    strtod := fun text =>
      ((text.takeWhile (fun c => decide (48 ≤ c ∧ c ≤ 57))).foldl
        (fun n c => 10 * n + (c - 48)) 0 : Nat)
    sizeofValue := 8
    growCapacity := fun capacity => if capacity < 8 then 8 else capacity * 2
    numAdd := fun a b => a + b
    numSub := fun a b => a - b
    numMul := fun a b => a * b
    numDiv := fun a b => a / b
    numNeg := fun a => -a
    numGreater := fun a b => decide (a > b)
    numLess := fun a b => decide (a < b)
    numEqual := fun a b => decide (a = b) }

def emptyFiber : ObjFiber :=
  { id := 0, parent := none, frames := [], stack := List.replicate 8 .nil, stackTop := 0,
    openUpvalues := none }

/-- A machine with an empty heap and a stack of eight slots. -/
def emptyVM : VM :=
  { current := emptyFiber, globals := [], strings := [], bytesAllocated := 0,
    nextGC := 1024 * 1024, objects := none, grayStack := [], heap := [], compilerRoots := [],
    constants := { strInit_ := 0, strListClass_ := 0, strTableClass_ := 0, strData_ := 0,
                   others := [] } }

/-! ## Linked lists in the heap -/

/-- `chainTo nxt head l tail`: following the link `nxt` from `head` visits exactly the nodes
`l`, in this order, and the link of the last one is `tail` (`nxt r = none` when `r` is not a
node at all). -/
def chainTo (nxt : Ref → Option (Option Ref)) : Option Ref → List Ref → Option Ref → Bool
  | p, [], tail => p == tail
  | none, _ :: _, _ => false
  | some r, r' :: l, tail =>
    r == r' &&
      (match nxt r with
       | some n => chainTo nxt n l tail
       | none => false)

/-- A list that ends in NULL. -/
def chain (nxt : Ref → Option (Option Ref)) (head : Option Ref) (l : List Ref) : Bool :=
  chainTo nxt head l none

/-- The link `Obj.next` of the allocation list. -/
def objNext (heap : Heap) (r : Ref) : Option (Option Ref) :=
  match heapGet heap r with
  | some o => some o.next
  | none => none

/-- The link `ObjUpvalue.next`. -/
def upvalueNext (heap : Heap) (r : Ref) : Option (Option Ref) :=
  match heapGet heap r with
  | some o =>
    match o.data with
    | .upvalue _ _ next => some next
    | _ => none
  | none => none

/-- The link `ObjUpvalue.next` of an upvalue that is open. -/
def openNext (heap : Heap) (r : Ref) : Option (Option Ref) :=
  match heapGet heap r with
  | some o =>
    match o.data with
    | .upvalue (.stack _) _ next => some next
    | _ => none
  | none => none

/-- The stack slot an open upvalue points to. -/
def slotOf (heap : Heap) (r : Ref) : Nat :=
  match heapGet heap r with
  | some o =>
    match o.data with
    | .upvalue (.stack slot) _ _ => slot
    | _ => 0
  | none => 0

/-- The mark bit at an address (false where there is no object). -/
def isMarkedAt (heap : Heap) (r : Ref) : Bool :=
  match heapGet heap r with
  | some o => o.isMarked
  | none => false

/-- A machine in the middle of a call: a script frame at base 0 and a frame of the same
closure at base 2, with two open upvalues, for stack slots 3 and 1. -/
def callVM : VM :=
  { emptyVM with
    heap :=
      [some { isMarked := false, next := none,
              data := .function { arity := 0, upvalueCount := 0,
                                  chunk := { code := [], lines := [], constants := [] },
                                  name := none } },
       some { isMarked := false, next := some 0, data := .closure 0 [] },
       some { isMarked := false, next := some 1, data := .upvalue (.stack 1) .nil none },
       some { isMarked := false, next := some 2, data := .upvalue (.stack 3) .nil (some 2) }]
    objects := some 3
    current :=
      { id := 0, parent := none,
        frames := [{ closure := 1, ip := 0, slots := 0 }, { closure := 1, ip := 0, slots := 2 }]
        stack := [.obj 1, .number 10, .obj 1, .number 20, .number 30, .nil, .nil, .nil]
        stackTop := 5
        openUpvalues := some 3 } }

/-- Two states of the machine agree on everything but the heap, the head of the allocation
list and the byte count. -/
def sameRegisters (a b : VM) : Prop :=
  a.current = b.current ∧ a.globals = b.globals ∧ a.strings = b.strings ∧
  a.nextGC = b.nextGC ∧ a.grayStack = b.grayStack ∧ a.compilerRoots = b.compilerRoots ∧
  a.constants = b.constants

/-! ## Reachability: what the claim about marking speaks of -/

/-- The object a value points to, if any. -/
def valueRef (value : Value) : Option Ref :=
  match value with
  | .obj r => some r
  | _ => none

def valueRefs (values : List Value) : List Ref :=
  values.filterMap valueRef

/-- Keys and values of a table that are objects. -/
def tableRefs (table : Table) : List Ref :=
  table.flatMap (fun e => e.1 :: valueRefs [e.2])

/-- The nodes met on a walk along `nxt` from `head`, at most `fuel` of them. -/
def chainNodes (nxt : Ref → Option (Option Ref)) : Nat → Option Ref → List Ref
  | 0, _ => []
  | _ + 1, none => []
  | fuel + 1, some r =>
    match nxt r with
    | some n => r :: chainNodes nxt fuel n
    | none => []

/-- The open-upvalue list of the fiber is a list of upvalues that ends in NULL. -/
def fiberProper (heap : Heap) (fiber : ObjFiber) : Bool :=
  chain (upvalueNext heap) fiber.openUpvalues
    (chainNodes (upvalueNext heap) (heap.length + 1) fiber.openUpvalues)

/-- Every fiber object on the heap has a proper open-upvalue list. -/
def heapFibersProper (heap : Heap) : Bool :=
  heap.all (fun x =>
    match x with
    | some o =>
      match o.data with
      | .fiber f => fiberProper heap f
      | _ => true
    | none => true)

/-- The allocation list is a list of objects that ends in NULL. -/
def objectsProper (vm : VM) : Bool :=
  chain (objNext vm.heap) vm.objects (chainNodes (objNext vm.heap) (vm.heap.length + 1) vm.objects)

/-- No object carries a mark. -/
def allUnmarked (heap : Heap) : Bool :=
  heap.all (fun x =>
    match x with
    | some o => !o.isMarked
    | none => true)

/-- What markFiber marks: the objects in the stack below stackTop, the closures of the
frames, the nodes of the open-upvalue list. -/
def fiberRefs (heap : Heap) (fiber : ObjFiber) : List Ref :=
  valueRefs (fiber.stack.take fiber.stackTop) ++ fiber.frames.map (fun fr => fr.closure) ++
    chainNodes (upvalueNext heap) (heap.length + 1) fiber.openUpvalues

/-- The reference edges of blackenObject, type by type. -/
def references (heap : Heap) (data : ObjData) : List Ref :=
  match data with
  | .boundMethod receiver method => valueRefs [receiver] ++ [method]
  | .klass name methods => name :: tableRefs methods
  | .closure function upvalues => function :: upvalues.filterMap id
  | .fiber f => fiberRefs heap f
  | .function f => f.name.toList ++ valueRefs f.chunk.constants
  | .inst klass fields => klass :: tableRefs fields
  | .upvalue _ closed _ => valueRefs [closed]
  | .list values _ => valueRefs values
  | .table values => tableRefs values
  | .native _ => []
  | .string _ _ => []

/-- The roots of markRoots: the active fiber, the globals, the functions of the compiler
chain, the string constants. -/
def rootRefs (vm : VM) : List Ref :=
  fiberRefs vm.heap vm.current ++ tableRefs vm.globals ++ vm.compilerRoots ++ vm.constants.all

/-- Reachable from a root through the reference edges. -/
inductive Reachable (vm : VM) : Ref → Prop where
  | root {r : Ref} : r ∈ rootRefs vm → Reachable vm r
  | step {p r : Ref} {o : Obj} :
      Reachable vm p → heapGet vm.heap p = some o → r ∈ references vm.heap o.data →
      Reachable vm r

/-- `heap1` is `heap` with some more mark bits set. -/
def MarkExt (heap heap1 : Heap) : Prop :=
  heap1.length = heap.length ∧
  ∀ r, heapGet heap1 r = heapGet heap r ∨
    ∃ o, heapGet heap r = some o ∧ heapGet heap1 r = some { o with isMarked := true }

/-- Objects that carry no mark. -/
def unmarkedCount (heap : Heap) : Nat :=
  heap.countP (fun x =>
    match x with
    | some o => !o.isMarked
    | none => false)

/-- `vm1` comes from `vm` by marking: marks are only added, each newly marked object is on
the gray stack, the gray stack only grows, the gray objects and the unmarked ones together
keep their number, and nothing else changes. -/
def Marks (vm vm1 : VM) : Prop :=
  MarkExt vm.heap vm1.heap ∧
  (∀ p ∈ vm.grayStack, p ∈ vm1.grayStack) ∧
  (∀ p, isMarkedAt vm1.heap p = true → isMarkedAt vm.heap p = true ∨ p ∈ vm1.grayStack) ∧
  vm1.grayStack.length + unmarkedCount vm1.heap = vm.grayStack.length + unmarkedCount vm.heap ∧
  vm1.current = vm.current ∧ vm1.globals = vm.globals ∧ vm1.strings = vm.strings ∧
  vm1.bytesAllocated = vm.bytesAllocated ∧ vm1.nextGC = vm.nextGC ∧
  vm1.objects = vm.objects ∧ vm1.compilerRoots = vm.compilerRoots ∧
  vm1.constants = vm.constants

/-- The address holds no object or a marked one. -/
def markedOrAbsent (heap : Heap) (r : Ref) : Prop :=
  ∀ o, heapGet heap r = some o → o.isMarked = true

/-- Every marked object that is not gray has only marked references. -/
def TriColor (vm : VM) : Prop :=
  ∀ p o, heapGet vm.heap p = some o → o.isMarked = true → p ∉ vm.grayStack →
    ∀ r ∈ references vm.heap o.data, markedOrAbsent vm.heap r

/-- Marking every pointer of a list in turn. -/
def markAll (vm : VM) (targets : List (Option Ref)) : VM :=
  targets.foldl markObject vm

/-- `vm1` differs from `vm` only by added marks and by its gray stack. -/
def MarkedFrom (vm vm1 : VM) : Prop :=
  MarkExt vm.heap vm1.heap ∧
  vm1.current = vm.current ∧ vm1.globals = vm.globals ∧ vm1.strings = vm.strings ∧
  vm1.bytesAllocated = vm.bytesAllocated ∧ vm1.nextGC = vm.nextGC ∧
  vm1.objects = vm.objects ∧ vm1.compilerRoots = vm.compilerRoots ∧
  vm1.constants = vm.constants

/-! ## States over which an allocation is well defined -/

/-- No fiber object on the heap has an open upvalue: native.c creates fibers through
newFiber, which resets them, and never runs one. -/
def heapFibersIdle (heap : Heap) : Bool :=
  heap.all (fun x =>
    match x with
    | some o =>
      match o.data with
      | .fiber f => f.openUpvalues == none
      | _ => true
    | none => true)

/-- The lists a collection walks are proper. -/
def Ready (vm : VM) : Prop :=
  fiberProper vm.heap vm.current = true ∧ heapFibersIdle vm.heap = true ∧
  objectsProper vm = true

/-- What a call of reallocate may have done to the machine, with or without a collection:
the registers but the byte counts are kept, no address is added, every object still there
has its old payload, the roots are still there, and the intern table has lost entries at
most, and each key it keeps is still there. -/
def Collected (vm vm1 : VM) : Prop :=
  vm1.current = vm.current ∧ vm1.globals = vm.globals ∧
  vm1.compilerRoots = vm.compilerRoots ∧ vm1.constants = vm.constants ∧
  vm1.heap.length = vm.heap.length ∧
  objectsProper vm1 = true ∧
  (∀ r o1, heapGet vm1.heap r = some o1 → ∃ o, heapGet vm.heap r = some o ∧ o1.data = o.data) ∧
  (∀ r ∈ rootRefs vm, ∀ o, heapGet vm.heap r = some o →
    ∃ o1, heapGet vm1.heap r = some o1 ∧ o1.data = o.data) ∧
  (∀ e ∈ vm1.strings, e ∈ vm.strings ∧
    ∀ o, heapGet vm.heap e.1 = some o → ∃ o1, heapGet vm1.heap e.1 = some o1 ∧ o1.data = o.data) ∧
  List.Sublist vm1.strings vm.strings

/-- The bytes of the string at an address. -/
def stringChars (heap : Heap) (r : Ref) : Option (List Nat) :=
  match heapGet heap r with
  | some o =>
    match o.data with
    | .string chars _ => some chars
    | _ => none
  | none => none

/-- Every key of the intern table is a string object that carries the hash of its bytes. -/
def internKeysHashed (heap : Heap) (strings : Table) : Bool :=
  strings.all (fun e =>
    match heapGet heap e.1 with
    | some o =>
      match o.data with
      | .string chars hash => hash == hashString chars
      | _ => false
    | none => false)

/-- No two distinct string objects in the intern table have equal bytes. -/
def internUnique (heap : Heap) (strings : Table) : Bool :=
  strings.all (fun e1 => strings.all (fun e2 =>
    stringChars heap e1.1 != stringChars heap e2.1 || e1.1 == e2.1))

/-- In the machine `vm` the interning invariant holds and `r` is its one interned string
with the bytes `chars`. -/
def InternedAs (vm : VM) (r : Ref) (chars : List Nat) : Prop :=
  internKeysHashed vm.heap vm.strings = true ∧
  internUnique vm.heap vm.strings = true ∧
  stringChars vm.heap r = some chars ∧
  (∃ v, (r, v) ∈ vm.strings) ∧
  ∀ e ∈ vm.strings, (e.1 = r ↔ stringChars vm.heap e.1 = some chars)

/-- A machine whose heap holds the interned string "a". -/
def stringVM : VM :=
  { emptyVM with
    heap := [some { isMarked := false, next := none, data := .string [97] (hashString [97]) }]
    objects := some 0
    strings := [(0, .nil)] }

/-! ## The expression compiler (compiler.c) -/

/-- Token types: the designators of the table `rules`, and TOKEN_COLON, which
expressionList consumes (scanner.h is absent). -/
inductive TokenType where
  | TOKEN_AND
  | TOKEN_BANG_EQUAL
  | TOKEN_CLASS
  | TOKEN_COLON
  | TOKEN_COMMA
  | TOKEN_DOT
  | TOKEN_ELSE
  | TOKEN_EOF
  | TOKEN_EQUAL
  | TOKEN_EQUAL_EQUAL
  | TOKEN_ERROR
  | TOKEN_FALSE
  | TOKEN_FOR
  | TOKEN_FUN
  | TOKEN_GREATER
  | TOKEN_GREATER_EQUAL
  | TOKEN_HASH
  | TOKEN_IDENTIFIER
  | TOKEN_IF
  | TOKEN_LEFT_CURLY
  | TOKEN_LEFT_PAREN
  | TOKEN_LEFT_SQUARE
  | TOKEN_LESS
  | TOKEN_LESS_EQUAL
  | TOKEN_MINUS
  | TOKEN_NIL
  | TOKEN_NOT
  | TOKEN_NUMBER
  | TOKEN_OR
  | TOKEN_PLUS
  | TOKEN_RETURN
  | TOKEN_RIGHT_CURLY
  | TOKEN_RIGHT_PAREN
  | TOKEN_RIGHT_SQUARE
  | TOKEN_SEMICOLON
  | TOKEN_SLASH
  | TOKEN_STAR
  | TOKEN_STRING
  | TOKEN_SUPER
  | TOKEN_THIS
  | TOKEN_TRUE
  | TOKEN_VAR
  | TOKEN_WHILE
  deriving DecidableEq, Repr

/-- Token: `lexeme` is the text `start[0..length)`. -/
structure Token where
  type : TokenType
  lexeme : List Nat
  line : Nat
  deriving DecidableEq, Repr

/-- The enum Precedence; its enumerators are the numbers 0 to 10, in order. -/
abbrev Precedence := Nat

def PREC_NONE : Precedence := 0

def PREC_ASSIGNMENT : Precedence := 1

def PREC_OR : Precedence := 2

def PREC_AND : Precedence := 3

def PREC_EQUALITY : Precedence := 4

def PREC_COMPARISON : Precedence := 5

def PREC_TERM : Precedence := 6

def PREC_FACTOR : Precedence := 7

def PREC_UNARY : Precedence := 8

def PREC_CALL : Precedence := 9

def PREC_PRIMARY : Precedence := 10

/-- The parse functions the table `rules` points to. -/
inductive ParseFn where
  | and_
  | binary
  | call
  | dot
  | grouping
  | index_
  | literal
  | number
  | or_
  | string
  | super_
  | this_
  | unary
  | variable
  deriving DecidableEq, Repr

/-- ParseRule: the fields `prefix`, `infix` (NULL is `none`) and `precedence`. -/
structure ParseRule where
  prefixRule : Option ParseFn
  infixRule : Option ParseFn
  precedence : Precedence
  deriving DecidableEq, Repr

/-- The table `rules` behind getRule.  TOKEN_COLON has no designator of its own; its entry
is taken to lie inside the table, where it is zero: no function, PREC_NONE. -/
def getRule (type : TokenType) : ParseRule :=
  match type with
  | .TOKEN_AND => ⟨none, some .and_, PREC_AND⟩
  | .TOKEN_BANG_EQUAL => ⟨none, some .binary, PREC_EQUALITY⟩
  | .TOKEN_CLASS => ⟨none, none, PREC_NONE⟩
  | .TOKEN_COLON => ⟨none, none, PREC_NONE⟩
  | .TOKEN_COMMA => ⟨none, none, PREC_NONE⟩
  | .TOKEN_DOT => ⟨none, some .dot, PREC_CALL⟩
  | .TOKEN_ELSE => ⟨none, none, PREC_NONE⟩
  | .TOKEN_EOF => ⟨none, none, PREC_NONE⟩
  | .TOKEN_EQUAL => ⟨none, none, PREC_NONE⟩
  | .TOKEN_EQUAL_EQUAL => ⟨none, some .binary, PREC_EQUALITY⟩
  | .TOKEN_ERROR => ⟨none, none, PREC_NONE⟩
  | .TOKEN_FALSE => ⟨some .literal, none, PREC_NONE⟩
  | .TOKEN_FOR => ⟨none, none, PREC_NONE⟩
  | .TOKEN_FUN => ⟨none, none, PREC_NONE⟩
  | .TOKEN_GREATER => ⟨none, some .binary, PREC_COMPARISON⟩
  | .TOKEN_GREATER_EQUAL => ⟨none, some .binary, PREC_COMPARISON⟩
  | .TOKEN_HASH => ⟨some .unary, some .binary, PREC_FACTOR⟩
  | .TOKEN_IDENTIFIER => ⟨some .variable, none, PREC_NONE⟩
  | .TOKEN_IF => ⟨none, none, PREC_NONE⟩
  | .TOKEN_LEFT_CURLY => ⟨some .unary, none, PREC_CALL⟩
  | .TOKEN_LEFT_PAREN => ⟨some .grouping, some .call, PREC_CALL⟩
  | .TOKEN_LEFT_SQUARE => ⟨some .unary, some .index_, PREC_CALL⟩
  | .TOKEN_LESS => ⟨none, some .binary, PREC_COMPARISON⟩
  | .TOKEN_LESS_EQUAL => ⟨none, some .binary, PREC_COMPARISON⟩
  | .TOKEN_MINUS => ⟨some .unary, some .binary, PREC_TERM⟩
  | .TOKEN_NIL => ⟨some .literal, none, PREC_NONE⟩
  | .TOKEN_NOT => ⟨some .unary, none, PREC_NONE⟩
  | .TOKEN_NUMBER => ⟨some .number, none, PREC_NONE⟩
  | .TOKEN_OR => ⟨none, some .or_, PREC_OR⟩
  | .TOKEN_PLUS => ⟨none, some .binary, PREC_TERM⟩
  | .TOKEN_RETURN => ⟨none, none, PREC_NONE⟩
  | .TOKEN_RIGHT_CURLY => ⟨none, none, PREC_NONE⟩
  | .TOKEN_RIGHT_PAREN => ⟨none, none, PREC_NONE⟩
  | .TOKEN_RIGHT_SQUARE => ⟨none, none, PREC_NONE⟩
  | .TOKEN_SEMICOLON => ⟨none, none, PREC_NONE⟩
  | .TOKEN_SLASH => ⟨none, some .binary, PREC_FACTOR⟩
  | .TOKEN_STAR => ⟨none, some .binary, PREC_FACTOR⟩
  | .TOKEN_STRING => ⟨some .string, none, PREC_NONE⟩
  | .TOKEN_SUPER => ⟨some .super_, none, PREC_NONE⟩
  | .TOKEN_THIS => ⟨some .this_, none, PREC_NONE⟩
  | .TOKEN_TRUE => ⟨some .literal, none, PREC_NONE⟩
  | .TOKEN_VAR => ⟨none, none, PREC_NONE⟩
  | .TOKEN_WHILE => ⟨none, none, PREC_NONE⟩

/-- Parser.  `source` lists the tokens scanToken will deliver from here on (scanner.c is
absent); after them it delivers TOKEN_EOF. -/
structure Parser where
  current : Token
  previous : Token
  hadError : Bool
  panicMode : Bool
  source : List Token
  deriving DecidableEq, Repr

/-- Local of compiler.c; `name` is the text of the token. -/
structure Local where
  name : List Nat
  depth : Int
  isCaptured : Bool
  deriving DecidableEq, Repr

/-- Upvalue of compiler.c. -/
structure Upvalue where
  index : Nat
  isLocal : Bool
  deriving DecidableEq, Repr

inductive FunctionType where
  | TYPE_FUNCTION
  | TYPE_INITIALIZER
  | TYPE_METHOD
  | TYPE_SCRIPT
  deriving DecidableEq, Repr

/-- Compiler of compiler.c without its `enclosing` link: `locals` are the `localCount` live
entries, `upvalues` the entries below the upvalueCount of the function. -/
structure Compiler where
  function : Ref
  type : FunctionType
  locals : List Local
  upvalues : List Upvalue
  scopeDepth : Nat
  deriving DecidableEq, Repr

/-- The globals of compiler.c with the machine: `compilers` is the chain from `current_`
outwards, `classes` the chain from `currentClass_` (the flag is hasSuperclass), `errors` the
messages errorAt has printed. -/
structure CompileState where
  vm : VM
  parser : Parser
  compilers : List Compiler
  classes : List Bool
  errors : List String
  deriving DecidableEq, Repr

def BYTE_MAX : Nat := 255

def BYTE_HEIGHT : Nat := BYTE_MAX + 1

def UINT16_MAX : Nat := 65535

def eofToken : Token := { type := .TOKEN_EOF, lexeme := [], line := 0 }

/-- errorAt: nothing in panic mode; otherwise the message is printed and both flags are
set. -/
def errorAt (s : CompileState) (message : String) : CompileState :=
  if s.parser.panicMode then s
  else
    { s with
      parser := { s.parser with panicMode := true, hadError := true }
      errors := s.errors ++ [message] }

/-- Both `error` (at the previous token) and errorAtCurrent: the token only decides the
position that is printed. -/
def error (s : CompileState) (message : String) : CompileState :=
  errorAt s message

/-- The loop of advance over the tokens the scanner delivers. -/
def advanceLoop (s : CompileState) : List Token → CompileState
  | [] => { s with parser := { s.parser with current := eofToken, source := [] } }
  | t :: rest =>
    if t.type ≠ .TOKEN_ERROR then
      { s with parser := { s.parser with current := t, source := rest } }
    else
      advanceLoop
        (errorAt { s with parser := { s.parser with current := t, source := rest } }
          (String.mk (t.lexeme.map Char.ofNat)))
        rest

def advance (s : CompileState) : CompileState :=
  advanceLoop { s with parser := { s.parser with previous := s.parser.current } } s.parser.source

def consume (s : CompileState) (type : TokenType) (message : String) : CompileState :=
  if s.parser.current.type = type then advance s else errorAt s message

def check (s : CompileState) (type : TokenType) : Bool :=
  s.parser.current.type = type

/-- The function `match` of compiler.c. -/
def matchToken (s : CompileState) (type : TokenType) : Bool × CompileState :=
  if ¬ check s type then (false, s) else (true, advance s)

/-- Modelled from the spec: writeChunk of the absent chunk.c appends the byte and its
line. -/
def writeChunk (chunk : Chunk) (byte : Nat) (line : Nat) : Chunk :=
  { chunk with code := chunk.code ++ [byte], lines := chunk.lines ++ [line] }

/-- Modelled from the spec: addConstant of the absent chunk.c appends the value to the
constant pool and returns its index. -/
def addConstant (chunk : Chunk) (value : Value) : Chunk × Nat :=
  ({ chunk with constants := chunk.constants ++ [value] }, chunk.constants.length)

/-- The function object of a compiler of the chain. -/
def functionOf (s : CompileState) (c : Compiler) : Option (Obj × ObjFunction) :=
  match heapGet s.vm.heap c.function with
  | some o =>
    match o.data with
    | .function f => some (o, f)
    | _ => none
  | none => none

/-- currentChunk, read. -/
def currentChunk (s : CompileState) : Option Chunk :=
  match s.compilers with
  | [] => none
  | c :: _ =>
    match functionOf s c with
    | some (_, f) => some f.chunk
    | none => none

/-- A store through the pointer currentChunk returns. -/
def setCurrentChunk (s : CompileState) (chunk : Chunk) : Option CompileState :=
  match s.compilers with
  | [] => none
  | c :: _ =>
    match functionOf s c with
    | some (o, f) =>
      some { s with
             vm := { s.vm with
                     heap := s.vm.heap.set c.function
                       (some { o with data := .function { f with chunk := chunk } }) } }
    | none => none

def emitByte (s : CompileState) (byte : Nat) : Option CompileState := do
  let chunk ← currentChunk s
  setCurrentChunk s (writeChunk chunk (byte % 256) s.parser.previous.line)

def emitBytes (s : CompileState) (byte1 byte2 : Nat) : Option CompileState := do
  let s1 ← emitByte s byte1
  emitByte s1 byte2

def emitJump (s : CompileState) (instruction : Nat) : Option (Nat × CompileState) := do
  let s1 ← emitByte s instruction
  let s2 ← emitByte s1 255
  let s3 ← emitByte s2 255
  let chunk ← currentChunk s3
  some (chunk.code.length - 2, s3)

def makeConstant (s : CompileState) (value : Value) : Option (Nat × CompileState) := do
  let chunk ← currentChunk s
  let (chunk1, constant) := addConstant chunk value
  let s1 ← setCurrentChunk s chunk1
  if constant > BYTE_MAX then some (0, error s1 "Too many constants in one chunk.")
  else some (constant, s1)

def emitConstant (s : CompileState) (value : Value) : Option CompileState := do
  let (constant, s1) ← makeConstant s value
  emitBytes s1 OpCode.OP_CONSTANT.toByte constant

def patchJump (s : CompileState) (offset : Nat) : Option CompileState := do
  let chunk ← currentChunk s
  let jump := chunk.code.length - offset - 2
  let s1 := if jump > UINT16_MAX then error s "Too much code to jump over." else s
  let chunk1 ← currentChunk s1
  setCurrentChunk s1
    { chunk1 with
      code := (chunk1.code.set offset ((jump / 2 ^ 8) % 256)).set (offset + 1) (jump % 256) }

def identifierConstant (H : Host) (s : CompileState) (name : List Nat) :
    Option (Nat × CompileState) := do
  let (vm1, string) ← copyString H s.vm name
  makeConstant { s with vm := vm1 } (.obj string)

def identifiersEqual (a b : List Nat) : Bool :=
  a.length = b.length ∧ a = b

/-- The loop of resolveLocal over the entries `i`, from `locals.length - 1` down to 0:
the index found (or -1) and whether the error was raised. -/
def resolveLocalLoop (name : List Nat) : List Local → Int × Bool
  | [] => (-1, false)
  | local_ :: below =>
    if identifiersEqual name local_.name then
      ((below.length : Int), decide (local_.depth = -1))
    else resolveLocalLoop name below

/-- resolveLocal on a compiler of the chain. -/
def resolveLocal (s : CompileState) (c : Compiler) (name : List Nat) : Int × CompileState :=
  let (i, err) := resolveLocalLoop name c.locals.reverse
  (i, if err then error s "Can't read local variable in its own initializer." else s)

/-- The search loop of addUpvalue over the first `upvalueCount` entries. -/
def findUpvalue (upvalues : List Upvalue) (index : Nat) (isLocal : Bool) : Option Nat :=
  let i := upvalues.findIdx (fun u => u.index = index ∧ u.isLocal = isLocal)
  if i < upvalues.length then some i else none

/-- addUpvalue on the compiler at position `d` of the chain. -/
def addUpvalue (s : CompileState) (d : Nat) (index : Nat) (isLocal : Bool) :
    Option (Int × CompileState) := do
  let c ← s.compilers[d]?
  let (o, f) ← functionOf s c
  match findUpvalue (c.upvalues.take f.upvalueCount) index isLocal with
  | some i => some ((i : Int), s)
  | none =>
    if f.upvalueCount = BYTE_HEIGHT then
      some (0, error s "Too many closure variables in function.")
    else
      some ((f.upvalueCount : Int),
        { s with
          compilers := s.compilers.set d
            { c with
              upvalues := c.upvalues.take f.upvalueCount ++
                [{ index := index, isLocal := isLocal }] }
          vm := { s.vm with
                  heap := s.vm.heap.set c.function
                    (some { o with
                            data := .function { f with upvalueCount := f.upvalueCount + 1 } }) } })

/-- resolveUpvalue on the compiler at position `d`; `n` bounds the compilers that enclose
it. -/
def resolveUpvalue : Nat → CompileState → Nat → List Nat → Option (Int × CompileState)
  | 0, s, _, _ => some (-1, s)
  | n + 1, s, d, name =>
    match s.compilers[d + 1]? with
    | none => some (-1, s)
    | some enclosing =>
      let (local_, s1) := resolveLocal s enclosing name
      if local_ ≠ -1 then
        let s2 : CompileState :=
          { s1 with
            compilers := s1.compilers.set (d + 1)
              { enclosing with
                locals := enclosing.locals.modify (fun l => { l with isCaptured := true })
                  local_.toNat } }
        addUpvalue s2 d (local_.toNat % 256) true
      else
        match resolveUpvalue n s1 (d + 1) name with
        | none => none
        | some (upvalue, s2) =>
          if upvalue ≠ -1 then addUpvalue s2 d (upvalue.toNat % 256) false
          else some (-1, s2)

/-- syntheticToken; the source leaves `type` and `line` unset and nothing reads them. -/
def syntheticToken (text : String) : Token :=
  { type := .TOKEN_IDENTIFIER, lexeme := text.toList.map Char.toNat, line := 0 }

/-- namedVariable; `expression` is the function of that name. -/
def namedVariable (H : Host) (expression : CompileState → Option CompileState)
    (s : CompileState) (name : Token) (canAssign : Bool) : Option CompileState := do
  let c ← s.compilers.head?
  let (arg, s1) := resolveLocal s c name.lexeme
  let (getOp, setOp, arg2, s2) ←
    (if arg ≠ -1 then
      some (OpCode.OP_LOCAL_GET, OpCode.OP_LOCAL_SET, arg, s1)
    else do
      let (up, s2) ← resolveUpvalue s1.compilers.length s1 0 name.lexeme
      if up ≠ -1 then some (OpCode.OP_UPVALUE_GET, OpCode.OP_UPVALUE_SET, up, s2)
      else do
        let (k, s3) ← identifierConstant H s2 name.lexeme
        some (OpCode.OP_GLOBAL_GET, OpCode.OP_GLOBAL_SET, (k : Int), s3))
  if canAssign ∧ (matchToken s2 .TOKEN_EQUAL).1 then do
    let s3 ← expression (matchToken s2 .TOKEN_EQUAL).2
    emitBytes s3 setOp.toByte (arg2.toNat % 256)
  else emitBytes s2 getOp.toByte (arg2.toNat % 256)

/-- The do-while loop of expressionList, with the count so far. -/
def expressionListLoop (expression : CompileState → Option CompileState) (pair : Bool) :
    Nat → CompileState → Nat → Option (Nat × CompileState)
  | 0, _, _ => none
  | fuel + 1, s, argCount => do
    let s1 ← expression s
    let s2 :=
      if argCount = BYTE_MAX then error s1 "Expression list can't have more than 255 items."
      else s1
    let s3 ←
      (if pair then expression (consume s2 .TOKEN_COLON "Expect ':' to join entries.")
       else some s2)
    let argCount1 := (argCount + 1) % 256
    let (m, s4) := matchToken s3 .TOKEN_COMMA
    if m then expressionListLoop expression pair fuel s4 argCount1
    else some (argCount1, s4)

def expressionList (expression : CompileState → Option CompileState) (fuel : Nat)
    (s : CompileState) (end_ : TokenType) (missingEnd : String) (pair : Bool) :
    Option (Nat × CompileState) := do
  let (argCount, s1) ←
    (if ¬ check s end_ then expressionListLoop expression pair fuel s 0 else some (0, s))
  some (argCount, consume s1 end_ missingEnd)

def argumentList (expression : CompileState → Option CompileState) (fuel : Nat)
    (s : CompileState) : Option (Nat × CompileState) :=
  expressionList expression fuel s .TOKEN_RIGHT_PAREN "Expect ')' to end argument list." false

/-- The parse functions.  `parsePrecedence` is the function of that name, with less fuel
than the caller has; `fuel` bounds the loop of expressionList. -/
def runParseFn (H : Host) (parsePrecedence : Precedence → CompileState → Option CompileState)
    (fuel : Nat) (fn : ParseFn) (canAssign : Bool) (s : CompileState) : Option CompileState :=
  let expression := parsePrecedence PREC_ASSIGNMENT
  match fn with
  | .and_ => do
    let (endJump, s1) ← emitJump s OpCode.OP_JUMP_IF_FALSE.toByte
    let s2 ← emitByte s1 OpCode.OP_POP.toByte
    let s3 ← parsePrecedence PREC_AND s2
    patchJump s3 endJump
  | .binary => do
    let operatorType := s.parser.previous.type
    let rule := getRule operatorType
    let s1 ← parsePrecedence (rule.precedence + 1) s
    match operatorType with
    | .TOKEN_BANG_EQUAL => emitBytes s1 OpCode.OP_EQUAL.toByte OpCode.OP_NOT.toByte
    | .TOKEN_EQUAL_EQUAL => emitByte s1 OpCode.OP_EQUAL.toByte
    | .TOKEN_GREATER => emitByte s1 OpCode.OP_GREATER.toByte
    | .TOKEN_GREATER_EQUAL => emitBytes s1 OpCode.OP_LESS.toByte OpCode.OP_NOT.toByte
    | .TOKEN_HASH => do
      let s2 ← namedVariable H expression s1 (syntheticToken "concat") false
      emitBytes s2 OpCode.OP_CALL_POSTFIX.toByte 2
    | .TOKEN_LESS => emitByte s1 OpCode.OP_LESS.toByte
    | .TOKEN_LESS_EQUAL => emitBytes s1 OpCode.OP_GREATER.toByte OpCode.OP_NOT.toByte
    | .TOKEN_MINUS => emitByte s1 OpCode.OP_SUBTRACT.toByte
    | .TOKEN_PLUS => emitByte s1 OpCode.OP_ADD.toByte
    | .TOKEN_SLASH => emitByte s1 OpCode.OP_DIVIDE.toByte
    | .TOKEN_STAR => emitByte s1 OpCode.OP_MULTIPLY.toByte
    | _ => some s1
  | .call => do
    let (argCount, s1) ← argumentList expression fuel s
    emitBytes s1 OpCode.OP_CALL.toByte argCount
  | .dot => do
    let s1 := consume s .TOKEN_IDENTIFIER "Expect property name after '.'."
    let (name, s2) ← identifierConstant H s1 s1.parser.previous.lexeme
    if canAssign ∧ (matchToken s2 .TOKEN_EQUAL).1 then do
      let s3 ← expression (matchToken s2 .TOKEN_EQUAL).2
      emitBytes s3 OpCode.OP_PROPERTY_SET.toByte name
    else
      let (m, s3) := matchToken s2 .TOKEN_LEFT_PAREN
      if m then do
        let (argCount, s4) ← argumentList expression fuel s3
        let s5 ← emitBytes s4 OpCode.OP_INVOKE.toByte name
        emitByte s5 argCount
      else emitBytes s3 OpCode.OP_PROPERTY_GET.toByte name
  | .grouping => do
    let s1 ← expression s
    some (consume s1 .TOKEN_RIGHT_PAREN "Expect ')' after expression.")
  | .index_ => do
    let s1 ← expression s
    let s2 := consume s1 .TOKEN_RIGHT_SQUARE "Expect ']' after index."
    if canAssign ∧ (matchToken s2 .TOKEN_EQUAL).1 then do
      let s3 ← expression (matchToken s2 .TOKEN_EQUAL).2
      let (name, s4) ← identifierConstant H s3 (syntheticToken "setAt").lexeme
      let s5 ← emitBytes s4 OpCode.OP_INVOKE.toByte name
      emitByte s5 2
    else do
      let (name, s3) ← identifierConstant H s2 (syntheticToken "getAt").lexeme
      let s4 ← emitBytes s3 OpCode.OP_INVOKE.toByte name
      emitByte s4 1
  | .literal =>
    match s.parser.previous.type with
    | .TOKEN_FALSE => emitByte s OpCode.OP_FALSE.toByte
    | .TOKEN_NIL => emitByte s OpCode.OP_NIL.toByte
    | .TOKEN_TRUE => emitByte s OpCode.OP_TRUE.toByte
    | _ => some s
  | .number => emitConstant s (.number (H.strtod s.parser.previous.lexeme))
  | .or_ => do
    let (elseJump, s1) ← emitJump s OpCode.OP_JUMP_IF_FALSE.toByte
    let (endJump, s2) ← emitJump s1 OpCode.OP_JUMP.toByte
    let s3 ← patchJump s2 elseJump
    let s4 ← emitByte s3 OpCode.OP_POP.toByte
    let s5 ← parsePrecedence PREC_OR s4
    patchJump s5 endJump
  | .string => do
    let lexeme := s.parser.previous.lexeme
    let (vm1, str) ← copyString H s.vm ((lexeme.drop 1).take (lexeme.length - 2))
    emitConstant { s with vm := vm1 } (.obj str)
  | .super_ => do
    let s0 :=
      match s.classes with
      | [] => error s "Can't use 'super' outside of a class."
      | hasSuperclass :: _ =>
        if ¬ hasSuperclass then error s "Can't use 'super' in a class with no superclass."
        else s
    let s1 := consume s0 .TOKEN_DOT "Expect '.' after 'super'."
    let s2 := consume s1 .TOKEN_IDENTIFIER "Expect superclass method name."
    let (name, s3) ← identifierConstant H s2 s2.parser.previous.lexeme
    let s4 ← namedVariable H expression s3 (syntheticToken "this") false
    let (m, s5) := matchToken s4 .TOKEN_LEFT_PAREN
    if m then do
      let (argCount, s6) ← argumentList expression fuel s5
      let s7 ← namedVariable H expression s6 (syntheticToken "super") false
      let s8 ← emitBytes s7 OpCode.OP_INVOKE_SUPER.toByte name
      emitByte s8 argCount
    else do
      let s6 ← namedVariable H expression s5 (syntheticToken "super") false
      emitBytes s6 OpCode.UP_SUPER_GET.toByte name
  | .this_ =>
    match s.classes with
    | [] => some (error s "Can't use 'this' outside of a class.")
    | _ :: _ => namedVariable H expression s s.parser.previous false
  | .unary =>
    match s.parser.previous.type with
    | .TOKEN_HASH => do
      let s1 ← namedVariable H expression s (syntheticToken "str") canAssign
      let s2 ← parsePrecedence PREC_UNARY s1
      emitBytes s2 OpCode.OP_CALL.toByte 1
    | .TOKEN_LEFT_CURLY => do
      let (argCount, s1) ←
        expressionList expression fuel s .TOKEN_RIGHT_CURLY "Expect '\x7d' to end table." true
      emitBytes s1 OpCode.OP_COLLECTION_TABLE.toByte argCount
    | .TOKEN_LEFT_SQUARE => do
      let (argCount, s1) ←
        expressionList expression fuel s .TOKEN_RIGHT_SQUARE "Expect ']' to end list." false
      emitBytes s1 OpCode.OP_COLLECTION_LIST.toByte argCount
    | .TOKEN_MINUS => do
      let s1 ← parsePrecedence PREC_UNARY s
      emitByte s1 OpCode.OP_NEGATE.toByte
    | .TOKEN_NOT => do
      let s1 ← parsePrecedence PREC_UNARY s
      emitByte s1 OpCode.OP_NOT.toByte
    | _ => some s
  | .variable => namedVariable H expression s s.parser.previous canAssign

/-- The while loop of parsePrecedence over the infix operators. -/
def infixLoop (run : ParseFn → Bool → CompileState → Option CompileState)
    (precedence : Precedence) (canAssign : Bool) : Nat → CompileState → Option CompileState
  | 0, s =>
    if precedence ≤ (getRule s.parser.current.type).precedence then none else some s
  | fuel + 1, s =>
    if precedence ≤ (getRule s.parser.current.type).precedence then
      let s1 := advance s
      match (getRule s1.parser.previous.type).infixRule with
      | none => none
      | some infixRule =>
        match run infixRule canAssign s1 with
        | none => none
        | some s2 => infixLoop run precedence canAssign fuel s2
    else some s

/-- parsePrecedence; each nested call costs one unit of fuel. -/
def parsePrecedence (H : Host) : Nat → Precedence → CompileState → Option CompileState
  | 0, _, _ => none
  | fuel + 1, precedence, s =>
    let s1 := advance s
    match (getRule s1.parser.previous.type).prefixRule with
    | none => some (error s1 "Expect expression.")
    | some prefixRule =>
      let canAssign : Bool := precedence ≤ PREC_ASSIGNMENT
      match runParseFn H (fun p t => parsePrecedence H fuel p t) fuel prefixRule canAssign s1 with
      | none => none
      | some s2 =>
        match infixLoop (runParseFn H (fun p t => parsePrecedence H fuel p t) fuel)
            precedence canAssign fuel s2 with
        | none => none
        | some s3 =>
          if canAssign ∧ (matchToken s3 .TOKEN_EQUAL).1 then
            some (error (matchToken s3 .TOKEN_EQUAL).2 "Invalid assignment target.")
          else some s3

def expression (H : Host) (fuel : Nat) (s : CompileState) : Option CompileState :=
  parsePrecedence H fuel PREC_ASSIGNMENT s

/-- newFunction of object.c. -/
def newFunction (H : Host) (vm : VM) : Option (VM × Ref) :=
  allocateObject H vm
    (.function { arity := 0, upvalueCount := 0,
                 chunk := { code := [], lines := [], constants := [] }, name := none })

/-- The start of `compile`: initParser, initCompiler for TYPE_SCRIPT and the first
advance. -/
def compileStart (H : Host) (vm : VM) (source : List Token) : Option CompileState := do
  let (vm1, function) ← newFunction H vm
  let s : CompileState :=
    { vm := { vm1 with compilerRoots := function :: vm1.compilerRoots }
      parser := { current := eofToken, previous := eofToken, hadError := false,
                  panicMode := false, source := source }
      compilers := [{ function := function, type := .TYPE_SCRIPT,
                      locals := [{ name := "this".toList.map Char.toNat, depth := 0,
                                   isCaptured := false }],
                      upvalues := [], scopeDepth := 0 }]
      classes := []
      errors := [] }
  some (advance s)

/-- The bytecode and the constants of the function under compilation after `expression`
has run on the token stream. -/
def compileExpression (H : Host) (fuel : Nat) (vm : VM) (source : List Token) :
    Option (List Nat × List Value) := do
  let s ← compileStart H vm source
  let s1 ← expression H fuel s
  let chunk ← currentChunk s1
  some (chunk.code, chunk.constants)

/-- A number token with the given digits. -/
def numberToken (digits : String) : Token :=
  { type := .TOKEN_NUMBER, lexeme := digits.toList.map Char.toNat, line := 1 }

/-- An operator token. -/
def opToken (type : TokenType) : Token :=
  { type := type, lexeme := [], line := 1 }

/-- A machine about to invoke `f` on an instance: the class (object 3) has a method `f`, a
closure without parameters, and the instance (object 4, on top of the stack) has the given
fields; the string `f` is object 2. -/
def invokeVM (fields : Table) : VM :=
  { emptyVM with
    heap :=
      [some { isMarked := false, next := none,
              data := .function { arity := 0, upvalueCount := 0,
                                  chunk := { code := [], lines := [], constants := [] },
                                  name := none } },
       some { isMarked := false, next := some 0, data := .closure 0 [] },
       some { isMarked := false, next := some 1, data := .string [102] (hashString [102]) },
       some { isMarked := false, next := some 2, data := .klass 2 [(2, .obj 1)] },
       some { isMarked := false, next := some 3, data := .inst 3 fields }]
    objects := some 4
    strings := [(2, .nil)]
    current :=
      { id := 0, parent := none,
        frames := [{ closure := 1, ip := 0, slots := 0 }]
        stack := [.obj 1, .obj 4, .nil, .nil, .nil, .nil, .nil, .nil]
        stackTop := 2
        openUpvalues := none } }

/-- The machine callVM after the fetch of an operand byte by the innermost frame. -/
def callVMFetched : VM :=
  { callVM with
    current :=
      { callVM.current with
        frames := [{ closure := 1, ip := 0, slots := 0 }, { closure := 1, ip := 1, slots := 2 }] } }

/-- The tokens of `1 + 2 # 3`. -/
def tokensPlusHash : List Token :=
  [numberToken "1", opToken .TOKEN_PLUS, numberToken "2", opToken .TOKEN_HASH, numberToken "3"]

/-- The tokens of `1 + (2 # 3)`. -/
def tokensPlusHashRight : List Token :=
  [numberToken "1", opToken .TOKEN_PLUS, opToken .TOKEN_LEFT_PAREN, numberToken "2",
   opToken .TOKEN_HASH, numberToken "3", opToken .TOKEN_RIGHT_PAREN]

/-- The tokens of `(1 + 2) # 3`. -/
def tokensPlusHashLeft : List Token :=
  [opToken .TOKEN_LEFT_PAREN, numberToken "1", opToken .TOKEN_PLUS, numberToken "2",
   opToken .TOKEN_RIGHT_PAREN, opToken .TOKEN_HASH, numberToken "3"]

/-- The tokens of `1 # 2 * 3`. -/
def tokensHashStar : List Token :=
  [numberToken "1", opToken .TOKEN_HASH, numberToken "2", opToken .TOKEN_STAR, numberToken "3"]

/-- The tokens of `(1 # 2) * 3`. -/
def tokensHashStarLeft : List Token :=
  [opToken .TOKEN_LEFT_PAREN, numberToken "1", opToken .TOKEN_HASH, numberToken "2",
   opToken .TOKEN_RIGHT_PAREN, opToken .TOKEN_STAR, numberToken "3"]

/-- The tokens of `1 # (2 * 3)`. -/
def tokensHashStarRight : List Token :=
  [numberToken "1", opToken .TOKEN_HASH, opToken .TOKEN_LEFT_PAREN, numberToken "2",
   opToken .TOKEN_STAR, numberToken "3", opToken .TOKEN_RIGHT_PAREN]

/-! ## Objects the interpreter allocates (object.c) -/

def newBoundMethod (H : Host) (vm : VM) (receiver : Value) (method : Ref) : Option (VM × Ref) :=
  allocateObject H vm (.boundMethod receiver method)

def newClass (H : Host) (vm : VM) (name : Ref) : Option (VM × Ref) :=
  allocateObject H vm (.klass name [])

/-- The function object at an address. -/
def functionAt (heap : Heap) (function : Ref) : Option ObjFunction :=
  match heapGet heap function with
  | some o =>
    match o.data with
    | .function f => some f
    | _ => none
  | none => none

/-- newClosure: the array of `function->upvalueCount` pointers, all NULL, comes from
ALLOCATE, that is from reallocate with old size 0; then the closure object is allocated and
`function->upvalueCount` is read once more. -/
def newClosure (H : Host) (vm : VM) (function : Ref) : Option (VM × Ref) :=
  match functionAt vm.heap function with
  | none => none
  | some f =>
    match reallocate H vm 0 (H.sizeofPtr * f.upvalueCount) with
    | none => none
    | some vm1 =>
      match allocateObject H vm1 (.closure function (List.replicate f.upvalueCount none)) with
      | none => none
      | some (vm2, closure) =>
        match functionAt vm2.heap function with
        | none => none
        | some _ => some (vm2, closure)

def newCoreList (H : Host) (vm : VM) : Option (VM × Ref) :=
  allocateObject H vm (.list [] 0)

def newCoreTable (H : Host) (vm : VM) : Option (VM × Ref) :=
  allocateObject H vm (.table [])

/-! ## Value arrays (value.c) -/

/-- The store of a new payload into the object at an address. -/
def setData (vm : VM) (r : Ref) (data : ObjData) : Option VM :=
  match heapGet vm.heap r with
  | none => none
  | some o => some { vm with heap := vm.heap.set r (some { o with data := data }) }

/-- writeValueArray on the array of the list object `list`.  When the array is full the new
capacity is stored and GROW_ARRAY (absent memory.h) is taken to be reallocate from the old
to the new size in bytes, which may collect; the value is stored after that. -/
def writeValueArray (H : Host) (vm : VM) (list : Ref) (value : Value) : Option VM :=
  match heapGet vm.heap list with
  | none => none
  | some o =>
    match o.data with
    | .list values capacity =>
      if capacity < values.length + 1 then
        let oldCapacity := capacity
        let newCapacity := H.growCapacity oldCapacity
        let vm1 : VM :=
          { vm with
            heap := vm.heap.set list (some { o with data := .list values newCapacity }) }
        match reallocate H vm1 (H.sizeofValue * oldCapacity) (H.sizeofValue * newCapacity) with
        | none => none
        | some vm2 =>
          match heapGet vm2.heap list with
          | none => none
          | some o2 =>
            match o2.data with
            | .list values2 capacity2 => setData vm2 list (.list (values2 ++ [value]) capacity2)
            | _ => none
      else setData vm list (.list (values ++ [value]) capacity)
    | _ => none

/-- The while loop of reverseValueArray with the indexes of `low` and `high`. -/
def reverseLoop : Nat → List Value → Nat → Nat → List Value
  | 0, values, _, _ => values
  | fuel + 1, values, low, high =>
    if high > low then
      let temp := values.getD high .nil
      reverseLoop fuel ((values.set high (values.getD low .nil)).set low temp) (low + 1) (high - 1)
    else values

def reverseValueArray (values : List Value) : List Value :=
  if values.length ≤ 1 then values
  else reverseLoop values.length values 0 (values.length - 1)

/-! ## Values (value.c, vm.c) -/

def AS_BOOL (value : Value) : Bool :=
  match value with
  | .bool b => b
  | _ => false

def AS_NUMBER (value : Value) : Int :=
  match value with
  | .number n => n
  | _ => 0

/-- valuesEqual under NAN_BOXING: two numbers are compared as doubles, anything else by its
bits. -/
def valuesEqual (H : Host) (a b : Value) : Bool :=
  if IS_NUMBER a ∧ IS_NUMBER b then H.numEqual (AS_NUMBER a) (AS_NUMBER b)
  else decide (a = b)

def isFalsey (value : Value) : Bool :=
  IS_NIL value || (IS_BOOL value && !AS_BOOL value)

/-! ## More of table.c (modelled from the spec) -/

/-- Modelled from the spec: tableAddAll of the absent table.c sets every entry of `source`
in `target` ("copies all methods from the superclass's method table into the
subclass's"). -/
def tableAddAll (source target : Table) : Table :=
  source.foldl (fun t e => (tableSet t e.1 e.2).1) target

/-- Modelled from the spec: tableDelete of the absent table.c removes the entry of the
key. -/
def tableDelete (table : Table) (key : Ref) : Table :=
  table.filter (fun e => e.1 ≠ key)

/-! ## Operand fetch through the frame pointer (vm.c) -/

/-- The function `(*framePtr)->closure->function` of the innermost frame. -/
def frameFunction (vm : VM) : Option ObjFunction :=
  match vm.current.frames.getLast? with
  | none => none
  | some frame =>
    match heapGet vm.heap frame.closure with
    | none => none
    | some c =>
      match c.data with
      | .closure function _ => functionAt vm.heap function
      | _ => none

/-- READ_CONSTANT: the constant whose index readByte delivers. -/
def readConstant (vm : VM) : Option (Value × VM) :=
  match frameFunction vm with
  | none => none
  | some f =>
    match fetchByte vm with
    | none => none
    | some (constant, vm1) => some (f.chunk.constants.getD constant .nil, vm1)

/-- READ_STRING: READ_CONSTANT seen as a pointer to a string. -/
def readString (vm : VM) : Option (Ref × VM) :=
  match readConstant vm with
  | some (.obj string, vm1) => some (string, vm1)
  | _ => none

/-- The assignment of a new `ip` to the innermost frame. -/
def setFrameIp (vm : VM) (ip : Nat) : VM :=
  match vm.current.frames.getLast? with
  | none => vm
  | some frame =>
    { vm with
      current :=
        { vm.current with frames := vm.current.frames.dropLast ++ [{ frame with ip := ip }] } }

/-- READ_SHORT applied to the innermost frame. -/
def fetchShort (vm : VM) : Option (Nat × VM) :=
  match vm.current.frames.getLast?, frameFunction vm with
  | some frame, some f => some ((READ_SHORT f.chunk frame.ip).1, setFrameIp vm (READ_SHORT f.chunk frame.ip).2)
  | _, _ => none

/-! ## Helpers of runSingle (vm.c) -/

/-- The for loop of callValuePostfix: `stackTop[-1 - i] = stackTop[-1 - i - 1]` for `i`
from the given index on, `count` times. -/
def callValuePostfixLoop : Nat → Nat → VM → VM
  | 0, _, vm => vm
  | count + 1, i, vm =>
    callValuePostfixLoop count (i + 1)
      { vm with
        current :=
          { vm.current with
            stack := vm.current.stack.set (vm.current.stackTop - 1 - i)
              (vm.current.stack.getD (vm.current.stackTop - 1 - i - 1) .nil) } }

/-- The stack callValuePostfix hands to callValue: the loop, then
`stackTop[-1 - argCount] = callee`. -/
def callValuePostfixStack (vm : VM) (callee : Value) (argCount : Nat) : VM :=
  let vm1 := callValuePostfixLoop argCount 0 vm
  { vm1 with
    current :=
      { vm1.current with
        stack := vm1.current.stack.set (vm1.current.stackTop - 1 - argCount) callee } }

def callValuePostfix (H : Host) (fuel : Nat) (vm : VM) (callee : Value) (argCount : Nat) :
    Option (Bool × VM) :=
  callValue H fuel (callValuePostfixStack vm callee argCount) callee argCount

/-- bindMethod; `none` when `klass` is not a class or the method found is not an
object. -/
def bindMethod (H : Host) (vm : VM) (klass : Ref) (name : Ref) : Option (Bool × VM) :=
  match heapGet vm.heap klass with
  | none => none
  | some k =>
    match k.data with
    | .klass _ methods =>
      match tableGet methods name with
      | none => some (false, runtimeError vm)
      | some (.obj method) =>
        match newBoundMethod H vm (peek vm 0) method with
        | none => none
        | some (vm1, bound) => some (true, push (pop vm1).2 (.obj bound))
      | some _ => none
    | _ => none

/-- defineMethod; `none` when peek(1) is not a class. -/
def defineMethod (vm : VM) (name : Ref) : Option VM :=
  let method := peek vm 0
  match peek vm 1 with
  | .obj klass =>
    match heapGet vm.heap klass with
    | none => none
    | some k =>
      match k.data with
      | .klass className methods =>
        match setData vm klass (.klass className (tableSet methods name method).1) with
        | none => none
        | some vm1 => some (pop vm1).2
      | _ => none
  | _ => none

/-- The for loop of createCoreList: `writeValueArray(&list->values, pop())`. -/
def createCoreListLoop (H : Host) : Nat → VM → Ref → Option VM
  | 0, vm, _ => some vm
  | count + 1, vm, list =>
    match writeValueArray H (pop vm).2 list (pop vm).1 with
    | none => none
    | some vm1 => createCoreListLoop H count vm1 list

/-- createCoreList; `none` when the list object or the value found under `List` is not
there to be used. -/
def createCoreList (H : Host) (vm : VM) (numValues : Nat) : Option (InterpretResult × VM) :=
  match newCoreList H vm with
  | none => none
  | some (vm1, list) =>
    match createCoreListLoop H numValues vm1 list with
    | none => none
    | some vm2 =>
      match heapGet vm2.heap list with
      | none => none
      | some o =>
        match o.data with
        | .list values capacity =>
          match setData vm2 list (.list (reverseValueArray values) capacity) with
          | none => none
          | some vm3 =>
            match tableGet vm3.globals vm3.constants.strListClass_ with
            | none => some (.INTERPRET_RUNTIME_ERROR, runtimeError vm3)
            | some (.obj klass) =>
              match newInstance H vm3 klass with
              | none => none
              | some (vm4, inst) =>
                match setData vm4 inst
                    (.inst klass (tableSet [] vm4.constants.strData_ (.obj list)).1) with
                | none => none
                | some vm5 => some (.INTERPRET_OK, push vm5 (.obj inst))
            | some _ => none
        | _ => none

/-- The for loop of createCoreTable: `false` after a key that is not a string. -/
def createCoreTableLoop : Nat → VM → Ref → Option (Bool × VM)
  | 0, vm, _ => some (true, vm)
  | count + 1, vm, table =>
    let (value, vm1) := pop vm
    let (key, vm2) := pop vm1
    if ¬ isObjType vm2 key .OBJ_STRING then some (false, runtimeError vm2)
    else
      match key, heapGet vm2.heap table with
      | .obj k, some o =>
        match o.data with
        | .table values =>
          match setData vm2 table (.table (tableSet values k value).1) with
          | none => none
          | some vm3 => createCoreTableLoop count vm3 table
        | _ => none
      | _, _ => none

def createCoreTable (H : Host) (vm : VM) (numValues : Nat) : Option (InterpretResult × VM) :=
  match newCoreTable H vm with
  | none => none
  | some (vm1, table) =>
    match createCoreTableLoop numValues vm1 table with
    | none => none
    | some (false, vm2) => some (.INTERPRET_RUNTIME_ERROR, vm2)
    | some (true, vm2) =>
      match tableGet vm2.globals vm2.constants.strTableClass_ with
      | none => some (.INTERPRET_RUNTIME_ERROR, runtimeError vm2)
      | some (.obj klass) =>
        match newInstance H vm2 klass with
        | none => none
        | some (vm3, inst) =>
          match setData vm3 inst
              (.inst klass (tableSet [] vm3.constants.strData_ (.obj table)).1) with
          | none => none
          | some vm4 => some (.INTERPRET_OK, push vm4 (.obj inst))
      | some _ => none

/-- The macro BINARY_OP; `op` is the C operator wrapped in `valueType`. -/
def BINARY_OP (vm : VM) (op : Int → Int → Value) : InterpretResult × VM :=
  if ¬ IS_NUMBER (peek vm 0) ∨ ¬ IS_NUMBER (peek vm 1) then
    (.INTERPRET_RUNTIME_ERROR, runtimeError vm)
  else
    let b := AS_NUMBER (pop vm).1
    let a := AS_NUMBER (pop (pop vm).2).1
    (.INTERPRET_CONTINUE, push (pop (pop vm).2).2 (op a b))

/-- The assignment `closure->upvalues[i] = upvalue`. -/
def setClosureUpvalue (vm : VM) (closure : Ref) (i : Nat) (upvalue : Option Ref) : Option VM :=
  match heapGet vm.heap closure with
  | none => none
  | some o =>
    match o.data with
    | .closure function upvalues =>
      if i < upvalues.length then setData vm closure (.closure function (upvalues.set i upvalue))
      else none
    | _ => none

/-- The for loop of the case OP_CLOSURE, from index `i` on, `count` times. -/
def closureLoop (H : Host) : Nat → Nat → VM → Ref → Option VM
  | 0, _, vm, _ => some vm
  | count + 1, i, vm, closure =>
    match fetchByte vm with
    | none => none
    | some (isLocal, vm1) =>
      match fetchByte vm1 with
      | none => none
      | some (index, vm2) =>
        match vm2.current.frames.getLast? with
        | none => none
        | some frame =>
          if isLocal ≠ 0 then
            match captureUpvalue H vm2 (frame.slots + index) with
            | none => none
            | some (vm3, upvalue) =>
              match setClosureUpvalue vm3 closure i (some upvalue) with
              | none => none
              | some vm4 => closureLoop H count (i + 1) vm4 closure
          else
            match heapGet vm2.heap frame.closure with
            | none => none
            | some c =>
              match c.data with
              | .closure _ upvalues =>
                match upvalues[index]? with
                | none => none
                | some upvalue =>
                  match setClosureUpvalue vm2 closure i upvalue with
                  | none => none
                  | some vm3 => closureLoop H count (i + 1) vm3 closure
              | _ => none

/-- The number `closure->upvalueCount`. -/
def closureUpvalueCount (heap : Heap) (closure : Ref) : Option Nat :=
  match heapGet heap closure with
  | some o =>
    match o.data with
    | .closure _ upvalues => some upvalues.length
    | _ => none
  | none => none

/-- The case OP_CLOSURE of runSingle. -/
def runSingle_OP_CLOSURE (H : Host) (vm : VM) : Option (InterpretResult × VM) :=
  match readConstant vm with
  | some (.obj function, vm1) =>
    match newClosure H vm1 function with
    | none => none
    | some (vm2, closure) =>
      let vm3 := push vm2 (.obj closure)
      match closureUpvalueCount vm3.heap closure with
      | none => none
      | some count =>
        match closureLoop H count 0 vm3 closure with
        | none => none
        | some vm4 => some (.INTERPRET_CONTINUE, vm4)
  | _ => none

/-- The value `*upvalue->location`. -/
def readUpvalue (vm : VM) (upvalue : Ref) : Option Value :=
  match heapGet vm.heap upvalue with
  | some o =>
    match o.data with
    | .upvalue (.stack slot) _ _ => some (vm.current.stack.getD slot .nil)
    | .upvalue .closed closed _ => some closed
    | _ => none
  | none => none

/-- The store `*upvalue->location = value`. -/
def writeUpvalue (vm : VM) (upvalue : Ref) (value : Value) : Option VM :=
  match heapGet vm.heap upvalue with
  | some o =>
    match o.data with
    | .upvalue (.stack slot) _ _ =>
      some { vm with current := { vm.current with stack := vm.current.stack.set slot value } }
    | .upvalue .closed _ next => setData vm upvalue (.upvalue .closed value next)
    | _ => none
  | none => none

/-- The pointer `(*framePtr)->closure->upvalues[slot]`. -/
def frameUpvalue (vm : VM) (slot : Nat) : Option Ref :=
  match vm.current.frames.getLast? with
  | none => none
  | some frame =>
    match heapGet vm.heap frame.closure with
    | some c =>
      match c.data with
      | .closure _ upvalues =>
        match upvalues[slot]? with
        | some (some upvalue) => some upvalue
        | _ => none
      | _ => none
    | none => none

/-- What a boolean result of a helper makes of the step. -/
def stepResult (r : Option (Bool × VM)) : Option (InterpretResult × VM) :=
  match r with
  | none => none
  | some (false, vm) => some (.INTERPRET_RUNTIME_ERROR, vm)
  | some (true, vm) => some (.INTERPRET_CONTINUE, vm)

/-! ## runSingle and run (vm.c) -/

/-- runSingle, entered with `ip` behind the opcode byte `instruction`.  `none` is
"no result": a helper that does not return, or a read through a pointer that does not
point to what the case takes it for. -/
def runSingle (H : Host) (fuel : Nat) (vm : VM) (instruction : Nat) :
    Option (InterpretResult × VM) :=
  match OpCode.ofByte instruction with
  | some .OP_ADD => some (BINARY_OP vm (fun a b => .number (H.numAdd a b)))
  | some .OP_CALL => runSingle_OP_CALL H fuel vm
  | some .OP_CALL_POSTFIX =>
    match fetchByte vm with
    | none => none
    | some (argCount, vm1) => stepResult (callValuePostfix H fuel vm1 (peek vm1 0) argCount)
  | some .OP_CLASS =>
    match readString vm with
    | none => none
    | some (name, vm1) =>
      match newClass H vm1 name with
      | none => none
      | some (vm2, klass) => some (.INTERPRET_CONTINUE, push vm2 (.obj klass))
  | some .OP_CLOSURE => runSingle_OP_CLOSURE H vm
  | some .OP_COLLECTION_LIST =>
    match fetchByte vm with
    | none => none
    | some (numValues, vm1) =>
      match createCoreList H vm1 numValues with
      | none => none
      | some (.INTERPRET_OK, vm2) => some (.INTERPRET_CONTINUE, vm2)
      | some (result, vm2) => some (result, vm2)
  | some .OP_COLLECTION_TABLE =>
    match fetchByte vm with
    | none => none
    | some (numValues, vm1) =>
      match createCoreTable H vm1 numValues with
      | none => none
      | some (.INTERPRET_OK, vm2) => some (.INTERPRET_CONTINUE, vm2)
      | some (result, vm2) => some (result, vm2)
  | some .OP_CONSTANT =>
    match readConstant vm with
    | none => none
    | some (constant, vm1) => some (.INTERPRET_CONTINUE, push vm1 constant)
  | some .OP_DIVIDE => some (BINARY_OP vm (fun a b => .number (H.numDiv a b)))
  | some .OP_EQUAL =>
    let b := (pop vm).1
    let a := (pop (pop vm).2).1
    some (.INTERPRET_CONTINUE, push (pop (pop vm).2).2 (.bool (valuesEqual H a b)))
  | some .OP_FALSE => some (.INTERPRET_CONTINUE, push vm (.bool false))
  | some .OP_GLOBAL_DEFINE =>
    match readString vm with
    | none => none
    | some (name, vm1) =>
      some (.INTERPRET_CONTINUE,
        (pop { vm1 with globals := (tableSet vm1.globals name (peek vm1 0)).1 }).2)
  | some .OP_GLOBAL_GET =>
    match readString vm with
    | none => none
    | some (name, vm1) =>
      match tableGet vm1.globals name with
      | none => some (.INTERPRET_RUNTIME_ERROR, runtimeError vm1)
      | some value => some (.INTERPRET_CONTINUE, push vm1 value)
  | some .OP_GLOBAL_SET =>
    match readString vm with
    | none => none
    | some (name, vm1) =>
      let vm2 : VM := { vm1 with globals := (tableSet vm1.globals name (peek vm1 0)).1 }
      if (tableSet vm1.globals name (peek vm1 0)).2 then
        some (.INTERPRET_RUNTIME_ERROR,
          runtimeError { vm2 with globals := tableDelete vm2.globals name })
      else some (.INTERPRET_CONTINUE, vm2)
  | some .OP_GREATER => some (BINARY_OP vm (fun a b => .bool (H.numGreater a b)))
  | some .OP_INHERIT =>
    let superclass := peek vm 1
    if ¬ isObjType vm superclass .OBJ_CLASS then
      some (.INTERPRET_RUNTIME_ERROR, runtimeError vm)
    else
      match superclass, peek vm 0 with
      | .obj sup, .obj subclass =>
        match heapGet vm.heap sup, heapGet vm.heap subclass with
        | some so, some bo =>
          match so.data, bo.data with
          | .klass _ superMethods, .klass name methods =>
            match setData vm subclass (.klass name (tableAddAll superMethods methods)) with
            | none => none
            | some vm1 => some (.INTERPRET_CONTINUE, (pop vm1).2)
          | _, _ => none
        | _, _ => none
      | _, _ => none
  | some .OP_INVOKE => runSingle_OP_INVOKE H fuel vm
  | some .OP_INVOKE_SUPER =>
    match readString vm with
    | none => none
    | some (method, vm1) =>
      match fetchByte vm1 with
      | none => none
      | some (argCount, vm2) =>
        match (pop vm2).1 with
        | .obj superclass => stepResult (invokeFromClass (pop vm2).2 superclass method argCount)
        | _ => none
  | some .OP_JUMP =>
    match fetchShort vm with
    | none => none
    | some (offset, vm1) =>
      match vm1.current.frames.getLast? with
      | none => none
      | some frame => some (.INTERPRET_CONTINUE, setFrameIp vm1 (frame.ip + offset))
  | some .OP_JUMP_IF_FALSE =>
    match fetchShort vm with
    | none => none
    | some (offset, vm1) =>
      match vm1.current.frames.getLast? with
      | none => none
      | some frame =>
        if isFalsey (peek vm1 0) then
          some (.INTERPRET_CONTINUE, setFrameIp vm1 (frame.ip + offset))
        else some (.INTERPRET_CONTINUE, vm1)
  | some .OP_LESS => some (BINARY_OP vm (fun a b => .bool (H.numLess a b)))
  | some .OP_LOCAL_GET =>
    match fetchByte vm with
    | none => none
    | some (slot, vm1) =>
      match vm1.current.frames.getLast? with
      | none => none
      | some frame =>
        some (.INTERPRET_CONTINUE, push vm1 (vm1.current.stack.getD (frame.slots + slot) .nil))
  | some .OP_LOCAL_SET =>
    match fetchByte vm with
    | none => none
    | some (slot, vm1) =>
      match vm1.current.frames.getLast? with
      | none => none
      | some frame =>
        some (.INTERPRET_CONTINUE,
          { vm1 with
            current :=
              { vm1.current with
                stack := vm1.current.stack.set (frame.slots + slot) (peek vm1 0) } })
  | some .OP_LOOP =>
    match fetchShort vm with
    | none => none
    | some (offset, vm1) =>
      match vm1.current.frames.getLast? with
      | none => none
      | some frame =>
        if offset ≤ frame.ip then some (.INTERPRET_CONTINUE, setFrameIp vm1 (frame.ip - offset))
        else none
  | some .OP_METHOD =>
    match readString vm with
    | none => none
    | some (name, vm1) =>
      match defineMethod vm1 name with
      | none => none
      | some vm2 => some (.INTERPRET_CONTINUE, vm2)
  | some .OP_MULTIPLY => some (BINARY_OP vm (fun a b => .number (H.numMul a b)))
  | some .OP_NEGATE =>
    if ¬ IS_NUMBER (peek vm 0) then some (.INTERPRET_RUNTIME_ERROR, runtimeError vm)
    else
      some (.INTERPRET_CONTINUE, push (pop vm).2 (.number (H.numNeg (AS_NUMBER (pop vm).1))))
  | some .OP_NIL => some (.INTERPRET_CONTINUE, push vm .nil)
  | some .OP_NOT =>
    some (.INTERPRET_CONTINUE, push (pop vm).2 (.bool (isFalsey (pop vm).1)))
  | some .OP_POP => some (.INTERPRET_CONTINUE, (pop vm).2)
  | some .OP_PROPERTY_GET =>
    if ¬ isObjType vm (peek vm 0) .OBJ_INSTANCE then
      some (.INTERPRET_RUNTIME_ERROR, runtimeError vm)
    else
      match peek vm 0 with
      | .obj inst =>
        match readString vm with
        | none => none
        | some (name, vm1) =>
          match heapGet vm1.heap inst with
          | none => none
          | some o =>
            match o.data with
            | .inst klass fields =>
              match tableGet fields name with
              | some value => some (.INTERPRET_CONTINUE, push (pop vm1).2 value)
              | none => stepResult (bindMethod H vm1 klass name)
            | _ => none
      | _ => none
  | some .OP_PROPERTY_SET =>
    if ¬ isObjType vm (peek vm 1) .OBJ_INSTANCE then
      some (.INTERPRET_RUNTIME_ERROR, runtimeError vm)
    else
      match peek vm 1 with
      | .obj inst =>
        match readString vm with
        | none => none
        | some (name, vm1) =>
          match heapGet vm1.heap inst with
          | none => none
          | some o =>
            match o.data with
            | .inst klass fields =>
              match setData vm1 inst (.inst klass (tableSet fields name (peek vm1 0)).1) with
              | none => none
              | some vm2 =>
                some (.INTERPRET_CONTINUE, push (pop (pop vm2).2).2 (pop vm2).1)
            | _ => none
      | _ => none
  | some .OP_RETURN => runSingle_OP_RETURN vm
  | some .OP_SUBTRACT => some (BINARY_OP vm (fun a b => .number (H.numSub a b)))
  | some .UP_SUPER_GET =>
    match readString vm with
    | none => none
    | some (name, vm1) =>
      match (pop vm1).1 with
      | .obj superclass => stepResult (bindMethod H (pop vm1).2 superclass name)
      | _ => none
  | some .OP_TRUE => some (.INTERPRET_CONTINUE, push vm (.bool true))
  | some .OP_UPVALUE_GET =>
    match fetchByte vm with
    | none => none
    | some (slot, vm1) =>
      match frameUpvalue vm1 slot with
      | none => none
      | some upvalue =>
        match readUpvalue vm1 upvalue with
        | none => none
        | some value => some (.INTERPRET_CONTINUE, push vm1 value)
  | some .OP_UPVALUE_SET =>
    match fetchByte vm with
    | none => none
    | some (slot, vm1) =>
      match frameUpvalue vm1 slot with
      | none => none
      | some upvalue =>
        match writeUpvalue vm1 upvalue (peek vm1 0) with
        | none => none
        | some vm2 => some (.INTERPRET_CONTINUE, vm2)
  | some .OP_UPVALUE_CLOSE =>
    match closeUpvalues vm (vm.current.stackTop - 1) with
    | none => none
    | some vm1 => some (.INTERPRET_CONTINUE, (pop vm1).2)
  | none => some (.INTERPRET_RUNTIME_ERROR, runtimeError vm)

/-- The loop of run: fetch the opcode, runSingle, until the result is not
INTERPRET_CONTINUE.  Each turn costs one unit of fuel. -/
def run (H : Host) : Nat → VM → Option (InterpretResult × VM)
  | 0, _ => none
  | fuel + 1, vm =>
    match fetchByte vm with
    | none => none
    | some (instruction, vm1) =>
      match runSingle H (fuel + 1) vm1 instruction with
      | none => none
      | some (.INTERPRET_CONTINUE, vm2) => run H fuel vm2
      | some (result, vm2) => some (result, vm2)

/-- The fiber of the machine is reset: no frame, stackTop at the bottom of the stack, no
open upvalue. -/
def FiberReset (vm : VM) : Prop :=
  vm.current.frames = [] ∧ vm.current.stackTop = 0 ∧ vm.current.openUpvalues = none

/-! ## States between two collections -/

/-- Every object of the heap is on the allocation list. -/
def allListed (vm : VM) : Bool :=
  (List.range vm.heap.length).all (fun r =>
    match heapGet vm.heap r with
    | some _ => (chainNodes (objNext vm.heap) (vm.heap.length + 1) vm.objects).contains r
    | none => true)

/-- The machine between two collections: the lists a collection walks are proper, no
object carries a mark, and every object is on the allocation list. -/
def Sound (vm : VM) : Prop :=
  Ready vm ∧ allUnmarked vm.heap = true ∧ allListed vm = true

/-- The heap `heap1` has objects at the addresses of `heap`, each with the mark bit and
the link of the allocation list it has in `heap`, and none has turned into a fiber. -/
def SameHeaders (heap heap1 : Heap) : Prop :=
  heap1.length = heap.length ∧
  (∀ q, heapGet heap q = none → heapGet heap1 q = none) ∧
  ∀ q o, heapGet heap q = some o →
    ∃ o1, heapGet heap1 q = some o1 ∧ o1.isMarked = o.isMarked ∧ o1.next = o.next ∧
      ∀ f, o1.data = .fiber f → o.data = .fiber f

/-- Every object that is reachable in `vm` is in `vm1` with the payload it had. -/
def Kept (vm vm1 : VM) : Prop :=
  ∀ r, Reachable vm r → ∀ o, heapGet vm.heap r = some o →
    ∃ o1, heapGet vm1.heap r = some o1 ∧ o1.data = o.data

/-! ## More example states -/

/-- A machine in the class declaration `class B < A`: the class A (object 3, with a method
`f`, the closure 1) is at peek(1) and the class B (object 5, with a method `g`) at
peek(0); object 2 is the string `f`, object 4 the string `g`. -/
def inheritVM : VM :=
  { emptyVM with
    heap :=
      [some { isMarked := false, next := none,
              data := .function { arity := 0, upvalueCount := 0,
                                  chunk := { code := [], lines := [], constants := [] },
                                  name := none } },
       some { isMarked := false, next := some 0, data := .closure 0 [] },
       some { isMarked := false, next := some 1, data := .string [102] (hashString [102]) },
       some { isMarked := false, next := some 2, data := .klass 2 [(2, .obj 1)] },
       some { isMarked := false, next := some 3, data := .string [103] (hashString [103]) },
       some { isMarked := false, next := some 4, data := .klass 4 [(4, .obj 1)] }]
    objects := some 5
    strings := [(2, .nil), (4, .nil)]
    current :=
      { id := 0, parent := none,
        frames := [{ closure := 1, ip := 0, slots := 0 }]
        stack := [.obj 1, .obj 3, .obj 5, .nil, .nil, .nil, .nil, .nil]
        stackTop := 3
        openUpvalues := none } }

/-- A machine about to call a class: the class (object 3, named by the string `init`,
object 2, for want of another string) with the given methods is on top of the stack, and
the closure 1 takes no argument. -/
def classVM (methods : Table) : VM :=
  { emptyVM with
    heap :=
      [some { isMarked := false, next := none,
              data := .function { arity := 0, upvalueCount := 0,
                                  chunk := { code := [], lines := [], constants := [] },
                                  name := none } },
       some { isMarked := false, next := some 0, data := .closure 0 [] },
       some { isMarked := false, next := some 1,
              data := .string [105, 110, 105, 116] (hashString [105, 110, 105, 116]) },
       some { isMarked := false, next := some 2, data := .klass 2 methods }]
    objects := some 3
    strings := [(2, .nil)]
    constants := { strInit_ := 2, strListClass_ := 2, strTableClass_ := 2, strData_ := 2,
                   others := [] }
    current :=
      { id := 0, parent := none,
        frames := [{ closure := 1, ip := 0, slots := 0 }]
        stack := [.obj 1, .obj 3, .nil, .nil, .nil, .nil, .nil, .nil]
        stackTop := 2
        openUpvalues := none } }

/-- A machine about to run a collection literal.  The prelude classes are defined: `List`
is the class 4 and `Table` the class 6; the strings `List`, `data`, `Table`, `k` and `init`
are the objects 2, 3, 5, 7 and 8.  The innermost frame has read the opcode and stands
before the count byte 2 (at offset 1) or 1 (at offset 3).  100 bytes are allocated, and
`nextGC` says when the next collection starts. -/
def collectionVM (stack : List Value) (stackTop : Nat) (ip : Nat) (nextGC : Nat) : VM :=
  { emptyVM with
    heap :=
      [some { isMarked := false, next := none,
              data := .function { arity := 0, upvalueCount := 0,
                                  chunk := { code := [5, 2, 6, 1], lines := [1, 1, 1, 1],
                                             constants := [] },
                                  name := none } },
       some { isMarked := false, next := some 0, data := .closure 0 [] },
       some { isMarked := false, next := some 1,
              data := .string [76, 105, 115, 116] (hashString [76, 105, 115, 116]) },
       some { isMarked := false, next := some 2,
              data := .string [100, 97, 116, 97] (hashString [100, 97, 116, 97]) },
       some { isMarked := false, next := some 3, data := .klass 2 [] },
       some { isMarked := false, next := some 4,
              data := .string [84, 97, 98, 108, 101] (hashString [84, 97, 98, 108, 101]) },
       some { isMarked := false, next := some 5, data := .klass 5 [] },
       some { isMarked := false, next := some 6, data := .string [107] (hashString [107]) },
       some { isMarked := false, next := some 7,
              data := .string [105, 110, 105, 116] (hashString [105, 110, 105, 116]) }]
    objects := some 8
    strings := [(2, .nil), (3, .nil), (5, .nil), (7, .nil), (8, .nil)]
    globals := [(2, .obj 4), (5, .obj 6)]
    constants := { strInit_ := 8, strListClass_ := 2, strTableClass_ := 5, strData_ := 3,
                   others := [] }
    bytesAllocated := 100
    nextGC := nextGC
    current :=
      { id := 0, parent := none,
        frames := [{ closure := 1, ip := ip, slots := 0 }]
        stack := stack
        stackTop := stackTop
        openUpvalues := none } }

/-- What a step leaves behind, for the list literal `[10, 20]`: the result, stackTop, the
value on top of the stack, the payloads of the objects 9 (the raw list) and 10 (the
instance), and the byte count. -/
def collectionOutcome (r : Option (InterpretResult × VM)) :
    Option (InterpretResult × Nat × Value × Option ObjData × Option ObjData × Nat) :=
  r.map (fun p =>
    (p.1, p.2.current.stackTop, peek p.2 0, (heapGet p.2.heap 9).map (fun o => o.data),
      (heapGet p.2.heap 10).map (fun o => o.data), p.2.bytesAllocated))

/-- The stack of the list literal `[10, 20]`. -/
def listLiteralStack : List Value :=
  [.obj 1, .number 10, .number 20, .nil, .nil, .nil, .nil, .nil]

/-- The stack of the table literal whose one entry is the string `k` with the value 10. -/
def tableLiteralStack : List Value :=
  [.obj 1, .obj 7, .number 10, .nil, .nil, .nil, .nil, .nil]

/-- The state of the loop of the case OP_CLOSURE after `i` turns, `frame` being the
innermost frame as it stands before the first pair of operand bytes and `cur` the fiber:
the machine is between two collections; the fiber has its stack and the frame has moved on
by `2 * i` bytes; the closure `fn` of the frame and its function keep their payload; the
open-upvalue list is strictly descending; the new closure has `n` entries, and those below
`i` are set as the pairs say. -/
def ClosureInv (cur : ObjFiber) (pre : List CallFrame) (frame : CallFrame) (fn : Ref)
    (ups : List (Option Ref)) (ff : ObjFunction) (closure function : Ref) (n : Nat)
    (vm : VM) (i : Nat) : Prop :=
  Sound vm ∧
  (vm.current.id = cur.id ∧ vm.current.parent = cur.parent ∧ vm.current.stack = cur.stack ∧
    vm.current.stackTop = cur.stackTop ∧
    vm.current.frames = pre ++ [{ frame with ip := frame.ip + 2 * i }]) ∧
  (∃ co, heapGet vm.heap frame.closure = some co ∧ co.data = .closure fn ups) ∧
  (∃ fo, heapGet vm.heap fn = some fo ∧ fo.data = .function ff) ∧
  ∃ l o entries, chain (openNext vm.heap) vm.current.openUpvalues l = true ∧
    (l.map (slotOf vm.heap)).Pairwise (· > ·) ∧
    heapGet vm.heap closure = some o ∧ o.data = .closure function entries ∧
    entries.length = n ∧
    ∀ j, j < i →
      (ff.chunk.code.getD (frame.ip + 2 * j) 0 ≠ 0 →
        ∃ u, entries[j]? = some (some u) ∧ u ∈ l ∧
          slotOf vm.heap u = frame.slots + ff.chunk.code.getD (frame.ip + 2 * j + 1) 0) ∧
      (ff.chunk.code.getD (frame.ip + 2 * j) 0 = 0 →
        entries[j]? = ups[ff.chunk.code.getD (frame.ip + 2 * j + 1) 0]?)

/-! ## Function declarations (compiler.c) -/

/-- A store through `current_`. -/
def setCurrent (s : CompileState) (update : Compiler → Compiler) : CompileState :=
  match s.compilers with
  | [] => s
  | c :: rest => { s with compilers := update c :: rest }

def emitReturn (s : CompileState) : Option CompileState := do
  let c ← s.compilers.head?
  let s1 ←
    (if c.type = .TYPE_INITIALIZER then emitBytes s OpCode.OP_LOCAL_GET.toByte 0
     else emitByte s OpCode.OP_NIL.toByte)
  emitByte s1 OpCode.OP_RETURN.toByte

/-- initCompiler.  newFunction runs while `current_` is still the enclosing compiler; the
new compiler is linked in before the name is copied.  The array `upvalues` of the new
compiler is not initialised by the source: its entries below the upvalueCount of the
function, which is 0, are none. -/
def initCompiler (H : Host) (s : CompileState) (type : FunctionType) : Option CompileState := do
  let (vm1, function) ← newFunction H s.vm
  let compiler : Compiler :=
    { function := function, type := type, locals := [], upvalues := [], scopeDepth := 0 }
  let s1 : CompileState :=
    { s with
      vm := { vm1 with compilerRoots := function :: vm1.compilerRoots }
      compilers := compiler :: s.compilers }
  let s2 ←
    (if type ≠ .TYPE_SCRIPT then do
      let (vm2, name) ← copyString H s1.vm s1.parser.previous.lexeme
      let (o, f) ← functionOf { s1 with vm := vm2 } compiler
      some { s1 with
             vm := { vm2 with
                     heap := vm2.heap.set function
                       (some { o with data := .function { f with name := some name } }) } }
    else some s1)
  let local_ : Local :=
    { name := if type ≠ .TYPE_FUNCTION then "this".toList.map Char.toNat else []
      depth := 0
      isCaptured := false }
  some (setCurrent s2 (fun c => { c with locals := c.locals ++ [local_] }))

/-- endCompiler: the function of the compiler that ends, and the state with `current_` set
to the enclosing one.  The listing under `dbg_code` only prints. -/
def endCompiler (s : CompileState) : Option (Ref × CompileState) := do
  let s1 ← emitReturn s
  let c ← s1.compilers.head?
  some (c.function,
    { s1 with
      compilers := s1.compilers.tail
      vm := { s1.vm with compilerRoots := s1.vm.compilerRoots.tail } })

def beginScope (s : CompileState) : CompileState :=
  setCurrent s (fun c => { c with scopeDepth := c.scopeDepth + 1 })

def addLocal (s : CompileState) (name : List Nat) : CompileState :=
  match s.compilers with
  | [] => s
  | c :: _ =>
    if c.locals.length = BYTE_HEIGHT then error s "Too many local variables in function."
    else
      setCurrent s (fun c =>
        { c with locals := c.locals ++ [{ name := name, depth := -1, isCaptured := false }] })

/-- The loop of declareVariable over the locals from the last one down. -/
def declareVariableLoop (name : List Nat) (scopeDepth : Nat) (s : CompileState) :
    List Local → CompileState
  | [] => s
  | local_ :: below =>
    if local_.depth ≠ -1 ∧ local_.depth < (scopeDepth : Int) then s
    else
      declareVariableLoop name scopeDepth
        (if identifiersEqual name local_.name then
          error s "Already a variable with this name in this scope."
         else s)
        below

def declareVariable (s : CompileState) : CompileState :=
  match s.compilers with
  | [] => s
  | c :: _ =>
    if c.scopeDepth = 0 then s
    else
      addLocal (declareVariableLoop s.parser.previous.lexeme c.scopeDepth s c.locals.reverse)
        s.parser.previous.lexeme

def parseVariable (H : Host) (s : CompileState) (errorMessage : String) :
    Option (Nat × CompileState) := do
  let s1 := declareVariable (consume s .TOKEN_IDENTIFIER errorMessage)
  let c ← s1.compilers.head?
  if c.scopeDepth > 0 then some (0, s1)
  else identifierConstant H s1 s1.parser.previous.lexeme

/-- markInitialized; the store goes to the last local, and there is none to store to when
the compiler has no local. -/
def markInitialized (s : CompileState) : Option CompileState := do
  let c ← s.compilers.head?
  if c.scopeDepth = 0 then some s
  else if c.locals = [] then none
  else
    some (setCurrent s (fun c =>
      { c with
        locals := c.locals.modify (fun l => { l with depth := (c.scopeDepth : Int) })
          (c.locals.length - 1) }))

def defineVariable (s : CompileState) (global : Nat) : Option CompileState := do
  let c ← s.compilers.head?
  if c.scopeDepth > 0 then markInitialized s
  else emitBytes s OpCode.OP_GLOBAL_DEFINE.toByte global

/-- The do-while loop of `function` over the parameters. -/
def functionParameters (H : Host) : Nat → CompileState → Option CompileState
  | 0, _ => none
  | fuel + 1, s => do
    let c ← s.compilers.head?
    let (o, f) ← functionOf s c
    let s1 : CompileState :=
      { s with
        vm := { s.vm with
                heap := s.vm.heap.set c.function
                  (some { o with data := .function { f with arity := f.arity + 1 } }) } }
    let s2 :=
      if f.arity + 1 > BYTE_MAX then error s1 "Can't have more than 255 parameters." else s1
    let (constant, s3) ← parseVariable H s2 "Expect parameter name."
    let s4 ← defineVariable s3 constant
    if (matchToken s4 .TOKEN_COMMA).1 then functionParameters H fuel (matchToken s4 .TOKEN_COMMA).2
    else some (matchToken s4 .TOKEN_COMMA).2

/-- The part of `function` up to the end of `block()`; `block` is the function of that
name. -/
def functionBody (H : Host) (block : CompileState → Option CompileState) (fuel : Nat)
    (type : FunctionType) (s : CompileState) : Option CompileState := do
  let s1 ← initCompiler H s type
  let s2 := beginScope s1
  let s3 := consume s2 .TOKEN_LEFT_PAREN "Expect '(' after function name."
  let s4 ← (if ¬ check s3 .TOKEN_RIGHT_PAREN then functionParameters H fuel s3 else some s3)
  let s5 := consume s4 .TOKEN_RIGHT_PAREN "Expect ')' after parameters."
  let s6 := consume s5 .TOKEN_LEFT_CURLY "Expect '\x7b' before function body."
  block s6

/-- The for loop at the end of `function`, from index `i` on, `count` times, over the array
`compiler.upvalues`; an entry that was never written has no value to emit. -/
def emitUpvalues : Nat → Nat → List Upvalue → CompileState → Option CompileState
  | 0, _, _, s => some s
  | count + 1, i, upvalues, s => do
    let u ← upvalues[i]?
    let s1 ← emitByte s (if u.isLocal then 1 else 0)
    let s2 ← emitByte s1 u.index
    emitUpvalues count (i + 1) upvalues s2

/-- The part of `function` after `block()`: endCompiler, OP_CLOSURE with the constant of the
function, and one pair of bytes for each upvalue the function counts.  emitByte leaves the
count alone, so it is read once. -/
def functionEnd (s : CompileState) : Option CompileState := do
  let compiler ← s.compilers.head?
  let (function, s1) ← endCompiler s
  let (constant, s2) ← makeConstant s1 (.obj function)
  let s3 ← emitBytes s2 OpCode.OP_CLOSURE.toByte constant
  let f ← functionAt s3.vm.heap function
  emitUpvalues f.upvalueCount 0 compiler.upvalues s3

/-- The function `function` of compiler.c. -/
def function (H : Host) (block : CompileState → Option CompileState) (fuel : Nat)
    (type : FunctionType) (s : CompileState) : Option CompileState := do
  let s7 ← functionBody H block fuel type s
  functionEnd s7

/-- An identifier token. -/
def identifierToken (text : String) : Token :=
  { type := .TOKEN_IDENTIFIER, lexeme := text.toList.map Char.toNat, line := 1 }

/-- A compiler state at the `(` of the declaration of a function `f` whose body reads `x` and
`y`: the function under compilation (object 1) has the local `x`, the function that encloses
it (object 0) has the local `y`. -/
def nestedState : CompileState :=
  { vm :=
      { emptyVM with
        heap :=
          [some { isMarked := false, next := none,
                  data := .function { arity := 0, upvalueCount := 0,
                                      chunk := { code := [], lines := [], constants := [] },
                                      name := none } },
           some { isMarked := false, next := some 0,
                  data := .function { arity := 0, upvalueCount := 0,
                                      chunk := { code := [], lines := [], constants := [] },
                                      name := none } }]
        objects := some 1
        compilerRoots := [1, 0] }
    parser :=
      { current := opToken .TOKEN_LEFT_PAREN, previous := identifierToken "f",
        hadError := false, panicMode := false,
        source := [opToken .TOKEN_RIGHT_PAREN, opToken .TOKEN_LEFT_CURLY, identifierToken "x",
                   opToken .TOKEN_PLUS, identifierToken "y", opToken .TOKEN_RIGHT_CURLY] }
    compilers :=
      [{ function := 1, type := .TYPE_FUNCTION,
         locals := [{ name := [], depth := 0, isCaptured := false },
                    { name := [120], depth := 1, isCaptured := false }],
         upvalues := [], scopeDepth := 1 },
       { function := 0, type := .TYPE_FUNCTION,
         locals := [{ name := [], depth := 0, isCaptured := false },
                    { name := [121], depth := 1, isCaptured := false }],
         upvalues := [], scopeDepth := 1 }]
    classes := []
    errors := [] }

/-- The body of the function of nestedState, read as one expression. -/
def nestedBlock (s : CompileState) : Option CompileState :=
  expression exampleHost 10 s

/-- The state of nestedState after the body of `f` has been compiled. -/
def nestedBodyState : CompileState :=
  (functionBody exampleHost nestedBlock 4 .TYPE_FUNCTION nestedState).getD nestedState

/-- A machine that runs the code `function` emits for nestedState: the function 0 holds
OP_CLOSURE, the constant 0 and the pairs (1, 1) and (0, 0); its closure 1 has the open
upvalue 3, for stack slot 1, as its entry 0; the function 2 counts two upvalues.  The
innermost frame has base 2 and has read the opcode.  100 bytes are allocated and the next
collection starts above 120. -/
def closureVM : VM :=
  { emptyVM with
    heap :=
      [some { isMarked := false, next := none,
              data := .function { arity := 0, upvalueCount := 1,
                                  chunk := { code := [4, 0, 1, 1, 0, 0],
                                             lines := [1, 1, 1, 1, 1, 1],
                                             constants := [.obj 2] },
                                  name := none } },
       some { isMarked := false, next := some 0, data := .closure 0 [some 3] },
       some { isMarked := false, next := some 1,
              data := .function { arity := 0, upvalueCount := 2,
                                  chunk := { code := [36, 0, 36, 1, 0, 27, 32],
                                             lines := [1, 1, 1, 1, 1, 1, 1],
                                             constants := [] },
                                  name := none } },
       some { isMarked := false, next := some 2, data := .upvalue (.stack 1) .nil none }]
    objects := some 3
    bytesAllocated := 100
    nextGC := 120
    current :=
      { id := 0, parent := none,
        frames := [{ closure := 1, ip := 0, slots := 0 }, { closure := 1, ip := 1, slots := 2 }]
        stack := [.obj 1, .number 10, .obj 1, .number 20, .nil, .nil, .nil, .nil]
        stackTop := 4
        openUpvalues := some 3 } }

/-! ## Loops, methods and return statements (compiler.c) -/

def emitLoop (s : CompileState) (loopStart : Nat) : Option CompileState := do
  let s1 ← emitByte s OpCode.OP_LOOP.toByte
  let chunk ← currentChunk s1
  let offset := chunk.code.length - loopStart + 2
  let s2 := if offset > UINT16_MAX then error s1 "Loop body too large." else s1
  let s3 ← emitByte s2 ((offset / 2 ^ 8) % 256)
  emitByte s3 (offset % 256)

/-- The text `init`. -/
def initName : List Nat := "init".toList.map Char.toNat

/-- The type `method` gives the function it compiles: the test on the length and the bytes
of the previous token. -/
def methodType (previous : Token) : FunctionType :=
  if previous.lexeme.length = 4 ∧ previous.lexeme.take 4 = initName then .TYPE_INITIALIZER
  else .TYPE_METHOD

/-- The function `method`; `block` is the function of that name. -/
def method (H : Host) (block : CompileState → Option CompileState) (fuel : Nat)
    (s : CompileState) : Option CompileState := do
  let s1 := consume s .TOKEN_IDENTIFIER "Expect method name."
  let (constant, s2) ← identifierConstant H s1 s1.parser.previous.lexeme
  let type := methodType s2.parser.previous
  let s3 ← function H block fuel type s2
  emitBytes s3 OpCode.OP_METHOD.toByte constant

/-- The function returnStatement; `expression` is the function of that name. -/
def returnStatement (expression : CompileState → Option CompileState) (s : CompileState) :
    Option CompileState := do
  let c ← s.compilers.head?
  let s1 := if c.type = .TYPE_SCRIPT then error s "Can't return from top-level code." else s
  if (matchToken s1 .TOKEN_SEMICOLON).1 then emitReturn (matchToken s1 .TOKEN_SEMICOLON).2
  else do
    let s2 := (matchToken s1 .TOKEN_SEMICOLON).2
    let c2 ← s2.compilers.head?
    let s3 :=
      if c2.type = .TYPE_INITIALIZER then error s2 "Can't return a value from an initializer."
      else s2
    let s4 ← expression s3
    let s5 := consume s4 .TOKEN_SEMICOLON "Expect ';' after return value."
    emitByte s5 OpCode.OP_RETURN.toByte

/-- A function whose code starts with a jump that is not yet patched: OP_JUMP_IF_FALSE with
the placeholder bytes, then OP_POP, OP_CONSTANT 0 and OP_POP. -/
def jumpFunction : ObjFunction :=
  { arity := 0, upvalueCount := 0,
    chunk := { code := [19, 255, 255, 29, 7, 0, 29], lines := [1, 1, 1, 1, 1, 1, 1],
               constants := [.number 5] },
    name := none }

/-- The object that holds jumpFunction. -/
def jumpObject : Obj := { isMarked := false, next := none, data := .function jumpFunction }

/-- The compiler of jumpFunction. -/
def jumpCompiler : Compiler :=
  { function := 0, type := .TYPE_SCRIPT,
    locals := [{ name := "this".toList.map Char.toNat, depth := 0, isCaptured := false }],
    upvalues := [], scopeDepth := 0 }

/-- A compiler state in the middle of the script whose function is jumpFunction. -/
def jumpState : CompileState :=
  { vm := { emptyVM with heap := [some jumpObject], objects := some 0, compilerRoots := [0] }
    parser := { current := opToken .TOKEN_SEMICOLON, previous := numberToken "5",
                hadError := false, panicMode := false, source := [] }
    compilers := [jumpCompiler]
    classes := []
    errors := [] }

/-- A compiler at scope depth 2 with the locals `x` and `y` of depth 1, a second `x` of
depth 2 and a `z` that is declared and not yet initialised. -/
def shadowCompiler : Compiler :=
  { function := 0, type := .TYPE_FUNCTION,
    locals := [{ name := [], depth := 0, isCaptured := false },
               { name := [120], depth := 1, isCaptured := false },
               { name := [121], depth := 1, isCaptured := false },
               { name := [120], depth := 2, isCaptured := false },
               { name := [122], depth := -1, isCaptured := false }],
    upvalues := [], scopeDepth := 2 }

/-- A compiler state whose only compiler is shadowCompiler and whose previous token is the
identifier with the given text. -/
def shadowState (text : String) : CompileState :=
  { jumpState with
    parser := { jumpState.parser with previous := identifierToken text }
    compilers := [shadowCompiler] }

/-- The state jumpState with a compiler of the given type and the given current token. -/
def returnState (type : FunctionType) (current : Token) : CompileState :=
  { jumpState with
    parser := { jumpState.parser with current := current }
    compilers := [{ jumpCompiler with type := type }] }

/-! ## The compiler chain -/

/-- Every compiler of the chain has a function object of its own, and the entries of its
upvalue array below the count of that function have been written. -/
def CompilersProper (s : CompileState) : Prop :=
  (s.compilers.map (fun c => c.function)).Nodup ∧
  ∀ (k : Nat) (c : Compiler), s.compilers[k]? = some c →
    ∃ o f, heapGet s.vm.heap c.function = some o ∧ o.data = .function f ∧
      f.upvalueCount ≤ c.upvalues.length

/-- What name resolution on the compiler at position `d` leaves alone: the length of the
chain, the compilers inside position `d`, the function of each compiler, and every object
that is not the function of a compiler from `d` outwards. -/
def ChainKept (d : Nat) (s s1 : CompileState) : Prop :=
  s1.compilers.length = s.compilers.length ∧
  (∀ k : Nat, k < d → s1.compilers[k]? = s.compilers[k]?) ∧
  (∀ (k : Nat) (c : Compiler), s.compilers[k]? = some c →
    ∃ c1 : Compiler, s1.compilers[k]? = some c1 ∧ c1.function = c.function) ∧
  (∀ q, (∀ (k : Nat) (c : Compiler), d ≤ k → s.compilers[k]? = some c → c.function ≠ q) →
    heapGet s1.vm.heap q = heapGet s.vm.heap q)

/-- The entry `r` of the upvalue array of the compiler at position `d` is live and is the
pair. -/
def UpvalueAt (s : CompileState) (d : Nat) (r : Int) (index : Nat) (isLocal : Bool) : Prop :=
  0 ≤ r ∧ ∃ (c : Compiler) (o : Obj) (f : ObjFunction), s.compilers[d]? = some c ∧
    heapGet s.vm.heap c.function = some o ∧
    o.data = .function f ∧ r.toNat < f.upvalueCount ∧
    c.upvalues[r.toNat]? = some { index := index, isLocal := isLocal }

/-- The function of the innermost compiler of nestedBodyState. -/
def nestedInnerFunction : ObjFunction :=
  { arity := 0, upvalueCount := 2,
    chunk := { code := [36, 0, 36, 1, 0], lines := [1, 1, 1, 1, 1], constants := [] },
    name := some 3 }

/-- The object that holds nestedInnerFunction. -/
def nestedInnerObject : Obj :=
  { isMarked := false, next := some 1, data := .function nestedInnerFunction }

/-- The innermost compiler of nestedBodyState. -/
def nestedInnerCompiler : Compiler :=
  { function := 2, type := .TYPE_FUNCTION,
    locals := [{ name := [], depth := 0, isCaptured := false }],
    upvalues := [{ index := 1, isLocal := true }, { index := 0, isLocal := false }],
    scopeDepth := 1 }

/-- The first `n` turns of the loop of run, as long as runSingle answers
INTERPRET_CONTINUE. -/
def runTurns (H : Host) : Nat → VM → Option (InterpretResult × VM)
  | 0, vm => some (.INTERPRET_CONTINUE, vm)
  | n + 1, vm =>
    match fetchByte vm with
    | none => none
    | some (instruction, vm1) =>
      match runSingle H (n + 1) vm1 instruction with
      | none => none
      | some (.INTERPRET_CONTINUE, vm2) => runTurns H n vm2
      | some (result, vm2) => some (result, vm2)

/-- A machine about to run the first instruction of a script whose function has the given
code and constants; the closure of the script is in slot 0 of the stack. -/
def scriptVM (code : List Nat) (constants : List Value) : VM :=
  { emptyVM with
    heap :=
      [some { isMarked := false, next := none,
              data := .function { arity := 0, upvalueCount := 0,
                                  chunk := { code := code, lines := code.map (fun _ => 1),
                                             constants := constants },
                                  name := none } },
       some { isMarked := false, next := some 0, data := .closure 0 [] }]
    objects := some 1
    current :=
      { id := 0, parent := none,
        frames := [{ closure := 1, ip := 0, slots := 0 }]
        stack := [.obj 1, .nil, .nil, .nil, .nil, .nil, .nil, .nil]
        stackTop := 1
        openUpvalues := none } }

/-- The tokens of `1 + 2 * 3;`. -/
def tokensPlusStar : List Token :=
  [numberToken "1", opToken .TOKEN_PLUS, numberToken "2", opToken .TOKEN_STAR, numberToken "3",
   opToken .TOKEN_SEMICOLON]

/-- The state jumpState with `1` as the current token and `+ 2 * 3;` ahead. -/
def sumState : CompileState :=
  { jumpState with
    parser := { jumpState.parser with
                current := numberToken "1", source := tokensPlusStar.drop 1 } }

/-! ## Natives on raw lists (native.c) -/

/-- The loop `for (int i = count - 1; i > index; i--) values[i] = values[i - 1]` of
`_list_insert_`, entered with the value of `i`. -/
def listInsertLoop (index : Int) : Nat → List Value → List Value
  | 0, values => values
  | i + 1, values =>
    if ((i + 1 : Nat) : Int) > index then
      listInsertLoop index i (values.set (i + 1) (values.getD i .nil))
    else values

/-- The native `_list_insert_`; `argv` is the stack index of the first argument.  The cast
of `argv[0]` to a list is a read through the pointer, and the conversion of the double
`argv[1]` to `int` is taken on the integral values that are the payloads of numbers here. -/
def _list_insert_ (H : Host) (vm : VM) (argv : Nat) : Option (Value × VM) :=
  match vm.current.stack.getD argv .nil with
  | .obj list =>
    let index : Int := AS_NUMBER (vm.current.stack.getD (argv + 1) .nil)
    let value := vm.current.stack.getD (argv + 2) .nil
    match heapGet vm.heap list with
    | none => none
    | some o =>
      match o.data with
      | .list values _ =>
        if values.length = 0 then
          if index = 0 then
            match writeValueArray H vm list value with
            | none => none
            | some vm1 => some (.nil, vm1)
          else some (.nil, vm)
        else if index = (values.length : Int) then
          match writeValueArray H vm list value with
          | none => none
          | some vm1 => some (.nil, vm1)
        else if 0 ≤ index ∧ index < (values.length : Int) then
          match writeValueArray H vm list .nil with
          | none => none
          | some vm1 =>
            match heapGet vm1.heap list with
            | none => none
            | some o1 =>
              match o1.data with
              | .list values1 capacity1 =>
                match setData vm1 list
                    (.list ((listInsertLoop index (values1.length - 1) values1).set
                      index.toNat value) capacity1) with
                | none => none
                | some vm2 => some (.nil, vm2)
              | _ => none
        else some (.nil, vm)
      | _ => none
  | _ => none

/-- The loop `for (int i = index; i < count - 1; i++) values[i] = values[i + 1]` of
`_list_del_`, entered with the value of `i`; each turn costs one unit of fuel. -/
def listDelLoop (count : Nat) : Nat → Nat → List Value → List Value
  | 0, _, values => values
  | fuel + 1, i, values =>
    if i < count - 1 then
      listDelLoop count fuel (i + 1) (values.set i (values.getD (i + 1) .nil))
    else values

/-- The native `_list_del_`; the list keeps its first `count - 1` values after the loop (the
slot behind them is set to nil and is no element any more). -/
def _list_del_ (vm : VM) (argv : Nat) : Option (Value × VM) :=
  match vm.current.stack.getD argv .nil with
  | .obj list =>
    let index : Int := AS_NUMBER (vm.current.stack.getD (argv + 1) .nil)
    match heapGet vm.heap list with
    | none => none
    | some o =>
      match o.data with
      | .list values capacity =>
        if 0 ≤ index ∧ index < (values.length : Int) then
          match setData vm list
              (.list ((listDelLoop values.length values.length index.toNat values).take
                (values.length - 1)) capacity) with
          | none => none
          | some vm1 => some (.nil, vm1)
        else some (.nil, vm)
      | _ => none
  | _ => none

/-- A machine in a call of a list native: the raw list (object 0) with the given values, an
index and a value are the arguments, in the stack slots 1 to 3. -/
def listVM (values : List Value) (capacity : Nat) (index : Int) (value : Value) : VM :=
  { emptyVM with
    heap := [some { isMarked := false, next := none, data := .list values capacity }]
    objects := some 0
    current :=
      { id := 0, parent := none, frames := []
        stack := [.nil, .obj 0, .number index, value, .nil, .nil, .nil, .nil]
        stackTop := 4
        openUpvalues := none } }

/-- A machine whose objects refer to each other in a cycle: the closure 0, on the stack,
has the closed upvalue 2, whose value is the closure 0; object 1 is the function. -/
def cycleVM : VM :=
  { emptyVM with
    heap :=
      [some { isMarked := false, next := none, data := .closure 1 [some 2] },
       some { isMarked := false, next := some 0,
              data := .function { arity := 0, upvalueCount := 1,
                                  chunk := { code := [], lines := [], constants := [] },
                                  name := none } },
       some { isMarked := false, next := some 1, data := .upvalue .closed (.obj 0) none }]
    objects := some 2
    current :=
      { id := 0, parent := none, frames := [{ closure := 0, ip := 0, slots := 0 }]
        stack := [.obj 0, .nil, .nil, .nil, .nil, .nil, .nil, .nil]
        stackTop := 1
        openUpvalues := none } }

/-! ## Where the machine is in the code -/

/-- The innermost frame runs a closure whose function has the code given, and its `ip` is
the offset given. -/
def RunsAt (vm : VM) (code : List Nat) (ip : Nat) : Prop :=
  ∃ frame co function upvalues fo f, vm.current.frames.getLast? = some frame ∧ frame.ip = ip ∧
    heapGet vm.heap frame.closure = some co ∧ co.data = .closure function upvalues ∧
    heapGet vm.heap function = some fo ∧ fo.data = .function f ∧ f.chunk.code = code

/-! ## Scopes (compiler.c) -/

/-- The while loop of endScope over the locals from the last one down; `depth` is the
scope depth after the decrement. -/
def endScopeLoop (depth : Int) : List Local → CompileState → Option CompileState
  | [], s => some s
  | local_ :: below, s =>
    if local_.depth > depth then
      match emitByte s
          (if local_.isCaptured then OpCode.OP_UPVALUE_CLOSE.toByte
           else OpCode.OP_POP.toByte) with
      | none => none
      | some s1 =>
        endScopeLoop depth below (setCurrent s1 (fun c => { c with locals := c.locals.dropLast }))
    else some s

/-- endScope.  The field `scopeDepth` is an `int` that the model keeps as a natural number:
the loop compares with the decremented value as an integer, and the value stored is right
whenever the scope depth was positive, as it is after beginScope. -/
def endScope (s : CompileState) : Option CompileState :=
  match s.compilers with
  | [] => none
  | c :: _ =>
    endScopeLoop ((c.scopeDepth : Int) - 1) c.locals.reverse
      (setCurrent s (fun c => { c with scopeDepth := c.scopeDepth - 1 }))

/-- A compiler at scope depth 2 with one local of depth 1 and, declared at depth 2, `b`,
which a closure has captured, and `c`. -/
def scopeCompiler : Compiler :=
  { function := 0, type := .TYPE_FUNCTION,
    locals := [{ name := [], depth := 0, isCaptured := false },
               { name := [97], depth := 1, isCaptured := false },
               { name := [98], depth := 2, isCaptured := true },
               { name := [99], depth := 2, isCaptured := false }],
    upvalues := [], scopeDepth := 2 }

/-- The state jumpState with scopeCompiler as its compiler. -/
def scopeState : CompileState :=
  { jumpState with compilers := [scopeCompiler] }

/-- The host exampleHost with the two list natives installed, `_list_insert_` under the
number 0 and `_list_del_` under the number 1. -/
def listHost : Host :=
  { exampleHost with
    native := fun function _ argv vm =>
      if function = 0 then _list_insert_ exampleHost vm argv
      else if function = 1 then _list_del_ vm argv
      else none }

/-! ## String forms of values (string.c) -/

def MAX_NUM_VALUES : Nat := 10

/-- The bytes of `strItemSep_`, a comma and a blank. -/
def strItemSep_ : List Nat := [44, 32]

def strItemSepLen_ : Nat := 2

/-- The bytes of `strEntrySep_`, a colon and a blank. -/
def strEntrySep_ : List Nat := [58, 32]

def strEntrySepLen_ : Nat := 2

/-- What string.c takes from elsewhere: the string constants it returns (constants.inc is
absent), the bytes the C library prints for `%g` and for `%d`, `sizeof(char)` for the macro
ALLOCATE (memory.h is absent; `ALLOCATE(type, count)` is taken to be reallocate from 0 to
`sizeof(type) * count` bytes), and the byte that a block fresh from ALLOCATE holds at an
offset nothing has been written to. -/
structure StringHost where
  strTrue_ : Value
  strFalse_ : Value
  strNil_ : Value
  strScript_ : Value
  strNativeFn_ : Value
  strUpvalue_ : Value
  strUnknown_ : Value
  formatG : Int → List Nat
  formatD : Int → List Nat
  sizeofChar : Nat
  fresh : Nat → Nat

/-- The bytes sprintf writes for `%.*s` with `s->length` and `s->chars`: the bytes of the
string up to its first NUL. -/
def printChars (chars : List Nat) : List Nat :=
  chars.takeWhile (fun c => c != 0)

/-- The bytes `AS_STRING(value)->chars` of length `AS_STRING(value)->length`; `none` when
the value does not point to a string. -/
def asString (heap : Heap) (value : Value) : Option (List Nat) :=
  match value with
  | .obj r => stringChars heap r
  | _ => none

/-- The block of `size` bytes from ALLOCATE after the sprintf calls have written `text` and
the NUL behind it from its start; `none` when they do not fit. -/
def writtenBuffer (S : StringHost) (size : Nat) (text : List Nat) : Option (List Nat) :=
  if text.length + 1 ≤ size then
    some (text ++ [0] ++
      (List.range (size - (text.length + 1))).map (fun k => S.fresh (text.length + 1 + k)))
  else none

/-- functionToString: asprintf prints `<fn NAME>` and its result is the number of bytes. -/
def functionToString (H : Host) (S : StringHost) (vm : VM) (function : ObjFunction) :
    Option (VM × Value) :=
  match function.name with
  | none => some (vm, S.strScript_)
  | some name =>
    match stringChars vm.heap name with
    | none => none
    | some chars =>
      match takeString H vm ([60, 102, 110, 32] ++ printChars chars ++ [62]) with
      | none => none
      | some (vm1, r) => some (vm1, .obj r)

/-- The first loop of listToString, from index `i` on, `count` times: the string form of
the element goes to `values[i]` and its length and that of the separator to `totalLen`. -/
def listConvertLoop (conv : VM → Value → Option (VM × Value)) (list : Ref) :
    Nat → Nat → VM → List Value → Nat → Option (VM × List Value × Nat)
  | 0, _, vm, values, totalLen => some (vm, values, totalLen)
  | count + 1, i, vm, values, totalLen =>
    match heapGet vm.heap list with
    | none => none
    | some o =>
      match o.data with
      | .list elements _ =>
        match elements[i]? with
        | none => none
        | some element =>
          match conv vm element with
          | none => none
          | some (vm1, s) =>
            match asString vm1.heap s with
            | none => none
            | some chars =>
              listConvertLoop conv list count (i + 1) vm1 (values ++ [s])
                (totalLen + chars.length + strItemSepLen_)
      | _ => none

/-- The second loop of listToString over `values[i]` and what follows it; `text` is what
has been written so far. -/
def listWriteLoop (heap : Heap) : List Value → Nat → List Nat → Option (List Nat)
  | [], _, text => some text
  | s :: rest, i, text =>
    match asString heap s with
    | none => none
    | some chars =>
      listWriteLoop heap rest (i + 1)
        ((if i > 0 then text ++ strItemSep_ else text) ++ printChars chars)

/-- listToString; `conv` is valueToString.  The string handed to takeString is the first
`totalLen` bytes of the buffer. -/
def listToString (H : Host) (S : StringHost) (conv : VM → Value → Option (VM × Value))
    (vm : VM) (list : Ref) : Option (VM × Value) :=
  match heapGet vm.heap list with
  | none => none
  | some o =>
    match o.data with
    | .list elements _ =>
      let numValues :=
        if elements.length > MAX_NUM_VALUES then MAX_NUM_VALUES else elements.length
      match listConvertLoop conv list numValues 0 vm [] 0 with
      | none => none
      | some (vm1, values, totalLen0) =>
        let totalLen := totalLen0 + 2
        match reallocate H vm1 0 (S.sizeofChar * (totalLen + 1)) with
        | none => none
        | some vm2 =>
          match listWriteLoop vm2.heap values 0 [91] with
          | none => none
          | some text =>
            match writtenBuffer S (totalLen + 1) (text ++ [93]) with
            | none => none
            | some buffer =>
              match takeString H vm2 (buffer.take totalLen) with
              | none => none
              | some (vm3, r) => some (vm3, .obj r)
    | _ => none

/-- Modelled from the spec: countTableLive of the absent table.c, the number of live
entries of the table. -/
def countTableLive (table : Table) : Nat :=
  table.length

/-- The first loop of tableToString, from entry `i` on, `count` times; `loc` is
`values.length`.  The loop is left when `loc == numValues`. -/
def tableConvertLoop (conv : VM → Value → Option (VM × Value)) (table : Ref)
    (numValues : Nat) : Nat → Nat → VM → List Value → Nat → Option (VM × List Value × Nat)
  | 0, _, vm, values, totalLen => some (vm, values, totalLen)
  | count + 1, i, vm, values, totalLen =>
    match heapGet vm.heap table with
    | none => none
    | some o =>
      match o.data with
      | .table entries =>
        match entries[i]? with
        | none => none
        | some (key, value) =>
          if values.length + 1 < 2 * MAX_NUM_VALUES then
            match stringChars vm.heap key with
            | none => none
            | some keyChars =>
              match conv vm value with
              | none => none
              | some (vm1, s) =>
                match asString vm1.heap s with
                | none => none
                | some chars =>
                  if (values ++ [.obj key, s]).length = numValues then
                    some (vm1, values ++ [.obj key, s],
                      totalLen + keyChars.length + strEntrySepLen_ + chars.length +
                        strItemSepLen_)
                  else
                    tableConvertLoop conv table numValues count (i + 1) vm1
                      (values ++ [.obj key, s])
                      (totalLen + keyChars.length + strEntrySepLen_ + chars.length +
                        strItemSepLen_)
          else none
      | _ => none

/-- The second loop of tableToString, `for (int i=0; i<numValues; i+=2)`, entered with the
value of `i`; each turn costs one unit of fuel. -/
def tableWriteLoop (heap : Heap) (values : List Value) (numValues : Nat) :
    Nat → Nat → List Nat → Option (List Nat)
  | 0, i, text => if i < numValues then none else some text
  | fuel + 1, i, text =>
    if i < numValues then
      match values[i]?, values[i + 1]? with
      | some k, some v =>
        match asString heap k, asString heap v with
        | some keyChars, some chars =>
          tableWriteLoop heap values numValues fuel (i + 2)
            ((if i > 0 then text ++ strItemSep_ else text) ++ printChars keyChars ++
              strEntrySep_ ++ printChars chars)
        | _, _ => none
      | _, _ => none
    else some text

/-- tableToString; `conv` is valueToString.  The entries of the table are taken in the
order of the entry array. -/
def tableToString (H : Host) (S : StringHost) (conv : VM → Value → Option (VM × Value))
    (vm : VM) (table : Ref) : Option (VM × Value) :=
  match heapGet vm.heap table with
  | none => none
  | some o =>
    match o.data with
    | .table entries =>
      let numValues :=
        if countTableLive entries > MAX_NUM_VALUES then MAX_NUM_VALUES
        else countTableLive entries
      match tableConvertLoop conv table numValues entries.length 0 vm [] 0 with
      | none => none
      | some (vm1, values, totalLen0) =>
        let totalLen := totalLen0 + 2
        match reallocate H vm1 0 (S.sizeofChar * (totalLen + 1)) with
        | none => none
        | some vm2 =>
          match tableWriteLoop vm2.heap values numValues numValues 0 [123] with
          | none => none
          | some text =>
            match writtenBuffer S (totalLen + 1) (text ++ [125]) with
            | none => none
            | some buffer =>
              match takeString H vm2 (buffer.take totalLen) with
              | none => none
              | some (vm3, r) => some (vm3, .obj r)
    | _ => none

/-- objectToString for the object at an address; `conv` is valueToString. -/
def objectToString (H : Host) (S : StringHost) (conv : VM → Value → Option (VM × Value))
    (vm : VM) (r : Ref) : Option (VM × Value) :=
  match heapGet vm.heap r with
  | none => none
  | some o =>
    match o.data with
    | .boundMethod _ method =>
      match heapGet vm.heap method with
      | some m =>
        match m.data with
        | .closure function _ =>
          match functionAt vm.heap function with
          | some f => functionToString H S vm f
          | none => none
        | _ => none
      | none => none
    | .klass name _ => some (vm, .obj name)
    | .closure function _ =>
      match functionAt vm.heap function with
      | some f => functionToString H S vm f
      | none => none
    | .fiber fiber =>
      match fiber.parent with
      | none =>
        match takeString H vm ([60, 102, 105, 98, 101, 114, 32] ++ S.formatD fiber.id ++ [47] ++
            S.formatD (-1) ++ [62]) with
        | none => none
        | some (vm1, s) => some (vm1, .obj s)
      | some parent =>
        match heapGet vm.heap parent with
        | some p =>
          match p.data with
          | .fiber parentFiber =>
            match takeString H vm ([60, 102, 105, 98, 101, 114, 32] ++ S.formatD fiber.id ++
                [47] ++ S.formatD parentFiber.id ++ [62]) with
            | none => none
            | some (vm1, s) => some (vm1, .obj s)
          | _ => none
        | none => none
    | .function f => functionToString H S vm f
    | .inst klass _ =>
      match heapGet vm.heap klass with
      | some k =>
        match k.data with
        | .klass name _ =>
          match stringChars vm.heap name with
          | none => none
          | some chars =>
            match takeString H vm
                (printChars chars ++ [32, 105, 110, 115, 116, 97, 110, 99, 101]) with
            | none => none
            | some (vm1, s) => some (vm1, .obj s)
        | _ => none
      | none => none
    | .list _ _ => listToString H S conv vm r
    | .native _ => some (vm, S.strNativeFn_)
    | .string _ _ => some (vm, .obj r)
    | .table _ => tableToString H S conv vm r
    | .upvalue _ _ _ => some (vm, S.strUpvalue_)

/-- valueToString; each nested call (for the elements of a list and the values of a table)
costs one unit of fuel. -/
def valueToString (H : Host) (S : StringHost) : Nat → VM → Value → Option (VM × Value)
  | 0, _, _ => none
  | fuel + 1, vm, value =>
    match value with
    | .bool b => some (vm, if b then S.strTrue_ else S.strFalse_)
    | .nil => some (vm, S.strNil_)
    | .number n =>
      match takeString H vm (S.formatG n) with
      | none => none
      | some (vm1, s) => some (vm1, .obj s)
    | .obj r => objectToString H S (valueToString H S fuel) vm r

/-- The forms in order with the separator between each two of them: what a text "the string
forms of the elements separated by the separator" is. -/
def joinForms (sep : List Nat) : List (List Nat) → List Nat
  | [] => []
  | [a] => a
  | a :: b :: rest => a ++ sep ++ joinForms sep (b :: rest)

/-- The text of a list with the given string forms of its elements: `[`, the forms
separated by a comma and a blank, `]`. -/
def listText (forms : List (List Nat)) : List Nat :=
  [91] ++ joinForms strItemSep_ forms ++ [93]

/-- The text of a table with the given string forms of its keys and values: `{`, the
entries `key: value` separated by a comma and a blank, `}`. -/
def tableText (entries : List (List Nat × List Nat)) : List Nat :=
  [123] ++ joinForms strItemSep_ (entries.map (fun e => e.1 ++ strEntrySep_ ++ e.2)) ++ [125]

/-- The decimal digits of an integer. -/
def decimal (n : Int) : List Nat :=
  (if n < 0 then [45] else []) ++ (Nat.toDigits 10 n.natAbs).map Char.toNat

/-- A host of string.c: every constant is the string at address 0 (no example reads one),
numbers are printed in decimal, a char has size 1, and a fresh block holds the byte 170
everywhere. -/
def exampleStringHost : StringHost :=
  { strTrue_ := .obj 0, strFalse_ := .obj 0, strNil_ := .obj 0, strScript_ := .obj 0,
    strNativeFn_ := .obj 0, strUpvalue_ := .obj 0, strUnknown_ := .obj 0,
    formatG := decimal, formatD := decimal, sizeofChar := 1, fresh := fun _ => 170 }

/-- A machine with the interned strings `a`, `bc` and `d` (objects 0 to 2), the raw lists
`[]`, `[a]` and `[a, bc]` (objects 3 to 5) and the raw tables with the entries `a: bc`,
then also `bc: d`, then also `d: a` (objects 6 to 8); the lists and the tables are on the
stack. -/
def formsVM : VM :=
  { emptyVM with
    heap :=
      [some { isMarked := false, next := none, data := .string [97] (hashString [97]) },
       some { isMarked := false, next := some 0,
              data := .string [98, 99] (hashString [98, 99]) },
       some { isMarked := false, next := some 1, data := .string [100] (hashString [100]) },
       some { isMarked := false, next := some 2, data := .list [] 0 },
       some { isMarked := false, next := some 3, data := .list [.obj 0] 8 },
       some { isMarked := false, next := some 4, data := .list [.obj 0, .obj 1] 8 },
       some { isMarked := false, next := some 5, data := .table [(0, .obj 1)] },
       some { isMarked := false, next := some 6, data := .table [(0, .obj 1), (1, .obj 2)] },
       some { isMarked := false, next := some 7,
              data := .table [(0, .obj 1), (1, .obj 2), (2, .obj 0)] }]
    objects := some 8
    strings := [(0, .nil), (1, .nil), (2, .nil)]
    current :=
      { id := 0, parent := none, frames := []
        stack := [.obj 3, .obj 4, .obj 5, .obj 6, .obj 7, .obj 8, .nil, .nil]
        stackTop := 6
        openUpvalues := none } }

/-- The bytes and the length recorded in the string a conversion returns. -/
def formOutcome (r : Option (VM × Value)) : Option (List Nat × Nat) :=
  match r with
  | none => none
  | some (vm, value) =>
    match asString vm.heap value with
    | none => none
    | some chars => some (chars, chars.length)

/-! ## A method under compilation -/

/-- The compiler state of nestedState at the name of a method with the given name, an empty
parameter list and the body `5`. -/
def methodState (name : String) : CompileState :=
  { nestedState with
    parser :=
      { current := identifierToken name, previous := opToken .TOKEN_LEFT_CURLY,
        hadError := false, panicMode := false,
        source := [opToken .TOKEN_LEFT_PAREN, opToken .TOKEN_RIGHT_PAREN,
                   opToken .TOKEN_LEFT_CURLY, numberToken "5", opToken .TOKEN_RIGHT_CURLY] } }

/-- The state of methodState after `method` has made the constant of the name. -/
def methodNamedState (name : String) : CompileState :=
  ((identifierConstant exampleHost
      (consume (methodState name) .TOKEN_IDENTIFIER "Expect method name.")
      (consume (methodState name) .TOKEN_IDENTIFIER
        "Expect method name.").parser.previous.lexeme).getD (0, methodState name)).2

/-- The state of methodState when the body of the method starts. -/
def methodHeadState (name : String) : CompileState :=
  (functionBody exampleHost (fun t => some t) 4
      (methodType (consume (methodState name) .TOKEN_IDENTIFIER
        "Expect method name.").parser.previous)
      (methodNamedState name)).getD (methodState name)

/-- The state of methodState after the body of the method, read as one expression. -/
def methodBodyState (name : String) : CompileState :=
  (nestedBlock (methodHeadState name)).getD (methodState name)

/-! ## Heap lemmas -/

theorem heapGet_lt {heap : Heap} {r : Ref} {o : Obj} (h : heapGet heap r = some o) :
    r < heap.length := by
  unfold heapGet at h
  by_contra hlt
  rw [List.getElem?_eq_none (Nat.le_of_not_lt hlt)] at h
  simp at h

theorem heapGet_set_self {heap : Heap} {r : Ref} (x : Option Obj) (h : r < heap.length) :
    heapGet (heap.set r x) r = x := by
  unfold heapGet
  rw [List.getElem?_set_self (by simpa using h)]
  cases x <;> rfl

theorem heapGet_set_ne {heap : Heap} {r r' : Ref} (x : Option Obj) (h : r ≠ r') :
    heapGet (heap.set r x) r' = heapGet heap r' := by
  unfold heapGet
  rw [List.getElem?_set_ne h]

theorem heapGet_append_lt {heap : Heap} {r : Ref} (x : Option Obj) (h : r < heap.length) :
    heapGet (heap ++ [x]) r = heapGet heap r := by
  unfold heapGet
  rw [List.getElem?_append_left h]

theorem heapGet_append_self (heap : Heap) (x : Option Obj) :
    heapGet (heap ++ [x]) heap.length = x := by
  unfold heapGet
  rw [List.getElem?_append_right (le_refl _)]
  cases x <;> simp

theorem heapGet_length (heap : Heap) : heapGet heap heap.length = none := by
  unfold heapGet
  rw [List.getElem?_eq_none (le_refl _)]

/-! ## C1 -/

theorem callValue_nonCallable (H : Host) (vm : VM) (callee : Value) (argCount : Nat)
    (hb : isObjType vm callee .OBJ_BOUND_METHOD = false)
    (hk : isObjType vm callee .OBJ_CLASS = false)
    (hc : isObjType vm callee .OBJ_CLOSURE = false)
    (hn : isObjType vm callee .OBJ_NATIVE = false) :
    ∀ fuel, callValue H fuel vm callee argCount = none := by
  intro fuel
  induction fuel with
  | zero => rfl
  | succ n ih =>
    unfold callValue
    cases callee with
    | obj r =>
      simp only [isObjType] at hb hk hc hn
      cases hg : heapGet vm.heap r with
      | none => simp only [hg]
      | some o =>
        rw [hg] at hb hk hc hn
        simp only [hg]
        cases hd : o.data <;> simp_all [ObjData.type]
    | nil => exact ih
    | bool b => exact ih
    | number k => exact ih

/-! ## Lists in the heap -/

theorem chainTo_nil {nxt : Ref → Option (Option Ref)} {p t : Option Ref} :
    chainTo nxt p [] t = true ↔ p = t := by
  cases p <;> simp [chainTo]

theorem chainTo_cons {nxt : Ref → Option (Option Ref)} {p t : Option Ref} {r : Ref}
    {l : List Ref} :
    chainTo nxt p (r :: l) t = true ↔ p = some r ∧ ∃ n, nxt r = some n ∧ chainTo nxt n l t = true := by
  cases p with
  | none => simp [chainTo]
  | some q =>
    simp only [chainTo, Bool.and_eq_true, beq_iff_eq, Option.some.injEq]
    constructor
    · rintro ⟨rfl, h⟩
      refine ⟨rfl, ?_⟩
      cases hn : nxt q with
      | none => simp [hn] at h
      | some n => exact ⟨n, rfl, by simpa [hn] using h⟩
    · rintro ⟨rfl, n, hn, h⟩
      exact ⟨rfl, by simpa [hn] using h⟩

theorem chainTo_congr {nxt nxt' : Ref → Option (Option Ref)} {l : List Ref}
    (h : ∀ r ∈ l, nxt r = nxt' r) (p t : Option Ref) :
    chainTo nxt p l t = chainTo nxt' p l t := by
  induction l generalizing p with
  | nil => cases p <;> simp [chainTo]
  | cons r l ih =>
    cases p with
    | none => simp [chainTo]
    | some q =>
      simp only [chainTo]
      by_cases hq : q = r
      · subst hq
        rw [← h q (List.mem_cons_self _ _)]
        cases nxt q with
        | none => rfl
        | some n => simp [ih (fun r hr => h r (List.mem_cons_of_mem _ hr)) n]
      · have hb : (q == r) = false := beq_false_of_ne hq
        rw [hb]
        rfl

theorem chainTo_append {nxt : Ref → Option (Option Ref)} {l1 l2 : List Ref}
    {p m t : Option Ref} (h1 : chainTo nxt p l1 m = true) (h2 : chainTo nxt m l2 t = true) :
    chainTo nxt p (l1 ++ l2) t = true := by
  induction l1 generalizing p with
  | nil =>
    rw [chainTo_nil] at h1
    subst h1
    simpa using h2
  | cons r l ih =>
    rw [chainTo_cons] at h1
    obtain ⟨rfl, n, hn, h⟩ := h1
    rw [List.cons_append, chainTo_cons]
    exact ⟨rfl, n, hn, ih h⟩

theorem chainTo_split {nxt : Ref → Option (Option Ref)} {l1 l2 : List Ref}
    {p t : Option Ref} (h : chainTo nxt p (l1 ++ l2) t = true) :
    ∃ m, chainTo nxt p l1 m = true ∧ chainTo nxt m l2 t = true := by
  induction l1 generalizing p with
  | nil => exact ⟨p, chainTo_nil.mpr rfl, by simpa using h⟩
  | cons r l ih =>
    rw [List.cons_append, chainTo_cons] at h
    obtain ⟨rfl, n, hn, h⟩ := h
    obtain ⟨m, hm1, hm2⟩ := ih h
    exact ⟨m, chainTo_cons.mpr ⟨rfl, n, hn, hm1⟩, hm2⟩

theorem chain_unique {nxt : Ref → Option (Option Ref)} {l1 l2 : List Ref} {p : Option Ref}
    (h1 : chain nxt p l1 = true) (h2 : chain nxt p l2 = true) : l1 = l2 := by
  unfold chain at h1 h2
  induction l1 generalizing p l2 with
  | nil =>
    rw [chainTo_nil] at h1
    subst h1
    cases l2 with
    | nil => rfl
    | cons r l => simp [chainTo] at h2
  | cons r l ih =>
    rw [chainTo_cons] at h1
    obtain ⟨rfl, n, hn, h⟩ := h1
    cases l2 with
    | nil => simp [chainTo] at h2
    | cons r2 l2 =>
      rw [chainTo_cons] at h2
      obtain ⟨hr, n2, hn2, h2⟩ := h2
      cases hr
      rw [hn] at hn2
      cases hn2
      rw [ih h h2]

theorem chain_not_mem {nxt : Ref → Option (Option Ref)} {l : List Ref} {r : Ref}
    (h : chain nxt (some r) (r :: l) = true) : r ∉ l := by
  intro hmem
  obtain ⟨a, b, rfl⟩ := List.append_of_mem hmem
  have h' : chainTo nxt (some r) ((r :: a) ++ (r :: b)) none = true := by simpa [chain] using h
  obtain ⟨m, hm1, hm2⟩ := chainTo_split h'
  have hm : m = some r := (chainTo_cons.mp hm2).1
  subst hm
  have : r :: b = r :: (a ++ r :: b) := chain_unique hm2 h
  have hlen := congrArg List.length this
  simp at hlen
  omega

theorem chain_nodup {nxt : Ref → Option (Option Ref)} {l : List Ref} {p : Option Ref}
    (h : chain nxt p l = true) : l.Nodup := by
  induction l generalizing p with
  | nil => exact List.nodup_nil
  | cons r l ih =>
    have h0 := h
    unfold chain at h
    rw [chainTo_cons] at h
    obtain ⟨rfl, n, _, hn⟩ := h
    exact List.nodup_cons.mpr ⟨chain_not_mem h0, ih hn⟩

theorem chainTo_valid {nxt : Ref → Option (Option Ref)} {l : List Ref} {p t : Option Ref}
    (h : chainTo nxt p l t = true) : ∀ r ∈ l, ∃ n, nxt r = some n := by
  induction l generalizing p with
  | nil => simp
  | cons q l ih =>
    rw [chainTo_cons] at h
    obtain ⟨rfl, n, hn, h⟩ := h
    intro r hr
    rcases List.mem_cons.mp hr with rfl | hr
    · exact ⟨n, hn⟩
    · exact ih h r hr

theorem nodup_length_le {l : List Ref} {n : Nat} (hd : l.Nodup) (hb : ∀ r ∈ l, r < n) :
    l.length ≤ n := by
  have hsub : l ⊆ List.range n := fun r hr => List.mem_range.mpr (hb r hr)
  have := (List.subperm_of_subset hd hsub).length_le
  simpa using this

theorem objNext_lt {heap : Heap} {r : Ref} {n : Option Ref} (h : objNext heap r = some n) :
    r < heap.length := by
  unfold objNext at h
  cases hg : heapGet heap r with
  | none => simp [hg] at h
  | some o => exact heapGet_lt hg

theorem upvalueNext_lt {heap : Heap} {r : Ref} {n : Option Ref}
    (h : upvalueNext heap r = some n) : r < heap.length := by
  unfold upvalueNext at h
  cases hg : heapGet heap r with
  | none => simp [hg] at h
  | some o => exact heapGet_lt hg

theorem openNext_lt {heap : Heap} {r : Ref} {n : Option Ref}
    (h : openNext heap r = some n) : r < heap.length := by
  unfold openNext at h
  cases hg : heapGet heap r with
  | none => simp [hg] at h
  | some o => exact heapGet_lt hg

theorem openNext_upvalueNext {heap : Heap} {r : Ref} {n : Option Ref}
    (h : openNext heap r = some n) : upvalueNext heap r = some n := by
  unfold openNext at h
  unfold upvalueNext
  cases hg : heapGet heap r with
  | none => simp [hg] at h
  | some o =>
    simp only [hg] at h ⊢
    cases hd : o.data <;> simp only [hd] at h ⊢ <;> try (simp at h)
    rename_i loc closed next
    cases loc <;> simp at h ⊢
    exact h

theorem chainTo_mono {nxt nxt' : Ref → Option (Option Ref)}
    (hsub : ∀ r n, nxt r = some n → nxt' r = some n) {l : List Ref} {p t : Option Ref}
    (h : chainTo nxt p l t = true) : chainTo nxt' p l t = true := by
  induction l generalizing p with
  | nil => simpa [chainTo_nil] using h
  | cons r l ih =>
    rw [chainTo_cons] at h ⊢
    obtain ⟨rfl, n, hn, h⟩ := h
    exact ⟨rfl, n, hsub _ _ hn, ih h⟩

theorem chain_length_le {nxt : Ref → Option (Option Ref)} {l : List Ref} {p : Option Ref}
    {n : Nat} (hlt : ∀ r m, nxt r = some m → r < n) (h : chain nxt p l = true) :
    l.length ≤ n := by
  refine nodup_length_le (chain_nodup h) ?_
  intro r hr
  obtain ⟨m, hm⟩ := chainTo_valid h r hr
  exact hlt r m hm

/-! ## Open upvalues -/

theorem openNext_some {heap : Heap} {r : Ref} {n : Option Ref} (h : openNext heap r = some n) :
    ∃ o s c, heapGet heap r = some o ∧ o.data = .upvalue (.stack s) c n := by
  unfold openNext at h
  cases hg : heapGet heap r with
  | none => simp [hg] at h
  | some o =>
    simp only [hg] at h
    cases hd : o.data <;> simp only [hd] at h <;> try (simp at h)
    rename_i loc closed next
    cases loc <;> simp at h
    rename_i s
    exact ⟨o, s, closed, rfl, by rw [hd, h]⟩

theorem openNext_of {heap : Heap} {r : Ref} {o : Obj} {s : Nat} {c : Value} {n : Option Ref}
    (hg : heapGet heap r = some o) (hd : o.data = .upvalue (.stack s) c n) :
    openNext heap r = some n := by
  simp [openNext, hg, hd]

theorem slotOf_of {heap : Heap} {r : Ref} {o : Obj} {s : Nat} {c : Value} {n : Option Ref}
    (hg : heapGet heap r = some o) (hd : o.data = .upvalue (.stack s) c n) :
    slotOf heap r = s := by
  simp [slotOf, hg, hd]

theorem openNext_set_ne {heap : Heap} {r r' : Ref} (x : Option Obj) (h : r ≠ r') :
    openNext (heap.set r x) r' = openNext heap r' := by
  simp [openNext, heapGet_set_ne x h]

theorem slotOf_set_ne {heap : Heap} {r r' : Ref} (x : Option Obj) (h : r ≠ r') :
    slotOf (heap.set r x) r' = slotOf heap r' := by
  simp [slotOf, heapGet_set_ne x h]

/-- The state after one run of the body of the loop of closeUpvalues on the node `r`. -/
theorem closeUpvaluesStep_close {vm : VM} {last : Nat} {r : Ref} {o : Obj} {s : Nat} {c : Value}
    {n : Option Ref} (hh : vm.current.openUpvalues = some r) (hg : heapGet vm.heap r = some o)
    (hd : o.data = .upvalue (.stack s) c n) (hs : s ≥ last) :
    closeUpvaluesStep vm last = some (some
      { vm with
        heap := vm.heap.set r
          (some { o with data := .upvalue .closed (vm.current.stack.getD s .nil) n })
        current := { vm.current with openUpvalues := n } }) := by
  simp [closeUpvaluesStep, hh, hg, hd, hs]

theorem closeUpvaluesStep_stop {vm : VM} {last : Nat} {r : Ref} {o : Obj} {s : Nat} {c : Value}
    {n : Option Ref} (hh : vm.current.openUpvalues = some r) (hg : heapGet vm.heap r = some o)
    (hd : o.data = .upvalue (.stack s) c n) (hs : s < last) :
    closeUpvaluesStep vm last = some none := by
  have : ¬ s ≥ last := by omega
  simp [closeUpvaluesStep, hh, hg, hd, this]

theorem closeUpvaluesStep_null {vm : VM} {last : Nat} (hh : vm.current.openUpvalues = none) :
    closeUpvaluesStep vm last = some none := by
  simp [closeUpvaluesStep, hh]

theorem closeUpvaluesLoop_of_stop {vm : VM} {last : Nat}
    (h : closeUpvaluesStep vm last = some none) (fuel : Nat) :
    closeUpvaluesLoop fuel vm last = some vm := by
  cases fuel <;> simp [closeUpvaluesLoop, h]

theorem closeUpvaluesLoop_stops {fuel : Nat} {vm vm1 : VM} {last : Nat}
    (h : closeUpvaluesLoop fuel vm last = some vm1) : closeUpvaluesStep vm1 last = some none := by
  induction fuel generalizing vm with
  | zero =>
    unfold closeUpvaluesLoop at h
    cases hs : closeUpvaluesStep vm last with
    | none => simp [hs] at h
    | some x =>
      cases x with
      | none =>
        simp [hs] at h
        subst h
        exact hs
      | some v => simp [hs] at h
  | succ f ih =>
    unfold closeUpvaluesLoop at h
    cases hs : closeUpvaluesStep vm last with
    | none => simp [hs] at h
    | some x =>
      cases x with
      | none =>
        simp [hs] at h
        subst h
        exact hs
      | some v =>
        simp [hs] at h
        exact ih h

/-- What the loop of closeUpvalues does to a well-formed list of open upvalues `l`: a
prefix `done` of nodes at or above `last` is closed and unlinked, the rest is untouched. -/
theorem closeUpvaluesLoop_spec (last : Nat) (l : List Ref) :
    ∀ (vm : VM) (fuel : Nat),
      chain (openNext vm.heap) vm.current.openUpvalues l = true → l.length ≤ fuel →
      ∃ vm1 done rest,
        closeUpvaluesLoop fuel vm last = some vm1 ∧
        l = done ++ rest ∧
        (∀ r ∈ done, slotOf vm.heap r ≥ last) ∧
        (∀ r, rest.head? = some r → slotOf vm.heap r < last) ∧
        chain (openNext vm1.heap) vm1.current.openUpvalues rest = true ∧
        (∀ r, r ∉ done → heapGet vm1.heap r = heapGet vm.heap r) ∧
        (∀ r ∈ done, ∃ o s c n, heapGet vm.heap r = some o ∧ o.data = .upvalue (.stack s) c n ∧
          heapGet vm1.heap r =
            some { o with data := .upvalue .closed (vm.current.stack.getD s .nil) n }) ∧
        vm1.heap.length = vm.heap.length ∧
        vm1 = { vm with heap := vm1.heap,
                        current := { vm.current with
                                     openUpvalues := vm1.current.openUpvalues } } := by
  induction l with
  | nil =>
    intro vm fuel hc _
    have hh : vm.current.openUpvalues = none := by
      simpa [chain, chainTo_nil] using hc
    refine ⟨vm, [], [], closeUpvaluesLoop_of_stop (closeUpvaluesStep_null hh) fuel, rfl,
      by simp, by simp, hc, fun _ _ => rfl, by simp, rfl, rfl⟩
  | cons r t ih =>
    intro vm fuel hc hlen
    have hnot : r ∉ t := by
      have h0 := hc
      unfold chain at h0
      rw [chainTo_cons] at h0
      obtain ⟨hh, _⟩ := h0
      rw [hh] at hc
      exact chain_not_mem hc
    unfold chain at hc
    rw [chainTo_cons] at hc
    obtain ⟨hh, n, hn, hct⟩ := hc
    obtain ⟨o, s, c, hg, hd⟩ := openNext_some hn
    by_cases hs : s ≥ last
    · obtain ⟨f, rfl⟩ : ∃ f, fuel = f + 1 := ⟨fuel - 1, by simp at hlen; omega⟩
      have hstep := closeUpvaluesStep_close hh hg hd hs
      let vm2 : VM :=
        { vm with
          heap := vm.heap.set r
            (some { o with data := .upvalue .closed (vm.current.stack.getD s .nil) n })
          current := { vm.current with openUpvalues := n } }
      have hct2 : chain (openNext vm2.heap) vm2.current.openUpvalues t = true := by
        have : chainTo (openNext vm2.heap) n t none = chainTo (openNext vm.heap) n t none := by
          apply chainTo_congr
          intro r' hr'
          have hne : r ≠ r' := fun e => hnot (e ▸ hr')
          exact openNext_set_ne _ hne
        show chainTo (openNext vm2.heap) n t none = true
        rw [this]
        exact hct
      obtain ⟨vm1, done, rest, hloop, hsplit, hdone, hrest, hchain, hframe, hclosed, hlen1, heq⟩ :=
        ih vm2 f hct2 (by simp at hlen; omega)
      have hrlt : r < vm.heap.length := heapGet_lt hg
      have hdone_t : ∀ r' ∈ done, r' ∈ t := fun r' hr' => by
        rw [hsplit]; exact List.mem_append_left _ hr'
      have hrest_t : ∀ r', rest.head? = some r' → r' ∈ t := fun r' hr' => by
        rw [hsplit]
        exact List.mem_append_right _ (List.mem_of_mem_head? hr')
      refine ⟨vm1, r :: done, rest, ?_, by rw [hsplit]; rfl, ?_, ?_, hchain, ?_, ?_, ?_, ?_⟩
      · simp only [closeUpvaluesLoop, hstep]
        exact hloop
      · intro r' hr'
        rcases List.mem_cons.mp hr' with rfl | hr'
        · rw [slotOf_of hg hd]; exact hs
        · have hne : r ≠ r' := fun e => hnot (e ▸ hdone_t r' hr')
          have := hdone r' hr'
          rwa [show slotOf vm2.heap r' = slotOf vm.heap r' from slotOf_set_ne _ hne] at this
      · intro r' hr'
        have hne : r ≠ r' := fun e => hnot (e ▸ hrest_t r' hr')
        have := hrest r' hr'
        rwa [show slotOf vm2.heap r' = slotOf vm.heap r' from slotOf_set_ne _ hne] at this
      · intro r' hr'
        have hne : r ≠ r' := fun e => hr' (e ▸ List.mem_cons_self _ _)
        have hnd : r' ∉ done := fun e => hr' (List.mem_cons_of_mem _ e)
        rw [hframe r' hnd]
        exact heapGet_set_ne _ hne
      · intro r' hr'
        rcases List.mem_cons.mp hr' with rfl | hr'
        · have hnd : r' ∉ done := fun e => hnot (hdone_t r' e)
          refine ⟨o, s, c, n, hg, hd, ?_⟩
          rw [hframe r' hnd]
          exact heapGet_set_self _ hrlt
        · have hne : r ≠ r' := fun e => hnot (e ▸ hdone_t r' hr')
          obtain ⟨o', s', c', n', hg', hd', hres⟩ := hclosed r' hr'
          refine ⟨o', s', c', n', ?_, hd', hres⟩
          rw [← hg']
          exact (heapGet_set_ne _ hne).symm
      · rw [hlen1]
        simp [vm2]
      · rw [heq]
    · have hs' : s < last := by omega
      have hstep := closeUpvaluesStep_stop hh hg hd hs'
      refine ⟨vm, [], r :: t, closeUpvaluesLoop_of_stop hstep fuel, rfl, by simp, ?_, ?_,
        fun _ _ => rfl, by simp, rfl, rfl⟩
      · intro r' hr'
        simp at hr'
        subst hr'
        rw [slotOf_of hg hd]
        exact hs'
      · unfold chain
        rw [chainTo_cons]
        exact ⟨hh, n, hn, hct⟩

theorem closeUpvalues_total (vm : VM) (last : Nat) (l : List Ref)
    (hc : chain (openNext vm.heap) vm.current.openUpvalues l = true) :
    ∃ vm1 done rest,
        closeUpvalues vm last = some vm1 ∧
        l = done ++ rest ∧
        (∀ r ∈ done, slotOf vm.heap r ≥ last) ∧
        (∀ r, rest.head? = some r → slotOf vm.heap r < last) ∧
        chain (openNext vm1.heap) vm1.current.openUpvalues rest = true ∧
        (∀ r, r ∉ done → heapGet vm1.heap r = heapGet vm.heap r) ∧
        (∀ r ∈ done, ∃ o s c n, heapGet vm.heap r = some o ∧ o.data = .upvalue (.stack s) c n ∧
          heapGet vm1.heap r =
            some { o with data := .upvalue .closed (vm.current.stack.getD s .nil) n }) ∧
        vm1.heap.length = vm.heap.length ∧
        vm1 = { vm with heap := vm1.heap,
                        current := { vm.current with
                                     openUpvalues := vm1.current.openUpvalues } } := by
  have hlen : l.length ≤ vm.heap.length + 1 :=
    Nat.le_succ_of_le (chain_length_le (fun r m h => openNext_lt h) hc)
  exact closeUpvaluesLoop_spec last l vm _ hc hlen

/-! ## The allocation list and sweep -/

theorem sameRegisters_refl (a : VM) : sameRegisters a a :=
  ⟨rfl, rfl, rfl, rfl, rfl, rfl, rfl⟩

theorem sameRegisters_trans {a b c : VM} (h1 : sameRegisters a b) (h2 : sameRegisters b c) :
    sameRegisters a c := by
  obtain ⟨a1, a2, a3, a4, a5, a6, a7⟩ := h1
  obtain ⟨b1, b2, b3, b4, b5, b6, b7⟩ := h2
  exact ⟨a1.trans b1, a2.trans b2, a3.trans b3, a4.trans b4, a5.trans b5, a6.trans b6,
    a7.trans b7⟩

theorem objNext_some {heap : Heap} {r : Ref} {n : Option Ref} (h : objNext heap r = some n) :
    ∃ o, heapGet heap r = some o ∧ o.next = n := by
  unfold objNext at h
  cases hg : heapGet heap r with
  | none => simp [hg] at h
  | some o =>
    simp only [hg, Option.some.injEq] at h
    exact ⟨o, rfl, h⟩

theorem objNext_of {heap : Heap} {r : Ref} {o : Obj} (h : heapGet heap r = some o) :
    objNext heap r = some o.next := by
  simp [objNext, h]

theorem objNext_set_ne {heap : Heap} {r r' : Ref} (x : Option Obj) (h : r ≠ r') :
    objNext (heap.set r x) r' = objNext heap r' := by
  simp [objNext, heapGet_set_ne x h]

theorem isMarkedAt_set_ne {heap : Heap} {r r' : Ref} (x : Option Obj) (h : r ≠ r') :
    isMarkedAt (heap.set r x) r' = isMarkedAt heap r' := by
  simp [isMarkedAt, heapGet_set_ne x h]

theorem sweepLoop_null (H : Host) (fuel : Nat) (vm : VM) (previous : Option Ref) :
    sweepLoop H fuel vm previous none = some vm := by
  cases fuel <;> rfl

theorem freeObject_of {H : Host} {vm : VM} {r : Ref} {o : Obj} (h : heapGet vm.heap r = some o) :
    freeObject H vm r =
      { vm with
        heap := vm.heap.set r none
        bytesAllocated :=
          accountBytes vm.bytesAllocated (H.sizeofObj o.data.type + H.ownedBytes o.data) 0 } := by
  simp [freeObject, h]

/-- The loop of sweep, entered with the nodes `kept` already linked from `vm_.objects` and
the nodes `rest` still to visit. -/
theorem sweepLoop_spec (H : Host) (rest : List Ref) :
    ∀ (vm : VM) (kept : List Ref) (previous object : Option Ref) (fuel : Nat),
      chainTo (objNext vm.heap) vm.objects kept object = true →
      previous = kept.getLast? →
      chain (objNext vm.heap) object rest = true →
      (kept ++ rest).Nodup →
      rest.length ≤ fuel →
      ∃ vm1, sweepLoop H fuel vm previous object = some vm1 ∧
        chain (objNext vm1.heap) vm1.objects (kept ++ rest.filter (isMarkedAt vm.heap)) = true ∧
        (∀ r ∈ rest, ∀ o, heapGet vm.heap r = some o → o.isMarked = true →
          ∃ n, heapGet vm1.heap r = some { isMarked := false, next := n, data := o.data }) ∧
        (∀ r ∈ rest, isMarkedAt vm.heap r = false → heapGet vm1.heap r = none) ∧
        (∀ r, r ∉ rest → r ∉ kept → heapGet vm1.heap r = heapGet vm.heap r) ∧
        (∀ r ∈ kept, ∀ o, heapGet vm.heap r = some o →
          ∃ n, heapGet vm1.heap r = some { o with next := n }) ∧
        vm1.heap.length = vm.heap.length ∧
        sameRegisters vm1 vm := by
  induction rest with
  | nil =>
    intro vm kept previous object fuel hk _ hc _ _
    have ho : object = none := by simpa [chain, chainTo_nil] using hc
    subst ho
    refine ⟨vm, sweepLoop_null H fuel vm previous, ?_, by simp, by simp, fun _ _ _ => rfl, ?_,
      rfl, sameRegisters_refl vm⟩
    · simpa [chain] using hk
    · intro r _ o ho
      exact ⟨o.next, ho⟩
  | cons r t ih =>
    intro vm kept previous object fuel hk hprev hc hnd hlen
    obtain ⟨f, rfl⟩ : ∃ f, fuel = f + 1 := ⟨fuel - 1, by simp at hlen; omega⟩
    unfold chain at hc
    rw [chainTo_cons] at hc
    obtain ⟨rfl, n, hn, hct⟩ := hc
    obtain ⟨o, hg, rfl⟩ := objNext_some hn
    have hrlt : r < vm.heap.length := heapGet_lt hg
    have hnd' := List.nodup_append.mp hnd
    have hrk : r ∉ kept := fun h => hnd'.2.2 h (List.mem_cons_self _ _)
    have hrt : r ∉ t := (List.nodup_cons.mp hnd'.2.1).1
    have hkt : ∀ x ∈ kept, x ∉ t := fun x hx hxt => hnd'.2.2 hx (List.mem_cons_of_mem _ hxt)
    by_cases hm : o.isMarked = true
    · -- the object survives
      let vm2 : VM := { vm with heap := vm.heap.set r (some { o with isMarked := false }) }
      have hg2 : heapGet vm2.heap r = some { o with isMarked := false } :=
        heapGet_set_self _ hrlt
      have hne2 : ∀ x, x ≠ r → heapGet vm2.heap x = heapGet vm.heap x := fun x hx =>
        heapGet_set_ne _ (Ne.symm hx)
      have hk2 : chainTo (objNext vm2.heap) vm2.objects (kept ++ [r]) o.next = true := by
        apply chainTo_append (m := some r)
        · have e : ∀ x ∈ kept, objNext vm2.heap x = objNext vm.heap x := fun x hx =>
            objNext_set_ne _ (fun e => hrk (e ▸ hx))
          rw [chainTo_congr e]
          exact hk
        · rw [chainTo_cons]
          exact ⟨rfl, o.next, by rw [objNext_of hg2], chainTo_nil.mpr rfl⟩
      have hc2 : chain (objNext vm2.heap) o.next t = true := by
        unfold chain
        have e : ∀ x ∈ t, objNext vm2.heap x = objNext vm.heap x := fun x hx =>
          objNext_set_ne _ (fun e => hrt (e ▸ hx))
        rw [chainTo_congr e]
        exact hct
      have hnd2 : ((kept ++ [r]) ++ t).Nodup := by simpa using hnd
      obtain ⟨vm1, hloop, hchain, hmarked, hfree, hother, hkept, hlen1, hreg⟩ :=
        ih vm2 (kept ++ [r]) (some r) o.next f hk2 (by simp) hc2 hnd2
          (by simp at hlen; omega)
      have hfilter : t.filter (isMarkedAt vm2.heap) = t.filter (isMarkedAt vm.heap) := by
        apply List.filter_congr
        intro x hx
        exact isMarkedAt_set_ne _ (fun e => hrt (e ▸ hx))
      refine ⟨vm1, ?_, ?_, ?_, ?_, ?_, ?_, ?_, ?_⟩
      · simp only [sweepLoop, hg, hm, if_true]
        exact hloop
      · have : isMarkedAt vm.heap r = true := by simp [isMarkedAt, hg, hm]
        rw [List.filter_cons_of_pos this, ← hfilter]
        simpa using hchain
      · intro x hx ox hox hmx
        rcases List.mem_cons.mp hx with rfl | hx
        · rw [hg] at hox
          cases hox
          obtain ⟨n, hn⟩ := hkept x (by simp) _ hg2
          exact ⟨n, hn⟩
        · have hxr : x ≠ r := fun e => hrt (e ▸ hx)
          exact hmarked x hx ox (by rw [hne2 x hxr]; exact hox) hmx
      · intro x hx hmx
        rcases List.mem_cons.mp hx with rfl | hx
        · simp [isMarkedAt, hg, hm] at hmx
        · have hxr : x ≠ r := fun e => hrt (e ▸ hx)
          exact hfree x hx (by rw [isMarkedAt_set_ne _ (Ne.symm hxr)]; exact hmx)
      · intro x hx hxk
        have hxr : x ≠ r := fun e => hx (e ▸ List.mem_cons_self _ _)
        have hxt : x ∉ t := fun e => hx (List.mem_cons_of_mem _ e)
        rw [hother x hxt (by simp [hxk, hxr]), hne2 x hxr]
      · intro x hx ox hox
        have hxr : x ≠ r := fun e => hrk (e ▸ hx)
        exact hkept x (by simp [hx]) ox (by rw [hne2 x hxr]; exact hox)
      · rw [hlen1]
        simp [vm2]
      · exact sameRegisters_trans hreg ⟨rfl, rfl, rfl, rfl, rfl, rfl, rfl⟩
    · -- the object is freed
      have hm' : o.isMarked = false := by simpa using hm
      have hmr : isMarkedAt vm.heap r = false := by simp [isMarkedAt, hg, hm']
      cases hp : previous with
      | none =>
        have hkn : kept = [] := by
          rw [hp] at hprev
          exact List.getLast?_eq_none_iff.mp hprev.symm
        subst hkn
        let vm2 : VM :=
          { vm with
            objects := o.next
            heap := vm.heap.set r none
            bytesAllocated :=
              accountBytes vm.bytesAllocated (H.sizeofObj o.data.type + H.ownedBytes o.data) 0 }
        have hne2 : ∀ x, x ≠ r → heapGet vm2.heap x = heapGet vm.heap x := fun x hx =>
          heapGet_set_ne _ (Ne.symm hx)
        have hg2 : heapGet vm2.heap r = none := heapGet_set_self _ hrlt
        have hc2 : chain (objNext vm2.heap) o.next t = true := by
          unfold chain
          have e : ∀ x ∈ t, objNext vm2.heap x = objNext vm.heap x := fun x hx =>
            objNext_set_ne _ (fun e => hrt (e ▸ hx))
          rw [chainTo_congr e]
          exact hct
        obtain ⟨vm1, hloop, hchain, hmarked, hfree, hother, _, hlen1, hreg⟩ :=
          ih vm2 [] none o.next f (chainTo_nil.mpr rfl) (by simp) hc2
            (by simpa using (List.nodup_cons.mp hnd'.2.1).2) (by simp at hlen; omega)
        have hfilter : t.filter (isMarkedAt vm2.heap) = t.filter (isMarkedAt vm.heap) := by
          apply List.filter_congr
          intro x hx
          exact isMarkedAt_set_ne _ (fun e => hrt (e ▸ hx))
        refine ⟨vm1, ?_, ?_, ?_, ?_, ?_, by simp, ?_, ?_⟩
        · simp only [sweepLoop, hg, hm]
          rw [freeObject_of (by exact hg)]
          exact hloop
        · rw [List.filter_cons_of_neg (by simp [hmr]), ← hfilter]
          exact hchain
        · intro x hx ox hox hmx
          rcases List.mem_cons.mp hx with rfl | hx
          · rw [hg] at hox
            cases hox
            rw [hm'] at hmx
            cases hmx
          · have hxr : x ≠ r := fun e => hrt (e ▸ hx)
            exact hmarked x hx ox (by rw [hne2 x hxr]; exact hox) hmx
        · intro x hx hmx
          rcases List.mem_cons.mp hx with rfl | hx
          · rw [hother x hrt (by simp)]
            exact hg2
          · have hxr : x ≠ r := fun e => hrt (e ▸ hx)
            exact hfree x hx (by rw [isMarkedAt_set_ne _ (Ne.symm hxr)]; exact hmx)
        · intro x hx hxk
          have hxr : x ≠ r := fun e => hx (e ▸ List.mem_cons_self _ _)
          have hxt : x ∉ t := fun e => hx (List.mem_cons_of_mem _ e)
          rw [hother x hxt hxk, hne2 x hxr]
        · rw [hlen1]
          simp [vm2]
        · exact sameRegisters_trans hreg ⟨rfl, rfl, rfl, rfl, rfl, rfl, rfl⟩
      | some p =>
        rw [hp] at hprev
        obtain ⟨k0, rfl⟩ := List.getLast?_eq_some_iff.mp hprev.symm
        obtain ⟨m, hk0, hkp⟩ := chainTo_split hk
        rw [chainTo_cons] at hkp
        obtain ⟨rfl, np, hnp, hnil⟩ := hkp
        obtain ⟨po, hgp, _⟩ := objNext_some hnp
        have hpk : p ∈ k0 ++ [p] := by simp
        have hpr : p ≠ r := fun e => hrk (e ▸ hpk)
        have hplt : p < vm.heap.length := heapGet_lt hgp
        have hpk0 : p ∉ k0 := by
          have := (List.nodup_append.mp hnd'.1)
          intro h
          exact this.2.2 h (by simp)
        let heap1 : Heap := vm.heap.set p (some { po with next := o.next })
        let vm2 : VM :=
          { vm with
            heap := heap1.set r none
            bytesAllocated :=
              accountBytes vm.bytesAllocated (H.sizeofObj o.data.type + H.ownedBytes o.data) 0 }
        have hg1r : heapGet heap1 r = some o := by
          rw [heapGet_set_ne _ hpr]; exact hg
        have hne2 : ∀ x, x ≠ r → x ≠ p → heapGet vm2.heap x = heapGet vm.heap x :=
          fun x hx hxp => by
            show heapGet (heap1.set r none) x = _
            rw [heapGet_set_ne _ (Ne.symm hx), heapGet_set_ne _ (Ne.symm hxp)]
        have hg2r : heapGet vm2.heap r = none :=
          heapGet_set_self _ (by simpa [heap1] using hrlt)
        have hg2p : heapGet vm2.heap p = some { po with next := o.next } := by
          show heapGet (heap1.set r none) p = _
          rw [heapGet_set_ne _ (Ne.symm hpr)]
          exact heapGet_set_self _ hplt
        have hnext2 : ∀ x, x ≠ r → x ≠ p → objNext vm2.heap x = objNext vm.heap x :=
          fun x hx hxp => by simp [objNext, hne2 x hx hxp]
        have hmark2 : ∀ x, x ≠ r → x ≠ p → isMarkedAt vm2.heap x = isMarkedAt vm.heap x :=
          fun x hx hxp => by simp [isMarkedAt, hne2 x hx hxp]
        have hpt : p ∉ t := hkt p hpk
        have hk2 : chainTo (objNext vm2.heap) vm2.objects (k0 ++ [p]) o.next = true := by
          apply chainTo_append (m := some p)
          · have e : ∀ x ∈ k0, objNext vm2.heap x = objNext vm.heap x := fun x hx =>
              hnext2 x (fun e => hrk (e ▸ List.mem_append_left _ hx)) (fun e => hpk0 (e ▸ hx))
            rw [chainTo_congr e]
            exact hk0
          · rw [chainTo_cons]
            exact ⟨rfl, o.next, by rw [objNext_of hg2p], chainTo_nil.mpr rfl⟩
        have hc2 : chain (objNext vm2.heap) o.next t = true := by
          unfold chain
          have e : ∀ x ∈ t, objNext vm2.heap x = objNext vm.heap x := fun x hx =>
            hnext2 x (fun e => hrt (e ▸ hx)) (fun e => hpt (e ▸ hx))
          rw [chainTo_congr e]
          exact hct
        have hnd2 : ((k0 ++ [p]) ++ t).Nodup := by
          refine List.nodup_append.mpr ⟨hnd'.1, (List.nodup_cons.mp hnd'.2.1).2, ?_⟩
          intro x hx hxt
          exact hkt x hx hxt
        obtain ⟨vm1, hloop, hchain, hmarked, hfree, hother, hkept, hlen1, hreg⟩ :=
          ih vm2 (k0 ++ [p]) (some p) o.next f hk2 (by simp) hc2 hnd2
            (by simp at hlen; omega)
        have hfilter : t.filter (isMarkedAt vm2.heap) = t.filter (isMarkedAt vm.heap) := by
          apply List.filter_congr
          intro x hx
          exact hmark2 x (fun e => hrt (e ▸ hx)) (fun e => hpt (e ▸ hx))
        refine ⟨vm1, ?_, ?_, ?_, ?_, ?_, ?_, ?_, ?_⟩
        · simp only [sweepLoop, hg, hm, hgp]
          rw [freeObject_of (by exact hg1r)]
          exact hloop
        · rw [List.filter_cons_of_neg (by simp [hmr]), ← hfilter]
          exact hchain
        · intro x hx ox hox hmx
          rcases List.mem_cons.mp hx with rfl | hx
          · rw [hg] at hox
            cases hox
            rw [hm'] at hmx
            cases hmx
          · have hxr : x ≠ r := fun e => hrt (e ▸ hx)
            have hxp : x ≠ p := fun e => hpt (e ▸ hx)
            exact hmarked x hx ox (by rw [hne2 x hxr hxp]; exact hox) hmx
        · intro x hx hmx
          rcases List.mem_cons.mp hx with rfl | hx
          · rw [hother x hrt hrk]
            exact hg2r
          · have hxr : x ≠ r := fun e => hrt (e ▸ hx)
            have hxp : x ≠ p := fun e => hpt (e ▸ hx)
            exact hfree x hx (by rw [hmark2 x hxr hxp]; exact hmx)
        · intro x hx hxk
          have hxr : x ≠ r := fun e => hx (e ▸ List.mem_cons_self _ _)
          have hxt : x ∉ t := fun e => hx (List.mem_cons_of_mem _ e)
          have hxp : x ≠ p := fun e => hxk (e ▸ hpk)
          rw [hother x hxt hxk, hne2 x hxr hxp]
        · intro x hx ox hox
          have hxr : x ≠ r := fun e => hrk (e ▸ hx)
          by_cases hxp : x = p
          · subst hxp
            rw [hgp] at hox
            cases hox
            obtain ⟨n, hn⟩ := hkept x hx _ hg2p
            exact ⟨n, hn⟩
          · exact hkept x hx ox (by rw [hne2 x hxr hxp]; exact hox)
        · rw [hlen1]
          simp [vm2, heap1]
        · exact sameRegisters_trans hreg ⟨rfl, rfl, rfl, rfl, rfl, rfl, rfl⟩

theorem sweep_spec_aux (H : Host) (vm : VM) (objs : List Ref)
    (hl : chain (objNext vm.heap) vm.objects objs = true) :
    ∃ vm1, sweep H vm = some vm1 ∧
      chain (objNext vm1.heap) vm1.objects (objs.filter (isMarkedAt vm.heap)) = true ∧
      (∀ r ∈ objs, ∀ o, heapGet vm.heap r = some o → o.isMarked = true →
        ∃ n, heapGet vm1.heap r = some { isMarked := false, next := n, data := o.data }) ∧
      (∀ r ∈ objs, isMarkedAt vm.heap r = false → heapGet vm1.heap r = none) ∧
      (∀ r, r ∉ objs → heapGet vm1.heap r = heapGet vm.heap r) ∧
      vm1.heap.length = vm.heap.length ∧
      sameRegisters vm1 vm := by
  have hlen : objs.length ≤ vm.heap.length + 1 :=
    Nat.le_succ_of_le (chain_length_le (fun r m h => objNext_lt h) hl)
  obtain ⟨vm1, h1, h2, h3, h4, h5, _, h7, h8⟩ :=
    sweepLoop_spec H objs vm [] none vm.objects (vm.heap.length + 1) (chainTo_nil.mpr rfl)
      rfl hl (by simpa using chain_nodup hl) hlen
  exact ⟨vm1, h1, by simpa using h2, h3, h4, fun r hr => h5 r hr (by simp), h7, h8⟩

/-! ## Marking -/

theorem heapGet_getElem {heap : Heap} {r : Ref} {o : Obj} (h : heapGet heap r = some o) :
    heap[r]? = some (some o) := by
  unfold heapGet at h
  split at h
  · rename_i o' heq
    cases h
    exact heq
  · cases h

theorem heapGet_of_getElem {heap : Heap} {r : Ref} {o : Obj} (h : heap[r]? = some (some o)) :
    heapGet heap r = some o := by
  simp [heapGet, h]

theorem MarkExt.ext_refl (heap : Heap) : MarkExt heap heap :=
  ⟨rfl, fun _ => Or.inl rfl⟩

theorem MarkExt.ext_trans {h h1 h2 : Heap} (a : MarkExt h h1) (b : MarkExt h1 h2) :
    MarkExt h h2 := by
  refine ⟨b.1.trans a.1, fun r => ?_⟩
  rcases b.2 r with hb | ⟨o1, ho1, hb⟩
  · rw [hb]
    exact a.2 r
  · rcases a.2 r with ha | ⟨o, ho, ha⟩
    · right
      exact ⟨o1, by rw [← ha]; exact ho1, hb⟩
    · right
      rw [ha] at ho1
      cases ho1
      exact ⟨o, ho, hb⟩

theorem MarkExt.get {h h1 : Heap} (a : MarkExt h h1) {r : Ref} {o : Obj}
    (ho : heapGet h r = some o) :
    ∃ b, heapGet h1 r = some { o with isMarked := b } ∧ (o.isMarked = true → b = true) := by
  rcases a.2 r with ha | ⟨o', ho', ha⟩
  · exact ⟨o.isMarked, by rw [ha, ho], fun h => h⟩
  · rw [ho] at ho'
    cases ho'
    exact ⟨true, ha, fun _ => rfl⟩

theorem MarkExt.get_inv {h h1 : Heap} (a : MarkExt h h1) {r : Ref} {o1 : Obj}
    (ho : heapGet h1 r = some o1) :
    ∃ o, heapGet h r = some o ∧ o1.data = o.data ∧ o1.next = o.next ∧
      (o.isMarked = true → o1.isMarked = true) := by
  rcases a.2 r with ha | ⟨o', ho', ha⟩
  · exact ⟨o1, by rw [← ha, ho], rfl, rfl, fun h => h⟩
  · rw [ho] at ha
    cases ha
    exact ⟨o', ho', rfl, rfl, fun _ => rfl⟩

theorem MarkExt.none {h h1 : Heap} (a : MarkExt h h1) {r : Ref} (ho : heapGet h r = none) :
    heapGet h1 r = none := by
  rcases a.2 r with ha | ⟨o', ho', _⟩
  · rw [ha, ho]
  · rw [ho] at ho'
    cases ho'

theorem MarkExt.upvalueNext {h h1 : Heap} (a : MarkExt h h1) :
    upvalueNext h1 = upvalueNext h := by
  funext r
  unfold Loon.upvalueNext
  cases ho : heapGet h r with
  | none => rw [a.none ho]
  | some o =>
    obtain ⟨b, hb, _⟩ := a.get ho
    rw [hb]

theorem MarkExt.objNext {h h1 : Heap} (a : MarkExt h h1) : objNext h1 = objNext h := by
  funext r
  unfold Loon.objNext
  cases ho : heapGet h r with
  | none => rw [a.none ho]
  | some o =>
    obtain ⟨b, hb, _⟩ := a.get ho
    rw [hb]

theorem MarkExt.openNext {h h1 : Heap} (a : MarkExt h h1) : openNext h1 = openNext h := by
  funext r
  unfold Loon.openNext
  cases ho : heapGet h r with
  | none => rw [a.none ho]
  | some o =>
    obtain ⟨b, hb, _⟩ := a.get ho
    rw [hb]

theorem MarkExt.slotOf {h h1 : Heap} (a : MarkExt h h1) : slotOf h1 = slotOf h := by
  funext r
  unfold Loon.slotOf
  cases ho : heapGet h r with
  | none => rw [a.none ho]
  | some o =>
    obtain ⟨b, hb, _⟩ := a.get ho
    rw [hb]

theorem MarkExt.fiberRefs {h h1 : Heap} (a : MarkExt h h1) (f : ObjFiber) :
    fiberRefs h1 f = fiberRefs h f := by
  unfold Loon.fiberRefs
  rw [a.upvalueNext, a.1]

theorem MarkExt.references {h h1 : Heap} (a : MarkExt h h1) (d : ObjData) :
    references h1 d = references h d := by
  cases d <;> simp only [Loon.references]
  exact a.fiberRefs _

theorem MarkExt.fiberProper {h h1 : Heap} (a : MarkExt h h1) (f : ObjFiber) :
    fiberProper h1 f = fiberProper h f := by
  unfold Loon.fiberProper
  rw [a.upvalueNext, a.1]

theorem MarkExt.marked {h h1 : Heap} (a : MarkExt h h1) {r : Ref}
    (hm : markedOrAbsent h r) : markedOrAbsent h1 r := by
  intro o1 ho1
  obtain ⟨o, ho, _, _, hmo⟩ := a.get_inv ho1
  exact hmo (hm o ho)

theorem MarkExt.isMarkedAt {h h1 : Heap} (a : MarkExt h h1) {r : Ref}
    (hm : isMarkedAt h r = true) : isMarkedAt h1 r = true := by
  unfold Loon.isMarkedAt at hm ⊢
  cases ho : heapGet h r with
  | none => simp [ho] at hm
  | some o =>
    obtain ⟨b, hb, hbm⟩ := a.get ho
    rw [hb]
    simp only [ho] at hm
    exact hbm hm

theorem Marks.marks_refl (vm : VM) : Marks vm vm :=
  ⟨MarkExt.ext_refl _, fun _ h => h, fun _ h => Or.inl h, rfl, rfl, rfl, rfl, rfl, rfl, rfl, rfl,
    rfl⟩

theorem Marks.marks_trans {a b c : VM} (h1 : Marks a b) (h2 : Marks b c) : Marks a c := by
  obtain ⟨e1, g1, n1, c1, a1, a2, a3, a4, a5, a6, a7, a8⟩ := h1
  obtain ⟨e2, g2, n2, c2, b1, b2, b3, b4, b5, b6, b7, b8⟩ := h2
  refine ⟨e1.ext_trans e2, fun p hp => g2 p (g1 p hp), ?_, c2.trans c1, b1.trans a1, b2.trans a2,
    b3.trans a3, b4.trans a4, b5.trans a5, b6.trans a6, b7.trans a7, b8.trans a8⟩
  intro p hp
  rcases n2 p hp with h | h
  · rcases n1 p h with h' | h'
    · exact Or.inl h'
    · exact Or.inr (g2 p h')
  · exact Or.inr h

theorem countP_set_flip {α : Type} (p : α → Bool) (l : List α) (i : Nat) (x y : α)
    (hi : l[i]? = some y) (hold : p y = true) (hnew : p x = false) :
    (l.set i x).countP p + 1 = l.countP p := by
  induction l generalizing i with
  | nil => simp at hi
  | cons a l ih =>
    cases i with
    | zero =>
      simp at hi
      subst hi
      simp [List.countP_cons, hold, hnew]
    | succ j =>
      simp at hi
      have := ih j hi
      simp only [List.set_cons_succ, List.countP_cons]
      omega

theorem unmarkedCount_mark {heap : Heap} {r : Ref} {o : Obj} (hg : heap[r]? = some (some o))
    (hm : o.isMarked = false) :
    unmarkedCount (heap.set r (some { o with isMarked := true })) + 1 = unmarkedCount heap := by
  unfold unmarkedCount
  exact countP_set_flip _ _ _ _ _ hg (by simp [hm]) (by simp)

theorem markObject_absent {vm : VM} {r : Ref} (hg : heapGet vm.heap r = none) :
    markObject vm (some r) = vm := by
  simp [markObject, hg]

theorem markObject_marked {vm : VM} {r : Ref} {o : Obj} (hg : heapGet vm.heap r = some o)
    (hm : o.isMarked = true) : markObject vm (some r) = vm := by
  simp [markObject, hg, hm]

theorem markObject_unmarked {vm : VM} {r : Ref} {o : Obj} (hg : heapGet vm.heap r = some o)
    (hm : o.isMarked = false) :
    markObject vm (some r) =
      { vm with
        heap := vm.heap.set r (some { o with isMarked := true })
        grayStack := r :: vm.grayStack } := by
  simp [markObject, hg, hm]

theorem markObject_marks (vm : VM) (x : Option Ref) :
    Marks vm (markObject vm x) ∧ ∀ r, x = some r → markedOrAbsent (markObject vm x).heap r := by
  cases x with
  | none => exact ⟨Marks.marks_refl vm, fun r h => by cases h⟩
  | some r =>
    cases hg : heapGet vm.heap r with
    | none =>
      rw [markObject_absent hg]
      refine ⟨Marks.marks_refl vm, fun r' h => ?_⟩
      cases h
      intro o ho
      rw [hg] at ho
      cases ho
    | some o =>
      by_cases hm : o.isMarked = true
      · rw [markObject_marked hg hm]
        refine ⟨Marks.marks_refl vm, fun r' h => ?_⟩
        cases h
        intro o' ho'
        rw [hg] at ho'
        cases ho'
        exact hm
      · have hm' : o.isMarked = false := by simpa using hm
        rw [markObject_unmarked hg hm']
        have hrlt : r < vm.heap.length := heapGet_lt hg
        refine ⟨⟨⟨by simp, ?_⟩, ?_, ?_, ?_, rfl, rfl, rfl, rfl, rfl, rfl, rfl, rfl⟩, ?_⟩
        · intro r'
          by_cases hr : r = r'
          · subst hr
            right
            exact ⟨o, hg, heapGet_set_self _ hrlt⟩
          · left
            exact heapGet_set_ne _ hr
        · intro p hp
          exact List.mem_cons_of_mem _ hp
        · intro p hp
          by_cases hr : r = p
          · subst hr
            right
            exact List.mem_cons_self _ _
          · left
            simp only [isMarkedAt] at hp ⊢
            rw [heapGet_set_ne _ hr] at hp
            exact hp
        · have := unmarkedCount_mark (heapGet_getElem hg) hm'
          simp only [List.length_cons]
          omega
        · intro r' h
          cases h
          intro o' ho'
          rw [heapGet_set_self _ hrlt] at ho'
          cases ho'
          rfl

theorem markAll_marks (targets : List (Option Ref)) :
    ∀ vm : VM, Marks vm (markAll vm targets) ∧
      ∀ r, some r ∈ targets → markedOrAbsent (markAll vm targets).heap r := by
  induction targets with
  | nil => exact fun vm => ⟨Marks.marks_refl vm, fun r h => by cases h⟩
  | cons x t ih =>
    intro vm
    obtain ⟨m1, t1⟩ := markObject_marks vm x
    obtain ⟨m2, t2⟩ := ih (markObject vm x)
    refine ⟨m1.marks_trans m2, fun r hr => ?_⟩
    rcases List.mem_cons.mp hr with h | h
    · exact m2.1.marked (t1 r h.symm)
    · exact t2 r h

theorem markValue_eq (vm : VM) (v : Value) : markValue vm v = markObject vm (valueRef v) := by
  cases v <;> rfl

theorem markArray_eq (vm : VM) (vs : List Value) :
    markArray vm vs = markAll vm (vs.map valueRef) := by
  unfold markArray markAll
  rw [List.foldl_map]
  congr
  funext v x
  exact markValue_eq v x

theorem markTable_eq (t : Table) :
    ∀ vm : VM, markTable vm t = markAll vm (t.flatMap (fun e => [some e.1, valueRef e.2])) := by
  induction t with
  | nil => intro vm; rfl
  | cons e t ih =>
    intro vm
    have := ih (markValue (markObject vm (some e.1)) e.2)
    simp only [markTable, markAll, List.foldl_cons, List.flatMap_cons, List.cons_append,
      List.nil_append] at this ⊢
    rw [this, markValue_eq]

theorem mem_valueRefs {r : Ref} {vs : List Value} :
    r ∈ valueRefs vs ↔ some r ∈ vs.map valueRef := by
  simp [valueRefs, List.mem_filterMap]

theorem mem_tableRefs {r : Ref} {t : Table} :
    r ∈ tableRefs t ↔ some r ∈ t.flatMap (fun e => [some e.1, valueRef e.2]) := by
  simp only [tableRefs, List.mem_flatMap, List.mem_cons, valueRefs, List.mem_filterMap,
    List.mem_singleton, Option.some.injEq, List.not_mem_nil, or_false]
  constructor
  · rintro ⟨e, he, h⟩
    refine ⟨e, he, ?_⟩
    rcases h with h | ⟨a, rfl, h⟩
    · exact Or.inl h
    · exact Or.inr h.symm
  · rintro ⟨e, he, h⟩
    refine ⟨e, he, ?_⟩
    rcases h with h | h
    · exact Or.inl h
    · exact Or.inr ⟨e.2, rfl, h.symm⟩

theorem markArray_marks (vm : VM) (vs : List Value) :
    Marks vm (markArray vm vs) ∧ ∀ r ∈ valueRefs vs, markedOrAbsent (markArray vm vs).heap r := by
  rw [markArray_eq]
  obtain ⟨m, t⟩ := markAll_marks (vs.map valueRef) vm
  exact ⟨m, fun r hr => t r (mem_valueRefs.mp hr)⟩

theorem markTable_marks (vm : VM) (t : Table) :
    Marks vm (markTable vm t) ∧ ∀ r ∈ tableRefs t, markedOrAbsent (markTable vm t).heap r := by
  rw [markTable_eq]
  obtain ⟨m, h⟩ := markAll_marks (t.flatMap (fun e => [some e.1, valueRef e.2])) vm
  exact ⟨m, fun r hr => h r (mem_tableRefs.mp hr)⟩

theorem foldl_markObject_marks {α : Type} (g : α → Ref) (l : List α) (vm : VM) :
    Marks vm (l.foldl (fun v a => markObject v (some (g a))) vm) ∧
      ∀ a ∈ l, markedOrAbsent (l.foldl (fun v a => markObject v (some (g a))) vm).heap (g a) := by
  have e : l.foldl (fun v a => markObject v (some (g a))) vm =
      markAll vm (l.map (fun a => some (g a))) := by
    unfold markAll
    rw [List.foldl_map]
  rw [e]
  obtain ⟨m, h⟩ := markAll_marks (l.map (fun a => some (g a))) vm
  exact ⟨m, fun a ha => h (g a) (List.mem_map_of_mem _ ha)⟩

/-! ## markFiber, blackenObject, markRoots, traceReferences -/

theorem chainNodes_eq {nxt : Ref → Option (Option Ref)} (l : List Ref) :
    ∀ (fuel : Nat) (head : Option Ref), chain nxt head l = true → l.length ≤ fuel →
      chainNodes nxt fuel head = l := by
  induction l with
  | nil =>
    intro fuel head hc _
    have : head = none := by simpa [chain, chainTo_nil] using hc
    subst this
    cases fuel <;> rfl
  | cons r t ih =>
    intro fuel head hc hlen
    obtain ⟨f, rfl⟩ : ∃ f, fuel = f + 1 := ⟨fuel - 1, by simp at hlen; omega⟩
    unfold chain at hc
    rw [chainTo_cons] at hc
    obtain ⟨rfl, n, hn, hct⟩ := hc
    simp only [chainNodes, hn]
    rw [ih f n hct (by simp at hlen; omega)]

theorem upvalueNext_some {heap : Heap} {r : Ref} {n : Option Ref}
    (h : upvalueNext heap r = some n) :
    ∃ o loc c, heapGet heap r = some o ∧ o.data = .upvalue loc c n := by
  unfold upvalueNext at h
  cases hg : heapGet heap r with
  | none => simp [hg] at h
  | some o =>
    simp only [hg] at h
    cases hd : o.data <;> simp only [hd] at h <;> try (simp at h)
    rename_i loc closed next
    exact ⟨o, loc, closed, rfl, by rw [hd, h]⟩

theorem markOpenUpvalues_null (fuel : Nat) (vm : VM) :
    markOpenUpvalues fuel vm none = some vm := by
  cases fuel <;> rfl

theorem markOpenUpvalues_spec (l : List Ref) :
    ∀ (vm : VM) (fuel : Nat) (head : Option Ref),
      chain (upvalueNext vm.heap) head l = true → l.length ≤ fuel →
      ∃ vm1, markOpenUpvalues fuel vm head = some vm1 ∧ Marks vm vm1 ∧
        ∀ r ∈ l, markedOrAbsent vm1.heap r := by
  induction l with
  | nil =>
    intro vm fuel head hc _
    have : head = none := by simpa [chain, chainTo_nil] using hc
    subst this
    exact ⟨vm, markOpenUpvalues_null fuel vm, Marks.marks_refl vm, by simp⟩
  | cons r t ih =>
    intro vm fuel head hc hlen
    obtain ⟨f, rfl⟩ : ∃ f, fuel = f + 1 := ⟨fuel - 1, by simp at hlen; omega⟩
    unfold chain at hc
    rw [chainTo_cons] at hc
    obtain ⟨rfl, n, hn, hct⟩ := hc
    obtain ⟨o, loc, c, hg, hd⟩ := upvalueNext_some hn
    obtain ⟨m1, t1⟩ := markObject_marks vm (some r)
    have hct1 : chain (upvalueNext (markObject vm (some r)).heap) n t = true := by
      rw [m1.1.upvalueNext]
      exact hct
    obtain ⟨vm1, h1, m2, t2⟩ := ih (markObject vm (some r)) f n hct1 (by simp at hlen; omega)
    refine ⟨vm1, ?_, m1.marks_trans m2, ?_⟩
    · simp only [markOpenUpvalues, hg, hd]
      exact h1
    · intro x hx
      rcases List.mem_cons.mp hx with rfl | hx
      · exact m2.1.marked (t1 x rfl)
      · exact t2 x hx

theorem fiberProper_length {heap : Heap} {f : ObjFiber} (h : fiberProper heap f = true) :
    (chainNodes (upvalueNext heap) (heap.length + 1) f.openUpvalues).length ≤ heap.length :=
  chain_length_le (fun _ _ hm => upvalueNext_lt hm) h

theorem markFiber_spec (vm : VM) (f : ObjFiber) (hp : fiberProper vm.heap f = true) :
    ∃ vm1, markFiber vm f = some vm1 ∧ Marks vm vm1 ∧
      ∀ r ∈ fiberRefs vm.heap f, markedOrAbsent vm1.heap r := by
  obtain ⟨m1, t1⟩ := markArray_marks vm (f.stack.take f.stackTop)
  obtain ⟨m2, t2⟩ := foldl_markObject_marks (fun fr : CallFrame => fr.closure) f.frames
    (markArray vm (f.stack.take f.stackTop))
  have m12 := m1.marks_trans m2
  have hc : chain (upvalueNext
      (f.frames.foldl (fun v fr => markObject v (some fr.closure))
        (markArray vm (f.stack.take f.stackTop))).heap) f.openUpvalues
      (chainNodes (upvalueNext vm.heap) (vm.heap.length + 1) f.openUpvalues) = true := by
    rw [m12.1.upvalueNext]
    exact hp
  obtain ⟨vm1, h1, m3, t3⟩ := markOpenUpvalues_spec _ _ (vm.heap.length + 1) _ hc
    (Nat.le_succ_of_le (fiberProper_length hp))
  refine ⟨vm1, h1, m12.marks_trans m3, ?_⟩
  intro r hr
  simp only [fiberRefs, List.mem_append, List.mem_map] at hr
  rcases hr with (hr | ⟨fr, hfr, rfl⟩) | hr
  · exact m3.1.marked (m2.1.marked (t1 r hr))
  · exact m3.1.marked (t2 fr hfr)
  · exact t3 r hr

theorem heapFibersProper_iff {heap : Heap} :
    heapFibersProper heap = true ↔
      ∀ r o f, heapGet heap r = some o → o.data = .fiber f → fiberProper heap f = true := by
  unfold heapFibersProper
  rw [List.all_eq_true]
  constructor
  · intro h r o f hg hd
    have hmem : some o ∈ heap := List.mem_iff_getElem?.mpr ⟨r, heapGet_getElem hg⟩
    have := h (some o) hmem
    simpa [hd] using this
  · intro h x hx
    obtain ⟨r, hr⟩ := List.mem_iff_getElem?.mp hx
    cases x with
    | none => rfl
    | some o =>
      have hg := heapGet_of_getElem hr
      simp only
      split
      · rename_i f hd
        exact h r o f hg hd
      · rfl

theorem heapFibersProper_ext {h h1 : Heap} (a : MarkExt h h1)
    (hp : heapFibersProper h = true) : heapFibersProper h1 = true := by
  rw [heapFibersProper_iff] at hp ⊢
  intro r o1 f hg hd
  obtain ⟨o, ho, hdata, _, _⟩ := a.get_inv hg
  rw [a.fiberProper]
  exact hp r o f ho (by rw [← hdata, hd])

theorem allUnmarked_iff {heap : Heap} :
    allUnmarked heap = true ↔ ∀ r o, heapGet heap r = some o → o.isMarked = false := by
  unfold allUnmarked
  rw [List.all_eq_true]
  constructor
  · intro h r o hg
    have hmem : some o ∈ heap := List.mem_iff_getElem?.mpr ⟨r, heapGet_getElem hg⟩
    simpa using h (some o) hmem
  · intro h x hx
    obtain ⟨r, hr⟩ := List.mem_iff_getElem?.mp hx
    cases x with
    | none => rfl
    | some o => simpa using h r o (heapGet_of_getElem hr)

theorem blackenObject_spec (vm : VM) (p : Ref) (hf : heapFibersProper vm.heap = true) :
    ∃ vm1, blackenObject vm p = some vm1 ∧ Marks vm vm1 ∧
      ∀ o, heapGet vm.heap p = some o →
        ∀ r ∈ references vm.heap o.data, markedOrAbsent vm1.heap r := by
  unfold blackenObject
  cases hg : heapGet vm.heap p with
  | none => exact ⟨vm, rfl, Marks.marks_refl vm, fun o ho => by cases ho⟩
  | some o =>
    simp only
    cases hd : o.data with
    | boundMethod receiver method =>
      obtain ⟨m1, t1⟩ := markObject_marks vm (valueRef receiver)
      obtain ⟨m2, t2⟩ := markObject_marks (markObject vm (valueRef receiver)) (some method)
      refine ⟨_, rfl, by rw [markValue_eq]; exact m1.marks_trans m2, ?_⟩
      intro o' ho' r hr
      cases ho'
      rw [markValue_eq]
      simp only [hd, references, valueRefs, List.mem_append, List.mem_filterMap,
        List.mem_singleton] at hr
      rcases hr with ⟨v, rfl, hv⟩ | rfl
      · exact m2.1.marked (t1 r hv)
      · exact t2 r rfl
    | klass name methods =>
      obtain ⟨m1, t1⟩ := markObject_marks vm (some name)
      obtain ⟨m2, t2⟩ := markTable_marks (markObject vm (some name)) methods
      refine ⟨_, rfl, m1.marks_trans m2, ?_⟩
      intro o' ho' r hr
      cases ho'
      simp only [hd, references, List.mem_cons] at hr
      rcases hr with rfl | hr
      · exact m2.1.marked (t1 r rfl)
      · exact t2 r hr
    | closure function upvalues =>
      obtain ⟨m, t⟩ := markAll_marks (some function :: upvalues) vm
      refine ⟨_, rfl, m, ?_⟩
      intro o' ho' r hr
      cases ho'
      simp only [hd, references, List.mem_cons, List.mem_filterMap, id] at hr
      apply t
      rcases hr with rfl | ⟨a, ha, rfl⟩
      · exact List.mem_cons_self _ _
      · exact List.mem_cons_of_mem _ ha
    | fiber f =>
      have hp := (heapFibersProper_iff.mp hf) p o f hg hd
      obtain ⟨vm1, h1, m, t⟩ := markFiber_spec vm f hp
      refine ⟨vm1, h1, m, ?_⟩
      intro o' ho' r hr
      cases ho'
      simp only [hd, references] at hr
      exact t r hr
    | function f =>
      obtain ⟨m1, t1⟩ := markObject_marks vm f.name
      obtain ⟨m2, t2⟩ := markArray_marks (markObject vm f.name) f.chunk.constants
      refine ⟨_, rfl, m1.marks_trans m2, ?_⟩
      intro o' ho' r hr
      cases ho'
      simp only [hd, references, List.mem_append, Option.mem_toList, Option.mem_def] at hr
      rcases hr with hr | hr
      · exact m2.1.marked (t1 r hr)
      · exact t2 r hr
    | inst klass fields =>
      obtain ⟨m1, t1⟩ := markObject_marks vm (some klass)
      obtain ⟨m2, t2⟩ := markTable_marks (markObject vm (some klass)) fields
      refine ⟨_, rfl, m1.marks_trans m2, ?_⟩
      intro o' ho' r hr
      cases ho'
      simp only [hd, references, List.mem_cons] at hr
      rcases hr with rfl | hr
      · exact m2.1.marked (t1 r rfl)
      · exact t2 r hr
    | list values =>
      obtain ⟨m, t⟩ := markArray_marks vm values
      refine ⟨_, rfl, m, ?_⟩
      intro o' ho' r hr
      cases ho'
      simp only [hd, references] at hr
      exact t r hr
    | native function =>
      refine ⟨_, rfl, Marks.marks_refl vm, ?_⟩
      intro o' ho' r hr
      cases ho'
      simp [hd, references] at hr
    | string chars hash =>
      refine ⟨_, rfl, Marks.marks_refl vm, ?_⟩
      intro o' ho' r hr
      cases ho'
      simp [hd, references] at hr
    | table values =>
      obtain ⟨m, t⟩ := markTable_marks vm values
      refine ⟨_, rfl, m, ?_⟩
      intro o' ho' r hr
      cases ho'
      simp only [hd, references] at hr
      exact t r hr
    | upvalue location closed next =>
      obtain ⟨m, t⟩ := markObject_marks vm (valueRef closed)
      refine ⟨_, rfl, by rw [markValue_eq]; exact m, ?_⟩
      intro o' ho' r hr
      cases ho'
      rw [markValue_eq]
      simp only [hd, references, valueRefs, List.mem_filterMap, List.mem_singleton] at hr
      obtain ⟨v, rfl, hv⟩ := hr
      exact t r hv

theorem markRoots_spec (vm : VM) (hp : fiberProper vm.heap vm.current = true) :
    ∃ vm1, markRoots vm = some vm1 ∧ Marks vm vm1 ∧
      ∀ r ∈ rootRefs vm, markedOrAbsent vm1.heap r := by
  obtain ⟨vmA, hA, mA, tA⟩ := markFiber_spec vm vm.current hp
  obtain ⟨mB, tB⟩ := markTable_marks vmA vmA.globals
  obtain ⟨mC, tC⟩ := foldl_markObject_marks (fun r : Ref => r)
    (markTable vmA vmA.globals).compilerRoots (markTable vmA vmA.globals)
  obtain ⟨mD, tD⟩ := foldl_markObject_marks (fun r : Ref => r)
    (markCompilerRoots (markTable vmA vmA.globals)).constants.all
    (markCompilerRoots (markTable vmA vmA.globals))
  have hglob : vmA.globals = vm.globals := mA.2.2.2.2.2.1
  have hcr : (markTable vmA vmA.globals).compilerRoots = vm.compilerRoots :=
    (mA.marks_trans mB).2.2.2.2.2.2.2.2.2.2.1
  have mC' : Marks (markTable vmA vmA.globals) (markCompilerRoots (markTable vmA vmA.globals)) :=
    mC
  have hcs : (markCompilerRoots (markTable vmA vmA.globals)).constants = vm.constants :=
    ((mA.marks_trans mB).marks_trans mC').2.2.2.2.2.2.2.2.2.2.2
  refine ⟨_, by simp only [markRoots, hA]; rfl, ((mA.marks_trans mB).marks_trans mC').marks_trans mD, ?_⟩
  intro r hr
  simp only [rootRefs, List.mem_append] at hr
  have mD' : MarkExt (markCompilerRoots (markTable vmA vmA.globals)).heap
      (markConstants (markCompilerRoots (markTable vmA vmA.globals))).heap := mD.1
  rcases hr with ((hr | hr) | hr) | hr
  · exact mD'.marked (mC'.1.marked (mB.1.marked (tA r hr)))
  · rw [← hglob] at hr
    exact mD'.marked (mC'.1.marked (tB r hr))
  · rw [← hcr] at hr
    exact mD'.marked (tC r hr)
  · rw [← hcs] at hr
    exact tD r hr

theorem Marks.markedFrom {a b : VM} (h : Marks a b) : MarkedFrom a b :=
  ⟨h.1, h.2.2.2.2.1, h.2.2.2.2.2.1, h.2.2.2.2.2.2.1, h.2.2.2.2.2.2.2.1, h.2.2.2.2.2.2.2.2.1,
    h.2.2.2.2.2.2.2.2.2.1, h.2.2.2.2.2.2.2.2.2.2.1, h.2.2.2.2.2.2.2.2.2.2.2⟩

theorem MarkedFrom.from_trans {a b c : VM} (h1 : MarkedFrom a b) (h2 : MarkedFrom b c) :
    MarkedFrom a c := by
  obtain ⟨e1, a1, a2, a3, a4, a5, a6, a7, a8⟩ := h1
  obtain ⟨e2, b1, b2, b3, b4, b5, b6, b7, b8⟩ := h2
  exact ⟨e1.ext_trans e2, b1.trans a1, b2.trans a2, b3.trans a3, b4.trans a4, b5.trans a5,
    b6.trans a6, b7.trans a7, b8.trans a8⟩

theorem TriColor_of_marks {a b : VM} (h : Marks a b) (t : TriColor a) : TriColor b := by
  intro q oq hq hmq hng r hr
  obtain ⟨o, ho, hdata, _, _⟩ := h.1.get_inv hq
  have hmb : isMarkedAt b.heap q = true := by simp [isMarkedAt, hq, hmq]
  rcases h.2.2.1 q hmb with hma | hg
  · have hmo : o.isMarked = true := by simpa [isMarkedAt, ho] using hma
    have hnga : q ∉ a.grayStack := fun e => hng (h.2.1 q e)
    rw [h.1.references, hdata] at hr
    exact h.1.marked (t q o ho hmo hnga r hr)
  · exact absurd hg hng

theorem traceReferences_spec :
    ∀ (fuel : Nat) (vm : VM), heapFibersProper vm.heap = true →
      vm.grayStack.length + unmarkedCount vm.heap ≤ fuel →
      ∃ vm1, traceReferences fuel vm = some vm1 ∧ vm1.grayStack = [] ∧ MarkedFrom vm vm1 ∧
        (TriColor vm → TriColor vm1) := by
  intro fuel
  induction fuel with
  | zero =>
    intro vm _ hle
    have hg : vm.grayStack = [] := by
      cases h : vm.grayStack with
      | nil => rfl
      | cons a l => rw [h] at hle; simp at hle
    refine ⟨vm, by simp [traceReferences, hg], hg, (Marks.marks_refl vm).markedFrom, fun h => h⟩
  | succ f ih =>
    intro vm hf hle
    cases hg : vm.grayStack with
    | nil =>
      exact ⟨vm, by simp [traceReferences, hg], hg, (Marks.marks_refl vm).markedFrom, fun h => h⟩
    | cons p rest =>
      let vmp : VM := { vm with grayStack := rest }
      obtain ⟨vmb, hb, mb, tb⟩ := blackenObject_spec vmp p hf
      have htb : TriColor vm → TriColor vmb := by
        intro ht q oq hq hmq hng r hr
        obtain ⟨o, ho, hdata, _, _⟩ := mb.1.get_inv hq
        have hmb : isMarkedAt vmb.heap q = true := by simp [isMarkedAt, hq, hmq]
        rw [mb.1.references, hdata] at hr
        by_cases hqp : q = p
        · subst hqp
          exact tb o ho r hr
        · rcases mb.2.2.1 q hmb with hma | hgq
          · have hmo : o.isMarked = true := by simpa [isMarkedAt, vmp, ho] using hma
            have hnr : q ∉ rest := fun e => hng (mb.2.1 q e)
            have hngv : q ∉ vm.grayStack := by
              rw [hg]
              simp [hqp, hnr]
            exact mb.1.marked (ht q o ho hmo hngv r hr)
          · exact absurd hgq hng
      have hmu : vmb.grayStack.length + unmarkedCount vmb.heap ≤ f := by
        have := mb.2.2.2.1
        rw [hg] at hle
        simp only [List.length_cons] at hle
        have e : vmp.grayStack.length + unmarkedCount vmp.heap =
            rest.length + unmarkedCount vm.heap := rfl
        omega
      obtain ⟨vm1, h1, hg1, m1, t1⟩ := ih vmb (heapFibersProper_ext mb.1 hf) hmu
      refine ⟨vm1, ?_, hg1, ?_, fun ht => t1 (htb ht)⟩
      · simp only [traceReferences, hg]
        have : blackenObject { vm with grayStack := rest } p = some vmb := hb
        rw [this]
        exact h1
      · have mp : MarkedFrom vm vmp := ⟨MarkExt.ext_refl _, rfl, rfl, rfl, rfl, rfl, rfl, rfl, rfl⟩
        exact (mp.from_trans mb.markedFrom).from_trans m1

theorem unmarkedCount_le (heap : Heap) : unmarkedCount heap ≤ heap.length :=
  List.countP_le_length _

/-! ## A whole collection -/

theorem fiberProper_of_chain {heap : Heap} {f : ObjFiber} {l : List Ref}
    (h : chain (upvalueNext heap) f.openUpvalues l = true) : fiberProper heap f = true := by
  unfold fiberProper
  have hlen : l.length ≤ heap.length + 1 :=
    Nat.le_succ_of_le (chain_length_le (fun _ _ hm => upvalueNext_lt hm) h)
  rw [chainNodes_eq l _ _ h hlen]
  exact h

theorem objectsProper_of_chain {vm : VM} {l : List Ref}
    (h : chain (objNext vm.heap) vm.objects l = true) : objectsProper vm = true := by
  unfold objectsProper
  have hlen : l.length ≤ vm.heap.length + 1 :=
    Nat.le_succ_of_le (chain_length_le (fun _ _ hm => objNext_lt hm) h)
  rw [chainNodes_eq l _ _ h hlen]
  exact h

/-- markRoots followed by traceReferences, from any state whose lists are proper. -/
theorem markPhase_spec (vm : VM) (hcur : fiberProper vm.heap vm.current = true)
    (hfib : heapFibersProper vm.heap = true) :
    ∃ vm1 vm2, markRoots vm = some vm1 ∧
      traceReferences (vm1.heap.length + vm1.grayStack.length + 1) vm1 = some vm2 ∧
      vm2.grayStack = [] ∧ MarkedFrom vm vm2 ∧
      (∀ r ∈ rootRefs vm, markedOrAbsent vm2.heap r) ∧
      (TriColor vm → TriColor vm2) := by
  obtain ⟨vm1, h1, m1, t1⟩ := markRoots_spec vm hcur
  have hle : vm1.grayStack.length + unmarkedCount vm1.heap ≤
      vm1.heap.length + vm1.grayStack.length + 1 := by
    have := unmarkedCount_le vm1.heap
    omega
  obtain ⟨vm2, h2, hg2, m2, t2⟩ :=
    traceReferences_spec _ vm1 (heapFibersProper_ext m1.1 hfib) hle
  exact ⟨vm1, vm2, h1, h2, hg2, m1.markedFrom.from_trans m2,
    fun r hr => m2.1.marked (t1 r hr), fun ht => t2 (TriColor_of_marks m1 ht)⟩

/-- After the mark phase from a state without marks, everything reachable is marked. -/
theorem reachable_marked {vm vm2 : VM} (hm : MarkedFrom vm vm2) (hg : vm2.grayStack = [])
    (hroots : ∀ r ∈ rootRefs vm, markedOrAbsent vm2.heap r) (ht : TriColor vm2) :
    ∀ r, Reachable vm r → markedOrAbsent vm2.heap r := by
  intro r hr
  induction hr with
  | root h => exact hroots _ h
  | @step p r o _ hp hmem ih =>
    obtain ⟨b, hb, _⟩ := hm.1.get hp
    have hmk := ih _ hb
    have hng : p ∉ vm2.grayStack := by rw [hg]; simp
    have := ht p _ hb hmk hng r
    rw [hm.1.references] at this
    exact this hmem

/-- collectGarbage from a state whose lists are proper: it returns, the registers of the
machine are kept, every object left has the payload it had, the roots are left, and the
intern table keeps exactly its entries with a marked key, which are left too. -/
theorem collectGarbage_spec (H : Host) (vm : VM)
    (hcur : fiberProper vm.heap vm.current = true)
    (hfib : heapFibersProper vm.heap = true) (hobjs : objectsProper vm = true) :
    ∃ vm1, collectGarbage H vm = some vm1 ∧
      vm1.current = vm.current ∧ vm1.globals = vm.globals ∧
      vm1.compilerRoots = vm.compilerRoots ∧ vm1.constants = vm.constants ∧
      vm1.heap.length = vm.heap.length ∧
      objectsProper vm1 = true ∧
      (∀ r o1, heapGet vm1.heap r = some o1 →
        ∃ o, heapGet vm.heap r = some o ∧ o1.data = o.data) ∧
      (∀ r ∈ rootRefs vm, ∀ o, heapGet vm.heap r = some o →
        ∃ o1, heapGet vm1.heap r = some o1 ∧ o1.data = o.data) ∧
      (∀ e ∈ vm1.strings, e ∈ vm.strings ∧
        ∀ o, heapGet vm.heap e.1 = some o →
          ∃ o1, heapGet vm1.heap e.1 = some o1 ∧ o1.data = o.data) ∧
      List.Sublist vm1.strings vm.strings := by
  obtain ⟨vmA, vmB, hA, hB, _, hm, hroots, _⟩ := markPhase_spec vm hcur hfib
  obtain ⟨hext, c1, c2, c3, c4, c5, c6, c7, c8⟩ := hm
  let vmC : VM := { vmB with strings := tableRemoveWhite vmB.heap vmB.strings }
  have hchain : chain (objNext vmC.heap) vmC.objects
      (chainNodes (objNext vm.heap) (vm.heap.length + 1) vm.objects) = true := by
    show chain (objNext vmB.heap) vmB.objects _ = true
    rw [hext.objNext, c6]
    exact hobjs
  obtain ⟨vmD, hD, hDchain, hDmarked, hDfree, hDother, hDlen, hDreg⟩ :=
    sweep_spec_aux H vmC _ hchain
  have hsurvive : ∀ r oB, heapGet vmB.heap r = some oB → oB.isMarked = true →
      ∃ oD, heapGet vmD.heap r = some oD ∧ oD.data = oB.data := by
    intro r oB hoB hmB
    by_cases hr : r ∈ chainNodes (objNext vm.heap) (vm.heap.length + 1) vm.objects
    · obtain ⟨n, hn⟩ := hDmarked r hr oB hoB hmB
      exact ⟨_, hn, rfl⟩
    · exact ⟨oB, by rw [hDother r hr]; exact hoB, rfl⟩
  refine ⟨{ vmD with nextGC := (vmD.bytesAllocated * GC_HEAP_GROW_FACTOR) % SIZE_MOD }, ?_,
    ?_, ?_, ?_, ?_, ?_, ?_, ?_, ?_, ?_, ?_⟩
  · simp only [collectGarbage, hA, hB]
    have : sweep H { vmB with strings := tableRemoveWhite vmB.heap vmB.strings } = some vmD := hD
    rw [this]
  · exact hDreg.1.trans c1
  · exact hDreg.2.1.trans c2
  · exact hDreg.2.2.2.2.2.1.trans c7
  · exact hDreg.2.2.2.2.2.2.trans c8
  · exact hDlen.trans hext.1
  · have hc : chain
        (objNext
          ({ vmD with nextGC := (vmD.bytesAllocated * GC_HEAP_GROW_FACTOR) % SIZE_MOD } : VM).heap)
        ({ vmD with nextGC := (vmD.bytesAllocated * GC_HEAP_GROW_FACTOR) % SIZE_MOD } : VM).objects
        _ = true := hDchain
    exact objectsProper_of_chain hc
  · intro r o1 ho1
    have ho1' : heapGet vmD.heap r = some o1 := ho1
    by_cases hr : r ∈ chainNodes (objNext vm.heap) (vm.heap.length + 1) vm.objects
    · obtain ⟨nx, hnx⟩ := chainTo_valid hchain r hr
      obtain ⟨oB, hoB, _⟩ := objNext_some hnx
      obtain ⟨o, ho, hdata, _, _⟩ := hext.get_inv hoB
      by_cases hmB : oB.isMarked = true
      · obtain ⟨n, hn⟩ := hDmarked r hr oB hoB hmB
        rw [ho1'] at hn
        cases hn
        exact ⟨o, ho, hdata⟩
      · have : isMarkedAt vmC.heap r = false := by
          simp only [isMarkedAt]
          rw [show heapGet vmC.heap r = some oB from hoB]
          simpa using hmB
        rw [hDfree r hr this] at ho1'
        cases ho1'
    · rw [hDother r hr] at ho1'
      obtain ⟨o, ho, hdata, _, _⟩ := hext.get_inv ho1'
      exact ⟨o, ho, hdata⟩
  · intro r hr o ho
    obtain ⟨b, hb, _⟩ := hext.get ho
    have hmk := hroots r hr _ hb
    obtain ⟨oD, hoD, hdD⟩ := hsurvive r _ hb hmk
    exact ⟨oD, hoD, hdD⟩
  · intro e he
    have he' : e ∈ tableRemoveWhite vmB.heap vmB.strings := by
      have : vmD.strings = vmC.strings := hDreg.2.2.1
      have he2 : e ∈ vmD.strings := he
      rw [this] at he2
      exact he2
    unfold tableRemoveWhite at he'
    rw [List.mem_filter] at he'
    obtain ⟨hmem, hmark⟩ := he'
    rw [c3] at hmem
    refine ⟨hmem, ?_⟩
    intro o ho
    obtain ⟨b, hb, _⟩ := hext.get ho
    rw [hb] at hmark
    simp only at hmark
    obtain ⟨oD, hoD, hdD⟩ := hsurvive e.1 _ hb hmark
    exact ⟨oD, hoD, hdD⟩
  · have : vmD.strings = vmC.strings := hDreg.2.2.1
    show List.Sublist vmD.strings vm.strings
    rw [this, ← c3]
    exact List.filter_sublist _

/-! ## Allocation -/

theorem heapFibersIdle_iff {heap : Heap} :
    heapFibersIdle heap = true ↔
      ∀ r o f, heapGet heap r = some o → o.data = .fiber f → f.openUpvalues = none := by
  unfold heapFibersIdle
  rw [List.all_eq_true]
  constructor
  · intro h r o f hg hd
    have hmem : some o ∈ heap := List.mem_iff_getElem?.mpr ⟨r, heapGet_getElem hg⟩
    have := h (some o) hmem
    simpa [hd] using this
  · intro h x hx
    obtain ⟨r, hr⟩ := List.mem_iff_getElem?.mp hx
    cases x with
    | none => rfl
    | some o =>
      have hg := heapGet_of_getElem hr
      simp only
      split
      · rename_i f hd
        simpa using h r o f hg hd
      · rfl

theorem heapFibersProper_of_idle {heap : Heap} (h : heapFibersIdle heap = true) :
    heapFibersProper heap = true := by
  rw [heapFibersProper_iff]
  intro r o f hg hd
  have := (heapFibersIdle_iff.mp h) r o f hg hd
  unfold fiberProper
  rw [this]
  rfl

theorem mem_chainNodes_valid {nxt : Ref → Option (Option Ref)} :
    ∀ (fuel : Nat) (head : Option Ref) (r : Ref), r ∈ chainNodes nxt fuel head →
      ∃ n, nxt r = some n := by
  intro fuel
  induction fuel with
  | zero => intro head r hr; simp [chainNodes] at hr
  | succ f ih =>
    intro head r hr
    cases head with
    | none => simp [chainNodes] at hr
    | some q =>
      simp only [chainNodes] at hr
      cases hq : nxt q with
      | none => simp [hq] at hr
      | some n =>
        simp only [hq, List.mem_cons] at hr
        rcases hr with rfl | hr
        · exact ⟨n, hq⟩
        · exact ih n r hr

theorem Collected.ready {vm vm1 : VM} (hr : Ready vm) (hc : Collected vm vm1) : Ready vm1 := by
  obtain ⟨hcur, hidle, _⟩ := hr
  obtain ⟨c1, _, _, _, clen, cobj, csame, croots, _, _⟩ := hc
  refine ⟨?_, ?_, cobj⟩
  · rw [c1]
    have hnodes : ∀ r ∈ chainNodes (upvalueNext vm.heap) (vm.heap.length + 1)
        vm.current.openUpvalues, upvalueNext vm1.heap r = upvalueNext vm.heap r := by
      intro r hr
      obtain ⟨n, hn⟩ := mem_chainNodes_valid _ _ r hr
      obtain ⟨o, loc, c, hg, hd⟩ := upvalueNext_some hn
      have hroot : r ∈ rootRefs vm := by
        simp only [rootRefs, fiberRefs, List.mem_append]
        exact Or.inl (Or.inl (Or.inl (Or.inr hr)))
      obtain ⟨o1, ho1, hd1⟩ := croots r hroot o hg
      simp [upvalueNext, hg, ho1, hd1]
    have : chain (upvalueNext vm1.heap) vm.current.openUpvalues
        (chainNodes (upvalueNext vm.heap) (vm.heap.length + 1) vm.current.openUpvalues) =
        true := by
      unfold chain
      rw [chainTo_congr hnodes]
      exact hcur
    exact fiberProper_of_chain this
  · rw [heapFibersIdle_iff] at hidle ⊢
    intro r o1 f hg hd
    obtain ⟨o, ho, hdata⟩ := csame r o1 hg
    exact hidle r o f ho (by rw [← hdata, hd])

theorem Collected.of_bytes {vm : VM} (hr : Ready vm) (bytes : Nat) :
    Collected vm { vm with bytesAllocated := bytes } :=
  ⟨rfl, rfl, rfl, rfl, rfl, hr.2.2, fun _ o1 h => ⟨o1, h, rfl⟩, fun _ _ o h => ⟨o, h, rfl⟩,
    fun _ he => ⟨he, fun o h => ⟨o, h, rfl⟩⟩, List.Sublist.refl _⟩

theorem reallocate_spec (H : Host) (vm : VM) (oldSize newSize : Nat) (hr : Ready vm) :
    ∃ vm1, reallocate H vm oldSize newSize = some vm1 ∧ Collected vm vm1 := by
  unfold reallocate
  simp only
  split
  · have hr' : Ready { vm with
        bytesAllocated := accountBytes vm.bytesAllocated oldSize newSize } := hr
    obtain ⟨vm1, h1, c1, c2, c3, c4, c5, c6, c7, c8, c9, c10⟩ :=
      collectGarbage_spec H _ hr'.1 (heapFibersProper_of_idle hr'.2.1) hr'.2.2
    exact ⟨vm1, h1, c1, c2, c3, c4, c5, c6, c7, c8, c9, c10⟩
  · exact ⟨_, rfl, Collected.of_bytes hr _⟩

theorem reallocate_shrink (H : Host) (vm : VM) (oldSize : Nat) :
    reallocate H vm oldSize 0 =
      some { vm with bytesAllocated := accountBytes vm.bytesAllocated oldSize 0 } := by
  simp [reallocate]

theorem allocateObject_spec (H : Host) (vm : VM) (data : ObjData) (hr : Ready vm) :
    ∃ vmG, Collected vm vmG ∧
      allocateObject H vm data =
        some ({ vmG with
                heap := vmG.heap ++ [some { isMarked := false, next := vmG.objects, data := data }]
                objects := some vmG.heap.length },
              vmG.heap.length) := by
  obtain ⟨vmG, hG, cG⟩ := reallocate_spec H vm 0 (H.sizeofObj data.type) hr
  exact ⟨vmG, cG, by simp [allocateObject, hG]⟩

/-! ## captureUpvalue -/

theorem captureUpvalueLoop_null (heap : Heap) (local_ fuel : Nat) (prev : Option Ref) :
    captureUpvalueLoop heap local_ fuel prev none = some (prev, none) := by
  cases fuel <;> rfl

theorem getLast?_cons_or (x : Ref) (a : List Ref) (prev : Option Ref) :
    ((x :: a).getLast?).or prev = (a.getLast?).or (some x) := by
  rw [List.getLast?_cons]
  cases a.getLast? <;> rfl

/-- The walk of captureUpvalue over a proper list of open upvalues: it passes the nodes `a`
above `local` and stops in front of the rest `b`. -/
theorem captureUpvalueLoop_spec (heap : Heap) (local_ : Nat) (l : List Ref) :
    ∀ (prev head : Option Ref) (fuel : Nat),
      chain (openNext heap) head l = true → l.length ≤ fuel →
      ∃ a b, l = a ++ b ∧ (∀ r ∈ a, slotOf heap r > local_) ∧
        (∀ r, b.head? = some r → slotOf heap r ≤ local_) ∧
        captureUpvalueLoop heap local_ fuel prev head = some ((a.getLast?).or prev, b.head?) ∧
        chainTo (openNext heap) head a b.head? = true ∧
        chain (openNext heap) b.head? b = true := by
  induction l with
  | nil =>
    intro prev head fuel hc _
    have : head = none := by simpa [chain, chainTo_nil] using hc
    subst this
    exact ⟨[], [], rfl, by simp, by simp, captureUpvalueLoop_null _ _ _ _, by simp [chainTo],
      by simp [chain, chainTo]⟩
  | cons r t ih =>
    intro prev head fuel hc hlen
    obtain ⟨f, rfl⟩ : ∃ f, fuel = f + 1 := ⟨fuel - 1, by simp at hlen; omega⟩
    have hc0 := hc
    unfold chain at hc
    rw [chainTo_cons] at hc
    obtain ⟨rfl, n, hn, hct⟩ := hc
    obtain ⟨o, s, c, hg, hd⟩ := openNext_some hn
    by_cases hs : s > local_
    · obtain ⟨a, b, hsplit, ha, hb, hloop, hca, hcb⟩ :=
        ih (some r) n f hct (by simp at hlen; omega)
      refine ⟨r :: a, b, by rw [hsplit]; rfl, ?_, hb, ?_, ?_, hcb⟩
      · intro x hx
        rcases List.mem_cons.mp hx with rfl | hx
        · rw [slotOf_of hg hd]; exact hs
        · exact ha x hx
      · simp only [captureUpvalueLoop, hg, hd, hs, if_true]
        rw [hloop, getLast?_cons_or]
      · rw [chainTo_cons]
        exact ⟨rfl, n, hn, hca⟩
    · refine ⟨[], r :: t, rfl, by simp, ?_, ?_, by simp [chainTo], hc0⟩
      · intro x hx
        simp at hx
        subst hx
        rw [slotOf_of hg hd]
        omega
      · simp [captureUpvalueLoop, hg, hd, hs]

theorem open_node_info {heap : Heap} {head t : Option Ref} {l : List Ref}
    (hc : chainTo (openNext heap) head l t = true) {r : Ref} (hr : r ∈ l) :
    ∃ o s c n, heapGet heap r = some o ∧ o.data = .upvalue (.stack s) c n := by
  obtain ⟨n, hn⟩ := chainTo_valid hc r hr
  obtain ⟨o, s, c, hg, hd⟩ := openNext_some hn
  exact ⟨o, s, c, n, hg, hd⟩

theorem upvalueIsAt_of {heap : Heap} {r : Ref} {o : Obj} {s : Nat} {c : Value} {n : Option Ref}
    (hg : heapGet heap r = some o) (hd : o.data = .upvalue (.stack s) c n) (local_ : Nat) :
    upvalueIsAt heap (some r) local_ = decide (s = local_) := by
  simp [upvalueIsAt, hg, hd]

theorem chainNodes_of_open {heap : Heap} {head : Option Ref} {l : List Ref}
    (hc : chain (openNext heap) head l = true) :
    chainNodes (upvalueNext heap) (heap.length + 1) head = l := by
  have hu : chain (upvalueNext heap) head l = true :=
    chainTo_mono (fun r n h => openNext_upvalueNext h) hc
  exact chainNodes_eq l _ _ hu
    (Nat.le_succ_of_le (chain_length_le (fun _ _ hm => upvalueNext_lt hm) hu))

theorem open_list_roots {vm : VM} {l : List Ref}
    (hc : chain (openNext vm.heap) vm.current.openUpvalues l = true) :
    ∀ r ∈ l, r ∈ rootRefs vm := by
  intro r hr
  simp only [rootRefs, fiberRefs, List.mem_append]
  rw [chainNodes_of_open hc]
  exact Or.inl (Or.inl (Or.inl (Or.inr hr)))

theorem ready_of_open {vm : VM} {l : List Ref}
    (hc : chain (openNext vm.heap) vm.current.openUpvalues l = true)
    (hidle : heapFibersIdle vm.heap = true) (hobjs : objectsProper vm = true) : Ready vm :=
  ⟨fiberProper_of_chain (chainTo_mono (fun _ _ h => openNext_upvalueNext h) hc), hidle, hobjs⟩

theorem captureUpvalue_found {H : Host} {vm : VM} {local_ : Nat} {prev : Option Ref} {r : Ref}
    (hloop : captureUpvalueLoop vm.heap local_ (vm.heap.length + 1) none
      vm.current.openUpvalues = some (prev, some r))
    (hat : upvalueIsAt vm.heap (some r) local_ = true) :
    captureUpvalue H vm local_ = some (vm, r) := by
  simp [captureUpvalue, hloop, hat]

theorem captureUpvalue_new_head {H : Host} {vm vm1 vm2 : VM} {local_ : Nat} {up : Option Ref}
    {created : Ref}
    (hloop : captureUpvalueLoop vm.heap local_ (vm.heap.length + 1) none
      vm.current.openUpvalues = some (none, up))
    (hat : upvalueIsAt vm.heap up local_ = false)
    (hnew : newUpvalue H vm local_ = some (vm1, created))
    (hset : setUpvalueNext vm1 created up = some vm2) :
    captureUpvalue H vm local_ =
      some ({ vm2 with current := { vm2.current with openUpvalues := some created } },
            created) := by
  cases up <;> simp [captureUpvalue, hloop, hat, hnew, hset]

theorem captureUpvalue_new_mid {H : Host} {vm vm1 vm2 vm3 : VM} {local_ : Nat}
    {up : Option Ref} {created p : Ref}
    (hloop : captureUpvalueLoop vm.heap local_ (vm.heap.length + 1) none
      vm.current.openUpvalues = some (some p, up))
    (hat : upvalueIsAt vm.heap up local_ = false)
    (hnew : newUpvalue H vm local_ = some (vm1, created))
    (hset : setUpvalueNext vm1 created up = some vm2)
    (hlink : setUpvalueNext vm2 p (some created) = some vm3) :
    captureUpvalue H vm local_ = some (vm3, created) := by
  cases up <;> simp [captureUpvalue, hloop, hat, hnew, hset, hlink]

theorem setUpvalueNext_of {vm : VM} {r : Ref} {o : Obj} {loc : Loc} {c : Value}
    {n : Option Ref} (hg : heapGet vm.heap r = some o) (hd : o.data = .upvalue loc c n)
    (next : Option Ref) :
    setUpvalueNext vm r next =
      some { vm with heap := vm.heap.set r (some { o with data := .upvalue loc c next }) } := by
  simp [setUpvalueNext, hg, hd]

/-- The list after a node `N` has been linked in between the part `a` and the part `b`. -/
theorem insert_chain (h hF : Heap) (N : Ref) {head : Option Ref} {a b : List Ref}
    (hca : chainTo (openNext h) head a b.head? = true)
    (hcb : chain (openNext h) b.head? b = true)
    (hnd : (a ++ b).Nodup)
    (F1 : ∀ r ∈ a ++ b, a.getLast? ≠ some r → openNext hF r = openNext h r)
    (F2 : ∀ p, a.getLast? = some p → openNext hF p = some (some N))
    (F3 : openNext hF N = some b.head?) :
    chain (openNext hF)
      (match a.getLast? with
       | none => some N
       | some _ => head) (a ++ N :: b) = true := by
  have hbF : chain (openNext hF) b.head? b = true := by
    unfold chain
    have e : ∀ r ∈ b, openNext hF r = openNext h r := by
      intro r hr
      apply F1 r (List.mem_append_right _ hr)
      intro hl
      have hra : r ∈ a := List.mem_of_getLast?_eq_some hl
      exact (List.nodup_append.mp hnd).2.2 hra hr
    rw [chainTo_congr e]
    exact hcb
  have hNb : chain (openNext hF) (some N) (N :: b) = true := by
    unfold chain
    rw [chainTo_cons]
    exact ⟨rfl, b.head?, F3, hbF⟩
  cases hl : a.getLast? with
  | none =>
    have : a = [] := List.getLast?_eq_none_iff.mp hl
    subst this
    simpa using hNb
  | some p =>
    obtain ⟨k0, rfl⟩ := List.getLast?_eq_some_iff.mp hl
    obtain ⟨m, hk0, hkp⟩ := chainTo_split hca
    rw [chainTo_cons] at hkp
    obtain ⟨rfl, _, _, _⟩ := hkp
    have hpk0 : p ∉ k0 := by
      have := (List.nodup_append.mp (List.nodup_append.mp hnd).1)
      intro hmem
      exact this.2.2 hmem (by simp)
    have hk0F : chainTo (openNext hF) head k0 (some p) = true := by
      have e : ∀ r ∈ k0, openNext hF r = openNext h r := by
        intro r hr
        apply F1 r (by simp [hr])
        rw [hl]
        intro e
        cases e
        exact hpk0 hr
      rw [chainTo_congr e]
      exact hk0
    have hpF : chainTo (openNext hF) (some p) [p] (some N) = true := by
      rw [chainTo_cons]
      exact ⟨rfl, some N, F2 p hl, chainTo_nil.mpr rfl⟩
    have := chainTo_append (chainTo_append hk0F hpF) hNb
    simpa [chain] using this

theorem insert_sorted {s sF : Ref → Nat} {a b : List Ref} {N : Ref} {local_ : Nat}
    (hs : ((a ++ b).map s).Pairwise (· > ·))
    (ha : ∀ r ∈ a, s r > local_) (hb : ∀ r ∈ b, s r < local_)
    (S1 : ∀ r ∈ a ++ b, sF r = s r) (S2 : sF N = local_) :
    ((a ++ N :: b).map sF).Pairwise (· > ·) := by
  have ea : a.map sF = a.map s :=
    List.map_congr_left (fun r hr => S1 r (List.mem_append_left _ hr))
  have eb : b.map sF = b.map s :=
    List.map_congr_left (fun r hr => S1 r (List.mem_append_right _ hr))
  rw [List.map_append, List.pairwise_append] at hs
  rw [List.map_append, List.map_cons, ea, eb, S2, List.pairwise_append, List.pairwise_cons]
  refine ⟨hs.1, ⟨?_, hs.2.1⟩, ?_⟩
  · intro x hx
    obtain ⟨r, hr, rfl⟩ := List.mem_map.mp hx
    exact hb r hr
  · intro x hx y hy
    obtain ⟨r, hr, rfl⟩ := List.mem_map.mp hx
    rcases List.mem_cons.mp hy with rfl | hy
    · exact ha r hr
    · exact hs.2.2 _ hx _ hy

/-- captureUpvalue when no node of the list is at `local`: a fresh upvalue is linked in
between the nodes above `local` and the nodes below it. -/
theorem captureUpvalue_insert (H : Host) (vm : VM) (local_ : Nat) (a b : List Ref)
    (hc : chain (openNext vm.heap) vm.current.openUpvalues (a ++ b) = true)
    (hs : ((a ++ b).map (slotOf vm.heap)).Pairwise (· > ·))
    (hready : Ready vm)
    (ha : ∀ r ∈ a, slotOf vm.heap r > local_) (hbl : ∀ r ∈ b, slotOf vm.heap r < local_)
    (hloop : captureUpvalueLoop vm.heap local_ (vm.heap.length + 1) none
      vm.current.openUpvalues = some (a.getLast?, b.head?))
    (hca : chainTo (openNext vm.heap) vm.current.openUpvalues a b.head? = true)
    (hcb : chain (openNext vm.heap) b.head? b = true)
    (hat : upvalueIsAt vm.heap b.head? local_ = false) :
    ∃ vm1 r, captureUpvalue H vm local_ = some (vm1, r) ∧
      chain (openNext vm1.heap) vm1.current.openUpvalues (a ++ r :: b) = true ∧
      ((a ++ r :: b).map (slotOf vm1.heap)).Pairwise (· > ·) ∧
      slotOf vm1.heap r = local_ ∧ r ∉ a ++ b ∧
      ∀ x ∈ a ++ b, slotOf vm1.heap x = slotOf vm.heap x := by
  have hnd : (a ++ b).Nodup := chain_nodup hc
  obtain ⟨vmG, cG, halloc⟩ :=
    allocateObject_spec H vm (.upvalue (.stack local_) .nil none) hready
  obtain ⟨gcur, _, _, _, glen, _, _, groots, _, _⟩ := cG
  have hroots := open_list_roots hc
  -- every node of the list is still there, with its payload
  have hnode : ∀ r ∈ a ++ b, ∃ o o1 s c n, heapGet vm.heap r = some o ∧
      o.data = .upvalue (.stack s) c n ∧ heapGet vmG.heap r = some o1 ∧
      o1.data = .upvalue (.stack s) c n := by
    intro r hr
    obtain ⟨o, s, c, n, hg, hd⟩ := open_node_info hc hr
    obtain ⟨o1, ho1, hd1⟩ := groots r (hroots r hr) o hg
    exact ⟨o, o1, s, c, n, hg, hd, ho1, by rw [hd1, hd]⟩
  have hlt : ∀ r ∈ a ++ b, r < vmG.heap.length := by
    intro r hr
    obtain ⟨_, o1, _, _, _, _, _, ho1, _⟩ := hnode r hr
    exact heapGet_lt ho1
  have hNl : vmG.heap.length ∉ a ++ b := fun h => Nat.lt_irrefl _ (hlt _ h)
  let obj0 : Obj :=
    { isMarked := false, next := vmG.objects, data := .upvalue (.stack local_) .nil none }
  let vm1 : VM :=
    { vmG with heap := vmG.heap ++ [some obj0], objects := some vmG.heap.length }
  have hnew : newUpvalue H vm local_ = some (vm1, vmG.heap.length) := halloc
  have hg1N : heapGet vm1.heap vmG.heap.length = some obj0 := heapGet_append_self _ _
  let objN : Obj := { obj0 with data := .upvalue (.stack local_) .nil b.head? }
  let vm2 : VM := { vm1 with heap := vm1.heap.set vmG.heap.length (some objN) }
  have hset : setUpvalueNext vm1 vmG.heap.length b.head? = some vm2 :=
    setUpvalueNext_of hg1N rfl _
  have hN1 : vmG.heap.length < vm1.heap.length := by simp [vm1]
  have hg2N : heapGet vm2.heap vmG.heap.length = some objN := heapGet_set_self _ hN1
  have hg2 : ∀ r ∈ a ++ b, heapGet vm2.heap r = heapGet vmG.heap r := by
    intro r hr
    have hne : vmG.heap.length ≠ r := fun e => hNl (e ▸ hr)
    show heapGet (vm1.heap.set _ _) r = _
    rw [heapGet_set_ne _ hne]
    exact heapGet_append_lt _ (hlt r hr)
  cases hl : a.getLast? with
  | none =>
    rw [hl] at hloop
    refine ⟨{ vm2 with current := { vm2.current with openUpvalues := some vmG.heap.length } },
      vmG.heap.length, captureUpvalue_new_head hloop hat hnew hset, ?_, ?_, ?_, hNl, ?_⟩
    · have := insert_chain vm.heap vm2.heap vmG.heap.length hca hcb hnd
        (by
          intro r hr _
          obtain ⟨o, o1, s, c, n, hg, hd, ho1, hd1⟩ := hnode r hr
          rw [openNext_of hg hd]
          exact openNext_of (by rw [hg2 r hr]; exact ho1) hd1)
        (by intro p hp; rw [hl] at hp; cases hp)
        (openNext_of hg2N rfl)
      rw [hl] at this
      exact this
    · apply insert_sorted hs ha hbl
      · intro r hr
        obtain ⟨o, o1, s, c, n, hg, hd, ho1, hd1⟩ := hnode r hr
        rw [slotOf_of hg hd]
        exact slotOf_of (by rw [hg2 r hr]; exact ho1) hd1
      · exact slotOf_of hg2N rfl
    · exact slotOf_of hg2N rfl
    · intro r hr
      obtain ⟨o, o1, s, c, n, hg, hd, ho1, hd1⟩ := hnode r hr
      rw [slotOf_of hg hd]
      exact slotOf_of (by rw [hg2 r hr]; exact ho1) hd1
  | some p =>
    rw [hl] at hloop
    have hpa : p ∈ a := List.mem_of_getLast?_eq_some hl
    have hpl : p ∈ a ++ b := List.mem_append_left _ hpa
    obtain ⟨po, po1, sp, cp, np, hpg, hpd, hpo1, hpd1⟩ := hnode p hpl
    have hg2p : heapGet vm2.heap p = some po1 := by rw [hg2 p hpl]; exact hpo1
    let objP : Obj := { po1 with data := .upvalue (.stack sp) cp (some vmG.heap.length) }
    let vm3 : VM := { vm2 with heap := vm2.heap.set p (some objP) }
    have hlink : setUpvalueNext vm2 p (some vmG.heap.length) = some vm3 :=
      setUpvalueNext_of hg2p hpd1 _
    have hpN : p ≠ vmG.heap.length := fun e => hNl (e ▸ hpl)
    have hp2 : p < vm2.heap.length := heapGet_lt hg2p
    have hg3p : heapGet vm3.heap p = some objP := heapGet_set_self _ hp2
    have hg3N : heapGet vm3.heap vmG.heap.length = some objN := by
      show heapGet (vm2.heap.set p _) _ = _
      rw [heapGet_set_ne _ hpN]
      exact hg2N
    have hg3 : ∀ r ∈ a ++ b, r ≠ p → heapGet vm3.heap r = heapGet vmG.heap r := by
      intro r hr hrp
      show heapGet (vm2.heap.set p _) r = _
      rw [heapGet_set_ne _ (Ne.symm hrp)]
      exact hg2 r hr
    have hslot : ∀ r ∈ a ++ b, slotOf vm3.heap r = slotOf vm.heap r := by
      intro r hr
      by_cases hrp : r = p
      · subst hrp
        rw [slotOf_of hpg hpd]
        exact slotOf_of hg3p rfl
      · obtain ⟨o, o1, s, c, n, hg, hd, ho1, hd1⟩ := hnode r hr
        rw [slotOf_of hg hd]
        exact slotOf_of (by rw [hg3 r hr hrp]; exact ho1) hd1
    refine ⟨vm3, vmG.heap.length, captureUpvalue_new_mid hloop hat hnew hset hlink, ?_, ?_, ?_,
      hNl, hslot⟩
    · have := insert_chain vm.heap vm3.heap vmG.heap.length hca hcb hnd
        (by
          intro r hr hne
          have hrp : r ≠ p := fun e => hne (by rw [hl, e])
          obtain ⟨o, o1, s, c, n, hg, hd, ho1, hd1⟩ := hnode r hr
          rw [openNext_of hg hd]
          exact openNext_of (by rw [hg3 r hr hrp]; exact ho1) hd1)
        (by
          intro p' hp'
          rw [hl] at hp'
          cases hp'
          exact openNext_of hg3p rfl)
        (openNext_of hg3N rfl)
      rw [hl] at this
      have hcur : vm3.current.openUpvalues = vm.current.openUpvalues := by
        show vmG.current.openUpvalues = _
        rw [gcur]
      rw [hcur]
      exact this
    · exact insert_sorted hs ha hbl hslot (slotOf_of hg3N rfl)
    · exact slotOf_of hg3N rfl

/-! ## Interned strings -/

theorem internKeysHashed_iff {heap : Heap} {strings : Table} :
    internKeysHashed heap strings = true ↔
      ∀ e ∈ strings, ∃ o cs, heapGet heap e.1 = some o ∧ o.data = .string cs (hashString cs) := by
  unfold internKeysHashed
  rw [List.all_eq_true]
  constructor
  · intro h e he
    have := h e he
    cases hg : heapGet heap e.1 with
    | none => simp [hg] at this
    | some o =>
      simp only [hg] at this
      cases hd : o.data <;> simp only [hd] at this <;> try (simp at this)
      rename_i cs hash
      exact ⟨o, cs, rfl, by rw [hd, this]⟩
  · intro h e he
    obtain ⟨o, cs, hg, hd⟩ := h e he
    simp [hg, hd]

theorem internUnique_iff {heap : Heap} {strings : Table} :
    internUnique heap strings = true ↔
      ∀ e1 ∈ strings, ∀ e2 ∈ strings,
        stringChars heap e1.1 = stringChars heap e2.1 → e1.1 = e2.1 := by
  unfold internUnique
  simp only [List.all_eq_true, Bool.or_eq_true, bne_iff_ne, ne_eq, beq_iff_eq]
  constructor
  · intro h e1 h1 e2 h2 heq
    rcases h e1 h1 e2 h2 with hne | he
    · exact absurd heq hne
    · exact he
  · intro h e1 h1 e2 h2
    by_cases heq : stringChars heap e1.1 = stringChars heap e2.1
    · exact Or.inr (h e1 h1 e2 h2 heq)
    · exact Or.inl heq

theorem stringChars_of {heap : Heap} {r : Ref} {o : Obj} {cs : List Nat} {h : Nat}
    (hg : heapGet heap r = some o) (hd : o.data = .string cs h) :
    stringChars heap r = some cs := by
  simp [stringChars, hg, hd]

theorem stringChars_some {heap : Heap} {r : Ref} {cs : List Nat}
    (h : stringChars heap r = some cs) :
    ∃ o hash, heapGet heap r = some o ∧ o.data = .string cs hash := by
  unfold stringChars at h
  cases hg : heapGet heap r with
  | none => simp [hg] at h
  | some o =>
    simp only [hg] at h
    cases hd : o.data <;> simp only [hd] at h <;> try (simp at h)
    rename_i cs' hash
    have h' : cs' = cs := by simpa using h
    exact ⟨o, hash, rfl, by rw [hd, h']⟩

/-- What the lookup of copyString and takeString finds in a table whose keys carry the hash
of their bytes. -/
theorem tableFindString_spec (heap : Heap) (chars : List Nat) (table : Table)
    (hk : ∀ e ∈ table, ∃ o cs, heapGet heap e.1 = some o ∧ o.data = .string cs (hashString cs)) :
    (∀ r, tableFindString heap table chars (hashString chars) = some r →
      (∃ e ∈ table, e.1 = r) ∧ stringChars heap r = some chars) ∧
    (tableFindString heap table chars (hashString chars) = none →
      ∀ e ∈ table, stringChars heap e.1 ≠ some chars) := by
  induction table with
  | nil =>
    exact ⟨fun r h => by simp [tableFindString] at h, fun _ e he => by cases he⟩
  | cons e t ih =>
    obtain ⟨o, cs, hg, hd⟩ := hk e (List.mem_cons_self _ _)
    obtain ⟨ih1, ih2⟩ := ih (fun x hx => hk x (List.mem_cons_of_mem _ hx))
    by_cases hcs : cs = chars
    · subst hcs
      have hfind : tableFindString heap (e :: t) cs (hashString cs) = some e.1 := by
        simp [tableFindString, hg, hd]
      constructor
      · intro r hr
        rw [hfind] at hr
        cases hr
        exact ⟨⟨e, List.mem_cons_self _ _, rfl⟩, stringChars_of hg hd⟩
      · intro hnone
        rw [hfind] at hnone
        cases hnone
    · have hfind : tableFindString heap (e :: t) chars (hashString chars) =
          tableFindString heap t chars (hashString chars) := by
        simp [tableFindString, hg, hd, hcs]
      rw [hfind]
      constructor
      · intro r hr
        obtain ⟨⟨x, hx, hxr⟩, hc⟩ := ih1 r hr
        exact ⟨⟨x, List.mem_cons_of_mem _ hx, hxr⟩, hc⟩
      · intro hnone x hx
        rcases List.mem_cons.mp hx with rfl | hx
        · rw [stringChars_of hg hd]
          intro h
          exact hcs (Option.some.inj h)
        · exact ih2 hnone x hx

theorem lookup_none_of_not_key (t : Table) (k : Ref) (h : ∀ e ∈ t, e.1 ≠ k) :
    t.lookup k = none := by
  induction t with
  | nil => rfl
  | cons e t ih =>
    obtain ⟨a, b⟩ := e
    have hne : a ≠ k := h (a, b) (List.mem_cons_self _ _)
    have hb : (k == a) = false := beq_false_of_ne (Ne.symm hne)
    simp only [List.lookup, hb]
    exact ih (fun x hx => h x (List.mem_cons_of_mem _ hx))

/-- The intern table after reallocate has run. -/
theorem intern_collected {vm vm1 : VM} (hc : Collected vm vm1)
    (hk : internKeysHashed vm.heap vm.strings = true)
    (hu : internUnique vm.heap vm.strings = true) :
    internKeysHashed vm1.heap vm1.strings = true ∧
    internUnique vm1.heap vm1.strings = true ∧
    ∀ e ∈ vm1.strings, e ∈ vm.strings ∧
      stringChars vm1.heap e.1 = stringChars vm.heap e.1 := by
  obtain ⟨_, _, _, _, _, _, _, _, cstr, _⟩ := hc
  rw [internKeysHashed_iff] at hk
  rw [internUnique_iff] at hu
  have hsame : ∀ e ∈ vm1.strings, e ∈ vm.strings ∧
      stringChars vm1.heap e.1 = stringChars vm.heap e.1 := by
    intro e he
    obtain ⟨hmem, halive⟩ := cstr e he
    obtain ⟨o, cs, hg, hd⟩ := hk e hmem
    obtain ⟨o1, ho1, hd1⟩ := halive o hg
    exact ⟨hmem, by rw [stringChars_of hg hd, stringChars_of ho1 (hd1.trans hd)]⟩
  refine ⟨?_, ?_, hsame⟩
  · rw [internKeysHashed_iff]
    intro e he
    obtain ⟨hmem, halive⟩ := cstr e he
    obtain ⟨o, cs, hg, hd⟩ := hk e hmem
    obtain ⟨o1, ho1, hd1⟩ := halive o hg
    exact ⟨o1, cs, ho1, hd1.trans hd⟩
  · rw [internUnique_iff]
    intro e1 h1 e2 h2 heq
    rw [(hsame e1 h1).2, (hsame e2 h2).2] at heq
    exact hu e1 (hsame e1 h1).1 e2 (hsame e2 h2).1 heq

/-- allocateString for bytes that the table does not hold yet. -/
theorem allocateString_spec (H : Host) (vm : VM) (chars : List Nat) (hr : Ready vm)
    (hk : internKeysHashed vm.heap vm.strings = true)
    (hu : internUnique vm.heap vm.strings = true)
    (hnew : ∀ e ∈ vm.strings, stringChars vm.heap e.1 ≠ some chars) :
    ∃ vm1 r, allocateString H vm chars (hashString chars) = some (vm1, r) ∧
      internKeysHashed vm1.heap vm1.strings = true ∧
      internUnique vm1.heap vm1.strings = true ∧
      stringChars vm1.heap r = some chars ∧
      (∃ v, (r, v) ∈ vm1.strings) ∧
      ∀ e ∈ vm1.strings, (e.1 = r ↔ stringChars vm1.heap e.1 = some chars) := by
  obtain ⟨vmG, cG, halloc⟩ := allocateObject_spec H vm (.string chars (hashString chars)) hr
  obtain ⟨hkG, huG, hsameG⟩ := intern_collected cG hk hu
  rw [internKeysHashed_iff] at hkG
  rw [internUnique_iff] at huG
  let obj0 : Obj :=
    { isMarked := false, next := vmG.objects, data := .string chars (hashString chars) }
  have hkeylt : ∀ e ∈ vmG.strings, e.1 < vmG.heap.length := by
    intro e he
    obtain ⟨o, cs, hg, _⟩ := hkG e he
    exact heapGet_lt hg
  have hlook : vmG.strings.lookup vmG.heap.length = none :=
    lookup_none_of_not_key _ _ (fun e he => Nat.ne_of_lt (hkeylt e he))
  let heapN : Heap := vmG.heap ++ [some obj0]
  have hgN : heapGet heapN vmG.heap.length = some obj0 := heapGet_append_self _ _
  have hgold : ∀ e ∈ vmG.strings, heapGet heapN e.1 = heapGet vmG.heap e.1 :=
    fun e he => heapGet_append_lt _ (hkeylt e he)
  have hcold : ∀ e ∈ vmG.strings, stringChars heapN e.1 = stringChars vm.heap e.1 := by
    intro e he
    rw [← (hsameG e he).2]
    simp only [stringChars, hgold e he]
  have hcN : stringChars heapN vmG.heap.length = some chars := stringChars_of hgN rfl
  let vmN : VM := { vmG with heap := heapN, objects := some vmG.heap.length }
  let vm3 : VM :=
    { push vmN (.obj vmG.heap.length) with
      strings := (tableSet (push vmN (.obj vmG.heap.length)).strings vmG.heap.length .nil).1 }
  have hfinal : allocateString H vm chars (hashString chars) =
      some ((pop vm3).2, vmG.heap.length) := by
    unfold allocateString
    rw [halloc]
  have hheap : (pop vm3).2.heap = heapN := rfl
  have hstr : (pop vm3).2.strings = vmG.strings ++ [(vmG.heap.length, .nil)] := by
    show (tableSet vmG.strings vmG.heap.length .nil).1 = _
    simp only [tableSet, hlook]
  refine ⟨(pop vm3).2, vmG.heap.length, hfinal, ?_, ?_, ?_, ?_, ?_⟩
  all_goals
    try rw [hheap]
    try rw [hstr]
  · rw [internKeysHashed_iff]
    intro e he
    rcases List.mem_append.mp he with he | he
    · obtain ⟨o, cs, hg, hd⟩ := hkG e he
      exact ⟨o, cs, by rw [← hg]; exact hgold e he, hd⟩
    · simp only [List.mem_singleton] at he
      subst he
      exact ⟨obj0, chars, hgN, rfl⟩
  · rw [internUnique_iff]
    intro e1 h1 e2 h2 heq
    rcases List.mem_append.mp h1 with h1 | h1
    · rcases List.mem_append.mp h2 with h2 | h2
      · have e1' : stringChars heapN e1.1 = stringChars vmG.heap e1.1 := by
          simp only [stringChars, hgold e1 h1]
        have e2' : stringChars heapN e2.1 = stringChars vmG.heap e2.1 := by
          simp only [stringChars, hgold e2 h2]
        exact huG e1 h1 e2 h2 (by rw [← e1', ← e2']; exact heq)
      · simp only [List.mem_singleton] at h2
        subst h2
        have := hnew e1 (hsameG e1 h1).1
        have hc1 : stringChars heapN e1.1 = stringChars vm.heap e1.1 := hcold e1 h1
        have hc2 : stringChars heapN vmG.heap.length = some chars := hcN
        exact absurd (by rw [← hc1, ← hc2]; exact heq) this
    · simp only [List.mem_singleton] at h1
      subst h1
      rcases List.mem_append.mp h2 with h2 | h2
      · have := hnew e2 (hsameG e2 h2).1
        have hc1 : stringChars heapN e2.1 = stringChars vm.heap e2.1 := hcold e2 h2
        have hc2 : stringChars heapN vmG.heap.length = some chars := hcN
        exact absurd (by rw [← hc1, ← hc2]; exact heq.symm) this
      · simp only [List.mem_singleton] at h2
        subst h2
        rfl
  · exact hcN
  · exact ⟨.nil, by simp⟩
  · intro e he
    rcases List.mem_append.mp he with he | he
    · constructor
      · intro h
        exact absurd h (Nat.ne_of_lt (hkeylt e he))
      · intro h
        have hc1 : stringChars heapN e.1 = stringChars vm.heap e.1 := hcold e he
        exact absurd (by rw [← hc1]; exact h) (hnew e (hsameG e he).1)
    · simp only [List.mem_singleton] at he
      subst he
      exact ⟨fun _ => hcN, fun _ => rfl⟩

theorem ofByte_toByte (op : OpCode) : OpCode.ofByte op.toByte = some op := by
  cases op <;> rfl

theorem runSingle_OP_RETURN_eq (H : Host) (fuel : Nat) (vm : VM) :
    runSingle H fuel vm OpCode.OP_RETURN.toByte = runSingle_OP_RETURN vm := by
  simp only [runSingle, ofByte_toByte]

theorem getD_set_eq (l : List Value) (i k : Nat) (v : Value) (h : i < l.length) :
    (l.set i v).getD k .nil = if k = i then v else l.getD k .nil := by
  rw [List.getD_eq_getElem?_getD, List.getD_eq_getElem?_getD, List.getElem?_set]
  by_cases hk : i = k
  · subst hk
    simp [h]
  · have hk' : ¬ k = i := fun e => hk e.symm
    simp [hk, hk']

/-! ## Tables -/

theorem lookup_map_set (t : Table) (k k' : Ref) (v : Value) :
    List.lookup k' (t.map (fun e => if e.1 = k then (k, v) else e)) =
      if k' = k then (List.lookup k t).map (fun _ => v) else List.lookup k' t := by
  induction t with
  | nil => simp
  | cons e rest ih =>
    obtain ⟨a, b⟩ := e
    rw [List.map_cons]
    by_cases hak : a = k
    · subst hak
      have hhead : (if ((a, b) : Ref × Value).1 = a then (a, v) else (a, b)) = (a, v) := if_pos rfl
      rw [hhead]
      simp only [List.lookup_cons, ih]
      by_cases hk : k' = a
      · subst hk
        simp
      · have h1 : (k' == a) = false := beq_false_of_ne hk
        simp only [h1, if_neg hk]
    · have hhead : (if ((a, b) : Ref × Value).1 = k then (k, v) else (a, b)) = (a, b) :=
        if_neg hak
      rw [hhead]
      simp only [List.lookup_cons, ih]
      by_cases hk : k' = k
      · subst hk
        have h1 : (k' == a) = false := beq_false_of_ne (fun e => hak e.symm)
        simp only [h1, if_true]
      · simp only [if_neg hk]

theorem lookup_append_single (t : Table) (k k' : Ref) (v : Value) :
    List.lookup k' (t ++ [(k, v)]) =
      match List.lookup k' t with
      | some x => some x
      | none => if k' = k then some v else none := by
  induction t with
  | nil =>
    by_cases hk : k' = k
    · subst hk
      simp
    · have : (k' == k) = false := beq_false_of_ne hk
      simp [List.lookup, this, hk]
  | cons e rest ih =>
    obtain ⟨a, b⟩ := e
    simp only [List.cons_append, List.lookup_cons]
    by_cases hka : k' = a
    · subst hka
      simp
    · have h1 : (k' == a) = false := beq_false_of_ne hka
      simp only [h1, ih]

/-- What tableGet finds after tableSet. -/
theorem tableGet_tableSet (t : Table) (k k' : Ref) (v : Value) :
    tableGet (tableSet t k v).1 k' = if k' = k then some v else tableGet t k' := by
  unfold tableSet tableGet
  cases h : List.lookup k t with
  | some x =>
    simp only [lookup_map_set, h, Option.map_some']
  | none =>
    simp only [lookup_append_single]
    by_cases hk : k' = k
    · subst hk
      simp [h]
    · simp only [if_neg hk]
      cases List.lookup k' t <;> rfl

/-- The flag of tableSet tells whether the key was absent. -/
theorem tableSet_new (t : Table) (k : Ref) (v : Value) :
    (tableSet t k v).2 = (tableGet t k).isNone := by
  unfold tableSet tableGet
  cases List.lookup k t <;> rfl

theorem tableGet_cons (e : Ref × Value) (t : Table) (k : Ref) :
    tableGet (e :: t) k = if k = e.1 then some e.2 else tableGet t k := by
  unfold tableGet
  obtain ⟨a, b⟩ := e
  by_cases hk : k = a
  · subst hk
    simp
  · have : (k == a) = false := beq_false_of_ne hk
    simp [List.lookup_cons, this, hk]

theorem tableGet_none_of_not_mem (t : Table) (k : Ref) (h : k ∉ t.map Prod.fst) :
    tableGet t k = none := by
  induction t with
  | nil => rfl
  | cons e rest ih =>
    rw [tableGet_cons]
    simp only [List.map_cons, List.mem_cons, not_or] at h
    rw [if_neg h.1]
    exact ih h.2

/-- After tableAddAll from a table that holds each key once, a key of the source has the
value of the source and any other key the value it had in the target. -/
theorem tableGet_tableAddAll (source : Table) (hnd : (source.map Prod.fst).Nodup) :
    ∀ (target : Table) (k : Ref),
      tableGet (tableAddAll source target) k =
        match tableGet source k with
        | some v => some v
        | none => tableGet target k := by
  induction source with
  | nil => intro target k; rfl
  | cons e rest ih =>
    intro target k
    rw [List.map_cons, List.nodup_cons] at hnd
    have hstep : tableAddAll (e :: rest) target = tableAddAll rest (tableSet target e.1 e.2).1 :=
      rfl
    rw [hstep, ih hnd.2, tableGet_cons]
    by_cases hk : k = e.1
    · subst hk
      rw [if_pos rfl, tableGet_none_of_not_mem rest _ hnd.1]
      simp only [tableGet_tableSet, if_true]
    · rw [if_neg hk]
      cases tableGet rest k with
      | some v => rfl
      | none => simp only [tableGet_tableSet, if_neg hk]

/-! ## Stores into the heap -/

theorem setData_eq {vm : VM} {r : Ref} {o : Obj} (h : heapGet vm.heap r = some o)
    (data : ObjData) :
    setData vm r data = some { vm with heap := vm.heap.set r (some { o with data := data }) } := by
  simp [setData, h]

theorem heapGet_set (heap : Heap) (r q : Ref) (x : Obj) (h : r < heap.length) :
    heapGet (heap.set r (some x)) q = if q = r then some x else heapGet heap q := by
  by_cases hq : q = r
  · subst hq
    rw [if_pos rfl]
    exact heapGet_set_self _ h
  · rw [if_neg hq]
    exact heapGet_set_ne _ (fun e => hq e.symm)

/-! ## Collections from a machine between two collections -/

theorem allListed_iff {vm : VM} :
    allListed vm = true ↔
      ∀ r o, heapGet vm.heap r = some o →
        r ∈ chainNodes (objNext vm.heap) (vm.heap.length + 1) vm.objects := by
  unfold allListed
  rw [List.all_eq_true]
  constructor
  · intro h r o hg
    have := h r (List.mem_range.mpr (heapGet_lt hg))
    simpa [hg] using this
  · intro h r _
    cases hg : heapGet vm.heap r with
    | none => rfl
    | some o => simpa using h r o hg

/-- Reachability looks at the heap and the roots only. -/
theorem Reachable.congr (vm vm' : VM) (hh : vm'.heap = vm.heap)
    (hr : ∀ r, r ∈ rootRefs vm → r ∈ rootRefs vm') {r : Ref} (h : Reachable vm r) :
    Reachable vm' r := by
  induction h with
  | root hmem => exact Reachable.root (hr _ hmem)
  | @step p r o _ hp hmem ih =>
    exact Reachable.step ih (by rw [hh]; exact hp) (by rw [hh]; exact hmem)

/-- A collection from a machine between two collections returns, keeps every reachable
object and leaves a machine between two collections. -/
theorem collectGarbage_full (H : Host) (vm : VM) (hs : Sound vm) :
    ∃ vm1, collectGarbage H vm = some vm1 ∧ Collected vm vm1 ∧ Kept vm vm1 ∧ Sound vm1 := by
  obtain ⟨hready, hclean, hlisted⟩ := hs
  obtain ⟨hcur, hidle, hobjs⟩ := hready
  have hfib := heapFibersProper_of_idle hidle
  obtain ⟨vmA, vmB, hA, hB, hg, hm, hroots, htri⟩ := markPhase_spec vm hcur hfib
  have hclean' := allUnmarked_iff.mp hclean
  have ht0 : TriColor vm := by
    intro p o hp hmo
    rw [hclean' p o hp] at hmo
    cases hmo
  have hreach := reachable_marked hm hg hroots (htri ht0)
  obtain ⟨hext, c1, c2, c3, c4, c5, c6, c7, c8⟩ := hm
  let vmC : VM := { vmB with strings := tableRemoveWhite vmB.heap vmB.strings }
  have hchain : chain (objNext vmC.heap) vmC.objects
      (chainNodes (objNext vm.heap) (vm.heap.length + 1) vm.objects) = true := by
    show chain (objNext vmB.heap) vmB.objects _ = true
    rw [hext.objNext, c6]
    exact hobjs
  obtain ⟨vmD, hD, hDchain, hDmarked, hDfree, hDother, hDlen, hDreg⟩ :=
    sweep_spec_aux H vmC _ hchain
  have hcg : collectGarbage H vm =
      some { vmD with nextGC := (vmD.bytesAllocated * GC_HEAP_GROW_FACTOR) % SIZE_MOD } := by
    simp only [collectGarbage, hA, hB]
    have : sweep H { vmB with strings := tableRemoveWhite vmB.heap vmB.strings } = some vmD := hD
    rw [this]
  obtain ⟨vm1, h1, k1, k2, k3, k4, k5, k6, k7, k8, k9, k10⟩ :=
    collectGarbage_spec H vm hcur hfib hobjs
  have hcoll : Collected vm vm1 := ⟨k1, k2, k3, k4, k5, k6, k7, k8, k9, k10⟩
  have hvm1 : vm1 = { vmD with nextGC := (vmD.bytesAllocated * GC_HEAP_GROW_FACTOR) % SIZE_MOD } := by
    rw [hcg] at h1
    exact (Option.some.inj h1).symm
  have hheap : vm1.heap = vmD.heap := by rw [hvm1]
  have hobj1 : vm1.objects = vmD.objects := by rw [hvm1]
  have hlisted' := allListed_iff.mp hlisted
  -- what the sweep leaves of an object of the heap before
  have hcase : ∀ r o1, heapGet vmD.heap r = some o1 →
      r ∈ chainNodes (objNext vm.heap) (vm.heap.length + 1) vm.objects ∧
      isMarkedAt vmB.heap r = true ∧ o1.isMarked = false := by
    intro r o1 ho1
    cases hv : heapGet vm.heap r with
    | none =>
      have hB0 : heapGet vmB.heap r = none := hext.none hv
      by_cases hr : r ∈ chainNodes (objNext vm.heap) (vm.heap.length + 1) vm.objects
      · obtain ⟨nx, hnx⟩ := chainTo_valid hchain r hr
        obtain ⟨oB, hoB, _⟩ := objNext_some hnx
        have : heapGet vmB.heap r = some oB := hoB
        rw [hB0] at this
        cases this
      · rw [hDother r hr] at ho1
        have : heapGet vmB.heap r = some o1 := ho1
        rw [hB0] at this
        cases this
    | some o =>
      have hr := hlisted' r o hv
      obtain ⟨b, hoB, _⟩ := hext.get hv
      cases b with
      | true =>
        obtain ⟨n, hn⟩ := hDmarked r hr _ hoB rfl
        rw [ho1] at hn
        cases hn
        refine ⟨hr, ?_, rfl⟩
        simp only [isMarkedAt, hoB]
      | false =>
        have hf : isMarkedAt vmC.heap r = false := by
          simp only [isMarkedAt]
          rw [show heapGet vmC.heap r = some { o with isMarked := false } from hoB]
        rw [hDfree r hr hf] at ho1
        cases ho1
  refine ⟨vm1, h1, hcoll, ?_, Collected.ready ⟨hcur, hidle, hobjs⟩ hcoll, ?_, ?_⟩
  · intro r hr o ho
    obtain ⟨b, hb, _⟩ := hext.get ho
    have hmk := hreach r hr _ hb
    have hmem := hlisted' r o ho
    obtain ⟨n, hn⟩ := hDmarked r hmem _ hb hmk
    exact ⟨{ isMarked := false, next := n, data := o.data }, by rw [hheap]; exact hn, rfl⟩
  · rw [allUnmarked_iff]
    intro r o1 ho1
    rw [hheap] at ho1
    exact (hcase r o1 ho1).2.2
  · rw [allListed_iff]
    intro r o1 ho1
    rw [hheap] at ho1
    obtain ⟨hr, hmk, _⟩ := hcase r o1 ho1
    have hfil : r ∈ (chainNodes (objNext vm.heap) (vm.heap.length + 1) vm.objects).filter
        (isMarkedAt vmC.heap) := List.mem_filter.mpr ⟨hr, hmk⟩
    have hch : chain (objNext vm1.heap) vm1.objects
        ((chainNodes (objNext vm.heap) (vm.heap.length + 1) vm.objects).filter
          (isMarkedAt vmC.heap)) = true := by
      rw [hheap, hobj1]
      exact hDchain
    have hlen := chain_length_le (fun _ _ hm => objNext_lt hm) hch
    rw [chainNodes_eq _ _ _ hch (Nat.le_succ_of_le hlen)]
    exact hfil

/-- reallocate from a machine between two collections. -/
theorem reallocate_full (H : Host) (vm : VM) (oldSize newSize : Nat) (hs : Sound vm) :
    ∃ vm1, reallocate H vm oldSize newSize = some vm1 ∧ Collected vm vm1 ∧ Kept vm vm1 ∧
      Sound vm1 := by
  unfold reallocate
  simp only
  split
  · have hs' : Sound { vm with
        bytesAllocated := accountBytes vm.bytesAllocated oldSize newSize } := hs
    obtain ⟨vm1, h1, c, k, s⟩ := collectGarbage_full H _ hs'
    refine ⟨vm1, h1, c, ?_, s⟩
    intro r hr o ho
    have hr' : Reachable
        ({ vm with bytesAllocated := accountBytes vm.bytesAllocated oldSize newSize } : VM) r :=
      Reachable.congr vm
        ({ vm with bytesAllocated := accountBytes vm.bytesAllocated oldSize newSize } : VM)
        rfl (fun _ h => h) hr
    exact k r hr' o ho
  · exact ⟨_, rfl, Collected.of_bytes hs.1 _, fun r _ o ho => ⟨o, ho, rfl⟩, hs⟩

/-! ## Allocation from a machine between two collections -/

theorem heapGet_append {heap : Heap} {x : Option Obj} {r : Ref} {o : Obj}
    (h : heapGet (heap ++ [x]) r = some o) :
    (r < heap.length ∧ heapGet heap r = some o) ∨ (r = heap.length ∧ x = some o) := by
  have hlt : r < heap.length + 1 := by simpa using heapGet_lt h
  by_cases hr : r < heap.length
  · rw [heapGet_append_lt x hr] at h
    exact Or.inl ⟨hr, h⟩
  · have : r = heap.length :=
      Nat.le_antisymm (Nat.lt_succ_iff.mp hlt) (Nat.le_of_not_lt hr)
    subst this
    rw [heapGet_append_self] at h
    exact Or.inr ⟨rfl, h⟩

/-- A value in the stack below stackTop is a root. -/
theorem peek_root {vm : VM} {distance : Nat} {r : Ref}
    (hp : peek vm distance = .obj r) (hd : distance + 1 ≤ vm.current.stackTop)
    (hlen : vm.current.stackTop ≤ vm.current.stack.length) : r ∈ rootRefs vm := by
  unfold peek at hp
  have hi : vm.current.stackTop - 1 - distance < vm.current.stackTop := by omega
  have hmem : Value.obj r ∈ vm.current.stack.take vm.current.stackTop := by
    rw [List.mem_iff_getElem?]
    refine ⟨vm.current.stackTop - 1 - distance, ?_⟩
    rw [List.getElem?_take_of_lt hi]
    rw [List.getD_eq_getElem?_getD] at hp
    have hl : vm.current.stackTop - 1 - distance < vm.current.stack.length := by omega
    rw [List.getElem?_eq_getElem hl] at hp ⊢
    simpa using hp
  simp only [rootRefs, fiberRefs, List.mem_append]
  exact Or.inl (Or.inl (Or.inl (Or.inl (Or.inl
    (mem_valueRefs.mpr (List.mem_map_of_mem valueRef hmem))))))

/-- The closure of a frame is a root. -/
theorem frame_root {vm : VM} {frame : CallFrame} (hf : frame ∈ vm.current.frames) :
    frame.closure ∈ rootRefs vm := by
  simp only [rootRefs, fiberRefs, List.mem_append]
  exact Or.inl (Or.inl (Or.inl (Or.inl (Or.inr
    (List.mem_map_of_mem (fun fr : CallFrame => fr.closure) hf)))))

/-- The machine after allocateObject has linked a new object that is no fiber. -/
theorem sound_append {vm : VM} (hs : Sound vm) (data : ObjData)
    (hnf : ∀ f, data ≠ .fiber f) :
    Sound { vm with
            heap := vm.heap ++ [some { isMarked := false, next := vm.objects, data := data }]
            objects := some vm.heap.length } := by
  obtain ⟨⟨hcur, hidle, hobjs⟩, hclean, hlisted⟩ := hs
  have hlt_up : ∀ r n, upvalueNext vm.heap r = some n → r < vm.heap.length := by
    intro r n h
    obtain ⟨o, _, _, hg, _⟩ := upvalueNext_some h
    exact heapGet_lt hg
  have hlt_obj : ∀ r n, objNext vm.heap r = some n → r < vm.heap.length := by
    intro r n h
    obtain ⟨o, hg, _⟩ := objNext_some h
    exact heapGet_lt hg
  let x : Option Obj := some { isMarked := false, next := vm.objects, data := data }
  have hobjchain : chain (objNext (vm.heap ++ [x])) (some vm.heap.length)
      (vm.heap.length :: chainNodes (objNext vm.heap) (vm.heap.length + 1) vm.objects) = true := by
    unfold chain
    rw [chainTo_cons]
    refine ⟨rfl, vm.objects, ?_, ?_⟩
    · simp [objNext, heapGet_append_self, x]
    · have e : ∀ r ∈ chainNodes (objNext vm.heap) (vm.heap.length + 1) vm.objects,
          objNext (vm.heap ++ [x]) r = objNext vm.heap r := by
        intro r hr
        obtain ⟨n, hn⟩ := mem_chainNodes_valid _ _ r hr
        simp only [objNext, heapGet_append_lt x (hlt_obj r n hn)]
      rw [chainTo_congr e]
      exact hobjs
  refine ⟨⟨?_, ?_, ?_⟩, ?_, ?_⟩
  · have e : ∀ r ∈ chainNodes (upvalueNext vm.heap) (vm.heap.length + 1) vm.current.openUpvalues,
        upvalueNext (vm.heap ++ [x]) r = upvalueNext vm.heap r := by
      intro r hr
      obtain ⟨n, hn⟩ := mem_chainNodes_valid _ _ r hr
      simp only [upvalueNext, heapGet_append_lt x (hlt_up r n hn)]
    have hc : chain (upvalueNext (vm.heap ++ [x])) vm.current.openUpvalues
        (chainNodes (upvalueNext vm.heap) (vm.heap.length + 1) vm.current.openUpvalues) = true := by
      unfold chain
      rw [chainTo_congr e]
      exact hcur
    exact fiberProper_of_chain hc
  · rw [heapFibersIdle_iff] at hidle ⊢
    intro r o f hg hd
    rcases heapGet_append hg with ⟨_, h⟩ | ⟨_, h⟩
    · exact hidle r o f h hd
    · have : o.data = data := by
        have h' : o = { isMarked := false, next := vm.objects, data := data } :=
          (Option.some.inj h).symm
        rw [h']
      rw [this] at hd
      exact absurd hd (hnf f)
  · exact objectsProper_of_chain hobjchain
  · rw [allUnmarked_iff] at hclean ⊢
    intro r o hg
    rcases heapGet_append hg with ⟨_, h⟩ | ⟨_, h⟩
    · exact hclean r o h
    · have h' : o = { isMarked := false, next := vm.objects, data := data } :=
        (Option.some.inj h).symm
      rw [h']
  · rw [allListed_iff] at hlisted ⊢
    intro r o hg
    have hlen := chain_length_le (fun _ _ hm => objNext_lt hm) hobjchain
    have hn : chainNodes (objNext (vm.heap ++ [x])) ((vm.heap ++ [x]).length + 1)
        (some vm.heap.length) =
        vm.heap.length :: chainNodes (objNext vm.heap) (vm.heap.length + 1) vm.objects :=
      chainNodes_eq _ _ _ hobjchain (Nat.le_succ_of_le hlen)
    show r ∈ chainNodes (objNext (vm.heap ++ [x])) ((vm.heap ++ [x]).length + 1)
      (some vm.heap.length)
    rw [hn]
    rcases heapGet_append hg with ⟨_, h⟩ | ⟨h, _⟩
    · exact List.mem_cons_of_mem _ (hlisted r o h)
    · rw [h]
      exact List.mem_cons_self _ _

/-- allocateObject from a machine between two collections, for a payload that is no
fiber: it returns the next free address, after a step `vmG` that may have been a
collection. -/
theorem allocateObject_full (H : Host) (vm : VM) (data : ObjData) (hs : Sound vm)
    (hnf : ∀ f, data ≠ .fiber f) :
    ∃ vmG, Collected vm vmG ∧ Kept vm vmG ∧ Sound vmG ∧
      allocateObject H vm data =
        some ({ vmG with
                heap := vmG.heap ++ [some { isMarked := false, next := vmG.objects, data := data }]
                objects := some vmG.heap.length },
              vmG.heap.length) ∧
      Sound { vmG with
              heap := vmG.heap ++ [some { isMarked := false, next := vmG.objects, data := data }]
              objects := some vmG.heap.length } := by
  obtain ⟨vmG, hG, cG, kG, sG⟩ := reallocate_full H vm 0 (H.sizeofObj data.type) hs
  exact ⟨vmG, cG, kG, sG, by simp [allocateObject, hG], sound_append sG data hnf⟩

/-! ## Stores that keep the headers of the objects -/

theorem SameHeaders.same_refl (heap : Heap) : SameHeaders heap heap :=
  ⟨rfl, fun _ h => h, fun _ o h => ⟨o, h, rfl, rfl, fun _ hf => hf⟩⟩

theorem SameHeaders.same_trans {a b c : Heap} (h1 : SameHeaders a b) (h2 : SameHeaders b c) :
    SameHeaders a c := by
  refine ⟨h2.1.trans h1.1, fun q hq => h2.2.1 q (h1.2.1 q hq), ?_⟩
  intro q o ho
  obtain ⟨o1, ho1, m1, n1, f1⟩ := h1.2.2 q o ho
  obtain ⟨o2, ho2, m2, n2, f2⟩ := h2.2.2 q o1 ho1
  exact ⟨o2, ho2, m2.trans m1, n2.trans n1, fun f hf => f1 f (f2 f hf)⟩

/-- A store of a payload that is no fiber into an object keeps the headers. -/
theorem SameHeaders.of_set {heap : Heap} {r : Ref} {o : Obj} (hg : heapGet heap r = some o)
    (data : ObjData) (hnf : ∀ f, data ≠ .fiber f) :
    SameHeaders heap (heap.set r (some { o with data := data })) := by
  have hlt := heapGet_lt hg
  refine ⟨by simp, ?_, ?_⟩
  · intro q hq
    have hne : r ≠ q := fun e => by rw [e, hq] at hg; cases hg
    rw [heapGet_set_ne _ hne]
    exact hq
  · intro q oq hq
    by_cases hqr : q = r
    · subst hqr
      rw [hg] at hq
      cases hq
      exact ⟨_, heapGet_set_self _ hlt, rfl, rfl, fun f hf => absurd hf (hnf f)⟩
    · rw [heapGet_set_ne _ (fun e => hqr e.symm)]
      exact ⟨oq, hq, rfl, rfl, fun _ hf => hf⟩

theorem SameHeaders.same_objNext {heap heap1 : Heap} (h : SameHeaders heap heap1) :
    objNext heap1 = objNext heap := by
  funext q
  unfold Loon.objNext
  cases hq : heapGet heap q with
  | none => rw [h.2.1 q hq]
  | some o =>
    obtain ⟨o1, ho1, _, hn, _⟩ := h.2.2 q o hq
    rw [ho1]
    simp only [hn]

/-- The part of Sound that does not speak of the open upvalues of the active fiber. -/
theorem sound_same_headers {vm vm1 : VM} (hs : Sound vm)
    (hh : SameHeaders vm.heap vm1.heap) (ho : vm1.objects = vm.objects) :
    heapFibersIdle vm1.heap = true ∧ objectsProper vm1 = true ∧
      allUnmarked vm1.heap = true ∧ allListed vm1 = true := by
  obtain ⟨⟨_, hidle, hobjs⟩, hclean, hlisted⟩ := hs
  have hinv : ∀ q o1, heapGet vm1.heap q = some o1 →
      ∃ o, heapGet vm.heap q = some o ∧ o1.isMarked = o.isMarked ∧
        ∀ f, o1.data = .fiber f → o.data = .fiber f := by
    intro q o1 hq
    cases hv : heapGet vm.heap q with
    | none =>
      rw [hh.2.1 q hv] at hq
      cases hq
    | some o =>
      obtain ⟨o1', ho1', hm, _, hf⟩ := hh.2.2 q o hv
      rw [hq] at ho1'
      cases ho1'
      exact ⟨o, rfl, hm, hf⟩
  refine ⟨?_, ?_, ?_, ?_⟩
  · rw [heapFibersIdle_iff] at hidle ⊢
    intro q o1 f hq hd
    obtain ⟨o, hv, _, hf⟩ := hinv q o1 hq
    exact hidle q o f hv (hf f hd)
  · unfold objectsProper at hobjs ⊢
    rw [hh.same_objNext, hh.1, ho]
    exact hobjs
  · rw [allUnmarked_iff] at hclean ⊢
    intro q o1 hq
    obtain ⟨o, hv, hm, _⟩ := hinv q o1 hq
    rw [hm]
    exact hclean q o hv
  · rw [allListed_iff] at hlisted ⊢
    intro q o1 hq
    obtain ⟨o, hv, _, _⟩ := hinv q o1 hq
    rw [hh.same_objNext, hh.1, ho]
    exact hlisted q o hv

/-! ## captureUpvalue on a machine between two collections -/

/-- What captureUpvalue leaves of the machine when it links a fresh upvalue in. -/
theorem captureUpvalue_fresh_sound (H : Host) (vm : VM) (local_ : Nat) (a b : List Ref)
    (hsound : Sound vm)
    (hc : chain (openNext vm.heap) vm.current.openUpvalues (a ++ b) = true)
    (hs : ((a ++ b).map (slotOf vm.heap)).Pairwise (· > ·))
    (ha : ∀ r ∈ a, slotOf vm.heap r > local_) (hbl : ∀ r ∈ b, slotOf vm.heap r < local_)
    (hloop : captureUpvalueLoop vm.heap local_ (vm.heap.length + 1) none
      vm.current.openUpvalues = some (a.getLast?, b.head?))
    (hca : chainTo (openNext vm.heap) vm.current.openUpvalues a b.head? = true)
    (hcb : chain (openNext vm.heap) b.head? b = true)
    (hat : upvalueIsAt vm.heap b.head? local_ = false) :
    ∃ vm1 r, captureUpvalue H vm local_ = some (vm1, r) ∧ Sound vm1 ∧
      chain (openNext vm1.heap) vm1.current.openUpvalues (a ++ r :: b) = true ∧
      ((a ++ r :: b).map (slotOf vm1.heap)).Pairwise (· > ·) ∧
      slotOf vm1.heap r = local_ ∧
      (∀ x ∈ a ++ b, slotOf vm1.heap x = slotOf vm.heap x) ∧
      vm1.current = { vm.current with openUpvalues := vm1.current.openUpvalues } ∧
      vm1.globals = vm.globals ∧ vm1.compilerRoots = vm.compilerRoots ∧
      vm1.constants = vm.constants ∧
      (∀ q o, Reachable vm q → heapGet vm.heap q = some o →
        (∀ loc c n, o.data ≠ .upvalue loc c n) →
        ∃ o1, heapGet vm1.heap q = some o1 ∧ o1.data = o.data) := by
  obtain ⟨vmX, rX, hX, hXchain, hXsorted, hXslot, _, hXslots⟩ :=
    captureUpvalue_insert H vm local_ a b hc hs hsound.1 ha hbl hloop hca hcb hat
  obtain ⟨vmG, cG, kG, _, halloc, hs1⟩ :=
    allocateObject_full H vm (.upvalue (.stack local_) .nil none) hsound
      (fun f h => by cases h)
  obtain ⟨gcur, gglob, gcomp, gconst, glen, _, _, groots, _, _⟩ := cG
  have hroots := open_list_roots hc
  have hnode : ∀ r ∈ a ++ b, ∃ o o1 s c n, heapGet vm.heap r = some o ∧
      o.data = .upvalue (.stack s) c n ∧ heapGet vmG.heap r = some o1 ∧
      o1.data = .upvalue (.stack s) c n := by
    intro r hr
    obtain ⟨o, s, c, n, hg, hd⟩ := open_node_info hc hr
    obtain ⟨o1, ho1, hd1⟩ := groots r (hroots r hr) o hg
    exact ⟨o, o1, s, c, n, hg, hd, ho1, by rw [hd1, hd]⟩
  have hlt : ∀ r ∈ a ++ b, r < vmG.heap.length := by
    intro r hr
    obtain ⟨_, o1, _, _, _, _, _, ho1, _⟩ := hnode r hr
    exact heapGet_lt ho1
  have hNl : vmG.heap.length ∉ a ++ b := fun h => Nat.lt_irrefl _ (hlt _ h)
  let obj0 : Obj :=
    { isMarked := false, next := vmG.objects, data := .upvalue (.stack local_) .nil none }
  let vm1 : VM :=
    { vmG with heap := vmG.heap ++ [some obj0], objects := some vmG.heap.length }
  have hs1' : Sound vm1 := hs1
  have hnew : newUpvalue H vm local_ = some (vm1, vmG.heap.length) := halloc
  have hg1N : heapGet vm1.heap vmG.heap.length = some obj0 := heapGet_append_self _ _
  let objN : Obj := { obj0 with data := .upvalue (.stack local_) .nil b.head? }
  let vm2 : VM := { vm1 with heap := vm1.heap.set vmG.heap.length (some objN) }
  have hset : setUpvalueNext vm1 vmG.heap.length b.head? = some vm2 :=
    setUpvalueNext_of hg1N rfl _
  have hh12 : SameHeaders vm1.heap vm2.heap :=
    SameHeaders.of_set hg1N _ (fun f h => by cases h)
  have hN1 : vmG.heap.length < vm1.heap.length := by simp [vm1]
  have hg2N : heapGet vm2.heap vmG.heap.length = some objN := heapGet_set_self _ hN1
  have hg2lt : ∀ q, q < vmG.heap.length → heapGet vm2.heap q = heapGet vmG.heap q := by
    intro q hq
    have hne : vmG.heap.length ≠ q := fun e => by rw [← e] at hq; exact Nat.lt_irrefl _ hq
    show heapGet (vm1.heap.set _ _) q = _
    rw [heapGet_set_ne _ hne]
    exact heapGet_append_lt _ hq
  -- the facts that do not depend on where the node is linked in
  have hfinal : ∀ vmF : VM, captureUpvalue H vm local_ = some (vmF, vmG.heap.length) →
      SameHeaders vm1.heap vmF.heap → vmF.objects = vm1.objects →
      vmF.current = { vmG.current with openUpvalues := vmF.current.openUpvalues } →
      vmF.globals = vmG.globals → vmF.compilerRoots = vmG.compilerRoots →
      vmF.constants = vmG.constants →
      (∀ q oG, heapGet vmG.heap q = some oG → (∀ loc c n, oG.data ≠ .upvalue loc c n) →
        heapGet vmF.heap q = some oG) →
      ∃ vm1 r, captureUpvalue H vm local_ = some (vm1, r) ∧ Sound vm1 ∧
        chain (openNext vm1.heap) vm1.current.openUpvalues (a ++ r :: b) = true ∧
        ((a ++ r :: b).map (slotOf vm1.heap)).Pairwise (· > ·) ∧
        slotOf vm1.heap r = local_ ∧
        (∀ x ∈ a ++ b, slotOf vm1.heap x = slotOf vm.heap x) ∧
        vm1.current = { vm.current with openUpvalues := vm1.current.openUpvalues } ∧
        vm1.globals = vm.globals ∧ vm1.compilerRoots = vm.compilerRoots ∧
        vm1.constants = vm.constants ∧
        (∀ q o, Reachable vm q → heapGet vm.heap q = some o →
          (∀ loc c n, o.data ≠ .upvalue loc c n) →
          ∃ o1, heapGet vm1.heap q = some o1 ∧ o1.data = o.data) := by
    intro vmF hF hhF hoF hcurF hgF hcF hkF hkeep
    have hXF : vmX = vmF ∧ rX = vmG.heap.length := by
      rw [hX] at hF
      have := Option.some.inj hF
      exact ⟨congrArg Prod.fst this, congrArg Prod.snd this⟩
    obtain ⟨e1, e2⟩ := hXF
    subst e1
    subst e2
    obtain ⟨hidle, hobjs, hclean, hlisted⟩ := sound_same_headers hs1' hhF hoF
    have hsF : Sound vmX :=
      ⟨⟨fiberProper_of_chain (chainTo_mono (fun _ _ h => openNext_upvalueNext h) hXchain), hidle,
        hobjs⟩, hclean, hlisted⟩
    refine ⟨vmX, vmG.heap.length, hX, hsF, hXchain, hXsorted, hXslot, hXslots, ?_,
      hgF.trans gglob, hcF.trans gcomp, hkF.trans gconst, ?_⟩
    · rw [hcurF, gcur]
    · intro q o hq ho hnu
      obtain ⟨oG, hoG, hdG⟩ := kG q hq o ho
      have hnuG : ∀ loc c n, oG.data ≠ .upvalue loc c n := by
        intro loc c n h
        rw [hdG] at h
        exact hnu loc c n h
      exact ⟨oG, hkeep q oG hoG hnuG, hdG⟩
  cases hl : a.getLast? with
  | none =>
    rw [hl] at hloop
    apply hfinal { vm2 with current := { vm2.current with openUpvalues := some vmG.heap.length } }
      (captureUpvalue_new_head hloop hat hnew hset) hh12 rfl rfl rfl rfl rfl
    intro q oG hoG _
    show heapGet vm2.heap q = some oG
    rw [hg2lt q (heapGet_lt hoG)]
    exact hoG
  | some p =>
    rw [hl] at hloop
    have hpa : p ∈ a := List.mem_of_getLast?_eq_some hl
    have hpl : p ∈ a ++ b := List.mem_append_left _ hpa
    obtain ⟨po, po1, sp, cp, np, hpg, hpd, hpo1, hpd1⟩ := hnode p hpl
    have hg2p : heapGet vm2.heap p = some po1 := by rw [hg2lt p (hlt p hpl)]; exact hpo1
    let objP : Obj := { po1 with data := .upvalue (.stack sp) cp (some vmG.heap.length) }
    let vm3 : VM := { vm2 with heap := vm2.heap.set p (some objP) }
    have hlink : setUpvalueNext vm2 p (some vmG.heap.length) = some vm3 :=
      setUpvalueNext_of hg2p hpd1 _
    have hh23 : SameHeaders vm2.heap vm3.heap :=
      SameHeaders.of_set hg2p _ (fun f h => by cases h)
    apply hfinal vm3 (captureUpvalue_new_mid hloop hat hnew hset hlink)
      (hh12.same_trans hh23) rfl rfl rfl rfl rfl
    intro q oG hoG hnu
    have hqp : p ≠ q := by
      intro e
      rw [← e, hpo1] at hoG
      cases hoG
      exact hnu _ _ _ hpd1
    show heapGet (vm2.heap.set p _) q = some oG
    rw [heapGet_set_ne _ hqp, hg2lt q (heapGet_lt hoG)]
    exact hoG

/-- captureUpvalue on a machine between two collections whose open-upvalue list is strictly
descending: it returns an upvalue of the new list for the slot, the machine is between two
collections again with a strictly descending list that has all the old nodes at their
slots, and every reachable object that is no upvalue keeps its payload. -/
theorem captureUpvalue_sound (H : Host) (vm : VM) (local_ : Nat) (l : List Ref)
    (hsound : Sound vm)
    (hc : chain (openNext vm.heap) vm.current.openUpvalues l = true)
    (hs : (l.map (slotOf vm.heap)).Pairwise (· > ·)) :
    ∃ vm1 r l1, captureUpvalue H vm local_ = some (vm1, r) ∧ Sound vm1 ∧
      chain (openNext vm1.heap) vm1.current.openUpvalues l1 = true ∧
      (l1.map (slotOf vm1.heap)).Pairwise (· > ·) ∧
      r ∈ l1 ∧ slotOf vm1.heap r = local_ ∧
      (∀ x ∈ l, x ∈ l1 ∧ slotOf vm1.heap x = slotOf vm.heap x) ∧
      vm1.current = { vm.current with openUpvalues := vm1.current.openUpvalues } ∧
      vm1.globals = vm.globals ∧ vm1.compilerRoots = vm.compilerRoots ∧
      vm1.constants = vm.constants ∧
      (∀ q o, Reachable vm q → heapGet vm.heap q = some o →
        (∀ loc c n, o.data ≠ .upvalue loc c n) →
        ∃ o1, heapGet vm1.heap q = some o1 ∧ o1.data = o.data) := by
  have hlen : l.length ≤ vm.heap.length + 1 :=
    Nat.le_succ_of_le (chain_length_le (fun _ _ hm => openNext_lt hm) hc)
  obtain ⟨a, b, hsplit, ha, hb, hloop, hca, hcb⟩ :=
    captureUpvalueLoop_spec vm.heap local_ l none vm.current.openUpvalues _ hc hlen
  have hprev : (a.getLast?).or none = a.getLast? := by cases a.getLast? <;> rfl
  rw [hprev] at hloop
  subst hsplit
  have hfresh : (∀ r ∈ b, slotOf vm.heap r < local_) →
      upvalueIsAt vm.heap b.head? local_ = false →
      ∃ vm1 r l1, captureUpvalue H vm local_ = some (vm1, r) ∧ Sound vm1 ∧
        chain (openNext vm1.heap) vm1.current.openUpvalues l1 = true ∧
        (l1.map (slotOf vm1.heap)).Pairwise (· > ·) ∧
        r ∈ l1 ∧ slotOf vm1.heap r = local_ ∧
        (∀ x ∈ a ++ b, x ∈ l1 ∧ slotOf vm1.heap x = slotOf vm.heap x) ∧
        vm1.current = { vm.current with openUpvalues := vm1.current.openUpvalues } ∧
        vm1.globals = vm.globals ∧ vm1.compilerRoots = vm.compilerRoots ∧
        vm1.constants = vm.constants ∧
        (∀ q o, Reachable vm q → heapGet vm.heap q = some o →
          (∀ loc c n, o.data ≠ .upvalue loc c n) →
          ∃ o1, heapGet vm1.heap q = some o1 ∧ o1.data = o.data) := by
    intro hbl hat
    obtain ⟨vm1, r, h1, h2, h3, h4, h5, h6, h7, h8, h9, h10, h11⟩ :=
      captureUpvalue_fresh_sound H vm local_ a b hsound hc hs ha hbl hloop hca hcb hat
    refine ⟨vm1, r, a ++ r :: b, h1, h2, h3, h4, by simp, h5, ?_, h7, h8, h9, h10, h11⟩
    intro x hx
    refine ⟨?_, h6 x hx⟩
    rcases List.mem_append.mp hx with h | h
    · exact List.mem_append_left _ h
    · exact List.mem_append_right _ (List.mem_cons_of_mem _ h)
  cases b with
  | nil => exact hfresh (by simp) rfl
  | cons x t =>
    obtain ⟨o, s, c, n, hg, hd⟩ := open_node_info hc (show x ∈ a ++ x :: t by simp)
    have hxs : slotOf vm.heap x = s := slotOf_of hg hd
    have hle : s ≤ local_ := by
      have := hb x rfl
      omega
    by_cases heq : s = local_
    · have hat : upvalueIsAt vm.heap (some x) local_ = true := by
        rw [upvalueIsAt_of hg hd]
        simpa using heq
      exact ⟨vm, x, a ++ x :: t, captureUpvalue_found hloop hat, hsound, hc, hs, by simp,
        by rw [hxs, heq], fun y hy => ⟨hy, rfl⟩, rfl, rfl, rfl, rfl,
        fun q o _ ho _ => ⟨o, ho, rfl⟩⟩
    · have hlt : s < local_ := by omega
      apply hfresh
      · intro r hr
        rcases List.mem_cons.mp hr with rfl | hr
        · omega
        · rw [List.map_append, List.pairwise_append] at hs
          have hp := hs.2.1
          rw [List.map_cons, List.pairwise_cons] at hp
          have := hp.1 _ (List.mem_map_of_mem _ hr)
          omega
      · show upvalueIsAt vm.heap (some x) local_ = false
        rw [upvalueIsAt_of hg hd]
        simpa using heq

/-! ## Objects that keep their payload -/

theorem openNext_of_data {heap heap1 : Heap} {x : Ref} {o o1 : Obj}
    (h : heapGet heap x = some o) (h1 : heapGet heap1 x = some o1) (hd : o1.data = o.data) :
    openNext heap1 x = openNext heap x ∧ slotOf heap1 x = slotOf heap x ∧
      upvalueNext heap1 x = upvalueNext heap x := by
  simp [openNext, slotOf, upvalueNext, h, h1, hd]

/-- An open-upvalue list whose nodes keep their payload is the same list in the new heap. -/
theorem open_list_kept {heap heap1 : Heap} {head : Option Ref} {l : List Ref}
    (hc : chain (openNext heap) head l = true)
    (hk : ∀ x ∈ l, ∀ o, heapGet heap x = some o →
      ∃ o1, heapGet heap1 x = some o1 ∧ o1.data = o.data) :
    chain (openNext heap1) head l = true ∧ ∀ x ∈ l, slotOf heap1 x = slotOf heap x := by
  have hall : ∀ x ∈ l, openNext heap1 x = openNext heap x ∧ slotOf heap1 x = slotOf heap x := by
    intro x hx
    obtain ⟨o, _, _, _, hg, _⟩ := open_node_info hc hx
    obtain ⟨o1, h1, hd⟩ := hk x hx o hg
    exact ⟨(openNext_of_data hg h1 hd).1, (openNext_of_data hg h1 hd).2.1⟩
  refine ⟨?_, fun x hx => (hall x hx).2⟩
  unfold chain
  rw [chainTo_congr (fun r hr => (hall r hr).1)]
  exact hc

theorem sorted_kept {heap heap1 : Heap} {l : List Ref}
    (hs : (l.map (slotOf heap)).Pairwise (· > ·))
    (h : ∀ x ∈ l, slotOf heap1 x = slotOf heap x) :
    (l.map (slotOf heap1)).Pairwise (· > ·) := by
  have : l.map (slotOf heap1) = l.map (slotOf heap) := List.map_congr_left h
  rw [this]
  exact hs

/-- The roots of a machine after a collection are the roots before it. -/
theorem Collected.roots {vm vm1 : VM} (hr : Ready vm) (hc : Collected vm vm1) :
    rootRefs vm1 = rootRefs vm := by
  obtain ⟨hcur, _, _⟩ := hr
  obtain ⟨c1, c2, c3, c4, clen, _, _, croots, _, _⟩ := hc
  have hnodes : ∀ r ∈ chainNodes (upvalueNext vm.heap) (vm.heap.length + 1)
      vm.current.openUpvalues, upvalueNext vm1.heap r = upvalueNext vm.heap r := by
    intro r hr
    obtain ⟨n, hn⟩ := mem_chainNodes_valid _ _ r hr
    obtain ⟨o, loc, c, hg, hd⟩ := upvalueNext_some hn
    have hroot : r ∈ rootRefs vm := by
      simp only [rootRefs, fiberRefs, List.mem_append]
      exact Or.inl (Or.inl (Or.inl (Or.inr hr)))
    obtain ⟨o1, ho1, hd1⟩ := croots r hroot o hg
    exact (openNext_of_data hg ho1 hd1).2.2
  have hch : chain (upvalueNext vm1.heap) vm.current.openUpvalues
      (chainNodes (upvalueNext vm.heap) (vm.heap.length + 1) vm.current.openUpvalues) =
      true := by
    unfold chain
    rw [chainTo_congr hnodes]
    exact hcur
  have hlen := chain_length_le (fun _ _ hm => upvalueNext_lt hm) hch
  have heq := chainNodes_eq _ (vm1.heap.length + 1) _ hch (Nat.le_succ_of_le hlen)
  simp only [rootRefs, fiberRefs, c1, c2, c3, c4, heq]

/-- What is reachable before a collection is reachable after it. -/
theorem Reachable.of_kept {vm vm1 : VM} (hs : Sound vm) (hc : Collected vm vm1)
    (hk : Kept vm vm1) {r : Ref} (h : Reachable vm r) : Reachable vm1 r := by
  have hroots := Collected.roots hs.1 hc
  have hidle := heapFibersIdle_iff.mp hs.1.2.1
  induction h with
  | root hmem => exact Reachable.root (by rw [hroots]; exact hmem)
  | @step p r o hp hg hmem ih =>
    obtain ⟨o1, ho1, hd1⟩ := hk p hp o hg
    refine Reachable.step ih ho1 ?_
    rw [hd1]
    cases hd : o.data with
    | fiber f =>
      rw [hd] at hmem
      have hn := hidle p o f hg hd
      simp only [references, fiberRefs, hn, chainNodes] at hmem ⊢
      exact hmem
    | _ =>
      rw [hd] at hmem
      simp only [references] at hmem ⊢
      exact hmem

/-- Soundness looks at the heap, the allocation list and the open-upvalue list only. -/
theorem Sound.of_same {vm vm1 : VM} (hs : Sound vm) (hh : vm1.heap = vm.heap)
    (ho : vm1.objects = vm.objects)
    (hu : vm1.current.openUpvalues = vm.current.openUpvalues) : Sound vm1 := by
  obtain ⟨⟨h1, h2, h3⟩, h4, h5⟩ := hs
  refine ⟨⟨?_, ?_, ?_⟩, ?_, ?_⟩
  · simpa [fiberProper, hh, hu] using h1
  · simpa [hh] using h2
  · simpa [objectsProper, hh, ho] using h3
  · simpa [hh] using h4
  · simpa [allListed, hh, ho] using h5

/-- In a strictly descending open-upvalue list, captureUpvalue for the slot of a node
returns that node and leaves the machine as it is. -/
theorem captureUpvalue_of_mem (H : Host) (vm : VM) (l : List Ref) (u : Ref)
    (hc : chain (openNext vm.heap) vm.current.openUpvalues l = true)
    (hs : (l.map (slotOf vm.heap)).Pairwise (· > ·)) (hu : u ∈ l) :
    captureUpvalue H vm (slotOf vm.heap u) = some (vm, u) := by
  have hlen : l.length ≤ vm.heap.length + 1 :=
    Nat.le_succ_of_le (chain_length_le (fun _ _ hm => openNext_lt hm) hc)
  obtain ⟨a, b, hsplit, ha, hb, hloop, _, _⟩ :=
    captureUpvalueLoop_spec vm.heap (slotOf vm.heap u) l none vm.current.openUpvalues _ hc hlen
  subst hsplit
  rw [List.map_append, List.pairwise_append] at hs
  obtain ⟨_, hsb, hab⟩ := hs
  have hub : u ∈ b := by
    rcases List.mem_append.mp hu with h | h
    · exact absurd (ha u h) (Nat.lt_irrefl _)
    · exact h
  cases b with
  | nil => cases hub
  | cons x t =>
    have hx : x = u := by
      rcases List.mem_cons.mp hub with h | h
      · exact h.symm
      · rw [List.map_cons, List.pairwise_cons] at hsb
        have h1 := hsb.1 _ (List.mem_map_of_mem _ h)
        have h2 := hb x rfl
        omega
    subst hx
    obtain ⟨o, s, c, n, hg, hd⟩ := open_node_info hc (show x ∈ a ++ x :: t by simp)
    have hat : upvalueIsAt vm.heap (some x) (slotOf vm.heap x) = true := by
      rw [upvalueIsAt_of hg hd, slotOf_of hg hd]
      simp
    exact captureUpvalue_found hloop hat

/-! ## newClosure -/

/-- The function newClosure on a machine between two collections, for a function that is
reachable: it returns a new closure of that function whose entries are all NULL, one for
each upvalue the function counts; the registers are kept, reachable objects keep their
payload, and the machine is between two collections again. -/
theorem newClosure_spec (H : Host) (vm : VM) (function : Ref) (f : ObjFunction)
    (hs : Sound vm) (hf : functionAt vm.heap function = some f)
    (hreach : Reachable vm function) :
    ∃ vm1 closure o, newClosure H vm function = some (vm1, closure) ∧ Sound vm1 ∧
      vm1.current = vm.current ∧ vm1.globals = vm.globals ∧
      vm1.compilerRoots = vm.compilerRoots ∧ vm1.constants = vm.constants ∧
      heapGet vm.heap closure = none ∧
      heapGet vm1.heap closure = some o ∧
      o.data = .closure function (List.replicate f.upvalueCount none) ∧
      (∀ q oq, Reachable vm q → heapGet vm.heap q = some oq →
        ∃ o1, heapGet vm1.heap q = some o1 ∧ o1.data = oq.data) := by
  obtain ⟨vmA, hA, cA, kA, sA⟩ := reallocate_full H vm 0 (H.sizeofPtr * f.upvalueCount) hs
  obtain ⟨vmG, cG, kG, _, halloc, sF⟩ :=
    allocateObject_full H vmA (.closure function (List.replicate f.upvalueCount none)) sA
      (fun g h => by cases h)
  have hkeep : ∀ q oq, Reachable vm q → heapGet vm.heap q = some oq →
      ∃ o1, heapGet vmG.heap q = some o1 ∧ o1.data = oq.data := by
    intro q oq hq hg
    obtain ⟨oA, hoA, hdA⟩ := kA q hq oq hg
    obtain ⟨oG, hoG, hdG⟩ := kG q (Reachable.of_kept hs cA kA hq) oA hoA
    exact ⟨oG, hoG, hdG.trans hdA⟩
  have hfun : ∃ fo, heapGet vm.heap function = some fo ∧ fo.data = .function f := by
    unfold functionAt at hf
    split at hf
    · rename_i fo hfo
      split at hf
      · rename_i g hg
        cases hf
        exact ⟨fo, hfo, hg⟩
      · cases hf
    · cases hf
  obtain ⟨fo, hfo, hfd⟩ := hfun
  obtain ⟨fG, hfG, hfGd⟩ := hkeep function fo hreach hfo
  have hlenA : vmA.heap.length = vm.heap.length := cA.2.2.2.2.1
  have hlenG : vmG.heap.length = vmA.heap.length := cG.2.2.2.2.1
  refine ⟨_, vmG.heap.length, _, ?_, sF, ?_, ?_, ?_, ?_, ?_, heapGet_append_self _ _, rfl, ?_⟩
  · unfold newClosure
    rw [hf]
    simp only [hA, halloc]
    have : functionAt (vmG.heap ++
        [some { isMarked := false, next := vmG.objects,
                data := .closure function (List.replicate f.upvalueCount none) }]) function =
        some f := by
      unfold functionAt
      rw [heapGet_append_lt _ (heapGet_lt hfG), hfG]
      simp [hfGd, hfd]
    simp only [this]
  · exact cG.1.trans cA.1
  · exact cG.2.1.trans cA.2.1
  · exact cG.2.2.1.trans cA.2.2.1
  · exact cG.2.2.2.1.trans cA.2.2.2.1
  · cases hnone : heapGet vm.heap vmG.heap.length with
    | none => rfl
    | some x =>
      have := heapGet_lt hnone
      rw [hlenG, hlenA] at this
      exact absurd this (Nat.lt_irrefl _)
  · intro q oq hq hg
    obtain ⟨o1, ho1, hd1⟩ := hkeep q oq hq hg
    exact ⟨o1, by
      show heapGet (vmG.heap ++ _) q = some o1
      rw [heapGet_append_lt _ (heapGet_lt ho1)]; exact ho1, hd1⟩

/-! ## The loop of OP_CLOSURE -/

theorem functionAt_of {heap : Heap} {r : Ref} {o : Obj} {f : ObjFunction}
    (hg : heapGet heap r = some o) (hd : o.data = .function f) :
    functionAt heap r = some f := by
  simp [functionAt, hg, hd]

theorem functionAt_some {heap : Heap} {r : Ref} {f : ObjFunction}
    (h : functionAt heap r = some f) :
    ∃ o, heapGet heap r = some o ∧ o.data = .function f := by
  unfold functionAt at h
  split at h
  · rename_i fo hfo
    split at h
    · rename_i g hg
      cases h
      exact ⟨fo, hfo, hg⟩
    · cases h
  · cases h

/-- The fetch of one operand byte by the innermost frame. -/
theorem fetchByte_eq {vm : VM} {pre : List CallFrame} {frame : CallFrame} {co fo : Obj}
    {fn : Ref} {ups : List (Option Ref)} {ff : ObjFunction}
    (hfr : vm.current.frames = pre ++ [frame])
    (hco : heapGet vm.heap frame.closure = some co) (hcd : co.data = .closure fn ups)
    (hfo : heapGet vm.heap fn = some fo) (hfd : fo.data = .function ff) :
    fetchByte vm = some (ff.chunk.code.getD frame.ip 0,
      { vm with
        current := { vm.current with frames := pre ++ [{ frame with ip := frame.ip + 1 }] } }) := by
  unfold fetchByte
  simp [hfr, hco, hcd, hfo, hfd, readByte]

/-- The store into an entry of a closure on a machine between two collections. -/
theorem setClosureUpvalue_sound {vm : VM} {closure function : Ref} {o : Obj}
    {entries : List (Option Ref)} {l : List Ref} (i : Nat) (v : Option Ref)
    (hs : Sound vm) (hc : chain (openNext vm.heap) vm.current.openUpvalues l = true)
    (hg : heapGet vm.heap closure = some o) (hd : o.data = .closure function entries)
    (hi : i < entries.length) :
    ∃ vm1, setClosureUpvalue vm closure i v = some vm1 ∧ Sound vm1 ∧
      vm1.current = vm.current ∧
      chain (openNext vm1.heap) vm1.current.openUpvalues l = true ∧
      (∀ x ∈ l, slotOf vm1.heap x = slotOf vm.heap x) ∧
      heapGet vm1.heap closure =
        some { o with data := .closure function (entries.set i v) } ∧
      ∀ q, q ≠ closure → heapGet vm1.heap q = heapGet vm.heap q := by
  let vm1 : VM :=
    { vm with
      heap := vm.heap.set closure (some { o with data := .closure function (entries.set i v) }) }
  have hset : setClosureUpvalue vm closure i v = some vm1 := by
    unfold setClosureUpvalue
    simp only [hg, hd, hi, if_true, setData]
  have hne : ∀ q, q ≠ closure → heapGet vm1.heap q = heapGet vm.heap q :=
    fun q hq => heapGet_set_ne _ (fun e => hq e.symm)
  have hnotin : ∀ x ∈ l, x ≠ closure := by
    intro x hx e
    obtain ⟨ox, s, c, n, hgx, hdx⟩ := open_node_info hc hx
    rw [e, hg] at hgx
    cases hgx
    rw [hd] at hdx
    cases hdx
  have hkept : ∀ x ∈ l, ∀ ox, heapGet vm.heap x = some ox →
      ∃ o1, heapGet vm1.heap x = some o1 ∧ o1.data = ox.data :=
    fun x hx ox hox => ⟨ox, by rw [hne x (hnotin x hx)]; exact hox, rfl⟩
  obtain ⟨hc1, hslots⟩ := open_list_kept hc hkept
  have hh : SameHeaders vm.heap vm1.heap :=
    SameHeaders.of_set hg _ (fun f h => by cases h)
  obtain ⟨hidle, hobjs, hclean, hlisted⟩ := sound_same_headers hs hh rfl
  have hs1 : Sound vm1 :=
    ⟨⟨fiberProper_of_chain (chainTo_mono (fun _ _ h => openNext_upvalueNext h) hc1), hidle,
      hobjs⟩, hclean, hlisted⟩
  exact ⟨vm1, hset, hs1, rfl, hc1, hslots, heapGet_set_self _ (heapGet_lt hg), hne⟩

/-- One turn of the loop of OP_CLOSURE. -/
theorem closureLoop_step (H : Host) (cur : ObjFiber) (pre : List CallFrame) (frame : CallFrame)
    (fn : Ref) (ups : List (Option Ref)) (ff : ObjFunction) (closure function : Ref) (n : Nat)
    (htop : 1 ≤ cur.stackTop) (hlen : cur.stackTop ≤ cur.stack.length)
    (hpeek : cur.stack.getD (cur.stackTop - 1) .nil = .obj closure)
    (hne : closure ≠ frame.closure)
    (count i : Nat) (vm : VM) (hi : i < n)
    (hinv : ClosureInv cur pre frame fn ups ff closure function n vm i)
    (hidx : ff.chunk.code.getD (frame.ip + 2 * i) 0 = 0 →
      ff.chunk.code.getD (frame.ip + 2 * i + 1) 0 < ups.length) :
    ∃ vm1, closureLoop H (count + 1) i vm closure = closureLoop H count (i + 1) vm1 closure ∧
      ClosureInv cur pre frame fn ups ff closure function n vm1 (i + 1) := by
  obtain ⟨hs, ⟨hid, hpar, hstack, hstop, hfr⟩, ⟨co, hco, hcd⟩, ⟨fo, hfo, hfd⟩, l, o, entries,
    hc, hsorted, hg, hd, hlenE, hent⟩ := hinv
  have h1 : fetchByte vm = some (ff.chunk.code.getD (frame.ip + 2 * i) 0,
      ({ vm with
         current := { vm.current with
                      frames := pre ++ [{ frame with ip := frame.ip + 2 * i + 1 }] } } : VM)) :=
    fetchByte_eq hfr hco hcd hfo hfd
  let vmA : VM :=
    { vm with
      current := { vm.current with
                   frames := pre ++ [{ frame with ip := frame.ip + 2 * i + 1 }] } }
  have hfrA : vmA.current.frames =
      pre ++ [({ frame with ip := frame.ip + 2 * i + 1 } : CallFrame)] := rfl
  have h2' := @fetchByte_eq vmA _ _ _ _ _ _ _ hfrA hco hcd hfo hfd
  let vmB : VM :=
    { vm with
      current := { vm.current with
                   frames := pre ++ [{ frame with ip := frame.ip + 2 * (i + 1) }] } }
  have hB : ({ vmA with
      current := { vmA.current with
                   frames := pre ++
                     [{ ({ frame with ip := frame.ip + 2 * i + 1 } : CallFrame) with
                        ip := frame.ip + 2 * i + 1 + 1 }] } } : VM) = vmB := rfl
  have h2 : fetchByte vmA = some (ff.chunk.code.getD (frame.ip + 2 * i + 1) 0, vmB) := h2'
  have hlast : vmB.current.frames.getLast? =
      some ({ frame with ip := frame.ip + 2 * (i + 1) } : CallFrame) := by
    simp [vmB]
  have hsB : Sound vmB := Sound.of_same hs rfl rfl rfl
  have hunfold : closureLoop H (count + 1) i vm closure =
      (if ff.chunk.code.getD (frame.ip + 2 * i) 0 ≠ 0 then
        match captureUpvalue H vmB
            (frame.slots + ff.chunk.code.getD (frame.ip + 2 * i + 1) 0) with
        | none => none
        | some (vm3, upvalue) =>
          match setClosureUpvalue vm3 closure i (some upvalue) with
          | none => none
          | some vm4 => closureLoop H count (i + 1) vm4 closure
      else
        match ups[ff.chunk.code.getD (frame.ip + 2 * i + 1) 0]? with
        | none => none
        | some upvalue =>
          match setClosureUpvalue vmB closure i upvalue with
          | none => none
          | some vm3 => closureLoop H count (i + 1) vm3 closure) := by
    have h1' : fetchByte vm = some (ff.chunk.code.getD (frame.ip + 2 * i) 0, vmA) := h1
    have hcoB : heapGet vmB.heap frame.closure = some co := hco
    rw [closureLoop]
    simp only [h1', h2, hlast, hcoB, hcd]
  have hframeB : ({ frame with ip := frame.ip + 2 * (i + 1) } : CallFrame) ∈
      vmB.current.frames := by simp [vmB]
  have hrootC : Reachable vmB frame.closure :=
    Reachable.root
      (@frame_root vmB ({ frame with ip := frame.ip + 2 * (i + 1) } : CallFrame) hframeB)
  have hreachF : Reachable vmB fn :=
    Reachable.step hrootC hco (by rw [hcd]; simp [references])
  have hpeekB : peek vmB 0 = .obj closure := by
    show vm.current.stack.getD (vm.current.stackTop - 1 - 0) .nil = _
    rw [hstack, hstop]
    exact hpeek
  have hrootN : Reachable vmB closure :=
    Reachable.root (peek_root hpeekB (by show 0 + 1 ≤ vm.current.stackTop; rw [hstop]; omega)
      (by show vm.current.stackTop ≤ vm.current.stack.length; rw [hstop, hstack]; exact hlen))
  have hnefn : closure ≠ fn := by
    intro e
    rw [e, hfo] at hg
    cases hg
    rw [hd] at hfd
    cases hfd
  by_cases hloc : ff.chunk.code.getD (frame.ip + 2 * i) 0 ≠ 0
  · obtain ⟨vmC, u, l1, hcap, hsC, hcC, hsortC, huC, hslotC, holdC, hcurC, _, _, _, hkeepC⟩ :=
      captureUpvalue_sound H vmB (frame.slots + ff.chunk.code.getD (frame.ip + 2 * i + 1) 0)
        l hsB hc hsorted
    obtain ⟨coC, hcoC, hcdC⟩ := hkeepC frame.closure co hrootC hco
      (fun loc c n h => by rw [hcd] at h; cases h)
    obtain ⟨foC, hfoC, hfdC⟩ := hkeepC fn fo hreachF hfo
      (fun loc c n h => by rw [hfd] at h; cases h)
    obtain ⟨oC, hoC, hdC⟩ := hkeepC closure o hrootN hg
      (fun loc c n h => by rw [hd] at h; cases h)
    rw [hd] at hdC
    obtain ⟨vmD, hset, hsD, hcurD, hcD, hslotD, hgD, hneD⟩ :=
      setClosureUpvalue_sound i (some u) hsC hcC hoC hdC (by rw [hlenE]; exact hi)
    refine ⟨vmD, ?_, hsD, ?_, ⟨coC, ?_, ?_⟩, ⟨foC, ?_, ?_⟩, l1, _, _, hcD, ?_, hgD, rfl, ?_, ?_⟩
    · rw [hunfold, if_pos hloc]
      simp only [hcap, hset]
    · rw [hcurD, hcurC]
      exact ⟨hid, hpar, hstack, hstop, rfl⟩
    · rw [hneD _ (fun e => hne e.symm)]; exact hcoC
    · rw [hcdC, hcd]
    · rw [hneD _ (fun e => hnefn e.symm)]; exact hfoC
    · rw [hfdC, hfd]
    · exact sorted_kept hsortC hslotD
    · simp [hlenE]
    · intro j hj
      by_cases hji : j = i
      · subst hji
        refine ⟨fun _ => ⟨u, ?_, huC, ?_⟩, fun h0 => absurd h0 hloc⟩
        · simp [hlenE, hi]
        · rw [hslotD u huC]; exact hslotC
      · have hjlt : j < i := by omega
        obtain ⟨hA, hB'⟩ := hent j hjlt
        have hget : (entries.set i (some u))[j]? = entries[j]? := by
          rw [List.getElem?_set_ne (fun e => hji e.symm)]
        refine ⟨fun h0 => ?_, fun h0 => ?_⟩
        · obtain ⟨u', hu1, hu2, hu3⟩ := hA h0
          refine ⟨u', by rw [hget]; exact hu1, (holdC u' hu2).1, ?_⟩
          rw [hslotD u' (holdC u' hu2).1, (holdC u' hu2).2]
          exact hu3
        · rw [hget]; exact hB' h0
  · have h0 : ff.chunk.code.getD (frame.ip + 2 * i) 0 = 0 := by
      by_contra h; exact hloc h
    have hbound := hidx h0
    obtain ⟨v, hv⟩ : ∃ v, ups[ff.chunk.code.getD (frame.ip + 2 * i + 1) 0]? = some v :=
      ⟨_, List.getElem?_eq_getElem hbound⟩
    obtain ⟨vmD, hset, hsD, hcurD, hcD, hslotD, hgD, hneD⟩ :=
      @setClosureUpvalue_sound vmB closure function o entries l i v hsB hc hg hd (by rw [hlenE]; exact hi)
    refine ⟨vmD, ?_, hsD, ?_, ⟨co, ?_, hcd⟩, ⟨fo, ?_, hfd⟩, l, _, _, hcD, ?_, hgD, rfl, ?_, ?_⟩
    · rw [hunfold, if_neg hloc]
      simp only [hv, hset]
    · rw [hcurD]
      exact ⟨hid, hpar, hstack, hstop, rfl⟩
    · rw [hneD _ (fun e => hne e.symm)]; exact hco
    · rw [hneD _ (fun e => hnefn e.symm)]; exact hfo
    · exact sorted_kept hsorted hslotD
    · simp [hlenE]
    · intro j hj
      by_cases hji : j = i
      · subst hji
        refine ⟨fun h => absurd h hloc, fun _ => ?_⟩
        rw [hv]
        simp [hlenE, hi]
      · have hjlt : j < i := by omega
        obtain ⟨hA, hB'⟩ := hent j hjlt
        have hget : (entries.set i v)[j]? = entries[j]? := by
          rw [List.getElem?_set_ne (fun e => hji e.symm)]
        refine ⟨fun h0 => ?_, fun h0 => ?_⟩
        · obtain ⟨u', hu1, hu2, hu3⟩ := hA h0
          exact ⟨u', by rw [hget]; exact hu1, hu2, by rw [hslotD u' hu2]; exact hu3⟩
        · rw [hget]; exact hB' h0

/-- The loop of OP_CLOSURE runs to its end and sets every entry as its pair says. -/
theorem closureLoop_spec (H : Host) (cur : ObjFiber) (pre : List CallFrame) (frame : CallFrame)
    (fn : Ref) (ups : List (Option Ref)) (ff : ObjFunction) (closure function : Ref) (n : Nat)
    (htop : 1 ≤ cur.stackTop) (hlen : cur.stackTop ≤ cur.stack.length)
    (hpeek : cur.stack.getD (cur.stackTop - 1) .nil = .obj closure)
    (hne : closure ≠ frame.closure)
    (hidx : ∀ j, j < n → ff.chunk.code.getD (frame.ip + 2 * j) 0 = 0 →
      ff.chunk.code.getD (frame.ip + 2 * j + 1) 0 < ups.length) :
    ∀ (count i : Nat) (vm : VM), i + count = n →
      ClosureInv cur pre frame fn ups ff closure function n vm i →
      ∃ vm1, closureLoop H count i vm closure = some vm1 ∧
        ClosureInv cur pre frame fn ups ff closure function n vm1 n := by
  intro count
  induction count with
  | zero =>
    intro i vm hin hinv
    have : i = n := by omega
    subst this
    exact ⟨vm, rfl, hinv⟩
  | succ count ih =>
    intro i vm hin hinv
    obtain ⟨vm1, h1, hinv1⟩ :=
      closureLoop_step H cur pre frame fn ups ff closure function n htop hlen hpeek hne count i
        vm (by omega) hinv (hidx i (by omega))
    obtain ⟨vm2, h2, hinv2⟩ := ih (i + 1) vm1 (by omega) hinv1
    exact ⟨vm2, by rw [h1]; exact h2, hinv2⟩

/-- The case OP_CLOSURE on a machine between two collections whose innermost frame stands
before the constant operand: the step continues; a new closure of the constant function is
pushed; the frame has moved over the constant and one pair for each upvalue the function
counts; the closure has that many entries, entry `j` being the open upvalue captureUpvalue
delivers for the slot `frame.slots + index` when `isLocal` of pair `j` is not zero, and the
entry `index` of the closure of the frame otherwise. -/
theorem runSingle_OP_CLOSURE_spec (H : Host) (vm : VM) (pre : List CallFrame)
    (frame : CallFrame) (co fo : Obj) (fn : Ref) (ups : List (Option Ref)) (ff : ObjFunction)
    (function : Ref) (f : ObjFunction) (l : List Ref)
    (hs : Sound vm)
    (hc : chain (openNext vm.heap) vm.current.openUpvalues l = true)
    (hsorted : (l.map (slotOf vm.heap)).Pairwise (· > ·))
    (hfr : vm.current.frames = pre ++ [frame])
    (hco : heapGet vm.heap frame.closure = some co) (hcd : co.data = .closure fn ups)
    (hfo : heapGet vm.heap fn = some fo) (hfd : fo.data = .function ff)
    (hk : ff.chunk.constants.getD (ff.chunk.code.getD frame.ip 0) .nil = .obj function)
    (hf : functionAt vm.heap function = some f)
    (htop : vm.current.stackTop < vm.current.stack.length)
    (hidx : ∀ j, j < f.upvalueCount → ff.chunk.code.getD (frame.ip + 1 + 2 * j) 0 = 0 →
      ff.chunk.code.getD (frame.ip + 1 + 2 * j + 1) 0 < ups.length) :
    ∃ vm1 closure o entries,
      runSingle_OP_CLOSURE H vm = some (.INTERPRET_CONTINUE, vm1) ∧
      vm1.current.frames = pre ++ [{ frame with ip := frame.ip + 1 + 2 * f.upvalueCount }] ∧
      vm1.current.stack = vm.current.stack.set vm.current.stackTop (.obj closure) ∧
      vm1.current.stackTop = vm.current.stackTop + 1 ∧
      heapGet vm.heap closure = none ∧
      heapGet vm1.heap closure = some o ∧ o.data = .closure function entries ∧
      entries.length = f.upvalueCount ∧
      ∀ j, j < f.upvalueCount →
        (ff.chunk.code.getD (frame.ip + 1 + 2 * j) 0 ≠ 0 →
          ∃ u, entries[j]? = some (some u) ∧
            captureUpvalue H vm1 (frame.slots + ff.chunk.code.getD (frame.ip + 1 + 2 * j + 1) 0) =
              some (vm1, u)) ∧
        (ff.chunk.code.getD (frame.ip + 1 + 2 * j) 0 = 0 →
          entries[j]? = ups[ff.chunk.code.getD (frame.ip + 1 + 2 * j + 1) 0]?) := by
  let frame1 : CallFrame := { frame with ip := frame.ip + 1 }
  let vm1 : VM := { vm with current := { vm.current with frames := pre ++ [frame1] } }
  have hfetch : fetchByte vm = some (ff.chunk.code.getD frame.ip 0, vm1) :=
    fetchByte_eq hfr hco hcd hfo hfd
  have hff : frameFunction vm = some ff := by
    unfold frameFunction
    simp [hfr, hco, hcd, functionAt_of hfo hfd]
  have hread : readConstant vm = some (.obj function, vm1) := by
    unfold readConstant
    simp only [hff, hfetch, hk]
  have hs1 : Sound vm1 := Sound.of_same hs rfl rfl rfl
  have hframe1 : frame1 ∈ vm1.current.frames := by simp [vm1]
  have hrootC : Reachable vm1 frame.closure := 
    Reachable.root (@frame_root vm1 frame1 hframe1)
  have hreachF : Reachable vm1 fn :=
    Reachable.step hrootC hco (by rw [hcd]; simp [references])
  have hconst : Value.obj function ∈ ff.chunk.constants := by
    rw [List.getD_eq_getElem?_getD] at hk
    cases hc' : ff.chunk.constants[ff.chunk.code.getD frame.ip 0]? with
    | none => rw [hc'] at hk; cases hk
    | some v =>
      rw [hc'] at hk
      simp only [Option.getD_some] at hk
      subst hk
      exact List.mem_iff_getElem?.mpr ⟨_, hc'⟩
  have hreachN : Reachable vm1 function := by
    refine Reachable.step hreachF hfo ?_
    rw [hfd]
    simp only [references, List.mem_append]
    exact Or.inr (mem_valueRefs.mpr (List.mem_map_of_mem valueRef hconst))
  obtain ⟨vm2, closure, o2, hnew, hs2, hcur2, _, _, _, hfresh, hg2, hd2, hkeep2⟩ :=
    newClosure_spec H vm1 function f hs1 hf hreachN
  obtain ⟨co2, hco2, hcd2⟩ := hkeep2 frame.closure co hrootC hco
  obtain ⟨fo2, hfo2, hfd2⟩ := hkeep2 fn fo hreachF hfo
  have hc1 : chain (openNext vm1.heap) vm1.current.openUpvalues l = true := hc
  have hroots := open_list_roots hc1
  obtain ⟨hc2, hslots2⟩ := @open_list_kept vm.heap vm2.heap _ l hc
    (fun x hx ox hox => hkeep2 x ox (Reachable.root (hroots x hx)) hox)
  let vm3 : VM := push vm2 (.obj closure)
  have hcount : closureUpvalueCount vm3.heap closure = some f.upvalueCount := by
    show closureUpvalueCount vm2.heap closure = _
    simp [closureUpvalueCount, hg2, hd2]
  have hne : closure ≠ frame1.closure := by
    intro e
    rw [e] at hfresh
    rw [show heapGet vm.heap frame1.closure = some co from hco] at hfresh
    cases hfresh
  have hstack2 : vm2.current.stack = vm.current.stack := by rw [hcur2]
  have hstop2 : vm2.current.stackTop = vm.current.stackTop := by rw [hcur2]
  have hfr2 : vm2.current.frames = pre ++ [frame1] := by rw [hcur2]
  have hou2 : vm2.current.openUpvalues = vm.current.openUpvalues := by rw [hcur2]
  have hinv : ClosureInv vm3.current pre frame1 fn ups ff closure function f.upvalueCount vm3 0 := by
    refine ⟨Sound.of_same hs2 rfl rfl rfl, ⟨rfl, rfl, rfl, rfl, hfr2⟩, ⟨co2, hco2, by rw [hcd2, hcd]⟩,
      ⟨fo2, hfo2, by rw [hfd2, hfd]⟩, l, o2, _, ?_, sorted_kept hsorted hslots2, hg2, hd2,
      by simp, fun j hj => absurd hj (Nat.not_lt_zero j)⟩
    show chain (openNext vm2.heap) vm2.current.openUpvalues l = true
    rw [hou2]
    exact hc2
  have htop3 : 1 ≤ vm3.current.stackTop := by
    show 1 ≤ vm2.current.stackTop + 1
    omega
  have hlen3 : vm3.current.stackTop ≤ vm3.current.stack.length := by
    show vm2.current.stackTop + 1 ≤ (vm2.current.stack.set _ _).length
    rw [List.length_set, hstack2, hstop2]
    omega
  have hpeek3 : vm3.current.stack.getD (vm3.current.stackTop - 1) .nil = .obj closure := by
    show (vm2.current.stack.set vm2.current.stackTop (.obj closure)).getD
      (vm2.current.stackTop + 1 - 1) .nil = _
    rw [getD_set_eq _ _ _ _ (by rw [hstack2, hstop2]; exact htop)]
    simp
  obtain ⟨vmF, hloop, hsF, ⟨_, _, hstackF, hstopF, hfrF⟩, _, _, lF, oF, entries, hcF, hsortF,
    hgF, hdF, hlenF, hentF⟩ :=
    closureLoop_spec H vm3.current pre frame1 fn ups ff closure function f.upvalueCount htop3
      hlen3 hpeek3 hne hidx f.upvalueCount 0 vm3 (by omega) hinv
  refine ⟨vmF, closure, oF, entries, ?_, ?_, ?_, ?_, ?_, hgF, hdF, hlenF, ?_⟩
  · unfold runSingle_OP_CLOSURE
    simp only [hread, hnew, hcount, hloop]
  · rw [hfrF]
  · rw [hstackF]
    show vm2.current.stack.set vm2.current.stackTop (.obj closure) = _
    rw [hstack2, hstop2]
  · rw [hstopF]
    show vm2.current.stackTop + 1 = _
    rw [hstop2]
  · exact hfresh
  · intro j hj
    obtain ⟨hA, hB⟩ := hentF j hj
    refine ⟨fun h0 => ?_, fun h0 => hB h0⟩
    obtain ⟨u, hu1, hu2, hu3⟩ := hA h0
    refine ⟨u, hu1, ?_⟩
    have := captureUpvalue_of_mem H vmF lF u hcF hsortF hu2
    rw [hu3] at this
    exact this

/-! ## What the emitters of compiler.c append -/

theorem functionOf_of {s : CompileState} {c : Compiler} {o : Obj} {f : ObjFunction}
    (hg : heapGet s.vm.heap c.function = some o) (hd : o.data = .function f) :
    functionOf s c = some (o, f) := by
  simp [functionOf, hg, hd]

/-- The function emitByte appends its byte to the chunk of the current function and
changes nothing else. -/
theorem emitByte_spec (s : CompileState) (e : Compiler) (rest : List Compiler) (o : Obj)
    (f : ObjFunction) (b : Nat) (hc : s.compilers = e :: rest)
    (hg : heapGet s.vm.heap e.function = some o) (hd : o.data = .function f) :
    ∃ s1 o1 f1, emitByte s b = some s1 ∧ s1.compilers = s.compilers ∧ s1.parser = s.parser ∧
      s1.errors = s.errors ∧
      heapGet s1.vm.heap e.function = some o1 ∧ o1.data = .function f1 ∧
      f1.chunk.code = f.chunk.code ++ [b % 256] ∧ f1.chunk.constants = f.chunk.constants ∧
      f1.upvalueCount = f.upvalueCount ∧
      ∀ q, q ≠ e.function → heapGet s1.vm.heap q = heapGet s.vm.heap q := by
  have hfo := functionOf_of hg hd
  let o1 : Obj :=
    { o with
      data := .function { f with chunk := writeChunk f.chunk (b % 256) s.parser.previous.line } }
  let s1 : CompileState :=
    { s with
      vm := { s.vm with heap := s.vm.heap.set e.function (some o1) }
      compilers := e :: rest }
  have h : emitByte s b = some s1 := by
    simp only [emitByte, currentChunk, setCurrentChunk, hc, hfo, Option.bind_eq_bind,
      Option.some_bind]
  exact ⟨s1, o1, _, h, hc.symm, rfl, rfl, heapGet_set_self _ (heapGet_lt hg), rfl, rfl, rfl, rfl,
    fun q hq => heapGet_set_ne _ (fun e' => hq e'.symm)⟩

/-- The function makeConstant appends the value to the constants of the current function
and returns its index, or 0 with an error when the index does not fit a byte. -/
theorem makeConstant_spec (s : CompileState) (e : Compiler) (rest : List Compiler) (o : Obj)
    (f : ObjFunction) (v : Value) (hc : s.compilers = e :: rest)
    (hg : heapGet s.vm.heap e.function = some o) (hd : o.data = .function f) :
    ∃ s1 o1 f1, makeConstant s v =
        some (if f.chunk.constants.length > BYTE_MAX then 0 else f.chunk.constants.length, s1) ∧
      s1.compilers = s.compilers ∧
      heapGet s1.vm.heap e.function = some o1 ∧ o1.data = .function f1 ∧
      f1.chunk.code = f.chunk.code ∧ f1.chunk.constants = f.chunk.constants ++ [v] ∧
      f1.upvalueCount = f.upvalueCount ∧
      ∀ q, q ≠ e.function → heapGet s1.vm.heap q = heapGet s.vm.heap q := by
  have hfo := functionOf_of hg hd
  let o1 : Obj :=
    { o with
      data := .function { f with chunk := { f.chunk with constants := f.chunk.constants ++ [v] } } }
  let s1 : CompileState :=
    { s with
      vm := { s.vm with heap := s.vm.heap.set e.function (some o1) }
      compilers := e :: rest }
  have hg1 : heapGet s1.vm.heap e.function = some o1 := heapGet_set_self _ (heapGet_lt hg)
  have hne1 : ∀ q, q ≠ e.function → heapGet s1.vm.heap q = heapGet s.vm.heap q :=
    fun q hq => heapGet_set_ne _ (fun e' => hq e'.symm)
  have herr : ∀ m, (error s1 m).compilers = s1.compilers ∧ (error s1 m).vm = s1.vm := by
    intro m
    simp only [error, errorAt]
    split <;> exact ⟨rfl, rfl⟩
  by_cases hbig : f.chunk.constants.length > BYTE_MAX
  · have h : makeConstant s v = some (0, error s1 "Too many constants in one chunk.") := by
      simp only [makeConstant, currentChunk, setCurrentChunk, hc, hfo, Option.bind_eq_bind,
        Option.some_bind, addConstant, if_pos hbig]
    refine ⟨error s1 "Too many constants in one chunk.", o1, _, ?_, (herr _).1.trans hc.symm, ?_,
      rfl, rfl,
      rfl, rfl, ?_⟩
    · rw [if_pos hbig]; exact h
    · rw [(herr _).2]; exact hg1
    · intro q hq
      rw [(herr _).2]; exact hne1 q hq
  · have h : makeConstant s v = some (f.chunk.constants.length, s1) := by
      simp only [makeConstant, currentChunk, setCurrentChunk, hc, hfo, Option.bind_eq_bind,
        Option.some_bind, addConstant, if_neg hbig]
    refine ⟨s1, o1, _, ?_, hc.symm, hg1, rfl, rfl, rfl, rfl, hne1⟩
    rw [if_neg hbig]; exact h

/-- The function emitByte leaves the roots of the compiler chain alone. -/
theorem emitByte_roots {s s1 : CompileState} {b : Nat} (h : emitByte s b = some s1) :
    s1.vm.compilerRoots = s.vm.compilerRoots := by
  unfold emitByte at h
  simp only [Option.bind_eq_bind, Option.bind_eq_some] at h
  obtain ⟨chunk, _, h2⟩ := h
  unfold setCurrentChunk at h2
  split at h2
  · cases h2
  · split at h2
    · cases h2
      rfl
    · cases h2

/-- The bytes the loop at the end of `function` appends. -/
theorem emitUpvalues_spec (upvalues : List Upvalue) (e : Compiler) (rest : List Compiler) :
    ∀ (count i : Nat) (s : CompileState) (o : Obj) (f : ObjFunction),
      i + count ≤ upvalues.length → s.compilers = e :: rest →
      heapGet s.vm.heap e.function = some o → o.data = .function f →
      ∃ s1 o1 f1, emitUpvalues count i upvalues s = some s1 ∧ s1.compilers = s.compilers ∧
        heapGet s1.vm.heap e.function = some o1 ∧ o1.data = .function f1 ∧
        f1.chunk.code = f.chunk.code ++
          ((upvalues.drop i).take count).flatMap
            (fun u => [if u.isLocal then 1 else 0, u.index % 256]) ∧
        f1.chunk.constants = f.chunk.constants ∧ f1.upvalueCount = f.upvalueCount ∧
        ∀ q, q ≠ e.function → heapGet s1.vm.heap q = heapGet s.vm.heap q := by
  intro count
  induction count with
  | zero =>
    intro i s o f _ hc hg hd
    exact ⟨s, o, f, rfl, rfl, hg, hd, by simp, rfl, rfl, fun _ _ => rfl⟩
  | succ count ih =>
    intro i s o f hlen hc hg hd
    have hi : i < upvalues.length := by omega
    obtain ⟨s1, o1, f1, h1, hc1, _, _, hg1, hd1, hcode1, hconst1, hup1, hne1⟩ :=
      emitByte_spec s e rest o f (if upvalues[i].isLocal then 1 else 0) hc hg hd
    obtain ⟨s2, o2, f2, h2, hc2, _, _, hg2, hd2, hcode2, hconst2, hup2, hne2⟩ :=
      emitByte_spec s1 e rest o1 f1 upvalues[i].index (hc1.trans hc) hg1 hd1
    obtain ⟨s3, o3, f3, h3, hc3, hg3, hd3, hcode3, hconst3, hup3, hne3⟩ :=
      ih (i + 1) s2 o2 f2 (by omega) (hc2.trans (hc1.trans hc)) hg2 hd2
    refine ⟨s3, o3, f3, ?_, hc3.trans (hc2.trans hc1), hg3, hd3, ?_, ?_, ?_, ?_⟩
    · simp only [emitUpvalues, List.getElem?_eq_getElem hi, Option.bind_eq_bind,
        Option.some_bind, h1, h2, h3]
    · rw [hcode3, hcode2, hcode1, List.drop_eq_getElem_cons hi, List.take_succ_cons,
        List.flatMap_cons]
      have hb : (if upvalues[i].isLocal = true then 1 else 0) % 256 =
          if upvalues[i].isLocal = true then 1 else 0 := by
        split <;> rfl
      rw [hb]
      simp
    · rw [hconst3, hconst2, hconst1]
    · rw [hup3, hup2, hup1]
    · intro q hq
      rw [hne3 q hq, hne2 q hq, hne1 q hq]

theorem toByte_mod (op : OpCode) : op.toByte % 256 = op.toByte := by
  cases op <;> rfl

/-- The bytes emitReturn appends. -/
theorem emitReturn_spec (s : CompileState) (e : Compiler) (rest : List Compiler) (o : Obj)
    (f : ObjFunction) (hc : s.compilers = e :: rest)
    (hg : heapGet s.vm.heap e.function = some o) (hd : o.data = .function f) :
    ∃ s1 o1 f1, emitReturn s = some s1 ∧ s1.compilers = s.compilers ∧
      s1.vm.compilerRoots = s.vm.compilerRoots ∧
      heapGet s1.vm.heap e.function = some o1 ∧ o1.data = .function f1 ∧
      f1.chunk.code = f.chunk.code ++
        (if e.type = .TYPE_INITIALIZER then [OpCode.OP_LOCAL_GET.toByte, 0, OpCode.OP_RETURN.toByte]
         else [OpCode.OP_NIL.toByte, OpCode.OP_RETURN.toByte]) ∧
      f1.chunk.constants = f.chunk.constants ∧ f1.upvalueCount = f.upvalueCount ∧
      ∀ q, q ≠ e.function → heapGet s1.vm.heap q = heapGet s.vm.heap q := by
  by_cases ht : e.type = .TYPE_INITIALIZER
  · obtain ⟨s1, o1, f1, h1, hc1, _, _, hg1, hd1, hcode1, hconst1, hup1, hne1⟩ :=
      emitByte_spec s e rest o f OpCode.OP_LOCAL_GET.toByte hc hg hd
    obtain ⟨s2, o2, f2, h2, hc2, _, _, hg2, hd2, hcode2, hconst2, hup2, hne2⟩ :=
      emitByte_spec s1 e rest o1 f1 0 (hc1.trans hc) hg1 hd1
    obtain ⟨s3, o3, f3, h3, hc3, _, _, hg3, hd3, hcode3, hconst3, hup3, hne3⟩ :=
      emitByte_spec s2 e rest o2 f2 OpCode.OP_RETURN.toByte (hc2.trans (hc1.trans hc)) hg2 hd2
    refine ⟨s3, o3, f3, ?_, hc3.trans (hc2.trans hc1), ?_, hg3, hd3, ?_, ?_, ?_, ?_⟩
    · simp only [emitReturn, hc, List.head?_cons, Option.bind_eq_bind, Option.some_bind,
        if_pos ht, emitBytes, h1, h2, h3]
    · have e1 := emitByte_roots h1
      have e2 := emitByte_roots h2
      have e3 := emitByte_roots h3
      rw [e3, e2, e1]
    · rw [hcode3, hcode2, hcode1, if_pos ht, toByte_mod, toByte_mod]
      simp
    · rw [hconst3, hconst2, hconst1]
    · rw [hup3, hup2, hup1]
    · intro q hq
      rw [hne3 q hq, hne2 q hq, hne1 q hq]
  · obtain ⟨s1, o1, f1, h1, hc1, _, _, hg1, hd1, hcode1, hconst1, hup1, hne1⟩ :=
      emitByte_spec s e rest o f OpCode.OP_NIL.toByte hc hg hd
    obtain ⟨s3, o3, f3, h3, hc3, _, _, hg3, hd3, hcode3, hconst3, hup3, hne3⟩ :=
      emitByte_spec s1 e rest o1 f1 OpCode.OP_RETURN.toByte (hc1.trans hc) hg1 hd1
    refine ⟨s3, o3, f3, ?_, hc3.trans hc1, ?_, hg3, hd3, ?_, ?_, ?_, ?_⟩
    · simp only [emitReturn, hc, List.head?_cons, Option.bind_eq_bind, Option.some_bind,
        if_neg ht, h1, h3]
    · have e1 := emitByte_roots h1
      have e3 := emitByte_roots h3
      rw [e3, e1]
    · rw [hcode3, hcode1, if_neg ht, toByte_mod, toByte_mod]
      simp
    · rw [hconst3, hconst1]
    · rw [hup3, hup1]
    · intro q hq
      rw [hne3 q hq, hne1 q hq]

/-- The end of `function`: the compiler is popped, the enclosing chunk gains the constant
of the function, OP_CLOSURE with its index and one pair of bytes for each of the first
upvalueCount entries of the array of the compiler, in order; the count of the function is
left as it is. -/
theorem functionEnd_spec (s : CompileState) (c encl : Compiler) (rest : List Compiler)
    (o oe : Obj) (f fe : ObjFunction)
    (hcomp : s.compilers = c :: encl :: rest)
    (hg : heapGet s.vm.heap c.function = some o) (hd : o.data = .function f)
    (hge : heapGet s.vm.heap encl.function = some oe) (hde : oe.data = .function fe)
    (hne : c.function ≠ encl.function) (hup : f.upvalueCount ≤ c.upvalues.length) :
    ∃ s1 o1 f1 oe1 fe1, functionEnd s = some s1 ∧ s1.compilers = encl :: rest ∧
      heapGet s1.vm.heap c.function = some o1 ∧ o1.data = .function f1 ∧
      f1.upvalueCount = f.upvalueCount ∧
      heapGet s1.vm.heap encl.function = some oe1 ∧ oe1.data = .function fe1 ∧
      fe1.chunk.constants = fe.chunk.constants ++ [.obj c.function] ∧
      fe1.chunk.code = fe.chunk.code ++
        [OpCode.OP_CLOSURE.toByte,
         if fe.chunk.constants.length > BYTE_MAX then 0 else fe.chunk.constants.length] ++
        (c.upvalues.take f.upvalueCount).flatMap
          (fun u => [if u.isLocal then 1 else 0, u.index % 256]) := by
  obtain ⟨sA, oA, fA, hA, hcA, _, hgA, hdA, _, _, hupA, hneA⟩ :=
    emitReturn_spec s c (encl :: rest) o f hcomp hg hd
  have hcA' : sA.compilers = c :: encl :: rest := hcA.trans hcomp
  let sB : CompileState :=
    { sA with
      compilers := encl :: rest
      vm := { sA.vm with compilerRoots := sA.vm.compilerRoots.tail } }
  have hend : endCompiler s = some (c.function, sB) := by
    simp only [endCompiler, hA, Option.bind_eq_bind, Option.some_bind, hcA', List.head?_cons,
      List.tail_cons]
  have hcB : sB.compilers = encl :: rest := rfl
  have hgeB : heapGet sB.vm.heap encl.function = some oe := by
    show heapGet sA.vm.heap encl.function = _
    rw [hneA _ (fun e => hne e.symm)]
    exact hge
  obtain ⟨sC, oC, fC, hC, hcC, hgC, hdC, hcodeC, hconstC, _, hneC⟩ :=
    makeConstant_spec sB encl rest oe fe (.obj c.function) hcB hgeB hde
  have hk : (if fe.chunk.constants.length > BYTE_MAX then 0 else fe.chunk.constants.length) %
      256 = if fe.chunk.constants.length > BYTE_MAX then 0 else fe.chunk.constants.length := by
    unfold BYTE_MAX
    split <;> omega
  obtain ⟨sD, oD, fD, hD, hcD, _, _, hgD, hdD, hcodeD, hconstD, _, hneD⟩ :=
    emitByte_spec sC encl rest oC fC OpCode.OP_CLOSURE.toByte (hcC.trans hcB) hgC hdC
  obtain ⟨sE, oE, fE, hE, hcE, _, _, hgE, hdE, hcodeE, hconstE, _, hneE⟩ :=
    emitByte_spec sD encl rest oD fD
      (if fe.chunk.constants.length > BYTE_MAX then 0 else fe.chunk.constants.length)
      (hcD.trans (hcC.trans hcB)) hgD hdD
  have hcE' : sE.compilers = encl :: rest := hcE.trans (hcD.trans (hcC.trans hcB))
  have hgcE : heapGet sE.vm.heap c.function = some oA := by
    rw [hneE _ hne, hneD _ hne, hneC _ hne]
    exact hgA
  obtain ⟨sF, oF, fF, hF, hcF, hgF, hdF, hcodeF, hconstF, _, hneF⟩ :=
    emitUpvalues_spec c.upvalues encl rest f.upvalueCount 0 sE oE fE (by omega) hcE' hgE hdE
  refine ⟨sF, oA, fA, oF, fF, ?_, hcF.trans hcE', ?_, hdA, hupA, hgF, hdF, ?_, ?_⟩
  · simp only [functionEnd, hcomp, List.head?_cons, Option.bind_eq_bind, Option.some_bind,
      hend, hC, emitBytes, hD, hE, functionAt_of hgcE hdA, hupA, hF]
  · rw [hneF _ hne]
    exact hgcE
  · rw [hconstF, hconstE, hconstD, hconstC]
  · rw [hcodeF, hcodeE, hcodeD, hcodeC, toByte_mod, hk, List.drop_zero]
    simp

/-! ## Errors of the compiler -/

/-- What errorAt records when the parser is not in panic mode. -/
theorem error_fields (s : CompileState) (m : String) :
    (error s m).compilers = s.compilers ∧ (error s m).vm = s.vm ∧
    (error s m).classes = s.classes ∧
    (error s m).parser.current = s.parser.current ∧
    (error s m).parser.previous = s.parser.previous ∧
    (error s m).parser.source = s.parser.source ∧
    (s.parser.panicMode = true → error s m = s) ∧
    (s.parser.panicMode = false →
      (error s m).errors = s.errors ++ [m] ∧ (error s m).parser.hadError = true ∧
      (error s m).parser.panicMode = true) := by
  unfold error errorAt
  split
  · rename_i h
    exact ⟨rfl, rfl, rfl, rfl, rfl, rfl, fun _ => rfl, fun h' => by rw [h'] at h; cases h⟩
  · rename_i h
    refine ⟨rfl, rfl, rfl, rfl, rfl, rfl, fun h' => absurd h' h, fun _ => ⟨rfl, rfl, rfl⟩⟩

theorem append_single_ne {α : Type} (l : List α) (a : α) : l ≠ l ++ [a] := by
  intro h
  have := congrArg List.length h
  simp at this

/-- The function makeConstant with what it does to the parser. -/
theorem makeConstant_full (s : CompileState) (e : Compiler) (rest : List Compiler) (o : Obj)
    (f : ObjFunction) (v : Value) (hc : s.compilers = e :: rest)
    (hg : heapGet s.vm.heap e.function = some o) (hd : o.data = .function f) :
    ∃ s1 o1 f1, makeConstant s v =
        some (if f.chunk.constants.length > BYTE_MAX then 0 else f.chunk.constants.length, s1) ∧
      s1.compilers = s.compilers ∧
      heapGet s1.vm.heap e.function = some o1 ∧ o1.data = .function f1 ∧
      f1.chunk.code = f.chunk.code ∧ f1.chunk.constants = f.chunk.constants ++ [v] ∧
      f1.upvalueCount = f.upvalueCount ∧
      (∀ q, q ≠ e.function → heapGet s1.vm.heap q = heapGet s.vm.heap q) ∧
      (¬ f.chunk.constants.length > BYTE_MAX → s1.parser = s.parser ∧ s1.errors = s.errors) ∧
      (f.chunk.constants.length > BYTE_MAX →
        s1.parser = (error s "Too many constants in one chunk.").parser ∧
        s1.errors = (error s "Too many constants in one chunk.").errors) := by
  have hfo := functionOf_of hg hd
  let o1 : Obj :=
    { o with
      data := .function { f with chunk := { f.chunk with constants := f.chunk.constants ++ [v] } } }
  let s1 : CompileState :=
    { s with
      vm := { s.vm with heap := s.vm.heap.set e.function (some o1) }
      compilers := e :: rest }
  have hg1 : heapGet s1.vm.heap e.function = some o1 := heapGet_set_self _ (heapGet_lt hg)
  have hne1 : ∀ q, q ≠ e.function → heapGet s1.vm.heap q = heapGet s.vm.heap q :=
    fun q hq => heapGet_set_ne _ (fun e' => hq e'.symm)
  have herr : ∀ m, (error s1 m).compilers = s1.compilers ∧ (error s1 m).vm = s1.vm ∧
      (error s1 m).parser = (error s m).parser ∧ (error s1 m).errors = (error s m).errors := by
    intro m
    simp only [error, errorAt]
    split <;> exact ⟨rfl, rfl, rfl, rfl⟩
  by_cases hbig : f.chunk.constants.length > BYTE_MAX
  · have h : makeConstant s v = some (0, error s1 "Too many constants in one chunk.") := by
      simp only [makeConstant, currentChunk, setCurrentChunk, hc, hfo, Option.bind_eq_bind,
        Option.some_bind, addConstant, if_pos hbig]
    refine ⟨error s1 "Too many constants in one chunk.", o1, _, ?_, (herr _).1.trans hc.symm, ?_,
      rfl, rfl, rfl, rfl, ?_, fun h' => absurd hbig h', fun _ => ⟨(herr _).2.2.1, (herr _).2.2.2⟩⟩
    · rw [if_pos hbig]; exact h
    · rw [(herr _).2.1]; exact hg1
    · intro q hq
      rw [(herr _).2.1]; exact hne1 q hq
  · have h : makeConstant s v = some (f.chunk.constants.length, s1) := by
      simp only [makeConstant, currentChunk, setCurrentChunk, hc, hfo, Option.bind_eq_bind,
        Option.some_bind, addConstant, if_neg hbig]
    refine ⟨s1, o1, _, ?_, hc.symm, hg1, rfl, rfl, rfl, rfl, hne1, fun _ => ⟨rfl, rfl⟩,
      fun h' => absurd h' hbig⟩
    rw [if_neg hbig]; exact h

/-! ## The upvalue array of a compiler -/

theorem upvalue_eq_iff (u : Upvalue) (index : Nat) (isLocal : Bool) :
    (u.index = index ∧ u.isLocal = isLocal) ↔ u = { index := index, isLocal := isLocal } := by
  cases u
  simp

/-- The search loop of addUpvalue finds nothing when no entry is the pair. -/
theorem findUpvalue_none (l : List Upvalue) (index : Nat) (isLocal : Bool)
    (h : ∀ u ∈ l, u ≠ { index := index, isLocal := isLocal }) :
    findUpvalue l index isLocal = none := by
  unfold findUpvalue
  have : ¬ List.findIdx (fun u => decide (u.index = index ∧ u.isLocal = isLocal)) l <
      l.length := by
    intro hlt
    have hp := List.findIdx_getElem (w := hlt)
    simp only [decide_eq_true_eq] at hp
    exact h _ (List.getElem_mem _) ((upvalue_eq_iff _ _ _).mp hp)
  simp only [this, if_false]

/-- The search loop of addUpvalue finds the first entry that is the pair. -/
theorem findUpvalue_first (l : List Upvalue) (index : Nat) (isLocal : Bool) (i : Nat)
    (hi : l[i]? = some { index := index, isLocal := isLocal })
    (hfirst : ∀ j, j < i → l[j]? ≠ some { index := index, isLocal := isLocal }) :
    findUpvalue l index isLocal = some i := by
  unfold findUpvalue
  have hil : i < l.length := by
    by_contra h
    rw [List.getElem?_eq_none (by omega)] at hi
    cases hi
  have hpi : (fun u : Upvalue => decide (u.index = index ∧ u.isLocal = isLocal)) l[i] = true := by
    have : l[i] = { index := index, isLocal := isLocal } := by
      rw [List.getElem?_eq_getElem hil] at hi
      exact Option.some.inj hi
    simp [this]
  have heq : List.findIdx (fun u => decide (u.index = index ∧ u.isLocal = isLocal)) l = i := by
    refine (List.findIdx_eq hil).mpr ⟨hpi, fun j hji => ?_⟩
    have hjl : j < l.length := by omega
    have hne := hfirst j hji
    rw [List.getElem?_eq_getElem hjl] at hne
    have hne' : l[j] ≠ { index := index, isLocal := isLocal } := fun h => hne (congrArg some h)
    have : ¬ (l[j].index = index ∧ l[j].isLocal = isLocal) :=
      fun h => hne' ((upvalue_eq_iff _ _ _).mp h)
    simp only [this, decide_False]
  rw [heq]
  simp only [hil, if_true]

/-- In an array without repetition the entry that is the pair is the first one. -/
theorem nodup_first {l : List Upvalue} (hnd : l.Nodup) {u : Upvalue} {i : Nat}
    (hi : l[i]? = some u) : ∀ j, j < i → l[j]? ≠ some u := by
  intro j hj hju
  have hil : i < l.length := by
    by_contra h
    rw [List.getElem?_eq_none (by omega)] at hi
    cases hi
  have hjl : j < l.length := by omega
  rw [List.getElem?_eq_getElem hil] at hi
  rw [List.getElem?_eq_getElem hjl] at hju
  have := (List.Nodup.getElem_inj_iff hnd).mp
    ((Option.some.inj hju).trans (Option.some.inj hi).symm)
  omega

/-! ## Locals of a compiler -/

theorem identifiersEqual_iff (a b : List Nat) : identifiersEqual a b = true ↔ a = b := by
  unfold identifiersEqual
  simp only [decide_eq_true_eq]
  exact ⟨fun h => h.2, fun h => ⟨by rw [h], h⟩⟩

/-- The loop of resolveLocal on the locals from the last one down: the first entry with the
name decides. -/
theorem resolveLocalLoop_spec (name : List Nat) (rev : List Local) :
    (resolveLocalLoop name rev = (-1, false) ∧ ∀ l ∈ rev, l.name ≠ name) ∨
    ∃ a loc b, rev = a ++ loc :: b ∧ (∀ l ∈ a, l.name ≠ name) ∧ loc.name = name ∧
      resolveLocalLoop name rev = ((b.length : Int), decide (loc.depth = -1)) := by
  induction rev with
  | nil => exact Or.inl ⟨rfl, by simp⟩
  | cons x t ih =>
    by_cases hx : identifiersEqual name x.name = true
    · refine Or.inr ⟨[], x, t, rfl, by simp, ((identifiersEqual_iff _ _).mp hx).symm, ?_⟩
      simp only [resolveLocalLoop, hx, if_true]
    · have hne : x.name ≠ name := fun h => hx ((identifiersEqual_iff _ _).mpr h.symm)
      rcases ih with ⟨h1, h2⟩ | ⟨a, loc, b, h1, h2, h3, h4⟩
      · left
        refine ⟨?_, ?_⟩
        · simp only [resolveLocalLoop, hx]
          exact h1
        · intro l hl
          rcases List.mem_cons.mp hl with rfl | hl
          · exact hne
          · exact h2 l hl
      · right
        refine ⟨x :: a, loc, b, by rw [h1]; rfl, ?_, h3, ?_⟩
        · intro l hl
          rcases List.mem_cons.mp hl with rfl | hl
          · exact hne
          · exact h2 l hl
        · simp only [resolveLocalLoop, hx]
          exact h4

/-- resolveLocal: -1 and the state as it is when no local has the name; otherwise the
greatest index of a local with the name, and `error` exactly when its depth is -1. -/
theorem resolveLocal_spec (s : CompileState) (c : Compiler) (name : List Nat) :
    ((∀ l ∈ c.locals, l.name ≠ name) → resolveLocal s c name = (-1, s)) ∧
    ((∃ l ∈ c.locals, l.name = name) →
      ∃ (i : Nat) (loc : Local), (resolveLocal s c name).1 = (i : Int) ∧
        c.locals[i]? = some loc ∧
        loc.name = name ∧
        (∀ (j : Nat) (l : Local), i < j → c.locals[j]? = some l → l.name ≠ name) ∧
        (resolveLocal s c name).2 =
          if loc.depth = -1 then error s "Can't read local variable in its own initializer."
          else s) := by
  have hspec := resolveLocalLoop_spec name c.locals.reverse
  have hnone : (∀ l ∈ c.locals, l.name ≠ name) → resolveLocal s c name = (-1, s) := by
    intro hno
    rcases hspec with ⟨h1, _⟩ | ⟨a, loc, b, h1, _, h3, _⟩
    · simp only [resolveLocal, h1]
      rfl
    · exfalso
      have : loc ∈ c.locals.reverse := by rw [h1]; simp
      exact hno loc (List.mem_reverse.mp this) h3
  have hsome : (∃ l ∈ c.locals, l.name = name) →
      ∃ (i : Nat) (loc : Local), (resolveLocal s c name).1 = (i : Int) ∧
        c.locals[i]? = some loc ∧
        loc.name = name ∧
        (∀ (j : Nat) (l : Local), i < j → c.locals[j]? = some l → l.name ≠ name) ∧
        (resolveLocal s c name).2 =
          if loc.depth = -1 then error s "Can't read local variable in its own initializer."
          else s := by
    rintro ⟨l0, hl0, hn0⟩
    rcases hspec with ⟨_, h2⟩ | ⟨a, loc, b, h1, h2, h3, h4⟩
    · exact absurd hn0 (h2 l0 (List.mem_reverse.mpr hl0))
    · have hlocals : c.locals = b.reverse ++ loc :: a.reverse := by
        have := congrArg List.reverse h1
        simpa using this
      refine ⟨b.length, loc, ?_, ?_, h3, ?_, ?_⟩
      · simp only [resolveLocal, h4]
      · rw [hlocals, List.getElem?_append_right (by simp)]
        simp
      · intro j l hj hjl
        rw [hlocals, List.getElem?_append_right (by simp; omega)] at hjl
        have hpos : j - b.reverse.length = (j - b.length - 1) + 1 := by simp; omega
        rw [hpos, List.getElem?_cons_succ] at hjl
        have hmem : l ∈ a.reverse := List.mem_iff_getElem?.mpr ⟨_, hjl⟩
        exact h2 l (List.mem_reverse.mp hmem)
      · simp only [resolveLocal, h4]
        by_cases hdep : loc.depth = -1 <;> simp [hdep]
  exact ⟨hnone, hsome⟩

/-! ## The parser does not touch the compilers -/

theorem advanceLoop_fields (source : List Token) :
    ∀ s : CompileState, (advanceLoop s source).compilers = s.compilers ∧
      (advanceLoop s source).vm = s.vm ∧ (advanceLoop s source).classes = s.classes ∧
      (advanceLoop s source).parser.previous = s.parser.previous := by
  induction source with
  | nil => intro s; exact ⟨rfl, rfl, rfl, rfl⟩
  | cons t rest ih =>
    intro s
    unfold advanceLoop
    split
    · exact ⟨rfl, rfl, rfl, rfl⟩
    · obtain ⟨h1, h2, h3, h4⟩ := ih
        (errorAt { s with parser := { s.parser with current := t, source := rest } }
          (String.mk (t.lexeme.map Char.ofNat)))
      have he := error_fields { s with parser := { s.parser with current := t, source := rest } }
        (String.mk (t.lexeme.map Char.ofNat))
      unfold error at he
      exact ⟨h1.trans he.1, h2.trans he.2.1, h3.trans he.2.2.1, h4.trans he.2.2.2.2.1⟩

theorem advance_fields (s : CompileState) :
    (advance s).compilers = s.compilers ∧ (advance s).vm = s.vm ∧
    (advance s).classes = s.classes ∧ (advance s).parser.previous = s.parser.current := by
  unfold advance
  obtain ⟨h1, h2, h3, h4⟩ := advanceLoop_fields s.parser.source
    { s with parser := { s.parser with previous := s.parser.current } }
  exact ⟨h1, h2, h3, h4⟩

/-- The step of advance over a token that is no error token. -/
theorem advance_cons (s : CompileState) (t : Token) (rest : List Token)
    (hs : s.parser.source = t :: rest) (ht : t.type ≠ .TOKEN_ERROR) :
    advance s =
      { s with
        parser := { s.parser with previous := s.parser.current, current := t, source := rest } } := by
  unfold advance
  rw [hs]
  unfold advanceLoop
  simp only [ht, ne_eq, not_false_eq_true, if_true]

theorem consume_fields (s : CompileState) (type : TokenType) (m : String) :
    (consume s type m).compilers = s.compilers ∧ (consume s type m).vm = s.vm := by
  unfold consume
  split
  · exact ⟨(advance_fields s).1, (advance_fields s).2.1⟩
  · have := error_fields s m
    unfold error at this
    exact ⟨this.1, this.2.1⟩

theorem matchToken_fields (s : CompileState) (type : TokenType) :
    (matchToken s type).2.compilers = s.compilers ∧ (matchToken s type).2.vm = s.vm ∧
    ((matchToken s type).1 = true ↔ s.parser.current.type = type) ∧
    ((matchToken s type).1 = true → (matchToken s type).2 = advance s) ∧
    ((matchToken s type).1 = false → (matchToken s type).2 = s) := by
  by_cases h : s.parser.current.type = type
  · have hm : matchToken s type = (true, advance s) := by
      simp [matchToken, check, h]
    rw [hm]
    exact ⟨(advance_fields s).1, (advance_fields s).2.1, ⟨fun _ => h, fun _ => rfl⟩,
      fun _ => rfl, fun h' => (by cases h')⟩
  · have hm : matchToken s type = (false, s) := by
      simp [matchToken, check, h]
    rw [hm]
    exact ⟨rfl, rfl, ⟨fun h' => (by cases h'), fun h' => absurd h' h⟩,
      fun h' => (by cases h'), fun _ => rfl⟩

/-- The compiler initCompiler links in has the type it was given. -/
theorem initCompiler_type {H : Host} {s s1 : CompileState} {type : FunctionType}
    (h : initCompiler H s type = some s1) :
    ∃ c, s1.compilers = c :: s.compilers ∧ c.type = type ∧ c.upvalues = [] ∧
      c.scopeDepth = 0 := by
  unfold initCompiler at h
  simp only [Option.bind_eq_bind, Option.bind_eq_some] at h
  obtain ⟨⟨vm1, function⟩, _, s2, h2, h3⟩ := h
  have hs2 : s2.compilers =
      { function := function, type := type, locals := [], upvalues := [], scopeDepth := 0 } ::
        s.compilers := by
    split at h2
    · simp only [Option.bind_eq_bind, Option.bind_eq_some] at h2
      obtain ⟨⟨vm2, name⟩, _, ⟨o, f⟩, _, h4⟩ := h2
      cases h4
      rfl
    · cases h2
      rfl
  cases h3
  simp only [setCurrent, hs2]
  exact ⟨_, rfl, rfl, rfl, rfl⟩

/-! ## addUpvalue on a proper chain -/

theorem ChainKept.chain_refl (d : Nat) (s : CompileState) : ChainKept d s s :=
  ⟨rfl, fun _ _ => rfl, fun _ c h => ⟨c, h, rfl⟩, fun _ _ => rfl⟩

theorem ChainKept.chain_trans {d : Nat} {a b c : CompileState} (h1 : ChainKept d a b)
    (h2 : ChainKept d b c) : ChainKept d a c := by
  obtain ⟨a1, a2, a3, a4⟩ := h1
  obtain ⟨b1, b2, b3, b4⟩ := h2
  refine ⟨b1.trans a1, fun k hk => (b2 k hk).trans (a2 k hk), ?_, ?_⟩
  · intro k x hx
    obtain ⟨y, hy, hyf⟩ := a3 k x hx
    obtain ⟨z, hz, hzf⟩ := b3 k y hy
    exact ⟨z, hz, hzf.trans hyf⟩
  · intro q hq
    rw [b4 q, a4 q hq]
    intro k y hk hy
    have hlt : k < a.compilers.length := by
      rw [← a1]
      by_contra h
      rw [List.getElem?_eq_none (by omega)] at hy
      cases hy
    obtain ⟨x, hx⟩ : ∃ x, a.compilers[k]? = some x := ⟨_, List.getElem?_eq_getElem hlt⟩
    obtain ⟨y', hy', hyf⟩ := a3 k x hx
    rw [hy] at hy'
    cases hy'
    rw [hyf]
    exact hq k x hk hx

theorem ChainKept.mono {d d1 : Nat} {a b : CompileState} (h : ChainKept d1 a b) (hd : d ≤ d1) :
    ChainKept d a b := by
  obtain ⟨a1, a2, a3, a4⟩ := h
  exact ⟨a1, fun k hk => a2 k (by omega), a3,
    fun q hq => a4 q (fun k c hk hc => hq k c (by omega) hc)⟩

/-- The state of `error` has the chain and the heap of the state it is called on. -/
theorem CompilersProper.proper_of_same {s s1 : CompileState} (h : CompilersProper s)
    (hc : s1.compilers = s.compilers) (hv : s1.vm = s.vm) : CompilersProper s1 := by
  unfold CompilersProper at h ⊢
  rw [hc, hv]
  exact h

theorem ChainKept.kept_of_same {d : Nat} {s s1 : CompileState}
    (hc : s1.compilers = s.compilers) (hv : s1.vm = s.vm) : ChainKept d s s1 := by
  unfold ChainKept
  rw [hc, hv]
  exact ChainKept.chain_refl d s

/-- Two compilers of a proper chain at different positions have different functions. -/
theorem CompilersProper.function_ne {s : CompileState} (h : CompilersProper s) {k j : Nat}
    {c e : Compiler} (hk : s.compilers[k]? = some c) (hj : s.compilers[j]? = some e)
    (hne : k ≠ j) : e.function ≠ c.function := by
  intro heq
  have hkl : k < s.compilers.length := by
    by_contra hh
    rw [List.getElem?_eq_none (by omega)] at hk
    cases hk
  have hjl : j < s.compilers.length := by
    by_contra hh
    rw [List.getElem?_eq_none (by omega)] at hj
    cases hj
  rw [List.getElem?_eq_getElem hkl] at hk
  rw [List.getElem?_eq_getElem hjl] at hj
  have hkm : k < (s.compilers.map (fun c => c.function)).length := by simpa using hkl
  have hjm : j < (s.compilers.map (fun c => c.function)).length := by simpa using hjl
  have hk' : (s.compilers.map (fun c => c.function))[k] = c.function := by
    simp [Option.some.inj hk]
  have hj' : (s.compilers.map (fun c => c.function))[j] = e.function := by
    simp [Option.some.inj hj]
  have := (List.Nodup.getElem_inj_iff h.1).mp (hk'.trans (heq.symm.trans hj'.symm))
  exact hne this

/-- A store of a compiler with the same function and upvalue array keeps the chain
proper. -/
theorem CompilersProper.proper_set {s : CompileState} (h : CompilersProper s) {j : Nat}
    {e e1 : Compiler} (hj : s.compilers[j]? = some e) (hf : e1.function = e.function)
    (hu : e1.upvalues = e.upvalues) :
    CompilersProper { s with compilers := s.compilers.set j e1 } := by
  have hjl : j < s.compilers.length := by
    by_contra hh
    rw [List.getElem?_eq_none (by omega)] at hj
    cases hj
  constructor
  · show ((s.compilers.set j e1).map (fun c => c.function)).Nodup
    have : (s.compilers.set j e1).map (fun c => c.function) =
        s.compilers.map (fun c => c.function) := by
      rw [List.map_set]
      apply List.ext_getElem?
      intro k
      by_cases hkj : j = k
      · subst hkj
        rw [List.getElem?_set_self (by simpa using hjl), List.getElem?_map, hj, hf]
        rfl
      · rw [List.getElem?_set_ne hkj]
    rw [this]
    exact h.1
  · intro k c hk
    have hk' : (s.compilers.set j e1)[k]? = some c := hk
    by_cases hkj : j = k
    · subst hkj
      rw [List.getElem?_set_self hjl] at hk'
      cases hk'
      obtain ⟨o, f, h1, h2, h3⟩ := h.2 j e hj
      exact ⟨o, f, by rw [hf]; exact h1, h2, by rw [hu]; exact h3⟩
    · rw [List.getElem?_set_ne hkj] at hk'
      exact h.2 k c hk'

theorem ChainKept.kept_set {s : CompileState} {j d : Nat} {e e1 : Compiler}
    (hj : s.compilers[j]? = some e) (hf : e1.function = e.function) (hd : d ≤ j) :
    ChainKept d s { s with compilers := s.compilers.set j e1 } := by
  have hjl : j < s.compilers.length := by
    by_contra hh
    rw [List.getElem?_eq_none (by omega)] at hj
    cases hj
  refine ⟨List.length_set _ _ _, ?_, ?_, fun _ _ => rfl⟩
  · intro k hk
    show (s.compilers.set j e1)[k]? = _
    rw [List.getElem?_set_ne (by omega)]
  · intro k c hk
    show ∃ c1, (s.compilers.set j e1)[k]? = some c1 ∧ _
    by_cases hkj : j = k
    · subst hkj
      rw [hj] at hk
      cases hk
      exact ⟨e1, List.getElem?_set_self hjl, hf⟩
    · exact ⟨c, by rw [List.getElem?_set_ne hkj]; exact hk, rfl⟩

/-- addUpvalue on the compiler at position `d` of a proper chain: it returns an index that
is not negative; unless the function counts 256 upvalues and none is the pair, the entry at
that index is live and is the pair; the chain stays proper, and only the compiler at `d` and
its function change. -/
theorem addUpvalue_spec (s : CompileState) (d : Nat) (c : Compiler) (o : Obj)
    (f : ObjFunction) (index : Nat) (isLocal : Bool) (hp : CompilersProper s)
    (hd : s.compilers[d]? = some c)
    (hg : heapGet s.vm.heap c.function = some o) (hdata : o.data = .function f) :
    ∃ r s1, addUpvalue s d index isLocal = some (r, s1) ∧ 0 ≤ r ∧
      CompilersProper s1 ∧ ChainKept d s s1 ∧
      (∀ k, k ≠ d → s1.compilers[k]? = s.compilers[k]?) ∧
      ((f.upvalueCount = BYTE_HEIGHT ∧ r = 0 ∧
          s1 = error s "Too many closure variables in function.") ∨
        UpvalueAt s1 d r index isLocal) := by
  have hfo : functionOf s c = some (o, f) := by simp [functionOf, hg, hdata]
  obtain ⟨o', f', hg', hd', hlen⟩ := hp.2 d c hd
  rw [hg] at hg'
  cases hg'
  rw [hdata] at hd'
  cases hd'
  have hdl : d < s.compilers.length := by
    by_contra hh
    rw [List.getElem?_eq_none (by omega)] at hd
    cases hd
  have htl : (c.upvalues.take f.upvalueCount).length = f.upvalueCount := by
    rw [List.length_take]; omega
  cases hfind : findUpvalue (c.upvalues.take f.upvalueCount) index isLocal with
  | some i =>
    have hi : i < f.upvalueCount ∧
        c.upvalues[i]? = some { index := index, isLocal := isLocal } := by
      unfold findUpvalue at hfind
      simp only at hfind
      split at hfind
      · rename_i hlt
        cases hfind
        have hpi := List.findIdx_getElem (w := hlt)
        simp only [decide_eq_true_eq] at hpi
        have hlt' := hlt
        rw [htl] at hlt'
        refine ⟨hlt', ?_⟩
        rw [← List.getElem?_take_of_lt hlt', List.getElem?_eq_getElem hlt]
        exact congrArg some ((upvalue_eq_iff _ _ _).mp hpi)
      · cases hfind
    refine ⟨(i : Int), s, ?_, by omega, hp, ChainKept.chain_refl d s, fun _ _ => rfl,
      Or.inr ⟨by omega, c, o, f, hd, hg, hdata, by simpa using hi.1, by simpa using hi.2⟩⟩
    simp only [addUpvalue, hd, hfo, Option.bind_eq_bind, Option.some_bind, hfind]
  | none =>
    by_cases hfull : f.upvalueCount = BYTE_HEIGHT
    · refine ⟨0, error s "Too many closure variables in function.", ?_, le_refl _,
        hp.proper_of_same (error_fields s _).1 (error_fields s _).2.1,
        ChainKept.kept_of_same (error_fields s _).1 (error_fields s _).2.1,
        fun _ _ => by rw [(error_fields s _).1], Or.inl ⟨hfull, rfl, rfl⟩⟩
      simp only [addUpvalue, hd, hfo, Option.bind_eq_bind, Option.some_bind, hfind,
        if_pos hfull]
    · let c1 : Compiler :=
        { c with
          upvalues := c.upvalues.take f.upvalueCount ++ [{ index := index, isLocal := isLocal }] }
      let o1 : Obj := { o with data := .function { f with upvalueCount := f.upvalueCount + 1 } }
      let s1 : CompileState :=
        { s with
          compilers := s.compilers.set d c1
          vm := { s.vm with heap := s.vm.heap.set c.function (some o1) } }
      have hg1 : heapGet s1.vm.heap c.function = some o1 := heapGet_set_self _ (heapGet_lt hg)
      have hne1 : ∀ q, q ≠ c.function → heapGet s1.vm.heap q = heapGet s.vm.heap q :=
        fun q hq => heapGet_set_ne _ (fun e => hq e.symm)
      have hcd : s1.compilers[d]? = some c1 := List.getElem?_set_self hdl
      have hck : ∀ k, k ≠ d → s1.compilers[k]? = s.compilers[k]? :=
        fun k hk => List.getElem?_set_ne (fun e => hk e.symm)
      have hentry : c1.upvalues[f.upvalueCount]? = some { index := index, isLocal := isLocal } := by
        show (c.upvalues.take f.upvalueCount ++ [_])[f.upvalueCount]? = _
        rw [List.getElem?_append_right (by omega), htl]
        simp
      have hprop1 : CompilersProper s1 := by
        constructor
        · have hmid := (hp.proper_set hd (show c1.function = c.function from rfl)
            (show c.upvalues = c.upvalues from rfl) : CompilersProper
              { s with compilers := s.compilers.set d { c1 with upvalues := c.upvalues } }).1
          have hmap : s1.compilers.map (fun c => c.function) =
              (s.compilers.set d { c1 with upvalues := c.upvalues }).map
                (fun c => c.function) := by
            show (s.compilers.set d c1).map _ = _
            rw [List.map_set, List.map_set]
          rw [hmap]
          exact hmid
        · intro k x hk
          by_cases hkd : k = d
          · subst hkd
            rw [hcd] at hk
            cases hk
            refine ⟨o1, _, hg1, rfl, ?_⟩
            show f.upvalueCount + 1 ≤ (c.upvalues.take f.upvalueCount ++ [_]).length
            rw [List.length_append, htl]
            simp
          · rw [hck k hkd] at hk
            obtain ⟨ox, fx, h1, h2, h3⟩ := hp.2 k x hk
            refine ⟨ox, fx, ?_, h2, h3⟩
            rw [hne1 _ (hp.function_ne hd hk (fun e => hkd e.symm))]
            exact h1
      have hkept : ChainKept d s s1 := by
        refine ⟨List.length_set _ _ _, fun k hk => hck k (by omega), ?_, ?_⟩
        · intro k x hk
          by_cases hkd : k = d
          · subst hkd
            rw [hd] at hk
            cases hk
            exact ⟨c1, hcd, rfl⟩
          · exact ⟨x, by rw [hck k hkd]; exact hk, rfl⟩
        · intro q hq
          exact hne1 q (fun e => hq d c (le_refl _) hd e.symm)
      refine ⟨(f.upvalueCount : Int), s1, ?_, by omega, hprop1, hkept, hck,
        Or.inr ⟨by omega, c1, o1, _, hcd, hg1, rfl, ?_, ?_⟩⟩
      · simp only [addUpvalue, hd, hfo, Option.bind_eq_bind, Option.some_bind, hfind,
          if_neg hfull]
      · show (f.upvalueCount : Int).toNat < f.upvalueCount + 1
        simp
      · simpa using hentry

/-! ## resolveUpvalue on a proper chain -/

theorem getElem?_lt {α : Type} {l : List α} {k : Nat} {x : α} (h : l[k]? = some x) :
    k < l.length := by
  by_contra hh
  rw [List.getElem?_eq_none (by omega)] at h
  cases h

/-- The branch of resolveUpvalue for a name that is a local of the enclosing compiler. -/
theorem resolveUpvalue_local {n : Nat} {s s1 : CompileState} {d : Nat} {name : List Nat}
    {enclosing : Compiler} {i : Int} (henc : s.compilers[d + 1]? = some enclosing)
    (hrl : resolveLocal s enclosing name = (i, s1)) (hi : i ≠ -1) :
    resolveUpvalue (n + 1) s d name =
      addUpvalue
        { s1 with
          compilers := s1.compilers.set (d + 1)
            { enclosing with
              locals := enclosing.locals.modify (fun l => { l with isCaptured := true })
                i.toNat } }
        d (i.toNat % 256) true := by
  simp only [resolveUpvalue, henc, hrl, ne_eq, hi, not_false_eq_true, if_true]

/-- The branch of resolveUpvalue for a name that is no local of the enclosing compiler. -/
theorem resolveUpvalue_outer {n : Nat} {s s1 s2 : CompileState} {d : Nat} {name : List Nat}
    {enclosing : Compiler} {u : Int} (henc : s.compilers[d + 1]? = some enclosing)
    (hrl : resolveLocal s enclosing name = (-1, s1))
    (h2 : resolveUpvalue n s1 (d + 1) name = some (u, s2)) :
    resolveUpvalue (n + 1) s d name =
      if u ≠ -1 then addUpvalue s2 d (u.toNat % 256) false else some (-1, s2) := by
  simp only [resolveUpvalue, henc, hrl, h2, ne_eq, not_true_eq_false, if_false]

/-- The state resolveLocal and the capture flag leave for addUpvalue. -/
theorem capture_state {s : CompileState} {d : Nat} {c enclosing : Compiler}
    (hp : CompilersProper s) (hd : s.compilers[d]? = some c)
    (henc : s.compilers[d + 1]? = some enclosing) (s1 : CompileState)
    (hc1 : s1.compilers = s.compilers) (hv1 : s1.vm = s.vm) (i : Nat) :
    CompilersProper
        { s1 with
          compilers := s1.compilers.set (d + 1)
            { enclosing with
              locals := enclosing.locals.modify (fun l => { l with isCaptured := true }) i } } ∧
      ChainKept d s
        { s1 with
          compilers := s1.compilers.set (d + 1)
            { enclosing with
              locals := enclosing.locals.modify (fun l => { l with isCaptured := true }) i } } ∧
      ({ s1 with
          compilers := s1.compilers.set (d + 1)
            { enclosing with
              locals := enclosing.locals.modify (fun l => { l with isCaptured := true })
                i } } : CompileState).compilers[d]? = some c := by
  have hp1 : CompilersProper s1 := hp.proper_of_same hc1 hv1
  have henc1 : s1.compilers[d + 1]? = some enclosing := by rw [hc1]; exact henc
  refine ⟨hp1.proper_set henc1 rfl rfl, ?_, ?_⟩
  · exact (ChainKept.kept_of_same hc1 hv1).chain_trans
      (ChainKept.kept_set henc1 rfl (Nat.le_succ d))
  · show (s1.compilers.set (d + 1) _)[d]? = some c
    rw [List.getElem?_set_ne (by omega), hc1]
    exact hd

/-- resolveUpvalue on the compiler at position `d` of a proper chain, with fuel for the
compilers that enclose it: it returns; the result is -1 exactly when no compiler that
strictly encloses it has a local with the name; the chain stays proper. -/
theorem resolveUpvalue_spec (name : List Nat) :
    ∀ (n : Nat) (s : CompileState) (d : Nat) (c : Compiler), CompilersProper s →
      s.compilers.length ≤ d + 1 + n → s.compilers[d]? = some c →
      ∃ r s1, resolveUpvalue n s d name = some (r, s1) ∧ CompilersProper s1 ∧
        ChainKept d s s1 ∧ -1 ≤ r ∧
        (r = -1 ↔ ∀ (k : Nat) (e : Compiler), d < k → s.compilers[k]? = some e →
          ∀ l ∈ e.locals, l.name ≠ name) := by
  intro n
  induction n with
  | zero =>
    intro s d c hp hlen _
    refine ⟨-1, s, rfl, hp, ChainKept.chain_refl d s, le_refl _, fun _ => ?_, fun _ => rfl⟩
    intro k e hk he
    have := getElem?_lt he
    omega
  | succ n ih =>
    intro s d c hp hlen hd
    cases henc : s.compilers[d + 1]? with
    | none =>
      have hlen' : s.compilers.length ≤ d + 1 := by
        by_contra h
        rw [List.getElem?_eq_getElem (by omega)] at henc
        cases henc
      refine ⟨-1, s, ?_, hp, ChainKept.chain_refl d s, le_refl _, fun _ => ?_, fun _ => rfl⟩
      · simp only [resolveUpvalue, henc]
      · intro k e hk he
        have := getElem?_lt he
        omega
    | some enclosing =>
      obtain ⟨hnone, hsome⟩ := resolveLocal_spec s enclosing name
      by_cases hex : ∃ l ∈ enclosing.locals, l.name = name
      · obtain ⟨i, loc, h1, _, _, _, h5⟩ := hsome hex
        have hrl : resolveLocal s enclosing name = ((i : Int), (resolveLocal s enclosing name).2) :=
          Prod.ext h1 rfl
        have hs1 : (resolveLocal s enclosing name).2.compilers = s.compilers ∧
            (resolveLocal s enclosing name).2.vm = s.vm := by
          rw [h5]
          split
          · exact ⟨(error_fields s _).1, (error_fields s _).2.1⟩
          · exact ⟨rfl, rfl⟩
        obtain ⟨hp2, hk2, hd2⟩ := capture_state hp hd henc _ hs1.1 hs1.2 i
        obtain ⟨o, f, hg, hdata, _⟩ := hp2.2 d c hd2
        obtain ⟨r, s3, h3, hr, hp3, hk3, _, _⟩ :=
          addUpvalue_spec _ d c o f (i % 256) true hp2 hd2 hg hdata
        refine ⟨r, s3, ?_, hp3, hk2.chain_trans hk3, by omega, fun hneg => ?_, fun hno => ?_⟩
        · rw [resolveUpvalue_local henc hrl (by omega)]
          simpa using h3
        · omega
        · obtain ⟨l, hl, hn⟩ := hex
          exact absurd hn (hno (d + 1) enclosing (Nat.lt_succ_self d) henc l hl)
      · have hno : ∀ l ∈ enclosing.locals, l.name ≠ name :=
          fun l hl hn => hex ⟨l, hl, hn⟩
        have hrl := hnone hno
        obtain ⟨u, s2, h2, hp2, hk2, hu, hiff⟩ :=
          ih s (d + 1) enclosing hp (by omega) henc
        have hd2 : s2.compilers[d]? = some c := by rw [hk2.2.1 d (Nat.lt_succ_self d)]; exact hd
        have hall : (∀ (k : Nat) (e : Compiler), d < k → s.compilers[k]? = some e →
            ∀ l ∈ e.locals, l.name ≠ name) ↔
            ∀ (k : Nat) (e : Compiler), d + 1 < k → s.compilers[k]? = some e →
              ∀ l ∈ e.locals, l.name ≠ name := by
          constructor
          · intro h k e hk he
            exact h k e (by omega) he
          · intro h k e hk he
            by_cases hk1 : k = d + 1
            · subst hk1
              rw [henc] at he
              cases he
              exact hno
            · exact h k e (by omega) he
        by_cases hu1 : u = -1
        · refine ⟨-1, s2, ?_, hp2, hk2.mono (Nat.le_succ d), le_refl _, fun _ => ?_,
            fun _ => rfl⟩
          · rw [resolveUpvalue_outer henc hrl h2]
            simp only [hu1, ne_eq, not_true_eq_false, if_false]
          · rw [hall]
            exact hiff.mp hu1
        · obtain ⟨o, f, hg, hdata, _⟩ := hp2.2 d c hd2
          obtain ⟨r, s3, h3, hr, hp3, hk3, _, _⟩ :=
            addUpvalue_spec s2 d c o f (u.toNat % 256) false hp2 hd2 hg hdata
          refine ⟨r, s3, ?_, hp3, (hk2.mono (Nat.le_succ d)).chain_trans hk3, by omega,
            fun hneg => ?_, fun hno' => ?_⟩
          · rw [resolveUpvalue_outer henc hrl h2]
            simp only [ne_eq, hu1, not_false_eq_true, if_true]
            exact h3
          · omega
          · exact absurd (hiff.mpr (hall.mp hno')) hu1

/-! ## Number literals and binary operators -/

theorem currentChunk_some {s : CompileState} {ch : Chunk} (h : currentChunk s = some ch) :
    ∃ e rest o f, s.compilers = e :: rest ∧ heapGet s.vm.heap e.function = some o ∧
      o.data = .function f ∧ f.chunk = ch := by
  unfold currentChunk at h
  cases hc : s.compilers with
  | nil => rw [hc] at h; cases h
  | cons e rest =>
    rw [hc] at h
    simp only [functionOf] at h
    cases hg : heapGet s.vm.heap e.function with
    | none => rw [hg] at h; cases h
    | some o =>
      rw [hg] at h
      cases hd : o.data <;> simp only [hd, reduceCtorEq] at h
      rename_i f
      refine ⟨e, rest, o, f, rfl, hg, hd, ?_⟩
      simpa using h

theorem currentChunk_of {s : CompileState} {e : Compiler} {rest : List Compiler} {o : Obj}
    {f : ObjFunction} (hc : s.compilers = e :: rest)
    (hg : heapGet s.vm.heap e.function = some o) (hd : o.data = .function f) :
    currentChunk s = some f.chunk := by
  simp only [currentChunk, hc, functionOf_of hg hd]

/-- The function emitByte in terms of currentChunk. -/
theorem emitByte_chunk (s : CompileState) (ch : Chunk) (b : Nat)
    (h : currentChunk s = some ch) :
    ∃ s1 ch1, emitByte s b = some s1 ∧ s1.parser = s.parser ∧ s1.errors = s.errors ∧
      currentChunk s1 = some ch1 ∧ ch1.code = ch.code ++ [b % 256] ∧
      ch1.constants = ch.constants := by
  obtain ⟨e, rest, o, f, hc, hg, hd, hf⟩ := currentChunk_some h
  obtain ⟨s1, o1, f1, h1, hc1, hp1, he1, hg1, hd1, hcode, hconst, _, _⟩ :=
    emitByte_spec s e rest o f b hc hg hd
  refine ⟨s1, f1.chunk, h1, hp1, he1, currentChunk_of (hc1.trans hc) hg1 hd1, ?_, ?_⟩
  · rw [hcode, hf]
  · rw [hconst, hf]

/-- The function emitConstant while the constants fit. -/
theorem emitConstant_chunk (s : CompileState) (ch : Chunk) (v : Value)
    (h : currentChunk s = some ch) (hk : ch.constants.length ≤ 255) :
    ∃ s1 ch1, emitConstant s v = some s1 ∧ s1.parser = s.parser ∧ s1.errors = s.errors ∧
      currentChunk s1 = some ch1 ∧
      ch1.code = ch.code ++ [OpCode.OP_CONSTANT.toByte, ch.constants.length] ∧
      ch1.constants = ch.constants ++ [v] := by
  obtain ⟨e, rest, o, f, hc, hg, hd, hf⟩ := currentChunk_some h
  obtain ⟨s1, o1, f1, h1, hc1, hg1, hd1, hcode1, hconst1, _, _, hsmall, _⟩ :=
    makeConstant_full s e rest o f v hc hg hd
  have hnot : ¬ f.chunk.constants.length > BYTE_MAX := by
    rw [hf]; unfold BYTE_MAX; omega
  rw [if_neg hnot] at h1
  obtain ⟨hp1, he1⟩ := hsmall hnot
  have hch1 : currentChunk s1 = some f1.chunk := currentChunk_of (hc1.trans hc) hg1 hd1
  obtain ⟨s2, ch2, h2, hp2, he2, hch2, hcode2, hconst2⟩ :=
    emitByte_chunk s1 f1.chunk OpCode.OP_CONSTANT.toByte hch1
  obtain ⟨s3, ch3, h3, hp3, he3, hch3, hcode3, hconst3⟩ :=
    emitByte_chunk s2 ch2 f.chunk.constants.length hch2
  have hmod : f.chunk.constants.length % 256 = f.chunk.constants.length := by
    apply Nat.mod_eq_of_lt
    rw [hf]; omega
  refine ⟨s3, ch3, ?_, hp3.trans (hp2.trans hp1), he3.trans (he2.trans he1), hch3, ?_, ?_⟩
  · simp only [emitConstant, emitBytes, h1, h2, h3, Option.bind_eq_bind, Option.some_bind]
  · rw [hcode3, hcode2, hcode1, hmod, toByte_mod, hf]
    simp
  · rw [hconst3, hconst2, hconst1, hf]

/-- The loop of parsePrecedence stops at a token that binds less. -/
theorem infixLoop_stop (run : ParseFn → Bool → CompileState → Option CompileState)
    (p : Precedence) (ca : Bool) (n : Nat) (s : CompileState)
    (h : (getRule s.parser.current.type).precedence < p) :
    infixLoop run p ca n s = some s := by
  have h' : ¬ p ≤ (getRule s.parser.current.type).precedence := Nat.not_le.mpr h
  cases n <;> simp only [infixLoop, if_neg h']

/-- One turn of the loop of parsePrecedence. -/
theorem infixLoop_turn (run : ParseFn → Bool → CompileState → Option CompileState)
    (p : Precedence) (ca : Bool) (n : Nat) (s s2 : CompileState) (fn : ParseFn)
    (h : p ≤ (getRule s.parser.current.type).precedence)
    (hfn : (getRule (advance s).parser.previous.type).infixRule = some fn)
    (hrun : run fn ca (advance s) = some s2) :
    infixLoop run p ca (n + 1) s = infixLoop run p ca n s2 := by
  simp only [infixLoop, if_pos h, hfn, hrun]

/-- The function parsePrecedence at a number literal. -/
theorem parsePrecedence_number (H : Host) (F : Nat) (p : Precedence) (s s2 s3 : CompileState)
    (hnum : s.parser.current.type = .TOKEN_NUMBER)
    (h2 : emitConstant (advance s) (.number (H.strtod s.parser.current.lexeme)) = some s2)
    (h3 : infixLoop (runParseFn H (fun q t => parsePrecedence H F q t) F) p
      (decide (p ≤ PREC_ASSIGNMENT)) F s2 = some s3)
    (h4 : s3.parser.current.type ≠ .TOKEN_EQUAL) :
    parsePrecedence H (F + 1) p s = some s3 := by
  have hprev := (advance_fields s).2.2.2
  have hm : (matchToken s3 .TOKEN_EQUAL).1 = false := by
    cases hb : (matchToken s3 .TOKEN_EQUAL).1 with
    | false => rfl
    | true => exact absurd ((matchToken_fields s3 .TOKEN_EQUAL).2.2.1.mp hb) h4
  have hrun : runParseFn H (fun q t => parsePrecedence H F q t) F .number
      (decide (p ≤ PREC_ASSIGNMENT)) (advance s) = some s2 := by
    simp only [runParseFn, hprev, h2]
  simp only [parsePrecedence, hprev, hnum, getRule, hrun, h3, hm, Bool.false_eq_true, and_false,
    if_false]

/-- The function `binary` for `+` and `*`, from what its operand and its instruction do. -/
theorem runParseFn_binary (H : Host) (pp : Precedence → CompileState → Option CompileState)
    (F : Nat) (ca : Bool) (s s1 s2 : CompileState)
    (hop : s.parser.previous.type = .TOKEN_PLUS ∨ s.parser.previous.type = .TOKEN_STAR)
    (h1 : pp ((getRule s.parser.previous.type).precedence + 1) s = some s1)
    (h2 : emitByte s1 (if s.parser.previous.type = .TOKEN_PLUS then OpCode.OP_ADD.toByte
      else OpCode.OP_MULTIPLY.toByte) = some s2) :
    runParseFn H pp F .binary ca s = some s2 := by
  rcases hop with hop | hop
  · rw [hop] at h1 h2
    simp only [runParseFn, hop, h1, Option.bind_eq_bind, Option.some_bind]
    simpa using h2
  · rw [hop] at h1 h2
    simp only [runParseFn, hop, h1, Option.bind_eq_bind, Option.some_bind]
    simpa using h2

/-! ## Operands and operators of arithmetic expressions -/

/-- The rules of `+` and `*`. -/
theorem arithmetic_rule {ty : TokenType} (h : ty = .TOKEN_PLUS ∨ ty = .TOKEN_STAR) :
    ty ≠ .TOKEN_ERROR ∧ ty ≠ .TOKEN_EQUAL ∧ (getRule ty).infixRule = some .binary ∧
    PREC_ASSIGNMENT ≤ (getRule ty).precedence := by
  rcases h with h | h <;> subst h <;> exact ⟨by decide, by decide, rfl, by decide⟩

/-- The function advance does not touch the chunk. -/
theorem currentChunk_advance (s : CompileState) : currentChunk (advance s) = currentChunk s := by
  unfold currentChunk functionOf
  rw [(advance_fields s).1, (advance_fields s).2.1]

/-- A number literal followed by a token that binds less than `p`. -/
theorem parsePrecedence_operand (H : Host) (F : Nat) (p : Precedence) (s : CompileState)
    (ch : Chunk) (t : Token) (src : List Token)
    (hch : currentChunk s = some ch) (hk : ch.constants.length ≤ 255)
    (hnum : s.parser.current.type = .TOKEN_NUMBER)
    (hsrc : s.parser.source = t :: src) (ht : t.type ≠ .TOKEN_ERROR)
    (hp : (getRule t.type).precedence < p) (heq : t.type ≠ .TOKEN_EQUAL) :
    ∃ s1 ch1, parsePrecedence H (F + 1) p s = some s1 ∧
      s1.parser = { s.parser with previous := s.parser.current, current := t, source := src } ∧
      s1.errors = s.errors ∧ currentChunk s1 = some ch1 ∧
      ch1.code = ch.code ++ [OpCode.OP_CONSTANT.toByte, ch.constants.length] ∧
      ch1.constants = ch.constants ++ [.number (H.strtod s.parser.current.lexeme)] := by
  have hadv := advance_cons s t src hsrc ht
  have hchA : currentChunk (advance s) = some ch := (currentChunk_advance s).trans hch
  obtain ⟨s2, ch2, h2, hp2, he2, hch2, hcode2, hconst2⟩ :=
    emitConstant_chunk (advance s) ch (.number (H.strtod s.parser.current.lexeme)) hchA hk
  have hpar : s2.parser =
      { s.parser with previous := s.parser.current, current := t, source := src } := by
    rw [hp2, hadv]
  have hcur : s2.parser.current = t := by rw [hpar]
  have h3 := infixLoop_stop (runParseFn H (fun q t => parsePrecedence H F q t) F) p
    (decide (p ≤ PREC_ASSIGNMENT)) F s2 (by rw [hcur]; exact hp)
  refine ⟨s2, ch2, parsePrecedence_number H F p s s2 s2 hnum h2 h3 (by rw [hcur]; exact heq),
    hpar, ?_, hch2, hcode2, hconst2⟩
  rw [he2, hadv]

/-- The operator `+` or `*` in the loop of parsePrecedence, followed by a number literal and
a token that binds no tighter than the operator. -/
theorem infixLoop_operator (H : Host) (F n : Nat) (p : Precedence) (ca : Bool)
    (s : CompileState) (ch : Chunk) (m t : Token) (src : List Token)
    (hch : currentChunk s = some ch) (hk : ch.constants.length ≤ 255)
    (hop : s.parser.current.type = .TOKEN_PLUS ∨ s.parser.current.type = .TOKEN_STAR)
    (hsrc : s.parser.source = m :: t :: src) (hm : m.type = .TOKEN_NUMBER)
    (ht : t.type ≠ .TOKEN_ERROR) (hle : p ≤ (getRule s.parser.current.type).precedence)
    (hp : (getRule t.type).precedence ≤ (getRule s.parser.current.type).precedence)
    (heq : t.type ≠ .TOKEN_EQUAL) :
    ∃ s1 ch1, infixLoop (runParseFn H (fun q t => parsePrecedence H (F + 1) q t) (F + 1)) p ca
        (n + 1) s =
        infixLoop (runParseFn H (fun q t => parsePrecedence H (F + 1) q t) (F + 1)) p ca n s1 ∧
      s1.parser = { s.parser with previous := m, current := t, source := src } ∧
      s1.errors = s.errors ∧ currentChunk s1 = some ch1 ∧
      ch1.code = ch.code ++ [OpCode.OP_CONSTANT.toByte, ch.constants.length,
        if s.parser.current.type = .TOKEN_PLUS then OpCode.OP_ADD.toByte
        else OpCode.OP_MULTIPLY.toByte] ∧
      ch1.constants = ch.constants ++ [.number (H.strtod m.lexeme)] := by
  have hmE : m.type ≠ .TOKEN_ERROR := by rw [hm]; decide
  have hadv := advance_cons s m (t :: src) hsrc hmE
  have hprev : (advance s).parser.previous = s.parser.current := (advance_fields s).2.2.2
  have hchA : currentChunk (advance s) = some ch := (currentChunk_advance s).trans hch
  have hcurA : (advance s).parser.current = m := by rw [hadv]
  have hsrcA : (advance s).parser.source = t :: src := by rw [hadv]
  obtain ⟨s1, ch1, h1, hp1, he1, hch1, hcode1, hconst1⟩ :=
    parsePrecedence_operand H F ((getRule s.parser.current.type).precedence + 1) (advance s) ch t
      src hchA hk (by rw [hcurA]; exact hm) hsrcA ht (Nat.lt_succ_of_le hp) heq
  obtain ⟨s2, ch2, h2, hp2, he2, hch2, hcode2, hconst2⟩ :=
    emitByte_chunk s1 ch1 (if s.parser.current.type = .TOKEN_PLUS then OpCode.OP_ADD.toByte
      else OpCode.OP_MULTIPLY.toByte) hch1
  have hrun : runParseFn H (fun q t => parsePrecedence H (F + 1) q t) (F + 1) .binary ca
      (advance s) = some s2 := by
    apply runParseFn_binary H _ (F + 1) ca (advance s) s1 s2
    · rw [hprev]; exact hop
    · rw [hprev]; exact h1
    · rw [hprev]; exact h2
  have hturn := infixLoop_turn (runParseFn H (fun q t => parsePrecedence H (F + 1) q t) (F + 1))
    p ca n s s2 .binary hle (by rw [hprev]; exact (arithmetic_rule hop).2.2.1) hrun
  refine ⟨s2, ch2, hturn, ?_, ?_, hch2, ?_, ?_⟩
  · rw [hp2, hp1, hadv]
  · rw [he2, he1, hadv]
  · rw [hcode2, hcode1]
    have : (if s.parser.current.type = .TOKEN_PLUS then OpCode.OP_ADD.toByte
        else OpCode.OP_MULTIPLY.toByte) % 256 =
        (if s.parser.current.type = .TOKEN_PLUS then OpCode.OP_ADD.toByte
        else OpCode.OP_MULTIPLY.toByte) := by
      split <;> exact toByte_mod _
    rw [this]
    simp
  · rw [hconst2, hconst1, hcurA]

/-- An expression `a op1 b op2 c` of number literals where `op2` binds tighter than `op1`:
the operands, then the instruction of `op2`, then that of `op1`. -/
theorem parsePrecedence_tighter (H : Host) (F : Nat) (s : CompileState) (ch : Chunk)
    (op1 b op2 c t : Token) (src : List Token)
    (hch : currentChunk s = some ch) (hk : ch.constants.length + 3 ≤ 256)
    (hnum : s.parser.current.type = .TOKEN_NUMBER)
    (hsrc : s.parser.source = op1 :: b :: op2 :: c :: t :: src)
    (hop1 : op1.type = .TOKEN_PLUS ∨ op1.type = .TOKEN_STAR)
    (hop2 : op2.type = .TOKEN_PLUS ∨ op2.type = .TOKEN_STAR)
    (hb : b.type = .TOKEN_NUMBER) (hc : c.type = .TOKEN_NUMBER)
    (ht : t.type ≠ .TOKEN_ERROR) (hp : (getRule t.type).precedence = PREC_NONE)
    (heq : t.type ≠ .TOKEN_EQUAL)
    (hlt : (getRule op1.type).precedence < (getRule op2.type).precedence) :
    ∃ s1 ch1, parsePrecedence H (F + 3) PREC_ASSIGNMENT s = some s1 ∧
      s1.parser = { s.parser with previous := c, current := t, source := src } ∧
      s1.errors = s.errors ∧ currentChunk s1 = some ch1 ∧
      ch1.code = ch.code ++ [OpCode.OP_CONSTANT.toByte, ch.constants.length,
        OpCode.OP_CONSTANT.toByte, ch.constants.length + 1,
        OpCode.OP_CONSTANT.toByte, ch.constants.length + 2,
        (if op2.type = .TOKEN_PLUS then OpCode.OP_ADD.toByte else OpCode.OP_MULTIPLY.toByte),
        (if op1.type = .TOKEN_PLUS then OpCode.OP_ADD.toByte else OpCode.OP_MULTIPLY.toByte)] ∧
      ch1.constants = ch.constants ++ [.number (H.strtod s.parser.current.lexeme),
        .number (H.strtod b.lexeme), .number (H.strtod c.lexeme)] := by
  have hbE : b.type ≠ .TOKEN_ERROR := by rw [hb]; decide
  -- the literal `a`
  have hadv := advance_cons s op1 (b :: op2 :: c :: t :: src) hsrc (arithmetic_rule hop1).1
  have hchA : currentChunk (advance s) = some ch := (currentChunk_advance s).trans hch
  obtain ⟨s2, ch2, h2, hp2, he2, hch2, hcode2, hconst2⟩ :=
    emitConstant_chunk (advance s) ch (.number (H.strtod s.parser.current.lexeme)) hchA
      (by omega)
  have hpar2 : s2.parser =
      { s.parser with
        previous := s.parser.current, current := op1,
        source := b :: op2 :: c :: t :: src } := by rw [hp2, hadv]
  have hcur2 : s2.parser.current = op1 := by rw [hpar2]
  -- the operator `op1`, whose right operand is `b op2 c`
  have hadv2 := advance_cons s2 b (op2 :: c :: t :: src) (by rw [hpar2]) hbE
  have hprev2 : (advance s2).parser.previous = op1 := (advance_fields s2).2.2.2.trans hcur2
  have hch2A : currentChunk (advance s2) = some ch2 := (currentChunk_advance s2).trans hch2
  have hlen2 : ch2.constants.length = ch.constants.length + 1 := by rw [hconst2]; simp
  -- the literal `b`
  have hadv3 := advance_cons (advance s2) op2 (c :: t :: src) (by rw [hadv2])
    (arithmetic_rule hop2).1
  have hch3A : currentChunk (advance (advance s2)) = some ch2 :=
    (currentChunk_advance _).trans hch2A
  have hcurA2 : (advance s2).parser.current = b := by rw [hadv2]
  obtain ⟨s3, ch3, h3, hp3, he3, hch3, hcode3, hconst3⟩ :=
    emitConstant_chunk (advance (advance s2)) ch2 (.number (H.strtod b.lexeme)) hch3A
      (by omega)
  have hpar3 : s3.parser =
      { s.parser with previous := b, current := op2, source := c :: t :: src } := by
    rw [hp3, hadv3, hadv2, hpar2]
  have hlen3 : ch3.constants.length = ch.constants.length + 2 := by
    rw [hconst3, List.length_append, hlen2]; rfl
  -- the operator `op2` with the operand `c`
  obtain ⟨s4, ch4, h4, hp4, he4, hch4, hcode4, hconst4⟩ :=
    infixLoop_operator H F F ((getRule op1.type).precedence + 1) false s3 ch3 c t src hch3
      (by omega) (by rw [hpar3]; exact hop2) (by rw [hpar3]) hc ht
      (by rw [hpar3]; exact hlt) (by rw [hp]; exact Nat.zero_le _) heq
  have hcur4 : s4.parser.current = t := by rw [hp4]
  have hstop4 := infixLoop_stop (runParseFn H (fun q t => parsePrecedence H (F + 1) q t) (F + 1))
    ((getRule op1.type).precedence + 1) false F s4
    (by rw [hcur4, hp]; exact Nat.succ_pos _)
  have hfalse : decide ((getRule op1.type).precedence + 1 ≤ PREC_ASSIGNMENT) = false := by
    have h1 := (arithmetic_rule hop1).2.2.2
    simp only [decide_eq_false_iff_not, not_le]
    exact Nat.lt_succ_of_le h1
  have hrhs : parsePrecedence H (F + 2) ((getRule op1.type).precedence + 1) (advance s2) =
      some s4 := by
    apply parsePrecedence_number H (F + 1) _ (advance s2) s3 s4
    · rw [hcurA2]; exact hb
    · rw [hcurA2]; exact h3
    · rw [hfalse, h4]; exact hstop4
    · rw [hcur4]; exact heq
  obtain ⟨s5, ch5, h5, hp5, he5, hch5, hcode5, hconst5⟩ :=
    emitByte_chunk s4 ch4 (if op1.type = .TOKEN_PLUS then OpCode.OP_ADD.toByte
      else OpCode.OP_MULTIPLY.toByte) hch4
  have hrun : runParseFn H (fun q t => parsePrecedence H (F + 2) q t) (F + 2) .binary true
      (advance s2) = some s5 := by
    apply runParseFn_binary H _ (F + 2) true (advance s2) s4 s5
    · rw [hprev2]; exact hop1
    · rw [hprev2]; exact hrhs
    · rw [hprev2]; exact h5
  have hturn := infixLoop_turn (runParseFn H (fun q t => parsePrecedence H (F + 2) q t) (F + 2))
    PREC_ASSIGNMENT true (F + 1) s2 s5 .binary
    (by rw [hcur2]; exact (arithmetic_rule hop1).2.2.2)
    (by rw [hprev2]; exact (arithmetic_rule hop1).2.2.1) hrun
  have hcur5 : s5.parser.current = t := by rw [hp5, hcur4]
  have hstop5 := infixLoop_stop (runParseFn H (fun q t => parsePrecedence H (F + 2) q t) (F + 2))
    PREC_ASSIGNMENT true (F + 1) s5 (by rw [hcur5, hp]; decide)
  refine ⟨s5, ch5, ?_, ?_, ?_, hch5, ?_, ?_⟩
  · apply parsePrecedence_number H (F + 2) PREC_ASSIGNMENT s s2 s5 hnum h2
    · rw [show decide (PREC_ASSIGNMENT ≤ PREC_ASSIGNMENT) = true from rfl, hturn]
      exact hstop5
    · rw [hcur5]; exact heq
  · rw [hp5, hp4, hpar3]
  · rw [he5, he4, he3, hadv3, hadv2, he2, hadv]
  · have hmod : (if op1.type = .TOKEN_PLUS then OpCode.OP_ADD.toByte
        else OpCode.OP_MULTIPLY.toByte) % 256 =
        (if op1.type = .TOKEN_PLUS then OpCode.OP_ADD.toByte
        else OpCode.OP_MULTIPLY.toByte) := by
      split <;> exact toByte_mod _
    rw [hcode5, hcode4, hcode3, hcode2, hmod, hlen3, hlen2, hpar3]
    simp
  · rw [hconst5, hconst4, hconst3, hconst2]
    simp

/-- An expression `a op1 b op2 c` of number literals where `op2` binds no tighter than
`op1`: the instruction of `op1` follows its two operands, that of `op2` comes last. -/
theorem parsePrecedence_left (H : Host) (F : Nat) (s : CompileState) (ch : Chunk)
    (op1 b op2 c t : Token) (src : List Token)
    (hch : currentChunk s = some ch) (hk : ch.constants.length + 3 ≤ 256)
    (hnum : s.parser.current.type = .TOKEN_NUMBER)
    (hsrc : s.parser.source = op1 :: b :: op2 :: c :: t :: src)
    (hop1 : op1.type = .TOKEN_PLUS ∨ op1.type = .TOKEN_STAR)
    (hop2 : op2.type = .TOKEN_PLUS ∨ op2.type = .TOKEN_STAR)
    (hb : b.type = .TOKEN_NUMBER) (hc : c.type = .TOKEN_NUMBER)
    (ht : t.type ≠ .TOKEN_ERROR) (hp : (getRule t.type).precedence = PREC_NONE)
    (heq : t.type ≠ .TOKEN_EQUAL)
    (hle : (getRule op2.type).precedence ≤ (getRule op1.type).precedence) :
    ∃ s1 ch1, parsePrecedence H (F + 3) PREC_ASSIGNMENT s = some s1 ∧
      s1.parser = { s.parser with previous := c, current := t, source := src } ∧
      s1.errors = s.errors ∧ currentChunk s1 = some ch1 ∧
      ch1.code = ch.code ++ [OpCode.OP_CONSTANT.toByte, ch.constants.length,
        OpCode.OP_CONSTANT.toByte, ch.constants.length + 1,
        (if op1.type = .TOKEN_PLUS then OpCode.OP_ADD.toByte else OpCode.OP_MULTIPLY.toByte),
        OpCode.OP_CONSTANT.toByte, ch.constants.length + 2,
        (if op2.type = .TOKEN_PLUS then OpCode.OP_ADD.toByte else OpCode.OP_MULTIPLY.toByte)] ∧
      ch1.constants = ch.constants ++ [.number (H.strtod s.parser.current.lexeme),
        .number (H.strtod b.lexeme), .number (H.strtod c.lexeme)] := by
  -- the literal `a`
  have hadv := advance_cons s op1 (b :: op2 :: c :: t :: src) hsrc (arithmetic_rule hop1).1
  have hchA : currentChunk (advance s) = some ch := (currentChunk_advance s).trans hch
  obtain ⟨s2, ch2, h2, hp2, he2, hch2, hcode2, hconst2⟩ :=
    emitConstant_chunk (advance s) ch (.number (H.strtod s.parser.current.lexeme)) hchA
      (by omega)
  have hpar2 : s2.parser =
      { s.parser with
        previous := s.parser.current, current := op1,
        source := b :: op2 :: c :: t :: src } := by rw [hp2, hadv]
  have hlen2 : ch2.constants.length = ch.constants.length + 1 := by rw [hconst2]; simp
  -- the operator `op1` with the operand `b`
  obtain ⟨s3, ch3, h3, hp3, he3, hch3, hcode3, hconst3⟩ :=
    infixLoop_operator H (F + 1) (F + 1) PREC_ASSIGNMENT true s2 ch2 b op2 (c :: t :: src) hch2
      (by omega) (by rw [hpar2]; exact hop1) (by rw [hpar2]) hb (arithmetic_rule hop2).1
      (by rw [hpar2]; exact (arithmetic_rule hop1).2.2.2) (by rw [hpar2]; exact hle)
      (arithmetic_rule hop2).2.1
  have hpar3 : s3.parser =
      { s.parser with previous := b, current := op2, source := c :: t :: src } := by
    rw [hp3, hpar2]
  have hlen3 : ch3.constants.length = ch.constants.length + 2 := by
    rw [hconst3, List.length_append, hlen2]; rfl
  -- the operator `op2` with the operand `c`
  obtain ⟨s4, ch4, h4, hp4, he4, hch4, hcode4, hconst4⟩ :=
    infixLoop_operator H (F + 1) F PREC_ASSIGNMENT true s3 ch3 c t src hch3
      (by omega) (by rw [hpar3]; exact hop2) (by rw [hpar3]) hc ht
      (by rw [hpar3]; exact (arithmetic_rule hop2).2.2.2)
      (by rw [hp]; exact Nat.zero_le _) heq
  have hcur4 : s4.parser.current = t := by rw [hp4]
  have hstop4 := infixLoop_stop (runParseFn H (fun q t => parsePrecedence H (F + 2) q t) (F + 2))
    PREC_ASSIGNMENT true F s4 (by rw [hcur4, hp]; decide)
  refine ⟨s4, ch4, ?_, ?_, ?_, hch4, ?_, ?_⟩
  · apply parsePrecedence_number H (F + 2) PREC_ASSIGNMENT s s2 s4 hnum h2
    · rw [show decide (PREC_ASSIGNMENT ≤ PREC_ASSIGNMENT) = true from rfl, h3, h4]
      exact hstop4
    · rw [hcur4]; exact heq
  · rw [hp4, hpar3]
  · rw [he4, he3, he2, hadv]
  · rw [hcode4, hcode3, hcode2, hlen3, hlen2, hpar3, hpar2]
    simp
  · rw [hconst4, hconst3, hconst2]
    simp

/-! ## The type of the compiler between initCompiler and endCompiler -/

/-- A store to the current compiler that keeps its type keeps the types of the chain. -/
theorem setCurrent_types (s : CompileState) (update : Compiler → Compiler)
    (h : ∀ c, (update c).type = c.type) :
    (setCurrent s update).compilers.map Compiler.type = s.compilers.map Compiler.type := by
  unfold setCurrent
  split
  · rfl
  · rename_i c rest hc
    simp [hc, h]

theorem setCurrentChunk_compilers {s s1 : CompileState} {ch : Chunk}
    (h : setCurrentChunk s ch = some s1) : s1.compilers = s.compilers := by
  unfold setCurrentChunk at h
  split at h
  · cases h
  · split at h
    · cases h
      rfl
    · cases h

theorem emitByte_compilers {s s1 : CompileState} {b : Nat} (h : emitByte s b = some s1) :
    s1.compilers = s.compilers := by
  unfold emitByte at h
  simp only [Option.bind_eq_bind, Option.bind_eq_some] at h
  obtain ⟨ch, _, h2⟩ := h
  exact setCurrentChunk_compilers h2

theorem emitBytes_compilers {s s1 : CompileState} {a b : Nat} (h : emitBytes s a b = some s1) :
    s1.compilers = s.compilers := by
  unfold emitBytes at h
  simp only [Option.bind_eq_bind, Option.bind_eq_some] at h
  obtain ⟨s2, h1, h2⟩ := h
  exact (emitByte_compilers h2).trans (emitByte_compilers h1)

theorem makeConstant_compilers {s s1 : CompileState} {v : Value} {k : Nat}
    (h : makeConstant s v = some (k, s1)) : s1.compilers = s.compilers := by
  unfold makeConstant at h
  simp only [Option.bind_eq_bind, Option.bind_eq_some] at h
  obtain ⟨ch, _, s2, h2, h3⟩ := h
  have e := setCurrentChunk_compilers h2
  split at h3
  · cases h3
    exact ((error_fields s2 _).1).trans e
  · cases h3
    exact e

theorem identifierConstant_compilers {H : Host} {s s1 : CompileState} {name : List Nat}
    {k : Nat} (h : identifierConstant H s name = some (k, s1)) :
    s1.compilers = s.compilers := by
  unfold identifierConstant at h
  simp only [Option.bind_eq_bind, Option.bind_eq_some] at h
  obtain ⟨⟨vm1, str⟩, _, h2⟩ := h
  exact makeConstant_compilers h2 (s := { s with vm := vm1 })

theorem declareVariableLoop_compilers (name : List Nat) (d : Nat) :
    ∀ (rev : List Local) (s : CompileState),
      (declareVariableLoop name d s rev).compilers = s.compilers := by
  intro rev
  induction rev with
  | nil => intro s; rfl
  | cons l below ih =>
    intro s
    unfold declareVariableLoop
    split
    · rfl
    · rw [ih]
      split
      · exact (error_fields s _).1
      · rfl

theorem addLocal_types (s : CompileState) (name : List Nat) :
    (addLocal s name).compilers.map Compiler.type = s.compilers.map Compiler.type := by
  unfold addLocal
  split
  · rfl
  · split
    · rw [(error_fields s _).1]
    · exact setCurrent_types s _ (fun _ => rfl)

theorem declareVariable_types (s : CompileState) :
    (declareVariable s).compilers.map Compiler.type = s.compilers.map Compiler.type := by
  unfold declareVariable
  split
  · rfl
  · split
    · rfl
    · rw [addLocal_types, declareVariableLoop_compilers]

theorem parseVariable_types {H : Host} {s s1 : CompileState} {m : String} {k : Nat}
    (h : parseVariable H s m = some (k, s1)) :
    s1.compilers.map Compiler.type = s.compilers.map Compiler.type := by
  unfold parseVariable at h
  simp only [Option.bind_eq_bind, Option.bind_eq_some] at h
  obtain ⟨c, _, h2⟩ := h
  have e : (declareVariable (consume s .TOKEN_IDENTIFIER m)).compilers.map Compiler.type =
      s.compilers.map Compiler.type := by
    rw [declareVariable_types, (consume_fields s _ _).1]
  split at h2
  · cases h2
    exact e
  · rw [identifierConstant_compilers h2]
    exact e

theorem markInitialized_types {s s1 : CompileState} (h : markInitialized s = some s1) :
    s1.compilers.map Compiler.type = s.compilers.map Compiler.type := by
  unfold markInitialized at h
  simp only [Option.bind_eq_bind, Option.bind_eq_some] at h
  obtain ⟨c, _, h2⟩ := h
  split at h2
  · cases h2
    rfl
  · split at h2
    · cases h2
    · cases h2
      exact setCurrent_types s _ (fun _ => rfl)

theorem defineVariable_types {s s1 : CompileState} {g : Nat}
    (h : defineVariable s g = some s1) :
    s1.compilers.map Compiler.type = s.compilers.map Compiler.type := by
  unfold defineVariable at h
  simp only [Option.bind_eq_bind, Option.bind_eq_some] at h
  obtain ⟨c, _, h2⟩ := h
  split at h2
  · exact markInitialized_types h2
  · rw [emitBytes_compilers h2]

theorem functionParameters_types (H : Host) :
    ∀ (fuel : Nat) (s s1 : CompileState), functionParameters H fuel s = some s1 →
      s1.compilers.map Compiler.type = s.compilers.map Compiler.type := by
  intro fuel
  induction fuel with
  | zero =>
    intro s s1 h
    simp [functionParameters] at h
  | succ n ih =>
    intro s s1 h
    unfold functionParameters at h
    simp only [Option.bind_eq_bind, Option.bind_eq_some] at h
    obtain ⟨c, _, ⟨o, f⟩, _, ⟨k, s3⟩, h3, s4, h4, h5⟩ := h
    have e3 := parseVariable_types h3
    have e4 := defineVariable_types h4
    have e2 : (if f.arity + 1 > BYTE_MAX then
          error ({ s with
            vm := { s.vm with
                    heap := s.vm.heap.set c.function
                      (some { o with data := .function { f with arity := f.arity + 1 } }) } } :
            CompileState) "Can't have more than 255 parameters."
        else ({ s with
            vm := { s.vm with
                    heap := s.vm.heap.set c.function
                      (some { o with data := .function { f with arity := f.arity + 1 } }) } } :
            CompileState)).compilers = s.compilers := by
      split
      · exact (error_fields _ _).1
      · rfl
    rw [e2] at e3
    have e5 : (matchToken s4 .TOKEN_COMMA).2.compilers = s4.compilers :=
      (matchToken_fields s4 _).1
    split at h5
    · rw [ih _ _ h5, e5, e4, e3]
    · cases h5
      rw [e5, e4, e3]

/-- The body of a function is compiled last in functionBody. -/
theorem functionBody_split (H : Host) (block : CompileState → Option CompileState)
    (fuel : Nat) (type : FunctionType) (s : CompileState) :
    functionBody H block fuel type s =
      (functionBody H (fun t => some t) fuel type s).bind block := by
  unfold functionBody
  simp only [Option.bind_eq_bind]
  cases initCompiler H s type with
  | none => rfl
  | some s1 =>
    simp only [Option.some_bind]
    split
    · cases functionParameters H fuel
        (consume (beginScope s1) .TOKEN_LEFT_PAREN "Expect '(' after function name.") with
      | none => rfl
      | some s4 => rfl
    · rfl

/-- When the body of a function starts, the current compiler is the new one, of the type
`function` was given, on top of the chain as it was. -/
theorem functionBody_types {H : Host} {fuel : Nat} {type : FunctionType}
    {s s6 : CompileState} (h : functionBody H (fun t => some t) fuel type s = some s6) :
    s6.compilers.map Compiler.type = type :: s.compilers.map Compiler.type := by
  unfold functionBody at h
  simp only [Option.bind_eq_bind, Option.bind_eq_some] at h
  obtain ⟨s1, h1, s4, h4, h6⟩ := h
  obtain ⟨c, hc, ht, _⟩ := initCompiler_type h1
  have e3 : (consume (beginScope s1) .TOKEN_LEFT_PAREN
      "Expect '(' after function name.").compilers.map Compiler.type =
      type :: s.compilers.map Compiler.type := by
    rw [(consume_fields _ _ _).1]
    unfold beginScope
    rw [setCurrent_types s1 (fun c => { c with scopeDepth := c.scopeDepth + 1 }) (fun _ => rfl),
      hc, List.map_cons, ht]
  have e4 : s4.compilers.map Compiler.type = type :: s.compilers.map Compiler.type := by
    split at h4
    · rw [functionParameters_types H _ _ _ h4]
      exact e3
    · cases h4
      exact e3
  cases h6
  rw [(consume_fields _ _ _).1, (consume_fields _ _ _).1]
  exact e4

/-- The end of `function` leaves in the function it compiled the code of the body followed
by the implicit return of emitReturn for the type of its compiler. -/
theorem functionEnd_code (s : CompileState) (c encl : Compiler) (rest : List Compiler)
    (o oe : Obj) (f fe : ObjFunction)
    (hcomp : s.compilers = c :: encl :: rest)
    (hg : heapGet s.vm.heap c.function = some o) (hd : o.data = .function f)
    (hge : heapGet s.vm.heap encl.function = some oe) (hde : oe.data = .function fe)
    (hne : c.function ≠ encl.function) (hup : f.upvalueCount ≤ c.upvalues.length) :
    ∃ s1 o1 f1 oe1 fe1, functionEnd s = some s1 ∧ s1.compilers = encl :: rest ∧
      heapGet s1.vm.heap c.function = some o1 ∧ o1.data = .function f1 ∧
      f1.chunk.code = f.chunk.code ++
        (if c.type = .TYPE_INITIALIZER then
          [OpCode.OP_LOCAL_GET.toByte, 0, OpCode.OP_RETURN.toByte]
         else [OpCode.OP_NIL.toByte, OpCode.OP_RETURN.toByte]) ∧
      heapGet s1.vm.heap encl.function = some oe1 ∧ oe1.data = .function fe1 := by
  obtain ⟨sA, oA, fA, hA, hcA, _, hgA, hdA, hcodeA, _, hupA, hneA⟩ :=
    emitReturn_spec s c (encl :: rest) o f hcomp hg hd
  have hcA' : sA.compilers = c :: encl :: rest := hcA.trans hcomp
  let sB : CompileState :=
    { sA with
      compilers := encl :: rest
      vm := { sA.vm with compilerRoots := sA.vm.compilerRoots.tail } }
  have hend : endCompiler s = some (c.function, sB) := by
    simp only [endCompiler, hA, Option.bind_eq_bind, Option.some_bind, hcA', List.head?_cons,
      List.tail_cons]
  have hcB : sB.compilers = encl :: rest := rfl
  have hgeB : heapGet sB.vm.heap encl.function = some oe := by
    show heapGet sA.vm.heap encl.function = _
    rw [hneA _ (fun e => hne e.symm)]
    exact hge
  obtain ⟨sC, oC, fC, hC, hcC, hgC, hdC, _, _, _, hneC⟩ :=
    makeConstant_spec sB encl rest oe fe (.obj c.function) hcB hgeB hde
  obtain ⟨sD, oD, fD, hD, hcD, _, _, hgD, hdD, _, _, _, hneD⟩ :=
    emitByte_spec sC encl rest oC fC OpCode.OP_CLOSURE.toByte (hcC.trans hcB) hgC hdC
  obtain ⟨sE, oE, fE, hE, hcE, _, _, hgE, hdE, _, _, _, hneE⟩ :=
    emitByte_spec sD encl rest oD fD
      (if fe.chunk.constants.length > BYTE_MAX then 0 else fe.chunk.constants.length)
      (hcD.trans (hcC.trans hcB)) hgD hdD
  have hcE' : sE.compilers = encl :: rest := hcE.trans (hcD.trans (hcC.trans hcB))
  have hgcE : heapGet sE.vm.heap c.function = some oA := by
    rw [hneE _ hne, hneD _ hne, hneC _ hne]
    exact hgA
  obtain ⟨sF, oF, fF, hF, hcF, hgF, hdF, _, _, _, hneF⟩ :=
    emitUpvalues_spec c.upvalues encl rest f.upvalueCount 0 sE oE fE (by omega) hcE' hgE hdE
  refine ⟨sF, oA, fA, oF, fF, ?_, hcF.trans hcE', ?_, hdA, hcodeA, hgF, hdF⟩
  · simp only [functionEnd, hcomp, List.head?_cons, Option.bind_eq_bind, Option.some_bind,
      hend, hC, emitBytes, hD, hE, functionAt_of hgcE hdA, hupA, hF]
  · rw [hneF _ hne]
    exact hgcE

/-- C1: for a callee that is not a bound method, class, closure or native, and every
argCount, callValue has no result whatever the fuel: its last line calls callValue again
with the same arguments, so it never reports a runtime error and never returns false; and
OP_CALL on such a value has no result either, so it does not yield
INTERPRET_RUNTIME_ERROR. -/
theorem callValue_nonCallable_no_result (H : Host) (vm : VM) (callee : Value) (argCount : Nat)
    (hb : isObjType vm callee .OBJ_BOUND_METHOD = false)
    (hk : isObjType vm callee .OBJ_CLASS = false)
    (hc : isObjType vm callee .OBJ_CLOSURE = false)
    (hn : isObjType vm callee .OBJ_NATIVE = false) :
    (∀ fuel, callValue H fuel vm callee argCount = none) ∧
    (∀ fuel vm0, fetchByte vm0 = some (argCount, vm) → peek vm argCount = callee →
      runSingle_OP_CALL H fuel vm0 = none) := by
  have h := callValue_nonCallable H vm callee argCount hb hk hc hn
  refine ⟨h, fun fuel vm0 hf hp => ?_⟩
  unfold runSingle_OP_CALL
  simp only [hf, hp, h fuel]

/-- C1 at the number 30 on top of the stack of callVM, called without arguments. -/
theorem callValue_nonCallable_no_result_witness :
    (∀ fuel, callValue exampleHost fuel callVMFetched (.number 30) 0 = none) ∧
    (∀ fuel, runSingle_OP_CALL exampleHost fuel callVM = none) :=
  ⟨(callValue_nonCallable_no_result exampleHost callVMFetched (.number 30) 0
      rfl rfl rfl rfl).1,
   fun fuel =>
    (callValue_nonCallable_no_result exampleHost callVMFetched (.number 30) 0
      rfl rfl rfl rfl).2 fuel callVM (by decide) (by decide)⟩

/-- C2: in the table `rules` the binary operator `#` has PREC_FACTOR, the level of `*` and
`/`, not PREC_TERM, the level of `+` and `-`.  So `1 + 2 # 3` compiles to the code of
`1 + (2 # 3)` and not to the code of `(1 + 2) # 3`, and `1 # 2 * 3` compiles to the code of
`(1 # 2) * 3` and not to the code of `1 # (2 * 3)`. -/
theorem hash_binds_as_factor :
    (getRule .TOKEN_HASH).precedence = PREC_FACTOR ∧
    (getRule .TOKEN_HASH).precedence = (getRule .TOKEN_STAR).precedence ∧
    (getRule .TOKEN_PLUS).precedence < (getRule .TOKEN_HASH).precedence ∧
    compileExpression exampleHost 10 emptyVM tokensPlusHash =
      some ([OpCode.OP_CONSTANT.toByte, 0, OpCode.OP_CONSTANT.toByte, 1,
             OpCode.OP_CONSTANT.toByte, 2, OpCode.OP_GLOBAL_GET.toByte, 3,
             OpCode.OP_CALL_POSTFIX.toByte, 2, OpCode.OP_ADD.toByte],
            [.number 1, .number 2, .number 3, .obj 1]) ∧
    compileExpression exampleHost 10 emptyVM tokensPlusHash =
      compileExpression exampleHost 10 emptyVM tokensPlusHashRight ∧
    compileExpression exampleHost 10 emptyVM tokensPlusHash ≠
      compileExpression exampleHost 10 emptyVM tokensPlusHashLeft ∧
    compileExpression exampleHost 10 emptyVM tokensHashStar =
      some ([OpCode.OP_CONSTANT.toByte, 0, OpCode.OP_CONSTANT.toByte, 1,
             OpCode.OP_GLOBAL_GET.toByte, 2, OpCode.OP_CALL_POSTFIX.toByte, 2,
             OpCode.OP_CONSTANT.toByte, 3, OpCode.OP_MULTIPLY.toByte],
            [.number 1, .number 2, .obj 1, .number 3]) ∧
    compileExpression exampleHost 10 emptyVM tokensHashStar =
      compileExpression exampleHost 10 emptyVM tokensHashStarLeft ∧
    compileExpression exampleHost 10 emptyVM tokensHashStar ≠
      compileExpression exampleHost 10 emptyVM tokensHashStarRight := by
  refine ⟨rfl, rfl, by decide, by decide, by decide, by decide, by decide, by decide,
    by decide⟩

/-- C3: for OP_COLLECTION_LIST and OP_COLLECTION_TABLE disassembleInstruction advances by
one byte (simpleInstruction) while the interpreter consumes two, the opcode and the count it
reads with readByte; for every other byte, the unknown opcodes included, the advance of
disassembleInstruction equals the number of bytes the interpreter consumes, for OP_CLOSURE
with the two bytes of each upvalue of the function constant. -/
theorem disassemble_advance_vs_dispatch (heap : Heap) (chunk : Chunk) (offset : Nat) :
    ((OpCode.ofByte (chunk.code.getD offset 0) = some .OP_COLLECTION_LIST ∨
      OpCode.ofByte (chunk.code.getD offset 0) = some .OP_COLLECTION_TABLE) →
        disassembleInstruction heap chunk offset = some (offset + 1) ∧
        dispatchAdvance heap chunk offset = some 2) ∧
    (OpCode.ofByte (chunk.code.getD offset 0) ≠ some .OP_COLLECTION_LIST →
      OpCode.ofByte (chunk.code.getD offset 0) ≠ some .OP_COLLECTION_TABLE →
        (disassembleInstruction heap chunk offset).map (fun next => next - offset) =
          dispatchAdvance heap chunk offset) := by
  constructor
  · intro h
    rcases h with h | h
    · simp only [disassembleInstruction, dispatchAdvance, runSingleReads, readByte, h,
        simpleInstruction]
      simp only [true_and, Option.some.injEq]
      omega
    · simp only [disassembleInstruction, dispatchAdvance, runSingleReads, readByte, h,
        simpleInstruction]
      simp only [true_and, Option.some.injEq]
      omega
  · intro h1 h2
    cases hop : OpCode.ofByte (chunk.code.getD offset 0) with
    | none =>
      simp only [disassembleInstruction, dispatchAdvance, runSingleReads, readByte, hop]
      simp
    | some op =>
      cases op
      case OP_COLLECTION_LIST => exact absurd hop h1
      case OP_COLLECTION_TABLE => exact absurd hop h2
      case OP_CLOSURE =>
        simp only [disassembleInstruction, dispatchAdvance, runSingleReads, readByte, hop,
          closureInstruction]
        cases hv : chunk.constants.getD (chunk.code.getD (offset + 1) 0) Value.nil with
        | obj r =>
          simp only []
          cases hg : heapGet heap r with
          | none => simp
          | some o =>
            simp only []
            cases hd : o.data <;> simp only [Option.map_none', Option.map_some']
        | nil => simp
        | bool b => simp
        | number n => simp
      all_goals
        simp only [disassembleInstruction, dispatchAdvance, runSingleReads, readByte,
          READ_SHORT, hop, simpleInstruction, byteInstruction, constantInstruction,
          invokeInstruction, jumpInstruction, Option.map_some', Option.some.injEq]

/-- C3 at the chunk `OP_COLLECTION_LIST 3`: the disassembler moves on by one byte, the
interpreter by two. -/
theorem disassemble_advance_vs_dispatch_witness :
    disassembleInstruction [] { code := [5, 3], lines := [1, 1], constants := [] } 0 = some 1 ∧
    dispatchAdvance [] { code := [5, 3], lines := [1, 1], constants := [] } 0 = some 2 :=
  (disassemble_advance_vs_dispatch [] { code := [5, 3], lines := [1, 1], constants := [] } 0).1
    (Or.inl (by decide))

/-- C4, counterexample: the instance has a field `f` that holds the number 7 and its class
has a method `f`.  The claim lets invoke call the method of the class, which succeeds; the
code passes the number to callValue instead and yields nothing, whatever the fuel. -/
theorem invoke_field_shadows_method :
    (∃ vm1, invokeFromClass (invokeVM [(2, .number 7)]) 3 2 0 = some (true, vm1)) ∧
    (∀ fuel, invoke exampleHost fuel (invokeVM [(2, .number 7)]) 2 0 = none) := by
  refine ⟨⟨_, rfl⟩, fun fuel => ?_⟩
  have h : invoke exampleHost fuel (invokeVM [(2, .number 7)]) 2 0 =
      callValue exampleHost fuel (setCallee (invokeVM [(2, .number 7)]) 0 (.number 7))
        (.number 7) 0 := rfl
  rw [h]
  exact callValue_nonCallable exampleHost _ (.number 7) 0 rfl rfl rfl rfl fuel

/-- C4, amended: if the receiver at peek(argCount) is not an instance, invoke reports a
runtime error and returns false.  If it is an instance with a field `name`, the value of the
field is stored in the callee slot and handed to callValue, whatever kind of value it is;
only if the instance has no field `name` is the method `name` of its class called directly,
through invokeFromClass. -/
theorem invoke_dispatch (H : Host) (fuel : Nat) (vm : VM) (name : Ref) (argCount : Nat) :
    (isObjType vm (peek vm argCount) .OBJ_INSTANCE = false →
      invoke H fuel vm name argCount = some (false, runtimeError vm)) ∧
    (∀ r o klass fields, peek vm argCount = .obj r → heapGet vm.heap r = some o →
      o.data = .inst klass fields →
      (∀ value, tableGet fields name = some value →
        invoke H fuel vm name argCount =
          callValue H fuel (setCallee vm argCount value) value argCount) ∧
      (tableGet fields name = none →
        invoke H fuel vm name argCount = invokeFromClass vm klass name argCount)) := by
  constructor
  · intro h
    simp [invoke, h]
  · intro r o klass fields hp hg hd
    have hi : isObjType vm (.obj r) .OBJ_INSTANCE = true := by
      simp [isObjType, hg, hd, ObjData.type]
    constructor
    · intro value hv
      simp [invoke, hi, hp, hg, hd, hv]
    · intro hv
      simp [invoke, hi, hp, hg, hd, hv]

/-- C4 amended, at three machines: a receiver that is a closure, an instance whose field
`f` holds a closure, and an instance without fields. -/
theorem invoke_dispatch_witness :
    invoke exampleHost 1 (invokeVM []) 2 1 = some (false, runtimeError (invokeVM [])) ∧
    invoke exampleHost 1 (invokeVM [(2, .obj 1)]) 2 0 =
      callValue exampleHost 1 (setCallee (invokeVM [(2, .obj 1)]) 0 (.obj 1)) (.obj 1) 0 ∧
    invoke exampleHost 1 (invokeVM []) 2 0 = invokeFromClass (invokeVM []) 3 2 0 :=
  ⟨(invoke_dispatch exampleHost 1 (invokeVM []) 2 1).1 (by decide),
   ((invoke_dispatch exampleHost 1 (invokeVM [(2, .obj 1)]) 2 0).2 4 _ 3 [(2, .obj 1)]
      rfl rfl rfl).1 (.obj 1) rfl,
   ((invoke_dispatch exampleHost 1 (invokeVM []) 2 0).2 4 _ 3 [] rfl rfl rfl).2 rfl⟩

/-- C5: from a state without marks and with proper lists, markRoots
and traceReferences return, and afterwards every object that is reachable from a root
(the stack of the active fiber below stackTop, the closures of its frames, its open
upvalues, keys and values of the globals, the functions of the compiler chain, the string
constants) through the reference edges of blackenObject is marked, with its payload
unchanged; the sweep that follows returns too and leaves each of these objects in the
heap. -/
theorem mark_then_sweep_keeps_reachable (H : Host) (vm : VM)
    (hclean : allUnmarked vm.heap = true)
    (hcur : fiberProper vm.heap vm.current = true)
    (hfib : heapFibersProper vm.heap = true) (hobjs : objectsProper vm = true) :
    ∃ vm1 vm2 vm3, markRoots vm = some vm1 ∧
      traceReferences (vm1.heap.length + vm1.grayStack.length + 1) vm1 = some vm2 ∧
      (∀ r o, Reachable vm r → heapGet vm.heap r = some o →
        heapGet vm2.heap r = some { o with isMarked := true }) ∧
      sweep H { vm2 with strings := tableRemoveWhite vm2.heap vm2.strings } = some vm3 ∧
      (∀ r o, Reachable vm r → heapGet vm.heap r = some o →
        ∃ b n, heapGet vm3.heap r = some { isMarked := b, next := n, data := o.data }) := by
  obtain ⟨vm1, vm2, h1, h2, hg2, hm, hroots, htri⟩ := markPhase_spec vm hcur hfib
  have hclean' := allUnmarked_iff.mp hclean
  have ht0 : TriColor vm := by
    intro p o hp hmo
    rw [hclean' p o hp] at hmo
    cases hmo
  have hreach := reachable_marked hm hg2 hroots (htri ht0)
  have hmarked : ∀ r o, Reachable vm r → heapGet vm.heap r = some o →
      heapGet vm2.heap r = some { o with isMarked := true } := by
    intro r o hr ho
    obtain ⟨b, hb, _⟩ := hm.1.get ho
    have := hreach r hr _ hb
    simp only at this
    rw [hb, this]
  have hchain : chain
      (objNext ({ vm2 with strings := tableRemoveWhite vm2.heap vm2.strings } : VM).heap)
      ({ vm2 with strings := tableRemoveWhite vm2.heap vm2.strings } : VM).objects
      (chainNodes (objNext vm.heap) (vm.heap.length + 1) vm.objects) = true := by
    show chain (objNext vm2.heap) vm2.objects _ = true
    rw [hm.1.objNext, hm.2.2.2.2.2.2.1]
    exact hobjs
  obtain ⟨vm3, h3, _, hkeep, _, hother, _, _⟩ := sweep_spec_aux H _ _ hchain
  refine ⟨vm1, vm2, vm3, h1, h2, hmarked, h3, ?_⟩
  intro r o hr ho
  have hr2 := hmarked r o hr ho
  by_cases hmem : r ∈ chainNodes (objNext vm.heap) (vm.heap.length + 1) vm.objects
  · obtain ⟨n, hn⟩ := hkeep r hmem _ hr2 rfl
    exact ⟨false, n, hn⟩
  · exact ⟨true, o.next, by rw [hother r hmem]; exact hr2⟩

theorem mark_then_sweep_keeps_reachable_witness :
    allUnmarked callVM.heap = true ∧
    fiberProper callVM.heap callVM.current = true ∧
    heapFibersProper callVM.heap = true ∧ objectsProper callVM = true ∧
    ∃ vm1 vm2 vm3, markRoots callVM = some vm1 ∧
      traceReferences (vm1.heap.length + vm1.grayStack.length + 1) vm1 = some vm2 ∧
      (∀ r o, Reachable callVM r → heapGet callVM.heap r = some o →
        heapGet vm2.heap r = some { o with isMarked := true }) ∧
      sweep exampleHost { vm2 with strings := tableRemoveWhite vm2.heap vm2.strings } =
        some vm3 ∧
      (∀ r o, Reachable callVM r → heapGet callVM.heap r = some o →
        ∃ b n, heapGet vm3.heap r = some { isMarked := b, next := n, data := o.data }) :=
  ⟨by decide, by decide, by decide, by decide,
   mark_then_sweep_keeps_reachable exampleHost callVM (by decide) (by decide) (by decide)
     (by decide)⟩

/-- C6: for every well-formed allocation list `objs`, sweep returns; afterwards the
allocation list holds exactly the objects of `objs` that were marked, in their original
order, each of them unmarked and with its payload unchanged; every unmarked object of
`objs` has been freed (also when it was the head, in which case `vm_.objects` moves on);
and nothing outside the list is touched. -/
theorem sweep_correct (H : Host) (vm : VM) (objs : List Ref)
    (hl : chain (objNext vm.heap) vm.objects objs = true) :
    ∃ vm1, sweep H vm = some vm1 ∧
      chain (objNext vm1.heap) vm1.objects (objs.filter (isMarkedAt vm.heap)) = true ∧
      (∀ r ∈ objs, ∀ o, heapGet vm.heap r = some o → o.isMarked = true →
        ∃ n, heapGet vm1.heap r = some { isMarked := false, next := n, data := o.data }) ∧
      (∀ r ∈ objs, isMarkedAt vm.heap r = false → heapGet vm1.heap r = none) ∧
      (∀ r, r ∉ objs → heapGet vm1.heap r = heapGet vm.heap r) ∧
      vm1.heap.length = vm.heap.length ∧
      sameRegisters vm1 vm :=
  sweep_spec_aux H vm objs hl

/-- The machine `callVM` with the closure and the upvalue for slot 3 marked. -/
theorem sweep_correct_witness :
    chain (objNext (markObject (markObject callVM (some 1)) (some 3)).heap)
      (markObject (markObject callVM (some 1)) (some 3)).objects [3, 2, 1, 0] = true ∧
    ∃ vm1, sweep exampleHost (markObject (markObject callVM (some 1)) (some 3)) = some vm1 ∧
      chain (objNext vm1.heap) vm1.objects
        ([3, 2, 1, 0].filter
          (isMarkedAt (markObject (markObject callVM (some 1)) (some 3)).heap)) = true ∧
      (∀ r ∈ [3, 2, 1, 0], ∀ o,
        heapGet (markObject (markObject callVM (some 1)) (some 3)).heap r = some o →
        o.isMarked = true →
        ∃ n, heapGet vm1.heap r = some { isMarked := false, next := n, data := o.data }) ∧
      (∀ r ∈ [3, 2, 1, 0],
        isMarkedAt (markObject (markObject callVM (some 1)) (some 3)).heap r = false →
        heapGet vm1.heap r = none) ∧
      (∀ r, r ∉ [3, 2, 1, 0] →
        heapGet vm1.heap r =
          heapGet (markObject (markObject callVM (some 1)) (some 3)).heap r) ∧
      vm1.heap.length = (markObject (markObject callVM (some 1)) (some 3)).heap.length ∧
      sameRegisters vm1 (markObject (markObject callVM (some 1)) (some 3)) :=
  ⟨by decide,
   sweep_correct exampleHost (markObject (markObject callVM (some 1)) (some 3)) [3, 2, 1, 0]
     (by decide)⟩

/-- C7: copyString and takeString keep the interning invariant.  From a state in which no
two distinct string objects of the intern table have equal bytes (and each carries the hash
of its bytes, as allocateString stores it; the heap lists being proper), both functions
return; afterwards the invariant holds again, the returned string has exactly the requested
bytes, it is in the table, and a string of the table is the returned object if and only if
its bytes are the requested ones. -/
theorem interning_preserved (H : Host) (vm : VM) (chars : List Nat)
    (hk : internKeysHashed vm.heap vm.strings = true)
    (hu : internUnique vm.heap vm.strings = true)
    (hcur : fiberProper vm.heap vm.current = true)
    (hidle : heapFibersIdle vm.heap = true) (hobjs : objectsProper vm = true) :
    (∃ vm1 r, copyString H vm chars = some (vm1, r) ∧ InternedAs vm1 r chars) ∧
    (∃ vm1 r, takeString H vm chars = some (vm1, r) ∧ InternedAs vm1 r chars) := by
  have hready : Ready vm := ⟨hcur, hidle, hobjs⟩
  have hk' := internKeysHashed_iff.mp hk
  have hu' := internUnique_iff.mp hu
  obtain ⟨hsome, hnone⟩ := tableFindString_spec vm.heap chars vm.strings hk'
  -- a state with the heap and the table of `vm` in which the lookup has found `r`
  have hfound : ∀ (vmX : VM) (r : Ref), vmX.heap = vm.heap → vmX.strings = vm.strings →
      tableFindString vm.heap vm.strings chars (hashString chars) = some r →
      InternedAs vmX r chars := by
    intro vmX r hh hst hf
    obtain ⟨⟨e0, he0, rfl⟩, hc⟩ := hsome r hf
    unfold InternedAs
    rw [hh, hst]
    refine ⟨hk, hu, hc, ⟨e0.2, he0⟩, fun e he => ⟨fun h => by rw [h]; exact hc, fun h => ?_⟩⟩
    exact hu' e he e0 he0 (by rw [h, hc])
  constructor
  · unfold copyString
    simp only
    cases hf : tableFindString vm.heap vm.strings chars (hashString chars) with
    | some r => exact ⟨vm, r, rfl, hfound vm r rfl rfl hf⟩
    | none =>
      obtain ⟨vmA, hA, cA⟩ := reallocate_spec H vm 0 (chars.length + 1) hready
      obtain ⟨hkA, huA, hsameA⟩ := intern_collected cA hk hu
      have hnewA : ∀ e ∈ vmA.strings, stringChars vmA.heap e.1 ≠ some chars := by
        intro e he
        rw [(hsameA e he).2]
        exact hnone hf e (hsameA e he).1
      obtain ⟨vm1, r, h1, hq⟩ := allocateString_spec H vmA chars (cA.ready hready) hkA huA hnewA
      exact ⟨vm1, r, by simp only [hA]; exact h1, hq⟩
  · unfold takeString
    simp only
    cases hf : tableFindString vm.heap vm.strings chars (hashString chars) with
    | some r =>
      simp only [reallocate_shrink]
      exact ⟨_, r, rfl, hfound _ r rfl rfl hf⟩
    | none =>
      obtain ⟨vm1, r, h1, hq⟩ := allocateString_spec H vm chars hready hk hu (hnone hf)
      exact ⟨vm1, r, h1, hq⟩

theorem interning_preserved_witness :
    internKeysHashed stringVM.heap stringVM.strings = true ∧
    internUnique stringVM.heap stringVM.strings = true ∧
    fiberProper stringVM.heap stringVM.current = true ∧
    heapFibersIdle stringVM.heap = true ∧ objectsProper stringVM = true ∧
    ((∃ vm1 r, copyString exampleHost stringVM [98] = some (vm1, r) ∧ InternedAs vm1 r [98]) ∧
     (∃ vm1 r, takeString exampleHost stringVM [98] = some (vm1, r) ∧ InternedAs vm1 r [98])) :=
  ⟨by decide, by decide, by decide, by decide, by decide,
   interning_preserved exampleHost stringVM [98] (by decide) (by decide) (by decide)
     (by decide) (by decide)⟩

/-- C10: closeUpvalues is idempotent.  For a fiber whose open-upvalue list is a well-formed
list of open upvalues, closeUpvalues(last) returns a state on which a second
closeUpvalues(last) changes nothing; and when no open upvalue has a location at or above
`last`, the first call changes nothing either. -/
theorem closeUpvalues_idempotent (vm : VM) (last : Nat) (l : List Ref)
    (hc : chain (openNext vm.heap) vm.current.openUpvalues l = true) :
    (∃ vm1, closeUpvalues vm last = some vm1 ∧ closeUpvalues vm1 last = some vm1) ∧
    ((∀ r ∈ l, slotOf vm.heap r < last) → closeUpvalues vm last = some vm) := by
  constructor
  · obtain ⟨vm1, _, _, h1, _⟩ := closeUpvalues_total vm last l hc
    exact ⟨vm1, h1, closeUpvaluesLoop_of_stop (closeUpvaluesLoop_stops h1) _⟩
  · intro hall
    apply closeUpvaluesLoop_of_stop
    cases l with
    | nil =>
      apply closeUpvaluesStep_null
      simpa [chain, chainTo_nil] using hc
    | cons r t =>
      unfold chain at hc
      rw [chainTo_cons] at hc
      obtain ⟨hh, n, hn, _⟩ := hc
      obtain ⟨o, s, c, hg, hd⟩ := openNext_some hn
      have hs := hall r (List.mem_cons_self _ _)
      rw [slotOf_of hg hd] at hs
      exact closeUpvaluesStep_stop hh hg hd hs

theorem closeUpvalues_idempotent_witness :
    chain (openNext callVM.heap) callVM.current.openUpvalues [3, 2] = true ∧
    ((∃ vm1, closeUpvalues callVM 2 = some vm1 ∧ closeUpvalues vm1 2 = some vm1) ∧
     ((∀ r ∈ [3, 2], slotOf callVM.heap r < 2) → closeUpvalues callVM 2 = some callVM)) :=
  ⟨by decide, closeUpvalues_idempotent callVM 2 [3, 2] (by decide)⟩

/-- C8: if the open-upvalue list of the fiber is ordered by descending stack address, then
OP_RETURN for a frame with base `slots` returns, and afterwards every upvalue still on the
open list has a location below `slots`, while every upvalue of the old list with a location
at or above `slots` is off the list and closed. -/
theorem OP_RETURN_closes_upvalues (vm : VM) (frame : CallFrame) (l : List Ref)
    (hf : vm.current.frames.getLast? = some frame)
    (hc : chain (openNext vm.heap) vm.current.openUpvalues l = true)
    (hs : (l.map (slotOf vm.heap)).Pairwise (· > ·)) :
    ∃ res vm1 rest, runSingle_OP_RETURN vm = some (res, vm1) ∧
      chain (openNext vm1.heap) vm1.current.openUpvalues rest = true ∧
      (∀ r ∈ rest, slotOf vm1.heap r < frame.slots) ∧
      (∀ r ∈ l, slotOf vm.heap r ≥ frame.slots →
        r ∉ rest ∧ ∃ o v n, heapGet vm1.heap r = some o ∧ o.data = .upvalue .closed v n) := by
  have hc' : chain (openNext (pop vm).2.heap) (pop vm).2.current.openUpvalues l = true := hc
  obtain ⟨vm2, done, rest, hclose, hsplit, hdone, hrest, hchain, hframe, hclosed, _, heq⟩ :=
    closeUpvalues_total (pop vm).2 frame.slots l hc'
  have hnodup : l.Nodup := chain_nodup hc
  have hdisj : ∀ r ∈ rest, r ∉ done := by
    intro r hr hd
    rw [hsplit] at hnodup
    exact (List.nodup_append.mp hnodup).2.2 hd hr
  have hslot : ∀ r ∈ rest, slotOf vm2.heap r = slotOf vm.heap r := by
    intro r hr
    have := hframe r (hdisj r hr)
    simp only [slotOf, this]
    rfl
  have hlow : ∀ r ∈ rest, slotOf vm.heap r < frame.slots := by
    cases hrs : rest with
    | nil => simp
    | cons x t =>
      rw [hrs] at hrest hsplit
      have hx : slotOf vm.heap x < frame.slots := hrest x rfl
      rw [hsplit, List.map_append, List.pairwise_append] at hs
      have hp := hs.2.1
      rw [List.map_cons, List.pairwise_cons] at hp
      intro r hr
      rcases List.mem_cons.mp hr with rfl | hr
      · exact hx
      · have := hp.1 (slotOf vm.heap r) (List.mem_map_of_mem _ hr)
        omega
  have hres : ∀ vm3 : VM, vm3.heap = vm2.heap →
      vm3.current.openUpvalues = vm2.current.openUpvalues →
      chain (openNext vm3.heap) vm3.current.openUpvalues rest = true ∧
      (∀ r ∈ rest, slotOf vm3.heap r < frame.slots) ∧
      (∀ r ∈ l, slotOf vm.heap r ≥ frame.slots →
        r ∉ rest ∧ ∃ o v n, heapGet vm3.heap r = some o ∧ o.data = .upvalue .closed v n) := by
    intro vm3 hh ho
    rw [hh, ho]
    refine ⟨hchain, fun r hr => by rw [hslot r hr]; exact hlow r hr, ?_⟩
    intro r hr hge
    have hnr : r ∉ rest := fun hmem => by
      have := hlow r hmem
      omega
    have hd : r ∈ done := by
      rw [hsplit] at hr
      rcases List.mem_append.mp hr with h | h
      · exact h
      · exact absurd h hnr
    obtain ⟨o, s, c, n, _, _, hg⟩ := hclosed r hd
    exact ⟨hnr, _, _, _, hg, rfl⟩
  unfold runSingle_OP_RETURN
  simp only [hf, hclose]
  split
  · exact ⟨_, _, rest, rfl, hres _ rfl rfl⟩
  · exact ⟨_, _, rest, rfl, hres _ rfl rfl⟩

theorem OP_RETURN_closes_upvalues_witness :
    callVM.current.frames.getLast? = some { closure := 1, ip := 0, slots := 2 } ∧
    chain (openNext callVM.heap) callVM.current.openUpvalues [3, 2] = true ∧
    ([3, 2].map (slotOf callVM.heap)).Pairwise (· > ·) ∧
    ∃ res vm1 rest, runSingle_OP_RETURN callVM = some (res, vm1) ∧
      chain (openNext vm1.heap) vm1.current.openUpvalues rest = true ∧
      (∀ r ∈ rest, slotOf vm1.heap r < 2) ∧
      (∀ r ∈ [3, 2], slotOf callVM.heap r ≥ 2 →
        r ∉ rest ∧ ∃ o v n, heapGet vm1.heap r = some o ∧ o.data = .upvalue .closed v n) :=
  ⟨by decide, by decide, by decide,
   OP_RETURN_closes_upvalues callVM { closure := 1, ip := 0, slots := 2 } [3, 2]
     (by decide) (by decide) (by decide)⟩

/-- C9: captureUpvalue keeps the open-upvalue list strictly descending by stack address.
From a state whose open-upvalue list `l` is strictly descending (and whose heap lists are
proper, so that the collection an allocation may start returns), captureUpvalue(local)
returns an upvalue `r` of the new list whose location is `local`, and the new list is
strictly descending again.  If `l` already has an upvalue for `local`, that upvalue is
returned and the state, hence the list, is unchanged; otherwise `r` is a new upvalue and
the new list is `l` with `r` linked in at one place, all other nodes keeping their
location. -/
theorem captureUpvalue_keeps_order (H : Host) (vm : VM) (local_ : Nat) (l : List Ref)
    (hc : chain (openNext vm.heap) vm.current.openUpvalues l = true)
    (hs : (l.map (slotOf vm.heap)).Pairwise (· > ·))
    (hidle : heapFibersIdle vm.heap = true) (hobjs : objectsProper vm = true) :
    ∃ vm1 r l1, captureUpvalue H vm local_ = some (vm1, r) ∧
      chain (openNext vm1.heap) vm1.current.openUpvalues l1 = true ∧
      (l1.map (slotOf vm1.heap)).Pairwise (· > ·) ∧
      r ∈ l1 ∧ slotOf vm1.heap r = local_ ∧
      ((∃ x ∈ l, slotOf vm.heap x = local_) → r ∈ l ∧ vm1 = vm ∧ l1 = l) ∧
      ((∀ x ∈ l, slotOf vm.heap x ≠ local_) →
        r ∉ l ∧ (∃ a b, l = a ++ b ∧ l1 = a ++ r :: b) ∧
        ∀ x ∈ l, slotOf vm1.heap x = slotOf vm.heap x) := by
  have hready := ready_of_open hc hidle hobjs
  have hlen : l.length ≤ vm.heap.length + 1 :=
    Nat.le_succ_of_le (chain_length_le (fun _ _ hm => openNext_lt hm) hc)
  obtain ⟨a, b, hsplit, ha, hb, hloop, hca, hcb⟩ :=
    captureUpvalueLoop_spec vm.heap local_ l none vm.current.openUpvalues _ hc hlen
  have hprev : (a.getLast?).or none = a.getLast? := by cases a.getLast? <;> rfl
  rw [hprev] at hloop
  subst hsplit
  -- the case in which a fresh upvalue is linked in
  have hfresh : (∀ r ∈ b, slotOf vm.heap r < local_) →
      upvalueIsAt vm.heap b.head? local_ = false →
      ∃ vm1 r l1, captureUpvalue H vm local_ = some (vm1, r) ∧
        chain (openNext vm1.heap) vm1.current.openUpvalues l1 = true ∧
        (l1.map (slotOf vm1.heap)).Pairwise (· > ·) ∧
        r ∈ l1 ∧ slotOf vm1.heap r = local_ ∧
        ((∃ x ∈ a ++ b, slotOf vm.heap x = local_) → r ∈ a ++ b ∧ vm1 = vm ∧ l1 = a ++ b) ∧
        ((∀ x ∈ a ++ b, slotOf vm.heap x ≠ local_) →
          r ∉ a ++ b ∧ (∃ a' b', a ++ b = a' ++ b' ∧ l1 = a' ++ r :: b') ∧
          ∀ x ∈ a ++ b, slotOf vm1.heap x = slotOf vm.heap x) := by
    intro hbl hat
    obtain ⟨vm1, r, h1, h2, h3, h4, h5, h6⟩ :=
      captureUpvalue_insert H vm local_ a b hc hs hready ha hbl hloop hca hcb hat
    refine ⟨vm1, r, a ++ r :: b, h1, h2, h3, by simp, h4, ?_, ?_⟩
    · rintro ⟨x, hx, hxs⟩
      rcases List.mem_append.mp hx with hxa | hxb
      · have := ha x hxa
        omega
      · have := hbl x hxb
        omega
    · intro _
      exact ⟨h5, ⟨a, b, rfl, rfl⟩, h6⟩
  cases b with
  | nil => exact hfresh (by simp) rfl
  | cons x t =>
    obtain ⟨o, s, c, n, hg, hd⟩ := open_node_info hc (show x ∈ a ++ x :: t by simp)
    have hxs : slotOf vm.heap x = s := slotOf_of hg hd
    have hle : s ≤ local_ := by
      have := hb x rfl
      omega
    by_cases heq : s = local_
    · -- the list has an upvalue for the slot
      have hat : upvalueIsAt vm.heap (some x) local_ = true := by
        rw [upvalueIsAt_of hg hd]
        simpa using heq
      refine ⟨vm, x, a ++ x :: t, captureUpvalue_found hloop hat, hc, hs, by simp,
        by rw [hxs, heq], fun _ => ⟨by simp, rfl, rfl⟩, ?_⟩
      intro hall
      exact absurd (by rw [hxs, heq]) (hall x (by simp))
    · have hlt : s < local_ := by omega
      apply hfresh
      · intro r hr
        rcases List.mem_cons.mp hr with rfl | hr
        · omega
        · rw [List.map_append, List.pairwise_append] at hs
          have hp := hs.2.1
          rw [List.map_cons, List.pairwise_cons] at hp
          have := hp.1 _ (List.mem_map_of_mem _ hr)
          omega
      · show upvalueIsAt vm.heap (some x) local_ = false
        rw [upvalueIsAt_of hg hd]
        simpa using heq

theorem captureUpvalue_keeps_order_witness :
    chain (openNext callVM.heap) callVM.current.openUpvalues [3, 2] = true ∧
    ([3, 2].map (slotOf callVM.heap)).Pairwise (· > ·) ∧
    heapFibersIdle callVM.heap = true ∧ objectsProper callVM = true ∧
    ∃ vm1 r l1, captureUpvalue exampleHost callVM 2 = some (vm1, r) ∧
      chain (openNext vm1.heap) vm1.current.openUpvalues l1 = true ∧
      (l1.map (slotOf vm1.heap)).Pairwise (· > ·) ∧
      r ∈ l1 ∧ slotOf vm1.heap r = 2 ∧
      ((∃ x ∈ [3, 2], slotOf callVM.heap x = 2) → r ∈ [3, 2] ∧ vm1 = callVM ∧ l1 = [3, 2]) ∧
      ((∀ x ∈ [3, 2], slotOf callVM.heap x ≠ 2) →
        r ∉ [3, 2] ∧ (∃ a b, [3, 2] = a ++ b ∧ l1 = a ++ r :: b) ∧
        ∀ x ∈ [3, 2], slotOf vm1.heap x = slotOf callVM.heap x) :=
  ⟨by decide, by decide, by decide, by decide,
   captureUpvalue_keeps_order exampleHost callVM 2 [3, 2] (by decide) (by decide) (by decide)
     (by decide)⟩

/-- C11: OP_RETURN on a fiber whose open-upvalue list is well formed and whose innermost
frame has base `slots`, with the return value on top of the stack.  With more than one
frame the step continues: the innermost frame is removed and no other, the stack is cut at
`slots` and the return value is stored there, so stackTop is `slots + 1`.  With exactly one
frame the step yields INTERPRET_OK with no frame left and a second value popped, which is
the script closure when the frame held nothing else. -/
theorem OP_RETURN_frame_and_stack (H : Host) (fuel : Nat) (vm : VM) (frame : CallFrame)
    (l : List Ref)
    (hf : vm.current.frames.getLast? = some frame)
    (hc : chain (openNext vm.heap) vm.current.openUpvalues l = true)
    (hslots : frame.slots < vm.current.stack.length) :
    ∃ res vm1, runSingle H fuel vm OpCode.OP_RETURN.toByte = some (res, vm1) ∧
      vm1.current.frames = vm.current.frames.dropLast ∧
      (1 < vm.current.frames.length →
        res = .INTERPRET_CONTINUE ∧
        vm1.current.frames.length + 1 = vm.current.frames.length ∧
        vm1.current.stackTop = frame.slots + 1 ∧
        vm1.current.stack.getD frame.slots .nil = peek vm 0 ∧
        (∀ i, i ≠ frame.slots → vm1.current.stack.getD i .nil = vm.current.stack.getD i .nil)) ∧
      (vm.current.frames.length = 1 →
        res = .INTERPRET_OK ∧ vm1.current.frames = [] ∧
        vm1.current.stackTop = vm.current.stackTop - 2 ∧
        vm1.current.stack = vm.current.stack ∧
        (vm.current.stackTop = frame.slots + 2 →
          (pop (pop vm).2).1 = vm.current.stack.getD frame.slots .nil)) := by
  have hc' : chain (openNext (pop vm).2.heap) (pop vm).2.current.openUpvalues l = true := hc
  obtain ⟨vm2, _, _, hclose, _, _, _, _, _, _, _, heq⟩ :=
    closeUpvalues_total (pop vm).2 frame.slots l hc'
  have hfr : vm2.current.frames = vm.current.frames := by rw [heq]; rfl
  have hst : vm2.current.stack = vm.current.stack := by rw [heq]; rfl
  have htp : vm2.current.stackTop = vm.current.stackTop - 1 := by rw [heq]; rfl
  rw [runSingle_OP_RETURN_eq]
  unfold runSingle_OP_RETURN
  simp only [hf, hclose]
  have hlen : (vm.current.frames.dropLast).length = vm.current.frames.length - 1 :=
    List.length_dropLast _
  by_cases h0 : vm2.current.frames.dropLast.length = 0
  · rw [if_pos h0]
    rw [hfr] at h0
    have h1 : vm.current.frames.length ≤ 1 := by omega
    refine ⟨_, _, rfl, ?_, ?_, ?_⟩
    · simp [pop, hfr]
    · intro h; omega
    · intro _
      refine ⟨rfl, ?_, ?_, ?_, ?_⟩
      · simp only [pop, hfr]
        exact List.length_eq_zero.mp h0
      · simp only [pop, htp]
        omega
      · simp only [pop, hst]
      · intro h2
        simp only [pop]
        congr 1
        omega
  · rw [if_neg h0]
    rw [hfr] at h0
    refine ⟨_, _, rfl, ?_, ?_, ?_⟩
    · simp [push, hfr]
    · intro _
      refine ⟨rfl, ?_, ?_, ?_, ?_⟩
      · simp only [push, hfr, hlen]
        omega
      · simp [push]
      · simp only [push, hst, pop, peek]
        rw [List.getD_eq_getElem?_getD, List.getElem?_set_eq_of_lt _ hslots]
        simp [List.getD_eq_getElem?_getD]
      · intro i hi
        simp only [push, hst]
        rw [List.getD_eq_getElem?_getD, List.getD_eq_getElem?_getD,
          List.getElem?_set_ne (Ne.symm hi)]
    · intro h; omega

/-- C11 at callVM, where two frames are live, and at the machine left by that return,
where one is. -/
theorem OP_RETURN_frame_and_stack_witness :
    (∃ res vm1, runSingle exampleHost 1 callVM OpCode.OP_RETURN.toByte = some (res, vm1) ∧
      vm1.current.frames = callVM.current.frames.dropLast ∧
      (1 < callVM.current.frames.length →
        res = .INTERPRET_CONTINUE ∧
        vm1.current.frames.length + 1 = callVM.current.frames.length ∧
        vm1.current.stackTop = 2 + 1 ∧
        vm1.current.stack.getD 2 .nil = peek callVM 0 ∧
        (∀ i, i ≠ 2 → vm1.current.stack.getD i .nil = callVM.current.stack.getD i .nil)) ∧
      (callVM.current.frames.length = 1 →
        res = .INTERPRET_OK ∧ vm1.current.frames = [] ∧
        vm1.current.stackTop = callVM.current.stackTop - 2 ∧
        vm1.current.stack = callVM.current.stack ∧
        (callVM.current.stackTop = 2 + 2 →
          (pop (pop callVM).2).1 = callVM.current.stack.getD 2 .nil))) ∧
    1 < callVM.current.frames.length :=
  ⟨OP_RETURN_frame_and_stack exampleHost 1 callVM { closure := 1, ip := 0, slots := 2 } [3, 2]
     (by decide) (by decide) (by decide), by decide⟩

/-- C12: for a closure over a function, call fails, with the runtime error that resets the
fiber, exactly when argCount differs from the arity of the function or the fiber has
FRAMES_MAX = 64 frames; otherwise it returns true and has added one frame at the end, with
that closure, `ip` at the start of the chunk and base `stackTop - argCount - 1`, and nothing
else of the machine has changed, the value stack included. -/
theorem call_checks_arity_and_depth (vm : VM) (closure function : Ref) (argCount : Nat)
    (c fo : Obj) (upvalues : List (Option Ref)) (f : ObjFunction)
    (hc : heapGet vm.heap closure = some c) (hcd : c.data = .closure function upvalues)
    (hf : heapGet vm.heap function = some fo) (hfd : fo.data = .function f)
    (hargs : argCount + 1 ≤ vm.current.stackTop) :
    FRAMES_MAX = 64 ∧
    ∃ ok vm1, call vm closure argCount = some (ok, vm1) ∧
      (ok = false ↔ (argCount ≠ f.arity ∨ vm.current.frames.length = FRAMES_MAX)) ∧
      (ok = false → vm1 = runtimeError vm) ∧
      (ok = true →
        ∃ frame, vm1.current.frames = vm.current.frames ++ [frame] ∧
          frame.closure = closure ∧ frame.ip = 0 ∧
          frame.slots + argCount + 1 = vm.current.stackTop ∧
          vm1 = { vm with current := { vm.current with frames := vm1.current.frames } }) := by
  refine ⟨rfl, ?_⟩
  unfold call
  simp only [hc, hcd, hf, hfd]
  by_cases h1 : argCount ≠ f.arity
  · rw [if_pos h1]
    exact ⟨false, _, rfl, by simp [h1], fun _ => rfl, fun h => by cases h⟩
  · rw [if_neg h1]
    by_cases h2 : vm.current.frames.length = FRAMES_MAX
    · rw [if_pos h2]
      exact ⟨false, _, rfl, by simp [h2], fun _ => rfl, fun h => by cases h⟩
    · rw [if_neg h2]
      refine ⟨true, _, rfl, by simp [h1, h2], (fun h => by cases h), fun _ => ?_⟩
      refine ⟨_, rfl, rfl, rfl, ?_, rfl⟩
      show vm.current.stackTop - argCount - 1 + argCount + 1 = vm.current.stackTop
      omega

/-- C12 at callVM: the closure 1 takes no argument, so a call with none adds a frame and a
call with one argument fails. -/
theorem call_checks_arity_and_depth_witness :
    (∃ ok vm1, call callVM 1 0 = some (ok, vm1) ∧
      (ok = false ↔ (0 ≠ 0 ∨ callVM.current.frames.length = FRAMES_MAX)) ∧
      (ok = false → vm1 = runtimeError callVM) ∧
      (ok = true →
        ∃ frame, vm1.current.frames = callVM.current.frames ++ [frame] ∧
          frame.closure = 1 ∧ frame.ip = 0 ∧
          frame.slots + 0 + 1 = callVM.current.stackTop ∧
          vm1 = { callVM with
                  current := { callVM.current with frames := vm1.current.frames } })) ∧
    (∃ ok vm1, call callVM 1 1 = some (ok, vm1) ∧
      (ok = false ↔ (1 ≠ 0 ∨ callVM.current.frames.length = FRAMES_MAX)) ∧
      (ok = false → vm1 = runtimeError callVM) ∧
      (ok = true →
        ∃ frame, vm1.current.frames = callVM.current.frames ++ [frame] ∧
          frame.closure = 1 ∧ frame.ip = 0 ∧
          frame.slots + 1 + 1 = callVM.current.stackTop ∧
          vm1 = { callVM with
                  current := { callVM.current with frames := vm1.current.frames } })) :=
  ⟨(call_checks_arity_and_depth callVM 1 0 0 _ _ [] _ rfl rfl rfl rfl (by decide)).2,
   (call_checks_arity_and_depth callVM 1 0 1 _ _ [] _ rfl rfl rfl rfl (by decide)).2⟩

theorem mem_of_tableGet {t : Table} {k : Ref} {v : Value} (h : tableGet t k = some v) :
    (k, v) ∈ t := by
  induction t with
  | nil => simp [tableGet] at h
  | cons e rest ih =>
    rw [tableGet_cons] at h
    by_cases hk : k = e.1
    · rw [if_pos hk] at h
      have hv : e.2 = v := Option.some.inj h
      rw [hk, ← hv]
      exact List.mem_cons_self _ _
    · rw [if_neg hk] at h
      exact List.mem_cons_of_mem _ (ih h)

theorem tableRefs_of_mem {t : Table} {k c : Ref} (h : (k, Value.obj c) ∈ t) :
    c ∈ tableRefs t := by
  unfold tableRefs
  rw [List.mem_flatMap]
  exact ⟨(k, .obj c), h, by simp [valueRefs, valueRef]⟩

/-- C13: calling a class that is at peek(argCount), on a machine between two collections.
newInstance returns a fresh object that is an instance of the class without fields, and
the callee slot is made to hold it; nothing else of the fiber changes.  If the class has no
`init` method the call returns true exactly when argCount is 0, with no frame added, and
otherwise reports a runtime error; if the class has an `init` method, that method is called
with the same argCount on the machine with the instance in the callee slot, and for a
closure over a function this call returns, with false exactly when argCount differs from
the arity or the fiber has FRAMES_MAX frames. -/
theorem callValue_class_instantiates (H : Host) (fuel : Nat) (vm : VM) (r : Ref)
    (argCount : Nat) (o : Obj) (name : Ref) (methods : Table)
    (hs : Sound vm) (hp : peek vm argCount = .obj r)
    (hargs : argCount + 1 ≤ vm.current.stackTop)
    (hlen : vm.current.stackTop ≤ vm.current.stack.length)
    (hg : heapGet vm.heap r = some o) (hd : o.data = .klass name methods) :
    ∃ vmA inst oi, newInstance H vm r = some (vmA, inst) ∧
      heapGet vm.heap inst = none ∧
      heapGet vmA.heap inst = some oi ∧ oi.data = .inst r [] ∧
      vmA.current = vm.current ∧
      (setCallee vmA argCount (.obj inst)).current =
        { vm.current with
          stack := vm.current.stack.set (vm.current.stackTop - argCount - 1) (.obj inst) } ∧
      peek (setCallee vmA argCount (.obj inst)) argCount = .obj inst ∧
      (tableGet methods vm.constants.strInit_ = none →
        (argCount = 0 →
          callValue H (fuel + 1) vm (.obj r) argCount =
            some (true, setCallee vmA argCount (.obj inst))) ∧
        (argCount ≠ 0 →
          callValue H (fuel + 1) vm (.obj r) argCount =
            some (false, runtimeError (setCallee vmA argCount (.obj inst))))) ∧
      (∀ initializer, tableGet methods vm.constants.strInit_ = some initializer →
        callValue H (fuel + 1) vm (.obj r) argCount =
          callClosureValue (setCallee vmA argCount (.obj inst)) initializer argCount ∧
        (∀ c co function upvalues fo f, initializer = .obj c →
          heapGet vm.heap c = some co → co.data = .closure function upvalues →
          heapGet vm.heap function = some fo → fo.data = .function f →
          ∃ ok vm1,
            callValue H (fuel + 1) vm (.obj r) argCount = some (ok, vm1) ∧
            (ok = false ↔ (argCount ≠ f.arity ∨ vm.current.frames.length = FRAMES_MAX)) ∧
            (ok = true →
              vm1.current.frames = vm.current.frames ++
                [{ closure := c, ip := 0, slots := vm.current.stackTop - argCount - 1 }]))) := by
  obtain ⟨vmG, cG, kG, _, halloc, _⟩ :=
    allocateObject_full H vm (.inst r []) hs (fun f h => by cases h)
  obtain ⟨gcur, _, _, gconst, glen, _, _, groots, _, _⟩ := cG
  have hroot : r ∈ rootRefs vm := peek_root hp hargs hlen
  obtain ⟨o1, ho1, hd1⟩ := groots r hroot o hg
  have hrlt : r < vmG.heap.length := heapGet_lt ho1
  let vmA : VM :=
    { vmG with
      heap := vmG.heap ++ [some { isMarked := false, next := vmG.objects, data := .inst r [] }]
      objects := some vmG.heap.length }
  have hnew : newInstance H vm r = some (vmA, vmG.heap.length) := halloc
  have hclass : heapGet (setCallee vmA argCount (.obj vmG.heap.length)).heap r = some o1 := by
    show heapGet (vmG.heap ++ [_]) r = some o1
    rw [heapGet_append_lt _ hrlt]
    exact ho1
  have hk1 : o1.data = .klass name methods := by rw [hd1, hd]
  have hconst : (setCallee vmA argCount (.obj vmG.heap.length)).constants.strInit_ =
      vm.constants.strInit_ := by
    show vmG.constants.strInit_ = _
    rw [gconst]
  have hslot : vm.current.stackTop - argCount - 1 < vm.current.stack.length := by omega
  have hcur2 : (setCallee vmA argCount (.obj vmG.heap.length)).current =
      { vm.current with
        stack := vm.current.stack.set (vm.current.stackTop - argCount - 1)
          (.obj vmG.heap.length) } := by
    show ({ vmG.current with stack := _ } : ObjFiber) = _
    rw [gcur]
  refine ⟨vmA, vmG.heap.length, _, hnew, ?_, heapGet_append_self _ _, rfl, gcur, hcur2, ?_, ?_,
    ?_⟩
  · rw [glen]
    exact heapGet_length _
  · unfold peek
    rw [hcur2]
    have e : vm.current.stackTop - 1 - argCount = vm.current.stackTop - argCount - 1 := by omega
    simp only
    rw [e, getD_set_eq _ _ _ _ hslot, if_pos rfl]
  · intro hnone
    have hnone' : tableGet methods
        (setCallee vmA argCount (.obj vmG.heap.length)).constants.strInit_ = none := by
      rw [hconst]; exact hnone
    constructor
    · intro h0
      unfold callValue
      simp only [hg, hd, hnew, hclass, hk1, hnone']
      simp [h0]
    · intro h0
      unfold callValue
      simp only [hg, hd, hnew, hclass, hk1, hnone']
      simp [h0]
  · intro initializer hinit
    have hinit' : tableGet methods
        (setCallee vmA argCount (.obj vmG.heap.length)).constants.strInit_ =
        some initializer := by
      rw [hconst]; exact hinit
    have hcv : callValue H (fuel + 1) vm (.obj r) argCount =
        callClosureValue (setCallee vmA argCount (.obj vmG.heap.length)) initializer argCount := by
      unfold callValue
      simp only [hg, hd, hnew, hclass, hk1, hinit']
    refine ⟨hcv, ?_⟩
    intro c co function upvalues fo f hic hco hcod hfo hfod
    have hrc : Reachable vm c := by
      refine Reachable.step (Reachable.root hroot) hg ?_
      rw [hd]
      show c ∈ name :: tableRefs methods
      rw [hic] at hinit
      exact List.mem_cons_of_mem _ (tableRefs_of_mem (mem_of_tableGet hinit))
    have hrf : Reachable vm function := by
      refine Reachable.step hrc hco ?_
      rw [hcod]
      exact List.mem_cons_self _ _
    obtain ⟨co1, hco1, hcd1⟩ := kG c hrc co hco
    obtain ⟨fo1, hfo1, hfd1⟩ := kG function hrf fo hfo
    have hcA : heapGet (setCallee vmA argCount (.obj vmG.heap.length)).heap c = some co1 := by
      show heapGet (vmG.heap ++ [_]) c = some co1
      rw [heapGet_append_lt _ (heapGet_lt hco1)]
      exact hco1
    have hfA : heapGet (setCallee vmA argCount (.obj vmG.heap.length)).heap function =
        some fo1 := by
      show heapGet (vmG.heap ++ [_]) function = some fo1
      rw [heapGet_append_lt _ (heapGet_lt hfo1)]
      exact hfo1
    have hframes : (setCallee vmA argCount (.obj vmG.heap.length)).current.frames =
        vm.current.frames := by
      show vmG.current.frames = _
      rw [gcur]
    have htop : (setCallee vmA argCount (.obj vmG.heap.length)).current.stackTop =
        vm.current.stackTop := by
      show vmG.current.stackTop = _
      rw [gcur]
    rw [hcv, hic]
    show ∃ ok vm1, call (setCallee vmA argCount (.obj vmG.heap.length)) c argCount =
      some (ok, vm1) ∧ _
    unfold call
    simp only [hcA, hcd1, hcod, hfA, hfd1, hfod, hframes, htop]
    by_cases h1 : argCount ≠ f.arity
    · rw [if_pos h1]
      exact ⟨false, _, rfl, by simp [h1], fun h => by cases h⟩
    · rw [if_neg h1]
      by_cases h2 : vm.current.frames.length = FRAMES_MAX
      · rw [if_pos h2]
        exact ⟨false, _, rfl, by simp [h2], fun h => by cases h⟩
      · rw [if_neg h2]
        exact ⟨true, _, rfl, by simp [h1, h2], fun _ => rfl⟩

/-- C13 at classVM: a class without methods called with no argument, and a class whose
`init` is the closure 1. -/
theorem callValue_class_instantiates_witness :
    (∃ vmA inst, newInstance exampleHost (classVM []) 3 = some (vmA, inst) ∧
      callValue exampleHost 1 (classVM []) (.obj 3) 0 =
        some (true, setCallee vmA 0 (.obj inst))) ∧
    (∃ ok vm1, callValue exampleHost 1 (classVM [(2, .obj 1)]) (.obj 3) 0 = some (ok, vm1) ∧
      (ok = false ↔ (0 ≠ 0 ∨ (classVM [(2, .obj 1)]).current.frames.length = FRAMES_MAX))) := by
  constructor
  · obtain ⟨vmA, inst, _, h1, _, _, _, _, _, _, h2, _⟩ :=
      callValue_class_instantiates exampleHost 0 (classVM []) 3 0 _ 2 []
        ⟨⟨by decide, by decide, by decide⟩, by decide, by decide⟩ rfl (by decide) (by decide)
        rfl rfl
    exact ⟨vmA, inst, h1, (h2 rfl).1 rfl⟩
  · obtain ⟨_, _, _, _, _, _, _, _, _, _, _, h3⟩ :=
      callValue_class_instantiates exampleHost 0 (classVM [(2, .obj 1)]) 3 0 _ 2 [(2, .obj 1)]
        ⟨⟨by decide, by decide, by decide⟩, by decide, by decide⟩ rfl (by decide) (by decide)
        rfl rfl
    obtain ⟨ok, vm1, h4, h5, _⟩ := (h3 (.obj 1) rfl).2 1 _ 0 [] _ _ rfl rfl rfl rfl rfl
    exact ⟨ok, vm1, h4, h5⟩

/-- The for loop of callValuePostfix moves the values of the slots it covers up by one and
leaves the rest of the machine alone. -/
theorem callValuePostfixLoop_spec :
    ∀ (count i : Nat) (vm : VM), i + count + 1 ≤ vm.current.stackTop →
      vm.current.stackTop ≤ vm.current.stack.length →
      (callValuePostfixLoop count i vm).current.stack.length = vm.current.stack.length ∧
      (∀ j, (callValuePostfixLoop count i vm).current.stack.getD j .nil =
        if vm.current.stackTop - i - count ≤ j ∧ j + i + 1 ≤ vm.current.stackTop then
          vm.current.stack.getD (j - 1) .nil
        else vm.current.stack.getD j .nil) ∧
      callValuePostfixLoop count i vm =
        { vm with
          current := { vm.current with
                       stack := (callValuePostfixLoop count i vm).current.stack } } := by
  intro count
  induction count with
  | zero =>
    intro i vm _ _
    refine ⟨rfl, fun j => ?_, rfl⟩
    have : ¬ (vm.current.stackTop - i - 0 ≤ j ∧ j + i + 1 ≤ vm.current.stackTop) := by omega
    rw [if_neg this]
    rfl
  | succ n ih =>
    intro i vm hi hlen
    let vm1 : VM :=
      { vm with
        current :=
          { vm.current with
            stack := vm.current.stack.set (vm.current.stackTop - 1 - i)
              (vm.current.stack.getD (vm.current.stackTop - 1 - i - 1) .nil) } }
    have hstep : callValuePostfixLoop (n + 1) i vm = callValuePostfixLoop n (i + 1) vm1 := rfl
    have h1top : vm1.current.stackTop = vm.current.stackTop := rfl
    have h1len : vm1.current.stack.length = vm.current.stack.length := by
      simp [vm1]
    obtain ⟨a, b, c⟩ := ih (i + 1) vm1 (by rw [h1top]; omega) (by rw [h1top, h1len]; exact hlen)
    rw [hstep]
    refine ⟨a.trans h1len, fun j => ?_, ?_⟩
    · rw [b j, h1top]
      have hget : ∀ k, vm1.current.stack.getD k .nil =
          if k = vm.current.stackTop - 1 - i then
            vm.current.stack.getD (vm.current.stackTop - 1 - i - 1) .nil
          else vm.current.stack.getD k .nil := by
        intro k
        show (vm.current.stack.set _ _).getD k .nil = _
        rw [getD_set_eq _ _ _ _ (by omega)]
      by_cases h1 : vm.current.stackTop - (i + 1) - n ≤ j ∧ j + (i + 1) + 1 ≤ vm.current.stackTop
      · rw [if_pos h1, hget]
        have h2 : ¬ (j - 1 = vm.current.stackTop - 1 - i) := by omega
        have h3 : vm.current.stackTop - i - (n + 1) ≤ j ∧ j + i + 1 ≤ vm.current.stackTop := by
          omega
        rw [if_neg h2, if_pos h3]
      · rw [if_neg h1, hget]
        by_cases h2 : j = vm.current.stackTop - 1 - i
        · have h3 : vm.current.stackTop - i - (n + 1) ≤ j ∧ j + i + 1 ≤ vm.current.stackTop := by
            omega
          rw [if_pos h2, if_pos h3, h2]
        · have h3 : ¬ (vm.current.stackTop - i - (n + 1) ≤ j ∧
              j + i + 1 ≤ vm.current.stackTop) := by omega
          rw [if_neg h2, if_neg h3]
    · rw [c]

/-- C14: for a stack that ends in a1, ..., an, callee, callValuePostfix calls callValue on
a machine that differs in the top n + 1 slots only: `callee` is at peek(n), each argument
has moved up by one slot, so that their order is kept and the last one is on top, and
stackTop and the slots below are as before. -/
theorem callValuePostfix_rotates (H : Host) (fuel : Nat) (vm : VM) (callee : Value)
    (argCount : Nat)
    (hargs : argCount + 1 ≤ vm.current.stackTop)
    (hlen : vm.current.stackTop ≤ vm.current.stack.length) :
    ∃ vm1, callValuePostfix H fuel vm callee argCount = callValue H fuel vm1 callee argCount ∧
      vm1 = { vm with current := { vm.current with stack := vm1.current.stack } } ∧
      vm1.current.stack.length = vm.current.stack.length ∧
      peek vm1 argCount = callee ∧
      (∀ i, i < argCount → peek vm1 i = peek vm (i + 1)) ∧
      (∀ j, j + argCount + 1 < vm.current.stackTop ∨ vm.current.stackTop ≤ j →
        vm1.current.stack.getD j .nil = vm.current.stack.getD j .nil) := by
  obtain ⟨a, b, c⟩ := callValuePostfixLoop_spec argCount 0 vm (by omega) hlen
  have htop : (callValuePostfixLoop argCount 0 vm).current.stackTop = vm.current.stackTop := by
    rw [c]
  have hget : ∀ j, (callValuePostfixStack vm callee argCount).current.stack.getD j .nil =
      if j = vm.current.stackTop - 1 - argCount then callee
      else (callValuePostfixLoop argCount 0 vm).current.stack.getD j .nil := by
    intro j
    show (((callValuePostfixLoop argCount 0 vm).current.stack.set _ _).getD j .nil) = _
    rw [getD_set_eq _ _ _ _ (by rw [a, htop]; omega), htop]
  have htop2 : (callValuePostfixStack vm callee argCount).current.stackTop =
      vm.current.stackTop := htop
  refine ⟨callValuePostfixStack vm callee argCount, rfl, ?_, ?_, ?_, ?_, ?_⟩
  · show callValuePostfixStack vm callee argCount = _
    unfold callValuePostfixStack
    simp only
    rw [c]
  · show ((callValuePostfixLoop argCount 0 vm).current.stack.set _ _).length = _
    rw [List.length_set, a]
  · simp only [peek, htop2]
    rw [hget, if_pos rfl]
  · intro i hi
    simp only [peek, htop2]
    rw [hget, b]
    have h1 : ¬ (vm.current.stackTop - 1 - i = vm.current.stackTop - 1 - argCount) := by omega
    have h2 : vm.current.stackTop - 0 - argCount ≤ vm.current.stackTop - 1 - i ∧
        vm.current.stackTop - 1 - i + 0 + 1 ≤ vm.current.stackTop := by omega
    rw [if_neg h1, if_pos h2]
    congr 1
  · intro j hj
    rw [hget, b]
    have h1 : ¬ (j = vm.current.stackTop - 1 - argCount) := by omega
    have h2 : ¬ (vm.current.stackTop - 0 - argCount ≤ j ∧ j + 0 + 1 ≤ vm.current.stackTop) := by
      omega
    rw [if_neg h1, if_neg h2]

/-- C14 at callVM with two arguments: the stack ends in 1, 20, 30 (the callee), and
callValue sees 30, 1, 20 there. -/
theorem callValuePostfix_rotates_witness :
    ∃ vm1, callValuePostfix exampleHost 1 callVM (.number 30) 2 =
        callValue exampleHost 1 vm1 (.number 30) 2 ∧
      vm1 = { callVM with current := { callVM.current with stack := vm1.current.stack } } ∧
      vm1.current.stack.length = callVM.current.stack.length ∧
      peek vm1 2 = .number 30 ∧
      (∀ i, i < 2 → peek vm1 i = peek callVM (i + 1)) ∧
      (∀ j, j + 2 + 1 < callVM.current.stackTop ∨ callVM.current.stackTop ≤ j →
        vm1.current.stack.getD j .nil = callVM.current.stack.getD j .nil) :=
  callValuePostfix_rotates exampleHost 1 callVM (.number 30) 2 (by decide) (by decide)

/-- C15: OP_COLLECTION_LIST 2 on a stack that ends in 10, 20, with `List` defined.  When no
collection starts during the step, the instance pushed (object 10) has in `data` the raw
list (object 9) with the values 10, 20.  When the allocation of the instance is the one that
passes `nextGC` (100 bytes allocated, 8 for the raw list, 64 for its array, 8 for the
instance, `nextGC` 175), the collection frees the raw list, which only the C variable `list`
points to, and the `data` field of the instance pushed is left pointing to the freed
object. -/
theorem createCoreList_collected_list :
    collectionOutcome
        (runSingle exampleHost 1 (collectionVM listLiteralStack 3 1 1024)
          OpCode.OP_COLLECTION_LIST.toByte) =
      some (.INTERPRET_CONTINUE, 2, .obj 10, some (.list [.number 10, .number 20] 8),
        some (.inst 4 [(3, .obj 9)]), 180) ∧
    collectionOutcome
        (runSingle exampleHost 1 (collectionVM listLiteralStack 3 1 175)
          OpCode.OP_COLLECTION_LIST.toByte) =
      some (.INTERPRET_CONTINUE, 2, .obj 10, none, some (.inst 4 [(3, .obj 9)]), 98) := by
  constructor <;> rfl

/-- C16: OP_COLLECTION_TABLE 1 on a stack that ends in the string `k` and the number 10,
with `Table` defined.  When no collection starts during the step, the instance pushed
(object 10) has in `data` the raw table (object 9), which maps `k` to 10.  When the
allocation of the instance is the one that passes `nextGC` (100 bytes allocated, 8 for the
raw table, 8 for the instance, `nextGC` 110), the collection frees the raw table, which only
the C variable `table` points to, and the `data` field of the instance pushed is left
pointing to the freed object.  A key that is not a string ends the step with a runtime
error. -/
theorem createCoreTable_collected_table :
    collectionOutcome
        (runSingle exampleHost 1 (collectionVM tableLiteralStack 3 3 1024)
          OpCode.OP_COLLECTION_TABLE.toByte) =
      some (.INTERPRET_CONTINUE, 2, .obj 10, some (.table [(7, .number 10)]),
        some (.inst 6 [(3, .obj 9)]), 116) ∧
    collectionOutcome
        (runSingle exampleHost 1 (collectionVM tableLiteralStack 3 3 110)
          OpCode.OP_COLLECTION_TABLE.toByte) =
      some (.INTERPRET_CONTINUE, 2, .obj 10, none, some (.inst 6 [(3, .obj 9)]), 98) ∧
    (runSingle exampleHost 1 (collectionVM listLiteralStack 3 3 1024)
        OpCode.OP_COLLECTION_TABLE.toByte).map (fun p => p.1) =
      some .INTERPRET_RUNTIME_ERROR := by
  refine ⟨rfl, rfl, rfl⟩

/-- C17: OP_INHERIT with the superclass at peek(1) and the subclass at peek(0).  If the
value at peek(1) is not a class the step is a runtime error.  If both are classes (and the
method table of the superclass holds each name once) the step continues and afterwards every
method name of the superclass maps in the table of the subclass to the closure it has in the
superclass, every other name maps in the subclass to what it mapped to before, the table of
the superclass maps every name as before, no other object has changed, and exactly one
value has been popped. -/
theorem OP_INHERIT_copies_methods (H : Host) (fuel : Nat) (vm : VM) :
    (isObjType vm (peek vm 1) .OBJ_CLASS = false →
      runSingle H fuel vm OpCode.OP_INHERIT.toByte =
        some (.INTERPRET_RUNTIME_ERROR, runtimeError vm)) ∧
    (∀ sup sub so bo superName superMethods name methods,
      peek vm 1 = .obj sup → peek vm 0 = .obj sub →
      heapGet vm.heap sup = some so → so.data = .klass superName superMethods →
      heapGet vm.heap sub = some bo → bo.data = .klass name methods →
      (superMethods.map Prod.fst).Nodup →
      ∃ vm1 methods1 superMethods1,
        runSingle H fuel vm OpCode.OP_INHERIT.toByte = some (.INTERPRET_CONTINUE, vm1) ∧
        heapGet vm1.heap sub = some { bo with data := .klass name methods1 } ∧
        (∀ key value, tableGet superMethods key = some value →
          tableGet methods1 key = some value) ∧
        (∀ key, tableGet superMethods key = none → tableGet methods1 key = tableGet methods key) ∧
        (∃ so1, heapGet vm1.heap sup = some so1 ∧ so1.data = .klass superName superMethods1) ∧
        (∀ key, tableGet superMethods1 key = tableGet superMethods key) ∧
        (∀ r, r ≠ sub → heapGet vm1.heap r = heapGet vm.heap r) ∧
        vm1.current.stackTop = vm.current.stackTop - 1 ∧
        vm1 = { vm with heap := vm1.heap,
                        current := { vm.current with stackTop := vm1.current.stackTop } }) := by
  constructor
  · intro h
    simp [runSingle, ofByte_toByte, h]
  · intro sup sub so bo superName superMethods name methods h1 h0 hso hsd hbo hbd hnd
    have hcls : isObjType vm (.obj sup) .OBJ_CLASS = true := by
      simp [isObjType, hso, hsd, ObjData.type]
    have hlt : sub < vm.heap.length := heapGet_lt hbo
    have hadd := tableGet_tableAddAll superMethods hnd methods
    have hrun : runSingle H fuel vm OpCode.OP_INHERIT.toByte =
        some (.INTERPRET_CONTINUE,
          (pop { vm with
                 heap := vm.heap.set sub
                   (some { bo with data := .klass name (tableAddAll superMethods methods) }) }).2) := by
      simp [runSingle, ofByte_toByte, hcls, h1, h0, hso, hsd, hbo, hbd, setData]
    have hget : ∀ r, heapGet
        (pop { vm with
               heap := vm.heap.set sub
                 (some { bo with data := .klass name (tableAddAll superMethods methods) }) }).2.heap r =
        if r = sub then some { bo with data := .klass name (tableAddAll superMethods methods) }
        else heapGet vm.heap r := fun r => heapGet_set _ _ _ _ hlt
    have hkey1 : ∀ key value, tableGet superMethods key = some value →
        tableGet (tableAddAll superMethods methods) key = some value := by
      intro key value hk
      rw [hadd, hk]
    have hkey2 : ∀ key, tableGet superMethods key = none →
        tableGet (tableAddAll superMethods methods) key = tableGet methods key := by
      intro key hk
      rw [hadd, hk]
    by_cases hss : sup = sub
    · subst hss
      rw [hso] at hbo
      cases hbo
      rw [hsd] at hbd
      cases hbd
      refine ⟨_, tableAddAll superMethods superMethods, tableAddAll superMethods superMethods,
        hrun, ?_, hkey1, hkey2,
        ⟨{ so with data := .klass superName (tableAddAll superMethods superMethods) }, ?_, rfl⟩,
        ?_, ?_, rfl, rfl⟩
      · rw [hget, if_pos rfl]
      · rw [hget, if_pos rfl]
      · intro key
        rw [hadd]
        cases tableGet superMethods key <;> rfl
      · intro r hr
        rw [hget, if_neg hr]
    · refine ⟨_, tableAddAll superMethods methods, superMethods,
        hrun, ?_, hkey1, hkey2, ⟨so, ?_, hsd⟩, fun _ => rfl, ?_, rfl, rfl⟩
      · rw [hget, if_pos rfl]
      · rw [hget, if_neg hss]
        exact hso
      · intro r hr
        rw [hget, if_neg hr]

/-- C17 at inheritVM, and at callVM, where peek(1) is a number. -/
theorem OP_INHERIT_copies_methods_witness :
    (∃ vm1 methods1 superMethods1,
        runSingle exampleHost 1 inheritVM OpCode.OP_INHERIT.toByte =
          some (.INTERPRET_CONTINUE, vm1) ∧
        heapGet vm1.heap 5 =
          some { isMarked := false, next := some 4, data := .klass 4 methods1 } ∧
        (∀ key value, tableGet [(2, .obj 1)] key = some value →
          tableGet methods1 key = some value) ∧
        (∀ key, tableGet [(2, .obj 1)] key = none →
          tableGet methods1 key = tableGet [(4, .obj 1)] key) ∧
        (∃ so1, heapGet vm1.heap 3 = some so1 ∧ so1.data = .klass 2 superMethods1) ∧
        (∀ key, tableGet superMethods1 key = tableGet [(2, .obj 1)] key) ∧
        (∀ r, r ≠ 5 → heapGet vm1.heap r = heapGet inheritVM.heap r) ∧
        vm1.current.stackTop = inheritVM.current.stackTop - 1 ∧
        vm1 = { inheritVM with
                heap := vm1.heap,
                current := { inheritVM.current with stackTop := vm1.current.stackTop } }) ∧
    runSingle exampleHost 1 callVM OpCode.OP_INHERIT.toByte =
      some (.INTERPRET_RUNTIME_ERROR, runtimeError callVM) :=
  ⟨(OP_INHERIT_copies_methods exampleHost 1 inheritVM).2 3 5 _ _ 2 [(2, .obj 1)] 4 [(4, .obj 1)]
      rfl rfl rfl rfl rfl rfl (by decide),
   (OP_INHERIT_copies_methods exampleHost 1 callVM).1 (by decide)⟩

/-- The six opcodes whose case is the macro BINARY_OP. -/
theorem runSingle_binary (H : Host) (fuel : Nat) (vm : VM) (op : OpCode)
    (hop : op = .OP_ADD ∨ op = .OP_SUBTRACT ∨ op = .OP_MULTIPLY ∨ op = .OP_DIVIDE ∨
      op = .OP_GREATER ∨ op = .OP_LESS) :
    ∃ f : Int → Int → Value, runSingle H fuel vm op.toByte = some (BINARY_OP vm f) := by
  rcases hop with h | h | h | h | h | h <;> subst h <;>
    (simp only [runSingle, ofByte_toByte]; exact ⟨_, rfl⟩)

/-- C18: for OP_ADD, OP_SUBTRACT, OP_MULTIPLY, OP_DIVIDE, OP_GREATER and OP_LESS, if one of
the two topmost values is not a number the step yields INTERPRET_RUNTIME_ERROR with the
fiber reset; if both are numbers the step continues, the two values are popped and one
result is stored in the slot of the lower one, so stackTop is one less and nothing else
changes.  With `a` the number below the top and `b` the number on top, that result is the
number `a + b` for OP_ADD, `a - b` for OP_SUBTRACT, `a * b` for OP_MULTIPLY, `a / b` for
OP_DIVIDE, and the boolean `a > b` for OP_GREATER, `a < b` for OP_LESS (the operators of
double are those of the host); when the stack pointer lies within the stack it is the new
topmost value. -/
theorem binary_op_numbers_only (H : Host) (fuel : Nat) (vm : VM) (op : OpCode)
    (hop : op = .OP_ADD ∨ op = .OP_SUBTRACT ∨ op = .OP_MULTIPLY ∨ op = .OP_DIVIDE ∨
      op = .OP_GREATER ∨ op = .OP_LESS)
    (htop : 2 ≤ vm.current.stackTop) :
    ((IS_NUMBER (peek vm 0) = false ∨ IS_NUMBER (peek vm 1) = false) →
      runSingle H fuel vm op.toByte = some (.INTERPRET_RUNTIME_ERROR, runtimeError vm)) ∧
    ((IS_NUMBER (peek vm 0) = true ∧ IS_NUMBER (peek vm 1) = true) →
      ∃ result vm1, runSingle H fuel vm op.toByte = some (.INTERPRET_CONTINUE, vm1) ∧
        vm1.current.stackTop + 1 = vm.current.stackTop ∧
        vm1.current.stack = vm.current.stack.set (vm.current.stackTop - 2) result ∧
        vm1 = { vm with
                current := { vm.current with
                             stack := vm1.current.stack, stackTop := vm1.current.stackTop } } ∧
        (op = .OP_ADD →
          result = .number (H.numAdd (AS_NUMBER (peek vm 1)) (AS_NUMBER (peek vm 0)))) ∧
        (op = .OP_SUBTRACT →
          result = .number (H.numSub (AS_NUMBER (peek vm 1)) (AS_NUMBER (peek vm 0)))) ∧
        (op = .OP_MULTIPLY →
          result = .number (H.numMul (AS_NUMBER (peek vm 1)) (AS_NUMBER (peek vm 0)))) ∧
        (op = .OP_DIVIDE →
          result = .number (H.numDiv (AS_NUMBER (peek vm 1)) (AS_NUMBER (peek vm 0)))) ∧
        (op = .OP_GREATER →
          result = .bool (H.numGreater (AS_NUMBER (peek vm 1)) (AS_NUMBER (peek vm 0)))) ∧
        (op = .OP_LESS →
          result = .bool (H.numLess (AS_NUMBER (peek vm 1)) (AS_NUMBER (peek vm 0)))) ∧
        (vm.current.stackTop ≤ vm.current.stack.length → peek vm1 0 = result)) := by
  constructor
  · intro h
    obtain ⟨f, hf⟩ := runSingle_binary H fuel vm op hop
    rw [hf]
    have : ¬ IS_NUMBER (peek vm 0) = true ∨ ¬ IS_NUMBER (peek vm 1) = true := by
      rcases h with h | h
      · exact Or.inl (by simp [h])
      · exact Or.inr (by simp [h])
    simp only [BINARY_OP, if_pos this]
  · intro h
    have hn : ¬ (¬ IS_NUMBER (peek vm 0) = true ∨ ¬ IS_NUMBER (peek vm 1) = true) := by
      simp [h.1, h.2]
    have hpeek : ∀ result : Value, vm.current.stackTop ≤ vm.current.stack.length →
        peek (push (pop (pop vm).2).2 result) 0 = result := by
      intro result hle
      simp only [peek, push, pop]
      have e : vm.current.stackTop - 1 - 1 + 1 - 1 - 0 = vm.current.stackTop - 1 - 1 := by omega
      rw [e, List.getD_eq_getElem?_getD, List.getElem?_set_eq_of_lt _ (by omega)]
      rfl
    have hA : (pop (pop vm).2).1 = peek vm 1 := rfl
    have hB : (pop vm).1 = peek vm 0 := rfl
    have hst : (push (pop (pop vm).2).2 (Value.nil)).current.stackTop + 1 =
        vm.current.stackTop := by
      simp only [push, pop]
      omega
    have hset : ∀ result : Value, (push (pop (pop vm).2).2 result).current.stack =
        vm.current.stack.set (vm.current.stackTop - 2) result := by
      intro result
      simp only [push, pop]
      congr 1
    rcases hop with e | e | e | e | e | e <;> subst e <;>
      simp only [runSingle, ofByte_toByte, BINARY_OP, if_neg hn, hA, hB] <;>
      refine ⟨_, _, rfl, hst, hset _, rfl, ?_, ?_, ?_, ?_, ?_, ?_, hpeek _⟩ <;>
      intro e <;> first | rfl | cases e

/-- C18 at callVM, whose two topmost values are the numbers 20 (below) and 30 (on top): for
OP_SUBTRACT the new topmost value is the number -10 and for OP_LESS the boolean true, with
the stack one lower; at the same machine with `true` pushed on top the step is a runtime
error. -/
theorem binary_op_numbers_only_witness :
    (∃ vm1, runSingle exampleHost 1 callVM OpCode.OP_SUBTRACT.toByte =
        some (.INTERPRET_CONTINUE, vm1) ∧
      vm1.current.stackTop + 1 = callVM.current.stackTop ∧ peek vm1 0 = .number (-10)) ∧
    (∃ vm1, runSingle exampleHost 1 callVM OpCode.OP_LESS.toByte =
        some (.INTERPRET_CONTINUE, vm1) ∧
      vm1.current.stackTop + 1 = callVM.current.stackTop ∧ peek vm1 0 = .bool true) ∧
    runSingle exampleHost 1 (push callVM (.bool true)) OpCode.OP_ADD.toByte =
      some (.INTERPRET_RUNTIME_ERROR, runtimeError (push callVM (.bool true))) := by
  refine ⟨?_, ?_, ?_⟩
  · obtain ⟨result, vm1, h1, h2, _, _, _, hsub, _, _, _, _, hp⟩ :=
      (binary_op_numbers_only exampleHost 1 callVM .OP_SUBTRACT (Or.inr (Or.inl rfl))
        (by decide)).2 ⟨by decide, by decide⟩
    refine ⟨vm1, h1, h2, ?_⟩
    rw [hp (by decide), hsub rfl]
    decide
  · obtain ⟨result, vm1, h1, h2, _, _, _, _, _, _, _, hless, hp⟩ :=
      (binary_op_numbers_only exampleHost 1 callVM .OP_LESS
        (Or.inr (Or.inr (Or.inr (Or.inr (Or.inr rfl))))) (by decide)).2
        ⟨by decide, by decide⟩
    refine ⟨vm1, h1, h2, ?_⟩
    rw [hp (by decide), hless rfl]
    decide
  · exact (binary_op_numbers_only exampleHost 1 (push callVM (.bool true)) .OP_ADD (Or.inl rfl)
      (by decide)).1 (Or.inl (by decide))

theorem FiberReset_runtimeError (vm : VM) : FiberReset (runtimeError vm) :=
  ⟨rfl, rfl, rfl⟩

theorem call_false {vm vm1 : VM} {closure : Ref} {argCount : Nat}
    (h : call vm closure argCount = some (false, vm1)) : FiberReset vm1 := by
  simp only [call] at h
  repeat' (split at h)
  all_goals (try simp at h)
  all_goals (subst h; exact FiberReset_runtimeError _)

theorem callClosureValue_false {vm vm1 : VM} {v : Value} {argCount : Nat}
    (h : callClosureValue vm v argCount = some (false, vm1)) : FiberReset vm1 := by
  simp only [callClosureValue] at h
  split at h
  · exact call_false h
  · simp at h

theorem callValue_false (H : Host) :
    ∀ (fuel : Nat) (vm vm1 : VM) (callee : Value) (argCount : Nat),
      callValue H fuel vm callee argCount = some (false, vm1) → FiberReset vm1 := by
  intro fuel
  induction fuel with
  | zero => intro vm vm1 callee argCount h; simp [callValue] at h
  | succ n ih =>
    intro vm vm1 callee argCount h
    unfold callValue at h
    cases callee with
    | nil => exact ih _ _ _ _ h
    | bool b => exact ih _ _ _ _ h
    | number x => exact ih _ _ _ _ h
    | obj r =>
      simp only at h
      cases hg : heapGet vm.heap r with
      | none => simp [hg] at h
      | some o =>
        simp only [hg] at h
        cases hd : o.data with
        | boundMethod receiver method =>
          simp only [hd] at h
          exact call_false h
        | closure function upvalues =>
          simp only [hd] at h
          exact call_false h
        | native function =>
          simp only [hd] at h
          cases hn : H.native function argCount (vm.current.stackTop - argCount) vm with
          | none => simp [hn] at h
          | some p => simp [hn] at h
        | klass name methods =>
          simp only [hd] at h
          cases hn : newInstance H vm r with
          | none => simp [hn] at h
          | some p =>
            obtain ⟨vmA, inst⟩ := p
            simp only [hn] at h
            cases hk : heapGet (setCallee vmA argCount (.obj inst)).heap r with
            | none => simp [hk] at h
            | some k =>
              simp only [hk] at h
              cases hkd : k.data <;> simp only [hkd] at h <;> try (simp at h)
              rename_i name2 methods2
              cases ht : tableGet methods2 (setCallee vmA argCount (.obj inst)).constants.strInit_ with
              | some initializer =>
                simp only [ht] at h
                exact callClosureValue_false h
              | none =>
                simp only [ht] at h
                split at h <;> simp at h
                subst h
                exact FiberReset_runtimeError _
        | fiber f => simp only [hd] at h; exact ih _ _ _ _ h
        | function f => simp only [hd] at h; exact ih _ _ _ _ h
        | inst k f => simp only [hd] at h; exact ih _ _ _ _ h
        | list v c => simp only [hd] at h; exact ih _ _ _ _ h
        | string c hs => simp only [hd] at h; exact ih _ _ _ _ h
        | table v => simp only [hd] at h; exact ih _ _ _ _ h
        | upvalue l c nx => simp only [hd] at h; exact ih _ _ _ _ h

theorem invokeFromClass_false {vm vm1 : VM} {klass name : Ref} {argCount : Nat}
    (h : invokeFromClass vm klass name argCount = some (false, vm1)) : FiberReset vm1 := by
  simp only [invokeFromClass] at h
  repeat' (split at h)
  all_goals (try simp at h)
  all_goals (first
    | exact callClosureValue_false h
    | (subst h; exact FiberReset_runtimeError _))

theorem invoke_false {H : Host} {fuel : Nat} {vm vm1 : VM} {name : Ref} {argCount : Nat}
    (h : invoke H fuel vm name argCount = some (false, vm1)) : FiberReset vm1 := by
  simp only [invoke] at h
  repeat' (split at h)
  all_goals (try simp at h)
  all_goals (first
    | exact callValue_false H _ _ _ _ _ h
    | exact invokeFromClass_false h
    | (subst h; exact FiberReset_runtimeError _))

theorem bindMethod_false {H : Host} {vm vm1 : VM} {klass name : Ref}
    (h : bindMethod H vm klass name = some (false, vm1)) : FiberReset vm1 := by
  simp only [bindMethod] at h
  repeat' (split at h)
  all_goals (try simp at h)
  all_goals (subst h; exact FiberReset_runtimeError _)

theorem stepResult_error {r : Option (Bool × VM)} {vm1 : VM}
    (h : stepResult r = some (.INTERPRET_RUNTIME_ERROR, vm1)) : r = some (false, vm1) := by
  simp only [stepResult] at h
  repeat' (split at h)
  all_goals (try simp at h)
  subst h
  rfl

theorem createCoreList_error {H : Host} {vm vm1 : VM} {numValues : Nat}
    (h : createCoreList H vm numValues = some (.INTERPRET_RUNTIME_ERROR, vm1)) :
    FiberReset vm1 := by
  simp only [createCoreList] at h
  repeat' (split at h)
  all_goals (try simp at h)
  all_goals (subst h; exact FiberReset_runtimeError _)

theorem createCoreTableLoop_false :
    ∀ (count : Nat) (vm vm1 : VM) (table : Ref),
      createCoreTableLoop count vm table = some (false, vm1) → FiberReset vm1 := by
  intro count
  induction count with
  | zero => intro vm vm1 table h; simp [createCoreTableLoop] at h
  | succ n ih =>
    intro vm vm1 table h
    unfold createCoreTableLoop at h
    simp only at h
    repeat' (split at h)
    all_goals (try simp at h)
    all_goals (first
      | exact ih _ _ _ h
      | (subst h; exact FiberReset_runtimeError _))

theorem createCoreTable_error {H : Host} {vm vm1 : VM} {numValues : Nat}
    (h : createCoreTable H vm numValues = some (.INTERPRET_RUNTIME_ERROR, vm1)) :
    FiberReset vm1 := by
  simp only [createCoreTable] at h
  repeat' (split at h)
  all_goals (try simp at h)
  all_goals (first
    | (subst h; exact createCoreTableLoop_false _ _ _ _ (by assumption))
    | (subst h; exact FiberReset_runtimeError _))

theorem BINARY_OP_error {vm vm1 : VM} {op : Int → Int → Value}
    (h : BINARY_OP vm op = (.INTERPRET_RUNTIME_ERROR, vm1)) : FiberReset vm1 := by
  simp only [BINARY_OP] at h
  split at h
  · simp at h
    subst h
    exact FiberReset_runtimeError _
  · simp at h

theorem runSingle_OP_CALL_error {H : Host} {fuel : Nat} {vm vm1 : VM}
    (h : runSingle_OP_CALL H fuel vm = some (.INTERPRET_RUNTIME_ERROR, vm1)) :
    FiberReset vm1 := by
  simp only [runSingle_OP_CALL] at h
  repeat' (split at h)
  all_goals (try simp at h)
  subst h
  exact callValue_false H _ _ _ _ _ (by assumption)

theorem runSingle_OP_INVOKE_error {H : Host} {fuel : Nat} {vm vm1 : VM}
    (h : runSingle_OP_INVOKE H fuel vm = some (.INTERPRET_RUNTIME_ERROR, vm1)) :
    FiberReset vm1 := by
  simp only [runSingle_OP_INVOKE] at h
  repeat' (split at h)
  all_goals (try simp at h)
  subst h
  exact invoke_false (by assumption)

theorem runSingle_OP_RETURN_no_error {vm vm1 : VM} :
    runSingle_OP_RETURN vm ≠ some (.INTERPRET_RUNTIME_ERROR, vm1) := by
  intro h
  simp only [runSingle_OP_RETURN] at h
  repeat' (split at h)
  all_goals (try simp at h)

theorem runSingle_OP_CLOSURE_no_error {H : Host} {vm vm1 : VM} :
    runSingle_OP_CLOSURE H vm ≠ some (.INTERPRET_RUNTIME_ERROR, vm1) := by
  intro h
  simp only [runSingle_OP_CLOSURE] at h
  repeat' (split at h)
  all_goals (try simp at h)

/-- C19: whenever runSingle returns INTERPRET_RUNTIME_ERROR the fiber of the machine has
been reset: it has no frame, stackTop is at the bottom of the stack and the open-upvalue
list is empty.  This holds for every instruction byte, the unknown ones included, which
always end so. -/
theorem runtime_error_resets_fiber (H : Host) (fuel : Nat) (vm vm1 : VM) (instruction : Nat)
    (h : runSingle H fuel vm instruction = some (.INTERPRET_RUNTIME_ERROR, vm1)) :
    (vm1.current.frames = [] ∧ vm1.current.stackTop = 0 ∧ vm1.current.openUpvalues = none) ∧
    (OpCode.ofByte instruction = none → vm1 = runtimeError vm) := by
  cases hop : OpCode.ofByte instruction with
  | none =>
    simp only [runSingle, hop] at h
    simp at h
    subst h
    exact ⟨FiberReset_runtimeError _, fun _ => rfl⟩
  | some op =>
    refine ⟨?_, fun hn => by cases hn⟩
    show FiberReset vm1
    cases op <;> simp only [runSingle, hop] at h
    case OP_CALL => exact runSingle_OP_CALL_error h
    case OP_INVOKE => exact runSingle_OP_INVOKE_error h
    case OP_RETURN => exact absurd h runSingle_OP_RETURN_no_error
    case OP_CLOSURE => exact absurd h runSingle_OP_CLOSURE_no_error
    all_goals (repeat' (split at h))
    all_goals (try simp at h)
    all_goals (first
      | exact BINARY_OP_error h
      | exact BINARY_OP_error h.symm
      | exact callValue_false H _ _ _ _ _ (stepResult_error h)
      | exact invokeFromClass_false (stepResult_error h)
      | exact bindMethod_false (stepResult_error h)
      | (obtain ⟨h1, h2⟩ := h; subst h1; subst h2; exact createCoreList_error (by assumption))
      | (obtain ⟨h1, h2⟩ := h; subst h1; subst h2; exact createCoreTable_error (by assumption))
      | (subst h; exact FiberReset_runtimeError _))

/-- C19 at callVM for the byte 200, which is no opcode. -/
theorem runtime_error_resets_fiber_witness :
    runSingle exampleHost 1 callVM 200 = some (.INTERPRET_RUNTIME_ERROR, runtimeError callVM) ∧
    (((runtimeError callVM).current.frames = [] ∧ (runtimeError callVM).current.stackTop = 0 ∧
      (runtimeError callVM).current.openUpvalues = none) ∧
     (OpCode.ofByte 200 = none → runtimeError callVM = runtimeError callVM)) :=
  ⟨by decide, runtime_error_resets_fiber exampleHost 1 callVM (runtimeError callVM) 200
    (by decide)⟩

/-- C20: when `function` has compiled the body of a function `f` (compiler `c`, enclosed by
`encl`), it appends to the enclosing chunk OP_CLOSURE, the index of the constant `f` and
then one (isLocal, index) pair of bytes for each of the entries 0..upvalueCount-1 of the
upvalue array of `c`, in order, so as many pairs as `f` counts upvalues, and leaves that
count as it is.  And the case OP_CLOSURE, on a machine between two collections whose
innermost frame stands before the constant operand, creates a new closure of the constant
function `g` with exactly `g.upvalueCount` entries, pushes it, and moves the frame over the
constant and exactly that many pairs; entry `j` is the open upvalue that captureUpvalue
delivers for the slot `frame.slots + index` when `isLocal` of pair `j` is not zero, and the
entry `index` of the closure of the frame otherwise. -/
theorem function_pairs_match_closure (H : Host)
    (block : CompileState → Option CompileState) (fuel : Nat) (type : FunctionType)
    (s s7 : CompileState) (c encl : Compiler) (rest : List Compiler) (o oe : Obj)
    (f fe : ObjFunction)
    (hbody : functionBody H block fuel type s = some s7)
    (hcomp : s7.compilers = c :: encl :: rest)
    (hg : heapGet s7.vm.heap c.function = some o) (hd : o.data = .function f)
    (hge : heapGet s7.vm.heap encl.function = some oe) (hde : oe.data = .function fe)
    (hne : c.function ≠ encl.function) (hup : f.upvalueCount ≤ c.upvalues.length)
    (fuelR : Nat) (vm : VM) (pre : List CallFrame) (frame : CallFrame) (co fo : Obj) (fn : Ref)
    (ups : List (Option Ref)) (ff : ObjFunction) (target : Ref) (g : ObjFunction)
    (l : List Ref)
    (hs : Sound vm)
    (hc : chain (openNext vm.heap) vm.current.openUpvalues l = true)
    (hsorted : (l.map (slotOf vm.heap)).Pairwise (· > ·))
    (hfr : vm.current.frames = pre ++ [frame])
    (hco : heapGet vm.heap frame.closure = some co) (hcd : co.data = .closure fn ups)
    (hfo : heapGet vm.heap fn = some fo) (hfd : fo.data = .function ff)
    (hk : ff.chunk.constants.getD (ff.chunk.code.getD frame.ip 0) .nil = .obj target)
    (hf : functionAt vm.heap target = some g)
    (htop : vm.current.stackTop < vm.current.stack.length)
    (hidx : ∀ j, j < g.upvalueCount → ff.chunk.code.getD (frame.ip + 1 + 2 * j) 0 = 0 →
      ff.chunk.code.getD (frame.ip + 1 + 2 * j + 1) 0 < ups.length) :
    (∃ s8 o8 f8 oe8 fe8, function H block fuel type s = some s8 ∧
      s8.compilers = encl :: rest ∧
      heapGet s8.vm.heap c.function = some o8 ∧ o8.data = .function f8 ∧
      f8.upvalueCount = f.upvalueCount ∧
      heapGet s8.vm.heap encl.function = some oe8 ∧ oe8.data = .function fe8 ∧
      fe8.chunk.constants = fe.chunk.constants ++ [.obj c.function] ∧
      fe8.chunk.code = fe.chunk.code ++
        [OpCode.OP_CLOSURE.toByte,
         if fe.chunk.constants.length > BYTE_MAX then 0 else fe.chunk.constants.length] ++
        (c.upvalues.take f.upvalueCount).flatMap
          (fun u => [if u.isLocal then 1 else 0, u.index % 256]) ∧
      (c.upvalues.take f.upvalueCount).length = f8.upvalueCount) ∧
    ∃ vm1 closure oc entries,
      runSingle H fuelR vm OpCode.OP_CLOSURE.toByte = some (.INTERPRET_CONTINUE, vm1) ∧
      vm1.current.frames = pre ++ [{ frame with ip := frame.ip + 1 + 2 * g.upvalueCount }] ∧
      vm1.current.stack = vm.current.stack.set vm.current.stackTop (.obj closure) ∧
      vm1.current.stackTop = vm.current.stackTop + 1 ∧
      heapGet vm.heap closure = none ∧
      heapGet vm1.heap closure = some oc ∧ oc.data = .closure target entries ∧
      entries.length = g.upvalueCount ∧
      ∀ j, j < g.upvalueCount →
        (ff.chunk.code.getD (frame.ip + 1 + 2 * j) 0 ≠ 0 →
          ∃ u, entries[j]? = some (some u) ∧
            captureUpvalue H vm1
                (frame.slots + ff.chunk.code.getD (frame.ip + 1 + 2 * j + 1) 0) =
              some (vm1, u)) ∧
        (ff.chunk.code.getD (frame.ip + 1 + 2 * j) 0 = 0 →
          entries[j]? = ups[ff.chunk.code.getD (frame.ip + 1 + 2 * j + 1) 0]?) := by
  constructor
  · obtain ⟨s8, o8, f8, oe8, fe8, h1, h2, h3, h4, h5, h6, h7, h8, h9⟩ :=
      functionEnd_spec s7 c encl rest o oe f fe hcomp hg hd hge hde hne hup
    refine ⟨s8, o8, f8, oe8, fe8, ?_, h2, h3, h4, h5, h6, h7, h8, h9, ?_⟩
    · simp only [function, hbody, Option.bind_eq_bind, Option.some_bind]
      exact h1
    · rw [List.length_take, h5]
      omega
  · have hrun : runSingle H fuelR vm OpCode.OP_CLOSURE.toByte = runSingle_OP_CLOSURE H vm := by
      simp only [runSingle, ofByte_toByte]
    rw [hrun]
    exact runSingle_OP_CLOSURE_spec H vm pre frame co fo fn ups ff target g l hs hc hsorted hfr
      hco hcd hfo hfd hk hf htop hidx

/-- C20 for the function `f` of nestedState, whose body reads the local `x` of the function
around it and the local `y` of the function around that, and for closureVM, which runs the
bytes emitted: the pairs are (1, 1) and (0, 0), the closure gets two entries, a new open
upvalue for stack slot 3 and the entry 0 of the closure of the frame. -/
theorem function_pairs_match_closure_witness :
    (∃ s8 o8 f8 oe8 fe8,
      function exampleHost nestedBlock 4 .TYPE_FUNCTION nestedState = some s8 ∧
      s8.compilers =
        [{ function := 1, type := .TYPE_FUNCTION,
           locals := [{ name := [], depth := 0, isCaptured := false },
                      { name := [120], depth := 1, isCaptured := true }],
           upvalues := [{ index := 1, isLocal := true }], scopeDepth := 1 },
         { function := 0, type := .TYPE_FUNCTION,
           locals := [{ name := [], depth := 0, isCaptured := false },
                      { name := [121], depth := 1, isCaptured := true }],
           upvalues := [], scopeDepth := 1 }] ∧
      heapGet s8.vm.heap 2 = some o8 ∧ o8.data = .function f8 ∧ f8.upvalueCount = 2 ∧
      heapGet s8.vm.heap 1 = some oe8 ∧ oe8.data = .function fe8 ∧
      fe8.chunk.constants = [.obj 2] ∧
      fe8.chunk.code = [4, 0, 1, 1, 0, 0] ∧
      2 = f8.upvalueCount) ∧
    ∃ vm1 closure oc entries,
      runSingle exampleHost 1 closureVM OpCode.OP_CLOSURE.toByte =
        some (.INTERPRET_CONTINUE, vm1) ∧
      vm1.current.frames = [{ closure := 1, ip := 0, slots := 0 },
                            { closure := 1, ip := 6, slots := 2 }] ∧
      vm1.current.stack = closureVM.current.stack.set 4 (.obj closure) ∧
      vm1.current.stackTop = 5 ∧
      heapGet closureVM.heap closure = none ∧
      heapGet vm1.heap closure = some oc ∧ oc.data = .closure 2 entries ∧
      entries.length = 2 ∧
      ∀ j, j < 2 →
        ([4, 0, 1, 1, 0, 0].getD (1 + 1 + 2 * j) 0 ≠ 0 →
          ∃ u, entries[j]? = some (some u) ∧
            captureUpvalue exampleHost vm1 (2 + [4, 0, 1, 1, 0, 0].getD (1 + 1 + 2 * j + 1) 0) =
              some (vm1, u)) ∧
        ([4, 0, 1, 1, 0, 0].getD (1 + 1 + 2 * j) 0 = 0 →
          entries[j]? = [some 3][[4, 0, 1, 1, 0, 0].getD (1 + 1 + 2 * j + 1) 0]?) :=
  function_pairs_match_closure exampleHost nestedBlock 4 .TYPE_FUNCTION nestedState
    nestedBodyState
    { function := 2, type := .TYPE_FUNCTION,
      locals := [{ name := [], depth := 0, isCaptured := false }],
      upvalues := [{ index := 1, isLocal := true }, { index := 0, isLocal := false }],
      scopeDepth := 1 }
    { function := 1, type := .TYPE_FUNCTION,
      locals := [{ name := [], depth := 0, isCaptured := false },
                 { name := [120], depth := 1, isCaptured := true }],
      upvalues := [{ index := 1, isLocal := true }], scopeDepth := 1 }
    [{ function := 0, type := .TYPE_FUNCTION,
       locals := [{ name := [], depth := 0, isCaptured := false },
                  { name := [121], depth := 1, isCaptured := true }],
       upvalues := [], scopeDepth := 1 }]
    { isMarked := false, next := some 1,
      data := .function { arity := 0, upvalueCount := 2,
                          chunk := { code := [36, 0, 36, 1, 0], lines := [1, 1, 1, 1, 1],
                                     constants := [] },
                          name := some 3 } }
    { isMarked := false, next := some 0,
      data := .function { arity := 0, upvalueCount := 1,
                          chunk := { code := [], lines := [], constants := [] },
                          name := none } }
    { arity := 0, upvalueCount := 2,
      chunk := { code := [36, 0, 36, 1, 0], lines := [1, 1, 1, 1, 1], constants := [] },
      name := some 3 }
    { arity := 0, upvalueCount := 1, chunk := { code := [], lines := [], constants := [] },
      name := none }
    rfl rfl rfl rfl rfl rfl (by decide) (by decide)
    1 closureVM [{ closure := 1, ip := 0, slots := 0 }] { closure := 1, ip := 1, slots := 2 }
    { isMarked := false, next := some 0, data := .closure 0 [some 3] }
    { isMarked := false, next := none,
      data := .function { arity := 0, upvalueCount := 1,
                          chunk := { code := [4, 0, 1, 1, 0, 0], lines := [1, 1, 1, 1, 1, 1],
                                     constants := [.obj 2] },
                          name := none } }
    0 [some 3]
    { arity := 0, upvalueCount := 1,
      chunk := { code := [4, 0, 1, 1, 0, 0], lines := [1, 1, 1, 1, 1, 1],
                 constants := [.obj 2] },
      name := none }
    2
    { arity := 0, upvalueCount := 2,
      chunk := { code := [36, 0, 36, 1, 0, 27, 32], lines := [1, 1, 1, 1, 1, 1, 1],
                 constants := [] },
      name := none }
    [3]
    ⟨⟨rfl, rfl, rfl⟩, rfl, rfl⟩ rfl (by decide) rfl rfl rfl rfl rfl rfl rfl (by decide)
    (by decide)

/-- C21: resolveLocal on a compiler with the locals `ls`.  If no local has the name it
returns -1 and leaves the state alone.  Otherwise it returns the greatest index whose local
has the name, and it has called `error` with "Can't read local variable in its own
initializer." exactly when that local has depth -1, so that outside panic mode the message
is recorded exactly then. -/
theorem resolveLocal_innermost (s : CompileState) (c : Compiler) (name : List Nat) :
    ((∀ l ∈ c.locals, l.name ≠ name) → resolveLocal s c name = (-1, s)) ∧
    ((∃ l ∈ c.locals, l.name = name) →
      ∃ (i : Nat) (loc : Local), (resolveLocal s c name).1 = (i : Int) ∧
        c.locals[i]? = some loc ∧
        loc.name = name ∧
        (∀ (j : Nat) (l : Local), i < j → c.locals[j]? = some l → l.name ≠ name) ∧
        (loc.depth = -1 → (resolveLocal s c name).2 =
          error s "Can't read local variable in its own initializer.") ∧
        (loc.depth ≠ -1 → (resolveLocal s c name).2 = s) ∧
        (s.parser.panicMode = false →
          ((resolveLocal s c name).2.errors =
              s.errors ++ ["Can't read local variable in its own initializer."] ↔
            loc.depth = -1))) ∧
    ((resolveLocal s c name).1 = -1 ↔ ∀ l ∈ c.locals, l.name ≠ name) := by
  obtain ⟨hnone, hsome⟩ := resolveLocal_spec s c name
  refine ⟨hnone, ?_, ?_⟩
  · intro hex
    obtain ⟨i, loc, h1, h2, h3, h4, h5⟩ := hsome hex
    refine ⟨i, loc, h1, h2, h3, h4, ?_, ?_, ?_⟩
    · intro hdep
      rw [h5, if_pos hdep]
    · intro hdep
      rw [h5, if_neg hdep]
    · intro hp
      rw [h5]
      by_cases hdep : loc.depth = -1
      · rw [if_pos hdep]
        exact ⟨fun _ => hdep, fun _ => ((error_fields s _).2.2.2.2.2.2.2 hp).1⟩
      · rw [if_neg hdep]
        exact ⟨fun h => absurd h (append_single_ne _ _), fun h => absurd h hdep⟩
  · constructor
    · intro hm l hl hn
      obtain ⟨i, _, h1, _⟩ := hsome ⟨l, hl, hn⟩
      rw [h1] at hm
      omega
    · intro hno
      rw [hnone hno]

/-- C21 at shadowCompiler: `w` is no local; `x` resolves to the local 3, which shadows the
local 1; `z` resolves to the local 4, whose depth is -1, with the error. -/
theorem resolveLocal_innermost_witness :
    resolveLocal jumpState shadowCompiler [119] = (-1, jumpState) ∧
    (∃ (i : Nat) (loc : Local), (resolveLocal jumpState shadowCompiler [120]).1 = (i : Int) ∧
        shadowCompiler.locals[i]? = some loc ∧
        loc.name = [120] ∧
        (∀ (j : Nat) (l : Local), i < j → shadowCompiler.locals[j]? = some l →
          l.name ≠ [120]) ∧
        (loc.depth = -1 → (resolveLocal jumpState shadowCompiler [120]).2 =
          error jumpState "Can't read local variable in its own initializer.") ∧
        (loc.depth ≠ -1 → (resolveLocal jumpState shadowCompiler [120]).2 = jumpState) ∧
        (jumpState.parser.panicMode = false →
          ((resolveLocal jumpState shadowCompiler [120]).2.errors =
              jumpState.errors ++ ["Can't read local variable in its own initializer."] ↔
            loc.depth = -1))) ∧
    ((resolveLocal jumpState shadowCompiler [122]).1 = -1 ↔
      ∀ l ∈ shadowCompiler.locals, l.name ≠ [122]) :=
  ⟨(resolveLocal_innermost jumpState shadowCompiler [119]).1 (by decide),
    (resolveLocal_innermost jumpState shadowCompiler [120]).2.1
      ⟨{ name := [120], depth := 1, isCaptured := false }, by decide, rfl⟩,
    (resolveLocal_innermost jumpState shadowCompiler [122]).2.2⟩

/-- C22: resolveUpvalue on the compiler `c` at position `d` of a proper chain, with fuel for
the compilers that enclose it.  It returns, and the result is -1 exactly when no compiler
that strictly encloses `c` has a local with the name.  If the compiler right around `c` has
such a local, `l` being the index resolveLocal finds, that local is marked captured and,
unless the function of `c` counts 256 upvalues already, the result is the index of a live
entry of the upvalue array of `c` that is the pair (`l` as a byte, isLocal true).
Otherwise, if the result is not -1, resolveUpvalue on the compiler around `c` returned an
index `u` that is not -1 and, again unless the count is 256, the result is the index of a
live entry that is the pair (`u` as a byte, isLocal false).  In the case of 256 upvalues
the result is 0. -/
theorem resolveUpvalue_enclosing_local (s : CompileState) (d n : Nat) (c : Compiler) (o : Obj)
    (f : ObjFunction) (name : List Nat) (hp : CompilersProper s)
    (hd : s.compilers[d]? = some c)
    (hg : heapGet s.vm.heap c.function = some o) (hdata : o.data = .function f)
    (hfuel : s.compilers.length ≤ d + 1 + (n + 1)) :
    ∃ r s1, resolveUpvalue (n + 1) s d name = some (r, s1) ∧
      (r = -1 ↔ ∀ (k : Nat) (e : Compiler), d < k → s.compilers[k]? = some e →
        ∀ l ∈ e.locals, l.name ≠ name) ∧
      (∀ enclosing : Compiler, s.compilers[d + 1]? = some enclosing →
        (∃ l ∈ enclosing.locals, l.name = name) →
        ∃ (i : Nat) (loc : Local), (resolveLocal s enclosing name).1 = (i : Int) ∧
          enclosing.locals[i]? = some loc ∧ loc.name = name ∧
          (enclosing.locals.length ≤ BYTE_HEIGHT → i % 256 = i) ∧
          (∃ (e1 : Compiler) (loc1 : Local), s1.compilers[d + 1]? = some e1 ∧
            e1.locals[i]? = some loc1 ∧ loc1.isCaptured = true ∧ loc1.name = name) ∧
          ((f.upvalueCount = BYTE_HEIGHT ∧ r = 0) ∨ UpvalueAt s1 d r (i % 256) true)) ∧
      (∀ enclosing : Compiler, s.compilers[d + 1]? = some enclosing →
        (∀ l ∈ enclosing.locals, l.name ≠ name) → r ≠ -1 →
        ∃ u s2, resolveUpvalue n s (d + 1) name = some (u, s2) ∧ 0 ≤ u ∧
          ((f.upvalueCount = BYTE_HEIGHT ∧ r = 0) ∨
            UpvalueAt s1 d r (u.toNat % 256) false)) := by
  obtain ⟨r, s1, hres, _, _, _, hiff⟩ := resolveUpvalue_spec name (n + 1) s d c hp hfuel hd
  refine ⟨r, s1, hres, hiff, ?_, ?_⟩
  · intro enclosing henc hex
    obtain ⟨_, hsome⟩ := resolveLocal_spec s enclosing name
    obtain ⟨i, loc, h1, h2, h3, _, h5⟩ := hsome hex
    have hrl : resolveLocal s enclosing name = ((i : Int), (resolveLocal s enclosing name).2) :=
      Prod.ext h1 rfl
    have hs1 : (resolveLocal s enclosing name).2.compilers = s.compilers ∧
        (resolveLocal s enclosing name).2.vm = s.vm := by
      rw [h5]
      split
      · exact ⟨(error_fields s _).1, (error_fields s _).2.1⟩
      · exact ⟨rfl, rfl⟩
    obtain ⟨hp2, _, hd2⟩ := capture_state hp hd henc _ hs1.1 hs1.2 i
    have hg2 : heapGet
        ({ (resolveLocal s enclosing name).2 with
            compilers := (resolveLocal s enclosing name).2.compilers.set (d + 1)
              { enclosing with
                locals := enclosing.locals.modify (fun l => { l with isCaptured := true })
                  i } } : CompileState).vm.heap c.function = some o := by
      show heapGet (resolveLocal s enclosing name).2.vm.heap c.function = some o
      rw [hs1.2]
      exact hg
    obtain ⟨r', s3, h3', _, _, _, hother, hentry⟩ :=
      addUpvalue_spec _ d c o f (i % 256) true hp2 hd2 hg2 hdata
    have hrun := resolveUpvalue_local (n := n) henc hrl (show (i : Int) ≠ -1 by omega)
    simp only [Int.toNat_ofNat] at hrun
    rw [hrun, h3'] at hres
    cases hres
    have hil : i < enclosing.locals.length := getElem?_lt h2
    refine ⟨i, loc, h1, h2, h3, fun hlen => ?_, ?_, ?_⟩
    · unfold BYTE_HEIGHT BYTE_MAX at hlen
      omega
    · refine ⟨{ enclosing with
                locals := enclosing.locals.modify (fun l => { l with isCaptured := true }) i },
        { loc with isCaptured := true }, ?_, ?_, rfl, h3⟩
      · rw [hother (d + 1) (by omega)]
        show ((resolveLocal s enclosing name).2.compilers.set (d + 1) _)[d + 1]? = _
        rw [List.getElem?_set_self (by rw [hs1.1]; exact getElem?_lt henc)]
      · show (enclosing.locals.modify (fun l => { l with isCaptured := true }) i)[i]? = _
        rw [List.getElem?_modify_eq, h2]
        rfl
    · rcases hentry with ⟨e1, e2, _⟩ | hentry
      · exact Or.inl ⟨e1, e2⟩
      · exact Or.inr hentry
  · intro enclosing henc hno hr
    obtain ⟨hnone, _⟩ := resolveLocal_spec s enclosing name
    have hrl := hnone hno
    obtain ⟨u, s2, h2, hp2, hk2, hu, hiffu⟩ :=
      resolveUpvalue_spec name n s (d + 1) enclosing hp (by omega) henc
    have hd2 : s2.compilers[d]? = some c := by rw [hk2.2.1 d (Nat.lt_succ_self d)]; exact hd
    have hg2 : heapGet s2.vm.heap c.function = some o := by
      rw [hk2.2.2.2 c.function]
      · exact hg
      · intro k e hk he
        exact hp.function_ne hd he (by omega)
    have hrun := resolveUpvalue_outer henc hrl h2
    by_cases hu1 : u = -1
    · exfalso
      rw [hrun] at hres
      simp only [hu1, ne_eq, not_true_eq_false, if_false] at hres
      cases hres
      exact hr rfl
    · obtain ⟨r', s3, h3', _, _, _, _, hentry⟩ :=
        addUpvalue_spec s2 d c o f (u.toNat % 256) false hp2 hd2 hg2 hdata
      rw [hrun] at hres
      simp only [ne_eq, hu1, not_false_eq_true, if_true] at hres
      rw [h3'] at hres
      cases hres
      refine ⟨u, s2, h2, by omega, ?_⟩
      rcases hentry with ⟨e1, e2, _⟩ | hentry
      · exact Or.inl ⟨e1, e2⟩
      · exact Or.inr hentry

/-- The state left by the body of `f` of nestedState has a proper chain. -/
theorem nestedBodyState_proper : CompilersProper nestedBodyState := by
  have hcomp : nestedBodyState.compilers =
      [nestedInnerCompiler,
       { function := 1, type := .TYPE_FUNCTION,
         locals := [{ name := [], depth := 0, isCaptured := false },
                    { name := [120], depth := 1, isCaptured := true }],
         upvalues := [{ index := 1, isLocal := true }], scopeDepth := 1 },
       { function := 0, type := .TYPE_FUNCTION,
         locals := [{ name := [], depth := 0, isCaptured := false },
                    { name := [121], depth := 1, isCaptured := true }],
         upvalues := [], scopeDepth := 1 }] := rfl
  constructor
  · rw [hcomp]
    decide
  · intro k c hk
    rw [hcomp] at hk
    match k, hk with
    | 0, hk =>
      cases hk
      exact ⟨_, _, rfl, rfl, by decide⟩
    | 1, hk =>
      cases hk
      exact ⟨_, _, rfl, rfl, by decide⟩
    | 2, hk =>
      cases hk
      exact ⟨_, _, rfl, rfl, by decide⟩
    | k + 3, hk => simp at hk

/-- C22 at the state left by the body of `f` of nestedState, for the innermost compiler:
`x` is a local of the compiler around it, `y` only of the compiler around that. -/
theorem resolveUpvalue_enclosing_local_witness :
    (∃ r s1, resolveUpvalue (2 + 1) nestedBodyState 0 [120] = some (r, s1) ∧
      (r = -1 ↔ ∀ (k : Nat) (e : Compiler), 0 < k → nestedBodyState.compilers[k]? = some e →
        ∀ l ∈ e.locals, l.name ≠ [120]) ∧
      (∀ enclosing : Compiler, nestedBodyState.compilers[0 + 1]? = some enclosing →
        (∃ l ∈ enclosing.locals, l.name = [120]) →
        ∃ (i : Nat) (loc : Local), (resolveLocal nestedBodyState enclosing [120]).1 = (i : Int) ∧
          enclosing.locals[i]? = some loc ∧ loc.name = [120] ∧
          (enclosing.locals.length ≤ BYTE_HEIGHT → i % 256 = i) ∧
          (∃ (e1 : Compiler) (loc1 : Local), s1.compilers[0 + 1]? = some e1 ∧
            e1.locals[i]? = some loc1 ∧ loc1.isCaptured = true ∧ loc1.name = [120]) ∧
          ((nestedInnerFunction.upvalueCount = BYTE_HEIGHT ∧ r = 0) ∨ UpvalueAt s1 0 r (i % 256) true)) ∧
      (∀ enclosing : Compiler, nestedBodyState.compilers[0 + 1]? = some enclosing →
        (∀ l ∈ enclosing.locals, l.name ≠ [120]) → r ≠ -1 →
        ∃ u s2, resolveUpvalue 2 nestedBodyState (0 + 1) [120] = some (u, s2) ∧ 0 ≤ u ∧
          ((nestedInnerFunction.upvalueCount = BYTE_HEIGHT ∧ r = 0) ∨
            UpvalueAt s1 0 r (u.toNat % 256) false))) ∧
    (∃ r s1, resolveUpvalue (2 + 1) nestedBodyState 0 [121] = some (r, s1) ∧
      (r = -1 ↔ ∀ (k : Nat) (e : Compiler), 0 < k → nestedBodyState.compilers[k]? = some e →
        ∀ l ∈ e.locals, l.name ≠ [121]) ∧
      (∀ enclosing : Compiler, nestedBodyState.compilers[0 + 1]? = some enclosing →
        (∃ l ∈ enclosing.locals, l.name = [121]) →
        ∃ (i : Nat) (loc : Local), (resolveLocal nestedBodyState enclosing [121]).1 = (i : Int) ∧
          enclosing.locals[i]? = some loc ∧ loc.name = [121] ∧
          (enclosing.locals.length ≤ BYTE_HEIGHT → i % 256 = i) ∧
          (∃ (e1 : Compiler) (loc1 : Local), s1.compilers[0 + 1]? = some e1 ∧
            e1.locals[i]? = some loc1 ∧ loc1.isCaptured = true ∧ loc1.name = [121]) ∧
          ((nestedInnerFunction.upvalueCount = BYTE_HEIGHT ∧ r = 0) ∨ UpvalueAt s1 0 r (i % 256) true)) ∧
      (∀ enclosing : Compiler, nestedBodyState.compilers[0 + 1]? = some enclosing →
        (∀ l ∈ enclosing.locals, l.name ≠ [121]) → r ≠ -1 →
        ∃ u s2, resolveUpvalue 2 nestedBodyState (0 + 1) [121] = some (u, s2) ∧ 0 ≤ u ∧
          ((nestedInnerFunction.upvalueCount = BYTE_HEIGHT ∧ r = 0) ∨
            UpvalueAt s1 0 r (u.toNat % 256) false))) :=
  ⟨resolveUpvalue_enclosing_local nestedBodyState 0 2 nestedInnerCompiler nestedInnerObject
      nestedInnerFunction [120] nestedBodyState_proper rfl rfl rfl (by decide),
    resolveUpvalue_enclosing_local nestedBodyState 0 2 nestedInnerCompiler nestedInnerObject
      nestedInnerFunction [121] nestedBodyState_proper rfl rfl rfl (by decide)⟩

/-- C23: addUpvalue on the compiler `c` at position `d`, whose function counts `n` upvalues,
provided the first `n` entries of its array have been written and are pairwise distinct.
If entry `i < n` is the pair, the result is `i` and the state is unchanged.  If no entry is
the pair and `n < 256`, the pair is stored as entry `n`, the count becomes
`n + 1`, the result is `n`, nothing else changes, and the first `n + 1` entries are again
written and pairwise distinct with `n + 1 <= 256`.  If no entry is the pair and `n = 256`,
the result is 0 and the state is that of `error` with "Too many closure variables in
function.", which leaves array and count alone. -/
theorem addUpvalue_keeps_distinct (s : CompileState) (d : Nat) (c : Compiler) (o : Obj)
    (f : ObjFunction) (index : Nat) (isLocal : Bool)
    (hd : s.compilers[d]? = some c)
    (hg : heapGet s.vm.heap c.function = some o) (hdata : o.data = .function f)
    (hlen : f.upvalueCount ≤ c.upvalues.length)
    (hnd : (c.upvalues.take f.upvalueCount).Nodup) :
    BYTE_HEIGHT = 256 ∧
    (∀ i, i < f.upvalueCount → c.upvalues[i]? = some { index := index, isLocal := isLocal } →
      addUpvalue s d index isLocal = some ((i : Int), s)) ∧
    ((∀ i, i < f.upvalueCount →
        c.upvalues[i]? ≠ some { index := index, isLocal := isLocal }) →
      f.upvalueCount < BYTE_HEIGHT →
      ∃ s1 c1 o1 f1, addUpvalue s d index isLocal = some ((f.upvalueCount : Int), s1) ∧
        s1.compilers = s.compilers.set d c1 ∧
        c1 = { c with
               upvalues := c.upvalues.take f.upvalueCount ++
                 [{ index := index, isLocal := isLocal }] } ∧
        c1.upvalues[f.upvalueCount]? = some { index := index, isLocal := isLocal } ∧
        (∀ i, i < f.upvalueCount → c1.upvalues[i]? = c.upvalues[i]?) ∧
        heapGet s1.vm.heap c.function = some o1 ∧ o1.data = .function f1 ∧
        f1 = { f with upvalueCount := f.upvalueCount + 1 } ∧
        (∀ q, q ≠ c.function → heapGet s1.vm.heap q = heapGet s.vm.heap q) ∧
        s1.parser = s.parser ∧ s1.errors = s.errors ∧
        f1.upvalueCount ≤ c1.upvalues.length ∧
        (c1.upvalues.take f1.upvalueCount).Nodup ∧ f1.upvalueCount ≤ BYTE_HEIGHT) ∧
    ((∀ i, i < f.upvalueCount →
        c.upvalues[i]? ≠ some { index := index, isLocal := isLocal }) →
      f.upvalueCount = BYTE_HEIGHT →
      addUpvalue s d index isLocal =
        some (0, error s "Too many closure variables in function.") ∧
      (error s "Too many closure variables in function.").compilers = s.compilers ∧
      (error s "Too many closure variables in function.").vm = s.vm) := by
  have hfo : functionOf s c = some (o, f) := by simp [functionOf, hg, hdata]
  have htl : (c.upvalues.take f.upvalueCount).length = f.upvalueCount := by
    rw [List.length_take]; omega
  have hget : ∀ i, i < f.upvalueCount →
      (c.upvalues.take f.upvalueCount)[i]? = c.upvalues[i]? := by
    intro i hi
    rw [List.getElem?_take_of_lt hi]
  have habsent : (∀ i, i < f.upvalueCount →
        c.upvalues[i]? ≠ some { index := index, isLocal := isLocal }) →
      findUpvalue (c.upvalues.take f.upvalueCount) index isLocal = none := by
    intro hno
    apply findUpvalue_none
    intro u hu heq
    obtain ⟨i, hi⟩ := List.mem_iff_getElem?.mp hu
    have hil : i < f.upvalueCount := by
      by_contra h
      rw [List.getElem?_eq_none (by omega)] at hi
      cases hi
    rw [hget i hil, heq] at hi
    exact hno i hil hi
  refine ⟨rfl, ?_, ?_, ?_⟩
  · intro i hi hentry
    have hfound : findUpvalue (c.upvalues.take f.upvalueCount) index isLocal = some i := by
      apply findUpvalue_first
      · rw [hget i hi]; exact hentry
      · exact nodup_first hnd (by rw [hget i hi]; exact hentry)
    simp only [addUpvalue, hd, hfo, Option.bind_eq_bind, Option.some_bind, hfound]
  · intro hno hlt
    have hne : ¬ f.upvalueCount = BYTE_HEIGHT := by omega
    let c1 : Compiler :=
      { c with
        upvalues := c.upvalues.take f.upvalueCount ++ [{ index := index, isLocal := isLocal }] }
    let o1 : Obj := { o with data := .function { f with upvalueCount := f.upvalueCount + 1 } }
    let s1 : CompileState :=
      { s with
        compilers := s.compilers.set d c1
        vm := { s.vm with heap := s.vm.heap.set c.function (some o1) } }
    have hne1 : ∀ q, q ≠ c.function → heapGet s1.vm.heap q = heapGet s.vm.heap q :=
      fun q hq => heapGet_set_ne _ (fun e => hq e.symm)
    have hg1 : heapGet s1.vm.heap c.function = some o1 := heapGet_set_self _ (heapGet_lt hg)
    refine ⟨s1, c1, o1, _, ?_, rfl, rfl, ?_, ?_, hg1, rfl, rfl, hne1, rfl, rfl, ?_, ?_, ?_⟩
    · simp only [addUpvalue, hd, hfo, Option.bind_eq_bind, Option.some_bind, habsent hno,
        if_neg hne]
    · show (c.upvalues.take f.upvalueCount ++ [_])[f.upvalueCount]? = _
      rw [List.getElem?_append_right (by omega), htl]
      simp
    · intro i hi
      show (c.upvalues.take f.upvalueCount ++ [_])[i]? = _
      rw [List.getElem?_append_left (by omega), hget i hi]
    · show f.upvalueCount + 1 ≤ (c.upvalues.take f.upvalueCount ++ [_]).length
      rw [List.length_append, htl]
      simp
    · show ((c.upvalues.take f.upvalueCount ++ [_]).take (f.upvalueCount + 1)).Nodup
      rw [List.take_of_length_le (by rw [List.length_append, htl]; simp)]
      rw [List.nodup_append]
      refine ⟨hnd, List.nodup_singleton _, ?_⟩
      intro u hu hu'
      rw [List.mem_singleton] at hu'
      subst hu'
      obtain ⟨i, hi⟩ := List.mem_iff_getElem?.mp hu
      have hil : i < f.upvalueCount := by
        by_contra h
        rw [List.getElem?_eq_none (by omega)] at hi
        cases hi
      rw [hget i hil] at hi
      exact hno i hil hi
    · show f.upvalueCount + 1 ≤ BYTE_HEIGHT
      omega
  · intro hno hfull
    refine ⟨?_, (error_fields s _).1, (error_fields s _).2.1⟩
    simp only [addUpvalue, hd, hfo, Option.bind_eq_bind, Option.some_bind, habsent hno,
      if_pos hfull]

/-- C23 at the state left by the body of `f` of nestedState, whose compiler has the entries
(1, local) and (0, not local): adding (0, not local) again gives the index 1, and adding
(5, local) appends it as entry 2. -/
theorem addUpvalue_keeps_distinct_witness :
    addUpvalue nestedBodyState 0 0 false = some (1, nestedBodyState) ∧
    ∃ s1 c1 o1 f1, addUpvalue nestedBodyState 0 5 true = some (2, s1) ∧
      s1.compilers = nestedBodyState.compilers.set 0 c1 ∧
      c1.upvalues = [{ index := 1, isLocal := true }, { index := 0, isLocal := false },
                     { index := 5, isLocal := true }] ∧
      heapGet s1.vm.heap 2 = some o1 ∧ o1.data = .function f1 ∧ f1.upvalueCount = 3 := by
  obtain ⟨_, h1, h2, _⟩ := addUpvalue_keeps_distinct nestedBodyState 0
    { function := 2, type := .TYPE_FUNCTION,
      locals := [{ name := [], depth := 0, isCaptured := false }],
      upvalues := [{ index := 1, isLocal := true }, { index := 0, isLocal := false }],
      scopeDepth := 1 }
    { isMarked := false, next := some 1,
      data := .function { arity := 0, upvalueCount := 2,
                          chunk := { code := [36, 0, 36, 1, 0], lines := [1, 1, 1, 1, 1],
                                     constants := [] },
                          name := some 3 } }
    { arity := 0, upvalueCount := 2,
      chunk := { code := [36, 0, 36, 1, 0], lines := [1, 1, 1, 1, 1], constants := [] },
      name := some 3 }
    0 false rfl rfl rfl (by decide) (by decide)
  obtain ⟨_, _, h3, _⟩ := addUpvalue_keeps_distinct nestedBodyState 0
    { function := 2, type := .TYPE_FUNCTION,
      locals := [{ name := [], depth := 0, isCaptured := false }],
      upvalues := [{ index := 1, isLocal := true }, { index := 0, isLocal := false }],
      scopeDepth := 1 }
    { isMarked := false, next := some 1,
      data := .function { arity := 0, upvalueCount := 2,
                          chunk := { code := [36, 0, 36, 1, 0], lines := [1, 1, 1, 1, 1],
                                     constants := [] },
                          name := some 3 } }
    { arity := 0, upvalueCount := 2,
      chunk := { code := [36, 0, 36, 1, 0], lines := [1, 1, 1, 1, 1], constants := [] },
      name := some 3 }
    5 true rfl rfl rfl (by decide) (by decide)
  refine ⟨h1 1 (by decide) rfl, ?_⟩
  obtain ⟨s1, c1, o1, f1, e1, e2, e3, _, _, e4, e5, e6, _⟩ := h3 (by decide) (by decide)
  exact ⟨s1, c1, o1, f1, e1, e2, by subst e3; rfl, e4, e5, by subst e6; rfl⟩

theorem error_idem (s : CompileState) (m : String) : error (error s m) m = error s m := by
  cases hp : s.parser.panicMode with
  | true =>
    rw [(error_fields s m).2.2.2.2.2.2.1 hp]
    exact (error_fields s m).2.2.2.2.2.2.1 hp
  | false =>
    exact (error_fields (error s m) m).2.2.2.2.2.2.1
      ((error_fields s m).2.2.2.2.2.2.2 hp).2.2

/-- Once the error is raised the loop of declareVariable leaves the state alone. -/
theorem declareVariableLoop_error (name : List Nat) (d : Nat) (s : CompileState)
    (rev : List Local) :
    declareVariableLoop name d
        (error s "Already a variable with this name in this scope.") rev =
      error s "Already a variable with this name in this scope." := by
  induction rev with
  | nil => rfl
  | cons x t ih =>
    unfold declareVariableLoop
    split
    · rfl
    · split
      · rw [error_idem]; exact ih
      · exact ih

/-- The loop of declareVariable over the locals from the last one down: the error is raised
when a local with the name is met before the first local of an enclosing scope. -/
theorem declareVariableLoop_spec (name : List Nat) (d : Nat) (rev : List Local) :
    ∀ s : CompileState,
      ((∃ a loc b, rev = a ++ loc :: b ∧ loc.name = name ∧
          ∀ l ∈ a ++ [loc], l.depth = -1 ∨ (d : Int) ≤ l.depth) →
        declareVariableLoop name d s rev =
          error s "Already a variable with this name in this scope.") ∧
      ((¬ ∃ a loc b, rev = a ++ loc :: b ∧ loc.name = name ∧
          ∀ l ∈ a ++ [loc], l.depth = -1 ∨ (d : Int) ≤ l.depth) →
        declareVariableLoop name d s rev = s) := by
  induction rev with
  | nil =>
    intro s
    refine ⟨?_, fun _ => rfl⟩
    rintro ⟨a, loc, b, h, _⟩
    simp at h
  | cons x t ih =>
    intro s
    by_cases hx : x.depth ≠ -1 ∧ x.depth < (d : Int)
    · have hno : ¬ ∃ a loc b, x :: t = a ++ loc :: b ∧ loc.name = name ∧
          ∀ l ∈ a ++ [loc], l.depth = -1 ∨ (d : Int) ≤ l.depth := by
        rintro ⟨a, loc, b, h, _, hall⟩
        have hxm : x ∈ a ++ [loc] := by
          cases a with
          | nil =>
            simp only [List.nil_append, List.cons.injEq] at h
            simp [h.1]
          | cons y a' =>
            simp only [List.cons_append, List.cons.injEq] at h
            simp [h.1]
        rcases hall x hxm with h1 | h1
        · exact hx.1 h1
        · omega
      refine ⟨fun h => absurd h hno, fun _ => ?_⟩
      simp only [declareVariableLoop, if_pos hx]
    · have hok : x.depth = -1 ∨ (d : Int) ≤ x.depth := by
        by_cases h1 : x.depth = -1
        · exact Or.inl h1
        · right
          by_contra h2
          exact hx ⟨h1, by omega⟩
      by_cases hn : identifiersEqual name x.name = true
      · have hname : x.name = name := ((identifiersEqual_iff _ _).mp hn).symm
        have hyes : ∃ a loc b, x :: t = a ++ loc :: b ∧ loc.name = name ∧
            ∀ l ∈ a ++ [loc], l.depth = -1 ∨ (d : Int) ≤ l.depth :=
          ⟨[], x, t, rfl, hname, by simpa using hok⟩
        refine ⟨fun _ => ?_, fun h => absurd hyes h⟩
        simp only [declareVariableLoop, if_neg hx, hn, if_true]
        exact declareVariableLoop_error name d s t
      · have hname : x.name ≠ name := fun h => hn ((identifiersEqual_iff _ _).mpr h.symm)
        have hiff : (∃ a loc b, x :: t = a ++ loc :: b ∧ loc.name = name ∧
            ∀ l ∈ a ++ [loc], l.depth = -1 ∨ (d : Int) ≤ l.depth) ↔
            ∃ a loc b, t = a ++ loc :: b ∧ loc.name = name ∧
              ∀ l ∈ a ++ [loc], l.depth = -1 ∨ (d : Int) ≤ l.depth := by
          constructor
          · rintro ⟨a, loc, b, h, hl, hall⟩
            cases a with
            | nil =>
              simp only [List.nil_append, List.cons.injEq] at h
              exact absurd (h.1 ▸ hl) hname
            | cons y a' =>
              simp only [List.cons_append, List.cons.injEq] at h
              refine ⟨a', loc, b, h.2, hl, fun l hm => hall l ?_⟩
              simp only [List.cons_append, List.mem_cons]
              exact Or.inr hm
          · rintro ⟨a, loc, b, h, hl, hall⟩
            refine ⟨x :: a, loc, b, by rw [h]; rfl, hl, ?_⟩
            intro l hm
            simp only [List.cons_append, List.mem_cons] at hm
            rcases hm with rfl | hm
            · exact hok
            · exact hall l hm
        have hstep : declareVariableLoop name d s (x :: t) = declareVariableLoop name d s t := by
          simp only [declareVariableLoop, if_neg hx, hn]
          rfl
        rw [hstep, hiff]
        exact ih s

/-- C24: declareVariable for the name of the previous token, in a compiler of scope depth
`d` with the locals `ls`.  At depth 0 the state is unchanged.  At depth `d > 0` it calls
`error` with "Already a variable with this name in this scope." exactly when some local has
the name and neither it nor any local after it belongs to an enclosing scope (each has depth
-1 or at least `d`), so that outside panic mode the message is recorded exactly then; a
local of that name with a smaller depth is no error.  Then addLocal runs: with fewer than
256 locals the name is appended as a new local of depth -1, after every other local. -/
theorem declareVariable_same_scope (s : CompileState) (c : Compiler) (rest : List Compiler)
    (hc : s.compilers = c :: rest) :
    (c.scopeDepth = 0 → declareVariable s = s) ∧
    (c.scopeDepth ≠ 0 →
      ((∃ pre loc post, c.locals = pre ++ loc :: post ∧ loc.name = s.parser.previous.lexeme ∧
          ∀ l ∈ loc :: post, l.depth = -1 ∨ (c.scopeDepth : Int) ≤ l.depth) →
        declareVariable s =
          addLocal (error s "Already a variable with this name in this scope.")
            s.parser.previous.lexeme) ∧
      ((¬ ∃ pre loc post, c.locals = pre ++ loc :: post ∧
          loc.name = s.parser.previous.lexeme ∧
          ∀ l ∈ loc :: post, l.depth = -1 ∨ (c.scopeDepth : Int) ≤ l.depth) →
        declareVariable s = addLocal s s.parser.previous.lexeme) ∧
      ((∀ l ∈ c.locals, l.name = s.parser.previous.lexeme →
          l.depth ≠ -1 ∧ l.depth < (c.scopeDepth : Int)) →
        declareVariable s = addLocal s s.parser.previous.lexeme) ∧
      (s.parser.panicMode = false →
        ((declareVariable s).errors =
            s.errors ++ ["Already a variable with this name in this scope."] ↔
          ∃ pre loc post, c.locals = pre ++ loc :: post ∧
            loc.name = s.parser.previous.lexeme ∧
            ∀ l ∈ loc :: post, l.depth = -1 ∨ (c.scopeDepth : Int) ≤ l.depth)) ∧
      (c.locals.length ≠ BYTE_HEIGHT →
        (declareVariable s).compilers =
          { c with
            locals := c.locals ++
              [{ name := s.parser.previous.lexeme, depth := -1, isCaptured := false }] } ::
            rest)) := by
  have hconv : (∃ a loc b, c.locals.reverse = a ++ loc :: b ∧
        loc.name = s.parser.previous.lexeme ∧
        ∀ l ∈ a ++ [loc], l.depth = -1 ∨ (c.scopeDepth : Int) ≤ l.depth) ↔
      ∃ pre loc post, c.locals = pre ++ loc :: post ∧ loc.name = s.parser.previous.lexeme ∧
        ∀ l ∈ loc :: post, l.depth = -1 ∨ (c.scopeDepth : Int) ≤ l.depth := by
    constructor
    · rintro ⟨a, loc, b, h, hl, hall⟩
      refine ⟨b.reverse, loc, a.reverse, ?_, hl, ?_⟩
      · have := congrArg List.reverse h
        simpa using this
      · intro l hm
        apply hall
        simp only [List.mem_cons, List.mem_reverse] at hm
        simp only [List.mem_append, List.mem_singleton]
        tauto
    · rintro ⟨pre, loc, post, h, hl, hall⟩
      refine ⟨post.reverse, loc, pre.reverse, by rw [h]; simp, hl, ?_⟩
      intro l hm
      apply hall
      simp only [List.mem_append, List.mem_reverse, List.mem_singleton] at hm
      simp only [List.mem_cons]
      tauto
  have hloop := declareVariableLoop_spec s.parser.previous.lexeme c.scopeDepth c.locals.reverse s
  rw [hconv] at hloop
  have hadd : ∀ t : CompileState, t.compilers = c :: rest → c.locals.length ≠ BYTE_HEIGHT →
      (addLocal t s.parser.previous.lexeme).compilers =
        { c with
          locals := c.locals ++
            [{ name := s.parser.previous.lexeme, depth := -1, isCaptured := false }] } ::
          rest := by
    intro t ht hlen
    simp only [addLocal, ht, if_neg hlen, setCurrent]
  have haddErr : ∀ t : CompileState, t.compilers = c :: rest →
      (addLocal t s.parser.previous.lexeme).errors = t.errors ∨
      (t.parser.panicMode = false ∧
        (addLocal t s.parser.previous.lexeme).errors =
          t.errors ++ ["Too many local variables in function."]) := by
    intro t ht
    by_cases hlen : c.locals.length = BYTE_HEIGHT
    · simp only [addLocal, ht, if_pos hlen]
      cases hp : t.parser.panicMode with
      | true => left; rw [(error_fields t _).2.2.2.2.2.2.1 hp]
      | false => right; exact ⟨rfl, ((error_fields t _).2.2.2.2.2.2.2 hp).1⟩
    · left
      simp only [addLocal, ht, if_neg hlen, setCurrent]
  refine ⟨?_, fun hd => ?_⟩
  · intro hd
    simp only [declareVariable, hc, hd, if_true]
  · have hdef : declareVariable s =
        addLocal (declareVariableLoop s.parser.previous.lexeme c.scopeDepth s c.locals.reverse)
          s.parser.previous.lexeme := by
      simp only [declareVariable, hc, if_neg hd]
    refine ⟨fun h => ?_, fun h => ?_, fun h => ?_, fun hp => ?_, fun hlen => ?_⟩
    · rw [hdef, hloop.1 h]
    · rw [hdef, hloop.2 h]
    · rw [hdef, hloop.2]
      rintro ⟨pre, loc, post, h1, h2, h3⟩
      have hm : loc ∈ c.locals := by rw [h1]; simp
      obtain ⟨h4, h5⟩ := h loc hm h2
      rcases h3 loc (List.mem_cons_self _ _) with h6 | h6
      · exact h4 h6
      · omega
    · by_cases hdup : ∃ pre loc post, c.locals = pre ++ loc :: post ∧
          loc.name = s.parser.previous.lexeme ∧
          ∀ l ∈ loc :: post, l.depth = -1 ∨ (c.scopeDepth : Int) ≤ l.depth
      · refine ⟨fun _ => hdup, fun _ => ?_⟩
        rw [hdef, hloop.1 hdup]
        have hpm := ((error_fields s "Already a variable with this name in this scope.").2.2.2.2.2.2.2
          hp)
        rcases haddErr (error s "Already a variable with this name in this scope.")
          ((error_fields s _).1.trans hc) with h | ⟨h, _⟩
        · rw [h]; exact hpm.1
        · rw [hpm.2.2] at h; cases h
      · refine ⟨fun herr => ?_, fun h => absurd h hdup⟩
        exfalso
        rw [hdef, hloop.2 hdup] at herr
        rcases haddErr s hc with h | ⟨_, h⟩
        · rw [h] at herr
          exact append_single_ne _ _ herr
        · rw [h] at herr
          have := List.append_cancel_left herr
          simp only [List.cons.injEq, and_true] at this
          exact absurd this (by decide)
    · rw [hdef]
      by_cases hdup : ∃ pre loc post, c.locals = pre ++ loc :: post ∧
          loc.name = s.parser.previous.lexeme ∧
          ∀ l ∈ loc :: post, l.depth = -1 ∨ (c.scopeDepth : Int) ≤ l.depth
      · rw [hloop.1 hdup]
        exact hadd _ ((error_fields s _).1.trans hc) hlen
      · rw [hloop.2 hdup]
        exact hadd _ hc hlen

/-- C24 at shadowCompiler (depth 2; locals `x` and `y` of depth 1, `x` of depth 2, `z` of
depth -1): declaring `x` again raises the error, declaring `y`, which exists in the
enclosing scope only, does not. -/
theorem declareVariable_same_scope_witness :
    declareVariable (shadowState "x") =
      addLocal (error (shadowState "x") "Already a variable with this name in this scope.")
        (shadowState "x").parser.previous.lexeme ∧
    declareVariable (shadowState "y") =
      addLocal (shadowState "y") (shadowState "y").parser.previous.lexeme :=
  ⟨((declareVariable_same_scope (shadowState "x") shadowCompiler [] rfl).2 (by decide)).1
      ⟨[{ name := [], depth := 0, isCaptured := false },
        { name := [120], depth := 1, isCaptured := false },
        { name := [121], depth := 1, isCaptured := false }],
       { name := [120], depth := 2, isCaptured := false },
       [{ name := [122], depth := -1, isCaptured := false }], rfl, rfl, by decide⟩,
    ((declareVariable_same_scope (shadowState "y") shadowCompiler [] rfl).2
      (by decide)).2.2.1 (by decide)⟩

/-- The function identifierConstant leaves the previous token alone. -/
theorem identifierConstant_previous {H : Host} {s s1 : CompileState} {name : List Nat}
    {k : Nat} (h : identifierConstant H s name = some (k, s1)) :
    s1.parser.previous = s.parser.previous := by
  unfold identifierConstant at h
  simp only [Option.bind_eq_bind, Option.bind_eq_some] at h
  obtain ⟨⟨vm1, str⟩, _, h2⟩ := h
  unfold makeConstant at h2
  simp only [Option.bind_eq_bind, Option.bind_eq_some] at h2
  obtain ⟨chunk, _, s2, h3, h4⟩ := h2
  have hs2 : s2.parser = s.parser := by
    unfold setCurrentChunk at h3
    split at h3
    · cases h3
    · split at h3
      · cases h3
        rfl
      · cases h3
  split at h4
  · cases h4
    rw [(error_fields s2 _).2.2.2.2.1, hs2]
  · cases h4
    rw [hs2]

/-- C25: `method` gives the function it compiles the type TYPE_INITIALIZER exactly when the
name token is `init`, and TYPE_METHOD otherwise, and initCompiler stores that type in the
compiler.  For a compiler of type TYPE_INITIALIZER the implicit return of endCompiler and
the statement `return;` append OP_LOCAL_GET 0, OP_RETURN, and the statement `return` with a
value calls `error` with "Can't return a value from an initializer." before the value is
compiled; for every other type they append OP_NIL, OP_RETURN, and that error is not
raised.  End to end: `function`, given a type, starts the body with a new current compiler
of that type, and when the body `block` leaves the type of its compiler alone, `function`
returns with that compiler popped and the code of the function it compiled is the code of
the body followed by OP_LOCAL_GET 0, OP_RETURN if the type is TYPE_INITIALIZER and by
OP_NIL, OP_RETURN otherwise; so `method` returns with the code of the method ending in
OP_LOCAL_GET 0, OP_RETURN when the name token is `init` and in OP_NIL, OP_RETURN when it is
any other name. -/
theorem init_method_returns_this (H : Host) (block expression : CompileState → Option CompileState)
    (fuel : Nat) (s : CompileState) (e : Compiler) (rest : List Compiler) (o : Obj)
    (f : ObjFunction) (hc : s.compilers = e :: rest)
    (hg : heapGet s.vm.heap e.function = some o) (hd : o.data = .function f) :
    (∀ previous : Token,
      (methodType previous = .TYPE_INITIALIZER ↔ previous.lexeme = initName) ∧
      (previous.lexeme ≠ initName → methodType previous = .TYPE_METHOD)) ∧
    (∀ k s2,
      identifierConstant H (consume s .TOKEN_IDENTIFIER "Expect method name.")
          (consume s .TOKEN_IDENTIFIER "Expect method name.").parser.previous.lexeme =
        some (k, s2) →
      method H block fuel s =
        (function H block fuel
          (methodType (consume s .TOKEN_IDENTIFIER "Expect method name.").parser.previous)
          s2).bind (fun s3 => emitBytes s3 OpCode.OP_METHOD.toByte k)) ∧
    (∀ type s0 s1, initCompiler H s0 type = some s1 →
      ∃ c, s1.compilers = c :: s0.compilers ∧ c.type = type) ∧
    (∃ s1 o1 f1, endCompiler s = some (e.function, s1) ∧ s1.compilers = rest ∧
      heapGet s1.vm.heap e.function = some o1 ∧ o1.data = .function f1 ∧
      f1.chunk.code = f.chunk.code ++
        (if e.type = .TYPE_INITIALIZER then
          [OpCode.OP_LOCAL_GET.toByte, 0, OpCode.OP_RETURN.toByte]
         else [OpCode.OP_NIL.toByte, OpCode.OP_RETURN.toByte])) ∧
    (s.parser.current.type = .TOKEN_SEMICOLON →
      ∃ s1 o1 f1, returnStatement expression s = some s1 ∧
        heapGet s1.vm.heap e.function = some o1 ∧ o1.data = .function f1 ∧
        f1.chunk.code = f.chunk.code ++
          (if e.type = .TYPE_INITIALIZER then
            [OpCode.OP_LOCAL_GET.toByte, 0, OpCode.OP_RETURN.toByte]
           else [OpCode.OP_NIL.toByte, OpCode.OP_RETURN.toByte])) ∧
    (s.parser.current.type ≠ .TOKEN_SEMICOLON → e.type = .TYPE_INITIALIZER →
      returnStatement expression s =
        (expression (error s "Can't return a value from an initializer.")).bind
          (fun s4 =>
            emitByte (consume s4 .TOKEN_SEMICOLON "Expect ';' after return value.")
              OpCode.OP_RETURN.toByte) ∧
      (s.parser.panicMode = false →
        (error s "Can't return a value from an initializer.").errors =
          s.errors ++ ["Can't return a value from an initializer."])) ∧
    (s.parser.current.type ≠ .TOKEN_SEMICOLON → e.type ≠ .TYPE_INITIALIZER →
      returnStatement expression s =
        (expression
            (if e.type = .TYPE_SCRIPT then error s "Can't return from top-level code."
             else s)).bind
          (fun s4 =>
            emitByte (consume s4 .TOKEN_SEMICOLON "Expect ';' after return value.")
              OpCode.OP_RETURN.toByte)) ∧
    (∀ (type : FunctionType) (s0 s6 s7 : CompileState) (c encl : Compiler)
        (rest0 : List Compiler) (oc oe : Obj) (fc fe : ObjFunction),
      functionBody H (fun t => some t) fuel type s0 = some s6 → block s6 = some s7 →
      s7.compilers = c :: encl :: rest0 →
      (∀ c6, s6.compilers.head? = some c6 → c.type = c6.type) →
      heapGet s7.vm.heap c.function = some oc → oc.data = .function fc →
      heapGet s7.vm.heap encl.function = some oe → oe.data = .function fe →
      c.function ≠ encl.function → fc.upvalueCount ≤ c.upvalues.length →
      s6.compilers.map Compiler.type = type :: s0.compilers.map Compiler.type ∧
      c.type = type ∧
      ∃ s8 o8 f8, function H block fuel type s0 = some s8 ∧ s8.compilers = encl :: rest0 ∧
        heapGet s8.vm.heap c.function = some o8 ∧ o8.data = .function f8 ∧
        f8.chunk.code = fc.chunk.code ++
          (if type = .TYPE_INITIALIZER then
            [OpCode.OP_LOCAL_GET.toByte, 0, OpCode.OP_RETURN.toByte]
           else [OpCode.OP_NIL.toByte, OpCode.OP_RETURN.toByte])) ∧
    (∀ (k : Nat) (s2 s6 s7 : CompileState) (c encl : Compiler) (rest0 : List Compiler)
        (oc oe : Obj) (fc fe : ObjFunction),
      identifierConstant H (consume s .TOKEN_IDENTIFIER "Expect method name.")
          (consume s .TOKEN_IDENTIFIER "Expect method name.").parser.previous.lexeme =
        some (k, s2) →
      functionBody H (fun t => some t) fuel
          (methodType (consume s .TOKEN_IDENTIFIER "Expect method name.").parser.previous)
          s2 = some s6 →
      block s6 = some s7 →
      s7.compilers = c :: encl :: rest0 →
      (∀ c6, s6.compilers.head? = some c6 → c.type = c6.type) →
      heapGet s7.vm.heap c.function = some oc → oc.data = .function fc →
      heapGet s7.vm.heap encl.function = some oe → oe.data = .function fe →
      c.function ≠ encl.function → fc.upvalueCount ≤ c.upvalues.length →
      ∃ s9 o9 f9, method H block fuel s = some s9 ∧ s9.compilers = encl :: rest0 ∧
        heapGet s9.vm.heap c.function = some o9 ∧ o9.data = .function f9 ∧
        f9.chunk.code = fc.chunk.code ++
          (if (consume s .TOKEN_IDENTIFIER "Expect method name.").parser.previous.lexeme =
              initName then
            [OpCode.OP_LOCAL_GET.toByte, 0, OpCode.OP_RETURN.toByte]
           else [OpCode.OP_NIL.toByte, OpCode.OP_RETURN.toByte])) := by
  have hiff : ∀ previous : Token,
      methodType previous = .TYPE_INITIALIZER ↔ previous.lexeme = initName := by
    intro previous
    unfold methodType
    constructor
    · intro h
      split at h
      · rename_i hcond
        have := hcond.2
        rw [List.take_of_length_le (by omega)] at this
        exact this
      · cases h
    · intro h
      have hcond : previous.lexeme.length = 4 ∧ previous.lexeme.take 4 = initName := by
        rw [h]
        exact ⟨rfl, rfl⟩
      rw [if_pos hcond]
  have hfun : ∀ (type : FunctionType) (s0 s6 s7 : CompileState) (c encl : Compiler)
      (rest0 : List Compiler) (oc oe : Obj) (fc fe : ObjFunction),
      functionBody H (fun t => some t) fuel type s0 = some s6 → block s6 = some s7 →
      s7.compilers = c :: encl :: rest0 →
      (∀ c6, s6.compilers.head? = some c6 → c.type = c6.type) →
      heapGet s7.vm.heap c.function = some oc → oc.data = .function fc →
      heapGet s7.vm.heap encl.function = some oe → oe.data = .function fe →
      c.function ≠ encl.function → fc.upvalueCount ≤ c.upvalues.length →
      s6.compilers.map Compiler.type = type :: s0.compilers.map Compiler.type ∧
      c.type = type ∧
      ∃ s8 o8 f8 oe8 fe8, function H block fuel type s0 = some s8 ∧
        s8.compilers = encl :: rest0 ∧
        heapGet s8.vm.heap c.function = some o8 ∧ o8.data = .function f8 ∧
        f8.chunk.code = fc.chunk.code ++
          (if type = .TYPE_INITIALIZER then
            [OpCode.OP_LOCAL_GET.toByte, 0, OpCode.OP_RETURN.toByte]
           else [OpCode.OP_NIL.toByte, OpCode.OP_RETURN.toByte]) ∧
        heapGet s8.vm.heap encl.function = some oe8 ∧ oe8.data = .function fe8 := by
    intro type s0 s6 s7 c encl rest0 oc oe fc fe hhead hblock hcomp hkeep hgc hdc hge hde hne hup
    have htypes := functionBody_types hhead
    have hct : c.type = type := by
      cases h6 : s6.compilers with
      | nil =>
        rw [h6] at htypes
        cases htypes
      | cons c6 r6 =>
        rw [h6, List.map_cons] at htypes
        exact (hkeep c6 (by rw [h6]; rfl)).trans (List.cons.inj htypes).1
    have hbody : functionBody H block fuel type s0 = some s7 := by
      rw [functionBody_split, hhead]
      exact hblock
    obtain ⟨s8, o8, f8, oe8, fe8, h1, h2, h3, h4, h5, h6', h7⟩ :=
      functionEnd_code s7 c encl rest0 oc oe fc fe hcomp hgc hdc hge hde hne hup
    rw [hct] at h5
    refine ⟨htypes, hct, s8, o8, f8, oe8, fe8, ?_, h2, h3, h4, h5, h6', h7⟩
    simp only [function, hbody, Option.bind_eq_bind, Option.some_bind]
    exact h1
  have hs0 : ∀ b : Bool, (if b then error s "Can't return from top-level code." else s).compilers =
        e :: rest ∧
      (if b then error s "Can't return from top-level code." else s).vm = s.vm ∧
      (if b then error s "Can't return from top-level code." else s).parser.current =
        s.parser.current := by
    intro b
    cases b
    · exact ⟨hc, rfl, rfl⟩
    · exact ⟨(error_fields s _).1.trans hc, (error_fields s _).2.1, (error_fields s _).2.2.2.1⟩
  refine ⟨?_, ?_, ?_, ?_, ?_, ?_, ?_, ?_, ?_⟩
  · intro previous
    refine ⟨hiff previous, fun hne => ?_⟩
    unfold methodType
    split
    · rename_i hcond
      exact absurd ((hiff previous).mp (by unfold methodType; rw [if_pos hcond])) hne
    · rfl
  · intro k s2 hid
    have hprev := identifierConstant_previous hid
    simp only [method, hid, Option.bind_eq_bind, Option.some_bind, hprev]
  · intro type s0 s1 h
    obtain ⟨c, h1, h2, _⟩ := initCompiler_type h
    exact ⟨c, h1, h2⟩
  · obtain ⟨sA, oA, fA, hA, hcA, _, hgA, hdA, hcodeA, _, _, _⟩ :=
      emitReturn_spec s e rest o f hc hg hd
    refine ⟨{ sA with
              compilers := rest
              vm := { sA.vm with compilerRoots := sA.vm.compilerRoots.tail } }, oA, fA, ?_,
      rfl, hgA, hdA, hcodeA⟩
    simp only [endCompiler, hA, Option.bind_eq_bind, Option.some_bind, hcA.trans hc,
      List.head?_cons, List.tail_cons]
  · intro hsemi
    obtain ⟨h1, h2, h3⟩ := hs0 (decide (e.type = .TYPE_SCRIPT))
    have hcur : (if decide (e.type = .TYPE_SCRIPT) = true then
        error s "Can't return from top-level code." else s).parser.current.type =
        .TOKEN_SEMICOLON := by rw [h3]; exact hsemi
    obtain ⟨m1, m2, m3, m4, _⟩ := matchToken_fields
      (if decide (e.type = .TYPE_SCRIPT) = true then
        error s "Can't return from top-level code." else s) .TOKEN_SEMICOLON
    have hm := m3.mpr hcur
    obtain ⟨sA, oA, fA, hA, _, _, hgA, hdA, hcodeA, _, _, _⟩ :=
      emitReturn_spec _ e rest o f (m1.trans h1) (by rw [m2, h2]; exact hg) hd
    refine ⟨sA, oA, fA, ?_, hgA, hdA, hcodeA⟩
    simp only [returnStatement, hc, List.head?_cons, Option.bind_eq_bind, Option.some_bind]
    simp only [decide_eq_true_eq] at hm hA
    rw [if_pos hm]
    exact hA
  · intro hsemi hinit
    have hns : ¬ e.type = .TYPE_SCRIPT := by rw [hinit]; decide
    have hm : ¬ (matchToken s .TOKEN_SEMICOLON).1 = true :=
      fun h => hsemi ((matchToken_fields s _).2.2.1.mp h)
    have hm2 : (matchToken s .TOKEN_SEMICOLON).2 = s :=
      (matchToken_fields s _).2.2.2.2 (by simpa using hm)
    refine ⟨?_, fun hp => ((error_fields s _).2.2.2.2.2.2.2 hp).1⟩
    simp only [returnStatement, hc, List.head?_cons, Option.bind_eq_bind, Option.some_bind,
      if_neg hns, if_neg hm, hm2, if_pos hinit]
  · intro hsemi hinit
    obtain ⟨h1, h2, h3⟩ := hs0 (decide (e.type = .TYPE_SCRIPT))
    simp only [decide_eq_true_eq] at h1 h2 h3
    have hm : ¬ (matchToken (if e.type = .TYPE_SCRIPT then
        error s "Can't return from top-level code." else s) .TOKEN_SEMICOLON).1 = true :=
      fun h => hsemi (by rw [← h3]; exact (matchToken_fields _ _).2.2.1.mp h)
    have hm2 := (matchToken_fields (if e.type = .TYPE_SCRIPT then
        error s "Can't return from top-level code." else s) .TOKEN_SEMICOLON).2.2.2.2
      (by simpa using hm)
    simp only [returnStatement, hc, List.head?_cons, Option.bind_eq_bind, Option.some_bind,
      if_neg hm, hm2, h1, if_neg hinit]
  · intro type s0 s6 s7 c encl rest0 oc oe fc fe hhead hblock hcomp hkeep hgc hdc hge hde hne hup
    obtain ⟨hA, hB, s8, o8, f8, _, _, h1, h2, h3, h4, h5, _, _⟩ :=
      hfun type s0 s6 s7 c encl rest0 oc oe fc fe hhead hblock hcomp hkeep hgc hdc hge hde hne
        hup
    exact ⟨hA, hB, s8, o8, f8, h1, h2, h3, h4, h5⟩
  · intro k s2 s6 s7 c encl rest0 oc oe fc fe hid hhead hblock hcomp hkeep hgc hdc hge hde hne
      hup
    obtain ⟨_, _, s8, o8, f8, oe8, fe8, h1, h2, h3, h4, h5, h6, h7⟩ :=
      hfun _ s2 s6 s7 c encl rest0 oc oe fc fe hhead hblock hcomp hkeep hgc hdc hge hde hne hup
    obtain ⟨sA, oA, fA, hA, hcA, _, _, hgA, hdA, _, _, _, hneA⟩ :=
      emitByte_spec s8 encl rest0 oe8 fe8 OpCode.OP_METHOD.toByte h2 h6 h7
    obtain ⟨sB, oB, fB, hB, hcB, _, _, _, _, _, _, _, hneB⟩ :=
      emitByte_spec sA encl rest0 oA fA k (hcA.trans h2) hgA hdA
    have hprev := identifierConstant_previous hid
    refine ⟨sB, o8, f8, ?_, hcB.trans (hcA.trans h2), ?_, h4, ?_⟩
    · simp only [method, hid, Option.bind_eq_bind, Option.some_bind, hprev, h1, emitBytes, hA,
        hB]
    · rw [hneB _ hne, hneA _ hne]
      exact h3
    · rw [h5]
      by_cases hn : (consume s .TOKEN_IDENTIFIER "Expect method name.").parser.previous.lexeme =
          initName
      · rw [if_pos hn, if_pos ((hiff _).mpr hn)]
      · rw [if_neg hn, if_neg (fun h => hn ((hiff _).mp h))]

/-- C25 at returnState: `return;` in an initializer appends OP_LOCAL_GET 0, OP_RETURN and
in a method OP_NIL, OP_RETURN; `return 1;` in an initializer raises the error.  And at
methodState, a method with the body `5`: under the name `init` the code of the method is
OP_CONSTANT 0, OP_LOCAL_GET 0, OP_RETURN, under the name `area` it is OP_CONSTANT 0, OP_NIL,
OP_RETURN. -/
theorem init_method_returns_this_witness :
    (∃ s1 o1 f1,
      returnStatement (expression exampleHost 3)
          (returnState .TYPE_INITIALIZER (opToken .TOKEN_SEMICOLON)) = some s1 ∧
        heapGet s1.vm.heap 0 = some o1 ∧ o1.data = .function f1 ∧
        f1.chunk.code = jumpFunction.chunk.code ++
          [OpCode.OP_LOCAL_GET.toByte, 0, OpCode.OP_RETURN.toByte]) ∧
    (∃ s1 o1 f1,
      returnStatement (expression exampleHost 3)
          (returnState .TYPE_METHOD (opToken .TOKEN_SEMICOLON)) = some s1 ∧
        heapGet s1.vm.heap 0 = some o1 ∧ o1.data = .function f1 ∧
        f1.chunk.code = jumpFunction.chunk.code ++
          [OpCode.OP_NIL.toByte, OpCode.OP_RETURN.toByte]) ∧
    (returnStatement (expression exampleHost 3)
        (returnState .TYPE_INITIALIZER (numberToken "1")) =
      (expression exampleHost 3
          (error (returnState .TYPE_INITIALIZER (numberToken "1"))
            "Can't return a value from an initializer.")).bind
        (fun s4 =>
          emitByte (consume s4 .TOKEN_SEMICOLON "Expect ';' after return value.")
            OpCode.OP_RETURN.toByte)) ∧
    (∃ s9 o9 f9, method exampleHost nestedBlock 4 (methodState "init") = some s9 ∧
      s9.compilers = nestedState.compilers ∧
      heapGet s9.vm.heap 3 = some o9 ∧ o9.data = .function f9 ∧
      f9.chunk.code = [OpCode.OP_CONSTANT.toByte, 0, OpCode.OP_LOCAL_GET.toByte, 0,
        OpCode.OP_RETURN.toByte]) ∧
    (∃ s9 o9 f9, method exampleHost nestedBlock 4 (methodState "area") = some s9 ∧
      s9.compilers = nestedState.compilers ∧
      heapGet s9.vm.heap 3 = some o9 ∧ o9.data = .function f9 ∧
      f9.chunk.code = [OpCode.OP_CONSTANT.toByte, 0, OpCode.OP_NIL.toByte,
        OpCode.OP_RETURN.toByte]) :=
  ⟨(init_method_returns_this exampleHost nestedBlock (expression exampleHost 3) 4
      (returnState .TYPE_INITIALIZER (opToken .TOKEN_SEMICOLON))
      { jumpCompiler with type := .TYPE_INITIALIZER } [] jumpObject jumpFunction
      rfl rfl rfl).2.2.2.2.1 rfl,
    (init_method_returns_this exampleHost nestedBlock (expression exampleHost 3) 4
      (returnState .TYPE_METHOD (opToken .TOKEN_SEMICOLON))
      { jumpCompiler with type := .TYPE_METHOD } [] jumpObject jumpFunction
      rfl rfl rfl).2.2.2.2.1 rfl,
    ((init_method_returns_this exampleHost nestedBlock (expression exampleHost 3) 4
      (returnState .TYPE_INITIALIZER (numberToken "1"))
      { jumpCompiler with type := .TYPE_INITIALIZER } [] jumpObject jumpFunction
      rfl rfl rfl).2.2.2.2.2.1 (by decide) rfl).1,
    (init_method_returns_this exampleHost nestedBlock (expression exampleHost 3) 4
      (methodState "init")
      { function := 1, type := .TYPE_FUNCTION,
        locals := [{ name := [], depth := 0, isCaptured := false },
                   { name := [120], depth := 1, isCaptured := false }],
        upvalues := [], scopeDepth := 1 }
      [{ function := 0, type := .TYPE_FUNCTION,
         locals := [{ name := [], depth := 0, isCaptured := false },
                    { name := [121], depth := 1, isCaptured := false }],
         upvalues := [], scopeDepth := 1 }]
      { isMarked := false, next := some 0,
        data := .function { arity := 0, upvalueCount := 0,
                            chunk := { code := [], lines := [], constants := [] },
                            name := none } }
      { arity := 0, upvalueCount := 0, chunk := { code := [], lines := [], constants := [] },
        name := none }
      rfl rfl rfl).2.2.2.2.2.2.2.2
      0 (methodNamedState "init") (methodHeadState "init") (methodBodyState "init")
      { function := 3, type := .TYPE_INITIALIZER,
        locals := [{ name := "this".toList.map Char.toNat, depth := 0, isCaptured := false }],
        upvalues := [], scopeDepth := 1 }
      { function := 1, type := .TYPE_FUNCTION,
        locals := [{ name := [], depth := 0, isCaptured := false },
                   { name := [120], depth := 1, isCaptured := false }],
        upvalues := [], scopeDepth := 1 }
      [{ function := 0, type := .TYPE_FUNCTION,
         locals := [{ name := [], depth := 0, isCaptured := false },
                    { name := [121], depth := 1, isCaptured := false }],
         upvalues := [], scopeDepth := 1 }]
      { isMarked := false, next := some 2,
        data := .function { arity := 0, upvalueCount := 0,
                            chunk := { code := [7, 0], lines := [1, 1],
                                       constants := [.number 5] },
                            name := some 2 } }
      { isMarked := false, next := some 0,
        data := .function { arity := 0, upvalueCount := 0,
                            chunk := { code := [], lines := [], constants := [.obj 2] },
                            name := none } }
      { arity := 0, upvalueCount := 0,
        chunk := { code := [7, 0], lines := [1, 1], constants := [.number 5] },
        name := some 2 }
      { arity := 0, upvalueCount := 0,
        chunk := { code := [], lines := [], constants := [.obj 2] }, name := none }
      rfl rfl rfl rfl (fun c6 h => Option.some.inj h ▸ rfl) rfl rfl rfl rfl (by decide)
      (by decide),
    (init_method_returns_this exampleHost nestedBlock (expression exampleHost 3) 4
      (methodState "area")
      { function := 1, type := .TYPE_FUNCTION,
        locals := [{ name := [], depth := 0, isCaptured := false },
                   { name := [120], depth := 1, isCaptured := false }],
        upvalues := [], scopeDepth := 1 }
      [{ function := 0, type := .TYPE_FUNCTION,
         locals := [{ name := [], depth := 0, isCaptured := false },
                    { name := [121], depth := 1, isCaptured := false }],
         upvalues := [], scopeDepth := 1 }]
      { isMarked := false, next := some 0,
        data := .function { arity := 0, upvalueCount := 0,
                            chunk := { code := [], lines := [], constants := [] },
                            name := none } }
      { arity := 0, upvalueCount := 0, chunk := { code := [], lines := [], constants := [] },
        name := none }
      rfl rfl rfl).2.2.2.2.2.2.2.2
      0 (methodNamedState "area") (methodHeadState "area") (methodBodyState "area")
      { function := 3, type := .TYPE_METHOD,
        locals := [{ name := "this".toList.map Char.toNat, depth := 0, isCaptured := false }],
        upvalues := [], scopeDepth := 1 }
      { function := 1, type := .TYPE_FUNCTION,
        locals := [{ name := [], depth := 0, isCaptured := false },
                   { name := [120], depth := 1, isCaptured := false }],
        upvalues := [], scopeDepth := 1 }
      [{ function := 0, type := .TYPE_FUNCTION,
         locals := [{ name := [], depth := 0, isCaptured := false },
                    { name := [121], depth := 1, isCaptured := false }],
         upvalues := [], scopeDepth := 1 }]
      { isMarked := false, next := some 2,
        data := .function { arity := 0, upvalueCount := 0,
                            chunk := { code := [7, 0], lines := [1, 1],
                                       constants := [.number 5] },
                            name := some 2 } }
      { isMarked := false, next := some 0,
        data := .function { arity := 0, upvalueCount := 0,
                            chunk := { code := [], lines := [], constants := [.obj 2] },
                            name := none } }
      { arity := 0, upvalueCount := 0,
        chunk := { code := [7, 0], lines := [1, 1], constants := [.number 5] },
        name := some 2 }
      { arity := 0, upvalueCount := 0,
        chunk := { code := [], lines := [], constants := [.obj 2] }, name := none }
      rfl rfl rfl rfl (fun c6 h => Option.some.inj h ▸ rfl) rfl rfl rfl rfl (by decide)
      (by decide)⟩

/-- READ_SHORT of the bytes `(j >> 8) & 0xff`, `j & 0xff` is `j`, for `j` of 16 bits. -/
theorem READ_SHORT_of_bytes (chunk : Chunk) (ip j : Nat) (hj : j ≤ UINT16_MAX)
    (h0 : chunk.code.getD ip 0 = (j / 2 ^ 8) % 256)
    (h1 : chunk.code.getD (ip + 1) 0 = j % 256) :
    READ_SHORT chunk ip = (j, ip + 2) := by
  unfold READ_SHORT
  simp only [Nat.add_sub_cancel, show ip + 2 - 1 = ip + 1 from rfl, h0, h1]
  have e8 : (2 : Nat) ^ 8 = 256 := by norm_num
  have e16 : (2 : Nat) ^ 16 = 65536 := by norm_num
  have hor := @Nat.mul_add_lt_is_or 8 (j % 256) (by rw [e8]; omega) (j / 256 % 256)
  rw [e8] at hor ⊢
  rw [e16, Nat.mul_comm, ← hor]
  unfold UINT16_MAX at hj
  refine Prod.ext ?_ rfl
  show (256 * (j / 256 % 256) + j % 256) % 65536 = j
  omega

theorem getD_set_self_nat (l : List Nat) (i v : Nat) (h : i < l.length) :
    (l.set i v).getD i 0 = v := by
  simp [List.getD_eq_getElem?_getD, List.getElem?_set, h]

theorem getD_set_ne_nat (l : List Nat) (i k v : Nat) (h : i ≠ k) :
    (l.set i v).getD k 0 = l.getD k 0 := by
  simp [List.getD_eq_getElem?_getD, List.getElem?_set, h]

/-- C26: patchJump at `offset`, for the distance `j` from behind the operand to the end of
the code, stores the bytes `(j >> 8) & 0xff` and `j & 0xff` at `offset` and `offset + 1`,
and emitLoop, for the distance `j` from behind its operand back to `loopStart`, appends
OP_LOOP and those two bytes.  In both cases READ_SHORT at the operand yields `j` and moves
`ip` by 2 whenever `j <= 65535`, and `error` is called, with "Too much code to jump over."
and "Loop body too large.", exactly when `j > 65535`. -/
theorem jump_operand_roundtrip (s : CompileState) (e : Compiler) (rest : List Compiler)
    (o : Obj) (f : ObjFunction) (offset loopStart : Nat) (hc : s.compilers = e :: rest)
    (hg : heapGet s.vm.heap e.function = some o) (hd : o.data = .function f)
    (hoff : offset + 2 ≤ f.chunk.code.length) (hloop : loopStart ≤ f.chunk.code.length) :
    (∃ s1 o1 f1, patchJump s offset = some s1 ∧
      heapGet s1.vm.heap e.function = some o1 ∧ o1.data = .function f1 ∧
      f1.chunk.code =
        (f.chunk.code.set offset (((f.chunk.code.length - offset - 2) / 2 ^ 8) % 256)).set
          (offset + 1) ((f.chunk.code.length - offset - 2) % 256) ∧
      (f.chunk.code.length - offset - 2 ≤ 65535 →
        READ_SHORT f1.chunk offset = (f.chunk.code.length - offset - 2, offset + 2) ∧
        offset + 2 + (f.chunk.code.length - offset - 2) = f.chunk.code.length ∧
        s1.parser = s.parser ∧ s1.errors = s.errors) ∧
      (65535 < f.chunk.code.length - offset - 2 →
        s1.parser = (error s "Too much code to jump over.").parser ∧
        s1.errors = (error s "Too much code to jump over.").errors) ∧
      (s.parser.panicMode = false →
        (s1.errors = s.errors ++ ["Too much code to jump over."] ↔
          65535 < f.chunk.code.length - offset - 2))) ∧
    (∃ s1 o1 f1, emitLoop s loopStart = some s1 ∧
      heapGet s1.vm.heap e.function = some o1 ∧ o1.data = .function f1 ∧
      f1.chunk.code = f.chunk.code ++
        [OpCode.OP_LOOP.toByte, ((f.chunk.code.length + 3 - loopStart) / 2 ^ 8) % 256,
         (f.chunk.code.length + 3 - loopStart) % 256] ∧
      (f.chunk.code.length + 3 - loopStart ≤ 65535 →
        READ_SHORT f1.chunk (f.chunk.code.length + 1) =
          (f.chunk.code.length + 3 - loopStart, f.chunk.code.length + 3) ∧
        f.chunk.code.length + 3 - (f.chunk.code.length + 3 - loopStart) = loopStart ∧
        s1.parser = s.parser ∧ s1.errors = s.errors) ∧
      (65535 < f.chunk.code.length + 3 - loopStart →
        s1.parser = (error s "Loop body too large.").parser ∧
        s1.errors = (error s "Loop body too large.").errors) ∧
      (s.parser.panicMode = false →
        (s1.errors = s.errors ++ ["Loop body too large."] ↔
          65535 < f.chunk.code.length + 3 - loopStart))) := by
  have hfo := functionOf_of hg hd
  have herrS : ∀ (t : CompileState) (m : String), t.parser = s.parser → t.errors = s.errors →
      (error t m).parser = (error s m).parser ∧ (error t m).errors = (error s m).errors := by
    intro t m hp he
    unfold error errorAt
    rw [hp]
    cases s.parser.panicMode <;> simp [he, hp]
  constructor
  · -- patchJump
    have hj0 : ∀ (s0 : CompileState), s0.compilers = e :: rest → s0.vm = s.vm →
        ∃ o1 f1, setCurrentChunk s0
            { f.chunk with
              code := (f.chunk.code.set offset
                  (((f.chunk.code.length - offset - 2) / 2 ^ 8) % 256)).set (offset + 1)
                ((f.chunk.code.length - offset - 2) % 256) } =
            some { s0 with
                   vm := { s0.vm with heap := s0.vm.heap.set e.function (some o1) } } ∧
          currentChunk s0 = some f.chunk ∧
          heapGet (s0.vm.heap.set e.function (some o1)) e.function = some o1 ∧
          o1.data = .function f1 ∧
          f1.chunk.code = (f.chunk.code.set offset
                  (((f.chunk.code.length - offset - 2) / 2 ^ 8) % 256)).set (offset + 1)
                ((f.chunk.code.length - offset - 2) % 256) := by
      intro s0 h0c h0v
      have hfo0 : functionOf s0 e = some (o, f) := by
        unfold functionOf
        rw [h0v, hg]
        simp [hd]
      refine ⟨{ o with
                data := .function
                  { f with
                    chunk :=
                      { f.chunk with
                        code := (f.chunk.code.set offset
                            (((f.chunk.code.length - offset - 2) / 2 ^ 8) % 256)).set
                          (offset + 1) ((f.chunk.code.length - offset - 2) % 256) } } },
        { f with
          chunk :=
            { f.chunk with
              code := (f.chunk.code.set offset
                  (((f.chunk.code.length - offset - 2) / 2 ^ 8) % 256)).set
                (offset + 1) ((f.chunk.code.length - offset - 2) % 256) } }, ?_, ?_, ?_, rfl, rfl⟩
      · simp only [setCurrentChunk, h0c, hfo0]
      · simp only [currentChunk, h0c, hfo0]
      · rw [h0v]
        exact heapGet_set_self _ (heapGet_lt hg)
    have hread : ∀ f1 : ObjFunction,
        f1.chunk.code = (f.chunk.code.set offset
                  (((f.chunk.code.length - offset - 2) / 2 ^ 8) % 256)).set (offset + 1)
                ((f.chunk.code.length - offset - 2) % 256) →
        f.chunk.code.length - offset - 2 ≤ 65535 →
        READ_SHORT f1.chunk offset = (f.chunk.code.length - offset - 2, offset + 2) := by
      intro f1 hcode hj
      apply READ_SHORT_of_bytes
      · unfold UINT16_MAX; exact hj
      · rw [hcode, getD_set_ne_nat _ _ _ _ (by omega), getD_set_self_nat _ _ _ (by omega)]
      · rw [hcode, getD_set_self_nat _ _ _ (by rw [List.length_set]; omega)]
    by_cases hn : f.chunk.code.length - offset - 2 > UINT16_MAX
    · obtain ⟨o1, f1, hset, hcur, hg1, hd1, hcode1⟩ :=
        hj0 (error s "Too much code to jump over.") ((error_fields s _).1.trans hc)
          (error_fields s _).2.1
      have h : patchJump s offset =
          some { error s "Too much code to jump over." with
                 vm := { (error s "Too much code to jump over.").vm with
                         heap := (error s "Too much code to jump over.").vm.heap.set e.function
                           (some o1) } } := by
        have hcurS : currentChunk s = some f.chunk := by
          simp only [currentChunk, hc, hfo]
        simp only [patchJump, hcurS, Option.bind_eq_bind, Option.some_bind, if_pos hn, hcur]
        exact hset
      have hgt : 65535 < f.chunk.code.length - offset - 2 := by
        unfold UINT16_MAX at hn; exact hn
      refine ⟨_, o1, f1, h, hg1, hd1, hcode1, fun hle => absurd hgt (by omega),
        fun _ => ⟨rfl, rfl⟩, fun hp => ⟨fun _ => hgt, fun _ => ?_⟩⟩
      exact ((error_fields s _).2.2.2.2.2.2.2 hp).1
    · obtain ⟨o1, f1, hset, hcur, hg1, hd1, hcode1⟩ := hj0 s hc rfl
      have h : patchJump s offset =
          some { s with vm := { s.vm with heap := s.vm.heap.set e.function (some o1) } } := by
        simp only [patchJump, hcur, Option.bind_eq_bind, Option.some_bind, if_neg hn]
        exact hset
      have hle : f.chunk.code.length - offset - 2 ≤ 65535 := by
        unfold UINT16_MAX at hn; omega
      refine ⟨_, o1, f1, h, hg1, hd1, hcode1,
        fun _ => ⟨hread f1 hcode1 hle, by omega, rfl, rfl⟩, fun hgt => absurd hgt (by omega),
        fun _ => ⟨fun herr => absurd herr (append_single_ne _ _), fun hgt => absurd hgt (by omega)⟩⟩
  · -- emitLoop
    obtain ⟨sA, oA, fA, hA, hcA, hpA, heA, hgA, hdA, hcodeA, _, _, _⟩ :=
      emitByte_spec s e rest o f OpCode.OP_LOOP.toByte hc hg hd
    have hcA' := hcA.trans hc
    have hcount : fA.chunk.code.length - loopStart + 2 = f.chunk.code.length + 3 - loopStart := by
      rw [hcodeA]
      simp
      omega
    let j := f.chunk.code.length + 3 - loopStart
    let s0 : CompileState := if j > UINT16_MAX then error sA "Loop body too large." else sA
    have hs0 : s0.compilers = e :: rest ∧ s0.vm = sA.vm := by
      show (if j > UINT16_MAX then error sA "Loop body too large." else sA).compilers = _ ∧
        (if j > UINT16_MAX then error sA "Loop body too large." else sA).vm = _
      split
      · exact ⟨(error_fields sA _).1.trans hcA', (error_fields sA _).2.1⟩
      · exact ⟨hcA', rfl⟩
    have hg0 : heapGet s0.vm.heap e.function = some oA := by rw [hs0.2]; exact hgA
    obtain ⟨sB, oB, fB, hB, hcB, hpB, heB, hgB, hdB, hcodeB, _, _, _⟩ :=
      emitByte_spec s0 e rest oA fA ((j / 2 ^ 8) % 256) hs0.1 hg0 hdA
    obtain ⟨sC, oC, fC, hC, _, hpC, heC, hgC, hdC, hcodeC, _, _, _⟩ :=
      emitByte_spec sB e rest oB fB (j % 256) (hcB.trans hs0.1) hgB hdB
    have hcode : fC.chunk.code = f.chunk.code ++
        [OpCode.OP_LOOP.toByte, (j / 2 ^ 8) % 256, j % 256] := by
      rw [hcodeC, hcodeB, hcodeA, toByte_mod]
      simp
    have h : emitLoop s loopStart = some sC := by
      simp only [emitLoop, hA, Option.bind_eq_bind, Option.some_bind, currentChunk, hcA',
        functionOf_of hgA hdA, hcount]
      exact (congrArg (fun t => (emitByte t ((j / 2 ^ 8) % 256)).bind
        (fun s3 => emitByte s3 (j % 256))) (rfl : s0 = s0)).trans (by rw [hB]; exact hC)
    refine ⟨sC, oC, fC, h, hgC, hdC, hcode, ?_, ?_, ?_⟩
    · intro hj
      have hn : ¬ j > UINT16_MAX := by unfold UINT16_MAX; omega
      have hs0' : s0 = sA := if_neg hn
      refine ⟨?_, by omega, ?_, ?_⟩
      · apply READ_SHORT_of_bytes
        · unfold UINT16_MAX; exact hj
        · rw [hcode, List.getD_append_right _ _ _ _ (by omega)]
          simp
        · rw [hcode, List.getD_append_right _ _ _ _ (by omega)]
          have : f.chunk.code.length + 1 + 1 - f.chunk.code.length = 2 := by omega
          rw [this]
          rfl
      · rw [hpC, hpB, hs0', hpA]
      · rw [heC, heB, hs0', heA]
    · intro hj
      have hn : j > UINT16_MAX := by unfold UINT16_MAX; omega
      have hs0' : s0 = error sA "Loop body too large." := if_pos hn
      rw [hpC, hpB, heC, heB, hs0']
      exact herrS sA _ hpA heA
    · intro hp
      rw [heC, heB]
      constructor
      · intro herr
        by_contra hle
        have hn : ¬ j > UINT16_MAX := by unfold UINT16_MAX; omega
        have hs0' : s0 = sA := if_neg hn
        rw [hs0', heA] at herr
        exact append_single_ne _ _ herr
      · intro hj
        have hn : j > UINT16_MAX := by unfold UINT16_MAX; omega
        have hs0' : s0 = error sA "Loop body too large." := if_pos hn
        rw [hs0', (herrS sA _ hpA heA).2]
        exact ((error_fields s _).2.2.2.2.2.2.2 hp).1

/-- C26 at jumpState, whose code has 7 bytes: the jump at offset 1 is patched to the
distance 4 and read back as 4, and a loop back to offset 3 gets the distance 7. -/
theorem jump_operand_roundtrip_witness :
    (∃ s1 o1 f1, patchJump jumpState 1 = some s1 ∧
      heapGet s1.vm.heap jumpCompiler.function = some o1 ∧ o1.data = .function f1 ∧
      f1.chunk.code =
        (jumpFunction.chunk.code.set 1 (((jumpFunction.chunk.code.length - 1 - 2) / 2 ^ 8) % 256)).set
          (1 + 1) ((jumpFunction.chunk.code.length - 1 - 2) % 256) ∧
      (jumpFunction.chunk.code.length - 1 - 2 ≤ 65535 →
        READ_SHORT f1.chunk 1 = (jumpFunction.chunk.code.length - 1 - 2, 1 + 2) ∧
        1 + 2 + (jumpFunction.chunk.code.length - 1 - 2) = jumpFunction.chunk.code.length ∧
        s1.parser = jumpState.parser ∧ s1.errors = jumpState.errors) ∧
      (65535 < jumpFunction.chunk.code.length - 1 - 2 →
        s1.parser = (error jumpState "Too much code to jump over.").parser ∧
        s1.errors = (error jumpState "Too much code to jump over.").errors) ∧
      (jumpState.parser.panicMode = false →
        (s1.errors = jumpState.errors ++ ["Too much code to jump over."] ↔
          65535 < jumpFunction.chunk.code.length - 1 - 2))) ∧
    (∃ s1 o1 f1, emitLoop jumpState 3 = some s1 ∧
      heapGet s1.vm.heap jumpCompiler.function = some o1 ∧ o1.data = .function f1 ∧
      f1.chunk.code = jumpFunction.chunk.code ++
        [OpCode.OP_LOOP.toByte, ((jumpFunction.chunk.code.length + 3 - 3) / 2 ^ 8) % 256,
         (jumpFunction.chunk.code.length + 3 - 3) % 256] ∧
      (jumpFunction.chunk.code.length + 3 - 3 ≤ 65535 →
        READ_SHORT f1.chunk (jumpFunction.chunk.code.length + 1) =
          (jumpFunction.chunk.code.length + 3 - 3, jumpFunction.chunk.code.length + 3) ∧
        jumpFunction.chunk.code.length + 3 - (jumpFunction.chunk.code.length + 3 - 3) = 3 ∧
        s1.parser = jumpState.parser ∧ s1.errors = jumpState.errors) ∧
      (65535 < jumpFunction.chunk.code.length + 3 - 3 →
        s1.parser = (error jumpState "Loop body too large.").parser ∧
        s1.errors = (error jumpState "Loop body too large.").errors) ∧
      (jumpState.parser.panicMode = false →
        (s1.errors = jumpState.errors ++ ["Loop body too large."] ↔
          65535 < jumpFunction.chunk.code.length + 3 - 3))) :=
  jump_operand_roundtrip jumpState jumpCompiler [] jumpObject jumpFunction 1 3 rfl rfl rfl
    (by decide) (by decide)

/-- C27: makeConstant, for a compiler whose function has the constants `cs`, appends the
value and returns its index `cs.length` when that is at most 255, leaving parser and
messages alone; when the index exceeds 255 it calls `error` with "Too many constants in one
chunk." and returns 0, so outside panic mode the message is recorded exactly then.
emitConstant appends OP_CONSTANT and that byte, and when no error flag is set afterwards
(panic mode implying the error flag before) the byte is the index of the value in the
constants. -/
theorem makeConstant_index_or_error (s : CompileState) (e : Compiler) (rest : List Compiler)
    (o : Obj) (f : ObjFunction) (v : Value) (hc : s.compilers = e :: rest)
    (hg : heapGet s.vm.heap e.function = some o) (hd : o.data = .function f) :
    ∃ k s1 o1 f1, makeConstant s v = some (k, s1) ∧
      heapGet s1.vm.heap e.function = some o1 ∧ o1.data = .function f1 ∧
      f1.chunk.constants = f.chunk.constants ++ [v] ∧ f1.chunk.code = f.chunk.code ∧
      (f.chunk.constants.length ≤ 255 →
        k = f.chunk.constants.length ∧ f1.chunk.constants[k]? = some v ∧
        s1.parser = s.parser ∧ s1.errors = s.errors) ∧
      (255 < f.chunk.constants.length →
        k = 0 ∧ s1.parser = (error s "Too many constants in one chunk.").parser ∧
        s1.errors = (error s "Too many constants in one chunk.").errors) ∧
      (s.parser.panicMode = false →
        (s1.errors = s.errors ++ ["Too many constants in one chunk."] ↔
          255 < f.chunk.constants.length)) ∧
      ∃ s2 o2 f2, emitConstant s v = some s2 ∧
        heapGet s2.vm.heap e.function = some o2 ∧ o2.data = .function f2 ∧
        f2.chunk.code = f.chunk.code ++ [OpCode.OP_CONSTANT.toByte, k] ∧
        f2.chunk.constants = f.chunk.constants ++ [v] ∧
        ((s.parser.panicMode = true → s.parser.hadError = true) →
          s2.parser.hadError = false → f2.chunk.constants[k]? = some v) := by
  obtain ⟨s1, o1, f1, h1, hc1, hg1, hd1, hcode1, hconst1, _, _, hsmall, hbig⟩ :=
    makeConstant_full s e rest o f v hc hg hd
  have hidx : f.chunk.constants.length ≤ 255 →
      f1.chunk.constants[f.chunk.constants.length]? = some v := by
    intro _
    rw [hconst1]
    simp
  have hk : (if f.chunk.constants.length > BYTE_MAX then 0 else f.chunk.constants.length) %
      256 = if f.chunk.constants.length > BYTE_MAX then 0 else f.chunk.constants.length := by
    unfold BYTE_MAX
    split <;> omega
  obtain ⟨sA, oA, fA, hA, hcA, hpA, _, hgA, hdA, hcodeA, hconstA, _, _⟩ :=
    emitByte_spec s1 e rest o1 f1 OpCode.OP_CONSTANT.toByte (hc1.trans hc) hg1 hd1
  obtain ⟨sB, oB, fB, hB, _, hpB, _, hgB, hdB, hcodeB, hconstB, _, _⟩ :=
    emitByte_spec sA e rest oA fA
      (if f.chunk.constants.length > BYTE_MAX then 0 else f.chunk.constants.length)
      (hcA.trans (hc1.trans hc)) hgA hdA
  refine ⟨_, s1, o1, f1, h1, hg1, hd1, hconst1, hcode1, ?_, ?_, ?_, sB, oB, fB, ?_, hgB, hdB,
    ?_, ?_, ?_⟩
  · intro hle
    have hn : ¬ f.chunk.constants.length > BYTE_MAX := by unfold BYTE_MAX; omega
    rw [if_neg hn]
    exact ⟨rfl, hidx hle, hsmall hn⟩
  · intro hgt
    have hn : f.chunk.constants.length > BYTE_MAX := by unfold BYTE_MAX; omega
    rw [if_pos hn]
    exact ⟨rfl, hbig hn⟩
  · intro hp
    constructor
    · intro herr
      by_contra hle
      have hn : ¬ f.chunk.constants.length > BYTE_MAX := by unfold BYTE_MAX; omega
      rw [(hsmall hn).2] at herr
      exact append_single_ne _ _ herr
    · intro hgt
      have hn : f.chunk.constants.length > BYTE_MAX := by unfold BYTE_MAX; omega
      rw [(hbig hn).2]
      exact ((error_fields s _).2.2.2.2.2.2.2 hp).1
  · simp only [emitConstant, h1, Option.bind_eq_bind, Option.some_bind, emitBytes, hA, hB]
  · rw [hcodeB, hcodeA, hcode1, toByte_mod, hk]
    simp
  · rw [hconstB, hconstA, hconst1]
  · intro hinv hno
    rw [hconstB, hconstA]
    by_cases hn : f.chunk.constants.length > BYTE_MAX
    · exfalso
      have hpar : sB.parser = (error s "Too many constants in one chunk.").parser := by
        rw [hpB, hpA]
        exact (hbig hn).1
      rw [hpar] at hno
      cases hpm : s.parser.panicMode with
      | true =>
        rw [(error_fields s _).2.2.2.2.2.2.1 hpm, hinv hpm] at hno
        cases hno
      | false =>
        rw [((error_fields s _).2.2.2.2.2.2.2 hpm).2.1] at hno
        cases hno
    · rw [if_neg hn]
      exact hidx (by unfold BYTE_MAX at hn; omega)

/-- C27 at nestedState, whose current function has no constant yet: the number 7 becomes
the constant 0. -/
theorem makeConstant_index_or_error_witness :
    ∃ k s1 o1 f1, makeConstant nestedState (.number 7) = some (k, s1) ∧
      heapGet s1.vm.heap 1 = some o1 ∧ o1.data = .function f1 ∧
      f1.chunk.constants = [] ++ [.number 7] ∧ f1.chunk.code = [] ∧
      ((0 : Nat) ≤ 255 →
        k = 0 ∧ f1.chunk.constants[k]? = some (.number 7) ∧
        s1.parser = nestedState.parser ∧ s1.errors = nestedState.errors) ∧
      (255 < (0 : Nat) →
        k = 0 ∧ s1.parser = (error nestedState "Too many constants in one chunk.").parser ∧
        s1.errors = (error nestedState "Too many constants in one chunk.").errors) ∧
      (nestedState.parser.panicMode = false →
        (s1.errors = nestedState.errors ++ ["Too many constants in one chunk."] ↔
          255 < (0 : Nat))) ∧
      ∃ s2 o2 f2, emitConstant nestedState (.number 7) = some s2 ∧
        heapGet s2.vm.heap 1 = some o2 ∧ o2.data = .function f2 ∧
        f2.chunk.code = [] ++ [OpCode.OP_CONSTANT.toByte, k] ∧
        f2.chunk.constants = [] ++ [.number 7] ∧
        ((nestedState.parser.panicMode = true → nestedState.parser.hadError = true) →
          s2.parser.hadError = false → f2.chunk.constants[k]? = some (.number 7)) :=
  makeConstant_index_or_error nestedState
    { function := 1, type := .TYPE_FUNCTION,
      locals := [{ name := [], depth := 0, isCaptured := false },
                 { name := [120], depth := 1, isCaptured := false }],
      upvalues := [], scopeDepth := 1 }
    [{ function := 0, type := .TYPE_FUNCTION,
       locals := [{ name := [], depth := 0, isCaptured := false },
                  { name := [121], depth := 1, isCaptured := false }],
       upvalues := [], scopeDepth := 1 }]
    { isMarked := false, next := some 0,
      data := .function { arity := 0, upvalueCount := 0,
                          chunk := { code := [], lines := [], constants := [] },
                          name := none } }
    { arity := 0, upvalueCount := 0, chunk := { code := [], lines := [], constants := [] },
      name := none }
    (.number 7) rfl rfl rfl

/-- C28: isFalsey holds of nil and of the boolean false and of nothing else: `true`, every
number (0 included) and every object, whatever it points to, are not falsey. -/
theorem isFalsey_nil_or_false (v : Value) :
    (isFalsey v = true ↔ v = .nil ∨ v = .bool false) ∧
    isFalsey (.bool true) = false ∧ (∀ n, isFalsey (.number n) = false) ∧
    (∀ r, isFalsey (.obj r) = false) := by
  refine ⟨?_, rfl, fun _ => rfl, fun _ => rfl⟩
  cases v with
  | nil => simp [isFalsey, IS_NIL]
  | bool b => cases b <;> simp [isFalsey, IS_NIL, IS_BOOL, AS_BOOL]
  | number n => simp [isFalsey, IS_NIL, IS_BOOL]
  | obj r => simp [isFalsey, IS_NIL, IS_BOOL]

/-- C29: let the current token be a number literal `a`, followed by an operator, a number
literal `b`, an operator, a number literal `c` and a token `t` that ends the expression (no
error token, precedence PREC_NONE, not `=`), in a function whose constants leave room for
three more.  Then `expression` returns, reports nothing and stops at `t`, the values of `a`,
`b`, `c` become the next three constants, and the code appended is, for `a + b * c`,
OP_CONSTANT a, OP_CONSTANT b, OP_CONSTANT c, OP_MULTIPLY, OP_ADD (the product is the right
operand of the sum), while for `a + b + c` and `a * b * c` the first operator follows its two
operands, before the third (left-associative).  Running the five instructions of `a + b * c`
on constants x, y, z leaves the host's `x + y * z` on top of the stack, and for the code that
`1 + 2 * 3;` compiles to this is 7. -/
theorem expression_sum_of_product (H : Host) (fuel : Nat) (s : CompileState) (ch : Chunk)
    (a op1 b op2 c t : Token) (src : List Token)
    (hch : currentChunk s = some ch) (hk : ch.constants.length + 3 ≤ 256)
    (hcur : s.parser.current = a)
    (hsrc : s.parser.source = op1 :: b :: op2 :: c :: t :: src)
    (ha : a.type = .TOKEN_NUMBER) (hb : b.type = .TOKEN_NUMBER) (hc : c.type = .TOKEN_NUMBER)
    (ht : t.type ≠ .TOKEN_ERROR) (hp : (getRule t.type).precedence = PREC_NONE)
    (heq : t.type ≠ .TOKEN_EQUAL) :
    (op1.type = .TOKEN_PLUS → op2.type = .TOKEN_STAR →
      ∃ s1 ch1, expression H (fuel + 3) s = some s1 ∧
        s1.parser = { s.parser with previous := c, current := t, source := src } ∧
        s1.errors = s.errors ∧ currentChunk s1 = some ch1 ∧
        ch1.code = ch.code ++ [OpCode.OP_CONSTANT.toByte, ch.constants.length,
          OpCode.OP_CONSTANT.toByte, ch.constants.length + 1,
          OpCode.OP_CONSTANT.toByte, ch.constants.length + 2,
          OpCode.OP_MULTIPLY.toByte, OpCode.OP_ADD.toByte] ∧
        ch1.constants = ch.constants ++ [.number (H.strtod a.lexeme),
          .number (H.strtod b.lexeme), .number (H.strtod c.lexeme)]) ∧
    (op1.type = .TOKEN_PLUS → op2.type = .TOKEN_PLUS →
      ∃ s1 ch1, expression H (fuel + 3) s = some s1 ∧
        s1.parser = { s.parser with previous := c, current := t, source := src } ∧
        s1.errors = s.errors ∧ currentChunk s1 = some ch1 ∧
        ch1.code = ch.code ++ [OpCode.OP_CONSTANT.toByte, ch.constants.length,
          OpCode.OP_CONSTANT.toByte, ch.constants.length + 1, OpCode.OP_ADD.toByte,
          OpCode.OP_CONSTANT.toByte, ch.constants.length + 2, OpCode.OP_ADD.toByte] ∧
        ch1.constants = ch.constants ++ [.number (H.strtod a.lexeme),
          .number (H.strtod b.lexeme), .number (H.strtod c.lexeme)]) ∧
    (op1.type = .TOKEN_STAR → op2.type = .TOKEN_STAR →
      ∃ s1 ch1, expression H (fuel + 3) s = some s1 ∧
        s1.parser = { s.parser with previous := c, current := t, source := src } ∧
        s1.errors = s.errors ∧ currentChunk s1 = some ch1 ∧
        ch1.code = ch.code ++ [OpCode.OP_CONSTANT.toByte, ch.constants.length,
          OpCode.OP_CONSTANT.toByte, ch.constants.length + 1, OpCode.OP_MULTIPLY.toByte,
          OpCode.OP_CONSTANT.toByte, ch.constants.length + 2, OpCode.OP_MULTIPLY.toByte] ∧
        ch1.constants = ch.constants ++ [.number (H.strtod a.lexeme),
          .number (H.strtod b.lexeme), .number (H.strtod c.lexeme)]) ∧
    (∀ x y z : Int, ∃ vm1,
      runTurns H 5 (scriptVM [OpCode.OP_CONSTANT.toByte, 0, OpCode.OP_CONSTANT.toByte, 1,
          OpCode.OP_CONSTANT.toByte, 2, OpCode.OP_MULTIPLY.toByte, OpCode.OP_ADD.toByte]
        [.number x, .number y, .number z]) = some (.INTERPRET_CONTINUE, vm1) ∧
      vm1.current.stackTop = (scriptVM [] []).current.stackTop + 1 ∧
      peek vm1 0 = .number (H.numAdd x (H.numMul y z))) ∧
    ∃ code constants vm1,
      compileExpression exampleHost 3 emptyVM tokensPlusStar = some (code, constants) ∧
      runTurns exampleHost 5 (scriptVM code constants) = some (.INTERPRET_CONTINUE, vm1) ∧
      vm1.current.stackTop = (scriptVM [] []).current.stackTop + 1 ∧
      peek vm1 0 = .number 7 := by
  have hnum : s.parser.current.type = .TOKEN_NUMBER := by rw [hcur]; exact ha
  refine ⟨?_, ?_, ?_, ?_, ?_⟩
  · intro h1 h2
    obtain ⟨s1, ch1, hr, hpar, herr, hch1, hcode, hconst⟩ :=
      parsePrecedence_tighter H fuel s ch op1 b op2 c t src hch hk hnum hsrc (Or.inl h1)
        (Or.inr h2) hb hc ht hp heq (by rw [h1, h2]; decide)
    refine ⟨s1, ch1, hr, hpar, herr, hch1, ?_, ?_⟩
    · rw [hcode, h1, h2]; rfl
    · rw [hconst, hcur]
  · intro h1 h2
    obtain ⟨s1, ch1, hr, hpar, herr, hch1, hcode, hconst⟩ :=
      parsePrecedence_left H fuel s ch op1 b op2 c t src hch hk hnum hsrc (Or.inl h1)
        (Or.inl h2) hb hc ht hp heq (by rw [h1, h2])
    refine ⟨s1, ch1, hr, hpar, herr, hch1, ?_, ?_⟩
    · rw [hcode, h1, h2]; rfl
    · rw [hconst, hcur]
  · intro h1 h2
    obtain ⟨s1, ch1, hr, hpar, herr, hch1, hcode, hconst⟩ :=
      parsePrecedence_left H fuel s ch op1 b op2 c t src hch hk hnum hsrc (Or.inr h1)
        (Or.inr h2) hb hc ht hp heq (by rw [h1, h2])
    refine ⟨s1, ch1, hr, hpar, herr, hch1, ?_, ?_⟩
    · rw [hcode, h1, h2]; rfl
    · rw [hconst, hcur]
  · intro x y z
    exact ⟨_, rfl, rfl, rfl⟩
  · exact ⟨_, _, _, rfl, rfl, rfl, rfl⟩

/-- C29 at the state sumState, where `1 + 2 * 3;` follows the code and the constant that
jumpFunction holds already. -/
theorem expression_sum_of_product_witness :
    ∃ s1 ch1, expression exampleHost 3 sumState = some s1 ∧
      s1.parser = { sumState.parser with
                    previous := numberToken "3", current := opToken .TOKEN_SEMICOLON,
                    source := [] } ∧
      s1.errors = sumState.errors ∧ currentChunk s1 = some ch1 ∧
      ch1.code = jumpFunction.chunk.code ++ [OpCode.OP_CONSTANT.toByte, 1,
        OpCode.OP_CONSTANT.toByte, 2, OpCode.OP_CONSTANT.toByte, 3,
        OpCode.OP_MULTIPLY.toByte, OpCode.OP_ADD.toByte] ∧
      ch1.constants = jumpFunction.chunk.constants ++ [.number 1, .number 2, .number 3] :=
  (expression_sum_of_product exampleHost 0 sumState jumpFunction.chunk (numberToken "1")
    (opToken .TOKEN_PLUS) (numberToken "2") (opToken .TOKEN_STAR) (numberToken "3")
    (opToken .TOKEN_SEMICOLON) [] rfl (by decide) rfl rfl rfl rfl rfl (by decide) rfl
    (by decide)).1 rfl rfl

/-- A collection ends with the assignment of twice the byte count to `nextGC`. -/
theorem collectGarbage_nextGC {H : Host} {vm vm1 : VM} (h : collectGarbage H vm = some vm1) :
    vm1.nextGC = (vm1.bytesAllocated * GC_HEAP_GROW_FACTOR) % SIZE_MOD := by
  unfold collectGarbage at h
  split at h
  · cases h
  · split at h
    · cases h
    · split at h
      · cases h
      · cases h
        rfl

/-- C30: reallocate on a machine whose lists are proper, with `bytesAllocated <= nextGC`
and sizes for which the update of the byte count neither wraps below 0 nor passes the width
of `size_t`.  It returns.  When the request grows and the updated count exceeds `nextGC` a
collection has run and `nextGC` is twice the byte count left by the sweep (in `size_t`);
otherwise `nextGC` is as before and the count is the updated one.  In both cases
`bytesAllocated <= nextGC` holds again, provided the doubling did not overflow. -/
theorem reallocate_keeps_threshold (H : Host) (vm : VM) (oldSize newSize : Nat)
    (hr : Ready vm) (hle : vm.bytesAllocated ≤ vm.nextGC)
    (hlow : oldSize ≤ vm.bytesAllocated + newSize)
    (hhigh : vm.bytesAllocated + newSize < SIZE_MOD + oldSize)
    (hold : oldSize < SIZE_MOD) (hnew : newSize < SIZE_MOD) :
    ∃ vm1, reallocate H vm oldSize newSize = some vm1 ∧
      accountBytes vm.bytesAllocated oldSize newSize = vm.bytesAllocated + newSize - oldSize ∧
      ((newSize > oldSize ∧ vm.bytesAllocated + newSize - oldSize > vm.nextGC) →
        collectGarbage H
            { vm with bytesAllocated := vm.bytesAllocated + newSize - oldSize } = some vm1 ∧
          vm1.nextGC = (vm1.bytesAllocated * GC_HEAP_GROW_FACTOR) % SIZE_MOD) ∧
      (¬ (newSize > oldSize ∧ vm.bytesAllocated + newSize - oldSize > vm.nextGC) →
        vm1 = { vm with bytesAllocated := vm.bytesAllocated + newSize - oldSize }) ∧
      (vm1.bytesAllocated * GC_HEAP_GROW_FACTOR < SIZE_MOD →
        vm1.bytesAllocated ≤ vm1.nextGC) := by
  have hacc : accountBytes vm.bytesAllocated oldSize newSize =
      vm.bytesAllocated + newSize - oldSize := by
    unfold accountBytes
    rw [Nat.mod_eq_of_lt hold, Nat.mod_eq_of_lt hnew]
    have h1 : vm.bytesAllocated + newSize + (SIZE_MOD - oldSize) =
        (vm.bytesAllocated + newSize - oldSize) + SIZE_MOD := by omega
    rw [h1, Nat.add_mod_right]
    exact Nat.mod_eq_of_lt (by omega)
  obtain ⟨vm1, h1, _⟩ := reallocate_spec H vm oldSize newSize hr
  refine ⟨vm1, h1, hacc, ?_, ?_, ?_⟩
  · intro hc
    unfold reallocate at h1
    simp only [hacc, hc, and_self, if_true] at h1
    exact ⟨h1, collectGarbage_nextGC h1⟩
  · intro hc
    unfold reallocate at h1
    simp only [hacc, hc, if_false] at h1
    exact (Option.some.inj h1).symm
  · intro hno
    by_cases hc : newSize > oldSize ∧ vm.bytesAllocated + newSize - oldSize > vm.nextGC
    · unfold reallocate at h1
      simp only [hacc, hc, and_self, if_true] at h1
      rw [collectGarbage_nextGC h1, Nat.mod_eq_of_lt hno]
      unfold GC_HEAP_GROW_FACTOR
      omega
    · unfold reallocate at h1
      simp only [hacc, hc, if_false] at h1
      have := Option.some.inj h1
      subst this
      show vm.bytesAllocated + newSize - oldSize ≤ vm.nextGC
      by_cases hgrow : newSize > oldSize
      · have : ¬ vm.bytesAllocated + newSize - oldSize > vm.nextGC := fun h => hc ⟨hgrow, h⟩
        omega
      · omega

/-- C30 at callVM: a request of 8 bytes stays below `nextGC`, and a request of 2000000
bytes starts a collection that leaves `nextGC` at twice the byte count. -/
theorem reallocate_keeps_threshold_witness :
    (∃ vm1, reallocate exampleHost callVM 0 8 = some vm1 ∧
      accountBytes callVM.bytesAllocated 0 8 = callVM.bytesAllocated + 8 - 0 ∧
      ((8 > 0 ∧ callVM.bytesAllocated + 8 - 0 > callVM.nextGC) →
        collectGarbage exampleHost
            { callVM with bytesAllocated := callVM.bytesAllocated + 8 - 0 } = some vm1 ∧
          vm1.nextGC = (vm1.bytesAllocated * GC_HEAP_GROW_FACTOR) % SIZE_MOD) ∧
      (¬ (8 > 0 ∧ callVM.bytesAllocated + 8 - 0 > callVM.nextGC) →
        vm1 = { callVM with bytesAllocated := callVM.bytesAllocated + 8 - 0 }) ∧
      (vm1.bytesAllocated * GC_HEAP_GROW_FACTOR < SIZE_MOD →
        vm1.bytesAllocated ≤ vm1.nextGC)) ∧
    (∃ vm1, reallocate exampleHost callVM 0 2000000 = some vm1 ∧
      accountBytes callVM.bytesAllocated 0 2000000 = callVM.bytesAllocated + 2000000 - 0 ∧
      ((2000000 > 0 ∧ callVM.bytesAllocated + 2000000 - 0 > callVM.nextGC) →
        collectGarbage exampleHost
            { callVM with bytesAllocated := callVM.bytesAllocated + 2000000 - 0 } =
            some vm1 ∧
          vm1.nextGC = (vm1.bytesAllocated * GC_HEAP_GROW_FACTOR) % SIZE_MOD) ∧
      (¬ (2000000 > 0 ∧ callVM.bytesAllocated + 2000000 - 0 > callVM.nextGC) →
        vm1 = { callVM with bytesAllocated := callVM.bytesAllocated + 2000000 - 0 }) ∧
      (vm1.bytesAllocated * GC_HEAP_GROW_FACTOR < SIZE_MOD →
        vm1.bytesAllocated ≤ vm1.nextGC)) :=
  ⟨reallocate_keeps_threshold exampleHost callVM 0 8 ⟨by decide, by decide, by decide⟩
      (by decide) (by decide) (by decide) (by decide) (by decide),
    reallocate_keeps_threshold exampleHost callVM 0 2000000 ⟨by decide, by decide, by decide⟩
      (by decide) (by decide) (by decide) (by decide) (by decide)⟩

/-! ## The loops of the list natives -/

theorem getD_of_getElem? {xs : List Value} {i : Nat} (h : i < xs.length) :
    some (xs.getD i .nil) = xs[i]? := by
  rw [List.getD_eq_getElem?_getD, List.getElem?_eq_getElem h]
  rfl

/-- What the copy-up loop of `_list_insert_` leaves at every index. -/
theorem listInsertLoop_spec (k : Nat) :
    ∀ (i : Nat) (values : List Value), i < values.length →
      (listInsertLoop (k : Int) i values).length = values.length ∧
      ∀ j, (listInsertLoop (k : Int) i values)[j]? =
        if k < j ∧ j ≤ i then values[j - 1]? else values[j]? := by
  intro i
  induction i with
  | zero =>
    intro values _
    refine ⟨rfl, fun j => ?_⟩
    have : ¬ (k < j ∧ j ≤ 0) := by omega
    simp only [listInsertLoop, if_neg this]
  | succ i ih =>
    intro values hi
    unfold listInsertLoop
    by_cases hk : ((i + 1 : Nat) : Int) > (k : Int)
    · rw [if_pos hk]
      have hk' : k < i + 1 := by omega
      have hlen : (values.set (i + 1) (values.getD i .nil)).length = values.length := by simp
      obtain ⟨h1, h2⟩ := ih (values.set (i + 1) (values.getD i .nil)) (by rw [hlen]; omega)
      refine ⟨h1.trans hlen, fun j => ?_⟩
      rw [h2 j]
      have hget : some (values.getD i .nil) = values[i]? := getD_of_getElem? (by omega)
      by_cases hj : k < j ∧ j ≤ i
      · have hj' : k < j ∧ j ≤ i + 1 := ⟨hj.1, by omega⟩
        rw [if_pos hj, if_pos hj', List.getElem?_set, if_neg (by omega)]
      · rw [if_neg hj]
        by_cases hj1 : j = i + 1
        · subst hj1
          rw [if_pos ⟨hk', le_refl _⟩, List.getElem?_set, if_pos rfl, if_pos hi, hget]
          rfl
        · have hj' : ¬ (k < j ∧ j ≤ i + 1) := by omega
          rw [if_neg hj', List.getElem?_set, if_neg (fun e => hj1 e.symm)]
    · rw [if_neg hk]
      refine ⟨rfl, fun j => ?_⟩
      have : ¬ (k < j ∧ j ≤ i + 1) := by omega
      rw [if_neg this]

/-- The array after the loop and the store of `_list_insert_`. -/
theorem listInsert_values (xs : List Value) (k : Nat) (v : Value) (hk : k < xs.length) :
    (listInsertLoop (k : Int) ((xs ++ [Value.nil]).length - 1) (xs ++ [Value.nil])).set k v =
      xs.take k ++ v :: xs.drop k := by
  have hlen : (xs ++ [Value.nil]).length - 1 = xs.length := by simp
  rw [hlen]
  obtain ⟨h1, h2⟩ := listInsertLoop_spec k xs.length (xs ++ [Value.nil]) (by simp)
  apply List.ext_getElem?
  intro j
  have hR : (xs.take k ++ v :: xs.drop k)[j]? =
      if j < k then xs[j]? else if j = k then some v else xs[j - 1]? := by
    rw [List.getElem?_append, List.length_take, Nat.min_eq_left (Nat.le_of_lt hk)]
    by_cases hjk : j < k
    · rw [if_pos hjk, if_pos hjk, List.getElem?_take, if_pos hjk]
    · rw [if_neg hjk, if_neg hjk]
      by_cases hje : j = k
      · subst hje
        simp
      · rw [if_neg hje]
        have hpos : j - k = (j - k - 1) + 1 := by omega
        rw [hpos, List.getElem?_cons_succ, List.getElem?_drop]
        congr 1
        omega
  have hA : ∀ m, m < xs.length → (xs ++ [Value.nil])[m]? = xs[m]? := by
    intro m hm
    rw [List.getElem?_append, if_pos hm]
  have hB : ∀ m, xs.length < m → (xs ++ [Value.nil])[m]? = none := by
    intro m hm
    rw [List.getElem?_eq_none]
    simp
    omega
  have hC : ∀ m, xs.length ≤ m → xs[m]? = none := by
    intro m hm
    rw [List.getElem?_eq_none]
    exact hm
  rw [List.getElem?_set, h1, h2 j, hR]
  by_cases hjk : j < k
  · have hne : ¬ k = j := by omega
    have hc : ¬ (k < j ∧ j ≤ xs.length) := by omega
    rw [if_neg hne, if_neg hc, if_pos hjk, hA j (by omega)]
  · rw [if_neg hjk]
    by_cases hje : k = j
    · subst hje
      have hl : k < (xs ++ [Value.nil]).length := by simp; omega
      rw [if_pos rfl, if_pos hl, if_pos rfl]
    · have hje' : ¬ j = k := fun e => hje e.symm
      rw [if_neg hje, if_neg hje']
      by_cases hjl : j ≤ xs.length
      · have hc : k < j ∧ j ≤ xs.length := ⟨by omega, hjl⟩
        rw [if_pos hc, hA (j - 1) (by omega)]
      · have hc : ¬ (k < j ∧ j ≤ xs.length) := fun h => hjl h.2
        rw [if_neg hc, hB j (by omega), hC (j - 1) (by omega)]

/-- What the copy-down loop of `_list_del_` leaves at every index. -/
theorem listDelLoop_spec (values0 : List Value) :
    ∀ (fuel i : Nat) (values : List Value), values.length = values0.length →
      values0.length ≤ fuel + i + 1 →
      (listDelLoop values0.length fuel i values).length = values0.length ∧
      ∀ j, (listDelLoop values0.length fuel i values)[j]? =
        if i ≤ j ∧ j < values0.length - 1 then values[j + 1]? else values[j]? := by
  intro fuel
  induction fuel with
  | zero =>
    intro i values hl hf
    refine ⟨hl, fun j => ?_⟩
    have : ¬ (i ≤ j ∧ j < values0.length - 1) := by omega
    simp only [listDelLoop, if_neg this]
  | succ fuel ih =>
    intro i values hl hf
    unfold listDelLoop
    by_cases hi : i < values0.length - 1
    · rw [if_pos hi]
      have hlen : (values.set i (values.getD (i + 1) .nil)).length = values0.length := by
        simp [hl]
      obtain ⟨h1, h2⟩ := ih (i + 1) (values.set i (values.getD (i + 1) .nil)) hlen (by omega)
      refine ⟨h1, fun j => ?_⟩
      rw [h2 j]
      have hget : some (values.getD (i + 1) .nil) = values[i + 1]? :=
        getD_of_getElem? (by omega)
      by_cases hj : i + 1 ≤ j ∧ j < values0.length - 1
      · rw [if_pos hj, if_pos ⟨by omega, hj.2⟩, List.getElem?_set, if_neg (by omega)]
      · rw [if_neg hj]
        by_cases hj1 : j = i
        · subst hj1
          rw [if_pos ⟨le_refl _, hi⟩, List.getElem?_set, if_pos rfl, if_pos (by omega), hget]
        · have hj' : ¬ (i ≤ j ∧ j < values0.length - 1) := by omega
          rw [if_neg hj', List.getElem?_set, if_neg (fun e => hj1 e.symm)]
    · rw [if_neg hi]
      refine ⟨hl, fun j => ?_⟩
      have : ¬ (i ≤ j ∧ j < values0.length - 1) := by omega
      rw [if_neg this]

/-- The array after the loop and the decrement of `_list_del_`. -/
theorem listDel_values (xs : List Value) (k : Nat) (hk : k < xs.length) :
    (listDelLoop xs.length xs.length k xs).take (xs.length - 1) = xs.eraseIdx k := by
  obtain ⟨h1, h2⟩ := listDelLoop_spec xs xs.length k xs rfl (by omega)
  apply List.ext_getElem?
  intro j
  rw [List.getElem?_take, h2 j, List.getElem?_eraseIdx]
  by_cases hjk : j < k
  · rw [if_pos (by omega), if_neg (by omega), if_pos hjk]
  · rw [if_neg hjk]
    by_cases hjl : j < xs.length - 1
    · rw [if_pos hjl, if_pos ⟨by omega, hjl⟩]
    · rw [if_neg hjl]
      symm
      rw [List.getElem?_eq_none]
      omega

/-- Removing the element that was inserted gives the list back. -/
theorem eraseIdx_insert (xs : List Value) (k : Nat) (v : Value) (hk : k ≤ xs.length) :
    (xs.take k ++ v :: xs.drop k).eraseIdx k = xs := by
  rw [List.eraseIdx_eq_take_drop_succ]
  have h1 : (xs.take k ++ v :: xs.drop k).take k = xs.take k := by
    rw [List.take_append_of_le_length (by simp [hk])]
    simp [hk]
  have h2 : (xs.take k ++ v :: xs.drop k).drop (k + 1) = xs.drop k := by
    have hl : (xs.take k).length = k := by simp [hk]
    rw [List.drop_append_eq_append_drop, hl]
    simp [List.drop_eq_nil_of_le, hl]
  rw [h1, h2, List.take_append_drop]

/-! ## Value arrays on a machine between two collections -/

/-- A value below stackTop is a root. -/
theorem stack_root {vm : VM} {i : Nat} {r : Ref}
    (h : vm.current.stack[i]? = some (.obj r)) (hi : i < vm.current.stackTop) :
    r ∈ rootRefs vm := by
  have hmem : Value.obj r ∈ vm.current.stack.take vm.current.stackTop := by
    rw [List.mem_iff_getElem?]
    exact ⟨i, by rw [List.getElem?_take_of_lt hi]; exact h⟩
  simp only [rootRefs, fiberRefs, List.mem_append]
  exact Or.inl (Or.inl (Or.inl (Or.inl (Or.inl
    (mem_valueRefs.mpr (List.mem_map_of_mem valueRef hmem))))))

/-- A store of a payload into an object, neither the old nor the new payload being an
upvalue or a fiber, keeps the machine between two collections. -/
theorem setData_sound {vm : VM} {r : Ref} {o : Obj} (data : ObjData) (hs : Sound vm)
    (hg : heapGet vm.heap r = some o)
    (hold : ∀ loc c n, o.data ≠ .upvalue loc c n)
    (hnew : ∀ loc c n, data ≠ .upvalue loc c n) (hnf : ∀ f, data ≠ .fiber f) :
    Sound { vm with heap := vm.heap.set r (some { o with data := data }) } := by
  have hh : SameHeaders vm.heap (vm.heap.set r (some { o with data := data })) :=
    SameHeaders.of_set hg _ hnf
  obtain ⟨hidle, hobjs, hclean, hlisted⟩ :=
    @sound_same_headers vm { vm with heap := vm.heap.set r (some { o with data := data }) }
      hs hh rfl
  have hup : upvalueNext (vm.heap.set r (some { o with data := data })) = upvalueNext vm.heap := by
    funext q
    unfold upvalueNext
    by_cases hq : q = r
    · subst hq
      rw [heapGet_set_self _ (heapGet_lt hg), hg]
      cases hd : data with
      | upvalue loc c n => exact absurd hd (hnew loc c n)
      | _ =>
        cases ho : o.data with
        | upvalue loc c n => exact absurd ho (hold loc c n)
        | _ => simp only [ho]
    · rw [heapGet_set_ne _ (fun e => hq e.symm)]
  refine ⟨⟨?_, hidle, hobjs⟩, hclean, hlisted⟩
  have h0 := hs.1.1
  unfold fiberProper at h0 ⊢
  simp only [hup, List.length_set]
  exact h0

/-- The function writeValueArray on a machine between two collections, for a list that a
stack slot points to: the value is appended, whether or not the array had to grow and the
growth collected. -/
theorem writeValueArray_spec (H : Host) {vm : VM} {list : Ref} {o : Obj} {xs : List Value}
    {cap i : Nat} (v : Value) (hs : Sound vm)
    (hst : vm.current.stack[i]? = some (.obj list)) (hi : i < vm.current.stackTop)
    (hg : heapGet vm.heap list = some o) (hd : o.data = .list xs cap) :
    ∃ vm1 o1 cap1, writeValueArray H vm list v = some vm1 ∧ Sound vm1 ∧
      vm1.current = vm.current ∧ heapGet vm1.heap list = some o1 ∧
      o1.data = .list (xs ++ [v]) cap1 := by
  have hold : ∀ loc c n, o.data ≠ .upvalue loc c n := by
    intro loc c n h
    rw [hd] at h
    cases h
  unfold writeValueArray
  simp only [hg, hd]
  by_cases hcap : cap < xs.length + 1
  · rw [if_pos hcap]
    let oA : Obj := { o with data := .list xs (H.growCapacity cap) }
    let vmA : VM := { vm with heap := vm.heap.set list (some oA) }
    have hsA : Sound vmA :=
      setData_sound _ hs hg hold (fun _ _ _ h => by cases h) (fun _ h => by cases h)
    have hgA : heapGet vmA.heap list = some oA := heapGet_set_self _ (heapGet_lt hg)
    have hrootA : list ∈ rootRefs vmA := @stack_root vmA i list hst hi
    obtain ⟨vm2, h2, c2, _, s2⟩ :=
      reallocate_full H vmA (H.sizeofValue * cap) (H.sizeofValue * H.growCapacity cap) hsA
    obtain ⟨o2, ho2, hd2⟩ := c2.2.2.2.2.2.2.2.1 list hrootA oA hgA
    have hd2' : o2.data = .list xs (H.growCapacity cap) := hd2
    have hold2 : ∀ loc c n, o2.data ≠ .upvalue loc c n := by
      intro loc c n h
      rw [hd2'] at h
      cases h
    refine ⟨{ vm2 with
              heap := vm2.heap.set list
                (some { o2 with data := .list (xs ++ [v]) (H.growCapacity cap) }) },
      { o2 with data := .list (xs ++ [v]) (H.growCapacity cap) }, H.growCapacity cap, ?_,
      setData_sound _ s2 ho2 hold2 (fun _ _ _ h => by cases h) (fun _ h => by cases h), c2.1,
      heapGet_set_self _ (heapGet_lt ho2), rfl⟩
    show (match reallocate H vmA (H.sizeofValue * cap) (H.sizeofValue * H.growCapacity cap) with
      | none => none
      | some vm2 =>
        match heapGet vm2.heap list with
        | none => none
        | some o2 =>
          match o2.data with
          | .list values2 capacity2 => setData vm2 list (.list (values2 ++ [v]) capacity2)
          | _ => none) = _
    rw [h2]
    simp only [ho2, hd2', setData]
  · rw [if_neg hcap]
    refine ⟨{ vm with heap := vm.heap.set list (some { o with data := .list (xs ++ [v]) cap }) },
      { o with data := .list (xs ++ [v]) cap }, cap, by simp only [setData, hg],
      setData_sound _ hs hg hold (fun _ _ _ h => by cases h) (fun _ h => by cases h), rfl,
      heapGet_set_self _ (heapGet_lt hg), rfl⟩

/-! ## The natives `_list_insert_` and `_list_del_` -/

theorem getD_of_some {xs : List Value} {i : Nat} {v : Value} (h : xs[i]? = some v) :
    xs.getD i .nil = v := by
  rw [List.getD_eq_getElem?_getD, h]
  rfl

/-- The native `_list_insert_` on a machine between two collections. -/
theorem list_insert_run (H : Host) (vm : VM) (argv : Nat) (list : Ref) (o : Obj)
    (xs : List Value) (cap : Nat) (i : Int) (v : Value) (hs : Sound vm)
    (h0 : vm.current.stack[argv]? = some (.obj list))
    (h1 : vm.current.stack[argv + 1]? = some (.number i))
    (h2 : vm.current.stack[argv + 2]? = some v)
    (htop : argv < vm.current.stackTop)
    (hg : heapGet vm.heap list = some o) (hd : o.data = .list xs cap) :
    ∃ vm1 o1, _list_insert_ H vm argv = some (.nil, vm1) ∧ vm1.current = vm.current ∧
      heapGet vm1.heap list = some o1 ∧
      (0 ≤ i ∧ i ≤ (xs.length : Int) →
        ∃ cap1, o1.data = .list (xs.take i.toNat ++ v :: xs.drop i.toNat) cap1) ∧
      (¬ (0 ≤ i ∧ i ≤ (xs.length : Int)) → vm1 = vm ∧ o1 = o) := by
  have e0 := getD_of_some h0
  have e1 := getD_of_some h1
  have e2 := getD_of_some h2
  unfold _list_insert_
  simp only [e0, e1, e2, hg, hd, AS_NUMBER]
  by_cases hempty : xs.length = 0
  · rw [if_pos hempty]
    have hxs : xs = [] := List.length_eq_zero.mp hempty
    by_cases hi0 : i = 0
    · rw [if_pos hi0]
      obtain ⟨vm1, o1, cap1, hw, _, hcur, hg1, hd1⟩ := writeValueArray_spec H v hs h0 htop hg hd
      rw [hw]
      refine ⟨vm1, o1, rfl, hcur, hg1, fun _ => ⟨cap1, ?_⟩, fun h => absurd ⟨by omega, by omega⟩ h⟩
      rw [hd1, hxs, hi0]
      rfl
    · rw [if_neg hi0]
      refine ⟨vm, o, rfl, rfl, hg, fun h => ?_, fun _ => ⟨rfl, rfl⟩⟩
      exfalso
      omega
  · rw [if_neg hempty]
    by_cases hend : i = (xs.length : Int)
    · rw [if_pos hend]
      obtain ⟨vm1, o1, cap1, hw, _, hcur, hg1, hd1⟩ := writeValueArray_spec H v hs h0 htop hg hd
      rw [hw]
      refine ⟨vm1, o1, rfl, hcur, hg1, fun _ => ⟨cap1, ?_⟩, fun h => absurd ⟨by omega, by omega⟩ h⟩
      rw [hd1, hend]
      simp
    · rw [if_neg hend]
      by_cases hin : 0 ≤ i ∧ i < (xs.length : Int)
      · rw [if_pos hin]
        obtain ⟨vm1, o1, cap1, hw, _, hcur, hg1, hd1⟩ :=
          writeValueArray_spec H Value.nil hs h0 htop hg hd
        rw [hw]
        simp only [hg1, hd1, setData]
        have hk : i.toNat < xs.length := by omega
        have hik : i = (i.toNat : Int) := by omega
        refine ⟨_, _, rfl, hcur, heapGet_set_self _ (heapGet_lt hg1), fun _ => ⟨cap1, ?_⟩,
          fun h => absurd ⟨hin.1, by omega⟩ h⟩
        show ObjData.list ((listInsertLoop i ((xs ++ [Value.nil]).length - 1)
          (xs ++ [Value.nil])).set i.toNat v) cap1 = _
        rw [← listInsert_values xs i.toNat v hk, ← hik]
      · rw [if_neg hin]
        refine ⟨vm, o, rfl, rfl, hg, fun h => ?_, fun _ => ⟨rfl, rfl⟩⟩
        exfalso
        omega

/-- The native `_list_del_`. -/
theorem list_del_run (vm : VM) (argv : Nat) (list : Ref) (o : Obj)
    (xs : List Value) (cap : Nat) (i : Int)
    (h0 : vm.current.stack[argv]? = some (.obj list))
    (h1 : vm.current.stack[argv + 1]? = some (.number i))
    (hg : heapGet vm.heap list = some o) (hd : o.data = .list xs cap) :
    ∃ vm1 o1, _list_del_ vm argv = some (.nil, vm1) ∧ vm1.current = vm.current ∧
      heapGet vm1.heap list = some o1 ∧
      (0 ≤ i ∧ i < (xs.length : Int) → o1.data = .list (xs.eraseIdx i.toNat) cap) ∧
      (¬ (0 ≤ i ∧ i < (xs.length : Int)) → vm1 = vm ∧ o1 = o) := by
  have e0 := getD_of_some h0
  have e1 := getD_of_some h1
  unfold _list_del_
  simp only [e0, e1, hg, hd, AS_NUMBER]
  by_cases hin : 0 ≤ i ∧ i < (xs.length : Int)
  · rw [if_pos hin]
    simp only [setData, hg]
    have hk : i.toNat < xs.length := by omega
    refine ⟨_, _, rfl, rfl, heapGet_set_self _ (heapGet_lt hg), fun _ => ?_,
      fun h => absurd hin h⟩
    show ObjData.list _ cap = _
    rw [listDel_values xs i.toNat hk]
  · rw [if_neg hin]
    exact ⟨vm, o, rfl, rfl, hg, fun h => absurd h hin, fun _ => ⟨rfl, rfl⟩⟩

/-! ## The loop of endScope -/

/-- The instruction endScope emits for a local. -/
theorem endScopeLoop_spec (depth : Int) (rest : List Compiler) :
    ∀ (rev : List Local) (s : CompileState) (c : Compiler) (o : Obj) (f : ObjFunction),
      s.compilers = c :: rest → c.locals.reverse = rev →
      heapGet s.vm.heap c.function = some o → o.data = .function f →
      ∃ s1 o1 f1, endScopeLoop depth rev s = some s1 ∧
        s1.compilers =
          { c with locals := (rev.dropWhile (fun l => decide (l.depth > depth))).reverse } ::
            rest ∧
        s1.parser = s.parser ∧ s1.errors = s.errors ∧
        heapGet s1.vm.heap c.function = some o1 ∧ o1.data = .function f1 ∧
        f1.chunk.code = f.chunk.code ++
          (rev.takeWhile (fun l => decide (l.depth > depth))).map (fun l =>
            if l.isCaptured then OpCode.OP_UPVALUE_CLOSE.toByte else OpCode.OP_POP.toByte) ∧
        f1.chunk.constants = f.chunk.constants ∧
        ∀ q, q ≠ c.function → heapGet s1.vm.heap q = heapGet s.vm.heap q := by
  intro rev
  induction rev with
  | nil =>
    intro s c o f hc hrev hg hd
    have hl : c.locals = [] := by simpa using hrev
    refine ⟨s, o, f, rfl, ?_, rfl, rfl, hg, hd, by simp, rfl, fun _ _ => rfl⟩
    rw [hc]
    show c :: rest = { c with locals := [] } :: rest
    rw [← hl]
  | cons a below ih =>
    intro s c o f hc hrev hg hd
    have hl : c.locals = below.reverse ++ [a] := by
      have := congrArg List.reverse hrev
      simpa using this
    unfold endScopeLoop
    by_cases ha : a.depth > depth
    · rw [if_pos ha]
      obtain ⟨s1, o1, f1, h1, hc1, hp1, he1, hg1, hd1, hcode1, hconst1, _, hne1⟩ :=
        emitByte_spec s c rest o f
          (if a.isCaptured then OpCode.OP_UPVALUE_CLOSE.toByte else OpCode.OP_POP.toByte)
          hc hg hd
      rw [h1]
      let c2 : Compiler := { c with locals := c.locals.dropLast }
      let s2 : CompileState := { s1 with compilers := c2 :: rest }
      have hs2 : setCurrent s1 (fun c => { c with locals := c.locals.dropLast }) = s2 := by
        simp only [setCurrent, hc1, hc]
      have hrev2 : c2.locals.reverse = below := by
        show c.locals.dropLast.reverse = below
        rw [hl, List.dropLast_concat, List.reverse_reverse]
      obtain ⟨s3, o3, f3, h3, hc3, hp3, he3, hg3, hd3, hcode3, hconst3, hne3⟩ :=
        ih s2 c2 o1 f1 rfl hrev2 hg1 hd1
      have hmod : (if a.isCaptured then OpCode.OP_UPVALUE_CLOSE.toByte
          else OpCode.OP_POP.toByte) % 256 =
          (if a.isCaptured then OpCode.OP_UPVALUE_CLOSE.toByte else OpCode.OP_POP.toByte) := by
        split <;> exact toByte_mod _
      refine ⟨s3, o3, f3, ?_, ?_, hp3.trans hp1, he3.trans he1, hg3, hd3, ?_, hconst3.trans hconst1,
        fun q hq => (hne3 q hq).trans (hne1 q hq)⟩
      · simp only [hs2]
        exact h3
      · rw [hc3]
        simp only [List.dropWhile_cons, ha, decide_True, if_true]
      · rw [hcode3, hcode1, hmod]
        simp only [List.takeWhile_cons, ha, decide_True, if_true, List.map_cons,
          List.append_assoc, List.singleton_append]
    · rw [if_neg ha]
      refine ⟨s, o, f, rfl, ?_, rfl, rfl, hg, hd, ?_, rfl, fun _ _ => rfl⟩
      · have e1 : ((a :: below).dropWhile (fun l => decide (l.depth > depth))).reverse =
            c.locals := by
          simp only [List.dropWhile_cons, ha, decide_False, Bool.false_eq_true, if_false]
          rw [← hrev, List.reverse_reverse]
        rw [hc, e1]
      · simp only [List.takeWhile_cons, ha, decide_False, Bool.false_eq_true, if_false,
          List.map_nil, List.append_nil]

/-! ## Steps of the jump instructions -/

theorem setFrameIp_of {vm : VM} {frame : CallFrame} (h : vm.current.frames.getLast? = some frame)
    (ip : Nat) :
    setFrameIp vm ip =
      { vm with
        current :=
          { vm.current with
            frames := vm.current.frames.dropLast ++ [{ frame with ip := ip }] } } := by
  simp only [setFrameIp, h]

theorem setFrameIp_last {vm : VM} {frame : CallFrame}
    (h : vm.current.frames.getLast? = some frame) (ip : Nat) :
    (setFrameIp vm ip).current.frames.getLast? = some { frame with ip := ip } := by
  rw [setFrameIp_of h]
  simp

theorem setFrameIp_twice {vm : VM} {frame : CallFrame}
    (h : vm.current.frames.getLast? = some frame) (a b : Nat) :
    setFrameIp (setFrameIp vm a) b = setFrameIp vm b := by
  rw [setFrameIp_of (setFrameIp_last h a), setFrameIp_of h, setFrameIp_of h]
  simp

theorem setFrameIp_fields (vm : VM) (ip : Nat) :
    (setFrameIp vm ip).heap = vm.heap ∧ (setFrameIp vm ip).current.stack = vm.current.stack ∧
    (setFrameIp vm ip).current.stackTop = vm.current.stackTop ∧
    (setFrameIp vm ip).current.openUpvalues = vm.current.openUpvalues ∧
    (setFrameIp vm ip).current.frames.length = vm.current.frames.length := by
  unfold setFrameIp
  cases h : vm.current.frames.getLast? with
  | none => exact ⟨rfl, rfl, rfl, rfl, rfl⟩
  | some frame =>
    refine ⟨rfl, rfl, rfl, rfl, ?_⟩
    have hne : vm.current.frames ≠ [] := by
      intro e
      rw [e] at h
      cases h
    simp only [List.length_append, List.length_dropLast, List.length_singleton]
    have := List.length_pos.mpr hne
    omega

/-- The machine after a move of `ip` runs the same code at the new offset. -/
theorem RunsAt.move {vm : VM} {code : List Nat} {ip : Nat} (h : RunsAt vm code ip) (ip1 : Nat) :
    RunsAt (setFrameIp vm ip1) code ip1 := by
  obtain ⟨frame, co, function, upvalues, fo, f, h1, _, h3, h4, h5, h6, h7⟩ := h
  exact ⟨{ frame with ip := ip1 }, co, function, upvalues, fo, f, setFrameIp_last h1 ip1, rfl,
    by rw [(setFrameIp_fields vm ip1).1]; exact h3, h4,
    by rw [(setFrameIp_fields vm ip1).1]; exact h5, h6, h7⟩

/-- The fetch of a byte. -/
theorem fetchByte_at {vm : VM} {code : List Nat} {ip : Nat} (h : RunsAt vm code ip) :
    fetchByte vm = some (code.getD ip 0, setFrameIp vm (ip + 1)) := by
  obtain ⟨frame, co, function, upvalues, fo, f, h1, h2, h3, h4, h5, h6, h7⟩ := h
  rw [setFrameIp_of h1]
  unfold fetchByte
  simp only [h1, h3, h4, h5, h6, readByte, h7, h2]

/-- The macro READ_SHORT applied to the innermost frame. -/
theorem fetchShort_at {vm : VM} {code : List Nat} {ip j : Nat} (h : RunsAt vm code ip)
    (hj : j ≤ UINT16_MAX) (h0 : code.getD ip 0 = (j / 2 ^ 8) % 256)
    (h1 : code.getD (ip + 1) 0 = j % 256) :
    fetchShort vm = some (j, setFrameIp vm (ip + 2)) := by
  obtain ⟨frame, co, function, upvalues, fo, f, g1, g2, g3, g4, g5, g6, g7⟩ := h
  have hff : frameFunction vm = some f := by
    simp only [frameFunction, g1, g3, g4, functionAt, g5, g6]
  have hrs : READ_SHORT f.chunk frame.ip = (j, ip + 2) := by
    rw [g2]
    exact READ_SHORT_of_bytes f.chunk ip j hj (by rw [g7]; exact h0) (by rw [g7]; exact h1)
  unfold fetchShort
  simp only [g1, hff, hrs]

/-- The step of OP_JUMP. -/
theorem step_OP_JUMP (H : Host) {vm : VM} {code : List Nat} {ip j : Nat}
    (h : RunsAt vm code ip) (hop : code.getD ip 0 = OpCode.OP_JUMP.toByte)
    (hj : j ≤ UINT16_MAX) (h0 : code.getD (ip + 1) 0 = (j / 2 ^ 8) % 256)
    (h1 : code.getD (ip + 2) 0 = j % 256) (n : Nat) :
    runTurns H (n + 1) vm = runTurns H n (setFrameIp vm (ip + 3 + j)) := by
  obtain ⟨frame, hlast⟩ : ∃ frame, vm.current.frames.getLast? = some frame := by
    obtain ⟨frame, _, _, _, _, _, g1, _⟩ := h
    exact ⟨frame, g1⟩
  have hf := fetchByte_at h
  have hs := fetchShort_at (h.move (ip + 1)) hj h0 h1
  rw [setFrameIp_twice hlast] at hs
  have hl3 := setFrameIp_last hlast (ip + 1 + 2)
  have hrun : runSingle H (n + 1) (setFrameIp vm (ip + 1)) OpCode.OP_JUMP.toByte =
      some (.INTERPRET_CONTINUE, setFrameIp vm (ip + 3 + j)) := by
    simp only [runSingle, ofByte_toByte, hs, hl3, setFrameIp_twice hlast]
  simp only [runTurns, hf, hop, hrun]

/-- The step of OP_JUMP_IF_FALSE. -/
theorem step_OP_JUMP_IF_FALSE (H : Host) {vm : VM} {code : List Nat} {ip j : Nat}
    (h : RunsAt vm code ip) (hop : code.getD ip 0 = OpCode.OP_JUMP_IF_FALSE.toByte)
    (hj : j ≤ UINT16_MAX) (h0 : code.getD (ip + 1) 0 = (j / 2 ^ 8) % 256)
    (h1 : code.getD (ip + 2) 0 = j % 256) (n : Nat) :
    runTurns H (n + 1) vm =
      runTurns H n (setFrameIp vm (if isFalsey (peek vm 0) then ip + 3 + j else ip + 3)) := by
  obtain ⟨frame, hlast⟩ : ∃ frame, vm.current.frames.getLast? = some frame := by
    obtain ⟨frame, _, _, _, _, _, g1, _⟩ := h
    exact ⟨frame, g1⟩
  have hf := fetchByte_at h
  have hs := fetchShort_at (h.move (ip + 1)) hj h0 h1
  rw [setFrameIp_twice hlast] at hs
  have hl3 := setFrameIp_last hlast (ip + 1 + 2)
  have hpeek : peek (setFrameIp vm (ip + 1 + 2)) 0 = peek vm 0 := by
    unfold peek
    rw [(setFrameIp_fields vm _).2.1, (setFrameIp_fields vm _).2.2.1]
  have hrun : runSingle H (n + 1) (setFrameIp vm (ip + 1)) OpCode.OP_JUMP_IF_FALSE.toByte =
      some (.INTERPRET_CONTINUE,
        setFrameIp vm (if isFalsey (peek vm 0) then ip + 3 + j else ip + 3)) := by
    simp only [runSingle, ofByte_toByte, hs, hl3, hpeek]
    split
    · rw [setFrameIp_twice hlast]
    · rfl
  simp only [runTurns, hf, hop, hrun]

/-- The step of OP_LOOP. -/
theorem step_OP_LOOP (H : Host) {vm : VM} {code : List Nat} {ip j : Nat}
    (h : RunsAt vm code ip) (hop : code.getD ip 0 = OpCode.OP_LOOP.toByte)
    (hj : j ≤ UINT16_MAX) (h0 : code.getD (ip + 1) 0 = (j / 2 ^ 8) % 256)
    (h1 : code.getD (ip + 2) 0 = j % 256) (hle : j ≤ ip + 3) (n : Nat) :
    runTurns H (n + 1) vm = runTurns H n (setFrameIp vm (ip + 3 - j)) := by
  obtain ⟨frame, hlast⟩ : ∃ frame, vm.current.frames.getLast? = some frame := by
    obtain ⟨frame, _, _, _, _, _, g1, _⟩ := h
    exact ⟨frame, g1⟩
  have hf := fetchByte_at h
  have hs := fetchShort_at (h.move (ip + 1)) hj h0 h1
  rw [setFrameIp_twice hlast] at hs
  have hl3 := setFrameIp_last hlast (ip + 1 + 2)
  have hrun : runSingle H (n + 1) (setFrameIp vm (ip + 1)) OpCode.OP_LOOP.toByte =
      some (.INTERPRET_CONTINUE, setFrameIp vm (ip + 3 - j)) := by
    simp only [runSingle, ofByte_toByte, hs, hl3, setFrameIp_twice hlast]
    rw [if_pos (by show j ≤ ip + 1 + 2; omega)]
  simp only [runTurns, hf, hop, hrun]

/-- The step of OP_POP. -/
theorem step_OP_POP (H : Host) {vm : VM} {code : List Nat} {ip : Nat}
    (h : RunsAt vm code ip) (hop : code.getD ip 0 = OpCode.OP_POP.toByte) (n : Nat) :
    runTurns H (n + 1) vm = runTurns H n (pop (setFrameIp vm (ip + 1))).2 := by
  have hf := fetchByte_at h
  have hrun : runSingle H (n + 1) (setFrameIp vm (ip + 1)) OpCode.OP_POP.toByte =
      some (.INTERPRET_CONTINUE, (pop (setFrameIp vm (ip + 1))).2) := by
    simp only [runSingle, ofByte_toByte]
  simp only [runTurns, hf, hop, hrun]

/-! ## What the jump emitters leave in the chunk -/

theorem setCurrentChunk_chunk {s : CompileState} {ch : Chunk} (h : currentChunk s = some ch)
    (ch1 : Chunk) :
    ∃ s1, setCurrentChunk s ch1 = some s1 ∧ s1.parser = s.parser ∧ s1.errors = s.errors ∧
      s1.compilers = s.compilers ∧ currentChunk s1 = some ch1 := by
  obtain ⟨e, rest, o, f, hc, hg, hd, _⟩ := currentChunk_some h
  have hfo := functionOf_of (s := s) (c := e) hg hd
  let s1 : CompileState :=
    { s with
      vm := { s.vm with
              heap := s.vm.heap.set e.function
                (some { o with data := .function { f with chunk := ch1 } }) }
      compilers := e :: rest }
  have h1 : setCurrentChunk s ch1 = some s1 := by
    simp only [setCurrentChunk, hc, hfo]
  refine ⟨s1, h1, rfl, rfl, hc.symm, ?_⟩
  exact @currentChunk_of s1 e rest _ { f with chunk := ch1 } rfl
    (heapGet_set_self _ (heapGet_lt hg)) rfl

theorem error_chunk (s : CompileState) (m : String) :
    currentChunk (error s m) = currentChunk s := by
  unfold currentChunk functionOf
  rw [(error_fields s m).1, (error_fields s m).2.1]

/-- The function patchJump for a distance of 16 bits. -/
theorem patchJump_chunk (s : CompileState) (ch : Chunk) (offset : Nat)
    (h : currentChunk s = some ch) (hj : ch.code.length - offset - 2 ≤ UINT16_MAX) :
    ∃ s1 ch1, patchJump s offset = some s1 ∧ s1.parser = s.parser ∧ s1.errors = s.errors ∧
      currentChunk s1 = some ch1 ∧
      ch1.code = (ch.code.set offset (((ch.code.length - offset - 2) / 2 ^ 8) % 256)).set
        (offset + 1) ((ch.code.length - offset - 2) % 256) ∧
      ch1.constants = ch.constants := by
  obtain ⟨s1, h1, hp1, he1, _, hch1⟩ := setCurrentChunk_chunk h
    { ch with
      code := (ch.code.set offset (((ch.code.length - offset - 2) / 2 ^ 8) % 256)).set
        (offset + 1) ((ch.code.length - offset - 2) % 256) }
  refine ⟨s1, _, ?_, hp1, he1, hch1, rfl, rfl⟩
  have hnot : ¬ ch.code.length - offset - 2 > UINT16_MAX := Nat.not_lt.mpr hj
  simp only [patchJump, h, Option.bind_eq_bind, Option.some_bind, if_neg hnot]
  exact h1

/-- The function emitJump. -/
theorem emitJump_chunk (s : CompileState) (ch : Chunk) (instruction : Nat)
    (h : currentChunk s = some ch) :
    ∃ s1 ch1, emitJump s instruction = some (ch.code.length + 1, s1) ∧
      s1.parser = s.parser ∧ s1.errors = s.errors ∧ currentChunk s1 = some ch1 ∧
      ch1.code = ch.code ++ [instruction % 256, 255, 255] ∧ ch1.constants = ch.constants := by
  obtain ⟨s1, ch1, h1, hp1, he1, hch1, hcode1, hconst1⟩ := emitByte_chunk s ch instruction h
  obtain ⟨s2, ch2, h2, hp2, he2, hch2, hcode2, hconst2⟩ := emitByte_chunk s1 ch1 255 hch1
  obtain ⟨s3, ch3, h3, hp3, he3, hch3, hcode3, hconst3⟩ := emitByte_chunk s2 ch2 255 hch2
  have hlen : ch3.code.length - 2 = ch.code.length + 1 := by
    rw [hcode3, hcode2, hcode1]
    simp
  refine ⟨s3, ch3, ?_, hp3.trans (hp2.trans hp1), he3.trans (he2.trans he1), hch3, ?_,
    hconst3.trans (hconst2.trans hconst1)⟩
  · simp only [emitJump, h1, h2, h3, hch3, Option.bind_eq_bind, Option.some_bind, hlen]
  · rw [hcode3, hcode2, hcode1]
    simp

/-- The function emitLoop for a distance of 16 bits. -/
theorem emitLoop_chunk (s : CompileState) (ch : Chunk) (loopStart : Nat)
    (h : currentChunk s = some ch) (hloop : loopStart ≤ ch.code.length)
    (hj : ch.code.length + 3 - loopStart ≤ UINT16_MAX) :
    ∃ s1 ch1, emitLoop s loopStart = some s1 ∧ s1.parser = s.parser ∧ s1.errors = s.errors ∧
      currentChunk s1 = some ch1 ∧
      ch1.code = ch.code ++ [OpCode.OP_LOOP.toByte,
        ((ch.code.length + 3 - loopStart) / 2 ^ 8) % 256,
        (ch.code.length + 3 - loopStart) % 256] ∧
      ch1.constants = ch.constants := by
  obtain ⟨s1, ch1, h1, hp1, he1, hch1, hcode1, hconst1⟩ :=
    emitByte_chunk s ch OpCode.OP_LOOP.toByte h
  have hoff : ch1.code.length - loopStart + 2 = ch.code.length + 3 - loopStart := by
    rw [hcode1]
    simp only [List.length_append, List.length_singleton]
    omega
  obtain ⟨s2, ch2, h2, hp2, he2, hch2, hcode2, hconst2⟩ :=
    emitByte_chunk s1 ch1 (((ch.code.length + 3 - loopStart) / 2 ^ 8) % 256) hch1
  obtain ⟨s3, ch3, h3, hp3, he3, hch3, hcode3, hconst3⟩ :=
    emitByte_chunk s2 ch2 ((ch.code.length + 3 - loopStart) % 256) hch2
  have hnot : ¬ ch.code.length + 3 - loopStart > UINT16_MAX := Nat.not_lt.mpr hj
  refine ⟨s3, ch3, ?_, hp3.trans (hp2.trans hp1), he3.trans (he2.trans he1), hch3, ?_,
    hconst3.trans (hconst2.trans hconst1)⟩
  · simp only [emitLoop, h1, hch1, Option.bind_eq_bind, Option.some_bind, hoff, if_neg hnot, h2,
      h3]
  · rw [hcode3, hcode2, hcode1, toByte_mod]
    simp

/-- The bytes of a piece of code in the middle of a chunk. -/
theorem getD_append_mid (a b c : List Nat) (k : Nat) (hk : k < b.length) :
    (a ++ b ++ c).getD (a.length + k) 0 = b.getD k 0 := by
  rw [List.getD_eq_getElem?_getD, List.getD_eq_getElem?_getD, List.append_assoc,
    List.getElem?_append_right (by omega), Nat.add_sub_cancel_left, List.getElem?_append_left hk]

theorem getD_append_left_nat (a c : List Nat) (k : Nat) (hk : k < a.length) :
    (a ++ c).getD k 0 = a.getD k 0 := by
  rw [List.getD_eq_getElem?_getD, List.getD_eq_getElem?_getD, List.getElem?_append_left hk]

/-- The example machine scriptVM runs its code. -/
theorem scriptVM_runsAt (code : List Nat) (constants : List Value) (ip : Nat) :
    RunsAt (setFrameIp (scriptVM code constants) ip) (code ++ []) ip := by
  have h : RunsAt (scriptVM code constants) (code ++ []) 0 :=
    ⟨_, _, _, _, _, _, rfl, rfl, rfl, rfl, rfl, rfl, by simp⟩
  exact h.move ip

/-! ## The code of `and` and `or` -/

theorem set_append_mid (a b c : List Nat) (k v : Nat) (hk : k < b.length) :
    (a ++ b ++ c).set (a.length + k) v = a ++ b.set k v ++ c := by
  rw [List.append_assoc, List.set_append_right _ _ (by omega), Nat.add_sub_cancel_left,
    List.set_append_left _ _ hk, List.append_assoc]

theorem peek_setFrameIp (vm : VM) (ip : Nat) (d : Nat) : peek (setFrameIp vm ip) d = peek vm d := by
  unfold peek
  rw [(setFrameIp_fields vm ip).2.1, (setFrameIp_fields vm ip).2.2.1]

/-- The function `and_`, given what the compilation of the right operand appends. -/
theorem and_chunk (H : Host) (pp : Precedence → CompileState → Option CompileState)
    (fuel : Nat) (ca : Bool) (s : CompileState) (ch : Chunk) (hch : currentChunk s = some ch) :
    ∃ s2 ch2, currentChunk s2 = some ch2 ∧ s2.parser = s.parser ∧ s2.errors = s.errors ∧
      ch2.code = ch.code ++
        [OpCode.OP_JUMP_IF_FALSE.toByte, 255, 255, OpCode.OP_POP.toByte] ∧
      ch2.constants = ch.constants ∧
      ∀ s3 ch3 rcode, pp PREC_AND s2 = some s3 → currentChunk s3 = some ch3 →
        ch3.code = ch2.code ++ rcode → rcode.length + 1 ≤ UINT16_MAX →
        ∃ s4 ch4, runParseFn H pp fuel .and_ ca s = some s4 ∧ currentChunk s4 = some ch4 ∧
          s4.parser = s3.parser ∧ s4.errors = s3.errors ∧ ch4.constants = ch3.constants ∧
          ch4.code = ch.code ++
            [OpCode.OP_JUMP_IF_FALSE.toByte, ((rcode.length + 1) / 2 ^ 8) % 256,
             (rcode.length + 1) % 256, OpCode.OP_POP.toByte] ++ rcode := by
  obtain ⟨s1, ch1, h1, hp1, he1, hch1, hcode1, hconst1⟩ :=
    emitJump_chunk s ch OpCode.OP_JUMP_IF_FALSE.toByte hch
  obtain ⟨s2, ch2, h2, hp2, he2, hch2, hcode2, hconst2⟩ :=
    emitByte_chunk s1 ch1 OpCode.OP_POP.toByte hch1
  have hc2 : ch2.code = ch.code ++
      [OpCode.OP_JUMP_IF_FALSE.toByte, 255, 255, OpCode.OP_POP.toByte] := by
    rw [hcode2, hcode1, toByte_mod, toByte_mod]
    simp
  refine ⟨s2, ch2, hch2, hp2.trans hp1, he2.trans he1, hc2, hconst2.trans hconst1, ?_⟩
  intro s3 ch3 rcode h3 hch3 hcode3 hlen
  have hl3 : ch3.code.length - (ch.code.length + 1) - 2 = rcode.length + 1 := by
    rw [hcode3, hc2]
    simp only [List.length_append, List.length_cons, List.length_nil]
    omega
  obtain ⟨s4, ch4, h4, hp4, he4, hch4, hcode4, hconst4⟩ :=
    patchJump_chunk s3 ch3 (ch.code.length + 1) hch3 (by rw [hl3]; exact hlen)
  refine ⟨s4, ch4, ?_, hch4, hp4, he4, hconst4, ?_⟩
  · simp only [runParseFn, h1, h2, h3, h4, Option.bind_eq_bind, Option.some_bind]
  · rw [hcode4, hl3, hcode3, hc2, set_append_mid _ _ _ 1 _ (by simp),
      show ch.code.length + 1 + 1 = ch.code.length + 2 from rfl,
      set_append_mid _ _ _ 2 _ (by simp)]
    rfl

/-- The function `or_`, given what the compilation of the right operand appends. -/
theorem or_chunk (H : Host) (pp : Precedence → CompileState → Option CompileState)
    (fuel : Nat) (ca : Bool) (s : CompileState) (ch : Chunk) (hch : currentChunk s = some ch) :
    ∃ s2 ch2, currentChunk s2 = some ch2 ∧ s2.parser = s.parser ∧ s2.errors = s.errors ∧
      ch2.code = ch.code ++
        [OpCode.OP_JUMP_IF_FALSE.toByte, 0, 3, OpCode.OP_JUMP.toByte, 255, 255,
         OpCode.OP_POP.toByte] ∧
      ch2.constants = ch.constants ∧
      ∀ s3 ch3 rcode, pp PREC_OR s2 = some s3 → currentChunk s3 = some ch3 →
        ch3.code = ch2.code ++ rcode → rcode.length + 1 ≤ UINT16_MAX →
        ∃ s4 ch4, runParseFn H pp fuel .or_ ca s = some s4 ∧ currentChunk s4 = some ch4 ∧
          s4.parser = s3.parser ∧ s4.errors = s3.errors ∧ ch4.constants = ch3.constants ∧
          ch4.code = ch.code ++
            [OpCode.OP_JUMP_IF_FALSE.toByte, 0, 3, OpCode.OP_JUMP.toByte,
             ((rcode.length + 1) / 2 ^ 8) % 256, (rcode.length + 1) % 256,
             OpCode.OP_POP.toByte] ++ rcode := by
  obtain ⟨s1, ch1, h1, hp1, he1, hch1, hcode1, hconst1⟩ :=
    emitJump_chunk s ch OpCode.OP_JUMP_IF_FALSE.toByte hch
  obtain ⟨s2, ch2, h2, hp2, he2, hch2, hcode2, hconst2⟩ :=
    emitJump_chunk s1 ch1 OpCode.OP_JUMP.toByte hch1
  have hc2 : ch2.code = ch.code ++
      [OpCode.OP_JUMP_IF_FALSE.toByte, 255, 255, OpCode.OP_JUMP.toByte, 255, 255] := by
    rw [hcode2, hcode1, toByte_mod, toByte_mod]
    simp
  have hl1 : ch1.code.length + 1 = ch.code.length + 4 := by
    rw [hcode1]
    simp
  have hl2 : ch2.code.length - (ch.code.length + 1) - 2 = 3 := by
    rw [hc2]
    simp only [List.length_append, List.length_cons, List.length_nil]
    omega
  obtain ⟨s3, ch3, h3, hp3, he3, hch3, hcode3, hconst3⟩ :=
    patchJump_chunk s2 ch2 (ch.code.length + 1) hch2 (by rw [hl2]; decide)
  have hc3 : ch3.code = ch.code ++
      [OpCode.OP_JUMP_IF_FALSE.toByte, 0, 3, OpCode.OP_JUMP.toByte, 255, 255] := by
    rw [hcode3, hl2, hc2]
    have e := set_append_mid ch.code
      [OpCode.OP_JUMP_IF_FALSE.toByte, 255, 255, OpCode.OP_JUMP.toByte, 255, 255] [] 1
      (3 / 2 ^ 8 % 256) (by simp)
    rw [List.append_nil, List.append_nil] at e
    rw [e]
    have e2 := set_append_mid ch.code
      ([OpCode.OP_JUMP_IF_FALSE.toByte, 255, 255, OpCode.OP_JUMP.toByte, 255, 255].set 1
        (3 / 2 ^ 8 % 256)) [] 2 (3 % 256) (by simp)
    rw [List.append_nil, List.append_nil] at e2
    rw [show ch.code.length + 1 + 1 = ch.code.length + 2 from rfl, e2]
    rfl
  obtain ⟨s4, ch4, h4, hp4, he4, hch4, hcode4, hconst4⟩ :=
    emitByte_chunk s3 ch3 OpCode.OP_POP.toByte hch3
  have hc4 : ch4.code = ch.code ++
      [OpCode.OP_JUMP_IF_FALSE.toByte, 0, 3, OpCode.OP_JUMP.toByte, 255, 255,
       OpCode.OP_POP.toByte] := by
    rw [hcode4, hc3, toByte_mod]
    simp
  refine ⟨s4, ch4, hch4, hp4.trans (hp3.trans (hp2.trans hp1)),
    he4.trans (he3.trans (he2.trans he1)), hc4,
    hconst4.trans (hconst3.trans (hconst2.trans hconst1)), ?_⟩
  intro s5 ch5 rcode h5 hch5 hcode5 hlen
  have hl5 : ch5.code.length - (ch.code.length + 4) - 2 = rcode.length + 1 := by
    rw [hcode5, hc4]
    simp only [List.length_append, List.length_cons, List.length_nil]
    omega
  obtain ⟨s6, ch6, h6, hp6, he6, hch6, hcode6, hconst6⟩ :=
    patchJump_chunk s5 ch5 (ch.code.length + 4) hch5 (by rw [hl5]; exact hlen)
  refine ⟨s6, ch6, ?_, hch6, hp6, he6, hconst6, ?_⟩
  · simp only [runParseFn, h1, h2, hl1, h3, h4, h5, h6, Option.bind_eq_bind, Option.some_bind]
  · rw [hcode6, hl5, hcode5, hc4, set_append_mid _ _ _ 4 _ (by simp),
      show ch.code.length + 4 + 1 = ch.code.length + 5 from rfl,
      set_append_mid _ _ _ 5 _ (by simp)]
    rfl

/-! ## The collector and the allocators leave the running fiber alone -/

theorem markOpenUpvalues_current : ∀ (fuel : Nat) (vm : VM) (x : Option Ref) (vm1 : VM),
    markOpenUpvalues fuel vm x = some vm1 → vm1.current = vm.current := by
  intro fuel
  induction fuel with
  | zero =>
    intro vm x vm1 h
    cases x with
    | none =>
      simp only [markOpenUpvalues, Option.some.injEq] at h
      rw [← h]
    | some r => simp [markOpenUpvalues] at h
  | succ n ih =>
    intro vm x vm1 h
    cases x with
    | none =>
      simp only [markOpenUpvalues, Option.some.injEq] at h
      rw [← h]
    | some r =>
      simp only [markOpenUpvalues] at h
      repeat' (split at h)
      all_goals (try simp at h)
      rw [ih _ _ _ h]
      exact (markObject_marks vm (some r)).1.2.2.2.2.1

theorem markFiber_current {vm vm1 : VM} {fiber : ObjFiber} (h : markFiber vm fiber = some vm1) :
    vm1.current = vm.current := by
  simp only [markFiber] at h
  rw [markOpenUpvalues_current _ _ _ _ h]
  rw [(foldl_markObject_marks _ _ _).1.2.2.2.2.1]
  exact (markArray_marks _ _).1.2.2.2.2.1

theorem markObject_current (vm : VM) (x : Option Ref) : (markObject vm x).current = vm.current :=
  (markObject_marks vm x).1.2.2.2.2.1

theorem markValue_current (vm : VM) (v : Value) : (markValue vm v).current = vm.current := by
  rw [markValue_eq]
  exact markObject_current _ _

theorem markAll_current (vm : VM) (l : List (Option Ref)) :
    (l.foldl markObject vm).current = vm.current :=
  (markAll_marks l vm).1.2.2.2.2.1

theorem markArray_current (vm : VM) (vs : List Value) : (markArray vm vs).current = vm.current :=
  (markArray_marks vm vs).1.2.2.2.2.1

theorem markTable_current (vm : VM) (t : Table) : (markTable vm t).current = vm.current :=
  (markTable_marks vm t).1.2.2.2.2.1

theorem blackenObject_current {vm vm1 : VM} {object : Ref}
    (h : blackenObject vm object = some vm1) : vm1.current = vm.current := by
  simp only [blackenObject] at h
  split at h
  · simp only [Option.some.injEq] at h
    rw [← h]
  · split at h
    all_goals (first
      | exact markFiber_current h
      | (simp only [Option.some.injEq] at h
         subst h
         simp only [markObject_current, markValue_current, markAll_current, markArray_current,
           markTable_current]))

theorem markRoots_current {vm vm1 : VM} (h : markRoots vm = some vm1) :
    vm1.current = vm.current := by
  simp only [markRoots] at h
  split at h
  · simp at h
  · rename_i vm0 h0
    simp only [Option.some.injEq] at h
    subst h
    have e1 : (markConstants (markCompilerRoots (markTable vm0 vm0.globals))).current =
        (markCompilerRoots (markTable vm0 vm0.globals)).current :=
      (foldl_markObject_marks _ _ _).1.2.2.2.2.1
    have e2 : (markCompilerRoots (markTable vm0 vm0.globals)).current =
        (markTable vm0 vm0.globals).current :=
      (foldl_markObject_marks _ _ _).1.2.2.2.2.1
    rw [e1, e2, markTable_current, markFiber_current h0]

theorem traceReferences_current : ∀ (fuel : Nat) (vm vm1 : VM),
    traceReferences fuel vm = some vm1 → vm1.current = vm.current := by
  intro fuel
  induction fuel with
  | zero =>
    intro vm vm1 h
    simp only [traceReferences] at h
    split at h
    · simp only [Option.some.injEq] at h
      rw [← h]
    · simp at h
  | succ n ih =>
    intro vm vm1 h
    simp only [traceReferences] at h
    split at h
    · simp only [Option.some.injEq] at h
      rw [← h]
    · split at h
      · simp at h
      · rename_i vm0 h0
        rw [ih _ _ h, blackenObject_current h0]

theorem freeObject_current (H : Host) (vm : VM) (object : Ref) :
    (freeObject H vm object).current = vm.current := by
  simp only [freeObject]
  split <;> rfl

theorem sweepLoop_current (H : Host) : ∀ (fuel : Nat) (vm : VM) (previous object : Option Ref)
    (vm1 : VM), sweepLoop H fuel vm previous object = some vm1 → vm1.current = vm.current := by
  intro fuel
  induction fuel with
  | zero =>
    intro vm previous object vm1 h
    cases object with
    | none =>
      simp only [sweepLoop, Option.some.injEq] at h
      rw [← h]
    | some r => simp [sweepLoop] at h
  | succ n ih =>
    intro vm previous object vm1 h
    cases object with
    | none =>
      simp only [sweepLoop, Option.some.injEq] at h
      rw [← h]
    | some r =>
      simp only [sweepLoop] at h
      split at h
      · simp at h
      · split at h
        · rw [ih _ _ _ _ h]
        · rw [ih _ _ _ _ h, freeObject_current]
          repeat' split
          all_goals rfl

theorem collectGarbage_current {H : Host} {vm vm1 : VM} (h : collectGarbage H vm = some vm1) :
    vm1.current = vm.current := by
  simp only [collectGarbage] at h
  split at h
  · simp at h
  · rename_i vmA hA
    split at h
    · simp at h
    · rename_i vmB hB
      split at h
      · simp at h
      · rename_i vmC hC
        simp only [Option.some.injEq] at h
        subst h
        simp only [sweep] at hC
        have := sweepLoop_current H _ _ _ _ _ hC
        simp only at this
        rw [this, traceReferences_current _ _ _ hB, markRoots_current hA]

theorem reallocate_current {H : Host} {vm vm1 : VM} {oldSize newSize : Nat}
    (h : reallocate H vm oldSize newSize = some vm1) : vm1.current = vm.current := by
  simp only [reallocate] at h
  split at h
  · exact (collectGarbage_current h).trans rfl
  · simp only [Option.some.injEq] at h
    rw [← h]

theorem allocateObject_current {H : Host} {vm vm1 : VM} {data : ObjData} {r : Ref}
    (h : allocateObject H vm data = some (vm1, r)) : vm1.current = vm.current := by
  simp only [allocateObject] at h
  split at h
  · simp at h
  · rename_i vm0 h0
    simp only [Option.some.injEq, Prod.mk.injEq] at h
    rw [← h.1]
    exact (reallocate_current h0 :)

/-! ## The frame count through the helpers of runSingle -/

theorem length_dropLast_snoc {α : Type} {xs : List α} {x : α} (y : α)
    (h : xs.getLast? = some x) : (xs.dropLast ++ [y]).length = xs.length := by
  cases xs with
  | nil => simp at h
  | cons a t => simp

theorem push_frames (vm : VM) (v : Value) : (push vm v).current.frames = vm.current.frames :=
  rfl

theorem pop_frames (vm : VM) : (pop vm).2.current.frames = vm.current.frames :=
  rfl

theorem setCallee_frames (vm : VM) (argCount : Nat) (v : Value) :
    (setCallee vm argCount v).current.frames = vm.current.frames :=
  rfl

theorem setFrameIp_frames (vm : VM) (ip : Nat) :
    (setFrameIp vm ip).current.frames.length = vm.current.frames.length := by
  simp only [setFrameIp]
  split
  · rfl
  · rename_i frame hf
    exact length_dropLast_snoc _ hf

theorem fetchByte_frames {vm vm1 : VM} {b : Nat} (h : fetchByte vm = some (b, vm1)) :
    vm1.current.frames.length = vm.current.frames.length := by
  simp only [fetchByte] at h
  repeat' (split at h)
  all_goals (try simp at h)
  obtain ⟨_, rfl⟩ := h
  exact length_dropLast_snoc _ (by assumption)

theorem fetchShort_frames {vm vm1 : VM} {b : Nat} (h : fetchShort vm = some (b, vm1)) :
    vm1.current.frames.length = vm.current.frames.length := by
  simp only [fetchShort] at h
  repeat' (split at h)
  all_goals (try simp at h)
  obtain ⟨_, rfl⟩ := h
  exact setFrameIp_frames _ _

theorem readConstant_frames {vm vm1 : VM} {v : Value} (h : readConstant vm = some (v, vm1)) :
    vm1.current.frames.length = vm.current.frames.length := by
  simp only [readConstant] at h
  repeat' (split at h)
  all_goals (try simp at h)
  obtain ⟨_, rfl⟩ := h
  exact fetchByte_frames (by assumption)

theorem readString_frames {vm vm1 : VM} {s : Ref} (h : readString vm = some (s, vm1)) :
    vm1.current.frames.length = vm.current.frames.length := by
  simp only [readString] at h
  repeat' (split at h)
  all_goals (try simp at h)
  obtain ⟨_, rfl⟩ := h
  exact readConstant_frames (by assumption)

theorem reallocate_frames {H : Host} {vm vm1 : VM} {oldSize newSize : Nat}
    (h : reallocate H vm oldSize newSize = some vm1) :
    vm1.current.frames.length = vm.current.frames.length := by
  rw [reallocate_current h]

theorem allocateObject_frames {H : Host} {vm vm1 : VM} {data : ObjData} {r : Ref}
    (h : allocateObject H vm data = some (vm1, r)) :
    vm1.current.frames.length = vm.current.frames.length := by
  rw [allocateObject_current h]

theorem setData_frames {vm vm1 : VM} {r : Ref} {data : ObjData}
    (h : setData vm r data = some vm1) :
    vm1.current.frames.length = vm.current.frames.length := by
  simp only [setData] at h
  split at h
  · simp at h
  · simp only [Option.some.injEq] at h
    rw [← h]

theorem writeValueArray_frames {H : Host} {vm vm1 : VM} {list : Ref} {value : Value}
    (h : writeValueArray H vm list value = some vm1) :
    vm1.current.frames.length = vm.current.frames.length := by
  simp only [writeValueArray] at h
  repeat' (split at h)
  all_goals (try simp at h)
  · rw [setData_frames h, reallocate_frames (by assumption)]
  · exact setData_frames h

theorem createCoreListLoop_frames (H : Host) : ∀ (count : Nat) (vm vm1 : VM) (list : Ref),
    createCoreListLoop H count vm list = some vm1 →
      vm1.current.frames.length = vm.current.frames.length := by
  intro count
  induction count with
  | zero =>
    intro vm vm1 list h
    simp only [createCoreListLoop, Option.some.injEq] at h
    rw [← h]
  | succ n ih =>
    intro vm vm1 list h
    simp only [createCoreListLoop] at h
    split at h
    · simp at h
    · rename_i vmA hA
      rw [ih _ _ _ h, writeValueArray_frames hA, pop_frames]

theorem createCoreList_frames {H : Host} {vm vm1 : VM} {numValues : Nat} {r : InterpretResult}
    (h : createCoreList H vm numValues = some (r, vm1)) :
    (r = .INTERPRET_OK ∧ vm1.current.frames.length = vm.current.frames.length) ∨
      r = .INTERPRET_RUNTIME_ERROR := by
  simp only [createCoreList, newCoreList, newInstance] at h
  repeat' (split at h)
  all_goals (try simp at h)
  all_goals (obtain ⟨h1, h2⟩ := h; subst h1; subst h2)
  · exact Or.inr rfl
  · left
    refine ⟨rfl, ?_⟩
    simp only [push_frames]
    repeat (first
      | (have e := allocateObject_frames ‹allocateObject _ _ _ = _›
         clear ‹allocateObject _ _ _ = _›)
      | (have e := setData_frames ‹setData _ _ _ = _›
         clear ‹setData _ _ _ = _›)
      | (have e := createCoreListLoop_frames H _ _ _ _ ‹createCoreListLoop _ _ _ _ = _›
         clear ‹createCoreListLoop _ _ _ _ = _›))
    omega

theorem createCoreTableLoop_frames : ∀ (count : Nat) (vm vm1 : VM) (table : Ref),
    createCoreTableLoop count vm table = some (true, vm1) →
      vm1.current.frames.length = vm.current.frames.length := by
  intro count
  induction count with
  | zero =>
    intro vm vm1 table h
    simp only [createCoreTableLoop, Option.some.injEq, Prod.mk.injEq, true_and] at h
    rw [← h]
  | succ n ih =>
    intro vm vm1 table h
    unfold createCoreTableLoop at h
    simp only at h
    repeat' (split at h)
    all_goals (try simp at h)
    rw [ih _ _ _ h, setData_frames (by assumption)]
    rfl

theorem createCoreTable_frames {H : Host} {vm vm1 : VM} {numValues : Nat} {r : InterpretResult}
    (h : createCoreTable H vm numValues = some (r, vm1)) :
    (r = .INTERPRET_OK ∧ vm1.current.frames.length = vm.current.frames.length) ∨
      r = .INTERPRET_RUNTIME_ERROR := by
  simp only [createCoreTable, newCoreTable, newInstance] at h
  repeat' (split at h)
  all_goals (try simp at h)
  all_goals (obtain ⟨h1, h2⟩ := h; subst h1; subst h2)
  · exact Or.inr rfl
  · exact Or.inr rfl
  · left
    refine ⟨rfl, ?_⟩
    simp only [push_frames]
    repeat (first
      | (have e := allocateObject_frames ‹allocateObject _ _ _ = _›
         clear ‹allocateObject _ _ _ = _›)
      | (have e := setData_frames ‹setData _ _ _ = _›
         clear ‹setData _ _ _ = _›)
      | (have e := createCoreTableLoop_frames _ _ _ _ ‹createCoreTableLoop _ _ _ = _›
         clear ‹createCoreTableLoop _ _ _ = _›))
    omega

theorem call_frames {vm vm1 : VM} {closure : Ref} {argCount : Nat}
    (h : call vm closure argCount = some (true, vm1)) :
    vm1.current.frames.length = vm.current.frames.length + 1 ∧
      vm.current.frames.length ≠ FRAMES_MAX := by
  simp only [call] at h
  repeat' (split at h)
  all_goals (try simp at h)
  subst h
  exact ⟨by simp, by assumption⟩

theorem callClosureValue_frames {vm vm1 : VM} {v : Value} {argCount : Nat}
    (h : callClosureValue vm v argCount = some (true, vm1)) :
    vm1.current.frames.length = vm.current.frames.length + 1 ∧
      vm.current.frames.length ≠ FRAMES_MAX := by
  simp only [callClosureValue] at h
  split at h
  · exact call_frames h
  · simp at h

theorem callValue_frames (H : Host)
    (hn : ∀ f argCount args vm r vm1, H.native f argCount args vm = some (r, vm1) →
      vm1.current.frames.length = vm.current.frames.length) :
    ∀ (fuel : Nat) (vm vm1 : VM) (callee : Value) (argCount : Nat),
      callValue H fuel vm callee argCount = some (true, vm1) →
        vm1.current.frames.length = vm.current.frames.length ∨
        (vm1.current.frames.length = vm.current.frames.length + 1 ∧
          vm.current.frames.length ≠ FRAMES_MAX) := by
  intro fuel
  induction fuel with
  | zero => intro vm vm1 callee argCount h; simp [callValue] at h
  | succ n ih =>
    intro vm vm1 callee argCount h
    unfold callValue at h
    cases callee with
    | nil => exact ih _ _ _ _ h
    | bool b => exact ih _ _ _ _ h
    | number x => exact ih _ _ _ _ h
    | obj r =>
      simp only at h
      cases hg : heapGet vm.heap r with
      | none => simp [hg] at h
      | some o =>
        simp only [hg] at h
        cases hd : o.data with
        | boundMethod receiver method =>
          simp only [hd] at h
          have := call_frames h
          simp only [setCallee_frames] at this
          exact Or.inr this
        | closure function upvalues =>
          simp only [hd] at h
          exact Or.inr (call_frames h)
        | native function =>
          simp only [hd] at h
          cases hnat : H.native function argCount (vm.current.stackTop - argCount) vm with
          | none => simp [hnat] at h
          | some p =>
            obtain ⟨result, vmA⟩ := p
            simp only [hnat, Option.some.injEq, Prod.mk.injEq, true_and] at h
            subst h
            exact Or.inl ((hn _ _ _ _ _ _ hnat :))
        | klass name methods =>
          simp only [hd] at h
          cases hnew : newInstance H vm r with
          | none => simp [hnew] at h
          | some p =>
            obtain ⟨vmA, inst⟩ := p
            have eA : vmA.current.frames.length = vm.current.frames.length :=
              allocateObject_frames hnew
            simp only [hnew] at h
            cases hk : heapGet (setCallee vmA argCount (.obj inst)).heap r with
            | none => simp [hk] at h
            | some k =>
              simp only [hk] at h
              cases hkd : k.data <;> simp only [hkd] at h <;> try (simp at h)
              rename_i name2 methods2
              cases ht : tableGet methods2 (setCallee vmA argCount (.obj inst)).constants.strInit_ with
              | some initializer =>
                simp only [ht] at h
                have := callClosureValue_frames h
                simp only [setCallee_frames] at this
                right
                omega
              | none =>
                simp only [ht] at h
                split at h <;> simp at h
                subst h
                left
                simpa using eA
        | fiber f => simp only [hd] at h; exact ih _ _ _ _ h
        | function f => simp only [hd] at h; exact ih _ _ _ _ h
        | inst k f => simp only [hd] at h; exact ih _ _ _ _ h
        | list v c => simp only [hd] at h; exact ih _ _ _ _ h
        | string c hs => simp only [hd] at h; exact ih _ _ _ _ h
        | table v => simp only [hd] at h; exact ih _ _ _ _ h
        | upvalue l c nx => simp only [hd] at h; exact ih _ _ _ _ h

theorem callValuePostfixLoop_frames : ∀ (count i : Nat) (vm : VM),
    (callValuePostfixLoop count i vm).current.frames = vm.current.frames := by
  intro count
  induction count with
  | zero => intro i vm; rfl
  | succ n ih =>
    intro i vm
    simp only [callValuePostfixLoop]
    rw [ih]

theorem callValuePostfixStack_frames (vm : VM) (callee : Value) (argCount : Nat) :
    (callValuePostfixStack vm callee argCount).current.frames = vm.current.frames := by
  simp only [callValuePostfixStack]
  exact callValuePostfixLoop_frames _ _ _

theorem callValuePostfix_frames (H : Host)
    (hn : ∀ f argCount args vm r vm1, H.native f argCount args vm = some (r, vm1) →
      vm1.current.frames.length = vm.current.frames.length)
    {fuel : Nat} {vm vm1 : VM} {callee : Value} {argCount : Nat}
    (h : callValuePostfix H fuel vm callee argCount = some (true, vm1)) :
    vm1.current.frames.length = vm.current.frames.length ∨
      (vm1.current.frames.length = vm.current.frames.length + 1 ∧
        vm.current.frames.length ≠ FRAMES_MAX) := by
  simp only [callValuePostfix] at h
  have := callValue_frames H hn _ _ _ _ _ h
  rw [callValuePostfixStack_frames] at this
  exact this

theorem invokeFromClass_frames {vm vm1 : VM} {klass name : Ref} {argCount : Nat}
    (h : invokeFromClass vm klass name argCount = some (true, vm1)) :
    vm1.current.frames.length = vm.current.frames.length + 1 ∧
      vm.current.frames.length ≠ FRAMES_MAX := by
  simp only [invokeFromClass] at h
  repeat' (split at h)
  all_goals (try simp at h)
  exact callClosureValue_frames h

theorem invoke_frames (H : Host)
    (hn : ∀ f argCount args vm r vm1, H.native f argCount args vm = some (r, vm1) →
      vm1.current.frames.length = vm.current.frames.length)
    {fuel : Nat} {vm vm1 : VM} {name : Ref} {argCount : Nat}
    (h : invoke H fuel vm name argCount = some (true, vm1)) :
    vm1.current.frames.length = vm.current.frames.length ∨
      (vm1.current.frames.length = vm.current.frames.length + 1 ∧
        vm.current.frames.length ≠ FRAMES_MAX) := by
  simp only [invoke] at h
  repeat' (split at h)
  all_goals (try simp at h)
  · have := callValue_frames H hn _ _ _ _ _ h
    rw [setCallee_frames] at this
    exact this
  · exact Or.inr (invokeFromClass_frames h)

theorem bindMethod_frames {H : Host} {vm vm1 : VM} {klass name : Ref}
    (h : bindMethod H vm klass name = some (true, vm1)) :
    vm1.current.frames.length = vm.current.frames.length := by
  simp only [bindMethod, newBoundMethod] at h
  repeat' (split at h)
  all_goals (try simp at h)
  subst h
  simp only [push_frames, pop_frames]
  exact allocateObject_frames (by assumption)

theorem defineMethod_frames {vm vm1 : VM} {name : Ref}
    (h : defineMethod vm name = some vm1) :
    vm1.current.frames.length = vm.current.frames.length := by
  simp only [defineMethod] at h
  repeat' (split at h)
  all_goals (try simp at h)
  subst h
  simp only [pop_frames]
  exact setData_frames (by assumption)

theorem writeUpvalue_frames {vm vm1 : VM} {upvalue : Ref} {value : Value}
    (h : writeUpvalue vm upvalue value = some vm1) :
    vm1.current.frames.length = vm.current.frames.length := by
  simp only [writeUpvalue] at h
  repeat' (split at h)
  all_goals (try simp at h)
  · subst h
    rfl
  · exact setData_frames h

theorem setUpvalueNext_frames {vm vm1 : VM} {upvalue : Ref} {next : Option Ref}
    (h : setUpvalueNext vm upvalue next = some vm1) :
    vm1.current.frames.length = vm.current.frames.length := by
  simp only [setUpvalueNext] at h
  repeat' (split at h)
  all_goals (try simp at h)
  subst h
  rfl

theorem captureUpvalue_frames {H : Host} {vm vm1 : VM} {local_ : Nat} {r : Ref}
    (h : captureUpvalue H vm local_ = some (vm1, r)) :
    vm1.current.frames.length = vm.current.frames.length := by
  simp only [captureUpvalue, newUpvalue] at h
  repeat' (split at h)
  all_goals (try simp at h)
  all_goals (obtain ⟨h1, h2⟩ := h; subst h1)
  all_goals (first
    | rfl
    | (try simp only []
       repeat (first
         | (have e := allocateObject_frames ‹allocateObject _ _ _ = _›
            clear ‹allocateObject _ _ _ = _›)
         | (have e := setUpvalueNext_frames ‹setUpvalueNext _ _ _ = _›
            clear ‹setUpvalueNext _ _ _ = _›))
       omega))

theorem setClosureUpvalue_frames {vm vm1 : VM} {closure : Ref} {i : Nat} {upvalue : Option Ref}
    (h : setClosureUpvalue vm closure i upvalue = some vm1) :
    vm1.current.frames.length = vm.current.frames.length := by
  simp only [setClosureUpvalue] at h
  repeat' (split at h)
  all_goals (try simp at h)
  exact setData_frames h

theorem closureLoop_frames (H : Host) : ∀ (count i : Nat) (vm vm1 : VM) (closure : Ref),
    closureLoop H count i vm closure = some vm1 →
      vm1.current.frames.length = vm.current.frames.length := by
  intro count
  induction count with
  | zero =>
    intro i vm vm1 closure h
    simp only [closureLoop, Option.some.injEq] at h
    rw [← h]
  | succ n ih =>
    intro i vm vm1 closure h
    simp only [closureLoop] at h
    repeat' (split at h)
    all_goals (try simp at h)
    all_goals (
      have e0 := ih _ _ _ _ h
      repeat (first
        | (have e := fetchByte_frames ‹fetchByte _ = _›
           clear ‹fetchByte _ = _›)
        | (have e := captureUpvalue_frames ‹captureUpvalue _ _ _ = _›
           clear ‹captureUpvalue _ _ _ = _›)
        | (have e := setClosureUpvalue_frames ‹setClosureUpvalue _ _ _ _ = _›
           clear ‹setClosureUpvalue _ _ _ _ = _›))
      omega)

theorem newClosure_frames {H : Host} {vm vm1 : VM} {function r : Ref}
    (h : newClosure H vm function = some (vm1, r)) :
    vm1.current.frames.length = vm.current.frames.length := by
  simp only [newClosure] at h
  repeat' (split at h)
  all_goals (try simp at h)
  obtain ⟨h1, h2⟩ := h
  subst h1
  repeat (first
    | (have e := allocateObject_frames ‹allocateObject _ _ _ = _›
       clear ‹allocateObject _ _ _ = _›)
    | (have e := reallocate_frames ‹reallocate _ _ _ _ = _›
       clear ‹reallocate _ _ _ _ = _›))
  omega

theorem runSingle_OP_CLOSURE_frames {H : Host} {vm vm1 : VM} {r : InterpretResult}
    (h : runSingle_OP_CLOSURE H vm = some (r, vm1)) :
    r = .INTERPRET_CONTINUE ∧ vm1.current.frames.length = vm.current.frames.length := by
  simp only [runSingle_OP_CLOSURE] at h
  repeat' (split at h)
  all_goals (try simp at h)
  obtain ⟨h1, h2⟩ := h
  subst h1
  subst h2
  refine ⟨rfl, ?_⟩
  have e1 := readConstant_frames ‹readConstant _ = _›
  have e2 := newClosure_frames ‹newClosure _ _ _ = _›
  have e3 := closureLoop_frames H _ _ _ _ _ ‹closureLoop _ _ _ _ _ = _›
  simp only [push_frames] at e3
  omega

theorem closeUpvaluesStep_frames {vm vm1 : VM} {last : Nat}
    (h : closeUpvaluesStep vm last = some (some vm1)) :
    vm1.current.frames = vm.current.frames := by
  simp only [closeUpvaluesStep] at h
  repeat' (split at h)
  all_goals (try simp at h)
  subst h
  rfl

theorem closeUpvaluesLoop_frames : ∀ (fuel : Nat) (vm vm1 : VM) (last : Nat),
    closeUpvaluesLoop fuel vm last = some vm1 → vm1.current.frames = vm.current.frames := by
  intro fuel
  induction fuel with
  | zero =>
    intro vm vm1 last h
    simp only [closeUpvaluesLoop] at h
    split at h
    · simp only [Option.some.injEq] at h
      rw [← h]
    · simp at h
  | succ n ih =>
    intro vm vm1 last h
    simp only [closeUpvaluesLoop] at h
    split at h
    · simp at h
    · simp only [Option.some.injEq] at h
      rw [← h]
    · rename_i vmA hA
      rw [ih _ _ _ h, closeUpvaluesStep_frames hA]

theorem closeUpvalues_frames {vm vm1 : VM} {last : Nat} (h : closeUpvalues vm last = some vm1) :
    vm1.current.frames = vm.current.frames :=
  closeUpvaluesLoop_frames _ _ _ _ h

theorem runSingle_OP_RETURN_frames {vm vm1 : VM} {r : InterpretResult}
    (h : runSingle_OP_RETURN vm = some (r, vm1)) :
    vm1.current.frames.length + 1 = vm.current.frames.length ∧
      ((r = .INTERPRET_CONTINUE ∧ 1 ≤ vm1.current.frames.length) ∨
       (r = .INTERPRET_OK ∧ vm1.current.frames.length = 0)) := by
  simp only [runSingle_OP_RETURN] at h
  split at h
  · simp at h
  · rename_i frame hf
    have hpos : 1 ≤ vm.current.frames.length := by
      cases hfr : vm.current.frames with
      | nil => rw [hfr] at hf; simp at hf
      | cons a t => simp
    split at h
    · simp at h
    · rename_i vm2 h2
      have e2 := closeUpvalues_frames h2
      simp only [pop_frames] at e2
      split at h
      · rename_i h0
        simp only [Option.some.injEq, Prod.mk.injEq] at h
        obtain ⟨h1, h3⟩ := h
        subst h1
        subst h3
        simp only [List.length_dropLast, e2] at h0
        refine ⟨?_, Or.inr ⟨rfl, ?_⟩⟩ <;> simp only [pop_frames, List.length_dropLast, e2] <;>
          omega
      · rename_i h0
        simp only [Option.some.injEq, Prod.mk.injEq] at h
        obtain ⟨h1, h3⟩ := h
        subst h1
        subst h3
        simp only [List.length_dropLast, e2] at h0
        refine ⟨?_, Or.inl ⟨rfl, ?_⟩⟩ <;> simp only [push_frames, List.length_dropLast, e2] <;>
          omega

theorem BINARY_OP_frames {vm vm1 : VM} {op : Int → Int → Value} {r : InterpretResult}
    (h : BINARY_OP vm op = (r, vm1)) :
    (r = .INTERPRET_CONTINUE ∧ vm1.current.frames = vm.current.frames) ∨
      r = .INTERPRET_RUNTIME_ERROR := by
  simp only [BINARY_OP] at h
  split at h
  · simp only [Prod.mk.injEq] at h
    exact Or.inr h.1.symm
  · simp only [Prod.mk.injEq] at h
    obtain ⟨h1, h2⟩ := h
    subst h1
    subst h2
    exact Or.inl ⟨rfl, rfl⟩

/-! ## The frame count through one instruction -/

theorem stepResult_cases {x : Option (Bool × VM)} {r : InterpretResult} {vm1 : VM}
    (h : stepResult x = some (r, vm1)) :
    (r = .INTERPRET_CONTINUE ∧ x = some (true, vm1)) ∨ r = .INTERPRET_RUNTIME_ERROR := by
  simp only [stepResult] at h
  repeat' (split at h)
  all_goals (try simp at h)
  all_goals (obtain ⟨h1, h2⟩ := h; subst h1; subst h2)
  · exact Or.inr rfl
  · exact Or.inl ⟨rfl, rfl⟩

/-- What one instruction does to the number of frames: it stays, or a call adds one frame
to fewer than FRAMES_MAX, or a return removes one and leaves at least one; otherwise the
step does not return INTERPRET_CONTINUE. -/
theorem runSingle_frames (H : Host)
    (hn : ∀ f argCount args vm r vm1, H.native f argCount args vm = some (r, vm1) →
      vm1.current.frames.length = vm.current.frames.length)
    {fuel : Nat} {vm vm1 : VM} {instruction : Nat} {r : InterpretResult}
    (h : runSingle H fuel vm instruction = some (r, vm1)) :
    (r = .INTERPRET_CONTINUE ∧
      (vm1.current.frames.length = vm.current.frames.length ∨
       (vm1.current.frames.length = vm.current.frames.length + 1 ∧
         vm.current.frames.length ≠ FRAMES_MAX) ∨
       (vm1.current.frames.length + 1 = vm.current.frames.length ∧
         1 ≤ vm1.current.frames.length))) ∨
    r = .INTERPRET_OK ∨ r = .INTERPRET_RUNTIME_ERROR := by
  cases hop : OpCode.ofByte instruction with
  | none =>
    simp only [runSingle, hop] at h
    simp at h
    exact Or.inr (Or.inr h.1.symm)
  | some op =>
    cases op <;> simp only [runSingle, hop, newClass] at h
    case OP_RETURN =>
      obtain ⟨e, ⟨hc, h1⟩ | ⟨hc, _⟩⟩ := runSingle_OP_RETURN_frames h
      · exact Or.inl ⟨hc, Or.inr (Or.inr ⟨e, h1⟩)⟩
      · exact Or.inr (Or.inl hc)
    case OP_CLOSURE =>
      obtain ⟨hc, e⟩ := runSingle_OP_CLOSURE_frames h
      exact Or.inl ⟨hc, Or.inl e⟩
    case OP_CALL =>
      simp only [runSingle_OP_CALL] at h
      repeat' (split at h)
      all_goals (try simp at h)
      all_goals (obtain ⟨h1, h2⟩ := h; subst h1; subst h2)
      · exact Or.inr (Or.inr rfl)
      · left
        refine ⟨rfl, ?_⟩
        have e1 := fetchByte_frames ‹fetchByte _ = _›
        have e2 := callValue_frames H hn _ _ _ _ _ ‹callValue _ _ _ _ _ = _›
        omega
    case OP_INVOKE =>
      simp only [runSingle_OP_INVOKE] at h
      repeat' (split at h)
      all_goals (try simp at h)
      all_goals (obtain ⟨h1, h2⟩ := h; subst h1; subst h2)
      · exact Or.inr (Or.inr rfl)
      · left
        refine ⟨rfl, ?_⟩
        have e2 := invoke_frames H hn ‹invoke _ _ _ _ _ = _›
        repeat (
          have e := fetchByte_frames ‹fetchByte _ = _›
          clear ‹fetchByte _ = _›)
        omega
    all_goals (repeat' (split at h))
    all_goals (try simp at h)
    all_goals (first
      | exact Or.elim (BINARY_OP_frames h) (fun e => Or.inl ⟨e.1, Or.inl (by rw [e.2])⟩)
          (fun e => Or.inr (Or.inr e))
      | exact Or.elim (stepResult_cases h)
          (fun e => Or.inl ⟨e.1, by
            first
            | (have e2 := callValuePostfix_frames H hn e.2
               have e1 := fetchByte_frames ‹fetchByte _ = _›
               omega)
            | (have e2 := invokeFromClass_frames e.2
               have e1 := fetchByte_frames ‹fetchByte _ = _›
               have e0 := readString_frames ‹readString _ = _›
               simp only [pop_frames] at e2
               omega)
            | (have e2 := bindMethod_frames e.2
               have e0 := readString_frames ‹readString _ = _›
               simp only [pop_frames] at e2
               omega)⟩)
          (fun e => Or.inr (Or.inr e))
      | (obtain ⟨h1, h2⟩ := h
         subst h1
         subst h2
         first
          | exact Or.inr (Or.inr rfl)
          | (left
             refine ⟨rfl, Or.inl ?_⟩
             try simp only [push_frames, pop_frames, setFrameIp_frames]
             all_goals (
               try (have e1 := fetchByte_frames (by assumption))
               try (have e2 := fetchShort_frames (by assumption))
               try (have e3 := readConstant_frames (by assumption))
               try (have e4 := readString_frames (by assumption))
               try (have e5 := allocateObject_frames (by assumption))
               try (have e6 := setData_frames (by assumption))
               try (have e7 := defineMethod_frames (by assumption))
               try (have e8 := writeUpvalue_frames (by assumption))
               try (have e9 := congrArg List.length (closeUpvalues_frames (by assumption)))
               try (have e10 := createCoreList_frames (by assumption))
               try (have e11 := createCoreTable_frames (by assumption))
               omega))
          | (have e1 := fetchByte_frames (by assumption)
             first
              | (have e10 := createCoreList_frames (by assumption)
                 rcases e10 with ⟨hc, e⟩ | he
                 · exact absurd hc (by assumption)
                 · exact Or.inr (Or.inr he))
              | (have e10 := createCoreTable_frames (by assumption)
                 rcases e10 with ⟨hc, e⟩ | he
                 · exact absurd hc (by assumption)
                 · exact Or.inr (Or.inr he)))
          | (left
             refine ⟨rfl, Or.inl ?_⟩
             have e1 := fetchByte_frames (by assumption)
             first
              | (have e10 := createCoreList_frames (by assumption)
                 rcases e10 with ⟨_, e⟩ | he
                 · omega
                 · cases he)
              | (have e10 := createCoreTable_frames (by assumption)
                 rcases e10 with ⟨_, e⟩ | he
                 · omega
                 · cases he))))

theorem runTurns_frames (H : Host)
    (hn : ∀ f argCount args vm r vm1, H.native f argCount args vm = some (r, vm1) →
      vm1.current.frames.length = vm.current.frames.length) :
    ∀ (n : Nat) (vm vm1 : VM) (r : InterpretResult),
      1 ≤ vm.current.frames.length → vm.current.frames.length ≤ FRAMES_MAX →
      runTurns H n vm = some (r, vm1) →
      (r = .INTERPRET_CONTINUE ∧ 1 ≤ vm1.current.frames.length ∧
        vm1.current.frames.length ≤ FRAMES_MAX) ∨
      r = .INTERPRET_OK ∨ r = .INTERPRET_RUNTIME_ERROR := by
  intro n
  induction n with
  | zero =>
    intro vm vm1 r h1 h64 h
    simp only [runTurns, Option.some.injEq, Prod.mk.injEq] at h
    obtain ⟨hr, hv⟩ := h
    subst hr
    subst hv
    exact Or.inl ⟨rfl, h1, h64⟩
  | succ k ih =>
    intro vm vm1 r h1 h64 h
    simp only [runTurns] at h
    split at h
    · simp at h
    · rename_i instruction vmA hA
      have eA := fetchByte_frames hA
      split at h
      · simp at h
      · rename_i vmB hB
        rcases runSingle_frames H hn hB with ⟨_, e⟩ | e | e
        · exact ih _ _ _ (by omega) (by omega) h
        · cases e
        · cases e
      · rename_i res vmB hne hB
        simp only [Option.some.injEq, Prod.mk.injEq] at h
        obtain ⟨hr, hv⟩ := h
        subst hr
        subst hv
        rcases runSingle_frames H hn hB with ⟨hc, _⟩ | e | e
        · exact absurd hc (by simpa using hne)
        · exact Or.inr (Or.inl e)
        · exact Or.inr (Or.inr e)

theorem list_insert_frames {H : Host} {vm vm1 : VM} {argv : Nat} {r : Value}
    (h : _list_insert_ H vm argv = some (r, vm1)) :
    vm1.current.frames.length = vm.current.frames.length := by
  simp only [_list_insert_] at h
  repeat' (split at h)
  all_goals (try simp at h)
  all_goals (obtain ⟨h1, h2⟩ := h; subst h2)
  all_goals (first
    | rfl
    | exact writeValueArray_frames (by assumption)
    | (have e1 := writeValueArray_frames ‹writeValueArray _ _ _ _ = _›
       have e2 := setData_frames ‹setData _ _ _ = _›
       omega))

theorem list_del_frames {vm vm1 : VM} {argv : Nat} {r : Value}
    (h : _list_del_ vm argv = some (r, vm1)) :
    vm1.current.frames.length = vm.current.frames.length := by
  simp only [_list_del_] at h
  repeat' (split at h)
  all_goals (try simp at h)
  all_goals (obtain ⟨h1, h2⟩ := h; subst h2)
  all_goals (first
    | rfl
    | exact setData_frames (by assumption))

theorem listHost_native_frames (f argCount args : Nat) (vm : VM) (r : Value) (vm1 : VM)
    (h : listHost.native f argCount args vm = some (r, vm1)) :
    vm1.current.frames.length = vm.current.frames.length := by
  simp only [listHost] at h
  split at h
  · exact list_insert_frames h
  · split at h
    · exact list_del_frames h
    · simp at h

/-! ## The string form of a list of strings (string.c) -/

/-- The function takeString from a state with the interning invariant: it returns the
interned string with the requested bytes. -/
theorem takeString_spec (H : Host) (vm : VM) (chars : List Nat)
    (hready : Ready vm)
    (hk : internKeysHashed vm.heap vm.strings = true)
    (hu : internUnique vm.heap vm.strings = true) :
    ∃ vm1 r, takeString H vm chars = some (vm1, r) ∧ InternedAs vm1 r chars := by
  have hk' := internKeysHashed_iff.mp hk
  have hu' := internUnique_iff.mp hu
  obtain ⟨hsome, hnone⟩ := tableFindString_spec vm.heap chars vm.strings hk'
  unfold takeString
  simp only
  cases hf : tableFindString vm.heap vm.strings chars (hashString chars) with
  | some r =>
    simp only [reallocate_shrink]
    obtain ⟨⟨e0, he0, rfl⟩, hc⟩ := hsome _ hf
    refine ⟨_, e0.1, rfl, hk, hu, hc, ⟨e0.2, he0⟩, fun e he => ⟨fun h => ?_, fun h => ?_⟩⟩
    · rw [h]
      exact hc
    · exact hu' e he e0 he0 (by rw [h]; exact hc.symm)
  | none =>
    obtain ⟨vm1, r, h1, hq⟩ := allocateString_spec H vm chars hready hk hu (hnone hf)
    exact ⟨vm1, r, h1, hq⟩

theorem joinForms_snoc (sep f : List Nat) : ∀ (done : List (List Nat)), done ≠ [] →
    joinForms sep (done ++ [f]) = joinForms sep done ++ sep ++ f := by
  intro done
  induction done with
  | nil => intro h; exact absurd rfl h
  | cons a t ih =>
    intro _
    cases t with
    | nil => simp [joinForms]
    | cons b rest =>
      have := ih (by simp)
      simp only [List.cons_append, joinForms, List.append_eq] at this ⊢
      rw [this]
      simp only [List.append_assoc]

theorem joinForms_length (sep : List Nat) : ∀ (forms : List (List Nat)), forms ≠ [] →
    (joinForms sep forms).length + sep.length =
      (forms.map (fun f => f.length + sep.length)).sum := by
  intro forms
  induction forms with
  | nil => intro h; exact absurd rfl h
  | cons a t ih =>
    intro _
    cases t with
    | nil => simp [joinForms]
    | cons b rest =>
      have := ih (by simp)
      simp only [joinForms, List.length_append, List.map_cons, List.sum_cons] at this ⊢
      omega

theorem printChars_of_no_nul {cs : List Nat} (h : 0 ∉ cs) : printChars cs = cs := by
  unfold printChars
  rw [List.takeWhile_eq_self_iff]
  intro c hc
  have : c ≠ 0 := fun e => h (e ▸ hc)
  simpa using this

/-- The string form of a string is the string itself. -/
theorem valueToString_string (H : Host) (S : StringHost) (fuel : Nat) {vm : VM} {e : Value}
    {cs : List Nat} (h : asString vm.heap e = some cs) :
    valueToString H S (fuel + 1) vm e = some (vm, e) := by
  cases e with
  | obj r =>
    simp only [asString, stringChars] at h
    simp only [valueToString, objectToString]
    cases hg : heapGet vm.heap r with
    | none => simp [hg] at h
    | some o =>
      simp only [hg] at h ⊢
      cases hd : o.data <;> simp only [hd, reduceCtorEq] at h ⊢
  | _ => simp [asString] at h

/-- The first loop of listToString on a list of strings: no element is converted to a new
object, and `totalLen` grows by the length of each string and of one separator. -/
theorem listConvertLoop_strings (H : Host) (S : StringHost) (fuel : Nat) {vm : VM}
    {list : Ref} {o : Obj} {elements : List Value} {capacity : Nat}
    (hg : heapGet vm.heap list = some o) (hd : o.data = .list elements capacity) :
    ∀ (rest : List Value) (restForms : List (List Nat)) (pre values : List Value)
      (totalLen : Nat), elements = pre ++ rest →
      rest.map (asString vm.heap) = restForms.map some →
      listConvertLoop (valueToString H S (fuel + 1)) list rest.length pre.length vm values
          totalLen =
        some (vm, values ++ rest,
          totalLen + (restForms.map (fun f => f.length + strItemSepLen_)).sum) := by
  intro rest
  induction rest with
  | nil =>
    intro restForms pre values totalLen _ hm
    cases restForms with
    | nil => simp [listConvertLoop]
    | cons f fs => simp at hm
  | cons e rest ih =>
    intro restForms pre values totalLen he hm
    cases restForms with
    | nil => simp at hm
    | cons f fs =>
      simp only [List.map_cons, List.cons.injEq] at hm
      obtain ⟨hf, hm⟩ := hm
      have hi : elements[pre.length]? = some e := by
        rw [he, List.getElem?_append_right (Nat.le_refl _), Nat.sub_self]
        exact List.getElem?_cons_zero
      simp only [List.length_cons, listConvertLoop, hg, hd, hi, valueToString_string H S fuel hf,
        hf]
      have := ih fs (pre ++ [e]) (values ++ [e]) (totalLen + f.length + strItemSepLen_)
        (by rw [he]; simp) hm
      simp only [List.length_append, List.length_singleton] at this
      rw [this]
      simp only [List.append_assoc, List.singleton_append, List.map_cons, List.sum_cons]
      congr 3
      omega

/-- The second loop of listToString behind the first string, on strings without NUL. -/
theorem listWriteLoop_rest (heap : Heap) : ∀ (values : List Value) (forms done : List (List Nat)),
    done ≠ [] → values.map (asString heap) = forms.map some → (∀ cs ∈ forms, 0 ∉ cs) →
    listWriteLoop heap values done.length ([91] ++ joinForms strItemSep_ done) =
      some ([91] ++ joinForms strItemSep_ (done ++ forms)) := by
  intro values
  induction values with
  | nil =>
    intro forms done _ hm _
    cases forms with
    | nil => simp [listWriteLoop]
    | cons f fs => simp at hm
  | cons v rest ih =>
    intro forms done hdone hm hnul
    cases forms with
    | nil => simp at hm
    | cons f fs =>
      simp only [List.map_cons, List.cons.injEq] at hm
      obtain ⟨hf, hm⟩ := hm
      have hpos : done.length > 0 := List.length_pos.mpr hdone
      simp only [listWriteLoop, hf, if_pos hpos,
        printChars_of_no_nul (hnul f (List.mem_cons_self _ _))]
      have := ih fs (done ++ [f]) (by simp) hm
        (fun cs hcs => hnul cs (List.mem_cons_of_mem _ hcs))
      simp only [List.length_append, List.length_singleton, joinForms_snoc _ _ done hdone,
        List.append_assoc, List.singleton_append] at this
      simp only [List.append_assoc]
      exact this

/-- The second loop of listToString on strings without NUL writes the forms with the
separator between them. -/
theorem listWriteLoop_strings (heap : Heap) (values : List Value) (forms : List (List Nat))
    (hm : values.map (asString heap) = forms.map some) (hnul : ∀ cs ∈ forms, 0 ∉ cs) :
    listWriteLoop heap values 0 [91] = some ([91] ++ joinForms strItemSep_ forms) := by
  cases values with
  | nil =>
    cases forms with
    | nil => rfl
    | cons f fs => simp at hm
  | cons v rest =>
    cases forms with
    | nil => simp at hm
    | cons f fs =>
      simp only [List.map_cons, List.cons.injEq] at hm
      obtain ⟨hf, hm⟩ := hm
      simp only [listWriteLoop, hf, printChars_of_no_nul (hnul f (List.mem_cons_self _ _))]
      have := listWriteLoop_rest heap rest fs [f] (by simp) hm
        (fun cs hcs => hnul cs (List.mem_cons_of_mem _ hcs))
      simp only [List.length_singleton, joinForms, List.singleton_append] at this
      simpa using this

/-- The string objects among the elements of a list on the stack are still there, with
their bytes, after an allocation on a machine between two collections. -/
theorem asString_kept {vm vm2 : VM} {list : Ref} {o : Obj} {elements : List Value}
    {capacity i : Nat} (hk : Kept vm vm2)
    (hst : vm.current.stack[i]? = some (.obj list)) (hi : i < vm.current.stackTop)
    (hg : heapGet vm.heap list = some o) (hd : o.data = .list elements capacity) :
    ∀ e ∈ elements, ∀ cs, asString vm.heap e = some cs → asString vm2.heap e = some cs := by
  intro e he cs hcs
  cases e with
  | obj r =>
    simp only [asString, stringChars] at hcs ⊢
    cases hgr : heapGet vm.heap r with
    | none => simp [hgr] at hcs
    | some so =>
      have hreach : Reachable vm r := by
        refine Reachable.step (Reachable.root (stack_root hst hi)) hg ?_
        rw [hd]
        simp only [references]
        exact mem_valueRefs.mpr (List.mem_map_of_mem valueRef he)
      obtain ⟨o1, ho1, hd1⟩ := hk r hreach so hgr
      simp only [hgr] at hcs
      simp only [ho1, hd1]
      exact hcs
  | _ => simp [asString] at hcs

/-- C31: the mark phase on a heap in which the open-upvalue list of the active fiber and of
every fiber object ends in NULL; the references between objects may form cycles.
markObject leaves a marked object alone, and it marks an unmarked object and pushes it on
the gray stack in the same step.  traceReferences returns with an empty gray stack and
only added marks as soon as the fuel, one unit for each turn of its loop and so for each
call of blackenObject, covers the gray objects plus the unmarked objects of the start: no
more turns are made than that.  markRoots and the traceReferences that collectGarbage
runs after it return. -/
theorem mark_phase_terminates (vm : VM) (hcur : fiberProper vm.heap vm.current = true)
    (hfib : heapFibersProper vm.heap = true) :
    (∀ r o, heapGet vm.heap r = some o →
      (o.isMarked = true → markObject vm (some r) = vm) ∧
      (o.isMarked = false →
        markObject vm (some r) =
          { vm with
            heap := vm.heap.set r (some { o with isMarked := true })
            grayStack := r :: vm.grayStack } ∧
        unmarkedCount (vm.heap.set r (some { o with isMarked := true })) + 1 =
          unmarkedCount vm.heap)) ∧
    (∀ fuel, vm.grayStack.length + unmarkedCount vm.heap ≤ fuel →
      ∃ vm1, traceReferences fuel vm = some vm1 ∧ vm1.grayStack = [] ∧
        MarkExt vm.heap vm1.heap ∧
        traceReferences (vm.grayStack.length + unmarkedCount vm.heap) vm = some vm1) ∧
    (∃ vm1 vm2, markRoots vm = some vm1 ∧
      vm1.grayStack.length + unmarkedCount vm1.heap =
        vm.grayStack.length + unmarkedCount vm.heap ∧
      traceReferences (vm1.heap.length + vm1.grayStack.length + 1) vm1 = some vm2 ∧
      vm2.grayStack = [] ∧ MarkExt vm.heap vm2.heap) := by
  refine ⟨?_, ?_, ?_⟩
  · intro r o hg
    refine ⟨fun hm => markObject_marked hg hm, fun hm => ⟨markObject_unmarked hg hm, ?_⟩⟩
    have hg' : vm.heap[r]? = some (some o) := by
      unfold heapGet at hg
      split at hg
      · rename_i o' ho'
        cases hg
        exact ho'
      · cases hg
    exact unmarkedCount_mark hg' hm
  · intro fuel hle
    obtain ⟨vm1, h1, hg1, m1, _⟩ := traceReferences_spec fuel vm hfib hle
    obtain ⟨vm0, h0, _, _, _⟩ :=
      traceReferences_spec (vm.grayStack.length + unmarkedCount vm.heap) vm hfib (le_refl _)
    have hmono : ∀ (a : Nat) (x y : VM), traceReferences a x = some y →
        ∀ b, a ≤ b → traceReferences b x = some y := by
      intro a
      induction a with
      | zero =>
        intro x y hxy b _
        cases hgx : x.grayStack with
        | nil =>
          simp only [traceReferences, hgx] at hxy
          cases b <;> simp only [traceReferences, hgx] <;> exact hxy
        | cons p rest => simp [traceReferences, hgx] at hxy
      | succ a ih =>
        intro x y hxy b hab
        obtain ⟨b', rfl⟩ : ∃ b', b = b' + 1 := ⟨b - 1, by omega⟩
        cases hgx : x.grayStack with
        | nil =>
          simp only [traceReferences, hgx] at hxy ⊢
          exact hxy
        | cons p rest =>
          simp only [traceReferences, hgx] at hxy ⊢
          cases hb : blackenObject { x with grayStack := rest } p with
          | none => simp [hb] at hxy
          | some z =>
            simp only [hb] at hxy ⊢
            exact ih z y hxy b' (by omega)
    have := hmono _ vm vm0 h0 fuel hle
    rw [h1] at this
    cases this
    exact ⟨vm1, h1, hg1, m1.1, h0⟩
  · obtain ⟨vm1, h1, m1, _⟩ := markRoots_spec vm hcur
    obtain ⟨vmA, vmB, hA, hB, hgB, mB, _, _⟩ := markPhase_spec vm hcur hfib
    rw [h1] at hA
    cases hA
    exact ⟨vm1, vmB, h1, m1.2.2.2.1, hB, hgB, mB.1⟩

/-- C31 on cycleVM, where a closure and its closed upvalue refer to each other. -/
theorem mark_phase_terminates_witness :
    ∃ vm1 vm2, markRoots cycleVM = some vm1 ∧
      vm1.grayStack.length + unmarkedCount vm1.heap =
        cycleVM.grayStack.length + unmarkedCount cycleVM.heap ∧
      traceReferences (vm1.heap.length + vm1.grayStack.length + 1) vm1 = some vm2 ∧
      vm2.grayStack = [] ∧ MarkExt cycleVM.heap vm2.heap :=
  (mark_phase_terminates cycleVM rfl rfl).2.2

/-- C32: closeUpvalues(last) on a fiber whose open-upvalue list `l` is ordered by strictly
descending stack slot.  It returns; `l` splits into the upvalues with a slot at or above
`last` and, behind them, those with a slot below `last`.  Each of the first kind ends up
closed, its `closed` field holding the value its stack slot held before the call, so a
read through it yields the same value as before.  Those of the second kind are the new
open list, in the same order, each object untouched.  The stack, `stackTop`, the frames and
every object that is not on the list are unchanged. -/
theorem closeUpvalues_preserves_reads (vm : VM) (last : Nat) (l : List Ref)
    (hc : chain (openNext vm.heap) vm.current.openUpvalues l = true)
    (hs : (l.map (slotOf vm.heap)).Pairwise (· > ·)) :
    ∃ vm1 done rest, closeUpvalues vm last = some vm1 ∧ l = done ++ rest ∧
      (∀ r ∈ l, r ∈ done ↔ slotOf vm.heap r ≥ last) ∧
      (∀ r ∈ l, r ∈ rest ↔ slotOf vm.heap r < last) ∧
      (∀ r ∈ done, ∃ o1 n, heapGet vm1.heap r = some o1 ∧
        o1.data = .upvalue .closed (vm.current.stack.getD (slotOf vm.heap r) .nil) n ∧
        readUpvalue vm r = some (vm.current.stack.getD (slotOf vm.heap r) .nil) ∧
        readUpvalue vm1 r = readUpvalue vm r) ∧
      chain (openNext vm1.heap) vm1.current.openUpvalues rest = true ∧
      (∀ r ∈ rest, heapGet vm1.heap r = heapGet vm.heap r ∧
        slotOf vm1.heap r = slotOf vm.heap r ∧ readUpvalue vm1 r = readUpvalue vm r) ∧
      vm1.current.stack = vm.current.stack ∧ vm1.current.stackTop = vm.current.stackTop ∧
      vm1.current.frames = vm.current.frames ∧
      (∀ q, q ∉ l → heapGet vm1.heap q = heapGet vm.heap q) := by
  obtain ⟨vm1, done, rest, hclose, hsplit, hdone, hrest, hchain, hframe, hclosed, _, heq⟩ :=
    closeUpvalues_total vm last l hc
  have hnodup : l.Nodup := chain_nodup hc
  have hdisj : ∀ r ∈ rest, r ∉ done := by
    intro r hr hd
    rw [hsplit] at hnodup
    exact (List.nodup_append.mp hnodup).2.2 hd hr
  have hlow : ∀ r ∈ rest, slotOf vm.heap r < last := by
    cases hrs : rest with
    | nil => simp
    | cons x t =>
      rw [hrs] at hrest hsplit
      have hx : slotOf vm.heap x < last := hrest x rfl
      rw [hsplit, List.map_append, List.pairwise_append] at hs
      have hp := hs.2.1
      rw [List.map_cons, List.pairwise_cons] at hp
      intro r hr
      rcases List.mem_cons.mp hr with rfl | hr
      · exact hx
      · have := hp.1 (slotOf vm.heap r) (List.mem_map_of_mem _ hr)
        omega
  have hstack : vm1.current.stack = vm.current.stack := by rw [heq]
  have htop : vm1.current.stackTop = vm.current.stackTop := by rw [heq]
  have hfr : vm1.current.frames = vm.current.frames := by rw [heq]
  refine ⟨vm1, done, rest, hclose, hsplit, ?_, ?_, ?_, hchain, ?_, hstack, htop, hfr, ?_⟩
  · intro r hr
    constructor
    · exact hdone r
    · intro hge
      rw [hsplit] at hr
      rcases List.mem_append.mp hr with h | h
      · exact h
      · have := hlow r h
        omega
  · intro r hr
    constructor
    · exact hlow r
    · intro hlt
      rw [hsplit] at hr
      rcases List.mem_append.mp hr with h | h
      · have := hdone r h
        omega
      · exact h
  · intro r hr
    obtain ⟨o, s, c, n, hg, hd, hg1⟩ := hclosed r hr
    have hslot : slotOf vm.heap r = s := by simp [slotOf, hg, hd]
    have hread : readUpvalue vm r = some (vm.current.stack.getD s .nil) := by
      simp [readUpvalue, hg, hd]
    refine ⟨_, n, hg1, by rw [hslot], by rw [hslot]; exact hread, ?_⟩
    rw [hread]
    simp [readUpvalue, hg1]
  · intro r hr
    have hsame := hframe r (hdisj r hr)
    refine ⟨hsame, by simp only [slotOf, hsame], ?_⟩
    simp only [readUpvalue, hsame, hstack]
  · intro q hq
    apply hframe
    intro hqd
    exact hq (by rw [hsplit]; exact List.mem_append_left _ hqd)

/-- C32 on callVM, whose open upvalues point to the slots 3 and 1: closeUpvalues(2) closes
the first over the value 20 and leaves the second open. -/
theorem closeUpvalues_preserves_reads_witness :
    ∃ vm1 done rest, closeUpvalues callVM 2 = some vm1 ∧ [3, 2] = done ++ rest ∧
      (∀ r ∈ [3, 2], r ∈ done ↔ slotOf callVM.heap r ≥ 2) ∧
      (∀ r ∈ [3, 2], r ∈ rest ↔ slotOf callVM.heap r < 2) ∧
      (∀ r ∈ done, ∃ o1 n, heapGet vm1.heap r = some o1 ∧
        o1.data = .upvalue .closed (callVM.current.stack.getD (slotOf callVM.heap r) .nil) n ∧
        readUpvalue callVM r = some (callVM.current.stack.getD (slotOf callVM.heap r) .nil) ∧
        readUpvalue vm1 r = readUpvalue callVM r) ∧
      chain (openNext vm1.heap) vm1.current.openUpvalues rest = true ∧
      (∀ r ∈ rest, heapGet vm1.heap r = heapGet callVM.heap r ∧
        slotOf vm1.heap r = slotOf callVM.heap r ∧
        readUpvalue vm1 r = readUpvalue callVM r) ∧
      vm1.current.stack = callVM.current.stack ∧
      vm1.current.stackTop = callVM.current.stackTop ∧
      vm1.current.frames = callVM.current.frames ∧
      (∀ q, q ∉ [3, 2] → heapGet vm1.heap q = heapGet callVM.heap q) :=
  closeUpvalues_preserves_reads callVM 2 [3, 2] (by decide) (by decide)

/-- C33: in a chunk of `n` bytes, for distances of at most 65535.  emitLoop(loopStart)
appends three bytes, and a machine that executes the OP_LOOP at offset `n` of a chunk that
starts with them continues with `ip = loopStart`.  patchJump(offset), for a jump
instruction whose opcode is at `offset - 1`, changes the two operand bytes only, and a
machine that executes this instruction in a chunk that starts with the patched bytes
continues with `ip = n`, the byte count at the call of patchJump, when the instruction is
OP_JUMP or is OP_JUMP_IF_FALSE on a falsey top of stack, and with `ip = offset + 2`, right
behind the operand, when it is OP_JUMP_IF_FALSE on any other value.  Nothing but `ip`
changes in these steps. -/
theorem jump_targets_exact (H : Host) (s : CompileState) (ch : Chunk) (loopStart offset : Nat)
    (hch : currentChunk s = some ch) (hloop : loopStart ≤ ch.code.length)
    (hl16 : ch.code.length + 3 - loopStart ≤ UINT16_MAX)
    (hoff1 : 1 ≤ offset) (hoff : offset + 2 ≤ ch.code.length)
    (hj16 : ch.code.length - offset - 2 ≤ UINT16_MAX) :
    (∃ s1 ch1, emitLoop s loopStart = some s1 ∧ currentChunk s1 = some ch1 ∧
      ch1.code.length = ch.code.length + 3 ∧
      ∀ (vm : VM) (more : List Nat) (n : Nat), RunsAt vm (ch1.code ++ more) ch.code.length →
        runTurns H (n + 1) vm = runTurns H n (setFrameIp vm loopStart) ∧
        runTurns H 1 vm = some (.INTERPRET_CONTINUE, setFrameIp vm loopStart) ∧
        RunsAt (setFrameIp vm loopStart) (ch1.code ++ more) loopStart) ∧
    (∃ s1 ch1, patchJump s offset = some s1 ∧ currentChunk s1 = some ch1 ∧
      ch1.code.length = ch.code.length ∧
      (∀ k, k ≠ offset → k ≠ offset + 1 → ch1.code.getD k 0 = ch.code.getD k 0) ∧
      ∀ (vm : VM) (more : List Nat) (n : Nat), RunsAt vm (ch1.code ++ more) (offset - 1) →
        (ch.code.getD (offset - 1) 0 = OpCode.OP_JUMP.toByte →
          runTurns H (n + 1) vm = runTurns H n (setFrameIp vm ch.code.length) ∧
          runTurns H 1 vm = some (.INTERPRET_CONTINUE, setFrameIp vm ch.code.length) ∧
          RunsAt (setFrameIp vm ch.code.length) (ch1.code ++ more) ch.code.length) ∧
        (ch.code.getD (offset - 1) 0 = OpCode.OP_JUMP_IF_FALSE.toByte →
          runTurns H (n + 1) vm =
            runTurns H n
              (setFrameIp vm (if isFalsey (peek vm 0) then ch.code.length else offset + 2)) ∧
          runTurns H 1 vm = some (.INTERPRET_CONTINUE,
            setFrameIp vm (if isFalsey (peek vm 0) then ch.code.length else offset + 2)))) := by
  constructor
  · obtain ⟨s1, ch1, h1, _, _, hch1, hcode1, _⟩ := emitLoop_chunk s ch loopStart hch hloop hl16
    refine ⟨s1, ch1, h1, hch1, by rw [hcode1]; simp, ?_⟩
    intro vm more n hr
    have hcode : ch1.code ++ more = ch.code ++ [OpCode.OP_LOOP.toByte,
        ((ch.code.length + 3 - loopStart) / 2 ^ 8) % 256,
        (ch.code.length + 3 - loopStart) % 256] ++ more := by rw [hcode1]
    have g0 : (ch1.code ++ more).getD ch.code.length 0 = OpCode.OP_LOOP.toByte := by
      rw [hcode]
      exact getD_append_mid ch.code _ more 0 (by simp)
    have g1 : (ch1.code ++ more).getD (ch.code.length + 1) 0 =
        ((ch.code.length + 3 - loopStart) / 2 ^ 8) % 256 := by
      rw [hcode]
      exact getD_append_mid ch.code _ more 1 (by simp)
    have g2 : (ch1.code ++ more).getD (ch.code.length + 2) 0 =
        (ch.code.length + 3 - loopStart) % 256 := by
      rw [hcode]
      exact getD_append_mid ch.code _ more 2 (by simp)
    have hstep := fun m => step_OP_LOOP H hr g0 hl16 g1 g2 (by omega) m
    have htarget : ch.code.length + 3 - (ch.code.length + 3 - loopStart) = loopStart := by omega
    rw [htarget] at hstep
    exact ⟨hstep n, by rw [hstep 0]; rfl, hr.move loopStart⟩
  · obtain ⟨s1, ch1, h1, _, _, hch1, hcode1, _⟩ := patchJump_chunk s ch offset hch hj16
    have hlen1 : ch1.code.length = ch.code.length := by rw [hcode1]; simp
    have hsame : ∀ k, k ≠ offset → k ≠ offset + 1 → ch1.code.getD k 0 = ch.code.getD k 0 := by
      intro k hk0 hk1
      rw [hcode1, getD_set_ne_nat _ _ _ _ (fun e => hk1 e.symm),
        getD_set_ne_nat _ _ _ _ (fun e => hk0 e.symm)]
    refine ⟨s1, ch1, h1, hch1, hlen1, hsame, ?_⟩
    intro vm more n hr
    have g0 : (ch1.code ++ more).getD (offset - 1) 0 = ch.code.getD (offset - 1) 0 := by
      rw [getD_append_left_nat _ _ _ (by omega), hsame _ (by omega) (by omega)]
    have g1 : (ch1.code ++ more).getD (offset - 1 + 1) 0 =
        ((ch.code.length - offset - 2) / 2 ^ 8) % 256 := by
      have e : offset - 1 + 1 = offset := by omega
      rw [e, getD_append_left_nat _ _ _ (by omega), hcode1,
        getD_set_ne_nat _ _ _ _ (by omega), getD_set_self_nat _ _ _ (by omega)]
    have g2 : (ch1.code ++ more).getD (offset - 1 + 2) 0 = (ch.code.length - offset - 2) % 256 := by
      have e : offset - 1 + 2 = offset + 1 := by omega
      rw [e, getD_append_left_nat _ _ _ (by omega), hcode1,
        getD_set_self_nat _ _ _ (by simp; omega)]
    have htarget : offset - 1 + 3 + (ch.code.length - offset - 2) = ch.code.length := by omega
    have hnext : offset - 1 + 3 = offset + 2 := by omega
    constructor
    · intro hop
      have hstep := fun m => step_OP_JUMP H hr (g0.trans hop) hj16 g1 g2 m
      rw [htarget] at hstep
      exact ⟨hstep n, by rw [hstep 0]; rfl, hr.move _⟩
    · intro hop
      have hstep := fun m => step_OP_JUMP_IF_FALSE H hr (g0.trans hop) hj16 g1 g2 m
      rw [htarget, hnext] at hstep
      exact ⟨hstep n, by rw [hstep 0]; rfl⟩

/-- C33 at jumpState, whose code of 7 bytes starts with an OP_JUMP_IF_FALSE that is not yet
patched: the loop back to offset 3, and the jump patched at offset 1, run on a machine
whose top of stack is not falsey. -/
theorem jump_targets_exact_witness :
    (∃ s1 ch1, emitLoop jumpState 3 = some s1 ∧ currentChunk s1 = some ch1 ∧
      runTurns exampleHost 1 (setFrameIp (scriptVM ch1.code ch1.constants) 7) =
        some (.INTERPRET_CONTINUE,
          setFrameIp (setFrameIp (scriptVM ch1.code ch1.constants) 7) 3)) ∧
    (∃ s1 ch1, patchJump jumpState 1 = some s1 ∧ currentChunk s1 = some ch1 ∧
      ch1.code = [19, 0, 4, 29, 7, 0, 29] ∧
      runTurns exampleHost 1 (setFrameIp (scriptVM ch1.code ch1.constants) 0) =
        some (.INTERPRET_CONTINUE,
          setFrameIp (setFrameIp (scriptVM ch1.code ch1.constants) 0) 3)) := by
  have h := jump_targets_exact exampleHost jumpState jumpFunction.chunk 3 1 rfl (by decide)
    (by decide) (by decide) (by decide) (by decide)
  constructor
  · obtain ⟨s1, ch1, h1, hch1, _, hrun⟩ := h.1
    exact ⟨s1, ch1, h1, hch1, (hrun _ [] 0 (scriptVM_runsAt ch1.code ch1.constants 7)).2.1⟩
  · obtain ⟨s1, ch1, h1, hch1, _, _, hrun⟩ := h.2
    have hval : patchJump jumpState 1 = some
        { jumpState with
          vm := { jumpState.vm with
                  heap := [some { jumpObject with
                                  data := .function
                                    { jumpFunction with
                                      chunk := { jumpFunction.chunk with
                                                 code := [19, 0, 4, 29, 7, 0, 29] } } }] } } :=
      rfl
    have hs := h1
    rw [hval] at hs
    cases hs
    cases hch1
    exact ⟨_, _, hval, rfl, rfl,
      ((hrun _ [] 0 (scriptVM_runsAt _ _ 0)).2 rfl).2⟩

/-- A pop moves neither `ip` nor the code. -/
theorem RunsAt.after_pop {vm : VM} {code : List Nat} {ip : Nat} (h : RunsAt vm code ip) :
    RunsAt (pop vm).2 code ip := h

/-- C34: `L and R` and `L or R`, the code of `L` being in the chunk already.  Whatever code
`rcode` (of at most 65534 bytes) the compilation of `R` appends, `and_` leaves
OP_JUMP_IF_FALSE over `rcode + 1` bytes, OP_POP, `rcode`, and `or_` leaves OP_JUMP_IF_FALSE
over 3 bytes, OP_JUMP over `rcode + 1` bytes, OP_POP, `rcode`.  On a machine that has just
run the code of `L`, so that the value of `L` is on top of the stack: for `and` with a
falsey value, and for `or` with a value that is not falsey, the machine continues behind
`rcode` with the stack as it is, the value of `L` on top; otherwise it continues at the
first byte of `rcode` with the value of `L` popped and the stack otherwise as it is, so
that the one value the code of `R` leaves is the result. -/
theorem short_circuit_lowering (H : Host) (pp : Precedence → CompileState → Option CompileState)
    (fuel : Nat) (ca : Bool) (s : CompileState) (ch : Chunk) (hch : currentChunk s = some ch) :
    (∃ s2 ch2, currentChunk s2 = some ch2 ∧
      ch2.code = ch.code ++
        [OpCode.OP_JUMP_IF_FALSE.toByte, 255, 255, OpCode.OP_POP.toByte] ∧
      ∀ s3 ch3 rcode, pp PREC_AND s2 = some s3 → currentChunk s3 = some ch3 →
        ch3.code = ch2.code ++ rcode → rcode.length + 1 ≤ UINT16_MAX →
        ∃ s4 ch4, runParseFn H pp fuel .and_ ca s = some s4 ∧ currentChunk s4 = some ch4 ∧
          ch4.code = ch.code ++
            [OpCode.OP_JUMP_IF_FALSE.toByte, ((rcode.length + 1) / 2 ^ 8) % 256,
             (rcode.length + 1) % 256, OpCode.OP_POP.toByte] ++ rcode ∧
          ch4.code.length = ch.code.length + 4 + rcode.length ∧
          ∀ (vm : VM) (more : List Nat) (n : Nat),
            RunsAt vm (ch4.code ++ more) ch.code.length →
            (isFalsey (peek vm 0) = true →
              runTurns H (n + 1) vm = runTurns H n (setFrameIp vm ch4.code.length) ∧
              RunsAt (setFrameIp vm ch4.code.length) (ch4.code ++ more) ch4.code.length ∧
              peek (setFrameIp vm ch4.code.length) 0 = peek vm 0 ∧
              (setFrameIp vm ch4.code.length).current.stack = vm.current.stack ∧
              (setFrameIp vm ch4.code.length).current.stackTop = vm.current.stackTop) ∧
            (isFalsey (peek vm 0) = false →
              runTurns H (n + 2) vm =
                runTurns H n (pop (setFrameIp vm (ch.code.length + 4))).2 ∧
              RunsAt (pop (setFrameIp vm (ch.code.length + 4))).2 (ch4.code ++ more)
                (ch.code.length + 4) ∧
              (pop (setFrameIp vm (ch.code.length + 4))).2.current.stack = vm.current.stack ∧
              (pop (setFrameIp vm (ch.code.length + 4))).2.current.stackTop =
                vm.current.stackTop - 1)) ∧
    (∃ s2 ch2, currentChunk s2 = some ch2 ∧
      ch2.code = ch.code ++
        [OpCode.OP_JUMP_IF_FALSE.toByte, 0, 3, OpCode.OP_JUMP.toByte, 255, 255,
         OpCode.OP_POP.toByte] ∧
      ∀ s3 ch3 rcode, pp PREC_OR s2 = some s3 → currentChunk s3 = some ch3 →
        ch3.code = ch2.code ++ rcode → rcode.length + 1 ≤ UINT16_MAX →
        ∃ s4 ch4, runParseFn H pp fuel .or_ ca s = some s4 ∧ currentChunk s4 = some ch4 ∧
          ch4.code = ch.code ++
            [OpCode.OP_JUMP_IF_FALSE.toByte, 0, 3, OpCode.OP_JUMP.toByte,
             ((rcode.length + 1) / 2 ^ 8) % 256, (rcode.length + 1) % 256,
             OpCode.OP_POP.toByte] ++ rcode ∧
          ch4.code.length = ch.code.length + 7 + rcode.length ∧
          ∀ (vm : VM) (more : List Nat) (n : Nat),
            RunsAt vm (ch4.code ++ more) ch.code.length →
            (isFalsey (peek vm 0) = false →
              runTurns H (n + 2) vm = runTurns H n (setFrameIp vm ch4.code.length) ∧
              RunsAt (setFrameIp vm ch4.code.length) (ch4.code ++ more) ch4.code.length ∧
              peek (setFrameIp vm ch4.code.length) 0 = peek vm 0 ∧
              (setFrameIp vm ch4.code.length).current.stack = vm.current.stack ∧
              (setFrameIp vm ch4.code.length).current.stackTop = vm.current.stackTop) ∧
            (isFalsey (peek vm 0) = true →
              runTurns H (n + 2) vm =
                runTurns H n (pop (setFrameIp vm (ch.code.length + 7))).2 ∧
              RunsAt (pop (setFrameIp vm (ch.code.length + 7))).2 (ch4.code ++ more)
                (ch.code.length + 7) ∧
              (pop (setFrameIp vm (ch.code.length + 7))).2.current.stack = vm.current.stack ∧
              (pop (setFrameIp vm (ch.code.length + 7))).2.current.stackTop =
                vm.current.stackTop - 1)) := by
  have e8 : (3 : Nat) / 2 ^ 8 % 256 = 0 := by norm_num
  constructor
  · obtain ⟨s2, ch2, hch2, _, _, hc2, _, hrest⟩ := and_chunk H pp fuel ca s ch hch
    refine ⟨s2, ch2, hch2, hc2, ?_⟩
    intro s3 ch3 rcode h3 hch3 hcode3 hlen
    obtain ⟨s4, ch4, h4, hch4, _, _, _, hcode4⟩ := hrest s3 ch3 rcode h3 hch3 hcode3 hlen
    have hl4 : ch4.code.length = ch.code.length + 4 + rcode.length := by
      rw [hcode4]
      simp only [List.length_append, List.length_cons, List.length_nil]
    refine ⟨s4, ch4, h4, hch4, hcode4, hl4, ?_⟩
    intro vm more n hr
    obtain ⟨frame, hlast⟩ : ∃ frame, vm.current.frames.getLast? = some frame := by
      obtain ⟨frame, _, _, _, _, _, g1, _⟩ := hr
      exact ⟨frame, g1⟩
    have hcode : ch4.code ++ more = ch.code ++
        [OpCode.OP_JUMP_IF_FALSE.toByte, ((rcode.length + 1) / 2 ^ 8) % 256,
         (rcode.length + 1) % 256, OpCode.OP_POP.toByte] ++ (rcode ++ more) := by
      rw [hcode4, List.append_assoc]
    have g0 := getD_append_mid ch.code
      [OpCode.OP_JUMP_IF_FALSE.toByte, ((rcode.length + 1) / 2 ^ 8) % 256,
       (rcode.length + 1) % 256, OpCode.OP_POP.toByte] (rcode ++ more) 0 (by simp)
    have g1 := getD_append_mid ch.code
      [OpCode.OP_JUMP_IF_FALSE.toByte, ((rcode.length + 1) / 2 ^ 8) % 256,
       (rcode.length + 1) % 256, OpCode.OP_POP.toByte] (rcode ++ more) 1 (by simp)
    have g2 := getD_append_mid ch.code
      [OpCode.OP_JUMP_IF_FALSE.toByte, ((rcode.length + 1) / 2 ^ 8) % 256,
       (rcode.length + 1) % 256, OpCode.OP_POP.toByte] (rcode ++ more) 2 (by simp)
    have g3 := getD_append_mid ch.code
      [OpCode.OP_JUMP_IF_FALSE.toByte, ((rcode.length + 1) / 2 ^ 8) % 256,
       (rcode.length + 1) % 256, OpCode.OP_POP.toByte] (rcode ++ more) 3 (by simp)
    rw [← hcode] at g0 g1 g2 g3
    have hstep := fun m => step_OP_JUMP_IF_FALSE H hr g0 hlen g1 g2 m
    have htarget : ch.code.length + 3 + (rcode.length + 1) = ch4.code.length := by
      rw [hl4]
      omega
    rw [htarget] at hstep
    constructor
    · intro hf
      refine ⟨?_, hr.move _, peek_setFrameIp _ _ _, (setFrameIp_fields _ _).2.1,
        (setFrameIp_fields _ _).2.2.1⟩
      rw [hstep n, hf, if_pos rfl]
    · intro hf
      have hrA := hr.move (ch.code.length + 3)
      have hpop := step_OP_POP H hrA g3 n
      rw [setFrameIp_twice hlast] at hpop
      refine ⟨?_, (hr.move _).after_pop, (setFrameIp_fields _ _).2.1, ?_⟩
      · rw [hstep (n + 1), hf]
        simp only [Bool.false_eq_true, if_false]
        exact hpop
      · show (setFrameIp vm (ch.code.length + 4)).current.stackTop - 1 = _
        rw [(setFrameIp_fields _ _).2.2.1]
  · obtain ⟨s2, ch2, hch2, _, _, hc2, _, hrest⟩ := or_chunk H pp fuel ca s ch hch
    refine ⟨s2, ch2, hch2, hc2, ?_⟩
    intro s3 ch3 rcode h3 hch3 hcode3 hlen
    obtain ⟨s4, ch4, h4, hch4, _, _, _, hcode4⟩ := hrest s3 ch3 rcode h3 hch3 hcode3 hlen
    have hl4 : ch4.code.length = ch.code.length + 7 + rcode.length := by
      rw [hcode4]
      simp only [List.length_append, List.length_cons, List.length_nil]
    refine ⟨s4, ch4, h4, hch4, hcode4, hl4, ?_⟩
    intro vm more n hr
    obtain ⟨frame, hlast⟩ : ∃ frame, vm.current.frames.getLast? = some frame := by
      obtain ⟨frame, _, _, _, _, _, g1, _⟩ := hr
      exact ⟨frame, g1⟩
    have hcode : ch4.code ++ more = ch.code ++
        [OpCode.OP_JUMP_IF_FALSE.toByte, 0, 3, OpCode.OP_JUMP.toByte,
         ((rcode.length + 1) / 2 ^ 8) % 256, (rcode.length + 1) % 256,
         OpCode.OP_POP.toByte] ++ (rcode ++ more) := by
      rw [hcode4, List.append_assoc]
    have g := fun k hk => getD_append_mid ch.code
      [OpCode.OP_JUMP_IF_FALSE.toByte, 0, 3, OpCode.OP_JUMP.toByte,
       ((rcode.length + 1) / 2 ^ 8) % 256, (rcode.length + 1) % 256,
       OpCode.OP_POP.toByte] (rcode ++ more) k hk
    rw [← hcode] at g
    have hstep := fun m => step_OP_JUMP_IF_FALSE (j := 3) H hr (g 0 (by simp)) (by decide)
      ((g 1 (by simp)).trans e8.symm) (g 2 (by simp)) m
    constructor
    · intro hf
      have hrA := hr.move (ch.code.length + 3)
      have hjump := step_OP_JUMP H hrA (g 3 (by simp)) hlen (g 4 (by simp)) (g 5 (by simp)) n
      rw [setFrameIp_twice hlast] at hjump
      have htarget : ch.code.length + 3 + 3 + (rcode.length + 1) = ch4.code.length := by
        rw [hl4]
        omega
      rw [htarget] at hjump
      refine ⟨?_, hr.move _, peek_setFrameIp _ _ _, (setFrameIp_fields _ _).2.1,
        (setFrameIp_fields _ _).2.2.1⟩
      rw [hstep (n + 1), hf]
      simp only [Bool.false_eq_true, if_false]
      exact hjump
    · intro hf
      have hrA := hr.move (ch.code.length + 3 + 3)
      have hpop := step_OP_POP H hrA (g 6 (by simp)) n
      rw [setFrameIp_twice hlast] at hpop
      refine ⟨?_, (hr.move _).after_pop, (setFrameIp_fields _ _).2.1, ?_⟩
      · rw [hstep (n + 1), hf, if_pos rfl]
        exact hpop
      · show (setFrameIp vm (ch.code.length + 7)).current.stackTop - 1 = _
        rw [(setFrameIp_fields _ _).2.2.1]

/-- C34 at jumpState with `true` as the right operand of `and`: the code that `and_`
leaves, and its run on a machine whose top of stack is not falsey. -/
theorem short_circuit_lowering_witness :
    ∃ s4 ch4,
      runParseFn exampleHost (fun _ t => emitByte t OpCode.OP_TRUE.toByte) 0 .and_ false
        jumpState = some s4 ∧
      currentChunk s4 = some ch4 ∧
      ch4.code = jumpFunction.chunk.code ++
        [OpCode.OP_JUMP_IF_FALSE.toByte, 0, 2, OpCode.OP_POP.toByte] ++
        [OpCode.OP_TRUE.toByte] ∧
      runTurns exampleHost 2
          (setFrameIp (scriptVM ch4.code ch4.constants) jumpFunction.chunk.code.length) =
        runTurns exampleHost 0
          (pop (setFrameIp
            (setFrameIp (scriptVM ch4.code ch4.constants) jumpFunction.chunk.code.length)
            (jumpFunction.chunk.code.length + 4))).2 := by
  obtain ⟨s2, ch2, hch2, _, hrest⟩ :=
    (short_circuit_lowering exampleHost (fun _ t => emitByte t OpCode.OP_TRUE.toByte) 0 false
      jumpState jumpFunction.chunk rfl).1
  obtain ⟨s3, ch3, h3, _, _, hch3, hcode3, _⟩ :=
    emitByte_chunk s2 ch2 OpCode.OP_TRUE.toByte hch2
  obtain ⟨s4, ch4, h4, hch4, hcode4, _, hrun⟩ :=
    hrest s3 ch3 [OpCode.OP_TRUE.toByte % 256] h3 hch3 hcode3 (by decide)
  exact ⟨s4, ch4, h4, hch4, hcode4,
    ((hrun _ [] 0 (scriptVM_runsAt ch4.code ch4.constants jumpFunction.chunk.code.length)).2
      rfl).1⟩

/-- In a list of locals whose depths do not grow, nothing behind the first local of depth
at most `depth` is deeper. -/
theorem dropWhile_shallow (depth : Int) :
    ∀ rev : List Local, rev.Pairwise (fun a b => b.depth ≤ a.depth) →
      ∀ l ∈ rev.dropWhile (fun l => decide (l.depth > depth)), l.depth ≤ depth := by
  intro rev
  induction rev with
  | nil => intro _ l hl; simp at hl
  | cons a t ih =>
    intro hp l hl
    rw [List.pairwise_cons] at hp
    by_cases ha : a.depth > depth
    · simp only [List.dropWhile_cons, ha, decide_True, if_true] at hl
      exact ih hp.2 l hl
    · simp only [List.dropWhile_cons, ha, decide_False, Bool.false_eq_true, if_false,
        List.mem_cons] at hl
      rcases hl with rfl | hl
      · omega
      · have := hp.1 l hl
        omega

/-- C35: endScope in a compiler of scope depth `d > 0` whose locals are stored by
non-decreasing depth, none deeper than `d`.  It returns; the locals are split as `kept`
followed by `removed`, where `removed` are the locals of depth `d` and `kept` those of a
smaller depth; the compiler keeps `kept`, its scope depth is `d - 1`, no local left is
deeper than that, and the code has grown by one byte for each removed local, the last local
first: OP_UPVALUE_CLOSE if the local is captured, OP_POP otherwise.  Nothing else of the
compiler, the parser or the messages changes. -/
theorem endScope_pops_scope_locals (s : CompileState) (c : Compiler) (rest : List Compiler)
    (o : Obj) (f : ObjFunction) (hc : s.compilers = c :: rest)
    (hg : heapGet s.vm.heap c.function = some o) (hd : o.data = .function f)
    (hpos : 0 < c.scopeDepth)
    (hsorted : c.locals.Pairwise (fun a b => a.depth ≤ b.depth))
    (hmax : ∀ l ∈ c.locals, l.depth ≤ (c.scopeDepth : Int)) :
    ∃ s1 c1 o1 f1 kept removed, endScope s = some s1 ∧ s1.compilers = c1 :: rest ∧
      c.locals = kept ++ removed ∧
      (∀ l ∈ removed, l.depth = (c.scopeDepth : Int)) ∧
      (∀ l ∈ kept, l.depth < (c.scopeDepth : Int)) ∧
      c1.locals = kept ∧ c1.scopeDepth + 1 = c.scopeDepth ∧
      (∀ l ∈ c1.locals, l.depth ≤ (c1.scopeDepth : Int)) ∧
      c1.function = c.function ∧ c1.type = c.type ∧ c1.upvalues = c.upvalues ∧
      heapGet s1.vm.heap c.function = some o1 ∧ o1.data = .function f1 ∧
      f1.chunk.code = f.chunk.code ++
        removed.reverse.map (fun l =>
          if l.isCaptured then OpCode.OP_UPVALUE_CLOSE.toByte else OpCode.OP_POP.toByte) ∧
      f1.chunk.code.length = f.chunk.code.length + removed.length ∧
      f1.chunk.constants = f.chunk.constants ∧
      s1.parser = s.parser ∧ s1.errors = s.errors := by
  let c0 : Compiler := { c with scopeDepth := c.scopeDepth - 1 }
  let s0 : CompileState := { s with compilers := c0 :: rest }
  have hs0 : setCurrent s (fun c => { c with scopeDepth := c.scopeDepth - 1 }) = s0 := by
    simp only [setCurrent, hc]
  obtain ⟨s1, o1, f1, h1, hc1, hp1, he1, hg1, hd1, hcode1, hconst1, _⟩ :=
    endScopeLoop_spec ((c.scopeDepth : Int) - 1) rest c.locals.reverse s0 c0 o f rfl rfl hg hd
  have hsplit : c.locals =
      (c.locals.reverse.dropWhile
          (fun l => decide (l.depth > (c.scopeDepth : Int) - 1))).reverse ++
        (c.locals.reverse.takeWhile
          (fun l => decide (l.depth > (c.scopeDepth : Int) - 1))).reverse := by
    rw [← List.reverse_append, List.takeWhile_append_dropWhile, List.reverse_reverse]
  have hrevSorted : c.locals.reverse.Pairwise (fun a b => b.depth ≤ a.depth) :=
    List.pairwise_reverse.mpr hsorted
  have hkept : ∀ l ∈ (c.locals.reverse.dropWhile
      (fun l => decide (l.depth > (c.scopeDepth : Int) - 1))).reverse,
      l.depth ≤ (c.scopeDepth : Int) - 1 := by
    intro l hl
    exact dropWhile_shallow _ _ hrevSorted l (List.mem_reverse.mp hl)
  have hremoved : ∀ l ∈ (c.locals.reverse.takeWhile
      (fun l => decide (l.depth > (c.scopeDepth : Int) - 1))).reverse,
      l.depth = (c.scopeDepth : Int) := by
    intro l hl
    have hl' := List.mem_reverse.mp hl
    have h1 := List.mem_takeWhile_imp hl'
    have h2 := hmax l (List.mem_reverse.mp ((List.takeWhile_sublist _).subset hl'))
    simp only [decide_eq_true_eq] at h1
    omega
  refine ⟨s1, _, o1, f1, _, _, ?_, hc1, hsplit, hremoved, ?_, rfl, ?_, ?_, rfl, rfl, rfl, hg1,
    hd1, ?_, ?_, hconst1, hp1, he1⟩
  · unfold endScope
    rw [hc]
    simp only [hs0]
    exact h1
  · intro l hl
    have := hkept l hl
    omega
  · show c.scopeDepth - 1 + 1 = c.scopeDepth
    omega
  · intro l hl
    have := hkept l hl
    show l.depth ≤ ((c.scopeDepth - 1 : Nat) : Int)
    omega
  · rw [hcode1, List.reverse_reverse]
  · rw [hcode1]
    simp

/-- C35 at scopeState: the locals `b` (captured) and `c` of depth 2 go, `c` first. -/
theorem endScope_pops_scope_locals_witness :
    ∃ s1 c1 o1 f1, endScope scopeState = some s1 ∧ s1.compilers = [c1] ∧
      c1.locals = [{ name := [], depth := 0, isCaptured := false },
                   { name := [97], depth := 1, isCaptured := false }] ∧
      c1.scopeDepth = 1 ∧
      heapGet s1.vm.heap 0 = some o1 ∧ o1.data = .function f1 ∧
      f1.chunk.code = jumpFunction.chunk.code ++
        [OpCode.OP_POP.toByte, OpCode.OP_UPVALUE_CLOSE.toByte] := by
  obtain ⟨s1, c1, o1, f1, kept, removed, h1, hc1, hsplit, hrem, hkept, hl1, hdep, _, _, _, _, hg1,
      hd1, hcode, _⟩ :=
    endScope_pops_scope_locals scopeState scopeCompiler [] jumpObject jumpFunction rfl rfl rfl
      (by decide) (by decide) (by decide)
  have hs : endScope scopeState = some s1 := h1
  have hval : endScope scopeState = some
      { scopeState with
        vm := { scopeState.vm with
                heap := [some { jumpObject with
                                data := .function
                                  { jumpFunction with
                                    chunk := { jumpFunction.chunk with
                                               code := jumpFunction.chunk.code ++ [29, 35]
                                               lines := [1, 1, 1, 1, 1, 1, 1, 1, 1] } } }] }
        compilers := [{ scopeCompiler with
                        locals := [{ name := [], depth := 0, isCaptured := false },
                                   { name := [97], depth := 1, isCaptured := false }]
                        scopeDepth := 1 }] } := by rfl
  rw [hval] at hs
  cases hs
  exact ⟨_, _, _, _, hval, rfl, rfl, rfl, rfl, rfl, rfl⟩

/-- C36: listToString (called through valueToString) for a raw list of at most 10 strings
without NUL that a stack slot points to, on a machine between two collections with the
interning invariant.  The call returns a string.  For the empty list its bytes are `[]` and
its recorded length is 2, as claimed.  For a list with elements the bytes written are the
claimed text (`[`, the elements separated by a comma and a blank, `]`), but the length
handed to takeString counts one separator per element and so is 2 more than the length of
the text: the string recorded is the text followed by the NUL that sprintf wrote and by one
byte of the block that nothing was written to. -/
theorem listToString_recorded_length (H : Host) (S : StringHost) (fuel : Nat) (vm : VM)
    (list : Ref) (o : Obj) (elements : List Value) (capacity i : Nat)
    (forms : List (List Nat)) (hs : Sound vm)
    (hk : internKeysHashed vm.heap vm.strings = true)
    (hu : internUnique vm.heap vm.strings = true)
    (hst : vm.current.stack[i]? = some (.obj list)) (hi : i < vm.current.stackTop)
    (hg : heapGet vm.heap list = some o) (hd : o.data = .list elements capacity)
    (hlen : elements.length ≤ MAX_NUM_VALUES)
    (hforms : elements.map (asString vm.heap) = forms.map some)
    (hnul : ∀ cs ∈ forms, 0 ∉ cs) :
    ∃ vm1 r chars,
      valueToString H S (fuel + 2) vm (.obj list) = some (vm1, .obj r) ∧
      listToString H S (valueToString H S (fuel + 1)) vm list = some (vm1, .obj r) ∧
      stringChars vm1.heap r = some chars ∧
      (elements = [] → chars = listText [] ∧ chars.length = 2) ∧
      (elements ≠ [] →
        chars = listText forms ++ [0, S.fresh ((listText forms).length + 1)] ∧
        chars.length = (listText forms).length + 2) := by
  have hconv := listConvertLoop_strings H S fuel hg hd elements forms [] [] 0 rfl hforms
  simp only [List.length_nil, List.nil_append, Nat.zero_add] at hconv
  obtain ⟨vm2, h2, c2, k2, s2⟩ := reallocate_full H vm 0
    (S.sizeofChar * ((forms.map (fun f => f.length + strItemSepLen_)).sum + 2 + 1)) hs
  have hforms2 : elements.map (asString vm2.heap) = forms.map some := by
    rw [← hforms]
    apply List.map_congr_left
    intro e he
    have hsome : ∃ cs, asString vm.heap e = some cs := by
      have hmem : asString vm.heap e ∈ elements.map (asString vm.heap) :=
        List.mem_map_of_mem _ he
      rw [hforms] at hmem
      obtain ⟨cs, _, hcs⟩ := List.mem_map.mp hmem
      exact ⟨cs, hcs.symm⟩
    obtain ⟨cs, hcs⟩ := hsome
    rw [hcs]
    exact asString_kept k2 hst hi hg hd e he cs hcs
  have hwrite := listWriteLoop_strings vm2.heap elements forms hforms2 hnul
  obtain ⟨hk2, hu2, _⟩ := intern_collected c2 hk hu
  have hlenf : forms.length = elements.length := by
    have := congrArg List.length hforms
    simpa using this.symm
  have hrun : ∀ chars, (writtenBuffer S ((forms.map (fun f => f.length + strItemSepLen_)).sum
        + 2 + 1) ([91] ++ joinForms strItemSep_ forms ++ [93])).map
        (fun b => b.take ((forms.map (fun f => f.length + strItemSepLen_)).sum + 2)) =
        some chars →
      ∃ vm1 r, valueToString H S (fuel + 2) vm (.obj list) = some (vm1, .obj r) ∧
        listToString H S (valueToString H S (fuel + 1)) vm list = some (vm1, .obj r) ∧
        stringChars vm1.heap r = some chars := by
    intro chars hb
    obtain ⟨vm3, r, h3, hq⟩ := takeString_spec H vm2 chars s2.1 hk2 hu2
    have hlist : listToString H S (valueToString H S (fuel + 1)) vm list =
        some (vm3, .obj r) := by
      cases hw : writtenBuffer S ((forms.map (fun f => f.length + strItemSepLen_)).sum + 2 + 1)
          ([91] ++ joinForms strItemSep_ forms ++ [93]) with
      | none =>
        rw [hw] at hb
        cases hb
      | some buffer =>
        rw [hw] at hb
        simp only [Option.map_some', Option.some.injEq] at hb
        unfold listToString
        simp only [hg, hd]
        rw [if_neg (Nat.not_lt.mpr hlen), hconv]
        simp only []
        rw [h2]
        simp only []
        rw [hwrite]
        simp only []
        rw [hw]
        simp only []
        rw [hb, h3]
    refine ⟨vm3, r, ?_, hlist, hq.2.2.1⟩
    simp only [valueToString, objectToString, hg, hd]
    exact hlist
  cases hf : forms with
  | nil =>
    have he : elements = [] := List.length_eq_zero.mp (by rw [← hlenf, hf]; rfl)
    subst hf
    obtain ⟨vm1, r, h1, h1', hc⟩ := hrun [91, 93] (by rfl)
    exact ⟨vm1, r, _, h1, h1', hc, fun _ => ⟨rfl, rfl⟩, fun hne => absurd he hne⟩
  | cons f fs =>
    have hne : elements ≠ [] := by
      intro he
      rw [he, hf] at hlenf
      simp at hlenf
    have hsum := joinForms_length strItemSep_ forms (by rw [hf]; simp)
    have hsep : strItemSep_.length = strItemSepLen_ := rfl
    rw [hsep] at hsum
    have h2len : strItemSepLen_ = 2 := rfl
    have htext : (listText forms).length = (joinForms strItemSep_ forms).length + 2 := by
      simp only [listText, List.length_append, List.length_singleton]
      omega
    rw [← hf]
    obtain ⟨vm1, r, h1, h1', hc⟩ :=
      hrun (listText forms ++ [0, S.fresh ((listText forms).length + 1)]) (by
        have htl : ([91] ++ joinForms strItemSep_ forms ++ [93]).length + 2 =
            (forms.map (fun f => f.length + strItemSepLen_)).sum + 2 := by
          simp only [List.length_append, List.length_singleton]
          omega
        rw [← htl]
        simp only [writtenBuffer, listText]
        rw [if_pos (by omega)]
        simp only [Option.map_some', Option.some.injEq]
        have hr : ([91] ++ joinForms strItemSep_ forms ++ [93]).length + 2 + 1 -
            (([91] ++ joinForms strItemSep_ forms ++ [93]).length + 1) = 2 := by omega
        rw [hr]
        simp [List.range_succ, List.take_append_eq_append_take])
    refine ⟨vm1, r, _, h1, h1', hc, fun he => absurd he hne, fun _ => ⟨rfl, ?_⟩⟩
    simp

/-- C36 at the lists of formsVM: `[a, bc]` is recorded as the 7 bytes of its text, a NUL and
a byte 170 of the fresh block, with length 9; `[a]` with length 5; `[]` with length 2. -/
theorem listToString_recorded_length_witness :
    (∃ vm1 r, valueToString exampleHost exampleStringHost 2 formsVM (.obj 5) =
        some (vm1, .obj r) ∧
      stringChars vm1.heap r = some [91, 97, 44, 32, 98, 99, 93, 0, 170]) ∧
    listText [[97], [98, 99]] = [91, 97, 44, 32, 98, 99, 93] ∧
    formOutcome (valueToString exampleHost exampleStringHost 2 formsVM (.obj 5)) =
      some ([91, 97, 44, 32, 98, 99, 93, 0, 170], 9) ∧
    formOutcome (valueToString exampleHost exampleStringHost 2 formsVM (.obj 4)) =
      some ([91, 97, 93, 0, 170], 5) ∧
    formOutcome (valueToString exampleHost exampleStringHost 2 formsVM (.obj 3)) =
      some ([91, 93], 2) := by
  refine ⟨?_, by decide, by decide, by decide, by decide⟩
  obtain ⟨vm1, r, chars, h1, _, hc, _, hne⟩ :=
    listToString_recorded_length exampleHost exampleStringHost 0 formsVM 5 _
      [.obj 0, .obj 1] 8 2 [[97], [98, 99]] ⟨⟨rfl, rfl, rfl⟩, rfl, rfl⟩ (by decide) (by decide)
      rfl (by decide) rfl rfl (by decide) (by decide) (by decide)
  refine ⟨vm1, r, h1, ?_⟩
  rw [hc, (hne (by decide)).1]
  rfl

/-- C37: tableToString (called through valueToString) on the raw tables of formsVM.  The
table with the one entry `a: bc` gives the text `{a: bc}`.  The table with the two entries
`a: bc` and `bc: d` gives the same text `{a: bc}`: the entry `bc: d` is missing, because
`numValues` counts entries while the loops count keys and values.  The table with three
entries gives the text of its first two entries.  In each case the string recorded is the
text followed by the NUL that sprintf wrote and by bytes of the block that nothing was
written to, up to the length handed to takeString. -/
theorem tableToString_drops_entries :
    formOutcome (valueToString exampleHost exampleStringHost 2 formsVM (.obj 6)) =
      some (tableText [([97], [98, 99])] ++ [0, 170], 9) ∧
    formOutcome (valueToString exampleHost exampleStringHost 2 formsVM (.obj 7)) =
      some (tableText [([97], [98, 99])] ++ [0, 170], 9) ∧
    tableText [([97], [98, 99])] = [123, 97, 58, 32, 98, 99, 125] ∧
    tableText [([97], [98, 99]), ([98, 99], [100])] =
      [123, 97, 58, 32, 98, 99, 44, 32, 98, 99, 58, 32, 100, 125] ∧
    formOutcome (valueToString exampleHost exampleStringHost 2 formsVM (.obj 8)) =
      some (tableText [([97], [98, 99]), ([98, 99], [100])] ++ 0 :: List.replicate 7 170, 22) ∧
    (formOutcome (valueToString exampleHost exampleStringHost 2 formsVM (.obj 7))).map
        (fun p => printChars p.1) =
      some (tableText [([97], [98, 99])]) := by
  refine ⟨by decide, by decide, by decide, by decide, by decide, by decide⟩

/-- C38: `_list_insert_` called with a raw list `xs`, an integer index `i` and a value `v`
as its arguments, on a machine between two collections.  The native returns nil.  If
`0 <= i <= length(xs)` the list is afterwards the first `i` elements of `xs`, then `v`, then
the remaining elements of `xs`, of length `length(xs) + 1`; otherwise the machine is
unchanged.  The fiber (stack and frames) is unchanged in every case. -/
theorem list_insert_places_value (H : Host) (vm : VM) (argv : Nat) (list : Ref) (o : Obj)
    (xs : List Value) (cap : Nat) (i : Int) (v : Value) (hs : Sound vm)
    (h0 : vm.current.stack[argv]? = some (.obj list))
    (h1 : vm.current.stack[argv + 1]? = some (.number i))
    (h2 : vm.current.stack[argv + 2]? = some v)
    (htop : argv < vm.current.stackTop)
    (hg : heapGet vm.heap list = some o) (hd : o.data = .list xs cap) :
    ∃ vm1 o1, _list_insert_ H vm argv = some (.nil, vm1) ∧ vm1.current = vm.current ∧
      heapGet vm1.heap list = some o1 ∧
      (0 ≤ i ∧ i ≤ (xs.length : Int) →
        ∃ ys cap1, o1.data = .list ys cap1 ∧ ys = xs.take i.toNat ++ v :: xs.drop i.toNat ∧
          ys.length = xs.length + 1 ∧ ys[i.toNat]? = some v ∧
          (∀ j, j < i.toNat → ys[j]? = xs[j]?) ∧ (∀ j, i.toNat ≤ j → ys[j + 1]? = xs[j]?)) ∧
      (¬ (0 ≤ i ∧ i ≤ (xs.length : Int)) → vm1 = vm) := by
  obtain ⟨vm1, o1, hr, hcur, hg1, hin, hout⟩ :=
    list_insert_run H vm argv list o xs cap i v hs h0 h1 h2 htop hg hd
  refine ⟨vm1, o1, hr, hcur, hg1, fun h => ?_, fun h => (hout h).1⟩
  obtain ⟨cap1, hd1⟩ := hin h
  have hk : i.toNat ≤ xs.length := by omega
  have hlt : (xs.take i.toNat).length = i.toNat := by simp [hk]
  refine ⟨_, cap1, hd1, rfl, ?_, ?_, ?_, ?_⟩
  · simp only [List.length_append, List.length_cons, List.length_take, List.length_drop]
    omega
  · rw [List.getElem?_append, if_neg (by omega), hlt, Nat.sub_self]
    simp
  · intro j hj
    rw [List.getElem?_append, if_pos (by omega), List.getElem?_take, if_pos hj]
  · intro j hj
    rw [List.getElem?_append, if_neg (by omega), hlt]
    have : j + 1 - i.toNat = (j - i.toNat) + 1 := by omega
    rw [this, List.getElem?_cons_succ, List.getElem?_drop]
    congr 1
    omega

/-- C38 for the list 10, 20, 30 in a full array: 15 inserted at index 1, and an index out
of range. -/
theorem list_insert_places_value_witness :
    (∃ vm1 o1, _list_insert_ exampleHost (listVM [.number 10, .number 20, .number 30] 3 1
          (.number 15)) 1 = some (.nil, vm1) ∧
        heapGet vm1.heap 0 = some o1 ∧
        ∃ cap1, o1.data = .list [.number 10, .number 15, .number 20, .number 30] cap1) ∧
    (∃ vm1, _list_insert_ exampleHost (listVM [.number 10, .number 20, .number 30] 3 4
          (.number 15)) 1 = some (.nil, vm1) ∧
        vm1 = listVM [.number 10, .number 20, .number 30] 3 4 (.number 15)) := by
  constructor
  · obtain ⟨vm1, o1, hr, _, hg1, hin, _⟩ :=
      list_insert_places_value exampleHost (listVM [.number 10, .number 20, .number 30] 3 1
        (.number 15)) 1 0 _ [.number 10, .number 20, .number 30] 3 1 (.number 15)
        ⟨⟨rfl, rfl, rfl⟩, rfl, rfl⟩ rfl rfl rfl (by decide) rfl rfl
    obtain ⟨ys, cap1, hd1, hys, _⟩ := hin (by decide)
    exact ⟨vm1, o1, hr, hg1, cap1, by rw [hd1, hys]; rfl⟩
  · obtain ⟨vm1, o1, hr, _, _, _, hout⟩ :=
      list_insert_places_value exampleHost (listVM [.number 10, .number 20, .number 30] 3 4
        (.number 15)) 1 0 _ [.number 10, .number 20, .number 30] 3 4 (.number 15)
        ⟨⟨rfl, rfl, rfl⟩, rfl, rfl⟩ rfl rfl rfl (by decide) rfl rfl
    exact ⟨vm1, hr, hout (by decide)⟩

/-- C39: `_list_del_` called with a raw list `xs` and an integer index `i` as its
arguments.  The native returns nil.  If `0 <= i < length(xs)` the list is afterwards `xs`
without the element at position `i`, the other elements in their order, of length
`length(xs) - 1`; otherwise the machine is unchanged.  And when `_list_insert_` has run
with the same arguments and a value, for `0 <= i <= length(xs)`, on a machine between two
collections, `_list_del_` on the machine it leaves gives the list `xs` back. -/
theorem list_del_removes_element (vm : VM) (argv : Nat) (list : Ref) (o : Obj)
    (xs : List Value) (cap : Nat) (i : Int)
    (h0 : vm.current.stack[argv]? = some (.obj list))
    (h1 : vm.current.stack[argv + 1]? = some (.number i))
    (hg : heapGet vm.heap list = some o) (hd : o.data = .list xs cap) :
    (∃ vm1 o1, _list_del_ vm argv = some (.nil, vm1) ∧ vm1.current = vm.current ∧
      heapGet vm1.heap list = some o1 ∧
      (0 ≤ i ∧ i < (xs.length : Int) →
        ∃ ys, o1.data = .list ys cap ∧ ys = xs.take i.toNat ++ xs.drop (i.toNat + 1) ∧
          ys.length = xs.length - 1 ∧
          (∀ j, j < i.toNat → ys[j]? = xs[j]?) ∧ (∀ j, i.toNat ≤ j → ys[j]? = xs[j + 1]?)) ∧
      (¬ (0 ≤ i ∧ i < (xs.length : Int)) → vm1 = vm)) ∧
    (∀ (H : Host) (v : Value), Sound vm → vm.current.stack[argv + 2]? = some v →
      argv < vm.current.stackTop → 0 ≤ i ∧ i ≤ (xs.length : Int) →
      ∃ vmI vmD oD capD, _list_insert_ H vm argv = some (.nil, vmI) ∧
        _list_del_ vmI argv = some (.nil, vmD) ∧
        heapGet vmD.heap list = some oD ∧ oD.data = .list xs capD) := by
  constructor
  · obtain ⟨vm1, o1, hr, hcur, hg1, hin, hout⟩ := list_del_run vm argv list o xs cap i h0 h1 hg hd
    refine ⟨vm1, o1, hr, hcur, hg1, fun h => ?_, fun h => (hout h).1⟩
    have hk : i.toNat < xs.length := by omega
    refine ⟨_, hin h, List.eraseIdx_eq_take_drop_succ _ _, ?_, ?_, ?_⟩
    · rw [List.length_eraseIdx, if_pos hk]
    · intro j hj
      rw [List.getElem?_eraseIdx, if_pos hj]
    · intro j hj
      rw [List.getElem?_eraseIdx, if_neg (by omega)]
  · intro H v hs h2 htop hin
    obtain ⟨vmI, oI, hrI, hcurI, hgI, hinI, _⟩ :=
      list_insert_run H vm argv list o xs cap i v hs h0 h1 h2 htop hg hd
    obtain ⟨capI, hdI⟩ := hinI hin
    obtain ⟨vmD, oD, hrD, _, hgD, hinD, _⟩ :=
      list_del_run vmI argv list oI (xs.take i.toNat ++ v :: xs.drop i.toNat) capI i
        (by rw [hcurI]; exact h0) (by rw [hcurI]; exact h1) hgI hdI
    have hk : i.toNat ≤ xs.length := by omega
    have hlen : (xs.take i.toNat ++ v :: xs.drop i.toNat).length = xs.length + 1 := by
      simp only [List.length_append, List.length_cons, List.length_take, List.length_drop]
      omega
    refine ⟨vmI, vmD, oD, capI, hrI, hrD, hgD, ?_⟩
    rw [hinD ⟨hin.1, by rw [hlen]; omega⟩, eraseIdx_insert xs i.toNat v hk]

/-- C39 for the list 10, 20, 30: the element at index 1 is removed, an index out of range
changes nothing, and the removal at index 1 undoes the insertion of 15 at index 1. -/
theorem list_del_removes_element_witness :
    (∃ vm1 o1, _list_del_ (listVM [.number 10, .number 20, .number 30] 3 1 (.number 15)) 1 =
          some (.nil, vm1) ∧
        heapGet vm1.heap 0 = some o1 ∧ o1.data = .list [.number 10, .number 30] 3) ∧
    (∃ vmI vmD oD capD,
        _list_insert_ exampleHost (listVM [.number 10, .number 20, .number 30] 3 1
          (.number 15)) 1 = some (.nil, vmI) ∧
        _list_del_ vmI 1 = some (.nil, vmD) ∧
        heapGet vmD.heap 0 = some oD ∧
        oD.data = .list [.number 10, .number 20, .number 30] capD) := by
  have h := list_del_removes_element (listVM [.number 10, .number 20, .number 30] 3 1
    (.number 15)) 1 0 _ [.number 10, .number 20, .number 30] 3 1 rfl rfl rfl rfl
  constructor
  · obtain ⟨vm1, o1, hr, _, hg1, hin, _⟩ := h.1
    obtain ⟨ys, hd1, hys, _⟩ := hin (by decide)
    exact ⟨vm1, o1, hr, hg1, by rw [hd1, hys]; rfl⟩
  · exact h.2 exampleHost (.number 15) ⟨⟨rfl, rfl, rfl⟩, rfl, rfl⟩ rfl (by decide) (by decide)

/-- C40: the frame-count bound.  `frames.length` is `frameCount`.  On a host whose native
functions leave the frame count alone (as the natives `_list_insert_` and `_list_del_` do,
last two parts), from a fiber with 1 <= frameCount <= 64: every step of runSingle that
returns INTERPRET_CONTINUE leaves 1 <= frameCount <= 64, so `frameCount - 1` is an index of
the array of FRAMES_MAX = 64 frames and selects a frame; a step after which frameCount is 0
returned INTERPRET_OK or INTERPRET_RUNTIME_ERROR; the readByte of the loop of run does not
change the count; and the same bounds hold after any number of turns of that loop. -/
theorem frame_count_bounded (H : Host)
    (hn : ∀ f argCount args vm r vm1, H.native f argCount args vm = some (r, vm1) →
      vm1.current.frames.length = vm.current.frames.length)
    (vm : VM) (h1 : 1 ≤ vm.current.frames.length) (h64 : vm.current.frames.length ≤ 64) :
    FRAMES_MAX = 64 ∧
    (∀ fuel instruction r vm1, runSingle H fuel vm instruction = some (r, vm1) →
      (r = .INTERPRET_CONTINUE →
        1 ≤ vm1.current.frames.length ∧ vm1.current.frames.length ≤ 64 ∧
        vm1.current.frames.length - 1 < FRAMES_MAX ∧
        ∃ frame, vm1.current.frames[vm1.current.frames.length - 1]? = some frame) ∧
      (vm1.current.frames.length = 0 →
        r = .INTERPRET_OK ∨ r = .INTERPRET_RUNTIME_ERROR)) ∧
    (∀ b vm0, fetchByte vm = some (b, vm0) →
      vm0.current.frames.length = vm.current.frames.length) ∧
    (∀ n r vm1, runTurns H n vm = some (r, vm1) →
      (r = .INTERPRET_CONTINUE →
        1 ≤ vm1.current.frames.length ∧ vm1.current.frames.length ≤ 64) ∧
      (vm1.current.frames.length = 0 →
        r = .INTERPRET_OK ∨ r = .INTERPRET_RUNTIME_ERROR)) ∧
    (∀ (vm0 : VM) (argv : Nat) (r : Value) (vm1 : VM), _list_insert_ H vm0 argv = some (r, vm1) →
      vm1.current.frames.length = vm0.current.frames.length) ∧
    (∀ (vm0 : VM) (argv : Nat) (r : Value) (vm1 : VM), _list_del_ vm0 argv = some (r, vm1) →
      vm1.current.frames.length = vm0.current.frames.length) := by
  have hmax : FRAMES_MAX = 64 := rfl
  refine ⟨hmax, ?_, fun b vm0 h => fetchByte_frames h, ?_,
    fun vm0 argv r vm1 h => list_insert_frames h, fun vm0 argv r vm1 h => list_del_frames h⟩
  · intro fuel instruction r vm1 h
    rcases runSingle_frames H hn h with ⟨hc, e⟩ | e | e
    · refine ⟨fun _ => ?_, fun h0 => ?_⟩
      · have hlen : 1 ≤ vm1.current.frames.length ∧ vm1.current.frames.length ≤ 64 := by
          rw [hmax] at e
          omega
        refine ⟨hlen.1, hlen.2, by rw [hmax]; omega, ?_⟩
        have hlt : vm1.current.frames.length - 1 < vm1.current.frames.length := by omega
        exact ⟨vm1.current.frames[vm1.current.frames.length - 1], List.getElem?_eq_getElem hlt⟩
      · rw [hmax] at e
        omega
    · exact ⟨fun hc => (by rw [e] at hc; cases hc), fun _ => Or.inl e⟩
    · exact ⟨fun hc => (by rw [e] at hc; cases hc), fun _ => Or.inr e⟩
  · intro n r vm1 h
    rcases runTurns_frames H hn n vm vm1 r h1 (by rw [hmax]; exact h64) h with ⟨hc, e⟩ | e | e
    · rw [hmax] at e
      exact ⟨fun _ => e, fun h0 => by omega⟩
    · exact ⟨fun hc => (by rw [e] at hc; cases hc), fun _ => Or.inl e⟩
    · exact ⟨fun hc => (by rw [e] at hc; cases hc), fun _ => Or.inr e⟩

/-- C40 at callVM, which has two frames, on the host with the list natives: OP_RETURN
leaves one frame and goes on, and after OP_RETURN from the last frame the step returns
INTERPRET_OK with no frame left. -/
theorem frame_count_bounded_witness :
    (1 ≤ callVM.current.frames.length ∧ callVM.current.frames.length ≤ 64) ∧
    (∀ r vm1, runSingle listHost 1 callVM OpCode.OP_RETURN.toByte = some (r, vm1) →
      (r = .INTERPRET_CONTINUE →
        1 ≤ vm1.current.frames.length ∧ vm1.current.frames.length ≤ 64 ∧
        vm1.current.frames.length - 1 < FRAMES_MAX ∧
        ∃ frame, vm1.current.frames[vm1.current.frames.length - 1]? = some frame) ∧
      (vm1.current.frames.length = 0 →
        r = .INTERPRET_OK ∨ r = .INTERPRET_RUNTIME_ERROR)) ∧
    (runSingle listHost 1 callVM OpCode.OP_RETURN.toByte).map
        (fun p => (p.1, p.2.current.frames.length)) = some (.INTERPRET_CONTINUE, 1) ∧
    ((runSingle listHost 1 callVM OpCode.OP_RETURN.toByte).bind
        (fun p => runSingle listHost 1 p.2 OpCode.OP_RETURN.toByte)).map
        (fun p => (p.1, p.2.current.frames.length)) = some (.INTERPRET_OK, 0) :=
  ⟨⟨by decide, by decide⟩,
    fun r vm1 h =>
      (frame_count_bounded listHost listHost_native_frames callVM (by decide) (by decide)).2.1
        1 OpCode.OP_RETURN.toByte r vm1 h,
    by decide, by decide⟩

end Loon
